import Mathlib

/-!
ShapeFilling: occlusion graph (`Depth.h`) and Kahn sorting (`TopologicalSorting.h`),
colour map (`ColorMap.cpp`), segmentation (`ColorSegments.h`) and the linear
system of the inflation (`MatriceSolve.cpp`).

A shallow embedding of the code of the repository.

* `BYTE` ids are natural numbers; the node container `std::vector<Node*>` is a
  `List (Option Node)` whose `none` entries are the null pointers.
* `std::set<BYTE>` is a strictly increasing `List Nat` (`begin()` is the head).
* A dereference of a null or out-of-range slot makes the embedded function
  return `none`.
* `int` fields are `Int`; every counter in this file is bounded by the number
  of edges of the graph, so no wrap-around is involved.
-/

namespace TopologicalSorting

/-- Oriented edge: `struct Edge` of `TopologicalSorting.h`. -/
structure Edge where
  from_ : Nat
  to_ : Nat
  type : Nat
  deriving DecidableEq, Repr

/-- Graph node: `struct Node` of `TopologicalSorting.h`. -/
structure Node where
  edgesOut : List Edge
  incomingEdges : Int
  depth : Int
  edgesUsed : Bool
  deriving DecidableEq, Repr

/-- The constructor `Node()`: no edges, both integers zero, flag cleared. -/
def Node.new : Node := ⟨[], 0, 0, false⟩

/-- The node behind slot `i`; `none` when the slot is null or out of range. -/
def nodeAt (nodes : List (Option Node)) (i : Nat) : Option Node := (nodes[i]?).join

/-- Insertion into a `std::set<BYTE>` kept as a strictly increasing list. -/
def setInsert (x : Nat) : List Nat → List Nat
  | [] => [x]
  | y :: ys => if x < y then x :: y :: ys else if x = y then y :: ys else y :: setInsert x ys

/-- The inner `for` loop of `topologicalSort_Kahn` (lines 86-94): every edge of
the current node takes one incoming edge from its target, and a target whose
counter reaches zero joins the starting nodes. -/
def relaxEdges : List Edge → List (Option Node) → List Nat →
    Option (List (Option Node) × List Nat)
  | [], nodes, S => some (nodes, S)
  | e :: es, nodes, S =>
    match nodeAt nodes e.to_ with
    | none => none
    | some n =>
      let c := n.incomingEdges - 1
      relaxEdges es (nodes.set e.to_ (some { n with incomingEdges := c }))
        (if c = 0 then setInsert e.to_ S else S)

/-- The `while (!startingNodes.empty())` loop of `topologicalSort_Kahn`
(lines 78-97); the first argument bounds the number of iterations. -/
def kahnLoop : Nat → List (Option Node) → List Nat → List Nat →
    Option (List (Option Node) × List Nat × List Nat)
  | _, nodes, [], sorted => some (nodes, [], sorted)
  | 0, _, _ :: _, _ => none
  | fuel + 1, nodes, current :: rest, sorted =>
    match nodeAt nodes current with
    | none => none
    | some n =>
      if n.edgesUsed then kahnLoop fuel nodes rest (sorted ++ [current])
      else
        match relaxEdges n.edgesOut nodes rest with
        | none => none
        | some (nodes1, S1) =>
          match nodeAt nodes1 current with
          | none => none
          | some n1 =>
            kahnLoop fuel (nodes1.set current (some { n1 with edgesUsed := true })) S1
              (sorted ++ [current])

/-- The closing `for` loop of `topologicalSort_Kahn` (lines 98-105): is every
non-null node marked as used? -/
def allUsed (nodes : List (Option Node)) : Bool :=
  nodes.all fun o => match o with
    | none => true
    | some n => n.edgesUsed

/-- Total number of stored edges. -/
def totalEdges (nodes : List (Option Node)) : Nat :=
  (nodes.map fun o => match o with
    | none => 0
    | some n => n.edgesOut.length).sum

/-- Function `topologicalSort_Kahn(nodes, startingNodes, sorted)`: returns the
success flag together with the three containers it mutates in place. The loop
takes at most one iteration per initial starting node and one per edge. -/
def topologicalSort_Kahn (nodes : List (Option Node)) (startingNodes sorted : List Nat) :
    Option (Bool × List (Option Node) × List Nat × List Nat) :=
  match kahnLoop (startingNodes.length + totalEdges nodes) nodes startingNodes sorted with
  | none => none
  | some (nodes1, S1, sorted1) => some (allUsed nodes1, nodes1, S1, sorted1)

end TopologicalSorting

open TopologicalSorting

/-- Two image coordinates: `struct Coordinates` of `defines.h`. -/
structure Coordinates where
  x1 : Int
  y1 : Int
  x2 : Int
  y2 : Int
  deriving DecidableEq, Repr

/-- Integer instance of `vec2<T>` of `defines.h`. -/
structure vec2 where
  x : Int
  y : Int
  deriving DecidableEq, Repr

/-- Struct `RGB` of `Image.h`. The three channels are only stored and copied by
the code embedded here. -/
structure RGB where
  r : Rat
  g : Rat
  b : Rat
  deriving DecidableEq

/-- The data members of `class ColorMap`: the mask and its size, the palette,
the two scribble counts (hard, soft) and the active colour index. -/
structure ColorMap where
  _width : Int
  _height : Int
  _data : List Int
  _colors : List RGB := []
  _scribbleCount : Int × Int := (1, 0)
  _active : Nat := 0
  deriving DecidableEq

/-- Method `ColorMap::getMaskAt(x, y)`: 0 outside of the image. -/
def ColorMap.getMaskAt (c : ColorMap) (x y : Int) : Int :=
  if x < 0 ∨ x ≥ c._width ∨ y < 0 ∨ y ≥ c._height then 0
  else c._data.getD (y * c._width + x).toNat 0

/-- The data members of `class Depth`. -/
structure Depth where
  graphicData : List Coordinates
  nodes : List (Option Node)
  startingNodes : List Nat
  order : List Nat
  deriving DecidableEq, Repr

namespace Depth

/-- One round of either loop of `init`: register `i` as a starting node and
allocate its node. -/
def initStep (acc : List (Option Node) × List Nat) (i : Nat) : List (Option Node) × List Nat :=
  (acc.1.set i (some Node.new), setInsert (i % 256) acc.2)

/-- Method `init(count)`. -/
def init (d : Depth) (count0 count1 : Nat) : Depth :=
  let a := (List.range count0).foldl initStep (List.replicate 256 none, d.startingNodes)
  let b := ((List.range count1).map (· + 128)).foldl initStep a
  { d with nodes := b.1, startingNodes := b.2 }

/-- Method `reset(count)`; the constructor `Depth(count)` yields the same
state. -/
def reset (_d : Depth) (count0 count1 : Nat) : Depth :=
  init ⟨[], [], [], []⟩ count0 count1

/-- First loop of `computationReset` (lines 128-134): one pass over the slots,
`i` being the index of the first slot of the rest; the index enters the
`std::set<BYTE>` as a `BYTE`. -/
def resetMarks : Nat → List (Option Node) → List Nat → List (Option Node) × List Nat
  | _, [], S => ([], S)
  | i, none :: rest, S =>
    let r := resetMarks (i + 1) rest S
    (none :: r.1, r.2)
  | i, some n :: rest, S =>
    let r := resetMarks (i + 1) rest (setInsert (i % 256) S)
    (some { n with edgesUsed := false, incomingEdges := 0 } :: r.1, r.2)

/-- Innermost loop of `computationReset` (lines 138-149) over the edges of one
node. -/
def countEdges : List Edge → List (Option Node) → List Nat →
    Option (List (Option Node) × List Nat)
  | [], nodes, S => some (nodes, S)
  | e :: es, nodes, S =>
    match nodeAt nodes e.to_ with
    | none => none
    | some n =>
      let c := n.incomingEdges + 1
      countEdges es (nodes.set e.to_ (some { n with incomingEdges := c }))
        (if c = 1 then S.erase e.to_ else S)

/-- Second loop of `computationReset` (lines 136-151). The first argument holds
the slots still to be visited; the loop reads their edge lists only, and no
edge list is written by it, so the slots are taken from the container as it
is when the loop starts. -/
def resetCounts : List (Option Node) → List (Option Node) → List Nat →
    Option (List (Option Node) × List Nat)
  | [], nodes, S => some (nodes, S)
  | none :: rest, nodes, S => resetCounts rest nodes S
  | some n :: rest, nodes, S =>
    match countEdges n.edgesOut nodes S with
    | none => none
    | some (nodes1, S1) => resetCounts rest nodes1 S1

/-- Method `computationReset()`. -/
def computationReset (d : Depth) : Option Depth :=
  let a := resetMarks 0 d.nodes d.startingNodes
  match resetCounts a.1 a.1 a.2 with
  | none => none
  | some (nodes1, S1) => some { d with nodes := nodes1, startingNodes := S1 }

/-- The search of `addEdge` for an edge towards `to` (lines 171-173): the first
hit gets the new type; `none` when there is no such edge. -/
def retype (to_ flag : Nat) : List Edge → Option (List Edge)
  | [] => none
  | e :: es =>
    if e.to_ = to_ then some ({ e with type := flag } :: es)
    else (retype to_ flag es).map (e :: ·)

/-- The relocation loop of `addEdge` (lines 174-182): the first record whose end
points lie in the two regions is overwritten. -/
def relocate (c_map : ColorMap) (from_ to_ : Nat) (c : Coordinates) :
    List Coordinates → List Coordinates
  | [] => []
  | g :: gs =>
    if c_map.getMaskAt (Int.land g.x1 1023) g.y1 = from_ ∧ c_map.getMaskAt g.x2 g.y2 = to_
    then c :: gs else g :: relocate c_map from_ to_ c gs

/-- The record `{coords[0].x | (1024 * flag), coords[0].y, coords[1].x, coords[1].y}`. -/
def record (coords : vec2 × vec2) (flag : Nat) : Coordinates :=
  ⟨Int.lor coords.1.x (1024 * (flag : Int)), coords.1.y, coords.2.x, coords.2.y⟩

/-- Allocation `if (nodes[i] == nullptr) nodes[i] = new Node()`. -/
def materialise (nodes : List (Option Node)) (i : Nat) : List (Option Node) :=
  match nodeAt nodes i with
  | none => nodes.set i (some Node.new)
  | some _ => nodes

/-- Method `addEdge(c_map, from, to, coords, flag)`: the returned flag and the
state left behind. -/
def addEdge (d : Depth) (c_map : ColorMap) (from_ to_ : Nat) (coords : vec2 × vec2)
    (flag : Nat) : Option (Bool × Depth) :=
  if from_ = to_ ∨ from_ = 0 ∨ to_ = 0 then some (false, d)
  else
    let nodes2 := materialise (materialise d.nodes from_) to_
    match nodeAt nodes2 from_ with
    | none => none
    | some nf =>
      match retype to_ flag nf.edgesOut with
      | some es =>
        some (true, { d with
          nodes := nodes2.set from_ (some { nf with edgesOut := es })
          graphicData := relocate c_map from_ to_ (record coords flag) d.graphicData })
      | none =>
        let nodes3 := nodes2.set from_
          (some { nf with edgesOut := nf.edgesOut ++ [⟨from_, to_, flag⟩] })
        match nodeAt nodes3 to_ with
        | none => none
        | some nt =>
          let nodes4 := nodes3.set to_ (some { nt with incomingEdges := nt.incomingEdges + 1 })
          let removed : Bool := decide (to_ ∈ d.startingNodes)
          match topologicalSort_Kahn nodes4 (d.startingNodes.erase to_) [] with
          | none => none
          | some (success, nodes5, S5, tmp) =>
            if success then
              match computationReset { d with nodes := nodes5, startingNodes := S5 } with
              | none => none
              | some d1 =>
                some (true, { d1 with
                  graphicData := d1.graphicData ++ [record coords flag]
                  order := tmp })
            else
              match nodeAt nodes5 from_ with
              | none => none
              | some nf5 =>
                let nodes6 := nodes5.set from_ (some { nf5 with edgesOut := nf5.edgesOut.dropLast })
                match nodeAt nodes6 to_ with
                | none => none
                | some nt6 =>
                  let nodes7 := nodes6.set to_
                    (some { nt6 with incomingEdges := nt6.incomingEdges - 1 })
                  match computationReset { d with
                      nodes := nodes7
                      startingNodes := if removed then setInsert to_ S5 else S5 } with
                  | none => none
                  | some d1 => some (false, d1)

/-- Inner loop of `computeDepths` (lines 225-227) for the node `i`. -/
def depthEdges (i : Nat) : List Edge → List (Option Node) → Option (List (Option Node))
  | [], nodes => some nodes
  | e :: es, nodes =>
    match nodeAt nodes i, nodeAt nodes e.to_ with
    | some ni, some nt =>
      depthEdges i es (nodes.set e.to_ (some { nt with depth := max (ni.depth + 1) nt.depth }))
    | _, _ => none

/-- Outer loop of `computeDepths` (line 224) over the list `order`. -/
def depthLoop : List Nat → List (Option Node) → Option (List (Option Node))
  | [], nodes => some nodes
  | i :: is, nodes =>
    match nodeAt nodes i with
    | none => none
    | some n =>
      match depthEdges i n.edgesOut nodes with
      | none => none
      | some nodes1 => depthLoop is nodes1

/-- Method `computeDepths()`. -/
def computeDepths (d : Depth) : Option Depth :=
  match depthLoop d.order d.nodes with
  | none => none
  | some nodes1 => some { d with nodes := nodes1 }

end Depth


/-! ## Specification vocabulary for the graph stored in a node container -/

namespace TopologicalSorting

/-- Outgoing edges of the node in slot `u`; a null slot has none. -/
def outs (nodes : List (Option Node)) (u : Nat) : List Edge :=
  match nodeAt nodes u with
  | none => []
  | some n => n.edgesOut

/-- The container stores an edge from `u` to `v`. -/
def HasEdge (nodes : List (Option Node)) (u v : Nat) : Prop :=
  ∃ e ∈ outs nodes u, e.to_ = v

/-- There is a directed path with at least one edge from `u` to `v`. -/
def HasPath (nodes : List (Option Node)) (u v : Nat) : Prop :=
  Relation.TransGen (HasEdge nodes) u v

/-- The stored edges contain no directed cycle. -/
def Acyclic (nodes : List (Option Node)) : Prop :=
  ∀ u, ¬ HasPath nodes u u

/-- Number of edges of the list `es` that point to `v`. -/
def cnt (es : List Edge) (v : Nat) : Nat :=
  es.countP fun e => decide (e.to_ = v)

/-- Contribution of one slot to the in-degree of `v`. -/
def wIn (v : Nat) : Option Node → Nat
  | none => 0
  | some n => cnt n.edgesOut v

/-- Contribution of one slot to the number of edges into `v` whose source has
not been marked as used. -/
def wPend (v : Nat) : Option Node → Nat
  | none => 0
  | some n => if n.edgesUsed then 0 else cnt n.edgesOut v

/-- Number of stored edges that point to `v` (with multiplicity). -/
def inDegree (nodes : List (Option Node)) (v : Nat) : Nat :=
  (nodes.map (wIn v)).sum

/-- Number of stored edges into `v` that leave a node not yet marked as used. -/
def pending (nodes : List (Option Node)) (v : Nat) : Nat :=
  (nodes.map (wPend v)).sum

/-- Node `u` has an occurrence in `l` in front of an occurrence of `v`. -/
def Before (l : List Nat) (u v : Nat) : Prop :=
  ∃ l1 l2, l = l1 ++ v :: l2 ∧ u ∈ l1

/-- What `topologicalSort_Kahn` expects of its arguments: edges end in
allocated nodes, every counter holds the in-degree, no node is marked as used,
and the starting nodes are the allocated nodes without incoming edge. -/
structure KahnPre (nodes : List (Option Node)) (S : List Nat) : Prop where
  targets : ∀ u e, e ∈ outs nodes u → (nodeAt nodes e.to_).isSome = true
  counters : ∀ v n, nodeAt nodes v = some n →
    n.incomingEdges = (inDegree nodes v : Int) ∧ n.edgesUsed = false
  isSet : S.Sorted (· < ·)
  roots : ∀ v, v ∈ S ↔ (nodeAt nodes v).isSome = true ∧ inDegree nodes v = 0

end TopologicalSorting


namespace TopologicalSorting

/-- The part of a node that sorting never writes: its edges and its depth. -/
def Node.core (n : Node) : List Edge × Int := (n.edgesOut, n.depth)

/-- Two containers hold the same nodes up to counters and usage marks. -/
def SameGraph (a b : List (Option Node)) : Prop :=
  a.length = b.length ∧ ∀ v, (nodeAt a v).map Node.core = (nodeAt b v).map Node.core

/-- Contribution of one slot to the iteration budget of the sorting loop. -/
def wFuel : Option Node → Nat
  | none => 0
  | some n => if n.edgesUsed then 0 else n.edgesOut.length

/-- Loop invariant of `topologicalSort_Kahn`, between two rounds of the
`while` loop. -/
structure KInv (nodes : List (Option Node)) (S sorted : List Nat) : Prop where
  targets : ∀ u e, e ∈ outs nodes u → (nodeAt nodes e.to_).isSome = true
  counters : ∀ v n, nodeAt nodes v = some n → n.incomingEdges = (pending nodes v : Int)
  isSet : S.Sorted (· < ·)
  starts : ∀ v ∈ S, ∃ n, nodeAt nodes v = some n ∧ n.edgesUsed = false ∧ n.incomingEdges = 0
  listed : ∀ v n, nodeAt nodes v = some n → (n.edgesUsed = true ↔ v ∈ sorted)
  allocated : ∀ v ∈ sorted, (nodeAt nodes v).isSome = true
  nodup : sorted.Nodup
  topo : ∀ u v, HasEdge nodes u v → v ∈ sorted → Before sorted u v

/-- No node waits outside of the starting nodes: an unused node whose counter
is zero is a starting node. -/
def KComplete (nodes : List (Option Node)) (S : List Nat) : Prop :=
  ∀ v n, nodeAt nodes v = some n → n.edgesUsed = false → n.incomingEdges = 0 → v ∈ S

end TopologicalSorting


namespace TopologicalSorting

/-- The two containers allocate the same slots and store the same edge targets
slot by slot. -/
def TargetsEq (a b : List (Option Node)) : Prop :=
  a.length = b.length ∧ ∀ v, (nodeAt a v).map (fun n => n.edgesOut.map Edge.to_)
    = (nodeAt b v).map (fun n => n.edgesOut.map Edge.to_)

/-- Proposition `PathLen nodes u v k`: there is a directed path with `k` edges from `u` to `v`. -/
inductive PathLen (nodes : List (Option Node)) : Nat → Nat → Nat → Prop
  | refl (v : Nat) : PathLen nodes v v 0
  | step {u w v k : Nat} : PathLen nodes u w k → HasEdge nodes w v → PathLen nodes u v (k + 1)

/-- The number `d` is the number of edges of a longest directed path that ends at `v`. -/
def IsLongest (nodes : List (Option Node)) (v d : Nat) : Prop :=
  (∃ u, PathLen nodes u v d) ∧ ∀ u k, PathLen nodes u v k → k ≤ d

/-- Relation `Settled g res`: the container `res` holds the nodes of `g` with every
counter set to the in-degree and every usage mark cleared. -/
def Settled (g res : List (Option Node)) : Prop :=
  res.length = g.length ∧ ∀ v, nodeAt res v = (nodeAt g v).map fun n =>
    { n with edgesUsed := false, incomingEdges := (inDegree g v : Int) }

/-- The node written by the first loop of `computationReset`. -/
def Node.clear (n : Node) : Node := { n with edgesUsed := false, incomingEdges := 0 }

/-- Invariant of the second loop of `computationReset`: the starting nodes are
the allocated nodes whose counter is still zero. -/
structure CInv (nodes : List (Option Node)) (S : List Nat) : Prop where
  isSet : S.Sorted (· < ·)
  nonneg : ∀ v n, nodeAt nodes v = some n → 0 ≤ n.incomingEdges
  zero : ∀ v, v ∈ S ↔ ∃ n, nodeAt nodes v = some n ∧ n.incomingEdges = 0

end TopologicalSorting

open TopologicalSorting

namespace Depth

/-- Invariant of the states of `Depth` that the public methods produce. -/
structure DInv (d : Depth) : Prop where
  size : d.nodes.length = 256
  pre : KahnPre d.nodes d.startingNodes
  acyclic : Acyclic d.nodes
  simple : ∀ u, ((outs d.nodes u).map Edge.to_).Nodup
  noZero : ∀ u v, HasEdge d.nodes u v → u ≠ 0 ∧ v ≠ 0
  orderNodup : d.order.Nodup
  orderAlloc : ∀ v ∈ d.order, (nodeAt d.nodes v).isSome = true
  orderTopo : ∀ u v, HasEdge d.nodes u v → Before d.order u v
  depthReal : ∀ v n, nodeAt d.nodes v = some n →
    0 ≤ n.depth ∧ ∃ u, PathLen d.nodes u v n.depth.toNat

/-- States reachable from `reset` (or the constructor) by calls of `addEdge`
and `computeDepths`. Ids are of type `BYTE`; the counts respect the size of
the node container. -/
inductive Reachable : Depth → Prop
  | reset (d0 : Depth) (count0 count1 : Nat) (h0 : count0 ≤ 256) (h1 : count1 ≤ 128) :
      Reachable (reset d0 count0 count1)
  | addEdge {d : Depth} (c_map : ColorMap) (from_ to_ : Nat) (coords : vec2 × vec2)
      (flag : Nat) (r : Bool × Depth) (hd : Reachable d) (hf : from_ < 256) (ht : to_ < 256)
      (hr : addEdge d c_map from_ to_ coords flag = some r) : Reachable r.2
  | computeDepths {d d1 : Depth} (hd : Reachable d) (hr : computeDepths d = some d1) :
      Reachable d1

/-- What is known of the container after both allocations of `addEdge`: the
invariant of `Depth`, except that freshly allocated nodes are missing from the
starting nodes. -/
structure Ready (nodes : List (Option Node)) (S order : List Nat) : Prop where
  size : nodes.length = 256
  targets : ∀ u e, e ∈ outs nodes u → (nodeAt nodes e.to_).isSome = true
  counters : ∀ v n, nodeAt nodes v = some n →
    n.incomingEdges = (inDegree nodes v : Int) ∧ n.edgesUsed = false
  isSet : S.Sorted (· < ·)
  roots : ∀ v ∈ S, (nodeAt nodes v).isSome = true ∧ inDegree nodes v = 0
  acyclic : Acyclic nodes
  simple : ∀ u, ((outs nodes u).map Edge.to_).Nodup
  noZero : ∀ u v, HasEdge nodes u v → u ≠ 0 ∧ v ≠ 0
  orderNodup : order.Nodup
  orderAlloc : ∀ v ∈ order, (nodeAt nodes v).isSome = true
  orderTopo : ∀ u v, HasEdge nodes u v → Before order u v
  depthReal : ∀ v n, nodeAt nodes v = some n →
    0 ≤ n.depth ∧ ∃ u, PathLen nodes u v n.depth.toNat

/-- The container of `addEdge` when the sorting function is called: the new
edge is stored in the node `from_` and counted in the node `to_`. -/
def tentative (nodes : List (Option Node)) (from_ to_ flag : Nat) (nf nt : Node) :
    List (Option Node) :=
  (nodes.set from_ (some { nf with edgesOut := nf.edgesOut ++ [⟨from_, to_, flag⟩] })).set to_
    (some { nt with incomingEdges := nt.incomingEdges + 1 })

/-- The container of `addEdge` after the rejected edge has been taken back
(lines 203-204). -/
def rollback (nodes : List (Option Node)) (from_ to_ : Nat) (nf nt : Node) :
    List (Option Node) :=
  (nodes.set from_ (some { nf with edgesOut := nf.edgesOut.dropLast })).set to_
    (some { nt with incomingEdges := nt.incomingEdges - 1 })

/-- The depth stored for `v`; 0 when the slot is empty. -/
def depthOf (nodes : List (Option Node)) (v : Nat) : Int :=
  match nodeAt nodes v with
  | none => 0
  | some n => n.depth

/-- Two containers differ in the depths of their nodes only. -/
def DepthOnly (a b : List (Option Node)) : Prop :=
  a.length = b.length ∧ ∀ v, (nodeAt a v).map (fun n => (n.edgesOut, n.incomingEdges, n.edgesUsed))
    = (nodeAt b v).map (fun n => (n.edgesOut, n.incomingEdges, n.edgesUsed))

/-- Every stored depth is non-negative and is the length of some path that ends
at the node. -/
def DepthReal (nodes : List (Option Node)) : Prop :=
  ∀ v n, nodeAt nodes v = some n → 0 ≤ n.depth ∧ ∃ u, PathLen nodes u v n.depth.toNat

/-- What both loops of `init` maintain. -/
structure InitInv (acc : List (Option Node) × List Nat) : Prop where
  size : acc.1.length = 256
  fresh : ∀ v n, nodeAt acc.1 v = some n → n = Node.new
  isSet : acc.2.Sorted (· < ·)
  all : ∀ v, v ∈ acc.2 ↔ (nodeAt acc.1 v).isSome = true

/-- An empty colour map: every lookup yields the background id 0. -/
def exampleMap : ColorMap := { _width := 0, _height := 0, _data := [] }

/-- End points of an arrow drawn by the user. -/
def exampleCoords : vec2 × vec2 := (⟨1, 2⟩, ⟨3, 4⟩)

/-- The state after `reset` with three hard segments and no soft segment. -/
@[irreducible] def fresh3 : Depth := reset ⟨[], [], [], []⟩ 3 0

/-- The state after `addEdge(1, 2)` on `fresh3`. -/
@[irreducible] def afterOneEdge : Depth :=
  match addEdge fresh3 exampleMap 1 2 exampleCoords 0 with
  | some r => r.2
  | none => fresh3

/-- The state after `addEdge(1, 2)` with flag 1 on `afterOneEdge`. -/
@[irreducible] def afterRetype : Depth :=
  match addEdge afterOneEdge exampleMap 1 2 exampleCoords 1 with
  | some r => r.2
  | none => fresh3

/-- A container with the two nodes 0 and 1 and the edge from 0 to 1. -/
def twoNodes : List (Option Node) :=
  [some ⟨[⟨0, 1, 0⟩], 0, 0, false⟩, some ⟨[], 1, 0, false⟩]

end Depth


/-! ## Further methods of `Depth` -/

open TopologicalSorting

namespace Depth

/-- Method `update(idx)`: the index joins the starting nodes (as a `BYTE`) and
its slot gets a node unless it holds one. -/
def update (d : Depth) (idx : Nat) : Depth :=
  { d with
    startingNodes := setInsert (idx % 256) d.startingNodes
    nodes := materialise d.nodes idx }

/-- States reached from `reset` by calls of `update` and `addEdge` with ids in
0..255. -/
inductive ReachableU : Depth → Prop
  | reset (d0 : Depth) (count0 count1 : Nat) (h0 : count0 ≤ 256) (h1 : count1 ≤ 128) :
      ReachableU (reset d0 count0 count1)
  | update {d : Depth} (idx : Nat) (hd : ReachableU d) (hi : idx < 256) :
      ReachableU (update d idx)
  | addEdge {d : Depth} (c_map : ColorMap) (from_ to_ : Nat) (coords : vec2 × vec2)
      (flag : Nat) (r : Bool × Depth) (hd : ReachableU d) (hf : from_ < 256) (ht : to_ < 256)
      (hr : addEdge d c_map from_ to_ coords flag = some r) : ReachableU r.2

/-- The state after `update(2)` on `afterOneEdge`. -/
@[irreducible] def afterUpdate : Depth := update afterOneEdge 2

/-- The state after `addEdge(2, 1)` on `afterUpdate`. -/
@[irreducible] def afterCycle : Depth :=
  match addEdge afterUpdate exampleMap 2 1 exampleCoords 0 with
  | some r => r.2
  | none => fresh3

end Depth


/-! ## `ColorMap` (`ColorMap.cpp`) -/

/-- Read of a C array at an `int` index: `none` outside of the array. -/
def at? {α : Type} (l : List α) (i : Int) : Option α :=
  if i < 0 then none else l[i.toNat]?

/-- Member `std::map<BYTE, BYTE>::insert` on a map kept as a list of pairs in
ascending order of the keys: an entry whose key is present is not replaced. -/
def mapInsert (k v : Nat) : List (Nat × Nat) → List (Nat × Nat)
  | [] => [(k, v)]
  | (a, b) :: m =>
    if k < a then (k, v) :: (a, b) :: m
    else if k = a then (a, b) :: m
    else (a, b) :: mapInsert k v m

/-- Member `std::map<BYTE, BYTE>::find`. -/
def mapFind : List (Nat × Nat) → Nat → Option Nat
  | [], _ => none
  | (a, b) :: m, k => if k = a then some b else mapFind m k

namespace ColorMap

/-- Constant `COLOR_MAX_COUNT` of `ColorMap.h`. -/
def COLOR_MAX_COUNT : Int := 128

/-- Constant `MASK_SCRIBBLE_TYPE` of `defines.h`. -/
def MASK_SCRIBBLE_TYPE : Nat := 1

/-- Read `_scribbleCount[t]` for `t` in 0..1. -/
def count (c : ColorMap) (t : Nat) : Int :=
  if t = 0 then c._scribbleCount.1 else c._scribbleCount.2

/-- Write `_scribbleCount[t] = v` for `t` in 0..1. -/
def setCount (c : ColorMap) (t : Nat) (v : Int) : ColorMap :=
  { c with
    _scribbleCount := if t = 0 then (v, c._scribbleCount.2) else (c._scribbleCount.1, v) }

/-- The mask with every one of its `_width * _height` cells set to -1. -/
def clearedData (c : ColorMap) : List Int :=
  List.replicate (c._width * c._height).toNat (-1)

/-- Constructor `ColorMap(width, height)`. -/
def new (width height : Int) : ColorMap :=
  { _width := width
    _height := height
    _data := List.replicate (width * height).toNat (-1)
    _colors := (List.replicate 256 (⟨0, 0, 0⟩ : RGB)).set 0 ⟨1, 1, 1⟩
    _scribbleCount := (1, 0)
    _active := 0 }

/-- Method `newSegment(color, flags)`: the returned flag and the object
afterwards. `_active` is an `unsigned char`. -/
def newSegment (c : ColorMap) (color : RGB) (flags : Nat) : Bool × ColorMap :=
  let flag := Nat.land (flags % 256) MASK_SCRIBBLE_TYPE
  if c.count flag ≥ COLOR_MAX_COUNT then (false, c)
  else
    let active := ((COLOR_MAX_COUNT * flag + c.count flag) % 256).toNat
    (true, setCount { c with _active := active, _colors := c._colors.set active color }
      flag (c.count flag + 1))

/-- Method `segment2Data(x, y)`. -/
def segment2Data (c : ColorMap) (x y : Int) : ColorMap :=
  if x < 0 ∨ x ≥ c._width ∨ y < 0 ∨ y ≥ c._height then c
  else { c with _data := c._data.set (y * c._width + x).toNat c._active }

/-- Method `reset()`. -/
def reset (c : ColorMap) : ColorMap :=
  { c with
    _data := c.clearedData
    _colors :=
      match c._colors with
      | [] => []
      | c0 :: rest => c0 :: rest.map fun _ => ⟨0, 0, 0⟩
    _scribbleCount := (1, 0)
    _active := 0 }

/-- Method `newComputation()`. -/
def newComputation (c : ColorMap) : ColorMap :=
  { c with _data := c.clearedData }

/-- Method `setActive(idx)`: the `char` argument is stored as `unsigned char`. -/
def setActive (c : ColorMap) (idx : Nat) : ColorMap :=
  { c with _active := idx % 256 }

/-- The loop of `consolidate`, for `n` further values of `i`: `none` where the
code reads the first element of an empty set or a palette entry that does not
exist. -/
def consolidateLoop : Nat → Nat → List Nat → List RGB → List (Nat × Nat) →
    Option (List Nat × List RGB × List (Nat × Nat))
  | 0, _, found, colors, changes => some (found, colors, changes)
  | n + 1, i, found, colors, changes =>
    match found.head? with
    | none => none
    | some sc =>
      if i = sc then consolidateLoop n (i + 1) (found.erase sc) colors changes
      else
        match found.getLast?, colors[i]? with
        | some sc2, some _ =>
          match colors[sc2]? with
          | some col =>
            consolidateLoop n (i + 1) (found.erase sc2) (colors.set i col)
              (mapInsert sc2 i changes)
          | none => none
        | _, _ => none

/-- Method `consolidate(found, changes, t)` for `t` in 0..1: the object and the
two containers afterwards. `from` and `to` are of type `BYTE`. -/
def consolidate (c : ColorMap) (found : List Nat) (changes : List (Nat × Nat)) (t : Nat) :
    Option (ColorMap × List Nat × List (Nat × Nat)) :=
  let c1 := c.setCount t found.length
  let from_ := (t * 128) % 256
  let to_ := (found.length + t * 128) % 256
  match consolidateLoop (to_ - from_) from_ found c1._colors changes with
  | none => none
  | some (found1, colors1, changes1) =>
    let c2 := { c1 with _colors := colors1, _data := c1.clearedData }
    let c3 :=
      if t * 128 ≤ c2._active ∧ (c2._active : Int) < ((t : Int) + 1) * 128 then
        { c2 with _active := ((c2.count t - 1) % 256).toNat }
      else c2
    some (c3, found1, changes1)

/-- Objects obtained from the constructor by calls of `newSegment` and
`reset`. -/
inductive Built : ColorMap → Prop
  | new (width height : Int) : Built (ColorMap.new width height)
  | newSegment {c : ColorMap} (color : RGB) (flags : Nat) (h : Built c) :
      Built (c.newSegment color flags).2
  | reset {c : ColorMap} (h : Built c) : Built c.reset

end ColorMap


/-! ## Loop invariant of `ColorMap::consolidate` -/

namespace ColorMap

/-- What holds in front of the iteration for index `i` of the loop of
`consolidate`, started on the set `F`, the palette `colors0` and the map
`changes0` for the range that begins at `base` and is to hold `n` ids. -/
structure ConsInv (F : List Nat) (colors0 : List RGB) (changes0 : List (Nat × Nat))
    (base n i : Nat) (found : List Nat) (colors : List RGB) (changes : List (Nat × Nat)) :
    Prop where
  sorted : found.Sorted (· < ·)
  sub : ∀ x ∈ found, x ∈ F
  lower : ∀ x ∈ found, i ≤ x
  upper : ∀ x ∈ found, x < base + 128
  start : base ≤ i
  len : found.length + i = base + n
  clen : colors.length = 256
  gone : ∀ x ∈ F, x ∉ found →
    (x < i ∧ mapFind changes x = none) ∨
    (base + n ≤ x ∧ ∃ y, mapFind changes x = some y ∧ base ≤ y ∧ y < i ∧ y ∉ F ∧
      colors[y]? = colors0[x]?)
  kept : ∀ x ∈ found, mapFind changes x = none
  frame : ∀ x, x ∉ F → mapFind changes x = mapFind changes0 x
  onto : ∀ y, base ≤ y → y < i → y ∉ F → ∃ x ∈ F, mapFind changes x = some y
  colorsHi : ∀ z, i ≤ z → colors[z]? = colors0[z]?
  inj : ∀ x ∈ F, ∀ x' ∈ F, ∀ y, mapFind changes x = some y → mapFind changes x' = some y →
    x = x'

end ColorMap


/-! ## `Matrices` (`MatriceSolve.cpp`)

The label image holds the values -1, 0, 0.5 and 1 and the right-hand side holds
sums of at most four of them: on these values the arithmetic of `float` and
`double` is exact, and the embedding computes with rationals. -/

namespace Matrices

/-- Type `Eigen::Triplet<double>`: one summand of a matrix entry. -/
structure Triplet where
  row : Int
  col : Int
  value : Rat
  deriving DecidableEq

/-- Function `insertValues`: the neighbour counter, the triplets and the
right-hand side afterwards. -/
def insertValues (width height id nw nh neighCnt : Int) (coefs : List Triplet)
    (b : List Rat) (img : List Rat) (ids : List Int) :
    Option (Int × List Triplet × List Rat) :=
  let nid := nw + nh * width
  if nw < 0 ∨ nh < 0 ∨ nw = width ∨ nh = height then some (neighCnt - 1, coefs, b)
  else
    match at? img (nw + nh * width) with
    | none => none
    | some v =>
      if v = -1 then some (neighCnt - 1, coefs, b)
      else if v ≠ 1 / 2 then
        match at? b id with
        | none => none
        | some bv => some (neighCnt, coefs, b.set id.toNat (bv - v))
      else
        match at? ids nid with
        | none => none
        | some j => some (neighCnt, coefs ++ [⟨id, j, 1⟩], b)

/-- The body of the two loops of `init` for the pixel (w, h). -/
def initPixel (width height : Int) (img : List Rat) (ids : List Int) (w h : Int)
    (st : List Triplet × List Rat) : Option (List Triplet × List Rat) :=
  match at? img (w + h * width) with
  | none => none
  | some v =>
    if v ≠ 1 / 2 then some st
    else
      match at? ids (w + width * h) with
      | none => none
      | some id =>
        match insertValues width height id (w - 1) h 4 st.1 st.2 img ids with
        | none => none
        | some (d1, c1, b1) =>
          match insertValues width height id (w + 1) h d1 c1 b1 img ids with
          | none => none
          | some (d2, c2, b2) =>
            match insertValues width height id w (h - 1) d2 c2 b2 img ids with
            | none => none
            | some (d3, c3, b3) =>
              match insertValues width height id w (h + 1) d3 c3 b3 img ids with
              | none => none
              | some (d4, c4, b4) => some (c4 ++ [⟨id, id, -d4⟩], b4)

/-- Function `init` for an image of `width` x `height` pixels and `n`
unknowns: the triplets and the right-hand side. -/
def init (width height : Nat) (img : List Rat) (ids : List Int) (n : Nat) :
    Option (List Triplet × List Rat) :=
  (List.range height).foldlM
    (fun st (h : Nat) => (List.range width).foldlM
      (fun st (w : Nat) => initPixel width height img ids (w : Int) (h : Int) st) st)
    ([], List.replicate n 0)

/-- Entry (i, j) of the matrix that `setFromTriplets` builds: the sum of the
triplets of that position. -/
def entry (coefs : List Triplet) (i j : Int) : Rat :=
  (coefs.map fun t => if t.row = i ∧ t.col = j then t.value else 0).sum

/-- Component `i` of the product of the matrix of the triplets with `x`. -/
def rowDot (coefs : List Triplet) (i : Int) (x : Int → Rat) : Rat :=
  (coefs.map fun t => if t.row = i then t.value * x t.col else 0).sum

/-- The quadratic form of the matrix of the triplets at `x`. -/
def quadForm (coefs : List Triplet) (x : Int → Rat) : Rat :=
  (coefs.map fun t => t.value * x t.row * x t.col).sum

/-- The pixel lies in the image. -/
def Inside (width height : Nat) (q : Int × Int) : Prop :=
  0 ≤ q.1 ∧ q.1 < width ∧ 0 ≤ q.2 ∧ q.2 < height

instance (width height : Nat) (q : Int × Int) : Decidable (Inside width height q) := by
  unfold Inside
  infer_instance

/-- Label of a pixel of the image. -/
def label (width : Nat) (img : List Rat) (q : Int × Int) : Rat :=
  (at? img (q.1 + q.2 * width)).getD 0

/-- Number of the unknown of a pixel. -/
def idOf (width : Nat) (ids : List Int) (q : Int × Int) : Int :=
  (at? ids (q.1 + q.2 * width)).getD 0

/-- The four neighbours of a pixel, in the order of the calls in `init`. -/
def neighbours (p : Int × Int) : List (Int × Int) :=
  [(p.1 - 1, p.2), (p.1 + 1, p.2), (p.1, p.2 - 1), (p.1, p.2 + 1)]

/-- An unknown pixel: in the image with label 0.5. -/
def Unknown (width height : Nat) (img : List Rat) (q : Int × Int) : Prop :=
  Inside width height q ∧ label width img q = 1 / 2

instance (width height : Nat) (img : List Rat) (q : Int × Int) :
    Decidable (Unknown width height img q) := by
  unfold Unknown
  infer_instance

/-- A known pixel: in the image, not excluded (-1) and not unknown (0.5). -/
def Known (width height : Nat) (img : List Rat) (q : Int × Int) : Prop :=
  Inside width height q ∧ label width img q ≠ -1 ∧ label width img q ≠ 1 / 2

instance (width height : Nat) (img : List Rat) (q : Int × Int) :
    Decidable (Known width height img q) := by
  unfold Known
  infer_instance

/-- A pixel that counts as a neighbour: in the image and not excluded. -/
def Counted (width height : Nat) (img : List Rat) (q : Int × Int) : Prop :=
  Inside width height q ∧ label width img q ≠ -1

instance (width height : Nat) (img : List Rat) (q : Int × Int) :
    Decidable (Counted width height img q) := by
  unfold Counted
  infer_instance

/-- Number of the neighbours of `p` that are in the image and not excluded. -/
def neighCount (width height : Nat) (img : List Rat) (p : Int × Int) : Nat :=
  ((neighbours p).filter fun q => decide (Counted width height img q)).length

/-- The unknown neighbours of `p`. -/
def unknownNeighbours (width height : Nat) (img : List Rat) (p : Int × Int) :
    List (Int × Int) :=
  (neighbours p).filter fun q => decide (Unknown width height img q)

/-- The known neighbours of `p`. -/
def knownNeighbours (width height : Nat) (img : List Rat) (p : Int × Int) :
    List (Int × Int) :=
  (neighbours p).filter fun q => decide (Known width height img q)

/-- Sum of the labels of the known neighbours of `p`. -/
def knownSum (width height : Nat) (img : List Rat) (p : Int × Int) : Rat :=
  ((knownNeighbours width height img p).map (label width img)).sum

/-- The neighbours of `p` that are in the image and not excluded. -/
def countedNeighbours (width height : Nat) (img : List Rat) (p : Int × Int) :
    List (Int × Int) :=
  (neighbours p).filter fun q => decide (Counted width height img q)

/-- Value of a pixel under the solution vector `x`: the component of its id for
an unknown pixel, its label for a known one. -/
def valueAt (width height : Nat) (img : List Rat) (ids : List Int) (x : Int → Rat)
    (q : Int × Int) : Rat :=
  if Unknown width height img q then x (idOf width ids q) else label width img q

/-- The pixels of the image in the order of the loops of `init`. -/
def pixels (width height : Nat) : List (Int × Int) :=
  (List.range height).flatMap fun (h : Nat) =>
    (List.range width).map fun (w : Nat) => ((w : Int), (h : Int))

/-- The ids number the unknown pixels: each id is in 0..n-1 and no two unknown
pixels share an id. -/
structure Numbered (width height : Nat) (img : List Rat) (ids : List Int) (n : Nat) :
    Prop where
  imgLen : img.length = width * height
  idsLen : ids.length = width * height
  range : ∀ p, Unknown width height img p → 0 ≤ idOf width ids p ∧ idOf width ids p < n
  inj : ∀ p q, Unknown width height img p → Unknown width height img q →
    idOf width ids p = idOf width ids q → p = q

/-- The triplets that `init` adds for the unknown pixel `p`. -/
def rowOf (width height : Nat) (img : List Rat) (ids : List Int) (p : Int × Int) :
    List Triplet :=
  (unknownNeighbours width height img p).map
      (fun q => (⟨idOf width ids p, idOf width ids q, 1⟩ : Triplet)) ++
    [⟨idOf width ids p, idOf width ids p, -(neighCount width height img p : Int)⟩]

/-- The state of `init` after the pixel `p`, as a function of the state in front
of it. -/
def afterPixel (width height : Nat) (img : List Rat) (ids : List Int)
    (st : List Triplet × List Rat) (p : Int × Int) : List Triplet × List Rat :=
  if label width img p = 1 / 2 then
    (st.1 ++ rowOf width height img ids p,
      st.2.set (idOf width ids p).toNat
        (st.2.getD (idOf width ids p).toNat 0 - knownSum width height img p))
  else st

/-- Two unknown pixels that are 4-neighbours. -/
def Adjacent (width height : Nat) (img : List Rat) (p q : Int × Int) : Prop :=
  Unknown width height img p ∧ Unknown width height img q ∧ q ∈ neighbours p

instance (width height : Nat) (img : List Rat) (p q : Int × Int) :
    Decidable (Adjacent width height img p q) := by
  unfold Adjacent
  infer_instance

/-- A row of two pixels: an unknown pixel next to a known pixel with label 0. -/
def smallImg : List Rat := [1 / 2, 0]

/-- The id of the unknown pixel of `smallImg`. -/
def smallIds : List Int := [0, -1]

/-- A row of three pixels: a known pixel with label 1 and two unknown pixels. -/
def exampleImg : List Rat := [1, 1 / 2, 1 / 2]

/-- The ids of the two unknown pixels of `exampleImg`. -/
def exampleIds : List Int := [-1, 0, 1]

end Matrices


/-! ## `ColorSegments` (`ColorSegments.h`)

The grid graph, its capacities (macros `K` and `WEIGHT`) and the max-flow
computation belong to the GridCut library. The embedding takes the segment that
`get_segment` returns for each node as a parameter of the functions. -/

namespace ColorSegments

/-- Struct `Coords`. -/
structure Coords where
  x : Int
  y : Int
  deriving DecidableEq

/-- The answer of the solver: `cut minId min max x y` is true when
`get_segment` returns the sink segment for the node (x, y) of the grid that
`runMultisegVersion` builds for `minId` on the working area from `min` to
`max`. -/
abbrev Cut : Type := Nat → Coords → Coords → Int → Int → Bool

/-- The values of `for (int v = lo; v <= hi; v++)`. -/
def fromTo (lo hi : Int) : List Int :=
  (List.range (hi + 1 - lo).toNat).map fun (i : Nat) => lo + (i : Int)

/-- Insertion into a `std::set<short>` kept as a strictly increasing list. -/
def shortInsert (x : Int) : List Int → List Int
  | [] => [x]
  | y :: ys =>
    if x < y then x :: y :: ys else if x = y then y :: ys else y :: shortInsert x ys

/-- Function `runMultisegVersion`, after the solver has run: the pixels of the
working area that are in the source segment and not assigned yet receive
`minId`. -/
def runMultisegVersion (cut : Cut) (c_map : ColorMap) (minId : Nat) (min max : Coords) :
    ColorMap :=
  (fromTo min.y max.y).foldl
    (fun c y => (fromTo min.x max.x).foldl
      (fun c x =>
        if cut minId min max x y = false ∧ c.getMaskAt x y = -1 then c.segment2Data x y
        else c) c)
    (c_map.setActive minId)

/-- Index of a pixel in `tmp_map_data`, the window of the working area. -/
def tidx (min max xy : Coords) : Int :=
  (xy.x - min.x) + (xy.y - min.y) * (max.x - min.x + 1)

/-- Index of a pixel in the mask and in the scribble map. -/
def midx (cw : Int) (xy : Coords) : Int :=
  xy.x + xy.y * cw

/-- The four `push_back` of the surrounding pixels, each guarded by the bounds
`lo` and `hi`. -/
def pushNeighbours (lo hi xy : Coords) (coords : List Coords) : List Coords :=
  let c1 := if xy.x > lo.x then coords ++ [⟨xy.x - 1, xy.y⟩] else coords
  let c2 := if xy.x < hi.x then c1 ++ [⟨xy.x + 1, xy.y⟩] else c1
  let c3 := if xy.y > lo.y then c2 ++ [⟨xy.x, xy.y - 1⟩] else c2
  if xy.y < hi.y then c3 ++ [⟨xy.x, xy.y + 1⟩] else c3

/-- The variables of `areaTo1Scribble` that its first loop updates. -/
structure Area where
  tmp : List Int
  remaining : List Int
  foundScribble : Int
  twoScribblesFound : Bool
  newMin : Coords
  newMax : Coords

/-- The update of `foundScribble`, `twoScribblesFound` and `remaining` for a
visited pixel with the scribble `s`. -/
def noteScribble (minId : Nat) (s : Int) (a : Area) : Area :=
  if s > minId then
    if a.foundScribble = minId then { a with foundScribble := s }
    else if s ≠ a.foundScribble then
      { a with twoScribblesFound := true, remaining := shortInsert s a.remaining }
    else a
  else a

/-- The first loop of `areaTo1Scribble` (search of the unassigned area), with
fuel for the iterations: `none` for a read outside of an array or when the fuel
runs out. -/
def search (scribbleData : List Int) (cw : Int) (min max : Coords) (minId : Nat) :
    Nat → List Coords → Area → Option Area
  | _, [], a => some a
  | 0, _ :: _, _ => none
  | fuel + 1, xy :: rest, a =>
    match at? a.tmp (tidx min max xy) with
    | none => none
    | some v =>
      if v = -1 then
        match at? scribbleData (midx cw xy) with
        | none => none
        | some s =>
          search scribbleData cw min max minId fuel (pushNeighbours min max xy rest)
            (noteScribble minId s
              { a with
                tmp := a.tmp.set (tidx min max xy).toNat (-2)
                newMin := ⟨Min.min a.newMin.x xy.x, Min.min a.newMin.y xy.y⟩
                newMax := ⟨Max.max a.newMax.x xy.x, Max.max a.newMax.y xy.y⟩ })
      else search scribbleData cw min max minId fuel rest a

/-- The second loop of `areaTo1Scribble` (the area is given to the scribble
found), with fuel: the window and the mask afterwards. -/
def fill (cw : Int) (min max newMin newMax : Coords) (foundScribble : Int) :
    Nat → List Coords → List Int → List Int → Option (List Int × List Int)
  | _, [], tmp, data => some (tmp, data)
  | 0, _ :: _, _, _ => none
  | fuel + 1, xy :: rest, tmp, data =>
    match at? tmp (tidx min max xy) with
    | none => none
    | some v =>
      if v = -2 then
        match at? data (midx cw xy) with
        | none => none
        | some _ =>
          fill cw min max newMin newMax foundScribble fuel
            (pushNeighbours newMin newMax xy rest)
            (tmp.set (tidx min max xy).toNat (-3))
            (data.set (midx cw xy).toNat foundScribble)
      else fill cw min max newMin newMax foundScribble fuel rest tmp data

/-- Function `areaTo1Scribble`: the colour map, the window, `remaining`,
`newMin` and `newMax` afterwards. Each loop pops at most 4 * size + 1 pixels. -/
def areaTo1Scribble (x y : Int) (c_map : ColorMap) (scribbleData tmp remaining : List Int)
    (min max : Coords) (minId : Nat) :
    Option (ColorMap × List Int × List Int × Coords × Coords) :=
  match search scribbleData c_map._width min max minId (4 * tmp.length + 1) [⟨x, y⟩]
      ⟨tmp, remaining, minId, false, ⟨max.x, max.y⟩, ⟨min.x, min.y⟩⟩ with
  | none => none
  | some a =>
    if a.twoScribblesFound = false then
      match fill c_map._width min max a.newMin a.newMax a.foundScribble (4 * tmp.length + 1)
          [⟨x, y⟩] a.tmp c_map._data with
      | none => none
      | some (tmp1, data1) =>
        some ({ c_map with _data := data1 }, tmp1, a.remaining, ⟨-1, -1⟩, ⟨-1, -1⟩)
    else some (c_map, a.tmp, shortInsert a.foundScribble a.remaining, a.newMin, a.newMax)

/-- The variables of `colorDistinctAreas` that its second pair of loops
updates. -/
structure Scan where
  c_map : ColorMap
  tmp : List Int
  remaining : List Int
  unionMin : Coords
  unionMax : Coords

/-- The body of the second pair of loops of `colorDistinctAreas` at (w, h). -/
def scanPixel (scribbleData : List Int) (min max : Coords) (minId : Nat) (w h : Int)
    (s : Scan) : Option Scan :=
  match at? s.tmp (tidx min max ⟨w, h⟩) with
  | none => none
  | some v =>
    if v = -1 then
      match areaTo1Scribble w h s.c_map scribbleData s.tmp s.remaining min max minId with
      | none => none
      | some (c1, tmp1, rem1, newMin, newMax) =>
        if newMin.x ≠ -1 then
          some ⟨c1, tmp1, rem1,
            ⟨Min.min s.unionMin.x newMin.x, Min.min s.unionMin.y newMin.y⟩,
            ⟨Max.max s.unionMax.x newMax.x, Max.max s.unionMax.y newMax.y⟩⟩
        else some ⟨c1, tmp1, rem1, s.unionMin, s.unionMax⟩
    else some s

/-- Function `colorDistinctAreas`: the colour map, `min`, `max` and `scribbles`
afterwards. The window is the copy of the mask on the working area, row by
row; the set passed in is replaced without being read. -/
def colorDistinctAreas (c_map : ColorMap) (scribbleData : List Int) (min max : Coords)
    (minId : Nat) (_scribbles : List Int) : Option (ColorMap × Coords × Coords × List Int) :=
  let tmp := (fromTo min.y max.y).flatMap fun h =>
    (fromTo min.x max.x).map fun w => c_map.getMaskAt w h
  match (fromTo min.y max.y).foldlM
      (fun s h => (fromTo min.x max.x).foldlM
        (fun s w => scanPixel scribbleData min max minId w h s) s)
      (⟨c_map, tmp, [], max, min⟩ : Scan) with
  | none => none
  | some s => some (s.c_map, s.unionMin, s.unionMax, s.remaining)

/-- The `while (true)` loop of `applyScribbles`, with fuel for the
iterations. The ids are passed on as `BYTE`. -/
def applyLoop (cut : Cut) (scribbleData : List Int) :
    Nat → ColorMap → Coords → Coords → Int → List Int → Option ColorMap
  | 0, _, _, _, _, _ => none
  | fuel + 1, c_map, min, max, scribbleId, scribbles =>
    match colorDistinctAreas c_map scribbleData min max (scribbleId % 256).toNat scribbles with
    | none => none
    | some (c1, min1, max1, scribbles1) =>
      match scribbles1 with
      | [] => some c1
      | id :: rest =>
        applyLoop cut scribbleData fuel
          (runMultisegVersion cut c1 (id % 256).toNat min1 max1) min1 max1 id rest

/-- The set `scribbles` that `applyScribbles` builds from the two counts. -/
def initialScribbles (c_map : ColorMap) : List Int :=
  ((fromTo 0 (c_map.count 1 - 1)).map fun i => i + 128).foldl (fun s i => shortInsert i s)
    ((fromTo 1 (c_map.count 0 - 1)).foldl (fun s i => shortInsert i s) [])

/-- Function `applyScribbles` for an image of `width` x `height` pixels: the
colour map afterwards. The loop runs once for each of at most 256 ids. -/
def applyScribbles (cut : Cut) (width height : Int) (c_map : ColorMap)
    (scribbleData : List Int) : Option ColorMap :=
  let c1 := c_map.newComputation
  applyLoop cut scribbleData 256
    (runMultisegVersion cut c1 0 ⟨0, 0⟩ ⟨width - 1, height - 1⟩)
    ⟨0, 0⟩ ⟨width - 1, height - 1⟩ 0 (initialScribbles c1)

end ColorSegments


/-! ## Vocabulary for the working area of `ColorSegments` -/

namespace ColorSegments

/-- The pixel `p` lies in the working area from `lo` to `hi`. -/
def InBox (lo hi p : Coords) : Prop :=
  lo.x ≤ p.x ∧ p.x ≤ hi.x ∧ lo.y ≤ p.y ∧ p.y ≤ hi.y

instance (lo hi p : Coords) : Decidable (InBox lo hi p) := by
  unfold InBox
  infer_instance

/-- The pixel `p` lies in the image of `W` x `H` pixels. -/
def InImage (W H : Nat) (p : Coords) : Prop :=
  0 ≤ p.x ∧ p.x < W ∧ 0 ≤ p.y ∧ p.y < H

/-- A working area of the image: it lies in the image, and its two extents are
not negative. -/
structure Box (W H : Nat) (lo hi : Coords) : Prop where
  x0 : 0 ≤ lo.x
  x1 : hi.x < W
  y0 : 0 ≤ lo.y
  y1 : hi.y < H
  wx : lo.x ≤ hi.x + 1
  wy : lo.y ≤ hi.y + 1

/-- Number of the pixels of the working area. -/
def boxSize (lo hi : Coords) : Nat :=
  ((hi.x - lo.x + 1).toNat) * ((hi.y - lo.y + 1).toNat)

/-- Value of the window `tmp_map_data` at the pixel `p`. -/
def tmpAt (lo hi : Coords) (tmp : List Int) (p : Coords) : Int :=
  (at? tmp (tidx lo hi p)).getD 0

/-- Value of the mask (or of the scribble map) at the pixel `p`. -/
def maskAt (cw : Int) (data : List Int) (p : Coords) : Int :=
  (at? data (midx cw p)).getD 0

/-- The pixel `q` is one of the four neighbours of `p`. -/
def Adj (p q : Coords) : Prop :=
  (q.x = p.x - 1 ∧ q.y = p.y) ∨ (q.x = p.x + 1 ∧ q.y = p.y) ∨
    (q.x = p.x ∧ q.y = p.y - 1) ∨ (q.x = p.x ∧ q.y = p.y + 1)

/-- The pixel is joined to `s` by a chain of neighbours inside the set `M`. -/
inductive Conn (M : Coords → Prop) (s : Coords) : Coords → Prop
  | base : M s → Conn M s s
  | step {p q : Coords} : Conn M s p → M q → Adj p q → Conn M s q

/-- The mask `d2` keeps every value of `d1` that is not -1. -/
def Extends (d1 d2 : List Int) : Prop :=
  d1.length = d2.length ∧ ∀ (i : Nat) (v : Int), d1[i]? = some v → v ≠ -1 → d2[i]? = some v

end ColorSegments


/-! ## Invariants of the loops of `areaTo1Scribble` -/

namespace ColorSegments

/-- A pixel of the working area that the current search has marked: -1 in the
window on entry, -2 now. -/
def Marked (lo hi : Coords) (tmp0 tmp : List Int) (p : Coords) : Prop :=
  InBox lo hi p ∧ tmpAt lo hi tmp0 p = -1 ∧ tmpAt lo hi tmp p = -2

/-- Every pixel that is -1 or -2 in the window is -1 in the mask. -/
def Pending (W : Nat) (lo hi : Coords) (tmp data : List Int) : Prop :=
  ∀ p, InBox lo hi p → tmpAt lo hi tmp p = -1 ∨ tmpAt lo hi tmp p = -2 → maskAt W data p = -1

/-- Invariant of the first loop of `areaTo1Scribble`, started at `s` on the
window `tmp0` with the set `rem0`; `coords` is the list of pixels to visit. -/
structure SearchInv (lo hi : Coords) (minId : Nat) (s : Coords) (tmp0 rem0 : List Int)
    (coords : List Coords) (a : Area) : Prop where
  len : a.tmp.length = boxSize lo hi
  queue : ∀ q ∈ coords, InBox lo hi q ∧ (q = s ∨ ∃ p, Marked lo hi tmp0 a.tmp p ∧ Adj p q)
  mono : ∀ p, InBox lo hi p →
    tmpAt lo hi a.tmp p = tmpAt lo hi tmp0 p ∨
      (tmpAt lo hi tmp0 p = -1 ∧ tmpAt lo hi a.tmp p = -2)
  conn : ∀ p, Marked lo hi tmp0 a.tmp p → Conn (Marked lo hi tmp0 a.tmp) s p
  start : Marked lo hi tmp0 a.tmp s ∨ s ∈ coords
  bbox : ∀ p, Marked lo hi tmp0 a.tmp p →
    a.newMin.x ≤ p.x ∧ p.x ≤ a.newMax.x ∧ a.newMin.y ≤ p.y ∧ p.y ≤ a.newMax.y
  bboxIn : lo.x ≤ a.newMin.x ∧ a.newMax.x ≤ hi.x ∧ lo.y ≤ a.newMin.y ∧ a.newMax.y ≤ hi.y
  found : a.foundScribble = minId ∨ ((minId : Int) < a.foundScribble ∧ a.foundScribble ≤ 255)
  rem : ∀ r ∈ a.remaining, r ∈ rem0 ∨ ((minId : Int) < r ∧ r ≤ 255)
  remKeep : a.twoScribblesFound = false → a.remaining = rem0
  twoFound : a.twoScribblesFound = true → (minId : Int) < a.foundScribble

/-- Invariant of the second loop of `areaTo1Scribble`, started at `s` on the
window `tmp1` and the mask `data1`, for the set `M` of marked pixels. -/
structure FillInv (W H : Nat) (lo hi : Coords) (found : Int) (s : Coords) (M : Coords → Prop)
    (tmp1 data1 : List Int) (coords : List Coords) (tmp data : List Int) : Prop where
  len : tmp.length = boxSize lo hi
  ext : Extends data1 data
  queue : ∀ q ∈ coords, InBox lo hi q
  tmono : ∀ p, InBox lo hi p →
    tmpAt lo hi tmp p = tmpAt lo hi tmp1 p ∨
      (tmpAt lo hi tmp1 p = -2 ∧ tmpAt lo hi tmp p = -3)
  dmono : ∀ p, InImage W H p →
    maskAt W data p = maskAt W data1 p ∨
      (InBox lo hi p ∧ tmpAt lo hi tmp1 p = -2 ∧ tmpAt lo hi tmp p = -3 ∧
        maskAt W data p = found)
  filled : ∀ p, InBox lo hi p → tmpAt lo hi tmp1 p = -2 → tmpAt lo hi tmp p = -3 →
    maskAt W data p = found
  pending : Pending W lo hi tmp data
  closed : ∀ p, M p → tmpAt lo hi tmp p = -3 →
    ∀ q, M q → Adj p q → tmpAt lo hi tmp q = -3 ∨ q ∈ coords
  start : tmpAt lo hi tmp s = -3 ∨ s ∈ coords

end ColorSegments


/-! ## What `areaTo1Scribble` and `colorDistinctAreas` establish -/

namespace ColorSegments

/-- The state after a call of `areaTo1Scribble` at `s`, entered with the colour
map `c_map`, the window `tmp0` and the set `rem0`. -/
structure AreaPost (W H : Nat) (lo hi : Coords) (minId : Nat) (s : Coords) (c_map : ColorMap)
    (tmp0 rem0 : List Int) (c1 : ColorMap) (tmp1 rem1 : List Int) (nMin nMax : Coords) :
    Prop where
  same : c1 = { c_map with _data := c1._data }
  len : tmp1.length = boxSize lo hi
  ext : Extends c_map._data c1._data
  pending : Pending W lo hi tmp1 c1._data
  tmono : ∀ p, InBox lo hi p →
    tmpAt lo hi tmp1 p = tmpAt lo hi tmp0 p ∨
      (tmpAt lo hi tmp0 p = -1 ∧ tmpAt lo hi tmp1 p = -2) ∨
      ((tmpAt lo hi tmp0 p = -1 ∨ tmpAt lo hi tmp0 p = -2) ∧ tmpAt lo hi tmp1 p = -3 ∧
        0 ≤ maskAt W c1._data p)
  started : tmpAt lo hi tmp1 s ≠ -1
  values : ∀ p, InImage W H p →
    maskAt W c1._data p = maskAt W c_map._data p ∨
      (0 ≤ maskAt W c1._data p ∧ maskAt W c1._data p ≤ 255)
  cases :
    (nMin.x = -1 ∧ rem1 = rem0 ∧
      ∀ p, InBox lo hi p → tmpAt lo hi tmp0 p ≠ -2 → tmpAt lo hi tmp1 p ≠ -2) ∨
    (nMin.x ≠ -1 ∧ rem1 ≠ [] ∧ (∀ r ∈ rem1, r ∈ rem0 ∨ ((minId : Int) < r ∧ r ≤ 255)) ∧
      InBox lo hi nMin ∧ InBox lo hi nMax ∧ nMin.x ≤ nMax.x ∧ nMin.y ≤ nMax.y ∧
      ∀ p, InBox lo hi p → tmpAt lo hi tmp0 p ≠ -2 → tmpAt lo hi tmp1 p = -2 →
        InBox nMin nMax p)

end ColorSegments


/-! ## Invariants of `colorDistinctAreas` and of the loop of `applyScribbles` -/

namespace ColorSegments

/-- Every pixel of the mask holds -1 or a colour index of 0..255. -/
def Vals (W H : Nat) (data : List Int) : Prop :=
  ∀ p, InImage W H p → -1 ≤ maskAt W data p ∧ maskAt W data p ≤ 255

/-- Invariant of the second pair of loops of `colorDistinctAreas`, entered
with the colour map `c0`; `D` holds of the pixels that the loops have passed. -/
structure ScanInv (W H : Nat) (lo hi : Coords) (minId : Nat) (c0 : ColorMap)
    (D : Coords → Prop) (st : Scan) : Prop where
  same : st.c_map = { c0 with _data := st.c_map._data }
  len : st.tmp.length = boxSize lo hi
  ext : Extends c0._data st.c_map._data
  vals : Vals W H st.c_map._data
  pending : Pending W lo hi st.tmp st.c_map._data
  assigned : ∀ p, InBox lo hi p → tmpAt lo hi st.tmp p ≠ -1 → tmpAt lo hi st.tmp p ≠ -2 →
    maskAt W st.c_map._data p ≠ -1
  marked : ∀ p, InBox lo hi p → tmpAt lo hi st.tmp p = -2 →
    InBox st.unionMin st.unionMax p ∧ st.remaining ≠ []
  rem : ∀ r ∈ st.remaining, (minId : Int) < r ∧ r ≤ 255
  ubox : lo.x ≤ hi.x → lo.y ≤ hi.y →
    lo.x ≤ st.unionMin.x ∧ lo.y ≤ st.unionMin.y ∧ st.unionMax.x ≤ hi.x ∧ st.unionMax.y ≤ hi.y
  uprop : st.remaining ≠ [] →
    lo.x ≤ hi.x ∧ lo.y ≤ hi.y ∧ st.unionMin.x ≤ st.unionMax.x ∧ st.unionMin.y ≤ st.unionMax.y
  scanned : ∀ p, InBox lo hi p → D p → tmpAt lo hi st.tmp p ≠ -1

/-- The state after a call of `colorDistinctAreas` on the working area from
`lo` to `hi`, entered with the colour map `c0`. -/
structure DistinctPost (W H : Nat) (lo hi : Coords) (minId : Nat) (c0 c1 : ColorMap)
    (nMin nMax : Coords) (rem1 : List Int) : Prop where
  same : c1 = { c0 with _data := c1._data }
  ext : Extends c0._data c1._data
  vals : Vals W H c1._data
  remRange : ∀ r ∈ rem1, (minId : Int) < r ∧ r ≤ 255
  unassigned : ∀ p, InBox lo hi p → maskAt W c1._data p = -1 → InBox nMin nMax p ∧ rem1 ≠ []
  newBox : rem1 ≠ [] → Box W H nMin nMax

/-- The state of the loop of `applyScribbles` in front of a call of
`colorDistinctAreas`. -/
structure LoopInv (W H : Nat) (c_map : ColorMap) (lo hi : Coords) : Prop where
  width : c_map._width = W
  height : c_map._height = H
  len : c_map._data.length = W * H
  vals : Vals W H c_map._data
  box : Box W H lo hi
  inBox : ∀ p, InImage W H p → maskAt W c_map._data p = -1 → InBox lo hi p

end ColorSegments


/-! ## The parts of the colour map that `applyScribbles` works on -/

namespace ColorSegments

/-- The colour map `c` with the palette and the scribble counts of `m`. -/
def retag (m c : ColorMap) : ColorMap :=
  { c with _colors := m._colors, _scribbleCount := m._scribbleCount }

/-- The state `st` of `colorDistinctAreas` with the palette and the scribble
counts of `m`. -/
def retagScan (m : ColorMap) (st : Scan) : Scan :=
  { st with c_map := retag m st.c_map }

end ColorSegments


/-! ## Minimum cuts and the full-image reference procedure

The capacities that `runMultisegVersion` gives to the grid: macro `K` for the
terminal edges; the capacities of the neighbour edges (macro `WEIGHT`, computed
in `float` from the intensity image) are taken as given. -/

namespace ColorSegments

/-- Bit 7 of a scribble id: `(s & 128) >> 7`. -/
def softBit (s : Int) : Int := s / 128 % 2

/-- Macro `K(soft)` for `soft` in 0..1, with `K_PARAM` 4000 and
`SOFT_PARAMETER` 16. -/
def K (soft : Int) : Int := 4000 * (1 - soft) + 4000 / 16 * soft

/-- Capacity of the edge from the source to the pixel (x, y). -/
def sourceCap (scr : List Int) (cw : Int) (minId : Nat) (x y : Int) : Int :=
  if maskAt cw scr ⟨x, y⟩ = minId then K (softBit (maskAt cw scr ⟨x, y⟩)) else 0

/-- Capacity of the edge from the pixel (x, y) to the sink. -/
def sinkCap (scr : List Int) (cw : Int) (minId : Nat) (x y : Int) : Int :=
  if maskAt cw scr ⟨x, y⟩ > minId then K (softBit (maskAt cw scr ⟨x, y⟩)) else 0

/-- Capacity of the cut that puts the pixels with `seg x y = true` of the
working area on the side of the sink: the terminal edges and the neighbour
edges (capacities `wx x y` towards (x + 1, y), `wy x y` towards (x, y + 1))
that it severs. -/
def cutCost (scr : List Int) (cw : Int) (wx wy : Int → Int → Int) (minId : Nat)
    (lo hi : Coords) (seg : Int → Int → Bool) : Int :=
  ((fromTo lo.y hi.y).map fun y => ((fromTo lo.x hi.x).map fun x =>
    (if seg x y then sourceCap scr cw minId x y else sinkCap scr cw minId x y) +
    (if x < hi.x ∧ seg x y ≠ seg (x + 1) y then wx x y else 0) +
    (if y < hi.y ∧ seg x y ≠ seg x (y + 1) then wy x y else 0)).sum).sum

/-- The solver returns a minimum cut of every grid that `runMultisegVersion`
gives to it. -/
def MinCutSolver (scr : List Int) (cw : Int) (wx wy : Int → Int → Int) (cut : Cut) : Prop :=
  ∀ (minId : Nat) (lo hi : Coords) (seg : Int → Int → Bool),
    cutCost scr cw wx wy minId lo hi (cut minId lo hi) ≤ cutCost scr cw wx wy minId lo hi seg

/-- The pixels of the working area, row by row. -/
def boxPixels (lo hi : Coords) : List (Int × Int) :=
  (fromTo lo.y hi.y).flatMap fun y => (fromTo lo.x hi.x).map fun x => (x, y)

/-- All lists of `n` segment labels. -/
def allLabelings : Nat → List (List Bool)
  | 0 => [[]]
  | n + 1 => (allLabelings n).flatMap fun l => [false :: l, true :: l]

/-- The segment function of a list of labels for the pixels `ps`; the source
segment elsewhere. -/
def segOf (ps : List (Int × Int)) (labels : List Bool) (x y : Int) : Bool :=
  ((ps.zip labels).lookup (x, y)).getD false

/-- The first member of `a :: l` with the least value of `f`. -/
def bestOf {α : Type} (f : α → Int) (a : α) : List α → α
  | [] => a
  | b :: l => if f b < f (bestOf f a l) then b else bestOf f a l

/-- A solver that tries every cut of the working area and returns one of the
least capacity. -/
def bruteForce (scr : List Int) (cw : Int) (wx wy : Int → Int → Int) : Cut :=
  fun minId lo hi =>
    segOf (boxPixels lo hi)
      (bestOf (fun l => cutCost scr cw wx wy minId lo hi (segOf (boxPixels lo hi) l))
        ((boxPixels lo hi).map fun _ => false) (allLabelings (boxPixels lo hi).length))

/-- The ids of the scribble map in ascending order, 0 first. -/
def scribbleIds (scr : List Int) : List Nat :=
  (scr.foldl (fun s v => if 0 ≤ v then TopologicalSorting.setInsert v.toNat s else s) [0])

/-- Modelled from the spec: the reference procedure of the refinement claim,
a full-image binary cut (a call of `runMultisegVersion` on the whole image) for
every scribble id in ascending order, on the cleared mask. -/
def fullImageCuts (cut : Cut) (width height : Int) (c_map : ColorMap) (scr : List Int) :
    ColorMap :=
  (scribbleIds scr).foldl
    (fun c id => runMultisegVersion cut c id ⟨0, 0⟩ ⟨width - 1, height - 1⟩)
    c_map.newComputation

/-- Scribbles of a row of four pixels: id 0, the soft id 129 twice, id 1. -/
def rowScribbles : List Int := [0, 129, 129, 1]

/-- Capacities of the three neighbour edges of the row, as `WEIGHT` gives them
for the intensities 1, 1, 0.3125, 1. -/
def rowWx (x _y : Int) : Int := if x = 0 then 4001 else 391

/-- The row has no vertical neighbour edge. -/
def rowWy (_x _y : Int) : Int := 0

end ColorSegments


/-! ## `ShapeFill` (`ShapeFill.cpp`): boundary conditions and threshold

A `float` raster is a `List Rat` in row-major order. The functions of this
part compare the pixels with constants and store the constants -1, 0, 0.25,
0.5 and 1, all of which `float` represents exactly. The buffers that a
function receives are distinct objects. -/

namespace ShapeFill

/-- Write of a C array at an `int` index: `none` outside of the array. -/
def setAt {α : Type} (l : List α) (i : Int) (v : α) : Option (List α) :=
  if 0 ≤ i ∧ i.toNat < l.length then some (l.set i.toNat v) else none

/-- The loops `for (int h = 0; h < height; h++) for (int w = 0; w < width; w++)`
around `body`, which is given `w`, `h` and the variables that it updates. -/
def raster {σ : Type} (width height : Int) (body : Int → Int → σ → Option σ) (s : σ) :
    Option σ :=
  (List.range height.toNat).foldlM
    (fun s (h : Nat) => (List.range width.toNat).foldlM (fun s (w : Nat) => body w h s) s) s

/-- A raster loop whose body computes one value from `w`, `h` and the buffer
and stores it in the cell `w + h * width` of the buffer. -/
def paint {α : Type} (width height : Int) (value : Int → Int → List α → Option α)
    (im : List α) : Option (List α) :=
  raster width height
    (fun w h buf =>
      match value w h buf with
      | none => none
      | some v => setAt buf (w + h * width) v) im

/-- The operator `a || b` of C on operands that may be undefined: `b` is not
evaluated when `a` holds. -/
def cor (a b : Option Bool) : Option Bool :=
  match a with
  | none => none
  | some true => some true
  | some false => b

/-- The operator `a && b` of C on operands that may be undefined: `b` is not
evaluated when `a` fails. -/
def cand (a b : Option Bool) : Option Bool :=
  match a with
  | none => none
  | some false => some false
  | some true => b

/-- The two tests that `findBorder` makes of the neighbour `src[i]`, `d` being
the value of `dst[idx]` so far: the new value, and whether `continue` is
taken. -/
def look (src : List Rat) (i : Int) (d : Rat) : Option (Rat × Bool) :=
  match at? src i with
  | none => none
  | some v => if v = 1 then some (1, true) else some (if v = 1 / 2 then 0 else d, false)

/-- The guarded blocks of `findBorder` (lines 529-558), one for each entry
(guard, index of the neighbour), in the order of the list. -/
def inspect (src : List Rat) : List (Bool × Int) → Rat → Option (Rat × Bool)
  | [], d => some (d, false)
  | (g, i) :: rest, d =>
    if g then
      match look src i d with
      | none => none
      | some (d1, true) => some (d1, true)
      | some (d1, false) => inspect src rest d1
    else inspect src rest d

/-- The four neighbours in the order in which `findBorder` inspects them:
above, left, below, right; each with the guard of its block. -/
def directions (width height w h : Int) : List (Bool × Int) :=
  [(decide (h > 0), w + h * width - width), (decide (w > 0), w + h * width - 1),
    (decide (h < height - 1), w + h * width + width),
    (decide (w < width - 1), w + h * width + 1)]

/-- The arrays that `findBorder` writes: `dst`, and `ids` and `*n` when the
pointers are not null. -/
structure Border where
  dst : List Rat
  ids : Option (List Int)
  n : Option Int

/-- The statement `if (ids) ids[idx] = -1`. -/
def clearId (ids : Option (List Int)) (idx : Int) : Option (Option (List Int)) :=
  match ids with
  | none => some none
  | some l => (setAt l idx (-1)).map some

/-- The body of the loops of `findBorder` at (w, h). The value of `dst[idx]` is
kept in a local until the end of the iteration. -/
def findBorderAt (src : List Rat) (width height w h : Int) (s : Border) : Option Border :=
  let idx := w + h * width
  match clearId s.ids idx with
  | none => none
  | some ids1 =>
    match at? src idx with
    | none => none
    | some v =>
      if v = 0 then
        match inspect src (directions width height w h) (1 / 2) with
        | none => none
        | some (d, true) => (setAt s.dst idx d).map fun dst1 => ⟨dst1, ids1, s.n⟩
        | some (d, false) =>
          match setAt s.dst idx d with
          | none => none
          | some dst1 =>
            if d = 1 / 2 then
              match s.n with
              | none => some ⟨dst1, ids1, none⟩
              | some n =>
                match ids1 with
                | none => none
                | some l => (setAt l idx n).map fun l1 => ⟨dst1, some l1, some (n + 1)⟩
            else some ⟨dst1, ids1, s.n⟩
      else (setAt s.dst idx (-1)).map fun dst1 => ⟨dst1, ids1, s.n⟩

/-- Function `findBorder(src, dst, width, height, ids, n)`. -/
def findBorder (src dst : List Rat) (width height : Int) (ids : Option (List Int))
    (n : Option Int) : Option Border :=
  raster width height (findBorderAt src width height) ⟨dst, ids, n⟩

/-- Some neighbour of (w, h) inside of the image holds the value `v`. -/
def NeighbourHas (W H : Nat) (src : List Rat) (w h : Nat) (v : Rat) : Prop :=
  (0 < h ∧ src[w + (h - 1) * W]? = some v) ∨ (0 < w ∧ src[w - 1 + h * W]? = some v) ∨
    (h + 1 < H ∧ src[w + (h + 1) * W]? = some v) ∨ (w + 1 < W ∧ src[w + 1 + h * W]? = some v)

/-- The value that `treshold` stores at (w, h). -/
def tresholdValue (c_map : ColorMap) (width : Int) (coord : vec2) (incidences : List Int)
    (seg : Nat) (w h : Int) (img : List Rat) : Option Rat :=
  let neigh := c_map.getMaskAt (w + coord.x) (h + coord.y)
  match cor (some (decide (neigh = seg)))
      (cand ((at? img (w + h * width)).map fun v => decide (v ≥ 1 / 2))
        (some (decide (neigh ∈ incidences)))) with
  | none => none
  | some true => some 1
  | some false => some 0

/-- Function `treshold(c_map, img, width, height, coord, incidences, seg)`: the
image afterwards. -/
def treshold (c_map : ColorMap) (img : List Rat) (width height : Int) (coord : vec2)
    (incidences : List Int) (seg : Nat) : Option (List Rat) :=
  paint width height (tresholdValue c_map width coord incidences seg) img

/-- Invariant of a painting loop after `k` cells. -/
def Painted {α : Type} (W H : Nat) (im : List α) (Q : Nat → Nat → α → Prop) (k : Nat)
    (buf : List α) : Prop :=
  buf.length = im.length ∧ (∀ i, k ≤ i → buf[i]? = im[i]?) ∧
    ∀ w h, w < W → h < H → w + h * W < k → ∃ v, buf[w + h * W]? = some v ∧ Q w h v

/-- The value that `findBorder` is to leave in `dst` at (w, h). -/
def BorderValue (W H : Nat) (src : List Rat) (w h : Nat) (v : Rat) : Prop :=
  (src[w + h * W]? ≠ some 0 → v = -1) ∧
    (src[w + h * W]? = some 0 →
      (NeighbourHas W H src w h 1 → v = 1) ∧
      (¬ NeighbourHas W H src w h 1 → NeighbourHas W H src w h (1 / 2) → v = 0) ∧
      (¬ NeighbourHas W H src w h 1 → ¬ NeighbourHas W H src w h (1 / 2) → v = 1 / 2))

/-- What is known of the arrays of `findBorder` between two iterations. -/
def BorderOk (W H : Nat) (s : Border) : Prop :=
  (∀ l, s.ids = some l → l.length = W * H) ∧ (s.n.isSome = true → s.ids.isSome = true)

/-- A mask of two pixels with the ids 1 and 2. -/
def twoSegments : ColorMap := { _width := 2, _height := 1, _data := [1, 2] }

end ShapeFill


/-! ## `ShapeFill`: the boundary images

The functions `setBoundary` and `saveByBorders` compute two images each: the
image of the segment, which they write to the archive, and the image of the
boundary, which they hand to `boldBorder`. The embedding returns both images;
the name of the archive entry (`num`, `number`) plays no part in them. -/

open TopologicalSorting

namespace ShapeFill

/-- Constant `ORIG_WHITE_ERR` of `defines.h`: the `float` nearest to 0.985. -/
def ORIG_WHITE_ERR : Rat := 16525558 / 16777216

/-- Constructor `Image<float>(width, height)`: its assertion wants both
extents positive. The content of the fresh buffer is unspecified (0 here);
the callers write every cell before they read it. -/
def newImage (width height : Int) : Option (List Rat) :=
  if width > 0 ∧ height > 0 then some (List.replicate (width * height).toNat 0) else none

/-- Test `a[i] == v` on a `float` array. -/
def isAt (a : List Rat) (i : Int) (v : Rat) : Option Bool :=
  (at? a i).map fun x => decide (x = v)

/-- Test `a[i] < v` on a `float` array. -/
def below (a : List Rat) (i : Int) (v : Rat) : Option Bool :=
  (at? a i).map fun x => decide (x < v)

/-- Test `a[i] >= v` on a `float` array. -/
def atLeast (a : List Rat) (i : Int) (v : Rat) : Option Bool :=
  (at? a i).map fun x => decide (x ≥ v)

/-- Test `a[i] == v` on a `BYTE` or `char` array. -/
def holds (a : List Int) (i : Int) (v : Int) : Option Bool :=
  (at? a i).map fun x => decide (x = v)

/-- Read `depth.nodes[i]->depth` for an index of type `short`. -/
def depthAt (depth : Depth) (i : Int) : Option Int :=
  if i < 0 then none else (nodeAt depth.nodes i.toNat).map fun n => n.depth

/-- The first test of both loops of `setBoundary` (lines 356-357, 379-380):
the pixel lies outside of the window of the estimate, or the estimate is 0. -/
def outside (estimate : List Rat) (width height : Int) (minCoord : vec2) (w h : Int) :
    Option Bool :=
  let ew := w - minCoord.x
  let eh := h - minCoord.y
  cor (some (decide (ew < 0 ∨ eh < 0 ∨ ew ≥ width ∨ eh ≥ height)))
    (isAt estimate (ew + eh * width) 0)

/-- The test of lines 391-395: the pixel lies on the rim of the window, or a
neighbour inside of the window has the estimate 0. -/
def onEdge (estimate : List Rat) (width height : Int) (minCoord : vec2) (w h : Int) :
    Option Bool :=
  let ew := w - minCoord.x
  let eh := h - minCoord.y
  let dU := eh - 1
  let dD := eh + 1
  let dL := ew - 1
  let dR := ew + 1
  cor (some (decide (ew = 0 ∨ eh = 0 ∨ ew = width - 1 ∨ eh = height - 1)))
    (cor (cand (some (decide (dU ≥ 0))) (isAt estimate (ew + dU * width) 0))
      (cor (cand (some (decide (dL ≥ 0))) (isAt estimate (dL + eh * width) 0))
        (cor (cand (some (decide (dR < width))) (isAt estimate (dR + eh * width) 0))
          (cand (some (decide (dD < height))) (isAt estimate (ew + dD * width) 0)))))

/-- The loop of lines 447-454 over the arrows that leave the segment:
`arrType` afterwards, a `BYTE`. -/
def arrowType (neighs : List Int) (edges : List Edge) : Nat :=
  edges.foldl
    (fun a e => if (e.to_ : Int) ∈ neighs then Max.max a ((e.type + 1) % 256) else a) 0

/-- Lines 436-504 of `setBoundary`: the decision on a merge for a pixel all of
whose four neighbours belong to segments other than the background; `none`
stands for falling through to line 507. -/
def mergeValue (orig : List Rat) (c_map : ColorMap) (depth : Depth) (seg : Nat) (w h : Int) :
    Option (Option Rat) :=
  let mU := c_map.getMaskAt w (h - 1)
  let mD := c_map.getMaskAt w (h + 1)
  let mL := c_map.getMaskAt (w - 1) h
  let mR := c_map.getMaskAt (w + 1) h
  match nodeAt depth.nodes seg with
  | none => none
  | some ns =>
    let neighs :=
      (ColorSegments.shortInsert mR (ColorSegments.shortInsert mL
        (ColorSegments.shortInsert mD (ColorSegments.shortInsert mU [])))).erase (seg : Int)
    let arrType := arrowType neighs ns.edgesOut
    if arrType = 2 then some (some 0)
    else if arrType = 1 then some (some (1 / 4))
    else
      let ahead := fun (m : Int) => (depthAt depth m).map fun d => decide (d - ns.depth = 1)
      let behind := fun (m : Int) => (depthAt depth m).map fun d => decide (d < ns.depth)
      match cor (ahead mU) (cor (ahead mL) (cor (ahead mR) (ahead mD))) with
      | none => none
      | some true => some (some (1 / 4))
      | some false =>
        match cand (atLeast orig (w + h * c_map._width) ORIG_WHITE_ERR)
            (cand (some (decide (c_map.getMaskAt w h = seg)))
              (cor (behind mU) (cor (behind mL) (cor (behind mR) (behind mD))))) with
        | none => none
        | some true => some (some (1 / 4))
        | some false => some none

/-- Lines 396-508 of `setBoundary`: the value of a pixel of the rim. -/
def borderClass (orig : List Rat) (block : List Int) (c_map : ColorMap) (depth : Depth)
    (seg : Nat) (w h : Int) : Option Rat :=
  let W := c_map._width
  let mU := c_map.getMaskAt w (h - 1)
  let mD := c_map.getMaskAt w (h + 1)
  let mL := c_map.getMaskAt (w - 1) h
  let mR := c_map.getMaskAt (w + 1) h
  match at? block (w + h * W) with
  | none => none
  | some b =>
    if b = 1 then some 0
    else if h - 1 < 0 ∨ w - 1 < 0 ∨ w + 1 ≥ W ∨ h + 1 ≥ c_map._height then some 0
    else if b = 2 ∧ mU ≠ 0 ∧ mL ≠ 0 ∧ mR ≠ 0 ∧ mD ≠ 0 then some (1 / 4)
    else
      match cand (some (decide (c_map.getMaskAt w h = seg)))
          (cor (below orig (w + (h - 1) * W) ORIG_WHITE_ERR)
            (cor (below orig (w + (h + 1) * W) ORIG_WHITE_ERR)
              (cor (below orig (w - 1 + h * W) ORIG_WHITE_ERR)
                (below orig (w + 1 + h * W) ORIG_WHITE_ERR)))) with
      | none => none
      | some true => some 0
      | some false =>
        if mU ≠ 0 ∧ mL ≠ 0 ∧ mR ≠ 0 ∧ mD ≠ 0 then
          match mergeValue orig c_map depth seg w h with
          | none => none
          | some (some v) => some v
          | some none => some 0
        else some 0

/-- The body of the second pair of loops of `setBoundary` (lines 374-513): the
value of the boundary image at (w, h). -/
def boundaryValue (estimate orig : List Rat) (block : List Int) (c_map : ColorMap)
    (depth : Depth) (width height : Int) (minCoord : vec2) (seg : Nat) (w h : Int) :
    Option Rat :=
  match outside estimate width height minCoord w h with
  | none => none
  | some true => some 1
  | some false =>
    match onEdge estimate width height minCoord w h with
    | none => none
    | some true => borderClass orig block c_map depth seg w h
    | some false => some 1

/-- Function `setBoundary(estimate, orig, block, c_map, depth, width, height,
minCoord, num, seg)`: the image of the segment and the image of the boundary
that is handed to `boldBorder`. -/
def setBoundary (estimate orig : List Rat) (block : List Int) (c_map : ColorMap)
    (depth : Depth) (width height : Int) (minCoord : vec2) (seg : Nat) :
    Option (List Rat × List Rat) :=
  match newImage c_map._width c_map._height with
  | none => none
  | some im0 =>
    match paint c_map._width c_map._height
        (fun w h _ => (outside estimate width height minCoord w h).map
          fun o => if o then 0 else 1) im0 with
    | none => none
    | some segIm =>
      match paint c_map._width c_map._height
          (fun w h _ => boundaryValue estimate orig block c_map depth width height minCoord
            seg w h) segIm with
      | none => none
      | some im => some (segIm, im)

/-- The body of the second pair of loops of `saveByBorders` (lines 615-649):
the value of the boundary image at (w, h). -/
def outlineValue (borders block : List Int) (seg : Nat) (orig : List Rat) (c_map : ColorMap)
    (w h : Int) : Option Rat :=
  let W := c_map._width
  let dU := h - 1
  let dD := h + 1
  let dL := w - 1
  let dR := w + 1
  match cand (holds borders (w + h * W) 1) (some (decide (c_map.getMaskAt w h = seg))) with
  | none => none
  | some false => some 1
  | some true =>
    match cor (some (decide (dU < 0 ∨ dL < 0 ∨ dD ≥ c_map._height ∨ dR ≥ W)))
        (holds block (w + h * W) 1) with
    | none => none
    | some true => some 0
    | some false =>
      if c_map.getMaskAt w dU ≠ 0 ∧ c_map.getMaskAt w dD ≠ 0 ∧ c_map.getMaskAt dL h ≠ 0 ∧
          c_map.getMaskAt dR h ≠ 0 then
        match cor (holds block (w + h * W) 2)
            (cand (atLeast orig (w + h * W) ORIG_WHITE_ERR)
              (cand (atLeast orig (dL + h * W) ORIG_WHITE_ERR)
                (cand (atLeast orig (dR + h * W) ORIG_WHITE_ERR)
                  (cand (atLeast orig (w + dU * W) ORIG_WHITE_ERR)
                    (atLeast orig (w + dD * W) ORIG_WHITE_ERR))))) with
        | none => none
        | some true => some (1 / 4)
        | some false => some 0
      else some 0

/-- Function `saveByBorders(borders, block, seg, orig, c_map, incidences,
number)`: the image of the segment and the image of the boundary that is
handed to `boldBorder`. The set `incidences` is not read. -/
def saveByBorders (borders block : List Int) (seg : Nat) (orig : List Rat)
    (c_map : ColorMap) : Option (List Rat × List Rat) :=
  match newImage c_map._width c_map._height with
  | none => none
  | some im0 =>
    match paint c_map._width c_map._height
        (fun w h _ => some (if c_map.getMaskAt w h = seg then 1 else 0)) im0 with
    | none => none
    | some segIm =>
      match paint c_map._width c_map._height
          (fun w h _ => outlineValue borders block seg orig c_map w h) segIm with
      | none => none
      | some im => some (segIm, im)

/-- The three values of a boundary image. -/
def Tri (v : Rat) : Prop := v = 0 ∨ v = 1 / 4 ∨ v = 1

/-- Inputs on which `setBoundary` reads inside of its arrays only: the image
has `W` x `H` pixels, the window of the estimate `ww` x `wh`, and every id of
the mask, and the segment, has a node. -/
structure BoundaryInput (W H ww wh : Nat) (estimate orig : List Rat) (block : List Int)
    (c_map : ColorMap) (depth : Depth) (seg : Nat) : Prop where
  wpos : 0 < W
  hpos : 0 < H
  cw : c_map._width = W
  ch : c_map._height = H
  est : estimate.length = ww * wh
  orig : orig.length = W * H
  block : block.length = W * H
  node : (nodeAt depth.nodes seg).isSome = true
  ids : ∀ x y, 0 ≤ c_map.getMaskAt x y ∧
    (nodeAt depth.nodes (c_map.getMaskAt x y).toNat).isSome = true

/-- Inputs on which `saveByBorders` reads inside of its arrays only. -/
structure OutlineInput (W H : Nat) (borders block : List Int) (orig : List Rat)
    (c_map : ColorMap) : Prop where
  wpos : 0 < W
  hpos : 0 < H
  cw : c_map._width = W
  ch : c_map._height = H
  borders : borders.length = W * H
  orig : orig.length = W * H
  block : block.length = W * H

/-- A mask of 3 x 3 pixels: the segment 1 in the middle of the segment 2. -/
def ringMask : ColorMap :=
  { _width := 3, _height := 3, _data := [2, 2, 2, 2, 1, 2, 2, 2, 2] }

/-- An occlusion graph with the nodes 0, 1 and 2 and the arrow from 1 to 2. -/
def layers : Depth :=
  { graphicData := []
    nodes := [some Node.new, some ⟨[⟨1, 2, 0⟩], 0, 0, false⟩, some ⟨[], 1, 1, false⟩]
      ++ List.replicate 253 none
    startingNodes := [0, 1]
    order := [0, 1, 2] }

end ShapeFill


/-! ## `ShapeFill`: the two resolutions

`scaleDown` and `scaleUp` compute in `float` with the factor `scale`, which the
constructor sets to 2 and nothing changes. The embedding computes in
rationals: on images of the values 0, 0.5 and 1 every value that arises is a
multiple of 1/8 between 0 and 1, and the extents of an image are far below
2^24, so that `float` yields the same numbers. -/

namespace ShapeFill

/-- Member `scale`. -/
def scale : Rat := 2

/-- Conversion of a `float` to `int`: the fraction is dropped. -/
def toInt (q : Rat) : Int := if 0 ≤ q then ⌊q⌋ else ⌈q⌉

/-- The values of `for (int i = 0; i < scale; i++)`. -/
def steps : List Int := (List.range ⌈scale⌉.toNat).map fun (i : Nat) => (i : Int)

/-- Lines 217-218 of `scaleDown`: a pixel that is not 0.5 adds one to the
counter `cnts[(int)img[...]]`. -/
def countPixel (img : List Rat) (width hCoord wCoord : Int) (cnts : Int × Int) :
    Option (Int × Int) :=
  match at? img (hCoord * width + wCoord) with
  | none => none
  | some v =>
    if v ≠ 1 / 2 then
      if toInt v = 0 then some (cnts.1 + 1, cnts.2)
      else if toInt v = 1 then some (cnts.1, cnts.2 + 1)
      else none
    else some cnts

/-- The body of the loop over `j` (lines 214-218). -/
def countCol (img : List Rat) (width hCoord wStart : Int) (cnts : Int × Int) (j : Int) :
    Option (Int × Int) :=
  if j + wStart ≥ width then some cnts else countPixel img width hCoord (j + wStart) cnts

/-- The body of the loop over `i` (lines 211-219). -/
def countRow (img : List Rat) (width height hStart wStart : Int) (cnts : Int × Int) (i : Int) :
    Option (Int × Int) :=
  if i + hStart ≥ height then some cnts
  else steps.foldlM (countCol img width (i + hStart) wStart) cnts

/-- The body of the loops of `scaleDown` for the pixel (w, h) of the small
image (lines 205-234): the value stored. -/
def blockValue (img : List Rat) (width height w h : Int) : Option Rat :=
  let hStart := toInt ((h : Rat) * scale)
  let wStart := toInt ((w : Rat) * scale)
  match steps.foldlM (countRow img width height hStart wStart) (0, 0) with
  | none => none
  | some cnts =>
    if (cnts.1 = 0 ∧ cnts.2 = 0) ∨ ((cnts.1 + cnts.2 : Int) : Rat) < scale * scale / 2 then
      some (1 / 2)
    else if cnts.1 > cnts.2 then some 0
    else some 1

/-- Function `scaleDown(img, width, height, newWidth, newHeight)`: the small
image and its two extents. The content of the fresh array is unspecified (0
here); every cell is written. -/
def scaleDown (img : List Rat) (width height : Int) : Option (List Rat × Int × Int) :=
  let newWidth := toInt (((⌈(width : Rat) / scale⌉ : Int) : Rat) + 1)
  let newHeight := toInt (((⌈(height : Rat) / scale⌉ : Int) : Rat) + 1)
  match paint newWidth newHeight (fun w h _ => blockValue img width height w h)
      (List.replicate (newWidth * newHeight).toNat 0) with
  | none => none
  | some newim => some (newim, newWidth, newHeight)

/-- The operand `scaled[i] < 0.0f ? 0.0f : scaled[i]` of the interpolation. -/
def clamped (scaled : List Rat) (i : Int) : Option Rat :=
  (at? scaled i).map fun v => if v < 0 then 0 else v

/-- The body of the loops of `scaleUp` at (w, h): the value stored in `img`.
The loops run over `w` and `h` from 0 on, where `%` of C is the remainder of
the Euclidean division. The products and the sum are those of the rationals,
which `float` computes without rounding on samples such as the labels 0, 0.5
and 1; `scaleUpValueIn` is the same body in any arithmetic. -/
def scaleUpValue (scaled : List Rat) (width scaledWidth w h : Int) (img : List Rat) :
    Option Rat :=
  match at? img (w + h * width) with
  | none => none
  | some v =>
    if v ≠ 0 then some (-1)
    else
      let prevW := toInt ((w : Rat) / scale)
      let prevH := toInt ((h : Rat) / scale)
      let c0 : Rat := ((w % toInt scale : Int) : Rat) / scale
      let c1 : Rat := ((h % toInt scale : Int) : Rat) / scale
      let coord := prevW + prevH * scaledWidth
      match clamped scaled coord, clamped scaled (coord + 1),
          clamped scaled (coord + scaledWidth), clamped scaled (coord + 1 + scaledWidth) with
      | some s00, some s10, some s01, some s11 =>
        some (s00 * (1 - c0) * (1 - c1) + s10 * c0 * (1 - c1) + s01 * (1 - c0) * c1
          + s11 * c0 * c1)
      | _, _, _, _ => none

/-- Function `scaleUp(img, scaled, width, height, scaledWidth)`: the image
`img` afterwards. -/
def scaleUp (img scaled : List Rat) (width height scaledWidth : Int) : Option (List Rat) :=
  paint width height (scaleUpValue scaled width scaledWidth) img

/-- An image is scaled down, and scaled up again with the small image. -/
def roundTrip (img : List Rat) (width height : Int) : Option (List Rat) :=
  match scaleDown img width height with
  | none => none
  | some (small, newWidth, _) => scaleUp img small width height newWidth

end ShapeFill


/-! ## Further vocabulary for `Depth`, `ColorMap` and the sorting function -/

open TopologicalSorting

namespace Depth

/-- The state after `reset` with four hard segments and no soft segment. -/
@[irreducible] def fresh4 : Depth := reset ⟨[], [], [], []⟩ 4 0

/-- The state after `addEdge(1, 2)` on `fresh4`. -/
@[irreducible] def afterEdge4 : Depth :=
  match addEdge fresh4 exampleMap 1 2 exampleCoords 0 with
  | some r => r.2
  | none => fresh4

/-- The state after `computeDepths()` on `afterEdge4`. -/
@[irreducible] def layered4 : Depth :=
  match computeDepths afterEdge4 with
  | some d => d
  | none => fresh4

end Depth

namespace ColorMap

/-- The ids that a sequence of calls `newSegment(color, flags)` gives to the
segments of the type `t`: the active id after each successful call with
`flags & 1 == t`. -/
def newIds (t : Nat) : ColorMap → List (RGB × Nat) → List Nat
  | _, [] => []
  | c, call :: rest =>
    if (c.newSegment call.1 call.2).1 = true ∧ Nat.land call.2 1 = t then
      (c.newSegment call.1 call.2).2._active :: newIds t (c.newSegment call.1 call.2).2 rest
    else newIds t (c.newSegment call.1 call.2).2 rest

end ColorMap


/-! ## Vocabulary for the order that the sorting function returns -/

namespace TopologicalSorting

/-- Three nodes and the edge 2 -> 0: the nodes 1 and 2 are roots. -/
def threeNodes : List (Option Node) :=
  [some ⟨[], 1, 0, false⟩, some ⟨[], 0, 0, false⟩, some ⟨[⟨2, 0, 0⟩], 0, 0, false⟩]

end TopologicalSorting


/-! ## Vocabulary for the areas that `colorDistinctAreas` treats -/

namespace ColorSegments

/-- A pixel of the working area that holds -1 in the window `tmp`. -/
def Open (lo hi : Coords) (tmp : List Int) (p : Coords) : Prop :=
  InBox lo hi p ∧ tmpAt lo hi tmp p = -1

/-- A pixel of the working area that is unassigned (-1) in the mask `data`. -/
def Unassigned (W : Nat) (lo hi : Coords) (data : List Int) (p : Coords) : Prop :=
  InBox lo hi p ∧ maskAt W data p = -1

/-- The id `i` is greater than `minId`, and it is the scribble of a pixel of
the component of `s` in the set `M`. -/
def IdOf (W : Nat) (scr : List Int) (minId : Nat) (M : Coords → Prop) (s : Coords) (i : Int) :
    Prop :=
  (minId : Int) < i ∧ ∃ p, Conn M s p ∧ maskAt W scr p = i

/-- The component of `s` in the set `M` holds at most one id greater than
`minId`. -/
def OneId (W : Nat) (scr : List Int) (minId : Nat) (M : Coords → Prop) (s : Coords) : Prop :=
  ∀ i j, IdOf W scr minId M s i → IdOf W scr minId M s j → i = j

/-- The component of `s` in the set `M` holds two different ids greater than
`minId`. -/
def TwoIds (W : Nat) (scr : List Int) (minId : Nat) (M : Coords → Prop) (s : Coords) : Prop :=
  ∃ i j, IdOf W scr minId M s i ∧ IdOf W scr minId M s j ∧ i ≠ j

/-- What `colorDistinctAreas` is to leave at the pixel `p` of the component of
`s`: with at most one id, the id (or `minId` without any) in the mask; with two
ids or more, -1 in the mask, the pixel in the new working area, and every id of
the component in the set. -/
def Treated (W : Nat) (scr : List Int) (minId : Nat) (M : Coords → Prop) (s p : Coords)
    (data rem : List Int) (nMin nMax : Coords) : Prop :=
  (OneId W scr minId M s →
    (∀ i, IdOf W scr minId M s i → maskAt W data p = i) ∧
    ((∀ i, ¬ IdOf W scr minId M s i) → maskAt W data p = minId)) ∧
  (TwoIds W scr minId M s →
    maskAt W data p = -1 ∧ InBox nMin nMax p ∧ ∀ i, IdOf W scr minId M s i → i ∈ rem)

/-- Invariant of the first loop of `areaTo1Scribble` on the ids that it has
met, and on the neighbours of the pixels that it has marked. -/
structure SearchIds (W : Nat) (lo hi : Coords) (scr : List Int) (minId : Nat)
    (tmp0 rem0 : List Int) (coords : List Coords) (a : Area) : Prop where
  len : a.tmp.length = boxSize lo hi
  queue : ∀ q ∈ coords, InBox lo hi q
  mono : ∀ p, InBox lo hi p →
    tmpAt lo hi a.tmp p = tmpAt lo hi tmp0 p ∨
      (tmpAt lo hi tmp0 p = -1 ∧ tmpAt lo hi a.tmp p = -2)
  closed : ∀ p, Marked lo hi tmp0 a.tmp p → ∀ q, InBox lo hi q → Adj p q →
    tmpAt lo hi tmp0 q = -1 → Marked lo hi tmp0 a.tmp q ∨ q ∈ coords
  found : a.foundScribble = minId ∨
    ((minId : Int) < a.foundScribble ∧
      ∃ p, Marked lo hi tmp0 a.tmp p ∧ maskAt W scr p = a.foundScribble)
  ids : ∀ p, Marked lo hi tmp0 a.tmp p → (minId : Int) < maskAt W scr p →
    maskAt W scr p = a.foundScribble ∨
      (a.twoScribblesFound = true ∧ maskAt W scr p ∈ a.remaining)
  two : a.twoScribblesFound = true →
    (minId : Int) < a.foundScribble ∧
      ∃ p, Marked lo hi tmp0 a.tmp p ∧ (minId : Int) < maskAt W scr p ∧
        maskAt W scr p ≠ a.foundScribble
  keep : ∀ r ∈ rem0, r ∈ a.remaining

/-- Invariant of the second loop of `areaTo1Scribble`: it changes pixels of the
set `M` only. -/
structure FillReach (lo hi : Coords) (M : Coords → Prop) (tmp1 : List Int)
    (coords : List Coords) (tmp : List Int) : Prop where
  len : tmp.length = boxSize lo hi
  queue : ∀ q ∈ coords, InBox lo hi q ∧ (tmpAt lo hi tmp1 q = -2 → M q)
  tmono : ∀ p, InBox lo hi p →
    tmpAt lo hi tmp p = tmpAt lo hi tmp1 p ∨
      (tmpAt lo hi tmp1 p = -2 ∧ tmpAt lo hi tmp p = -3)
  reach : ∀ p, InBox lo hi p → tmpAt lo hi tmp1 p = -2 → tmpAt lo hi tmp p = -3 → M p

/-- The state after a call of `areaTo1Scribble` at `s`, in terms of the
component of `s` among the pixels that hold -1 in the window `tmp0`. -/
structure AreaExact (W H : Nat) (lo hi : Coords) (scr : List Int) (minId : Nat) (s : Coords)
    (c_map : ColorMap) (tmp0 rem0 : List Int) (c1 : ColorMap) (tmp1 rem1 : List Int)
    (nMin nMax : Coords) : Prop where
  outside : ∀ p, InBox lo hi p → ¬ Conn (Open lo hi tmp0) s p →
    tmpAt lo hi tmp1 p = tmpAt lo hi tmp0 p
  kept : ∀ p, InImage W H p → ¬ Conn (Open lo hi tmp0) s p →
    maskAt W c1._data p = maskAt W c_map._data p
  inside : ∀ p, Conn (Open lo hi tmp0) s p → tmpAt lo hi tmp1 p ≠ -1
  remMono : ∀ r ∈ rem0, r ∈ rem1
  single : OneId W scr minId (Open lo hi tmp0) s →
    nMin.x = -1 ∧ ∀ p, Conn (Open lo hi tmp0) s p →
      (∀ i, IdOf W scr minId (Open lo hi tmp0) s i → maskAt W c1._data p = i) ∧
      ((∀ i, ¬ IdOf W scr minId (Open lo hi tmp0) s i) → maskAt W c1._data p = minId)
  multi : TwoIds W scr minId (Open lo hi tmp0) s →
    nMin.x ≠ -1 ∧ c1 = c_map ∧ (∀ p, Conn (Open lo hi tmp0) s p → InBox nMin nMax p) ∧
      ∀ i, IdOf W scr minId (Open lo hi tmp0) s i → i ∈ rem1

/-- Invariant of the second pair of loops of `colorDistinctAreas`, entered
with the mask `data0`: the areas are treated as a whole, and a treated pixel
has got its final state. -/
structure ScanComp (W : Nat) (lo hi : Coords) (scr : List Int) (minId : Nat)
    (data0 : List Int) (st : Scan) : Prop where
  closed : ∀ p q, Unassigned W lo hi data0 p → Unassigned W lo hi data0 q → Adj p q →
    tmpAt lo hi st.tmp p = -1 → tmpAt lo hi st.tmp q = -1
  done : ∀ s p, Conn (Unassigned W lo hi data0) s p → tmpAt lo hi st.tmp p ≠ -1 →
    Treated W scr minId (Unassigned W lo hi data0) s p st.c_map._data st.remaining
      st.unionMin st.unionMax

/-- The loop of `applyScribbles` with a record of its iterations beyond the
first: the value that `scribbleId` takes (the id of the next cut) and the set
that `colorDistinctAreas` has left in `scribbles`, from which the id is
taken. -/
def applyTrace (cut : Cut) (scribbleData : List Int) :
    Nat → ColorMap → Coords → Coords → Int → List Int →
      Option (ColorMap × List (Int × List Int))
  | 0, _, _, _, _, _ => none
  | fuel + 1, c_map, min, max, scribbleId, scribbles =>
    match colorDistinctAreas c_map scribbleData min max (scribbleId % 256).toNat scribbles with
    | none => none
    | some (c1, min1, max1, scribbles1) =>
      match scribbles1 with
      | [] => some (c1, [])
      | id :: rest =>
        match applyTrace cut scribbleData fuel
            (runMultisegVersion cut c1 (id % 256).toNat min1 max1) min1 max1 id rest with
        | none => none
        | some (c2, tr) => some (c2, (id, scribbles1) :: tr)

/-- The entry `b` of the record follows the entry `a`: the set of `b` is
strictly increasing, its ids are greater than the id of `a` and at most 255,
and the id of `b` is the smallest of its set. -/
def NextCut (a b : Int × List Int) : Prop :=
  b.2.Sorted (· < ·) ∧ (∀ r ∈ b.2, a.1 < r ∧ r ≤ 255) ∧ b.1 ∈ b.2 ∧ ∀ r ∈ b.2, b.1 ≤ r

/-- Function `applyScribbles` with the record of the cuts after the first,
which is made for the id 0. -/
def applyScribblesTrace (cut : Cut) (width height : Int) (c_map : ColorMap)
    (scribbleData : List Int) : Option (ColorMap × List (Int × List Int)) :=
  let c1 := c_map.newComputation
  applyTrace cut scribbleData 256
    (runMultisegVersion cut c1 0 ⟨0, 0⟩ ⟨width - 1, height - 1⟩)
    ⟨0, 0⟩ ⟨width - 1, height - 1⟩ 0 (initialScribbles c1)

end ColorSegments


/-! ## Vocabulary for the boundary images and for the two resolutions -/

open TopologicalSorting

namespace ShapeFill

/-- The pixel (w, h) of the image belongs to the region that `setBoundary`
exports: it lies in the window of the estimate, and its estimate is not 0. -/
def Exported (estimate : List Rat) (ww wh : Nat) (minCoord : vec2) (w h : Int) : Prop :=
  0 ≤ w - minCoord.x ∧ w - minCoord.x < ww ∧ 0 ≤ h - minCoord.y ∧ h - minCoord.y < wh ∧
    at? estimate (w - minCoord.x + (h - minCoord.y) * ww) ≠ some 0

/-- A pixel on the border of the exported region: it belongs to the region,
and it lies on the rim of the window or has a 4-neighbour inside of the window
whose estimate is 0. -/
def OnBorder (estimate : List Rat) (ww wh : Nat) (minCoord : vec2) (w h : Int) : Prop :=
  Exported estimate ww wh minCoord w h ∧
    (w - minCoord.x = 0 ∨ h - minCoord.y = 0 ∨ w - minCoord.x = ww - 1 ∨
      h - minCoord.y = wh - 1 ∨
      (0 ≤ h - minCoord.y - 1 ∧
        at? estimate (w - minCoord.x + (h - minCoord.y - 1) * ww) = some 0) ∨
      (0 ≤ w - minCoord.x - 1 ∧
        at? estimate (w - minCoord.x - 1 + (h - minCoord.y) * ww) = some 0) ∨
      (w - minCoord.x + 1 < ww ∧
        at? estimate (w - minCoord.x + 1 + (h - minCoord.y) * ww) = some 0) ∨
      (h - minCoord.y + 1 < wh ∧
        at? estimate (w - minCoord.x + (h - minCoord.y + 1) * ww) = some 0))

/-- An occlusion graph with the nodes 0, 1 and 2 and the arrow of the type 1
from 1 to 2. -/
def splitLayers : Depth :=
  { graphicData := []
    nodes := [some Node.new, some ⟨[⟨1, 2, 1⟩], 0, 0, false⟩, some ⟨[], 1, 1, false⟩]
      ++ List.replicate 253 none
    startingNodes := [0, 1]
    order := [0, 1, 2] }

/-- The sample of the small image at (x, y), a negative sample read as 0. -/
def sample (scaled : List Rat) (sw x y : Nat) : Rat :=
  Max.max 0 ((scaled[x + y * sw]?).getD 0)

/-- Bilinear interpolation at the pixel (w, h) of the large image between the
four samples of the small image around (w / 2, h / 2), with the fractions of
w / 2 and h / 2 as weights. -/
def interpolation (scaled : List Rat) (sw w h : Nat) : Rat :=
  let fx : Rat := ((w % 2 : Nat) : Rat) / 2
  let fy : Rat := ((h % 2 : Nat) : Rat) / 2
  sample scaled sw (w / 2) (h / 2) * (1 - fx) * (1 - fy)
    + sample scaled sw (w / 2 + 1) (h / 2) * fx * (1 - fy)
    + sample scaled sw (w / 2) (h / 2 + 1) * (1 - fx) * fy
    + sample scaled sw (w / 2 + 1) (h / 2 + 1) * fx * fy

/-- One when the pixel in the column `c` and the row `r` lies inside of the
image and holds the value `v`, zero otherwise. -/
def holdsAt (img : List Rat) (W H c r : Nat) (v : Rat) : Nat :=
  if c < W ∧ r < H ∧ img[r * W + c]? = some v then 1 else 0

/-- Number of the pixels of the block of 2 x 2 pixels at (2x, 2y), clipped to
the image, that hold the value `v`. -/
def blockCount (img : List Rat) (W H x y : Nat) (v : Rat) : Nat :=
  holdsAt img W H (2 * x) (2 * y) v + holdsAt img W H (2 * x + 1) (2 * y) v
    + holdsAt img W H (2 * x) (2 * y + 1) v + holdsAt img W H (2 * x + 1) (2 * y + 1) v

/-- The summary of the block at (2x, 2y): 0.5 when fewer than two of its
pixels hold 0 or 1, else 0 when the zeros outnumber the ones, else 1. -/
def summary (img : List Rat) (W H x y : Nat) : Rat :=
  if blockCount img W H x y 0 + blockCount img W H x y 1 < 2 then 1 / 2
  else if blockCount img W H x y 0 > blockCount img W H x y 1 then 0
  else 1

end ShapeFill


/-! ## Inputs for `consolidate` -/

namespace ColorMap

/-- A colour map of 2 x 2 pixels after three calls of `newSegment` for soft
scribbles: the soft ids 128, 129 and 130 are in use, the last one is
active. -/
@[irreducible] def threeSoft : ColorMap :=
  ((((ColorMap.new 2 2).newSegment ⟨1, 0, 0⟩ 1).2.newSegment ⟨0, 1, 0⟩ 1).2.newSegment
    ⟨0, 0, 1⟩ 1).2

end ColorMap


/-! ## The background node in the states of `Depth` -/

open TopologicalSorting

namespace Depth

/-- States reached from `reset` (or the constructor) by calls of `update`,
`addEdge` and `computeDepths` with ids of type `BYTE`. -/
inductive Run : Depth → Prop
  | reset (d0 : Depth) (count0 count1 : Nat) (h0 : count0 ≤ 256) (h1 : count1 ≤ 128) :
      Run (reset d0 count0 count1)
  | update {d : Depth} (idx : Nat) (hd : Run d) (hi : idx < 256) : Run (update d idx)
  | addEdge {d : Depth} (c_map : ColorMap) (from_ to_ : Nat) (coords : vec2 × vec2)
      (flag : Nat) (r : Bool × Depth) (hd : Run d) (hf : from_ < 256) (ht : to_ < 256)
      (hr : addEdge d c_map from_ to_ coords flag = some r) : Run r.2
  | computeDepths {d d1 : Depth} (hd : Run d) (hr : computeDepths d = some d1) : Run d1

/-- The starting nodes are a set, no stored edge points to node 0, and node 0
is a starting node when it is allocated. -/
structure Rooted (d : Depth) : Prop where
  size : d.nodes.length = 256
  isSet : d.startingNodes.Sorted (· < ·)
  noZero : ∀ u v, HasEdge d.nodes u v → v ≠ 0
  root : (nodeAt d.nodes 0).isSome = true → 0 ∈ d.startingNodes

/-- The container has 256 slots, none of its edges points to node 0, and `b`
tells whether node 0 is allocated. -/
def Clean (nodes : List (Option Node)) (b : Bool) : Prop :=
  nodes.length = 256 ∧ (∀ u v, HasEdge nodes u v → v ≠ 0) ∧ (nodeAt nodes 0).isSome = b

end Depth


/-! ## The numbering of the unknown pixels -/

namespace ShapeFill

/-- Number of the pixels in front of the index `p` that hold 0.5. -/
def unknownsBefore (img : List Rat) (p : Nat) : Nat := (img.take p).count (1 / 2)

/-- What `findBorder` has written after `k` pixels when it is given `ids` and
a counter. -/
def Ranked (W H : Nat) (k : Nat) (s : Border) : Prop :=
  s.dst.length = W * H ∧ ∃ l, s.ids = some l ∧ l.length = W * H ∧
    s.n = some (unknownsBefore s.dst k : Int) ∧
    ∀ p, p < k →
      (s.dst[p]? = some (1 / 2) → l[p]? = some (unknownsBefore s.dst p : Int)) ∧
      (s.dst[p]? ≠ some (1 / 2) → l[p]? = some (-1))

end ShapeFill

namespace Matrices

/-- The body of the closing loop of `solve` (lines 109-114) at the index `i`,
on the image and the counter `k`; `x` holds the components of the solution as
they are stored in the image. -/
def storeSolution (x : List Rat) (st : List Rat × Int) (i : Nat) : Option (List Rat × Int) :=
  match at? st.1 i with
  | none => none
  | some v =>
    if v = 1 / 2 then
      match at? x st.2 with
      | none => none
      | some xk => some (st.1.set i xk, st.2 + 1)
    else some st

/-- The closing loop of `solve`: the image afterwards. -/
def writeBack (img : List Rat) (width height : Int) (x : List Rat) : Option (List Rat) :=
  ((List.range (width * height).toNat).foldlM (storeSolution x) (img, 0)).map Prod.fst

/-- What the closing loop of `solve` has done after `i` pixels of the image
`dst`: the counter is the number of the pixels 0.5 in front of `i`, each of
which holds its component of `x`. -/
def Stored (dst x : List Rat) (i : Nat) (st : List Rat × Int) : Prop :=
  st.1.length = dst.length ∧ st.2 = (ShapeFill.unknownsBefore dst i : Int) ∧
    (∀ p, i ≤ p → st.1[p]? = dst[p]?) ∧
    ∀ p, p < i →
      (dst[p]? = some (1 / 2) →
        ShapeFill.unknownsBefore dst p < x.length ∧
          st.1[p]? = x[ShapeFill.unknownsBefore dst p]?) ∧
      (dst[p]? ≠ some (1 / 2) → st.1[p]? = dst[p]?)

end Matrices



/-! ## `ShapeFill`: the smoothing of the estimate (`GaussSeidelVar`)

`GaussSeidelVar` computes in `float`. Its control flow depends on the numbers
only through a few tests and one conversion to `int`, so the embedding takes
the arithmetic as a parameter: what is proved for every instance holds for the
arithmetic of the machine. The instance `rationals` computes in rationals. -/

namespace ShapeFill

/-- Constant `ITERATIONS` of `defines.h`. -/
def ITERATIONS : Nat := 20

/-- Constant `ERR_VAL` of `ShapeFill.cpp`: the `float` nearest to 0.00001. -/
def ERR_VAL : Rat := 2748779 / 274877906944

/-- The arithmetic of `GaussSeidelVar` on the type `F` of the pixel values:
`zero` is `0.0f`, `add s v` is `s + v`, `mean s n` is `s / denum` for the
divisor `denum` that has been increased `n` times by 1 from `0.0f`,
`isZero d` is `d == 0.0f`, `isHole c` is `c == -1.0f`, `reach iter d` is
`(int)std::max(d * scale, 1.0f)` for the `scale` of the pass `iter`, and
`far a b` is `std::abs(a - b) > ERR_VAL`. -/
structure Arith (F : Type) where
  zero : F
  add : F → F → F
  mean : F → Nat → F
  isZero : F → Bool
  isHole : F → Bool
  reach : Nat → F → Int
  far : F → F → Bool

/-- The variable `scale` of the pass `iter` (lines 100-103). -/
def kernelScale (iter : Nat) : Rat :=
  if iter ≥ ITERATIONS / 2 then 1 - (iter : Rat) / (ITERATIONS : Rat) else 1

/-- The arithmetic in rationals. A quotient by 0 is 0 here; the machine yields
NaN or an infinity. -/
def rationals : Arith Rat where
  zero := 0
  add := fun s v => s + v
  mean := fun s n => s / (n : Rat)
  isZero := fun d => decide (d = 0)
  isHole := fun c => decide (c = -1)
  reach := fun iter d => toInt (Max.max (d * kernelScale iter) 1)
  far := fun a b => decide (|a - b| > ERR_VAL)

/-- One of the four guarded blocks of lines 117-132: when the guard holds, the
pixel at the index `i` is added to `sum` and `denum` grows by one. -/
def addSample {F : Type} (A : Arith F) (compSpace : List F) (guard : Bool) (i : Int)
    (acc : F × Nat) : Option (F × Nat) :=
  if guard then
    match at? compSpace i with
    | none => none
    | some v => some (A.add acc.1 v, acc.2 + 1)
  else some acc

/-- Lines 112-132 at the pixel (w, h) for the kernel size `dist`: `sum` and the
number of the samples in `denum`, from the positions above, below, left and
right, in this order. -/
def samples {F : Type} (A : Arith F) (compSpace : List F) (width height w h dist : Int) :
    Option (F × Nat) :=
  let dirUp := h - dist
  let dirDown := h + dist
  let dirLeft := w - dist
  let dirRight := w + dist
  (((addSample A compSpace (decide (dirUp ≥ 0 ∧ dirUp < height)) (w + dirUp * width)
      (A.zero, 0)).bind
    (addSample A compSpace (decide (dirDown < height ∧ dirDown ≥ 0)) (w + dirDown * width))).bind
    (addSample A compSpace (decide (dirLeft ≥ 0 ∧ dirLeft < width)) (dirLeft + h * width))).bind
    (addSample A compSpace (decide (dirRight < width ∧ dirRight ≥ 0)) (dirRight + h * width))

/-- The body of the loops of `GaussSeidelVar` at (w, h) in the pass `iter`
(lines 105-138), on the image and the flag `done`. -/
def relax {F : Type} (A : Arith F) (dists : List F) (width height : Int) (iter : Nat)
    (w h : Int) (st : List F × Bool) : Option (List F × Bool) :=
  let pos := w + h * width
  match at? dists pos with
  | none => none
  | some d =>
    if A.isZero d then some st
    else
      match at? st.1 pos with
      | none => none
      | some c =>
        if A.isHole c then some st
        else
          match samples A st.1 width height w h (A.reach iter d) with
          | none => none
          | some acc =>
            match setAt st.1 pos (A.mean acc.1 acc.2) with
            | none => none
            | some img1 => some (img1, if A.far c (A.mean acc.1 acc.2) then false else st.2)

/-- One pass of the `while` loop of `GaussSeidelVar` (lines 97-140), the
number `iter` having been increased: the image and the flag `done`
afterwards. -/
def sweep {F : Type} (A : Arith F) (dists : List F) (width height : Int) (iter : Nat)
    (compSpace : List F) : Option (List F × Bool) :=
  raster width height (relax A dists width height iter) (compSpace, true)

/-- The `while (!done || iter < ITERATIONS)` loop of `GaussSeidelVar`; the
first argument bounds the number of the passes. -/
def relaxLoop {F : Type} (A : Arith F) (dists : List F) (width height : Int) :
    Nat → Nat → Bool → List F → Option (List F × Nat)
  | 0, _, _, _ => none
  | fuel + 1, iter, done, compSpace =>
    if !done || iter < ITERATIONS then
      match sweep A dists width height (iter + 1) compSpace with
      | none => none
      | some s => relaxLoop A dists width height fuel (iter + 1) s.2 s.1
    else some (compSpace, iter)

/-- Function `GaussSeidelVar(compSpace, dists, borders, width, height)`, which
does not use `borders`: the image afterwards and the final value of `iter`,
the number of the passes. -/
def GaussSeidelVar {F : Type} (A : Arith F) (compSpace dists : List F) (width height : Int)
    (fuel : Nat) : Option (List F × Nat) :=
  relaxLoop A dists width height fuel 0 false compSpace

/-- The image and the flag `done` after `k` passes of the loop. -/
def sweeps {F : Type} (A : Arith F) (dists : List F) (width height : Int) (compSpace : List F) :
    Nat → Option (List F × Bool)
  | 0 => some (compSpace, false)
  | k + 1 =>
    match sweeps A dists width height compSpace k with
    | none => none
    | some s => sweep A dists width height (k + 1) s.1

/-- No pixel in front of the index `k` that the pass updates (its distance is
not 0 and its value was not -1) has changed by more than `ERR_VAL`. -/
def QuietUpTo {F : Type} (A : Arith F) (dists before after : List F) (k : Nat) : Prop :=
  ∀ p, p < k → ∀ d c c1, dists[p]? = some d → before[p]? = some c → after[p]? = some c1 →
    A.isZero d = false → A.isHole c = false → A.far c c1 = false

/-- The pass from `before` to `after` changes no updated pixel by more than
`ERR_VAL`. -/
def Quiet {F : Type} (A : Arith F) (dists before after : List F) : Prop :=
  QuietUpTo A dists before after before.length

/-- Invariant of a pass after `k` pixels. -/
def Swept {F : Type} (A : Arith F) (dists before : List F) (k : Nat) (st : List F × Bool) :
    Prop :=
  st.1.length = before.length ∧ (∀ p, k ≤ p → st.1[p]? = before[p]?) ∧
    (st.2 = true ↔ QuietUpTo A dists before st.1 k)

/-- A row of 52 pixels: 1 at the indices 0 and 2, else 0. -/
def row52 : List Rat := [1, 0, 1] ++ List.replicate 49 0

/-- Distances for `row52`: 50.5 at the index 1, else 0. -/
def dists52 : List Rat := [0, 101 / 2] ++ List.replicate 50 0

/-- The image `compImg` of a window of 5 x 5 pixels whose pixel (0, 0) belongs
to the segment and whose other pixels belong to a segment in front of it. -/
def corner5 : List Rat := 1 :: List.replicate 24 0

/-- The boundary conditions that `findBorder` derives from `corner5`. -/
def border5 : List Rat := [-1, 1, 1 / 2, 1 / 2, 1 / 2, 1] ++ List.replicate 19 (1 / 2)

end ShapeFill


/-! ## Further states, anchored unknowns, and the arithmetic of `scaleUp` -/

namespace ColorMap

/-- A colour map of 2 x 2 pixels after 128 calls of `newSegment` for soft
scribbles: the soft ids 128..255 are used up. -/
@[irreducible] def fullSoft : ColorMap :=
  (List.range 128).foldl (fun c _ => (c.newSegment ⟨0, 0, 0⟩ 1).2) (ColorMap.new 2 2)

end ColorMap

namespace Matrices

/-- An unknown pixel that is linked through unknown pixels to an unknown pixel
one of whose counted neighbours is not unknown (a known pixel, for the labels
-1, 0, 0.5 and 1). -/
inductive Anchored (width height : Nat) (img : List Rat) : Int × Int → Prop
  | base (p : Int × Int) (hp : Unknown width height img p)
      (hk : (unknownNeighbours width height img p).length < neighCount width height img p) :
      Anchored width height img p
  | step (p q : Int × Int) (ha : Adjacent width height img p q)
      (hq : Anchored width height img q) : Anchored width height img p

/-- An image of one pixel, which is unknown. -/
def loneImg : List Rat := [1 / 2]

/-- The id of the pixel of `loneImg`. -/
def loneIds : List Int := [0]

end Matrices

namespace ShapeFill

/-- The arithmetic of `scaleUp` on the type `F` of the pixel values: `hole` is
`-1.0f`, `isZero v` is the negation of `v != 0.0f`, `clamp s` is
`s < 0.0f ? 0.0f : s`, `weigh s a b` is the product `s * a * b` with the two
weights `a` and `b` (each is `coeffs[i]` or `1.0f - coeffs[i]`, that is 0, 0.5
or 1), `add` is the sum of two such products, and `notNeg v` is the negation
of `v < 0.0f`. -/
structure Blend (F : Type) where
  hole : F
  isZero : F → Bool
  clamp : F → F
  weigh : F → Rat → Rat → F
  add : F → F → F
  notNeg : F → Bool

/-- The expression of lines 262-273 of `scaleUp` on the four samples and the
two coefficients `coeffs[0]` and `coeffs[1]`. -/
def mix {F : Type} (A : Blend F) (s00 s10 s01 s11 : F) (c0 c1 : Rat) : F :=
  A.add (A.add (A.add (A.weigh (A.clamp s00) (1 - c0) (1 - c1))
    (A.weigh (A.clamp s10) c0 (1 - c1))) (A.weigh (A.clamp s01) (1 - c0) c1))
    (A.weigh (A.clamp s11) c0 c1)

/-- The body of the loops of `scaleUp` at (w, h) in the arithmetic `A`: the
value stored in `img`. The indices and the two coefficients are integers and
halves of integers, which `float` represents exactly. -/
def scaleUpValueIn {F : Type} (A : Blend F) (scaled : List F) (width scaledWidth w h : Int)
    (img : List F) : Option F :=
  match at? img (w + h * width) with
  | none => none
  | some v =>
    if A.isZero v = false then some A.hole
    else
      let prevW := toInt ((w : Rat) / scale)
      let prevH := toInt ((h : Rat) / scale)
      let c0 : Rat := ((w % toInt scale : Int) : Rat) / scale
      let c1 : Rat := ((h % toInt scale : Int) : Rat) / scale
      let coord := prevW + prevH * scaledWidth
      match at? scaled coord, at? scaled (coord + 1), at? scaled (coord + scaledWidth),
          at? scaled (coord + 1 + scaledWidth) with
      | some s00, some s10, some s01, some s11 => some (mix A s00 s10 s01 s11 c0 c1)
      | _, _, _, _ => none

/-- Function `scaleUp(img, scaled, width, height, scaledWidth)` in the
arithmetic `A`: the image `img` afterwards. -/
def scaleUpIn {F : Type} (A : Blend F) (img scaled : List F) (width height scaledWidth : Int) :
    Option (List F) :=
  paint width height (scaleUpValueIn A scaled width scaledWidth) img

/-- The arithmetic of `scaleUp` in rationals, with which `scaleUpIn` is
`scaleUp`. -/
def rationalBlend : Blend Rat where
  hole := -1
  isZero := fun v => decide (v = 0)
  clamp := fun s => if s < 0 then 0 else s
  weigh := fun s a b => s * a * b
  add := fun x y => x + y
  notNeg := fun v => decide (¬ v < 0)

end ShapeFill


/-! ## Basic facts: slots, the starting-node set, weighted sums over slots -/

namespace TopologicalSorting

theorem nodeAt_lt {nodes : List (Option Node)} {i : Nat} {n : Node}
    (h : nodeAt nodes i = some n) : i < nodes.length := by
  by_contra hc
  have : nodes[i]? = none := List.getElem?_eq_none (Nat.le_of_not_lt hc)
  simp [nodeAt, this] at h

theorem nodeAt_eq_some_iff {nodes : List (Option Node)} {i : Nat} {n : Node} :
    nodeAt nodes i = some n ↔ nodes[i]? = some (some n) := by
  unfold nodeAt
  cases h : nodes[i]? with
  | none => simp
  | some o => cases o <;> simp

theorem nodeAt_set_ne {nodes : List (Option Node)} {i j : Nat} (x : Option Node)
    (h : i ≠ j) : nodeAt (nodes.set i x) j = nodeAt nodes j := by
  simp [nodeAt, List.getElem?_set_ne h]

theorem nodeAt_set_self {nodes : List (Option Node)} {i : Nat} (m : Node)
    (h : i < nodes.length) : nodeAt (nodes.set i (some m)) i = some m := by
  simp [nodeAt, List.getElem?_set_self h]

theorem nodeAt_set {nodes : List (Option Node)} {i : Nat} (m : Node) (j : Nat)
    (h : i < nodes.length) :
    nodeAt (nodes.set i (some m)) j = if j = i then some m else nodeAt nodes j := by
  by_cases hj : j = i
  · subst hj; simp [nodeAt_set_self m h]
  · simp [hj, nodeAt_set_ne _ (Ne.symm hj)]

theorem mem_setInsert {x v : Nat} {S : List Nat} : v ∈ setInsert x S ↔ v = x ∨ v ∈ S := by
  induction S with
  | nil => simp [setInsert]
  | cons y ys ih =>
    unfold setInsert
    split_ifs with h1 h2
    · simp
    · subst h2; simp
    · simp [ih]; tauto

theorem sorted_setInsert {x : Nat} {S : List Nat} (h : S.Sorted (· < ·)) :
    (setInsert x S).Sorted (· < ·) := by
  induction S with
  | nil => simp [setInsert]
  | cons y ys ih =>
    unfold setInsert
    split_ifs with h1 h2
    · refine List.Pairwise.cons ?_ h
      intro a ha
      rcases List.mem_cons.1 ha with rfl | ha
      · exact h1
      · exact lt_trans h1 (List.rel_of_sorted_cons h a ha)
    · exact h
    · refine List.Pairwise.cons ?_ (ih (List.Sorted.of_cons h))
      intro a ha
      rcases mem_setInsert.1 ha with rfl | ha
      · omega
      · exact List.rel_of_sorted_cons h a ha

theorem length_setInsert_le (x : Nat) (S : List Nat) :
    (setInsert x S).length ≤ S.length + 1 := by
  induction S with
  | nil => simp [setInsert]
  | cons y ys ih =>
    unfold setInsert
    split_ifs <;> simp; omega

theorem sorted_set_ext {S T : List Nat} (hS : S.Sorted (· < ·)) (hT : T.Sorted (· < ·))
    (h : ∀ v, v ∈ S ↔ v ∈ T) : S = T :=
  List.eq_of_perm_of_sorted
    ((List.perm_ext_iff_of_nodup (List.Sorted.nodup hS) (List.Sorted.nodup hT)).2 h) hS hT

theorem wsum_set (w : Option Node → Nat) (nodes : List (Option Node)) (i : Nat)
    (x a : Option Node) (h : nodes[i]? = some a) :
    ((nodes.set i x).map w).sum + w a = (nodes.map w).sum + w x := by
  induction nodes generalizing i with
  | nil => simp at h
  | cons b bs ih =>
    cases i with
    | zero =>
      simp at h
      subst h
      simp
      omega
    | succ k =>
      simp at h
      have := ih k h
      simp only [List.set_cons_succ, List.map_cons, List.sum_cons]
      omega

theorem wsum_congr (w1 w2 : Option Node → Nat) (l1 l2 : List (Option Node))
    (hlen : l1.length = l2.length)
    (h : ∀ i, i < l1.length → w1 (nodeAt l1 i) = w2 (nodeAt l2 i)) :
    (l1.map w1).sum = (l2.map w2).sum := by
  induction l1 generalizing l2 with
  | nil =>
    cases l2 with
    | nil => rfl
    | cons _ _ => simp at hlen
  | cons a as ih =>
    cases l2 with
    | nil => simp at hlen
    | cons b bs =>
      have h0 := h 0 (by simp)
      simp [nodeAt] at h0
      have hrest := ih bs (by simpa using hlen) (fun i hi => by
        have := h (i + 1) (by simpa using hi)
        simpa [nodeAt] using this)
      simp [h0, hrest]

theorem le_wsum (w : Option Node → Nat) {nodes : List (Option Node)} {i : Nat}
    {a : Option Node} (h : nodes[i]? = some a) : w a ≤ (nodes.map w).sum := by
  apply List.single_le_sum (fun x _ => Nat.zero_le x)
  exact List.mem_map.2 ⟨a, List.mem_iff_getElem?.2 ⟨i, h⟩, rfl⟩

theorem wsum_eq_zero (w : Option Node → Nat) {nodes : List (Option Node)}
    (h : (nodes.map w).sum = 0) {i : Nat} {a : Option Node} (hi : nodes[i]? = some a) :
    w a = 0 := by
  have := le_wsum w hi
  omega

theorem wsum_pos (w : Option Node → Nat) (hw : w none = 0) {nodes : List (Option Node)}
    (h : 0 < (nodes.map w).sum) : ∃ i n, nodeAt nodes i = some n ∧ 0 < w (some n) := by
  by_contra hc
  push_neg at hc
  have : (nodes.map w).sum = 0 := by
    apply List.sum_eq_zero_iff.2
    intro x hx
    rcases List.mem_map.1 hx with ⟨o, ho, rfl⟩
    cases o with
    | none => exact hw
    | some n =>
      rcases List.mem_iff_getElem?.1 ho with ⟨i, hi⟩
      have := hc i n (nodeAt_eq_some_iff.2 hi)
      omega
  omega

end TopologicalSorting


/-! ## The inner loop of Kahn's algorithm -/

namespace TopologicalSorting

theorem cnt_cons (e : Edge) (es : List Edge) (v : Nat) :
    cnt (e :: es) v = cnt es v + if e.to_ = v then 1 else 0 := by
  simp [cnt, List.countP_cons]

theorem cnt_pos_iff {es : List Edge} {v : Nat} : 0 < cnt es v ↔ ∃ e ∈ es, e.to_ = v := by
  simp [cnt, List.countP_pos_iff]

theorem relaxEdges_spec (es : List Edge) (nodes : List (Option Node)) (S : List Nat)
    (ht : ∀ e ∈ es, (nodeAt nodes e.to_).isSome = true) :
    ∃ nodes1 S1, relaxEdges es nodes S = some (nodes1, S1) ∧ nodes1.length = nodes.length ∧
      (∀ v, nodeAt nodes1 v = (nodeAt nodes v).map fun n =>
        { n with incomingEdges := n.incomingEdges - (cnt es v : Int) }) ∧
      (S.Sorted (· < ·) → S1.Sorted (· < ·)) ∧
      S1.length ≤ S.length + es.length ∧
      ((∀ v n, nodeAt nodes v = some n → (cnt es v : Int) ≤ n.incomingEdges) →
        ∀ v, v ∈ S1 ↔ v ∈ S ∨ (0 < cnt es v ∧ ∃ n, nodeAt nodes v = some n ∧
          n.incomingEdges = (cnt es v : Int))) := by
  induction es generalizing nodes S with
  | nil =>
    refine ⟨nodes, S, rfl, rfl, ?_, id, by simp, ?_⟩
    · intro v
      cases h : nodeAt nodes v <;> simp [cnt]
    · intro _ v
      simp [cnt]
  | cons e es ih =>
    obtain ⟨n, hn⟩ := Option.isSome_iff_exists.1 (ht e (List.mem_cons_self _ _))
    have hlt := nodeAt_lt hn
    have hat : ∀ v, nodeAt (nodes.set e.to_ (some { n with incomingEdges := n.incomingEdges - 1 })) v
        = if v = e.to_ then some { n with incomingEdges := n.incomingEdges - 1 }
          else nodeAt nodes v := fun v => nodeAt_set _ v hlt
    have ht1 : ∀ e1 ∈ es, (nodeAt (nodes.set e.to_
        (some { n with incomingEdges := n.incomingEdges - 1 })) e1.to_).isSome = true := by
      intro e1 he1
      rw [hat]
      split_ifs
      · rfl
      · exact ht e1 (List.mem_cons_of_mem _ he1)
    obtain ⟨nodes1, S1, hrun, hlen, hnodes, hsorted, hlenS, hmem⟩ :=
      ih (nodes.set e.to_ (some { n with incomingEdges := n.incomingEdges - 1 }))
        (if n.incomingEdges - 1 = 0 then setInsert e.to_ S else S) ht1
    refine ⟨nodes1, S1, ?_, ?_, ?_, ?_, ?_, ?_⟩
    · simp only [relaxEdges, hn]
      exact hrun
    · simpa using hlen
    · intro v
      rw [hnodes v, hat v, cnt_cons]
      by_cases hv : v = e.to_
      · subst hv
        simp [hn]
        ring
      · have hv2 : ¬ e.to_ = v := fun h => hv h.symm
        simp [hv, hv2]
    · intro hS
      apply hsorted
      split_ifs
      · exact sorted_setInsert hS
      · exact hS
    · have := length_setInsert_le e.to_ S
      have h2 : (if n.incomingEdges - 1 = 0 then setInsert e.to_ S else S).length
          ≤ S.length + 1 := by
        split_ifs
        · exact this
        · omega
      simp only [List.length_cons]
      omega
    · intro hle v
      have hle1 : ∀ v m, nodeAt (nodes.set e.to_
          (some { n with incomingEdges := n.incomingEdges - 1 })) v = some m →
          (cnt es v : Int) ≤ m.incomingEdges := by
        intro v m hm
        rw [hat] at hm
        by_cases hv : v = e.to_
        · subst hv
          simp at hm
          subst hm
          have := hle _ n hn
          rw [cnt_cons] at this
          simp at this
          simp
          omega
        · simp [hv] at hm
          have := hle v m hm
          rw [cnt_cons] at this
          have hv2 : ¬ e.to_ = v := fun h => hv h.symm
          simp [hv2] at this
          exact this
      rw [hmem hle1 v, hat v, cnt_cons]
      have hne := hle _ n hn
      rw [cnt_cons] at hne
      simp at hne
      by_cases hv : v = e.to_
      · subst hv
        simp [hn]
        by_cases h1 : n.incomingEdges - 1 = 0
        · simp [h1, mem_setInsert]
          have : cnt es e.to_ = 0 := by omega
          simp [this]
          omega
        · simp [h1]
          constructor
          · rintro (h | ⟨h2, h3⟩)
            · exact Or.inl h
            · right; omega
          · rintro (h | h)
            · exact Or.inl h
            · right
              constructor
              · by_contra hc
                have : cnt es e.to_ = 0 := by omega
                rw [this] at h
                simp at h
                omega
              · omega
      · have hv2 : ¬ e.to_ = v := fun h => hv h.symm
        simp [hv, hv2]
        by_cases h1 : n.incomingEdges - 1 = 0
        · simp [h1, mem_setInsert, hv]
        · simp [h1]

end TopologicalSorting


/-! ## Containers that differ in sorting bookkeeping only -/

namespace TopologicalSorting

theorem SameGraph.sgRefl (a : List (Option Node)) : SameGraph a a := ⟨rfl, fun _ => rfl⟩

theorem SameGraph.sgSymm {a b : List (Option Node)} (h : SameGraph a b) : SameGraph b a :=
  ⟨h.1.symm, fun v => (h.2 v).symm⟩

theorem SameGraph.sgTrans {a b c : List (Option Node)} (h1 : SameGraph a b)
    (h2 : SameGraph b c) : SameGraph a c :=
  ⟨h1.1.trans h2.1, fun v => (h1.2 v).trans (h2.2 v)⟩

theorem SameGraph.sgIsSome {a b : List (Option Node)} (h : SameGraph a b) (v : Nat) :
    (nodeAt a v).isSome = (nodeAt b v).isSome := by
  have := h.2 v
  cases ha : nodeAt a v <;> cases hb : nodeAt b v <;> simp [ha, hb] at this ⊢

theorem SameGraph.sgOuts {a b : List (Option Node)} (h : SameGraph a b) (v : Nat) :
    outs a v = outs b v := by
  have := h.2 v
  unfold TopologicalSorting.outs
  cases ha : nodeAt a v <;> cases hb : nodeAt b v <;> simp [ha, hb, Node.core] at this ⊢
  exact this.1

theorem SameGraph.sgHasEdge {a b : List (Option Node)} (h : SameGraph a b) (u v : Nat) :
    HasEdge a u v ↔ HasEdge b u v := by
  simp [HasEdge, h.sgOuts u]

theorem SameGraph.sgHasPath {a b : List (Option Node)} (h : SameGraph a b) (u v : Nat) :
    HasPath a u v ↔ HasPath b u v := by
  have : HasEdge a = HasEdge b := by
    funext x y
    exact propext (h.sgHasEdge x y)
  simp [HasPath, this]

theorem SameGraph.sgAcyclic {a b : List (Option Node)} (h : SameGraph a b) :
    Acyclic a ↔ Acyclic b := by
  simp [Acyclic, h.sgHasPath]

theorem wIn_eq_outs (nodes : List (Option Node)) (v i : Nat) :
    wIn v (nodeAt nodes i) = cnt (outs nodes i) v := by
  unfold TopologicalSorting.outs
  cases nodeAt nodes i <;> simp [wIn, cnt]

theorem SameGraph.sgInDegree {a b : List (Option Node)} (h : SameGraph a b) (v : Nat) :
    inDegree a v = inDegree b v := by
  unfold TopologicalSorting.inDegree
  apply wsum_congr _ _ _ _ h.1
  intro i _
  rw [wIn_eq_outs, wIn_eq_outs, h.sgOuts]

theorem outs_of_nodeAt {nodes : List (Option Node)} {u : Nat} {n : Node}
    (h : nodeAt nodes u = some n) : outs nodes u = n.edgesOut := by
  simp [outs, h]

theorem hasEdge_iff_cnt {nodes : List (Option Node)} {u v : Nat} :
    HasEdge nodes u v ↔ 0 < cnt (outs nodes u) v := by
  rw [cnt_pos_iff]; rfl

theorem hasEdge_allocated {nodes : List (Option Node)} {u v : Nat} (h : HasEdge nodes u v) :
    ∃ n, nodeAt nodes u = some n := by
  rcases h with ⟨e, he, _⟩
  unfold outs at he
  cases hn : nodeAt nodes u with
  | none => simp [hn] at he
  | some n => exact ⟨n, rfl⟩

end TopologicalSorting


/-! ## One round of the `while` loop of Kahn's algorithm -/

namespace TopologicalSorting

theorem before_append_right {l : List Nat} {u v : Nat} (c : Nat) (h : Before l u v) :
    Before (l ++ [c]) u v := by
  rcases h with ⟨l1, l2, rfl, hu⟩
  exact ⟨l1, l2 ++ [c], by simp, hu⟩

theorem before_append_last {l : List Nat} {u c : Nat} (h : u ∈ l) : Before (l ++ [c]) u c :=
  ⟨l, [], rfl, h⟩

theorem wPend_used (n : Node) (v : Nat) (h : n.edgesUsed = true) : wPend v (some n) = 0 := by
  simp [wPend, h]

theorem wPend_unused {n : Node} (v : Nat) (h : n.edgesUsed = false) :
    wPend v (some n) = cnt n.edgesOut v := by
  simp [wPend, h]

theorem wFuel_used (n : Node) (h : n.edgesUsed = true) : wFuel (some n) = 0 := by
  simp [wFuel, h]

theorem wFuel_unused {n : Node} (h : n.edgesUsed = false) :
    wFuel (some n) = n.edgesOut.length := by
  simp [wFuel, h]

theorem kahn_step {nodes : List (Option Node)} {c : Nat} {rest sorted : List Nat}
    (h : KInv nodes (c :: rest) sorted) :
    ∃ n nodes1 S1 n1, nodeAt nodes c = some n ∧ n.edgesUsed = false ∧
      relaxEdges n.edgesOut nodes rest = some (nodes1, S1) ∧ nodeAt nodes1 c = some n1 ∧
      KInv (nodes1.set c (some { n1 with edgesUsed := true })) S1 (sorted ++ [c]) ∧
      SameGraph (nodes1.set c (some { n1 with edgesUsed := true })) nodes ∧
      (KComplete nodes (c :: rest) →
        KComplete (nodes1.set c (some { n1 with edgesUsed := true })) S1) ∧
      S1.length + ((nodes1.set c (some { n1 with edgesUsed := true })).map wFuel).sum
        ≤ rest.length + (nodes.map wFuel).sum := by
  obtain ⟨n, hn, hnu, hn0⟩ := h.starts c (List.mem_cons_self _ _)
  have houts : outs nodes c = n.edgesOut := outs_of_nodeAt hn
  obtain ⟨nodes1, S1, hrun, hlen, hnodes, hsorted, hlenS, hmem⟩ :=
    relaxEdges_spec n.edgesOut nodes rest (fun e he => h.targets c e (houts ▸ he))
  have hrestS : rest.Sorted (· < ·) := List.Sorted.of_cons h.isSet
  have hS1 := hsorted hrestS
  -- every counter bounds the edges that leave `c`
  have hle : ∀ v m, nodeAt nodes v = some m → (cnt n.edgesOut v : Int) ≤ m.incomingEdges := by
    intro v m hm
    rw [h.counters v m hm]
    have := le_wsum (wPend v) (nodeAt_eq_some_iff.1 hn)
    simp only [wPend, hnu] at this
    exact_mod_cast this
  have hmem := hmem hle
  have hcc : cnt n.edgesOut c = 0 := by
    have := hle c n hn
    rw [hn0] at this
    exact_mod_cast Nat.le_zero.1 (by exact_mod_cast this)
  have hn1 : nodeAt nodes1 c = some { n with incomingEdges := n.incomingEdges - (cnt n.edgesOut c : Int) } := by
    rw [hnodes c, hn]; rfl
  refine ⟨n, nodes1, S1, _, hn, hnu, hrun, hn1, ?_⟩
  have hclt : c < nodes1.length := nodeAt_lt hn1
  set n2 : Node := { ({ n with incomingEdges := n.incomingEdges - (cnt n.edgesOut c : Int) } : Node)
    with edgesUsed := true } with hn2
  have hat : ∀ v, nodeAt (nodes1.set c (some n2)) v = if v = c then some n2
      else (nodeAt nodes v).map fun m =>
        { m with incomingEdges := m.incomingEdges - (cnt n.edgesOut v : Int) } := by
    intro v
    rw [nodeAt_set _ v hclt]
    split_ifs
    · rfl
    · exact hnodes v
  have hsame : SameGraph (nodes1.set c (some n2)) nodes := by
    refine ⟨by simpa using hlen, fun v => ?_⟩
    rw [hat v]
    split_ifs with hv
    · subst hv; simp [hn, Node.core, hn2]
    · cases nodeAt nodes v <;> simp [Node.core]
  have hpend : ∀ v, pending (nodes1.set c (some n2)) v + cnt n.edgesOut v = pending nodes v := by
    intro v
    unfold pending
    have h1 : (nodes1.map (wPend v)).sum = (nodes.map (wPend v)).sum := by
      apply wsum_congr _ _ _ _ hlen
      intro i _
      rw [hnodes i]
      cases nodeAt nodes i <;> simp [wPend]
    have h2 := wsum_set (wPend v) nodes1 c (some n2) _ (nodeAt_eq_some_iff.1 hn1)
    rw [wPend_used n2 v rfl, wPend_unused v (by exact hnu)] at h2
    have h3 : cnt ({ n with incomingEdges := n.incomingEdges - (cnt n.edgesOut c : Int) } :
      Node).edgesOut v = cnt n.edgesOut v := rfl
    omega
  have hfuel : ((nodes1.set c (some n2)).map wFuel).sum + n.edgesOut.length
      = (nodes.map wFuel).sum := by
    have h1 : (nodes1.map wFuel).sum = (nodes.map wFuel).sum := by
      apply wsum_congr _ _ _ _ hlen
      intro i _
      rw [hnodes i]
      cases nodeAt nodes i <;> simp [wFuel]
    have h2 := wsum_set wFuel nodes1 c (some n2) _ (nodeAt_eq_some_iff.1 hn1)
    rw [wFuel_used n2 rfl, wFuel_unused (by exact hnu)] at h2
    have h3 : ({ n with incomingEdges := n.incomingEdges - (cnt n.edgesOut c : Int) } :
      Node).edgesOut.length = n.edgesOut.length := rfl
    omega
  have hcsorted : c ∉ sorted := by
    intro hc
    have := (h.listed c n hn).2 hc
    rw [hnu] at this
    exact Bool.false_ne_true this
  have hedge : ∀ u v, HasEdge (nodes1.set c (some n2)) u v ↔ HasEdge nodes u v :=
    fun u v => hsame.sgHasEdge u v
  refine ⟨?_, hsame, ?_, by omega⟩
  · constructor
    · intro u e he
      rw [hsame.sgOuts] at he
      rw [hsame.sgIsSome]
      exact h.targets u e he
    · intro v m hm
      rw [hat v] at hm
      have hp := hpend v
      by_cases hv : v = c
      · subst hv
        simp at hm
        subst hm
        have := h.counters v n hn
        have e1 : n2.incomingEdges = n.incomingEdges - (cnt n.edgesOut v : Int) := rfl
        rw [e1, this]
        omega
      · simp only [hv, if_false] at hm
        cases hm0 : nodeAt nodes v with
        | none => simp [hm0] at hm
        | some m0 =>
          simp [hm0] at hm
          subst hm
          have := h.counters v m0 hm0
          simp [this]
          omega
    · exact hS1
    · intro v hv
      have hvc : v ≠ c := by
        rcases (hmem v).1 hv with hr | ⟨hpos, _, hm, hmc⟩
        · have := List.rel_of_sorted_cons h.isSet v hr
          omega
        · rintro rfl
          omega
      rw [hat v]
      simp only [hvc, if_false]
      rcases (hmem v).1 hv with hr | ⟨hpos, m, hm, hmc⟩
      · obtain ⟨m, hm, hmu, hm0⟩ := h.starts v (List.mem_cons_of_mem _ hr)
        have := hle v m hm
        rw [hm0] at this
        have hz : cnt n.edgesOut v = 0 := by omega
        exact ⟨{ m with incomingEdges := m.incomingEdges - (cnt n.edgesOut v : Int) },
          by rw [hm]; rfl, hmu, by simp [hm0, hz]⟩
      · refine ⟨{ m with incomingEdges := m.incomingEdges - (cnt n.edgesOut v : Int) },
          by rw [hm]; rfl, ?_, by simp [hmc]⟩
        by_contra hused
        have hused : m.edgesUsed = true := by simpa using hused
        have hvs := (h.listed v m hm).1 hused
        have hcv : HasEdge nodes c v := hasEdge_iff_cnt.2 (houts ▸ hpos)
        rcases h.topo c v hcv hvs with ⟨l1, l2, hl, hc1⟩
        exact hcsorted (hl ▸ List.mem_append_left _ hc1)
    · intro v m hm
      rw [hat v] at hm
      by_cases hv : v = c
      · subst hv
        simp at hm
        subst hm
        simp [hn2]
      · simp only [hv, if_false] at hm
        cases hm0 : nodeAt nodes v with
        | none => simp [hm0] at hm
        | some m0 =>
          simp [hm0] at hm
          subst hm
          simp [h.listed v m0 hm0, hv]
    · intro v hv
      rw [hsame.sgIsSome]
      rcases List.mem_append.1 hv with hv | hv
      · exact h.allocated v hv
      · simp at hv
        subst hv
        simp [hn]
    · rw [List.nodup_append]
      refine ⟨h.nodup, List.nodup_singleton c, ?_⟩
      intro a ha hac
      simp at hac
      subst hac
      exact hcsorted ha
    · intro u v huv hv
      rw [hedge] at huv
      rcases List.mem_append.1 hv with hv | hv
      · exact before_append_right c (h.topo u v huv hv)
      · simp at hv
        subst hv
        apply before_append_last
        obtain ⟨nu, hnu1⟩ := hasEdge_allocated huv
        have hpos := hasEdge_iff_cnt.1 huv
        rw [outs_of_nodeAt hnu1] at hpos
        have hp0 : pending nodes v = 0 := by
          have := h.counters v n hn
          rw [hn0] at this
          exact_mod_cast this.symm
        have := wsum_eq_zero (wPend v) hp0 (nodeAt_eq_some_iff.1 hnu1)
        simp only [wPend] at this
        have hu : nu.edgesUsed = true := by
          by_contra hc
          simp [hc] at this
          omega
        exact (h.listed u nu hnu1).1 hu
  · intro hcomp v m hm hmu hm0
    rw [hat v] at hm
    by_cases hv : v = c
    · subst hv
      simp at hm
      subst hm
      simp [hn2] at hmu
    · simp only [hv, if_false] at hm
      cases hm1 : nodeAt nodes v with
      | none => simp [hm1] at hm
      | some m1 =>
        simp [hm1] at hm
        subst hm
        simp at hmu hm0
        rw [hmem v]
        by_cases hz : cnt n.edgesOut v = 0
        · left
          have : m1.incomingEdges = 0 := by rw [hz] at hm0; simpa using hm0
          have := hcomp v m1 hm1 hmu this
          rcases List.mem_cons.1 this with h1 | h1
          · exact absurd h1 hv
          · exact h1
        · right
          exact ⟨Nat.pos_of_ne_zero hz, m1, hm1, by omega⟩

end TopologicalSorting


/-! ## The whole sorting function -/

namespace TopologicalSorting

theorem kahnLoop_nil (fuel : Nat) (nodes : List (Option Node)) (sorted : List Nat) :
    kahnLoop fuel nodes [] sorted = some (nodes, [], sorted) := by
  cases fuel <;> rfl

theorem kahnLoop_spec (fuel : Nat) (nodes : List (Option Node)) (S sorted : List Nat)
    (h : KInv nodes S sorted) (hfuel : S.length + (nodes.map wFuel).sum ≤ fuel) :
    ∃ nodes1 sorted1, kahnLoop fuel nodes S sorted = some (nodes1, [], sorted1) ∧
      KInv nodes1 [] sorted1 ∧ SameGraph nodes1 nodes ∧
      (KComplete nodes S → KComplete nodes1 []) := by
  induction fuel generalizing nodes S sorted with
  | zero =>
    cases S with
    | nil => exact ⟨nodes, sorted, rfl, h, SameGraph.sgRefl _, id⟩
    | cons c rest => simp at hfuel
  | succ fuel ih =>
    cases S with
    | nil => exact ⟨nodes, sorted, rfl, h, SameGraph.sgRefl _, id⟩
    | cons c rest =>
      obtain ⟨n, nodes1, S1, n1, hn, hnu, hrun, hn1, hinv, hsame, hcomp, hf⟩ := kahn_step h
      obtain ⟨nodes2, sorted2, hrun2, hinv2, hsame2, hcomp2⟩ :=
        ih _ S1 (sorted ++ [c]) hinv (by simp at hfuel; omega)
      refine ⟨nodes2, sorted2, ?_, hinv2, hsame2.sgTrans hsame, fun hc => hcomp2 (hcomp hc)⟩
      simp only [kahnLoop, hn, hnu, hrun, hn1]
      exact hrun2

theorem allUsed_iff (nodes : List (Option Node)) :
    allUsed nodes = true ↔ ∀ v n, nodeAt nodes v = some n → n.edgesUsed = true := by
  unfold allUsed
  rw [List.all_eq_true]
  constructor
  · intro h v n hn
    exact h (some n) (List.mem_iff_getElem?.2 ⟨v, nodeAt_eq_some_iff.1 hn⟩)
  · intro h o ho
    cases o with
    | none => rfl
    | some n =>
      rcases List.mem_iff_getElem?.1 ho with ⟨i, hi⟩
      exact h i n (nodeAt_eq_some_iff.2 hi)

theorem pending_eq_inDegree {nodes : List (Option Node)}
    (h : ∀ v n, nodeAt nodes v = some n → n.edgesUsed = false) (v : Nat) :
    pending nodes v = inDegree nodes v := by
  unfold pending inDegree
  apply wsum_congr _ _ _ _ rfl
  intro i _
  cases hn : nodeAt nodes i with
  | none => rfl
  | some n => simp [wPend, wIn, h i n hn]

theorem wFuel_le_totalEdges (nodes : List (Option Node)) :
    (nodes.map wFuel).sum ≤ totalEdges nodes := by
  unfold totalEdges
  induction nodes with
  | nil => simp
  | cons o os ih =>
    cases o with
    | none => simpa [wFuel] using ih
    | some n =>
      simp only [List.map_cons, List.sum_cons, wFuel]
      split_ifs <;> omega

theorem KahnPre.kinv {nodes : List (Option Node)} {S : List Nat} (h : KahnPre nodes S) :
    KInv nodes S [] ∧ KComplete nodes S := by
  have hun : ∀ v n, nodeAt nodes v = some n → n.edgesUsed = false :=
    fun v n hn => (h.counters v n hn).2
  refine ⟨⟨h.targets, ?_, h.isSet, ?_, ?_, by simp, by simp, by simp⟩, ?_⟩
  · intro v n hn
    rw [pending_eq_inDegree hun]
    exact (h.counters v n hn).1
  · intro v hv
    obtain ⟨hs, hz⟩ := (h.roots v).1 hv
    obtain ⟨n, hn⟩ := Option.isSome_iff_exists.1 hs
    refine ⟨n, hn, hun v n hn, ?_⟩
    rw [(h.counters v n hn).1, hz]
    rfl
  · intro v n hn
    simp [hun v n hn]
  · intro v n hn _ h0
    apply (h.roots v).2
    refine ⟨by simp [hn], ?_⟩
    rw [(h.counters v n hn).1] at h0
    exact_mod_cast h0

theorem before_indexOf {l : List Nat} (hl : l.Nodup) {u v : Nat} (h : Before l u v) :
    l.indexOf u < l.indexOf v := by
  rcases h with ⟨l1, l2, rfl, hu⟩
  have hv : v ∉ l1 := by
    intro hv
    have := List.nodup_append.1 hl
    exact this.2.2 hv (List.mem_cons_self _ _) 
  rw [List.indexOf_append_of_mem hu, List.indexOf_append_of_not_mem hv]
  have := List.indexOf_lt_length.2 hu
  omega

/-- A list that holds every node and respects every edge excludes cycles. -/
theorem acyclic_of_order {nodes : List (Option Node)} {l : List Nat} (hl : l.Nodup)
    (h : ∀ u v, HasEdge nodes u v → Before l u v) : Acyclic nodes := by
  have key : ∀ u v, HasPath nodes u v → l.indexOf u < l.indexOf v := by
    intro u v hp
    induction hp with
    | single e => exact before_indexOf hl (h _ _ e)
    | tail _ e ih => exact lt_trans ih (before_indexOf hl (h _ _ e))
  intro u hu
  exact lt_irrefl _ (key u u hu)

theorem KInv.sound {nodes : List (Option Node)} {sorted : List Nat} (h : KInv nodes [] sorted)
    (hu : allUsed nodes = true) : Acyclic nodes := by
  rw [allUsed_iff] at hu
  apply acyclic_of_order h.nodup
  intro u v huv
  apply h.topo u v huv
  rcases huv with ⟨e, he, rfl⟩
  obtain ⟨n, hn⟩ := Option.isSome_iff_exists.1 (h.targets u e he)
  exact (h.listed _ n hn).1 (hu _ n hn)

theorem KInv.complete {nodes : List (Option Node)} {sorted : List Nat}
    (h : KInv nodes [] sorted) (hc : KComplete nodes []) (hac : Acyclic nodes) :
    allUsed nodes = true := by
  rw [allUsed_iff]
  by_contra hne
  push_neg at hne
  obtain ⟨v0, n0, hn0, hu0⟩ := hne
  let r : Fin nodes.length → Fin nodes.length → Prop := fun a b => HasPath nodes a b
  haveI : IsTrans (Fin nodes.length) r := ⟨fun _ _ _ => Relation.TransGen.trans⟩
  haveI : IsIrrefl (Fin nodes.length) r := ⟨fun a => hac a⟩
  have hwf : WellFounded r := Finite.wellFounded_of_trans_of_irrefl r
  let U : Set (Fin nodes.length) :=
    {a | ∃ n, nodeAt nodes a = some n ∧ n.edgesUsed = false}
  have hU : U.Nonempty := ⟨⟨v0, nodeAt_lt hn0⟩, n0, hn0, by simpa using hu0⟩
  obtain ⟨m, ⟨nm, hnm, hmu⟩, hmin⟩ := hwf.has_min U hU
  have hpos : 0 < pending nodes m := by
    have hcnt := h.counters m nm hnm
    by_contra hz
    have : nm.incomingEdges = 0 := by
      rw [hcnt]
      have : pending nodes m = 0 := by omega
      simp [this]
    exact absurd (hc m nm hnm hmu this) (by simp)
  obtain ⟨i, ni, hni, hw⟩ := wsum_pos (wPend m) rfl hpos
  have hiu : ni.edgesUsed = false := by
    by_contra hcu
    have : ni.edgesUsed = true := by simpa using hcu
    rw [wPend_used _ _ this] at hw
    exact lt_irrefl _ hw
  rw [wPend_unused _ hiu] at hw
  have hedge : HasEdge nodes i m := by
    rw [hasEdge_iff_cnt, outs_of_nodeAt hni]
    exact hw
  exact hmin ⟨i, nodeAt_lt hni⟩ ⟨ni, hni, hiu⟩ (Relation.TransGen.single hedge)

/-- Full account of a run of `topologicalSort_Kahn` on arguments that meet its
precondition. -/
theorem kahn_run {nodes : List (Option Node)} {S : List Nat} (h : KahnPre nodes S) :
    ∃ nodes1 sorted1, topologicalSort_Kahn nodes S [] =
        some (allUsed nodes1, nodes1, [], sorted1) ∧
      KInv nodes1 [] sorted1 ∧ SameGraph nodes1 nodes ∧
      (allUsed nodes1 = true ↔ Acyclic nodes) := by
  obtain ⟨hinv, hcomp⟩ := h.kinv
  obtain ⟨nodes1, sorted1, hrun, hinv1, hsame, hcomp1⟩ :=
    kahnLoop_spec (S.length + totalEdges nodes) nodes S [] hinv
      (by have := wFuel_le_totalEdges nodes; omega)
  refine ⟨nodes1, sorted1, ?_, hinv1, hsame, ?_⟩
  · simp [topologicalSort_Kahn, hrun]
  · constructor
    · intro hu
      exact hsame.sgAcyclic.1 (hinv1.sound hu)
    · intro hac
      exact hinv1.complete (hcomp1 hcomp) (hsame.sgAcyclic.2 hac)

end TopologicalSorting


/-! ## `computationReset` recomputes counters, marks and starting nodes -/

open TopologicalSorting

namespace Depth

theorem nodeAt_cons_succ (o : Option Node) (rest : List (Option Node)) (k : Nat) :
    nodeAt (o :: rest) (k + 1) = nodeAt rest k := by
  simp [nodeAt]

theorem nodeAt_map (f : Node → Node) (nodes : List (Option Node)) (v : Nat) :
    nodeAt (nodes.map (Option.map f)) v = (nodeAt nodes v).map f := by
  unfold nodeAt
  rw [List.getElem?_map]
  cases h : nodes[v]? with
  | none => rfl
  | some o => cases o <;> rfl

theorem resetMarks_spec (i : Nat) (nodes : List (Option Node)) (S : List Nat)
    (hb : i + nodes.length ≤ 256) :
    (resetMarks i nodes S).1 = nodes.map (Option.map Node.clear) ∧
    (S.Sorted (· < ·) → (resetMarks i nodes S).2.Sorted (· < ·)) ∧
    ∀ v, v ∈ (resetMarks i nodes S).2 ↔ v ∈ S ∨ (i ≤ v ∧ (nodeAt nodes (v - i)).isSome = true) := by
  induction nodes generalizing i S with
  | nil => simp [resetMarks, nodeAt]
  | cons o rest ih =>
    have hshift : ∀ v, (i ≤ v ∧ (nodeAt (o :: rest) (v - i)).isSome = true) ↔
        ((v = i ∧ o.isSome = true) ∨ (i + 1 ≤ v ∧ (nodeAt rest (v - (i + 1))).isSome = true)) := by
      intro v
      by_cases hv : v = i
      · subst hv
        simp [nodeAt]
      · by_cases hlt : i ≤ v
        · have : v - i = (v - (i + 1)) + 1 := by omega
          rw [this, nodeAt_cons_succ]
          simp [hv]
          intro _
          omega
        · have h1 : ¬ i + 1 ≤ v := by omega
          simp [hlt, h1, hv]
    cases o with
    | none =>
      obtain ⟨h1, h2, h3⟩ := ih (i + 1) S (by simp at hb; omega)
      refine ⟨by simp [resetMarks, h1], by simpa [resetMarks] using h2, fun v => ?_⟩
      rw [hshift v]
      simp only [resetMarks]
      rw [h3 v]
      simp
    | some n =>
      have hmod : i % 256 = i := Nat.mod_eq_of_lt (by simp at hb; omega)
      obtain ⟨h1, h2, h3⟩ := ih (i + 1) (setInsert i S) (by simp at hb; omega)
      refine ⟨by simp [resetMarks, hmod, h1, Node.clear], fun hS => ?_, fun v => ?_⟩
      · simp only [resetMarks, hmod]
        exact h2 (sorted_setInsert hS)
      · rw [hshift v]
        simp only [resetMarks, hmod]
        rw [h3 v, mem_setInsert]
        simp
        tauto

theorem countEdges_spec (es : List Edge) (nodes : List (Option Node)) (S : List Nat)
    (ht : ∀ e ∈ es, (nodeAt nodes e.to_).isSome = true) (hinv : CInv nodes S) :
    ∃ nodes1 S1, countEdges es nodes S = some (nodes1, S1) ∧ nodes1.length = nodes.length ∧
      (∀ v, nodeAt nodes1 v = (nodeAt nodes v).map fun n =>
        { n with incomingEdges := n.incomingEdges + (cnt es v : Int) }) ∧
      CInv nodes1 S1 := by
  induction es generalizing nodes S with
  | nil =>
    refine ⟨nodes, S, rfl, rfl, fun v => ?_, hinv⟩
    cases h : nodeAt nodes v <;> simp [cnt]
  | cons e es ih =>
    obtain ⟨n, hn⟩ := Option.isSome_iff_exists.1 (ht e (List.mem_cons_self _ _))
    have hlt := nodeAt_lt hn
    have hat : ∀ v, nodeAt (nodes.set e.to_ (some { n with incomingEdges := n.incomingEdges + 1 })) v
        = if v = e.to_ then some { n with incomingEdges := n.incomingEdges + 1 }
          else nodeAt nodes v := fun v => nodeAt_set _ v hlt
    have ht1 : ∀ e1 ∈ es, (nodeAt (nodes.set e.to_
        (some { n with incomingEdges := n.incomingEdges + 1 })) e1.to_).isSome = true := by
      intro e1 he1
      rw [hat]
      split_ifs
      · rfl
      · exact ht e1 (List.mem_cons_of_mem _ he1)
    have hn0 := hinv.nonneg _ n hn
    have hinv1 : CInv (nodes.set e.to_ (some { n with incomingEdges := n.incomingEdges + 1 }))
        (if n.incomingEdges + 1 = 1 then S.erase e.to_ else S) := by
      constructor
      · split_ifs
        · exact List.Pairwise.erase _ hinv.isSet
        · exact hinv.isSet
      · intro v m hm
        rw [hat] at hm
        split_ifs at hm with hv
        · simp at hm
          subst hm
          simp
          omega
        · exact hinv.nonneg v m hm
      · intro v
        rw [hat]
        by_cases hv : v = e.to_
        · subst hv
          simp
          have hnd := List.Sorted.nodup hinv.isSet
          split_ifs with h1
          · rw [hnd.mem_erase_iff]
            constructor
            · intro h; exact absurd rfl h.1
            · intro h; omega
          · constructor
            · intro h
              obtain ⟨m, hm, hm0⟩ := (hinv.zero _).1 h
              rw [hn] at hm
              simp at hm
              subst hm
              omega
            · intro h; omega
        · simp only [hv, if_false]
          rw [← hinv.zero v]
          split_ifs
          · exact List.mem_erase_of_ne hv
          · rfl
    obtain ⟨nodes1, S1, hrun, hlen, hnodes, hfin⟩ := ih _ _ ht1 hinv1
    refine ⟨nodes1, S1, ?_, by simpa using hlen, fun v => ?_, hfin⟩
    · simp only [countEdges, hn]
      exact hrun
    · rw [hnodes v, hat v, cnt_cons]
      by_cases hv : v = e.to_
      · subst hv
        simp [hn]
        ring
      · have hv2 : ¬ e.to_ = v := fun h => hv h.symm
        simp [hv, hv2]

theorem resetCounts_spec (rest nodes : List (Option Node)) (S : List Nat)
    (ht : ∀ n, some n ∈ rest → ∀ e ∈ n.edgesOut, (nodeAt nodes e.to_).isSome = true)
    (hinv : CInv nodes S) :
    ∃ nodes1 S1, resetCounts rest nodes S = some (nodes1, S1) ∧ nodes1.length = nodes.length ∧
      (∀ v, nodeAt nodes1 v = (nodeAt nodes v).map fun n =>
        { n with incomingEdges := n.incomingEdges + ((rest.map (wIn v)).sum : Nat) }) ∧
      CInv nodes1 S1 := by
  induction rest generalizing nodes S with
  | nil =>
    refine ⟨nodes, S, rfl, rfl, fun v => ?_, hinv⟩
    cases h : nodeAt nodes v <;> simp
  | cons o rest ih =>
    cases o with
    | none =>
      obtain ⟨nodes1, S1, hrun, hlen, hnodes, hfin⟩ :=
        ih nodes S (fun n hn => ht n (List.mem_cons_of_mem _ hn)) hinv
      refine ⟨nodes1, S1, by simpa [resetCounts] using hrun, hlen, fun v => ?_, hfin⟩
      rw [hnodes v]
      simp [wIn]
    | some n =>
      obtain ⟨nodes1, S1, hrun1, hlen1, hnodes1, hinv1⟩ :=
        countEdges_spec n.edgesOut nodes S (ht n (List.mem_cons_self _ _)) hinv
      have ht1 : ∀ m, some m ∈ rest → ∀ e ∈ m.edgesOut, (nodeAt nodes1 e.to_).isSome = true := by
        intro m hm e he
        rw [hnodes1]
        have := ht m (List.mem_cons_of_mem _ hm) e he
        simpa using this
      obtain ⟨nodes2, S2, hrun2, hlen2, hnodes2, hinv2⟩ := ih nodes1 S1 ht1 hinv1
      refine ⟨nodes2, S2, ?_, hlen2.trans hlen1, fun v => ?_, hinv2⟩
      · simp only [resetCounts, hrun1]
        exact hrun2
      · rw [hnodes2 v, hnodes1 v]
        cases h : nodeAt nodes v with
        | none => rfl
        | some m =>
          simp [wIn]
          ring

theorem inDegree_map_clear (nodes : List (Option Node)) (v : Nat) :
    ((nodes.map (Option.map Node.clear)).map (wIn v)).sum = inDegree nodes v := by
  unfold inDegree
  rw [List.map_map]
  congr 1
  apply List.map_congr_left
  intro o _
  cases o <;> simp [wIn, Node.clear]

theorem computationReset_spec (d : Depth) (hlen256 : d.nodes.length ≤ 256)
    (ht : ∀ u e, e ∈ outs d.nodes u → (nodeAt d.nodes e.to_).isSome = true)
    (hS : d.startingNodes.Sorted (· < ·))
    (hSp : ∀ v ∈ d.startingNodes, (nodeAt d.nodes v).isSome = true) :
    ∃ nodes1 S1, computationReset d = some { d with nodes := nodes1, startingNodes := S1 } ∧
      nodes1.length = d.nodes.length ∧
      (∀ v, nodeAt nodes1 v = (nodeAt d.nodes v).map fun n =>
        { n with edgesUsed := false, incomingEdges := (inDegree d.nodes v : Int) }) ∧
      S1.Sorted (· < ·) ∧
      ∀ v, v ∈ S1 ↔ (nodeAt d.nodes v).isSome = true ∧ inDegree d.nodes v = 0 := by
  obtain ⟨hm1, hm2, hm3⟩ := resetMarks_spec 0 d.nodes d.startingNodes (by omega)
  have hatm : ∀ v, nodeAt (resetMarks 0 d.nodes d.startingNodes).1 v
      = (nodeAt d.nodes v).map Node.clear := by
    intro v
    rw [hm1, nodeAt_map]
  have hinv : CInv (resetMarks 0 d.nodes d.startingNodes).1
      (resetMarks 0 d.nodes d.startingNodes).2 := by
    constructor
    · exact hm2 hS
    · intro v n hn
      rw [hatm] at hn
      cases h : nodeAt d.nodes v with
      | none => simp [h] at hn
      | some m =>
        simp [h] at hn
        subst hn
        simp [Node.clear]
    · intro v
      rw [hm3 v, hatm]
      simp only [Nat.zero_le, true_and, Nat.sub_zero]
      constructor
      · rintro (h | h)
        · obtain ⟨n, hn⟩ := Option.isSome_iff_exists.1 (hSp v h)
          exact ⟨n.clear, by simp [hn], rfl⟩
        · obtain ⟨n, hn⟩ := Option.isSome_iff_exists.1 h
          exact ⟨n.clear, by simp [hn], rfl⟩
      · rintro ⟨n, hn, _⟩
        right
        cases h : nodeAt d.nodes v with
        | none => simp [h] at hn
        | some m => rfl
  have htm : ∀ n, some n ∈ (resetMarks 0 d.nodes d.startingNodes).1 → ∀ e ∈ n.edgesOut,
      (nodeAt (resetMarks 0 d.nodes d.startingNodes).1 e.to_).isSome = true := by
    intro n hn e he
    rcases List.mem_iff_getElem?.1 hn with ⟨i, hi⟩
    have hi2 := nodeAt_eq_some_iff.2 hi
    rw [hatm] at hi2
    rw [hatm]
    cases h : nodeAt d.nodes i with
    | none => simp [h] at hi2
    | some m =>
      simp [h] at hi2
      subst hi2
      have := ht i e (by rw [outs_of_nodeAt h]; exact he)
      simpa using this
  obtain ⟨nodes1, S1, hrun, hlen, hnodes, hfin⟩ := resetCounts_spec _ _ _ htm hinv
  have hdeg : ∀ v, (((resetMarks 0 d.nodes d.startingNodes).1.map (wIn v)).sum : Nat)
      = inDegree d.nodes v := by
    intro v
    rw [hm1, inDegree_map_clear]
  have hfinal : ∀ v, nodeAt nodes1 v = (nodeAt d.nodes v).map fun n =>
      { n with edgesUsed := false, incomingEdges := (inDegree d.nodes v : Int) } := by
    intro v
    rw [hnodes v, hatm v, hdeg v]
    cases h : nodeAt d.nodes v with
    | none => rfl
    | some m => simp [Node.clear]
  refine ⟨nodes1, S1, ?_, ?_, hfinal, hfin.isSet, fun v => ?_⟩
  · simp only [computationReset, hrun]
  · rw [hlen, hm1]
    simp
  · rw [hfin.zero v, hfinal v]
    cases h : nodeAt d.nodes v with
    | none => simp
    | some m => simp

end Depth


/-! ## Containers with the same edge targets; settled containers -/

namespace TopologicalSorting

theorem cnt_eq_count (es : List Edge) (v : Nat) : cnt es v = (es.map Edge.to_).count v := by
  unfold cnt
  induction es with
  | nil => rfl
  | cons e es ih =>
    simp only [List.countP_cons, List.map_cons, List.count_cons, ih]
    by_cases h : e.to_ = v <;> simp [h]

theorem TargetsEq.teRefl (a : List (Option Node)) : TargetsEq a a := ⟨rfl, fun _ => rfl⟩

theorem TargetsEq.teSymm {a b : List (Option Node)} (h : TargetsEq a b) : TargetsEq b a :=
  ⟨h.1.symm, fun v => (h.2 v).symm⟩

theorem TargetsEq.teTrans {a b c : List (Option Node)} (h1 : TargetsEq a b)
    (h2 : TargetsEq b c) : TargetsEq a c :=
  ⟨h1.1.trans h2.1, fun v => (h1.2 v).trans (h2.2 v)⟩

theorem SameGraph.sgTargetsEq {a b : List (Option Node)} (h : SameGraph a b) : TargetsEq a b := by
  refine ⟨h.1, fun v => ?_⟩
  have := h.2 v
  cases ha : nodeAt a v <;> cases hb : nodeAt b v <;> simp [ha, hb, Node.core] at this ⊢
  rw [this.1]

theorem TargetsEq.teIsSome {a b : List (Option Node)} (h : TargetsEq a b) (v : Nat) :
    (nodeAt a v).isSome = (nodeAt b v).isSome := by
  have := h.2 v
  cases ha : nodeAt a v <;> cases hb : nodeAt b v <;> simp [ha, hb] at this ⊢

theorem TargetsEq.teTargets {a b : List (Option Node)} (h : TargetsEq a b) (v : Nat) :
    (outs a v).map Edge.to_ = (outs b v).map Edge.to_ := by
  have := h.2 v
  unfold outs
  cases ha : nodeAt a v <;> cases hb : nodeAt b v <;> simp [ha, hb] at this ⊢
  exact this

theorem TargetsEq.teCnt {a b : List (Option Node)} (h : TargetsEq a b) (u v : Nat) :
    cnt (outs a u) v = cnt (outs b u) v := by
  rw [cnt_eq_count, cnt_eq_count, h.teTargets]

theorem TargetsEq.teHasEdge {a b : List (Option Node)} (h : TargetsEq a b) (u v : Nat) :
    HasEdge a u v ↔ HasEdge b u v := by
  rw [hasEdge_iff_cnt, hasEdge_iff_cnt, h.teCnt]

theorem TargetsEq.teHasEdgeEq {a b : List (Option Node)} (h : TargetsEq a b) :
    HasEdge a = HasEdge b := by
  funext x y
  exact propext (h.teHasEdge x y)

theorem TargetsEq.teAcyclic {a b : List (Option Node)} (h : TargetsEq a b) :
    Acyclic a ↔ Acyclic b := by
  simp [Acyclic, HasPath, h.teHasEdgeEq]

theorem TargetsEq.teInDegree {a b : List (Option Node)} (h : TargetsEq a b) (v : Nat) :
    inDegree a v = inDegree b v := by
  unfold TopologicalSorting.inDegree
  apply wsum_congr _ _ _ _ h.1
  intro i _
  rw [wIn_eq_outs, wIn_eq_outs, h.teCnt]

theorem PathLen.monoLen {a b : List (Option Node)} (h : ∀ u v, HasEdge a u v → HasEdge b u v)
    {u v k : Nat} (hp : PathLen a u v k) : PathLen b u v k := by
  induction hp with
  | refl => exact PathLen.refl _
  | step _ e ih => exact PathLen.step ih (h _ _ e)

theorem HasPath.monoPath {a b : List (Option Node)} (h : ∀ u v, HasEdge a u v → HasEdge b u v)
    {u v : Nat} (hp : HasPath a u v) : HasPath b u v :=
  Relation.TransGen.mono h hp

theorem nodes_ext {a b : List (Option Node)} (hlen : a.length = b.length)
    (h : ∀ v, nodeAt a v = nodeAt b v) : a = b := by
  apply List.ext_getElem? 
  intro i
  by_cases hi : i < a.length
  · have hb : i < b.length := hlen ▸ hi
    have := h i
    unfold nodeAt at this
    rw [List.getElem?_eq_getElem hi, List.getElem?_eq_getElem hb] at this ⊢
    simpa using this
  · rw [List.getElem?_eq_none (by omega), List.getElem?_eq_none (by omega)]

theorem Settled.sameGraph {g res : List (Option Node)} (h : Settled g res) :
    SameGraph res g := by
  refine ⟨h.1, fun v => ?_⟩
  rw [h.2 v]
  cases nodeAt g v <;> simp [Node.core]

theorem Settled.of_sameGraph {g g1 res : List (Option Node)} (h : Settled g1 res)
    (hs : SameGraph g1 g) : Settled g res := by
  refine ⟨h.1.trans hs.1, fun v => ?_⟩
  rw [h.2 v, hs.sgInDegree v]
  have := hs.2 v
  cases h1 : nodeAt g1 v <;> cases h2 : nodeAt g v <;> simp [h1, h2, Node.core] at this ⊢
  simp [this.1, this.2]

theorem Settled.kahnPre {g res : List (Option Node)} {S : List Nat} (h : Settled g res)
    (ht : ∀ u e, e ∈ outs g u → (nodeAt g e.to_).isSome = true)
    (hS : S.Sorted (· < ·))
    (hr : ∀ v, v ∈ S ↔ (nodeAt g v).isSome = true ∧ inDegree g v = 0) : KahnPre res S := by
  have hs := h.sameGraph
  constructor
  · intro u e he
    rw [hs.sgOuts] at he
    rw [hs.sgIsSome]
    exact ht u e he
  · intro v n hn
    rw [h.2 v] at hn
    rw [hs.sgInDegree]
    cases hg : nodeAt g v with
    | none => simp [hg] at hn
    | some m =>
      simp [hg] at hn
      subst hn
      simp
  · exact hS
  · intro v
    rw [hr v, hs.sgIsSome, hs.sgInDegree]

end TopologicalSorting


/-! ## Allocation of nodes and insertion of an edge -/

open TopologicalSorting

namespace Depth

theorem nodeAt_none_getElem {nodes : List (Option Node)} {i : Nat} (h : nodeAt nodes i = none)
    (hi : i < nodes.length) : nodes[i]? = some none := by
  unfold nodeAt at h
  rw [List.getElem?_eq_getElem hi] at h ⊢
  cases hx : nodes[i] with
  | none => rfl
  | some n => simp [hx] at h

theorem materialise_length (nodes : List (Option Node)) (i : Nat) :
    (materialise nodes i).length = nodes.length := by
  unfold materialise
  split <;> simp

theorem nodeAt_materialise {nodes : List (Option Node)} {i : Nat} (hi : i < nodes.length)
    (v : Nat) : nodeAt (materialise nodes i) v =
      if v = i then some ((nodeAt nodes i).getD Node.new) else nodeAt nodes v := by
  unfold materialise
  cases h : nodeAt nodes i with
  | none =>
    simp only [Option.getD_none]
    exact nodeAt_set _ v hi
  | some n =>
    simp only [Option.getD_some]
    split_ifs with hv
    · subst hv; exact h
    · rfl

theorem outs_materialise {nodes : List (Option Node)} {i : Nat} (hi : i < nodes.length)
    (u : Nat) : outs (materialise nodes i) u = outs nodes u := by
  unfold outs
  rw [nodeAt_materialise hi]
  split_ifs with hu
  · subst hu
    cases h : nodeAt nodes u <;> simp [Node.new]
  · rfl

theorem inDegree_materialise {nodes : List (Option Node)} {i : Nat} (hi : i < nodes.length)
    (v : Nat) : inDegree (materialise nodes i) v = inDegree nodes v := by
  unfold inDegree
  apply wsum_congr _ _ _ _ (materialise_length nodes i)
  intro k _
  rw [wIn_eq_outs, wIn_eq_outs, outs_materialise hi]

theorem inDegree_pos {nodes : List (Option Node)} {v : Nat} (h : 0 < inDegree nodes v) :
    ∃ u, HasEdge nodes u v := by
  obtain ⟨i, n, hn, hw⟩ := wsum_pos (wIn v) rfl h
  refine ⟨i, ?_⟩
  rw [hasEdge_iff_cnt, outs_of_nodeAt hn]
  exact hw

theorem inDegree_eq_zero_of_absent {nodes : List (Option Node)} {v : Nat}
    (ht : ∀ u e, e ∈ outs nodes u → (nodeAt nodes e.to_).isSome = true)
    (h : nodeAt nodes v = none) : inDegree nodes v = 0 := by
  by_contra hc
  obtain ⟨u, e, he, rfl⟩ := inDegree_pos (Nat.pos_of_ne_zero hc)
  have := ht u e he
  simp [h] at this

theorem hasEdge_of_inDegree {nodes : List (Option Node)} {u v : Nat} (h : HasEdge nodes u v) :
    0 < inDegree nodes v := by
  obtain ⟨n, hn⟩ := hasEdge_allocated h
  have h1 := le_wsum (wIn v) (nodeAt_eq_some_iff.1 hn)
  rw [hasEdge_iff_cnt, outs_of_nodeAt hn] at h
  have : wIn v (some n) = cnt n.edgesOut v := rfl
  unfold inDegree
  omega

theorem ready_materialise {nodes : List (Option Node)} {S order : List Nat}
    (h : Ready nodes S order) {i : Nat} (hi : i < 256) : Ready (materialise nodes i) S order := by
  have hlt : i < nodes.length := h.size ▸ hi
  have hsome : ∀ v, (nodeAt nodes v).isSome = true → (nodeAt (materialise nodes i) v).isSome = true := by
    intro v hv
    rw [nodeAt_materialise hlt]
    split_ifs with h1
    · rfl
    · exact hv
  have hedge : HasEdge (materialise nodes i) = HasEdge nodes := by
    funext u v
    simp [HasEdge, outs_materialise hlt]
  have hnode : ∀ v n, nodeAt (materialise nodes i) v = some n →
      nodeAt nodes v = some n ∨ (nodeAt nodes v = none ∧ n = Node.new) := by
    intro v n hn
    rw [nodeAt_materialise hlt] at hn
    split_ifs at hn with hv
    · subst hv
      cases hold : nodeAt nodes v with
      | none =>
        simp [hold] at hn
        exact Or.inr ⟨rfl, hn.symm⟩
      | some m =>
        simp [hold] at hn
        subst hn
        exact Or.inl rfl
    · exact Or.inl hn
  constructor
  · rw [materialise_length, h.size]
  · intro u e he
    rw [outs_materialise hlt] at he
    exact hsome _ (h.targets u e he)
  · intro v n hn
    rw [inDegree_materialise hlt]
    rcases hnode v n hn with hold | ⟨hold, rfl⟩
    · exact h.counters v n hold
    · simp [Node.new, inDegree_eq_zero_of_absent h.targets hold]
  · exact h.isSet
  · intro v hv
    rw [inDegree_materialise hlt]
    exact ⟨hsome v (h.roots v hv).1, (h.roots v hv).2⟩
  · simpa [Acyclic, HasPath, hedge] using h.acyclic
  · intro u
    rw [outs_materialise hlt]
    exact h.simple u
  · rw [hedge]; exact h.noZero
  · exact h.orderNodup
  · intro v hv
    exact hsome v (h.orderAlloc v hv)
  · rw [hedge]; exact h.orderTopo
  · intro v n hn
    rcases hnode v n hn with hold | ⟨hold, rfl⟩
    · obtain ⟨h0, u, hp⟩ := h.depthReal v n hold
      exact ⟨h0, u, hp.monoLen (fun a b hab => by rw [hedge]; exact hab)⟩
    · exact ⟨by simp [Node.new], v, by simpa [Node.new] using PathLen.refl v⟩

theorem DInv.ready {d : Depth} (h : DInv d) : Ready d.nodes d.startingNodes d.order :=
  ⟨h.size, h.pre.targets, h.pre.counters, h.pre.isSet, fun v hv => (h.pre.roots v).1 hv,
    h.acyclic, h.simple, h.noZero, h.orderNodup, h.orderAlloc, h.orderTopo, h.depthReal⟩

theorem materialise_of_some {nodes : List (Option Node)} {i : Nat}
    (h : (nodeAt nodes i).isSome = true) : materialise nodes i = nodes := by
  unfold materialise
  obtain ⟨n, hn⟩ := Option.isSome_iff_exists.1 h
  simp [hn]

end Depth


/-! ## The tentative edge of `addEdge` -/

open TopologicalSorting

namespace Depth

theorem retype_none_iff (to_ flag : Nat) (es : List Edge) :
    retype to_ flag es = none ↔ ∀ e ∈ es, e.to_ ≠ to_ := by
  induction es with
  | nil => simp [retype]
  | cons e es ih =>
    unfold retype
    split_ifs with h
    · simp [h]
    · simp [ih, h]

section insert

variable {nodes : List (Option Node)} {S order : List Nat} {from_ to_ : Nat} {nf nt : Node}

theorem nodeAt_tentative (nodes : List (Option Node)) (nf nt : Node) (flag : Nat)
    (hlen : nodes.length = 256) (hf : from_ < 256)
    (ht : to_ < 256) (v : Nat) :
    nodeAt (tentative nodes from_ to_ flag nf nt) v =
      if v = to_ then some { nt with incomingEdges := nt.incomingEdges + 1 }
      else if v = from_ then some { nf with edgesOut := nf.edgesOut ++ [⟨from_, to_, flag⟩] }
      else nodeAt nodes v := by
  unfold tentative
  rw [nodeAt_set _ v (by simp [hlen, ht])]
  split_ifs with h1 h2
  · rfl
  · subst h2
    exact nodeAt_set_self _ (by simp [hlen, hf])
  · exact nodeAt_set_ne _ (fun h => h2 h.symm)

theorem outs_tentative (flag : Nat) (hlen : nodes.length = 256) (hf : from_ < 256)
    (ht : to_ < 256) (hne : from_ ≠ to_) (hnf : nodeAt nodes from_ = some nf)
    (hnt : nodeAt nodes to_ = some nt) (u : Nat) :
    outs (tentative nodes from_ to_ flag nf nt) u =
      if u = from_ then outs nodes from_ ++ [⟨from_, to_, flag⟩] else outs nodes u := by
  unfold outs
  rw [nodeAt_tentative _ _ _ flag hlen hf ht]
  by_cases h1 : u = to_
  · subst h1
    have : ¬ u = from_ := fun h => hne h.symm
    simp [this, hnt]
  · by_cases h2 : u = from_
    · subst h2
      simp [h1, hnf]
    · simp [h1, h2]

theorem hasEdge_tentative (flag : Nat) (hlen : nodes.length = 256) (hf : from_ < 256)
    (ht : to_ < 256) (hne : from_ ≠ to_) (hnf : nodeAt nodes from_ = some nf)
    (hnt : nodeAt nodes to_ = some nt) (u v : Nat) :
    HasEdge (tentative nodes from_ to_ flag nf nt) u v ↔
      HasEdge nodes u v ∨ (u = from_ ∧ v = to_) := by
  unfold HasEdge
  rw [outs_tentative flag hlen hf ht hne hnf hnt]
  by_cases h : u = from_
  · subst h
    simp
    constructor
    · rintro ⟨e, he | he, hv⟩
      · exact Or.inl ⟨e, he, hv⟩
      · subst he; exact Or.inr hv.symm
    · rintro (⟨e, he, hv⟩ | hv)
      · exact ⟨e, Or.inl he, hv⟩
      · exact ⟨_, Or.inr rfl, hv.symm⟩
  · simp [h]

theorem cnt_append (a b : List Edge) (v : Nat) : cnt (a ++ b) v = cnt a v + cnt b v := by
  simp [cnt, List.countP_append]

theorem inDegree_tentative (flag : Nat) (hnf : nodeAt nodes from_ = some nf)
    (hne : from_ ≠ to_) (hnt : nodeAt nodes to_ = some nt) (v : Nat) :
    inDegree (tentative nodes from_ to_ flag nf nt) v
      = inDegree nodes v + if v = to_ then 1 else 0 := by
  unfold inDegree tentative
  have h1 := wsum_set (wIn v) nodes from_
    (some { nf with edgesOut := nf.edgesOut ++ [⟨from_, to_, flag⟩] }) _
    (nodeAt_eq_some_iff.1 hnf)
  have hnt3 : nodeAt (nodes.set from_
      (some { nf with edgesOut := nf.edgesOut ++ [⟨from_, to_, flag⟩] })) to_ = some nt := by
    rw [nodeAt_set_ne _ hne]; exact hnt
  have h2 := wsum_set (wIn v) _ to_ (some { nt with incomingEdges := nt.incomingEdges + 1 }) _
    (nodeAt_eq_some_iff.1 hnt3)
  have e1 : wIn v (some { nf with edgesOut := nf.edgesOut ++ [⟨from_, to_, flag⟩] })
      = wIn v (some nf) + if v = to_ then 1 else 0 := by
    simp only [wIn, cnt_append]
    congr 1
    simp only [cnt, List.countP_cons, List.countP_nil]
    by_cases hv : v = to_
    · subst hv; simp
    · have : ¬ to_ = v := fun h => hv h.symm
      simp [hv, this]
  have e2 : wIn v (some { nt with incomingEdges := nt.incomingEdges + 1 }) = wIn v (some nt) := rfl
  omega

theorem kinv_tentative (flag : Nat) (h : Ready nodes S order) (hf : from_ < 256) (ht : to_ < 256)
    (hne : from_ ≠ to_) (hnf : nodeAt nodes from_ = some nf) (hnt : nodeAt nodes to_ = some nt) :
    KInv (tentative nodes from_ to_ flag nf nt) (S.erase to_) [] := by
  have hat := nodeAt_tentative nodes nf nt flag h.size hf ht
  have hdeg := inDegree_tentative flag hnf hne hnt
  have hunused : ∀ v n, nodeAt (tentative nodes from_ to_ flag nf nt) v = some n →
      n.edgesUsed = false := by
    intro v n hn
    rw [hat] at hn
    split_ifs at hn with h1 h2
    · simp at hn; subst hn; exact (h.counters _ nt hnt).2
    · simp at hn; subst hn; exact (h.counters _ nf hnf).2
    · exact (h.counters v n hn).2
  have hcount : ∀ v n, nodeAt (tentative nodes from_ to_ flag nf nt) v = some n →
      n.incomingEdges = (inDegree (tentative nodes from_ to_ flag nf nt) v : Int) := by
    intro v n hn
    rw [hdeg]
    rw [hat] at hn
    by_cases h1 : v = to_
    · subst h1
      simp at hn; subst hn
      simp [(h.counters _ nt hnt).1]
    · simp only [h1, if_false] at hn ⊢
      by_cases h2 : v = from_
      · subst h2
        simp at hn; subst hn
        simp [(h.counters _ nf hnf).1]
      · simp only [h2, if_false] at hn
        simp [(h.counters v n hn).1]
  have hsome : ∀ v, (nodeAt nodes v).isSome = true →
      (nodeAt (tentative nodes from_ to_ flag nf nt) v).isSome = true := by
    intro v hv
    rw [hat]
    split_ifs <;> simp [hv]
  constructor
  · intro u e he
    rw [outs_tentative flag h.size hf ht hne hnf hnt] at he
    split_ifs at he with hu
    · rcases List.mem_append.1 he with he | he
      · exact hsome _ (h.targets _ e he)
      · simp at he
        subst he
        exact hsome _ (by simp [hnt])
    · exact hsome _ (h.targets u e he)
  · intro v n hn
    rw [pending_eq_inDegree hunused]
    exact hcount v n hn
  · exact List.Pairwise.erase _ h.isSet
  · intro v hv
    have hnd := List.Sorted.nodup h.isSet
    obtain ⟨hvt, hvS⟩ := hnd.mem_erase_iff.1 hv
    obtain ⟨hp, hz⟩ := h.roots v hvS
    obtain ⟨n, hn⟩ := Option.isSome_iff_exists.1 (hsome v hp)
    refine ⟨n, hn, hunused v n hn, ?_⟩
    rw [hcount v n hn, hdeg, hz]
    simp [hvt]
  · intro v n hn
    simp [hunused v n hn]
  · simp
  · simp
  · simp

theorem kcomplete_tentative (flag : Nat) (h : Ready nodes S order) (hf : from_ < 256) (ht : to_ < 256)
    (hne : from_ ≠ to_) (hnf : nodeAt nodes from_ = some nf) (hnt : nodeAt nodes to_ = some nt)
    (hall : ∀ v, v ≠ to_ → (nodeAt nodes v).isSome = true → inDegree nodes v = 0 → v ∈ S) :
    KComplete (tentative nodes from_ to_ flag nf nt) (S.erase to_) := by
  intro v n hn _ hz
  have hat := nodeAt_tentative nodes nf nt flag h.size hf ht v
  have hc := (kinv_tentative flag h hf ht hne hnf hnt).counters v n hn
  have hun : ∀ v n, nodeAt (tentative nodes from_ to_ flag nf nt) v = some n →
      n.edgesUsed = false := by
    intro v n hn
    have := (kinv_tentative flag h hf ht hne hnf hnt).listed v n hn
    simpa using this
  rw [pending_eq_inDegree hun, inDegree_tentative flag hnf hne hnt, hz] at hc
  have hvt : v ≠ to_ := by
    rintro rfl
    simp at hc
    omega
  simp only [hvt, if_false, add_zero] at hc
  have hdz : inDegree nodes v = 0 := by exact_mod_cast hc.symm
  rw [(List.Sorted.nodup h.isSet).mem_erase_iff]
  refine ⟨hvt, hall v hvt ?_ hdz⟩
  rw [hat] at hn
  simp only [hvt, if_false] at hn
  split_ifs at hn with h2
  · subst h2; simp [hnf]
  · simp [hn]

end insert

end Depth


/-! ## The branches of `addEdge` -/

open TopologicalSorting

namespace Depth

theorem addEdge_guard (d : Depth) (c_map : ColorMap) (from_ to_ : Nat) (coords : vec2 × vec2)
    (flag : Nat) (h : from_ = to_ ∨ from_ = 0 ∨ to_ = 0) :
    addEdge d c_map from_ to_ coords flag = some (false, d) := by
  simp [addEdge, h]

theorem addEdge_retype (d : Depth) (c_map : ColorMap) (from_ to_ : Nat) (coords : vec2 × vec2)
    (flag : Nat) (h : ¬ (from_ = to_ ∨ from_ = 0 ∨ to_ = 0)) {nf : Node} {es : List Edge}
    (hnf : nodeAt (materialise (materialise d.nodes from_) to_) from_ = some nf)
    (hre : retype to_ flag nf.edgesOut = some es) :
    addEdge d c_map from_ to_ coords flag = some (true, { d with
      nodes := (materialise (materialise d.nodes from_) to_).set from_
        (some { nf with edgesOut := es })
      graphicData := relocate c_map from_ to_ (record coords flag) d.graphicData }) := by
  simp [addEdge, h, hnf, hre]

theorem addEdge_accept (d : Depth) (c_map : ColorMap) (from_ to_ : Nat) (coords : vec2 × vec2)
    (flag : Nat) (h : ¬ (from_ = to_ ∨ from_ = 0 ∨ to_ = 0)) {nf nt : Node}
    {nodes5 : List (Option Node)} {S5 tmp : List Nat} {d1 : Depth}
    (hnf : nodeAt (materialise (materialise d.nodes from_) to_) from_ = some nf)
    (hre : retype to_ flag nf.edgesOut = none)
    (hnt : nodeAt ((materialise (materialise d.nodes from_) to_).set from_
      (some { nf with edgesOut := nf.edgesOut ++ [⟨from_, to_, flag⟩] })) to_ = some nt)
    (hk : topologicalSort_Kahn
      (tentative (materialise (materialise d.nodes from_) to_) from_ to_ flag nf nt)
      (d.startingNodes.erase to_) [] = some (true, nodes5, S5, tmp))
    (hc : computationReset { d with nodes := nodes5, startingNodes := S5 } = some d1) :
    addEdge d c_map from_ to_ coords flag = some (true, { d1 with
      graphicData := d1.graphicData ++ [record coords flag]
      order := tmp }) := by
  unfold tentative at hk
  simp [addEdge, h, hnf, hre, hnt, hk, hc]

theorem addEdge_reject (d : Depth) (c_map : ColorMap) (from_ to_ : Nat) (coords : vec2 × vec2)
    (flag : Nat) (h : ¬ (from_ = to_ ∨ from_ = 0 ∨ to_ = 0)) {nf nt nf5 nt6 : Node}
    {nodes5 : List (Option Node)} {S5 tmp : List Nat} {d1 : Depth}
    (hnf : nodeAt (materialise (materialise d.nodes from_) to_) from_ = some nf)
    (hre : retype to_ flag nf.edgesOut = none)
    (hnt : nodeAt ((materialise (materialise d.nodes from_) to_).set from_
      (some { nf with edgesOut := nf.edgesOut ++ [⟨from_, to_, flag⟩] })) to_ = some nt)
    (hk : topologicalSort_Kahn
      (tentative (materialise (materialise d.nodes from_) to_) from_ to_ flag nf nt)
      (d.startingNodes.erase to_) [] = some (false, nodes5, S5, tmp))
    (hnf5 : nodeAt nodes5 from_ = some nf5)
    (hnt6 : nodeAt (nodes5.set from_ (some { nf5 with edgesOut := nf5.edgesOut.dropLast })) to_
      = some nt6)
    (hc : computationReset { d with
      nodes := rollback nodes5 from_ to_ nf5 nt6
      startingNodes := if decide (to_ ∈ d.startingNodes) = true then setInsert to_ S5 else S5 }
      = some d1) :
    addEdge d c_map from_ to_ coords flag = some (false, d1) := by
  unfold tentative at hk
  unfold rollback at hc
  simp [addEdge, h, hnf, hre, hnt, hk, hnf5, hnt6]
  simp at hc
  simp [hc]

end Depth


/-! ## `addEdge` keeps the invariant of `Depth` -/

open TopologicalSorting

namespace Depth

theorem dinv_of_settled {g : List (Option Node)} {S0 : List Nat} {d : Depth}
    (hg : Ready g S0 d.order) (hset : Settled g d.nodes)
    (hS : d.startingNodes.Sorted (· < ·))
    (hr : ∀ v, v ∈ d.startingNodes ↔ (nodeAt g v).isSome = true ∧ inDegree g v = 0) :
    DInv d := by
  have hs := hset.sameGraph
  have hedge : HasEdge d.nodes = HasEdge g := hs.sgTargetsEq.teHasEdgeEq
  constructor
  · rw [hset.1, hg.size]
  · exact hset.kahnPre hg.targets hS hr
  · exact hs.sgAcyclic.2 hg.acyclic
  · intro u; rw [hs.sgOuts]; exact hg.simple u
  · rw [hedge]; exact hg.noZero
  · exact hg.orderNodup
  · intro v hv; rw [hs.sgIsSome]; exact hg.orderAlloc v hv
  · rw [hedge]; exact hg.orderTopo
  · intro v n hn
    rw [hset.2 v] at hn
    cases hm : nodeAt g v with
    | none => simp [hm] at hn
    | some m =>
      simp [hm] at hn
      subst hn
      obtain ⟨h0, u, hp⟩ := hg.depthReal v m hm
      exact ⟨h0, u, hp.monoLen (fun a b hab => by rw [hedge]; exact hab)⟩

theorem settle (d : Depth) {g R : List (Option Node)} (S3 : List Nat)
    (hlen : g.length = 256) (hs : SameGraph R g) (ht : ∀ u e, e ∈ outs g u → (nodeAt g e.to_).isSome = true)
    (hS : S3.Sorted (· < ·)) (hSp : ∀ v ∈ S3, (nodeAt g v).isSome = true) :
    ∃ nodes1 S1, computationReset { d with nodes := R, startingNodes := S3 } =
        some { d with nodes := nodes1, startingNodes := S1 } ∧
      Settled g nodes1 ∧ S1.Sorted (· < ·) ∧
      ∀ v, v ∈ S1 ↔ (nodeAt g v).isSome = true ∧ inDegree g v = 0 := by
  obtain ⟨nodes1, S1, hrun, hlen, hnodes, hS1, hroots⟩ :=
    computationReset_spec { d with nodes := R, startingNodes := S3 }
      (by simp only; rw [hs.1, hlen])
      (fun u e he => by
        simp only at he ⊢
        rw [hs.sgOuts] at he
        rw [hs.sgIsSome]
        exact ht u e he)
      hS (fun v hv => by simp only; rw [hs.sgIsSome]; exact hSp v hv)
  refine ⟨nodes1, S1, hrun, Settled.of_sameGraph ⟨hlen, hnodes⟩ hs, hS1, fun v => ?_⟩
  rw [hroots v]
  simp only
  rw [hs.sgIsSome, hs.sgInDegree]

theorem tentative_length (nodes : List (Option Node)) (from_ to_ flag : Nat) (nf nt : Node) :
    (tentative nodes from_ to_ flag nf nt).length = nodes.length := by
  simp [tentative]

theorem ready_tentative {nodes nodes5 : List (Option Node)} {S order tmp : List Nat}
    {from_ to_ flag : Nat} {nf nt : Node} (h : Ready nodes S order)
    (hf : from_ < 256) (ht : to_ < 256) (hne : from_ ≠ to_) (hf0 : from_ ≠ 0) (ht0 : to_ ≠ 0)
    (hnf : nodeAt nodes from_ = some nf) (hnt : nodeAt nodes to_ = some nt)
    (hre : retype to_ flag nf.edgesOut = none)
    (hinv : KInv nodes5 [] tmp) (hs : SameGraph nodes5 (tentative nodes from_ to_ flag nf nt))
    (hused : allUsed nodes5 = true) :
    Ready (tentative nodes from_ to_ flag nf nt) [] tmp := by
  have hk := kinv_tentative flag h hf ht hne hnf hnt
  have hat := nodeAt_tentative nodes nf nt flag h.size hf ht
  have hedge := hasEdge_tentative flag h.size hf ht hne hnf hnt
  have hmono : ∀ u v, HasEdge nodes u v → HasEdge (tentative nodes from_ to_ flag nf nt) u v :=
    fun u v huv => (hedge u v).2 (Or.inl huv)
  constructor
  · rw [tentative_length, h.size]
  · exact hk.targets
  · intro v n hn
    have := hk.listed v n hn
    have hun : ∀ v n, nodeAt (tentative nodes from_ to_ flag nf nt) v = some n →
        n.edgesUsed = false := fun v n hn => by simpa using hk.listed v n hn
    refine ⟨?_, hun v n hn⟩
    rw [hk.counters v n hn, pending_eq_inDegree hun]
  · simp
  · simp
  · exact hs.sgAcyclic.1 (hinv.sound hused)
  · intro u
    rw [outs_tentative flag h.size hf ht hne hnf hnt]
    split_ifs with hu
    · rw [List.map_append, List.nodup_append]
      refine ⟨h.simple from_, by simp, ?_⟩
      intro a ha hb
      simp at hb
      rw [hb] at ha
      rcases List.mem_map.1 ha with ⟨e, he, hea⟩
      rw [outs_of_nodeAt hnf] at he
      exact (retype_none_iff to_ flag nf.edgesOut).1 hre e he hea
    · exact h.simple u
  · intro u v huv
    rcases (hedge u v).1 huv with h1 | ⟨hu, hv⟩
    · exact h.noZero u v h1
    · exact ⟨hu ▸ hf0, hv ▸ ht0⟩
  · exact hinv.nodup
  · intro v hv
    rw [← hs.sgIsSome]
    exact hinv.allocated v hv
  · intro u v huv
    have h5 : HasEdge nodes5 u v := (hs.sgHasEdge u v).2 huv
    apply hinv.topo u v h5
    rcases h5 with ⟨e, he, rfl⟩
    obtain ⟨n, hn⟩ := Option.isSome_iff_exists.1 (hinv.targets u e he)
    exact (hinv.listed _ n hn).1 ((allUsed_iff nodes5).1 hused _ n hn)
  · intro v n hn
    rw [hat] at hn
    have key : ∀ m, nodeAt nodes v = some m → n.depth = m.depth →
        0 ≤ n.depth ∧ ∃ u, PathLen (tentative nodes from_ to_ flag nf nt) u v n.depth.toNat := by
      intro m hm hd
      obtain ⟨h0, u, hp⟩ := h.depthReal v m hm
      rw [hd]
      exact ⟨h0, u, hp.monoLen hmono⟩
    split_ifs at hn with h1 h2
    · subst h1; simp at hn; subst hn
      exact key nt hnt rfl
    · subst h2; simp at hn; subst hn
      exact key nf hnf rfl
    · exact key n hn rfl

theorem sameGraph_rollback {nodes nodes5 : List (Option Node)} {from_ to_ flag : Nat}
    {nf nt nf5 nt6 : Node} (hlen : nodes.length = 256)
    (hf : from_ < 256) (ht : to_ < 256) (hne : from_ ≠ to_)
    (hnf : nodeAt nodes from_ = some nf) (hnt : nodeAt nodes to_ = some nt)
    (hs : SameGraph nodes5 (tentative nodes from_ to_ flag nf nt))
    (hnf5 : nodeAt nodes5 from_ = some nf5)
    (hnt6 : nodeAt (nodes5.set from_ (some { nf5 with edgesOut := nf5.edgesOut.dropLast })) to_
      = some nt6) :
    SameGraph (rollback nodes5 from_ to_ nf5 nt6) nodes := by
  have hat := nodeAt_tentative nodes nf nt flag hlen hf ht
  have hl5 : nodes5.length = 256 := by rw [hs.1, tentative_length, hlen]
  have hnt5 : nodeAt nodes5 to_ = some nt6 := by
    rw [nodeAt_set_ne _ hne] at hnt6; exact hnt6
  refine ⟨by simp [rollback, hl5, hlen], fun v => ?_⟩
  unfold rollback
  rw [nodeAt_set _ v (by simp [hl5, ht])]
  by_cases h1 : v = to_
  · subst h1
    have := hs.2 v
    rw [hnt5, hat] at this
    simp [Node.core] at this
    simp [hnt, Node.core, this]
  · simp only [h1, if_false]
    by_cases h2 : v = from_
    · subst h2
      rw [nodeAt_set_self _ (by simp [hl5, hf])]
      have := hs.2 v
      rw [hnf5, hat] at this
      simp [h1, Node.core] at this
      simp [hnf, Node.core, this]
    · rw [nodeAt_set_ne _ (fun h => h2 h.symm)]
      have := hs.2 v
      rw [hat] at this
      simpa [h1, h2] using this

end Depth


/-! ## Case analysis of `addEdge` on a state that satisfies the invariant -/

open TopologicalSorting

namespace Depth

theorem kahn_run_inv {nodes : List (Option Node)} {S : List Nat} (h : KInv nodes S []) :
    ∃ nodes1 sorted1, topologicalSort_Kahn nodes S [] =
        some (allUsed nodes1, nodes1, [], sorted1) ∧
      KInv nodes1 [] sorted1 ∧ SameGraph nodes1 nodes ∧
      (KComplete nodes S → KComplete nodes1 []) := by
  obtain ⟨nodes1, sorted1, hrun, hinv1, hsame, hcomp1⟩ :=
    kahnLoop_spec (S.length + totalEdges nodes) nodes S [] h
      (by have := wFuel_le_totalEdges nodes; omega)
  exact ⟨nodes1, sorted1, by simp [topologicalSort_Kahn, hrun], hinv1, hsame, hcomp1⟩

theorem retype_some {to_ flag : Nat} {es es1 : List Edge} (h : retype to_ flag es = some es1) :
    es1.map Edge.to_ = es.map Edge.to_ ∧ es1.length = es.length ∧
    (∃ e ∈ es, e.to_ = to_) ∧ (∃ e ∈ es1, e.to_ = to_ ∧ e.type = flag) ∧
    ∀ e ∈ es1, e.to_ ≠ to_ → e ∈ es := by
  induction es generalizing es1 with
  | nil => simp [retype] at h
  | cons e es ih =>
    unfold retype at h
    split_ifs at h with he
    · simp at h
      subst h
      simp [he]
      intro a ha _
      exact Or.inr ha
    · cases hr : retype to_ flag es with
      | none => simp [hr] at h
      | some es2 =>
        simp [hr] at h
        subst h
        obtain ⟨h1, h2, ⟨e1, he1, he1t⟩, ⟨e2, he2, he2t⟩, h5⟩ := ih hr
        refine ⟨by simp [h1], by simp [h2], ⟨e1, List.mem_cons_of_mem _ he1, he1t⟩,
          ⟨e2, List.mem_cons_of_mem _ he2, he2t⟩, ?_⟩
        intro x hx hxt
        rcases List.mem_cons.1 hx with rfl | hx
        · exact List.mem_cons_self _ _
        · exact List.mem_cons_of_mem _ (h5 x hx hxt)

/-- The four ways through `addEdge`, each with the state it leaves behind. -/
theorem addEdge_cases {d : Depth} (hd : DInv d) (c_map : ColorMap) (from_ to_ : Nat)
    (coords : vec2 × vec2) (flag : Nat) (hf : from_ < 256) (ht : to_ < 256) :
    ((from_ = to_ ∨ from_ = 0 ∨ to_ = 0) ∧
      addEdge d c_map from_ to_ coords flag = some (false, d)) ∨
    (∃ nf es, nodeAt d.nodes from_ = some nf ∧ retype to_ flag nf.edgesOut = some es ∧
      addEdge d c_map from_ to_ coords flag = some (true, { d with
        nodes := d.nodes.set from_ (some { nf with edgesOut := es })
        graphicData := relocate c_map from_ to_ (record coords flag) d.graphicData })) ∨
    (∃ nf nt nodes1 S1 tmp,
      nodeAt (materialise (materialise d.nodes from_) to_) from_ = some nf ∧
      nodeAt (materialise (materialise d.nodes from_) to_) to_ = some nt ∧
      retype to_ flag nf.edgesOut = none ∧ from_ ≠ to_ ∧
      Ready (tentative (materialise (materialise d.nodes from_) to_) from_ to_ flag nf nt) [] tmp ∧
      Settled (tentative (materialise (materialise d.nodes from_) to_) from_ to_ flag nf nt)
        nodes1 ∧
      S1.Sorted (· < ·) ∧
      (∀ v, v ∈ S1 ↔ (nodeAt (tentative (materialise (materialise d.nodes from_) to_)
          from_ to_ flag nf nt) v).isSome = true ∧
        inDegree (tentative (materialise (materialise d.nodes from_) to_)
          from_ to_ flag nf nt) v = 0) ∧
      addEdge d c_map from_ to_ coords flag = some (true, { d with
        nodes := nodes1
        startingNodes := S1
        graphicData := d.graphicData ++ [record coords flag]
        order := tmp })) ∨
    (∃ nodes1 S1, ¬ (from_ = to_ ∨ from_ = 0 ∨ to_ = 0) ∧
      (∀ nf nt, nodeAt (materialise (materialise d.nodes from_) to_) from_ = some nf →
        nodeAt (materialise (materialise d.nodes from_) to_) to_ = some nt →
        (∀ v, v ≠ to_ → (nodeAt (materialise (materialise d.nodes from_) to_) v).isSome = true →
          inDegree (materialise (materialise d.nodes from_) to_) v = 0 → v ∈ d.startingNodes) →
        ¬ Acyclic (tentative (materialise (materialise d.nodes from_) to_) from_ to_ flag nf nt)) ∧
      Settled (materialise (materialise d.nodes from_) to_) nodes1 ∧
      S1.Sorted (· < ·) ∧
      (∀ v, v ∈ S1 ↔ (nodeAt (materialise (materialise d.nodes from_) to_) v).isSome = true ∧
        inDegree (materialise (materialise d.nodes from_) to_) v = 0) ∧
      addEdge d c_map from_ to_ coords flag = some (false, { d with
        nodes := nodes1
        startingNodes := S1 })) := by
  by_cases hg : from_ = to_ ∨ from_ = 0 ∨ to_ = 0
  · exact Or.inl ⟨hg, addEdge_guard d c_map from_ to_ coords flag hg⟩
  right
  have hne : from_ ≠ to_ := fun h => hg (Or.inl h)
  have hf0 : from_ ≠ 0 := fun h => hg (Or.inr (Or.inl h))
  have ht0 : to_ ≠ 0 := fun h => hg (Or.inr (Or.inr h))
  have hM1 := ready_materialise hd.ready hf
  have hM := ready_materialise hM1 ht
  have hl1 : from_ < d.nodes.length := hd.size ▸ hf
  have hl2 : to_ < (materialise d.nodes from_).length := hM1.size ▸ ht
  obtain ⟨nf, hnf⟩ : ∃ nf, nodeAt (materialise (materialise d.nodes from_) to_) from_ = some nf := by
    rw [nodeAt_materialise hl2, if_neg hne, nodeAt_materialise hl1, if_pos rfl]
    exact ⟨_, rfl⟩
  obtain ⟨nt, hnt⟩ : ∃ nt, nodeAt (materialise (materialise d.nodes from_) to_) to_ = some nt := by
    rw [nodeAt_materialise hl2, if_pos rfl]
    exact ⟨_, rfl⟩
  cases hre : retype to_ flag nf.edgesOut with
  | some es =>
    left
    obtain ⟨_, _, ⟨e, he, het⟩, _⟩ := retype_some hre
    have hedgeM : HasEdge (materialise (materialise d.nodes from_) to_) from_ to_ :=
      ⟨e, by rw [outs_of_nodeAt hnf]; exact he, het⟩
    have hedge : HasEdge d.nodes from_ to_ := by
      obtain ⟨e, he, het⟩ := hedgeM
      rw [outs_materialise hl2, outs_materialise hl1] at he
      exact ⟨e, he, het⟩
    have hpf : (nodeAt d.nodes from_).isSome = true := by
      obtain ⟨n, hn⟩ := hasEdge_allocated hedge
      simp [hn]
    have hpt : (nodeAt d.nodes to_).isSome = true := by
      obtain ⟨e, he, het⟩ := hedge
      exact het ▸ hd.pre.targets _ e he
    have hMeq : materialise (materialise d.nodes from_) to_ = d.nodes := by
      rw [materialise_of_some hpf, materialise_of_some hpt]
    have := addEdge_retype d c_map from_ to_ coords flag hg hnf hre
    rw [hMeq] at this hnf
    exact ⟨nf, es, hnf, hre, this⟩
  | none =>
    right
    have hnt3 : nodeAt ((materialise (materialise d.nodes from_) to_).set from_
        (some { nf with edgesOut := nf.edgesOut ++ [⟨from_, to_, flag⟩] })) to_ = some nt := by
      rw [nodeAt_set_ne _ hne]; exact hnt
    have hk := kinv_tentative flag hM hf ht hne hnf hnt
    obtain ⟨nodes5, tmp, hrun, hinv5, hs5, hcomp5⟩ := kahn_run_inv hk
    cases hb : allUsed nodes5 with
    | true =>
      left
      rw [hb] at hrun
      have hready := ready_tentative hM hf ht hne hf0 ht0 hnf hnt hre hinv5 hs5 hb
      obtain ⟨nodes1, S1, hc, hset, hS1, hroots⟩ :=
        settle d [] hready.size hs5 hready.targets (by simp) (by simp)
      exact ⟨nf, nt, nodes1, S1, tmp, hnf, hnt, hre, hne, hready, hset, hS1, hroots,
        addEdge_accept d c_map from_ to_ coords flag hg hnf hre hnt3 hrun hc⟩
    | false =>
      right
      rw [hb] at hrun
      have hat := nodeAt_tentative (materialise (materialise d.nodes from_) to_)
        nf nt flag hM.size hf ht
      obtain ⟨nf5, hnf5⟩ : ∃ nf5, nodeAt nodes5 from_ = some nf5 := by
        apply Option.isSome_iff_exists.1
        rw [hs5.sgIsSome, hat]
        simp [hne]
      have hl5 : nodes5.length = 256 := by rw [hs5.1, tentative_length, hM.size]
      obtain ⟨nt6, hnt6⟩ : ∃ nt6, nodeAt (nodes5.set from_
          (some { nf5 with edgesOut := nf5.edgesOut.dropLast })) to_ = some nt6 := by
        apply Option.isSome_iff_exists.1
        rw [nodeAt_set_ne _ hne, hs5.sgIsSome, hat]
        simp
      have hsR := sameGraph_rollback hM.size hf ht hne hnf hnt hs5 hnf5 hnt6
      obtain ⟨nodes1, S1, hc, hset, hS1, hroots⟩ :=
        settle d (if decide (to_ ∈ d.startingNodes) = true then setInsert to_ [] else [])
          hM.size hsR hM.targets
          (by split_ifs <;> simp [setInsert])
          (by
            intro v hv
            split_ifs at hv
            · simp [setInsert] at hv
              subst hv
              simp [hnt]
            · simp at hv)
      refine ⟨nodes1, S1, hg, ?_, hset, hS1, hroots,
        addEdge_reject d c_map from_ to_ coords flag hg hnf hre hnt3 hrun hnf5 hnt6 hc⟩
      intro nf1 nt1 hnf1 hnt1 hall hac
      rw [hnf] at hnf1
      rw [hnt] at hnt1
      cases hnf1
      cases hnt1
      have hcomp := hcomp5 (kcomplete_tentative flag hM hf ht hne hnf hnt hall)
      have := hinv5.complete hcomp (hs5.sgAcyclic.2 hac)
      rw [hb] at this
      exact Bool.false_ne_true this

end Depth


/-! ## Consequences of the case analysis -/

open TopologicalSorting

namespace Depth

theorem dinv_transfer {d : Depth} (h : DInv d) {a : List (Option Node)}
    (gd : List Coordinates) (hte : TargetsEq a d.nodes)
    (hcu : ∀ v, (nodeAt a v).map (fun n => (n.incomingEdges, n.edgesUsed))
      = (nodeAt d.nodes v).map (fun n => (n.incomingEdges, n.edgesUsed)))
    (hdep : ∀ v n, nodeAt a v = some n → 0 ≤ n.depth ∧ ∃ u, PathLen a u v n.depth.toNat) :
    DInv { d with nodes := a, graphicData := gd } := by
  have hedge : HasEdge a = HasEdge d.nodes := hte.teHasEdgeEq
  constructor
  · exact hte.1.trans h.size
  · constructor
    · intro u e he
      simp only at he ⊢
      have hmem : e.to_ ∈ (outs a u).map Edge.to_ := List.mem_map.2 ⟨e, he, rfl⟩
      rw [hte.teTargets] at hmem
      rcases List.mem_map.1 hmem with ⟨e1, he1, he1t⟩
      rw [hte.teIsSome, ← he1t]
      exact h.pre.targets u e1 he1
    · intro v n hn
      simp only at hn ⊢
      have := hcu v
      rw [hn] at this
      cases hm : nodeAt d.nodes v with
      | none => simp [hm] at this
      | some m =>
        simp [hm] at this
        rw [hte.teInDegree, this.1, this.2]
        exact h.pre.counters v m hm
    · exact h.pre.isSet
    · intro v
      simp only
      rw [hte.teIsSome, hte.teInDegree]
      exact h.pre.roots v
  · exact hte.teAcyclic.2 h.acyclic
  · intro u
    simp only
    rw [hte.teTargets]
    exact h.simple u
  · simp only; rw [hedge]; exact h.noZero
  · exact h.orderNodup
  · intro v hv
    simp only
    rw [hte.teIsSome]
    exact h.orderAlloc v hv
  · simp only; rw [hedge]; exact h.orderTopo
  · exact hdep

theorem targetsEq_set {nodes : List (Option Node)} {i : Nat} {n : Node} (m : Node)
    (hn : nodeAt nodes i = some n) (hm : m.edgesOut.map Edge.to_ = n.edgesOut.map Edge.to_) :
    TargetsEq (nodes.set i (some m)) nodes := by
  refine ⟨by simp, fun v => ?_⟩
  rw [nodeAt_set _ v (nodeAt_lt hn)]
  split_ifs with hv
  · subst hv; simp [hn, hm]
  · rfl

theorem addEdge_dinv {d : Depth} (hd : DInv d) (c_map : ColorMap) (from_ to_ : Nat)
    (coords : vec2 × vec2) (flag : Nat) (hf : from_ < 256) (ht : to_ < 256) :
    ∃ r, addEdge d c_map from_ to_ coords flag = some r ∧ DInv r.2 := by
  rcases addEdge_cases hd c_map from_ to_ coords flag hf ht with
    ⟨_, h⟩ | ⟨nf, es, hnf, hre, h⟩ | ⟨nf, nt, nodes1, S1, tmp, _, _, _, _, hready, hset, hS1, hroots, h⟩ |
    ⟨nodes1, S1, _, _, hset, hS1, hroots, h⟩
  · exact ⟨_, h, hd⟩
  · refine ⟨_, h, ?_⟩
    have hte := targetsEq_set { nf with edgesOut := es } hnf (retype_some hre).1
    apply dinv_transfer hd _ hte
    · intro v
      rw [nodeAt_set _ v (nodeAt_lt hnf)]
      split_ifs with hv
      · subst hv; simp [hnf]
      · rfl
    · intro v n hn
      rw [nodeAt_set _ v (nodeAt_lt hnf)] at hn
      have key : ∀ m, nodeAt d.nodes v = some m → n.depth = m.depth →
          0 ≤ n.depth ∧ ∃ u, PathLen (d.nodes.set from_ (some { nf with edgesOut := es })) u v
            n.depth.toNat := by
        intro m hm hdm
        obtain ⟨h0, u, hp⟩ := hd.depthReal v m hm
        rw [hdm]
        exact ⟨h0, u, hp.monoLen (fun a b hab => (hte.teHasEdge a b).2 hab)⟩
      split_ifs at hn with hv
      · subst hv
        simp at hn
        subst hn
        exact key nf hnf rfl
      · exact key n hn rfl
  · refine ⟨_, h, ?_⟩
    exact dinv_of_settled hready hset hS1 hroots
  · refine ⟨_, h, ?_⟩
    exact dinv_of_settled (ready_materialise (ready_materialise hd.ready hf) ht) hset hS1 hroots

/-- A settled copy of a container whose counters and marks are in order is the
container itself. -/
theorem settled_self {d : Depth} (hd : DInv d) {nodes1 : List (Option Node)}
    (h : Settled d.nodes nodes1) : nodes1 = d.nodes := by
  apply nodes_ext h.1
  intro v
  rw [h.2 v]
  cases hn : nodeAt d.nodes v with
  | none => rfl
  | some n =>
    obtain ⟨h1, h2⟩ := hd.pre.counters v n hn
    simp only [Option.map_some']
    congr 1
    cases n
    simp at h1 h2 ⊢
    exact ⟨h1.symm, h2⟩

theorem hasPath_allocated {nodes : List (Option Node)}
    (ht : ∀ u e, e ∈ outs nodes u → (nodeAt nodes e.to_).isSome = true) {u v : Nat}
    (h : HasPath nodes u v) : (nodeAt nodes u).isSome = true ∧ (nodeAt nodes v).isSome = true := by
  induction h with
  | single e =>
    obtain ⟨n, hn⟩ := hasEdge_allocated e
    obtain ⟨x, hx, hxt⟩ := e
    exact ⟨by simp [hn], hxt ▸ ht _ x hx⟩
  | tail _ e ih =>
    obtain ⟨x, hx, hxt⟩ := e
    exact ⟨ih.1, hxt ▸ ht _ x hx⟩

/-- An edge whose insertion would close a cycle is rejected, and the call leaves
no trace in the state. -/
theorem addEdge_cycle {d : Depth} (hd : DInv d) (c_map : ColorMap) (from_ to_ : Nat)
    (coords : vec2 × vec2) (flag : Nat) (hp : HasPath d.nodes to_ from_) :
    addEdge d c_map from_ to_ coords flag = some (false, d) := by
  obtain ⟨hpt, hpf⟩ := hasPath_allocated hd.pre.targets hp
  have hf : from_ < 256 := by
    obtain ⟨n, hn⟩ := Option.isSome_iff_exists.1 hpf
    exact hd.size ▸ nodeAt_lt hn
  have ht : to_ < 256 := by
    obtain ⟨n, hn⟩ := Option.isSome_iff_exists.1 hpt
    exact hd.size ▸ nodeAt_lt hn
  have hMeq : materialise (materialise d.nodes from_) to_ = d.nodes := by
    rw [materialise_of_some hpf, materialise_of_some hpt]
  rcases addEdge_cases hd c_map from_ to_ coords flag hf ht with
    ⟨_, h⟩ | ⟨nf, es, hnf, hre, h⟩ | ⟨nf, nt, nodes1, S1, tmp, hnf, hnt, _, hne, hready, _, _, _, h⟩ |
    ⟨nodes1, S1, _, _, hset, hS1, hroots, h⟩
  · exact h
  · exfalso
    obtain ⟨_, _, ⟨e, he, het⟩, _⟩ := retype_some hre
    have hedge : HasEdge d.nodes from_ to_ := ⟨e, by rw [outs_of_nodeAt hnf]; exact he, het⟩
    exact hd.acyclic to_ (Relation.TransGen.tail hp hedge)
  · exfalso
    rw [hMeq] at hnf hnt hready
    have hedge := hasEdge_tentative flag hd.size hf ht hne hnf hnt
    have hp2 : HasPath (tentative d.nodes from_ to_ flag nf nt) to_ from_ :=
      hp.monoPath (fun u v huv => (hedge u v).2 (Or.inl huv))
    exact hready.acyclic to_ (Relation.TransGen.tail hp2 ((hedge _ _).2 (Or.inr ⟨rfl, rfl⟩)))
  · rw [hMeq] at hset hroots
    have h1 := settled_self hd hset
    have h2 : S1 = d.startingNodes :=
      sorted_set_ext hS1 hd.pre.isSet (fun v => by rw [hroots v, hd.pre.roots v])
    rw [h, h1, h2]

end Depth


/-! ## `computeDepths` -/

open TopologicalSorting

namespace Depth

theorem DepthOnly.doRefl (a : List (Option Node)) : DepthOnly a a := ⟨rfl, fun _ => rfl⟩

theorem DepthOnly.doTrans {a b c : List (Option Node)} (h1 : DepthOnly a b)
    (h2 : DepthOnly b c) : DepthOnly a c :=
  ⟨h1.1.trans h2.1, fun v => (h1.2 v).trans (h2.2 v)⟩

theorem DepthOnly.doTargetsEq {a b : List (Option Node)} (h : DepthOnly a b) : TargetsEq a b := by
  refine ⟨h.1, fun v => ?_⟩
  have := h.2 v
  cases ha : nodeAt a v <;> cases hb : nodeAt b v <;> simp [ha, hb] at this ⊢
  rw [this.1]

theorem DepthOnly.doOuts {a b : List (Option Node)} (h : DepthOnly a b) (v : Nat) :
    outs a v = outs b v := by
  have := h.2 v
  unfold TopologicalSorting.outs
  cases ha : nodeAt a v <;> cases hb : nodeAt b v <;> simp [ha, hb] at this ⊢
  exact this.1

theorem DepthOnly.doHasEdgeEq {a b : List (Option Node)} (h : DepthOnly a b) :
    HasEdge a = HasEdge b := h.doTargetsEq.teHasEdgeEq

theorem depthEdges_spec (i : Nat) (es : List Edge) (nodes : List (Option Node)) (ni : Node)
    (hi : nodeAt nodes i = some ni)
    (ht : ∀ e ∈ es, (nodeAt nodes e.to_).isSome = true) (hne : ∀ e ∈ es, e.to_ ≠ i) :
    ∃ nodes1, depthEdges i es nodes = some nodes1 ∧ nodes1.length = nodes.length ∧
      ∀ v, nodeAt nodes1 v = (nodeAt nodes v).map fun n =>
        { n with depth := if 0 < cnt es v then max (ni.depth + 1) n.depth else n.depth } := by
  induction es generalizing nodes with
  | nil =>
    refine ⟨nodes, rfl, rfl, fun v => ?_⟩
    cases nodeAt nodes v <;> simp [cnt]
  | cons e es ih =>
    obtain ⟨nt, hnt⟩ := Option.isSome_iff_exists.1 (ht e (List.mem_cons_self _ _))
    have hei : e.to_ ≠ i := hne e (List.mem_cons_self _ _)
    have hlt := nodeAt_lt hnt
    have hat : ∀ v, nodeAt (nodes.set e.to_ (some { nt with depth := max (ni.depth + 1) nt.depth })) v
        = if v = e.to_ then some { nt with depth := max (ni.depth + 1) nt.depth }
          else nodeAt nodes v := fun v => nodeAt_set _ v hlt
    obtain ⟨nodes1, hrun, hlen, hnodes⟩ := ih
      (nodes.set e.to_ (some { nt with depth := max (ni.depth + 1) nt.depth }))
      (by rw [hat, if_neg (Ne.symm hei)]; exact hi)
      (fun e1 he1 => by
        rw [hat]
        split_ifs
        · rfl
        · exact ht e1 (List.mem_cons_of_mem _ he1))
      (fun e1 he1 => hne e1 (List.mem_cons_of_mem _ he1))
    refine ⟨nodes1, ?_, by simpa using hlen, fun v => ?_⟩
    · simp only [depthEdges, hi, hnt]
      exact hrun
    · rw [hnodes v, hat v, cnt_cons]
      by_cases hv : v = e.to_
      · subst hv
        simp [hnt]
      · have hv2 : ¬ e.to_ = v := fun h => hv h.symm
        simp [hv, hv2]

theorem depthOf_of_nodeAt {nodes : List (Option Node)} {v : Nat} {n : Node}
    (h : nodeAt nodes v = some n) : depthOf nodes v = n.depth := by
  simp [depthOf, h]

theorem before_cons_tail {i u v : Nat} {rest : List Nat} (hnd : (i :: rest).Nodup)
    (hu : u ∈ rest) (h : Before (i :: rest) u v) : Before rest u v := by
  rcases h with ⟨l1, l2, hl, hu1⟩
  cases l1 with
  | nil => simp at hu1
  | cons a l1 =>
    simp at hl
    obtain ⟨rfl, hrest⟩ := hl
    refine ⟨l1, l2, hrest, ?_⟩
    rcases List.mem_cons.1 hu1 with rfl | h1
    · exact absurd hu (List.nodup_cons.1 hnd).1
    · exact h1

theorem before_mem {l : List Nat} {u v : Nat} (h : Before l u v) : u ∈ l ∧ v ∈ l := by
  rcases h with ⟨l1, l2, rfl, hu⟩
  exact ⟨List.mem_append_left _ hu, by simp⟩

theorem before_ne {l : List Nat} (hl : l.Nodup) {u v : Nat} (h : Before l u v) : u ≠ v := by
  have := before_indexOf hl h
  rintro rfl
  exact lt_irrefl _ this

theorem depthLoop_spec (is : List Nat) (nodes : List (Option Node))
    (ht : ∀ u e, e ∈ outs nodes u → (nodeAt nodes e.to_).isSome = true)
    (hp : ∀ i ∈ is, (nodeAt nodes i).isSome = true) (hnd : is.Nodup)
    (hb : ∀ u ∈ is, ∀ v, HasEdge nodes u v → Before is u v) (hdr : DepthReal nodes) :
    ∃ nodes1, depthLoop is nodes = some nodes1 ∧ DepthOnly nodes1 nodes ∧ DepthReal nodes1 ∧
      (∀ u ∈ is, ∀ v, HasEdge nodes u v → depthOf nodes1 u + 1 ≤ depthOf nodes1 v) ∧
      (∀ v, depthOf nodes v ≤ depthOf nodes1 v) ∧
      (∀ v, v ∉ is → depthOf nodes1 v = depthOf nodes v) := by
  induction is generalizing nodes with
  | nil =>
    exact ⟨nodes, rfl, DepthOnly.doRefl _, hdr, by simp, fun _ => le_refl _, fun _ _ => rfl⟩
  | cons i rest ih =>
    obtain ⟨ni, hni⟩ := Option.isSome_iff_exists.1 (hp i (List.mem_cons_self _ _))
    have houts : outs nodes i = ni.edgesOut := outs_of_nodeAt hni
    have hedge_i : ∀ e ∈ ni.edgesOut, HasEdge nodes i e.to_ :=
      fun e he => ⟨e, houts ▸ he, rfl⟩
    obtain ⟨nodesA, hrunA, hlenA, hnodesA⟩ := depthEdges_spec i ni.edgesOut nodes ni hni
      (fun e he => ht i e (houts ▸ he))
      (fun e he => (before_ne hnd (hb i (List.mem_cons_self _ _) _ (hedge_i e he))).symm)
    have hdo : DepthOnly nodesA nodes := by
      refine ⟨hlenA, fun v => ?_⟩
      rw [hnodesA v]
      cases nodeAt nodes v <;> simp
    have hedge : HasEdge nodesA = HasEdge nodes := hdo.doHasEdgeEq
    have hinot : i ∉ rest := (List.nodup_cons.1 hnd).1
    -- depths after the inner loop
    have hdA : ∀ v, depthOf nodesA v =
        if 0 < cnt ni.edgesOut v then max (ni.depth + 1) (depthOf nodes v) else depthOf nodes v := by
      intro v
      unfold depthOf
      rw [hnodesA v]
      cases hv : nodeAt nodes v with
      | none =>
        have : ¬ 0 < cnt ni.edgesOut v := by
          intro hpos
          rw [cnt_pos_iff] at hpos
          rcases hpos with ⟨e, he, rfl⟩
          have := ht i e (houts ▸ he)
          simp [hv] at this
        simp [this]
      | some n => simp
    have hdrA : DepthReal nodesA := by
      intro v n hn
      rw [hnodesA v] at hn
      cases hv : nodeAt nodes v with
      | none => simp [hv] at hn
      | some m =>
        simp [hv] at hn
        obtain ⟨hm0, um, hpm⟩ := hdr v m hv
        obtain ⟨hi0, ui, hpi⟩ := hdr i ni hni
        subst hn
        simp only
        split_ifs with hpos
        · rcases le_total (ni.depth + 1) m.depth with hle | hle
          · rw [max_eq_right hle]
            exact ⟨hm0, um, hpm.monoLen (fun a b hab => by rw [hedge]; exact hab)⟩
          · rw [max_eq_left hle]
            refine ⟨by omega, ui, ?_⟩
            have e1 : (ni.depth + 1).toNat = ni.depth.toNat + 1 := by omega
            rw [e1]
            have hiv : HasEdge nodes i v := by
              rw [hasEdge_iff_cnt, houts]; exact hpos
            exact (PathLen.step hpi hiv).monoLen (fun a b hab => by rw [hedge]; exact hab)
        · exact ⟨hm0, um, hpm.monoLen (fun a b hab => by rw [hedge]; exact hab)⟩
    obtain ⟨nodes1, hrun, hdo1, hdr1, hstep, hmono, hkeep⟩ := ih nodesA
      (fun u e he => by
        rw [hdo.doOuts] at he
        rw [hdo.doTargetsEq.teIsSome]
        exact ht u e he)
      (fun j hj => by
        rw [hdo.doTargetsEq.teIsSome]
        exact hp j (List.mem_cons_of_mem _ hj))
      (List.nodup_cons.1 hnd).2
      (fun u hu v huv => by
        rw [hedge] at huv
        exact before_cons_tail hnd hu (hb u (List.mem_cons_of_mem _ hu) v huv))
      hdrA
    refine ⟨nodes1, ?_, hdo1.doTrans hdo, hdr1, ?_, ?_, ?_⟩
    · simp only [depthLoop, hni, hrunA]
      exact hrun
    · intro u hu v huv
      rcases List.mem_cons.1 hu with rfl | hu
      · have h1 : depthOf nodes1 u = depthOf nodes u := by
          rw [hkeep u hinot, hdA u]
          have : ¬ 0 < cnt ni.edgesOut u := by
            intro hpos
            have : HasEdge nodes u u := by rw [hasEdge_iff_cnt, houts]; exact hpos
            exact before_ne hnd (hb u (List.mem_cons_self _ _) u this) rfl
          simp [this]
        have h2 : ni.depth + 1 ≤ depthOf nodesA v := by
          rw [hdA v]
          have : 0 < cnt ni.edgesOut v := by
            rw [← houts]; exact hasEdge_iff_cnt.1 huv
          simp [this]
        have h3 := hmono v
        rw [h1, depthOf_of_nodeAt hni]
        omega
      · exact hstep u hu v (by rw [hedge]; exact huv)
    · intro v
      have h1 : depthOf nodes v ≤ depthOf nodesA v := by
        rw [hdA v]
        split_ifs
        · exact le_max_right _ _
        · exact le_refl _
      exact le_trans h1 (hmono v)
    · intro v hv
      have hvi : v ≠ i := fun h => hv (h ▸ List.mem_cons_self _ _)
      have hvr : v ∉ rest := fun h => hv (List.mem_cons_of_mem _ h)
      rw [hkeep v hvr, hdA v]
      have : ¬ 0 < cnt ni.edgesOut v := by
        intro hpos
        have hiv : HasEdge nodes i v := by rw [hasEdge_iff_cnt, houts]; exact hpos
        exact hv (before_mem (hb i (List.mem_cons_self _ _) v hiv)).2
      simp [this]

end Depth


/-! ## `computeDepths` on invariant states; `reset`; reachable states -/

open TopologicalSorting

namespace Depth

theorem computeDepths_spec {d : Depth} (hd : DInv d) :
    ∃ nodes1, computeDepths d = some { d with nodes := nodes1 } ∧
      DInv { d with nodes := nodes1 } ∧ DepthOnly nodes1 d.nodes ∧
      (∀ u v, HasEdge d.nodes u v → depthOf nodes1 u + 1 ≤ depthOf nodes1 v) ∧
      (∀ v, depthOf d.nodes v ≤ depthOf nodes1 v) := by
  obtain ⟨nodes1, hrun, hdo, hdr, hstep, hmono, _⟩ :=
    depthLoop_spec d.order d.nodes hd.pre.targets hd.orderAlloc hd.orderNodup
      (fun u _ v huv => hd.orderTopo u v huv) hd.depthReal
  refine ⟨nodes1, by simp [computeDepths, hrun], ?_, hdo, ?_, hmono⟩
  · apply dinv_transfer hd d.graphicData hdo.doTargetsEq _ hdr
    intro v
    have := hdo.2 v
    cases ha : nodeAt nodes1 v <;> cases hb : nodeAt d.nodes v <;> simp [ha, hb] at this ⊢
    exact ⟨this.2.1, this.2.2⟩
  · intro u v huv
    exact hstep u (before_mem (hd.orderTopo u v huv)).1 v huv

theorem initInv_step {acc : List (Option Node) × List Nat} (h : InitInv acc) {i : Nat}
    (hi : i < 256) : InitInv (initStep acc i) := by
  have hlt : i < acc.1.length := h.size ▸ hi
  have hmod : i % 256 = i := Nat.mod_eq_of_lt hi
  constructor
  · simp [initStep, h.size]
  · intro v n hn
    simp only [initStep] at hn
    rw [nodeAt_set _ v hlt] at hn
    split_ifs at hn
    · simp at hn; exact hn.symm
    · exact h.fresh v n hn
  · simp only [initStep]
    exact sorted_setInsert h.isSet
  · intro v
    simp only [initStep, hmod]
    rw [mem_setInsert, nodeAt_set _ v hlt, h.all v]
    split_ifs with hv
    · simp [hv]
    · simp [hv]

theorem initInv_foldl (l : List Nat) (hl : ∀ i ∈ l, i < 256)
    {acc : List (Option Node) × List Nat} (h : InitInv acc) : InitInv (l.foldl initStep acc) := by
  induction l generalizing acc with
  | nil => exact h
  | cons i is ih =>
    simp only [List.foldl_cons]
    exact ih (fun j hj => hl j (List.mem_cons_of_mem _ hj))
      (initInv_step h (hl i (List.mem_cons_self _ _)))

theorem initInv_start : InitInv (List.replicate 256 none, []) := by
  have hnone : ∀ v, nodeAt (List.replicate 256 (none : Option Node)) v = none := by
    intro v
    unfold nodeAt
    rw [List.getElem?_replicate]
    split_ifs <;> rfl
  constructor
  · exact List.length_replicate _ _
  · intro v n hn
    simp only at hn
    rw [hnone v] at hn
    cases hn
  · exact List.sorted_nil
  · intro v
    simp only [hnone v]
    simp

theorem reset_dinv (d0 : Depth) (count0 count1 : Nat) (h0 : count0 ≤ 256) (h1 : count1 ≤ 128) :
    DInv (reset d0 count0 count1) := by
  have hinv : InitInv (((List.range count1).map (· + 128)).foldl initStep
      ((List.range count0).foldl initStep (List.replicate 256 none, []))) := by
    apply initInv_foldl
    · intro i hi
      simp at hi
      obtain ⟨a, ha, rfl⟩ := hi
      omega
    · apply initInv_foldl _ _ initInv_start
      intro i hi
      simp at hi
      omega
  have hnodes : (reset d0 count0 count1).nodes = (((List.range count1).map (· + 128)).foldl
      initStep ((List.range count0).foldl initStep (List.replicate 256 none, []))).1 := rfl
  have hS : (reset d0 count0 count1).startingNodes = (((List.range count1).map (· + 128)).foldl
      initStep ((List.range count0).foldl initStep (List.replicate 256 none, []))).2 := rfl
  have horder : (reset d0 count0 count1).order = [] := rfl
  have houts : ∀ u, outs (reset d0 count0 count1).nodes u = [] := by
    intro u
    unfold outs
    rw [hnodes]
    cases hn : nodeAt _ u with
    | none => rfl
    | some n => rw [hinv.fresh u n hn]; rfl
  have hnoedge : ∀ u v, ¬ HasEdge (reset d0 count0 count1).nodes u v := by
    rintro u v ⟨e, he, _⟩
    rw [houts u] at he
    cases he
  have hdeg : ∀ v, inDegree (reset d0 count0 count1).nodes v = 0 := by
    intro v
    by_contra hc
    obtain ⟨u, hu⟩ := inDegree_pos (Nat.pos_of_ne_zero hc)
    exact hnoedge u v hu
  constructor
  · rw [hnodes]; exact hinv.size
  · constructor
    · intro u e he
      rw [houts u] at he
      cases he
    · intro v n hn
      rw [hdeg v]
      rw [hnodes] at hn
      rw [hinv.fresh v n hn]
      exact ⟨rfl, rfl⟩
    · rw [hS]; exact hinv.isSet
    · intro v
      rw [hS, hnodes, hinv.all v, ← hnodes, hdeg v]
      simp
  · intro u hu
    cases hu with
    | single e => exact hnoedge _ _ e
    | tail _ e => exact hnoedge _ _ e
  · intro u
    rw [houts u]
    simp
  · intro u v huv
    exact absurd huv (hnoedge u v)
  · rw [horder]; simp
  · rw [horder]; simp
  · intro u v huv
    exact absurd huv (hnoedge u v)
  · intro v n hn
    rw [hnodes] at hn
    rw [hinv.fresh v n hn]
    exact ⟨by simp [Node.new], v, by simpa [Node.new] using PathLen.refl v⟩

theorem Reachable.dinv {d : Depth} (h : Reachable d) : DInv d := by
  induction h with
  | reset d0 count0 count1 h0 h1 => exact reset_dinv d0 count0 count1 h0 h1
  | addEdge c_map from_ to_ coords flag r _ hf ht hr ih =>
    obtain ⟨r1, hr1, hd1⟩ := addEdge_dinv ih c_map from_ to_ coords flag hf ht
    rw [hr] at hr1
    cases hr1
    exact hd1
  | computeDepths _ hr ih =>
    obtain ⟨nodes1, hrun, hd1, _⟩ := computeDepths_spec ih
    rw [hr] at hrun
    cases hrun
    exact hd1

end Depth


/-! ## Accepted edges -/

open TopologicalSorting

namespace Depth

theorem hasPath_split {T M : List (Option Node)} {from_ to_ : Nat}
    (hedge : ∀ u v, HasEdge T u v ↔ HasEdge M u v ∨ (u = from_ ∧ v = to_)) {a b : Nat}
    (h : HasPath T a b) :
    HasPath M a b ∨ (Relation.ReflTransGen (HasEdge M) a from_ ∧
      Relation.ReflTransGen (HasEdge M) to_ b) := by
  induction h with
  | single e =>
    rcases (hedge _ _).1 e with h1 | ⟨h1, h2⟩
    · exact Or.inl (Relation.TransGen.single h1)
    · exact Or.inr ⟨h1 ▸ Relation.ReflTransGen.refl, h2 ▸ Relation.ReflTransGen.refl⟩
  | tail _ e ih =>
    rcases (hedge _ _).1 e with h1 | ⟨h1, h2⟩
    · rcases ih with ih | ⟨ih1, ih2⟩
      · exact Or.inl (Relation.TransGen.tail ih h1)
      · exact Or.inr ⟨ih1, Relation.ReflTransGen.tail ih2 h1⟩
    · rcases ih with ih | ⟨ih1, _⟩
      · exact Or.inr ⟨h1 ▸ ih.to_reflTransGen, h2 ▸ Relation.ReflTransGen.refl⟩
      · exact Or.inr ⟨ih1, h2 ▸ Relation.ReflTransGen.refl⟩

theorem acyclic_of_no_path {T M : List (Option Node)} {from_ to_ : Nat}
    (hedge : ∀ u v, HasEdge T u v ↔ HasEdge M u v ∨ (u = from_ ∧ v = to_))
    (hac : Acyclic M) (hne : from_ ≠ to_) (hnp : ¬ HasPath M to_ from_) : Acyclic T := by
  intro u hu
  rcases hasPath_split hedge hu with h | ⟨h1, h2⟩
  · exact hac u h
  · rcases Relation.reflTransGen_iff_eq_or_transGen.1 (h2.trans h1) with h | h
    · exact hne h
    · exact hnp h

theorem depthOf_materialise {nodes : List (Option Node)} {i : Nat} (hi : i < nodes.length)
    (v : Nat) : depthOf (materialise nodes i) v = depthOf nodes v := by
  unfold depthOf
  rw [nodeAt_materialise hi]
  split_ifs with hv
  · subst hv
    cases nodeAt nodes v <;> simp [Node.new]
  · rfl

theorem hasEdge_materialise {nodes : List (Option Node)} {i : Nat} (hi : i < nodes.length) :
    HasEdge (materialise nodes i) = HasEdge nodes := by
  funext u v
  simp [HasEdge, outs_materialise hi]

theorem depthOf_settled {g res : List (Option Node)} (h : Settled g res) (v : Nat) :
    depthOf res v = depthOf g v := by
  unfold depthOf
  rw [h.2 v]
  cases nodeAt g v <;> simp

/-- The graph and the depths that an accepted call of `addEdge` leaves behind. -/
theorem accept_facts {d : Depth} (hd : DInv d) {from_ to_ flag : Nat} (hf : from_ < 256)
    (ht : to_ < 256) (hne : from_ ≠ to_) {nf nt : Node} {nodes1 : List (Option Node)}
    (hnf : nodeAt (materialise (materialise d.nodes from_) to_) from_ = some nf)
    (hnt : nodeAt (materialise (materialise d.nodes from_) to_) to_ = some nt)
    (hset : Settled (tentative (materialise (materialise d.nodes from_) to_) from_ to_ flag nf nt)
      nodes1) :
    (∀ u v, HasEdge nodes1 u v ↔ HasEdge d.nodes u v ∨ (u = from_ ∧ v = to_)) ∧
    (∀ v, depthOf nodes1 v = depthOf d.nodes v) := by
  have hl1 : from_ < d.nodes.length := hd.size ▸ hf
  have hM1 := ready_materialise hd.ready hf
  have hM := ready_materialise hM1 ht
  have hl2 : to_ < (materialise d.nodes from_).length := hM1.size ▸ ht
  constructor
  · intro u v
    rw [hset.sameGraph.sgHasEdge, hasEdge_tentative flag hM.size hf ht hne hnf hnt,
      hasEdge_materialise hl2, hasEdge_materialise hl1]
  · intro v
    rw [depthOf_settled hset, ← depthOf_materialise hl1, ← depthOf_materialise hl2]
    unfold depthOf
    rw [nodeAt_tentative _ _ _ flag hM.size hf ht]
    split_ifs with h1 h2
    · subst h1; simp [hnt]
    · subst h2; simp [hnf]
    · rfl

/-- An edge that leaves an allocated node and closes no cycle is accepted. -/
theorem addEdge_accepts {d : Depth} (hd : DInv d) (c_map : ColorMap) (from_ to_ : Nat)
    (coords : vec2 × vec2) (flag : Nat) (hf : from_ < 256) (ht : to_ < 256)
    (hne : from_ ≠ to_) (hf0 : from_ ≠ 0) (ht0 : to_ ≠ 0)
    (hpf : (nodeAt d.nodes from_).isSome = true) (hnoedge : ¬ HasEdge d.nodes from_ to_)
    (hnopath : ¬ HasPath d.nodes to_ from_) :
    ∃ d1, addEdge d c_map from_ to_ coords flag = some (true, d1) ∧
      (∀ u v, HasEdge d1.nodes u v ↔ HasEdge d.nodes u v ∨ (u = from_ ∧ v = to_)) ∧
      (∀ v, depthOf d1.nodes v = depthOf d.nodes v) := by
  have hl1 : from_ < d.nodes.length := hd.size ▸ hf
  have hM1 := ready_materialise hd.ready hf
  have hM := ready_materialise hM1 ht
  have hl2 : to_ < (materialise d.nodes from_).length := hM1.size ▸ ht
  have hedgeM : HasEdge (materialise (materialise d.nodes from_) to_) = HasEdge d.nodes := by
    rw [hasEdge_materialise hl2, hasEdge_materialise hl1]
  rcases addEdge_cases hd c_map from_ to_ coords flag hf ht with
    ⟨hg, _⟩ | ⟨nf, es, hnf, hre, _⟩ | ⟨nf, nt, nodes1, S1, tmp, hnf, hnt, _, _, _, hset, _, _, h⟩ |
    ⟨nodes1, S1, _, hcyc, _, _, _, _⟩
  · exfalso
    rcases hg with h | h | h
    · exact hne h
    · exact hf0 h
    · exact ht0 h
  · exfalso
    obtain ⟨_, _, ⟨e, he, het⟩, _⟩ := retype_some hre
    exact hnoedge ⟨e, by rw [outs_of_nodeAt hnf]; exact he, het⟩
  · obtain ⟨h1, h2⟩ := accept_facts hd hf ht hne hnf hnt hset
    exact ⟨_, h, h1, h2⟩
  · exfalso
    obtain ⟨nf, hnf⟩ : ∃ nf, nodeAt (materialise (materialise d.nodes from_) to_) from_ = some nf := by
      rw [nodeAt_materialise hl2, if_neg hne, nodeAt_materialise hl1, if_pos rfl]
      exact ⟨_, rfl⟩
    obtain ⟨nt, hnt⟩ : ∃ nt, nodeAt (materialise (materialise d.nodes from_) to_) to_ = some nt := by
      rw [nodeAt_materialise hl2, if_pos rfl]
      exact ⟨_, rfl⟩
    apply hcyc nf nt hnf hnt
    · intro v hvt hv hz
      rw [inDegree_materialise hl2, inDegree_materialise hl1] at hz
      apply (hd.pre.roots v).2
      refine ⟨?_, hz⟩
      rw [nodeAt_materialise hl2, if_neg hvt, nodeAt_materialise hl1] at hv
      split_ifs at hv with h1
      · subst h1; exact hpf
      · exact hv
    · apply acyclic_of_no_path (hasEdge_tentative flag hM.size hf ht hne hnf hnt) hM.acyclic hne
      rw [HasPath, hedgeM]
      exact hnopath

end Depth


/-! ## Further facts used by the claims -/

open TopologicalSorting

namespace Depth

theorem hasPath_last {nodes : List (Option Node)} {a b : Nat} (h : HasPath nodes a b) :
    ∃ c, HasEdge nodes c b := by
  cases h with
  | single e => exact ⟨_, e⟩
  | tail _ e => exact ⟨_, e⟩

theorem path_le_depth {nodes : List (Option Node)}
    (hstep : ∀ u v, HasEdge nodes u v → depthOf nodes u + 1 ≤ depthOf nodes v)
    {u v k : Nat} (hp : PathLen nodes u v k) : depthOf nodes u + (k : Int) ≤ depthOf nodes v := by
  induction hp with
  | refl => simp
  | step _ e ih =>
    have := hstep _ _ e
    push_cast
    omega

theorem depthOf_nonneg {nodes : List (Option Node)} (h : DepthReal nodes) (v : Nat) :
    0 ≤ depthOf nodes v := by
  unfold depthOf
  cases hn : nodeAt nodes v with
  | none => simp
  | some n => exact (h v n hn).1

theorem pathLen_zero_of_root {nodes : List (Option Node)} {u v k : Nat}
    (hz : inDegree nodes v = 0) (hp : PathLen nodes u v k) : k = 0 := by
  cases hp with
  | refl => rfl
  | step _ e =>
    have := hasEdge_of_inDegree e
    omega

/-- After `computeDepths` the depths grow along every edge and every depth is
the length of a longest path that ends at the node. -/
theorem computeDepths_longest {d : Depth} (hd : DInv d) :
    ∃ d1, computeDepths d = some d1 ∧ DInv d1 ∧ HasEdge d1.nodes = HasEdge d.nodes ∧
      (∀ v, (nodeAt d1.nodes v).isSome = (nodeAt d.nodes v).isSome) ∧
      (∀ u v, HasEdge d1.nodes u v → depthOf d1.nodes u + 1 ≤ depthOf d1.nodes v) ∧
      (∀ v n, nodeAt d1.nodes v = some n → 0 ≤ n.depth ∧ IsLongest d1.nodes v n.depth.toNat) := by
  obtain ⟨nodes1, hrun, hd1, hdo, hstep, _⟩ := computeDepths_spec hd
  have hedge : HasEdge nodes1 = HasEdge d.nodes := hdo.doHasEdgeEq
  have hstep1 : ∀ u v, HasEdge nodes1 u v → depthOf nodes1 u + 1 ≤ depthOf nodes1 v := by
    intro u v huv
    rw [hedge] at huv
    exact hstep u v huv
  refine ⟨_, hrun, hd1, hedge, fun v => hdo.doTargetsEq.teIsSome v, hstep1, ?_⟩
  intro v n hn
  obtain ⟨h0, u, hp⟩ := hd1.depthReal v n hn
  refine ⟨h0, ⟨u, hp⟩, ?_⟩
  intro u1 k hk
  have h1 := path_le_depth hstep1 hk
  have h2 : 0 ≤ depthOf nodes1 u1 := depthOf_nonneg hd1.depthReal u1
  rw [depthOf_of_nodeAt hn] at h1
  omega

theorem reset_fresh (d0 : Depth) (count0 count1 : Nat) (h0 : count0 ≤ 256) (h1 : count1 ≤ 128)
    (v : Nat) (n : Node) (hn : nodeAt (reset d0 count0 count1).nodes v = some n) :
    n = Node.new := by
  have hinv : InitInv (((List.range count1).map (· + 128)).foldl initStep
      ((List.range count0).foldl initStep (List.replicate 256 none, []))) := by
    apply initInv_foldl
    · intro i hi
      simp at hi
      obtain ⟨a, ha, rfl⟩ := hi
      omega
    · apply initInv_foldl _ _ initInv_start
      intro i hi
      simp at hi
      omega
  exact hinv.fresh v n hn

theorem reset_no_edge (d0 : Depth) (count0 count1 : Nat) (h0 : count0 ≤ 256)
    (h1 : count1 ≤ 128) (u v : Nat) : ¬ HasEdge (reset d0 count0 count1).nodes u v := by
  rintro ⟨e, he, _⟩
  unfold outs at he
  cases hn : nodeAt (reset d0 count0 count1).nodes u with
  | none => simp [hn] at he
  | some n =>
    rw [hn, reset_fresh d0 count0 count1 h0 h1 u n hn] at he
    simp [Node.new] at he

end Depth


/-! ## The claims C1 - C10 -/

open TopologicalSorting

namespace Depth

set_option maxRecDepth 1000000 in
theorem fresh3_addEdge :
    addEdge fresh3 exampleMap 1 2 exampleCoords 0 = some (true, afterOneEdge) := by
  decide!

set_option maxRecDepth 1000000 in
theorem afterOneEdge_outs : outs afterOneEdge.nodes 1 = [⟨1, 2, 0⟩] := by
  decide!

theorem fresh3_reachable : Reachable fresh3 := by
  unfold fresh3
  exact Reachable.reset _ 3 0 (by omega) (by omega)

theorem afterOneEdge_reachable : Reachable afterOneEdge := by
  have h1 : (1 : Nat) < 256 := by omega
  have h2 : (2 : Nat) < 256 := by omega
  have h : Reachable (true, afterOneEdge).2 :=
    Reachable.addEdge exampleMap 1 2 exampleCoords 0 (true, afterOneEdge)
      fresh3_reachable h1 h2 fresh3_addEdge
  exact h

theorem afterOneEdge_edge : HasEdge afterOneEdge.nodes 1 2 :=
  ⟨⟨1, 2, 0⟩, by rw [afterOneEdge_outs]; simp, rfl⟩

/-- C1: in every state reached from `reset` (or the constructor) by calls of
`addEdge` with arbitrary arguments, accepted or rejected, the stored edges
contain no directed cycle. -/
theorem C1_addEdge_keeps_graph_acyclic (d : Depth) (h : Reachable d) : Acyclic d.nodes :=
  h.dinv.acyclic

theorem C1_witness : Acyclic afterOneEdge.nodes :=
  C1_addEdge_keeps_graph_acyclic afterOneEdge afterOneEdge_reachable

/-- C2: in a reachable state, a call `addEdge(from, to)` whose edge would close a
cycle (there is a path from `to` to `from`) returns false and leaves the whole
state - edge lists, counters, usage marks, depths, starting nodes, `order` and
`graphicData` - exactly as it was. -/
theorem C2_cycle_rejected_state_unchanged (d : Depth) (h : Reachable d) (c_map : ColorMap)
    (from_ to_ : Nat) (coords : vec2 × vec2) (flag : Nat) (hp : HasPath d.nodes to_ from_) :
    addEdge d c_map from_ to_ coords flag = some (false, d) :=
  addEdge_cycle h.dinv c_map from_ to_ coords flag hp

theorem C2_witness :
    HasPath afterOneEdge.nodes 1 2 ∧
      addEdge afterOneEdge exampleMap 2 1 exampleCoords 0 = some (false, afterOneEdge) :=
  ⟨Relation.TransGen.single afterOneEdge_edge,
    C2_cycle_rejected_state_unchanged afterOneEdge afterOneEdge_reachable exampleMap 2 1
      exampleCoords 0 (Relation.TransGen.single afterOneEdge_edge)⟩


theorem twoNodes_pre : KahnPre twoNodes [0] := by
  have hat : ∀ v, nodeAt twoNodes v =
      match v with
      | 0 => some ⟨[⟨0, 1, 0⟩], 0, 0, false⟩
      | 1 => some ⟨[], 1, 0, false⟩
      | _ + 2 => none := by
    intro v
    rcases v with _ | _ | v <;> simp [nodeAt, twoNodes]
  have hdeg : ∀ v, inDegree twoNodes v = if v = 1 then 1 else 0 := by
    intro v
    simp only [inDegree, twoNodes, wIn, cnt, List.map_cons, List.map_nil, List.sum_cons,
      List.sum_nil, List.countP_cons, List.countP_nil]
    by_cases hv : v = 1
    · subst hv; simp
    · have : ¬ 1 = v := fun h => hv h.symm
      simp [hv, this]
  constructor
  · intro u e he
    unfold outs at he
    rw [hat u] at he
    rcases u with _ | _ | u
    · simp at he
      subst he
      rw [hat 1]
      rfl
    · simp at he
    · simp at he
  · intro v n hn
    rw [hat v] at hn
    rw [hdeg v]
    rcases v with _ | _ | v
    · simp at hn; subst hn; simp
    · simp at hn; subst hn; simp
    · simp at hn
  · simp
  · intro v
    rw [hat v, hdeg v]
    rcases v with _ | _ | v <;> simp

/-- C4: on a node container and a root set that meet the precondition (edges
end in allocated nodes, every counter is the in-degree, no node is marked as
used, the roots are the allocated nodes without incoming edge),
`topologicalSort_Kahn` returns, and it returns true if and only if the graph has
no directed cycle. -/
theorem C4_kahn_true_iff_acyclic (nodes : List (Option Node)) (S : List Nat)
    (h : KahnPre nodes S) :
    ∃ r, topologicalSort_Kahn nodes S [] = some r ∧ (r.1 = true ↔ Acyclic nodes) := by
  obtain ⟨nodes1, sorted1, hrun, _, _, hiff⟩ := kahn_run h
  exact ⟨_, hrun, hiff⟩

theorem C4_witness : KahnPre twoNodes [0] ∧
    ∃ r, topologicalSort_Kahn twoNodes [0] [] = some r ∧ (r.1 = true ↔ Acyclic twoNodes) :=
  ⟨twoNodes_pre, C4_kahn_true_iff_acyclic twoNodes [0] twoNodes_pre⟩

/-- C7: in every reachable state `computeDepths` returns, and afterwards every
allocated node has a depth >= 0 and every edge u -> v satisfies
depth(v) >= depth(u) + 1. -/
theorem C7_depth_grows_along_edges (d : Depth) (h : Reachable d) :
    ∃ d1, computeDepths d = some d1 ∧
      (∀ v n, nodeAt d1.nodes v = some n → 0 ≤ n.depth) ∧
      ∀ u v nu nv, HasEdge d1.nodes u v → nodeAt d1.nodes u = some nu →
        nodeAt d1.nodes v = some nv → nu.depth + 1 ≤ nv.depth := by
  obtain ⟨d1, hrun, _, _, _, hstep, hlong⟩ := computeDepths_longest h.dinv
  refine ⟨d1, hrun, fun v n hn => (hlong v n hn).1, fun u v nu nv huv hu hv => ?_⟩
  have := hstep u v huv
  rw [depthOf_of_nodeAt hu, depthOf_of_nodeAt hv] at this
  exact this

theorem C7_witness :
    ∃ d1, computeDepths afterOneEdge = some d1 ∧
      (∀ v n, nodeAt d1.nodes v = some n → 0 ≤ n.depth) ∧
      ∀ u v nu nv, HasEdge d1.nodes u v → nodeAt d1.nodes u = some nu →
        nodeAt d1.nodes v = some nv → nu.depth + 1 ≤ nv.depth :=
  C7_depth_grows_along_edges afterOneEdge afterOneEdge_reachable

/-- C8: in every reachable state (earlier calls of `computeDepths` included,
the depths are never cleared) `computeDepths` returns, and afterwards the depth
of each allocated node is the number of edges of a longest directed path that
ends at the node; it is 0 for a node without incoming edge. -/
theorem C8_depth_is_longest_path (d : Depth) (h : Reachable d) :
    ∃ d1, computeDepths d = some d1 ∧
      ∀ v n, nodeAt d1.nodes v = some n →
        0 ≤ n.depth ∧ IsLongest d1.nodes v n.depth.toNat ∧
        (inDegree d1.nodes v = 0 → n.depth = 0) := by
  obtain ⟨d1, hrun, _, _, _, _, hlong⟩ := computeDepths_longest h.dinv
  refine ⟨d1, hrun, fun v n hn => ?_⟩
  obtain ⟨h0, hl⟩ := hlong v n hn
  refine ⟨h0, hl, fun hz => ?_⟩
  obtain ⟨u, hp⟩ := hl.1
  have := pathLen_zero_of_root hz hp
  omega

theorem C8_witness :
    ∃ d1, computeDepths afterOneEdge = some d1 ∧
      ∀ v n, nodeAt d1.nodes v = some n →
        0 ≤ n.depth ∧ IsLongest d1.nodes v n.depth.toNat ∧
        (inDegree d1.nodes v = 0 → n.depth = 0) :=
  C8_depth_is_longest_path afterOneEdge afterOneEdge_reachable


set_option maxRecDepth 1000000 in
theorem fresh3_allocated : (nodeAt (reset ⟨[], [], [], []⟩ 3 0).nodes 1).isSome = true ∧
    (nodeAt (reset ⟨[], [], [], []⟩ 3 0).nodes 2).isSome = true := by
  decide!

/-- C3: on a freshly reset graph in which the nodes 1 and 2 are allocated,
`addEdge(1,2)` returns true, the following `addEdge(2,1)` returns false and
changes nothing, the only edge of the graph is then 1 -> 2, and after
`computeDepths()` depth(2) = depth(1) + 1. -/
theorem C3_two_node_scenario (d0 : Depth) (count0 count1 : Nat) (h0 : count0 ≤ 256)
    (h1 : count1 ≤ 128)
    (hp1 : (nodeAt (reset d0 count0 count1).nodes 1).isSome = true)
    (_hp2 : (nodeAt (reset d0 count0 count1).nodes 2).isSome = true)
    (c_map c_map2 : ColorMap) (coords coords2 : vec2 × vec2) (flag flag2 : Nat) :
    ∃ d1 d3, addEdge (reset d0 count0 count1) c_map 1 2 coords flag = some (true, d1) ∧
      addEdge d1 c_map2 2 1 coords2 flag2 = some (false, d1) ∧
      (∀ u v, HasEdge d1.nodes u v ↔ u = 1 ∧ v = 2) ∧
      computeDepths d1 = some d3 ∧
      ∃ n1 n2, nodeAt d3.nodes 1 = some n1 ∧ nodeAt d3.nodes 2 = some n2 ∧
        n2.depth = n1.depth + 1 := by
  have hd0 := reset_dinv d0 count0 count1 h0 h1
  have hno := reset_no_edge d0 count0 count1 h0 h1
  have hr0 : Reachable (reset d0 count0 count1) := Reachable.reset d0 count0 count1 h0 h1
  obtain ⟨d1, hrun1, hedge1, _⟩ := addEdge_accepts hd0 c_map 1 2 coords flag (by omega)
    (by omega) (by omega) (by omega) (by omega) hp1 (hno 1 2)
    (fun hp => by
      obtain ⟨c, hc⟩ := hasPath_last hp
      exact hno c 1 hc)
  have hedge : ∀ u v, HasEdge d1.nodes u v ↔ u = 1 ∧ v = 2 := by
    intro u v
    rw [hedge1 u v]
    constructor
    · rintro (h | h)
      · exact absurd h (hno u v)
      · exact h
    · exact Or.inr
  have hr1 : Reachable d1 := by
    have h : Reachable (true, d1).2 :=
      Reachable.addEdge c_map 1 2 coords flag (true, d1) hr0 (by omega) (by omega) hrun1
    exact h
  have hd1 := hr1.dinv
  have h12 : HasEdge d1.nodes 1 2 := (hedge 1 2).2 ⟨rfl, rfl⟩
  have hrun2 := addEdge_cycle hd1 c_map2 2 1 coords2 flag2 (Relation.TransGen.single h12)
  obtain ⟨d3, hrun3, hd3, hedge3, hsome3, hstep3, hlong3⟩ := computeDepths_longest hd1
  have hin1 : ∀ u k, PathLen d3.nodes u 1 k → k = 0 := by
    intro u k hp
    cases hp with
    | refl => rfl
    | step _ e =>
      rw [hedge3] at e
      have := ((hedge _ _).1 e).2
      omega
  have hin2 : ∀ u k, PathLen d3.nodes u 2 k → k ≤ 1 := by
    intro u k hp
    cases hp with
    | refl => omega
    | step hq e =>
      rw [hedge3] at e
      have hw := ((hedge _ _).1 e).1
      rw [hw] at hq
      have := hin1 _ _ hq
      omega
  have hs1 : (nodeAt d3.nodes 1).isSome = true := by
    rw [hsome3]
    obtain ⟨n, hn⟩ := hasEdge_allocated h12
    simp [hn]
  have hs2 : (nodeAt d3.nodes 2).isSome = true := by
    rw [hsome3]
    obtain ⟨e, he, het⟩ := h12
    exact het ▸ hd1.pre.targets 1 e he
  obtain ⟨n1, hn1⟩ := Option.isSome_iff_exists.1 hs1
  obtain ⟨n2, hn2⟩ := Option.isSome_iff_exists.1 hs2
  refine ⟨d1, d3, hrun1, hrun2, hedge, hrun3, n1, n2, hn1, hn2, ?_⟩
  obtain ⟨h10, ⟨u1, hp1⟩, _⟩ := hlong3 1 n1 hn1
  obtain ⟨h20, ⟨u2, hp2⟩, _⟩ := hlong3 2 n2 hn2
  have e1 := hin1 _ _ hp1
  have e2 := hin2 _ _ hp2
  have e3 := hstep3 1 2 (by rw [hedge3]; exact h12)
  rw [depthOf_of_nodeAt hn1, depthOf_of_nodeAt hn2] at e3
  omega

theorem C3_witness :
    ∃ d1 d3, addEdge (reset ⟨[], [], [], []⟩ 3 0) exampleMap 1 2 exampleCoords 0
        = some (true, d1) ∧
      addEdge d1 exampleMap 2 1 exampleCoords 0 = some (false, d1) ∧
      (∀ u v, HasEdge d1.nodes u v ↔ u = 1 ∧ v = 2) ∧
      computeDepths d1 = some d3 ∧
      ∃ n1 n2, nodeAt d3.nodes 1 = some n1 ∧ nodeAt d3.nodes 2 = some n2 ∧
        n2.depth = n1.depth + 1 :=
  C3_two_node_scenario ⟨[], [], [], []⟩ 3 0 (by omega) (by omega) fresh3_allocated.1
    fresh3_allocated.2 exampleMap exampleMap exampleCoords exampleCoords 0 0

set_option maxRecDepth 1000000 in
theorem fresh3_facts : (nodeAt fresh3.nodes 5).isSome = false ∧ outs fresh3.nodes 5 = [] ∧
    outs fresh3.nodes 1 = [] ∧ inDegree fresh3.nodes 5 = 0 ∧
    depthOf afterOneEdge.nodes 1 = 0 ∧ depthOf afterOneEdge.nodes 2 = 0 := by
  decide!

/-- C9: in a reachable state that holds an edge from -> to, `addEdge(from, to,
flag)` returns true; afterwards the edge from -> to has type `flag`, every node
has the same list of edge targets as before (no second edge from -> to, no edge
added or removed), and the counters `incomingEdges`, `startingNodes` and
`order` are unchanged. -/
theorem C9_existing_edge_is_retyped (d : Depth) (h : Reachable d) (c_map : ColorMap)
    (from_ to_ : Nat) (coords : vec2 × vec2) (flag : Nat) (he : HasEdge d.nodes from_ to_) :
    ∃ d1, addEdge d c_map from_ to_ coords flag = some (true, d1) ∧
      (∃ e ∈ outs d1.nodes from_, e.to_ = to_ ∧ e.type = flag) ∧
      (∀ e ∈ outs d1.nodes from_, e.to_ = to_ → e.type = flag) ∧
      (∀ e ∈ outs d1.nodes from_, e.to_ ≠ to_ → e ∈ outs d.nodes from_) ∧
      (∀ u, (outs d1.nodes u).map Edge.to_ = (outs d.nodes u).map Edge.to_) ∧
      (∀ u, u ≠ from_ → outs d1.nodes u = outs d.nodes u) ∧
      cnt (outs d1.nodes from_) to_ = 1 ∧
      (∀ v, (nodeAt d1.nodes v).map Node.incomingEdges
        = (nodeAt d.nodes v).map Node.incomingEdges) ∧
      d1.startingNodes = d.startingNodes ∧ d1.order = d.order := by
  have hd := h.dinv
  obtain ⟨nf, hnf⟩ := hasEdge_allocated he
  have hne : from_ ≠ to_ := by
    rintro rfl
    exact hd.acyclic from_ (Relation.TransGen.single he)
  obtain ⟨hf0, ht0⟩ := hd.noZero from_ to_ he
  have hg : ¬ (from_ = to_ ∨ from_ = 0 ∨ to_ = 0) := by
    rintro (h | h | h)
    · exact hne h
    · exact hf0 h
    · exact ht0 h
  have hpt : (nodeAt d.nodes to_).isSome = true := by
    obtain ⟨e, he1, het⟩ := he
    exact het ▸ hd.pre.targets _ e he1
  have hpf : (nodeAt d.nodes from_).isSome = true := by simp [hnf]
  have hMeq : materialise (materialise d.nodes from_) to_ = d.nodes := by
    rw [materialise_of_some hpf, materialise_of_some hpt]
  obtain ⟨es, hre⟩ : ∃ es, retype to_ flag nf.edgesOut = some es := by
    cases hr : retype to_ flag nf.edgesOut with
    | some es => exact ⟨es, rfl⟩
    | none =>
      exfalso
      obtain ⟨e, he1, het⟩ := he
      rw [outs_of_nodeAt hnf] at he1
      exact (retype_none_iff to_ flag nf.edgesOut).1 hr e he1 het
  have hrun := addEdge_retype d c_map from_ to_ coords flag hg (hMeq.symm ▸ hnf) hre
  rw [hMeq] at hrun
  obtain ⟨hmap, _, _, ⟨e2, he2, he2t, he2f⟩, hother⟩ := retype_some hre
  have hlt := nodeAt_lt hnf
  have hat : ∀ v, nodeAt (d.nodes.set from_ (some { nf with edgesOut := es })) v =
      if v = from_ then some { nf with edgesOut := es } else nodeAt d.nodes v :=
    fun v => nodeAt_set _ v hlt
  have houts : ∀ u, outs (d.nodes.set from_ (some { nf with edgesOut := es })) u =
      if u = from_ then es else outs d.nodes u := by
    intro u
    unfold outs
    rw [hat u]
    split_ifs <;> rfl
  have hnd : (es.map Edge.to_).Nodup := by
    rw [hmap, ← outs_of_nodeAt hnf]
    exact hd.simple from_
  refine ⟨_, hrun, ?_, ?_, ?_, ?_, ?_, ?_, ?_, rfl, rfl⟩
  · simp only [houts, if_true]
    exact ⟨e2, he2, he2t, he2f⟩
  · simp only [houts, if_true]
    intro e he1 het
    have : e = e2 := List.inj_on_of_nodup_map hnd he1 he2 (het.trans he2t.symm)
    rw [this]
    exact he2f
  · simp only [houts, if_true]
    intro e he1 het
    rw [outs_of_nodeAt hnf]
    exact hother e he1 het
  · intro u
    simp only [houts]
    split_ifs with hu
    · subst hu
      rw [hmap, outs_of_nodeAt hnf]
    · rfl
  · intro u hu
    simp only [houts, hu, if_false]
  · simp only [houts, if_true]
    rw [cnt_eq_count]
    exact List.count_eq_one_of_mem hnd (List.mem_map.2 ⟨e2, he2, he2t⟩)
  · intro v
    simp only [hat v]
    split_ifs with hv
    · subst hv
      simp [hnf]
    · rfl

theorem C9_witness : HasEdge afterOneEdge.nodes 1 2 ∧
    ∃ d1, addEdge afterOneEdge exampleMap 1 2 exampleCoords 1 = some (true, d1) ∧
      (∃ e ∈ outs d1.nodes 1, e.to_ = 2 ∧ e.type = 1) ∧
      (∀ e ∈ outs d1.nodes 1, e.to_ = 2 → e.type = 1) ∧
      (∀ e ∈ outs d1.nodes 1, e.to_ ≠ 2 → e ∈ outs afterOneEdge.nodes 1) ∧
      (∀ u, (outs d1.nodes u).map Edge.to_ = (outs afterOneEdge.nodes u).map Edge.to_) ∧
      (∀ u, u ≠ 1 → outs d1.nodes u = outs afterOneEdge.nodes u) ∧
      cnt (outs d1.nodes 1) 2 = 1 ∧
      (∀ v, (nodeAt d1.nodes v).map Node.incomingEdges
        = (nodeAt afterOneEdge.nodes v).map Node.incomingEdges) ∧
      d1.startingNodes = afterOneEdge.startingNodes ∧ d1.order = afterOneEdge.order :=
  ⟨afterOneEdge_edge, C9_existing_edge_is_retyped afterOneEdge afterOneEdge_reachable exampleMap
    1 2 exampleCoords 1 afterOneEdge_edge⟩

/-- C10 as stated fails: the accepted call `addEdge(1,2)` on the fresh graph
inserts the edge 1 -> 2 and leaves depth(1) = depth(2) = 0. -/
theorem C10_counterexample :
    ¬ HasEdge fresh3.nodes 1 2 ∧
    addEdge fresh3 exampleMap 1 2 exampleCoords 0 = some (true, afterOneEdge) ∧
    HasEdge afterOneEdge.nodes 1 2 ∧
    ¬ (depthOf afterOneEdge.nodes 1 + 1 ≤ depthOf afterOneEdge.nodes 2) := by
  refine ⟨?_, fresh3_addEdge, afterOneEdge_edge, ?_⟩
  · rintro ⟨e, he, _⟩
    rw [fresh3_facts.2.2.1] at he
    cases he
  · rw [fresh3_facts.2.2.2.2.1, fresh3_facts.2.2.2.2.2]
    omega

/-- C10 (amended): a successful `addEdge(from, to)` that inserts a new edge
leaves every stored depth as it was, a node allocated by the call having depth
0; depth(to) >= depth(from) + 1 holds after the next call of `computeDepths()`. -/
theorem C10_depths_wait_for_computeDepths (d : Depth) (h : Reachable d) (c_map : ColorMap)
    (from_ to_ : Nat) (coords : vec2 × vec2) (flag : Nat) (d1 : Depth)
    (hf : from_ < 256) (ht : to_ < 256) (hnew : ¬ HasEdge d.nodes from_ to_)
    (hrun : addEdge d c_map from_ to_ coords flag = some (true, d1)) :
    (∀ v, depthOf d1.nodes v = depthOf d.nodes v) ∧
    ∃ d2, computeDepths d1 = some d2 ∧ depthOf d2.nodes from_ + 1 ≤ depthOf d2.nodes to_ := by
  have hd := h.dinv
  have hr1 : Reachable d1 := by
    have h1 : Reachable (true, d1).2 :=
      Reachable.addEdge c_map from_ to_ coords flag (true, d1) h hf ht hrun
    exact h1
  have key : (∀ u v, HasEdge d1.nodes u v ↔ HasEdge d.nodes u v ∨ (u = from_ ∧ v = to_)) ∧
      (∀ v, depthOf d1.nodes v = depthOf d.nodes v) := by
    rcases addEdge_cases hd c_map from_ to_ coords flag hf ht with
      ⟨_, h1⟩ | ⟨nf, es, hnf, hre, _⟩ |
      ⟨nf, nt, nodes1, S1, tmp, hnf, hnt, _, hne, _, hset, _, _, h1⟩ |
      ⟨nodes1, S1, _, _, _, _, _, h1⟩
    · rw [hrun] at h1
      simp at h1
    · exfalso
      obtain ⟨_, _, ⟨e, he, het⟩, _⟩ := retype_some hre
      exact hnew ⟨e, by rw [outs_of_nodeAt hnf]; exact he, het⟩
    · rw [hrun] at h1
      simp at h1
      subst h1
      exact accept_facts hd hf ht hne hnf hnt hset
    · rw [hrun] at h1
      simp at h1
  refine ⟨key.2, ?_⟩
  obtain ⟨d2, hrun2, _, hedge2, _, hstep2, _⟩ := computeDepths_longest hr1.dinv
  refine ⟨d2, hrun2, hstep2 from_ to_ ?_⟩
  rw [hedge2]
  exact (key.1 from_ to_).2 (Or.inr ⟨rfl, rfl⟩)

theorem C10_witness :
    (∀ v, depthOf afterOneEdge.nodes v = depthOf fresh3.nodes v) ∧
    ∃ d2, computeDepths afterOneEdge = some d2 ∧ depthOf d2.nodes 1 + 1 ≤ depthOf d2.nodes 2 :=
  C10_depths_wait_for_computeDepths fresh3 fresh3_reachable exampleMap 1 2 exampleCoords 0
    afterOneEdge (by omega) (by omega)
    (fun h => by
      obtain ⟨e, he, _⟩ := h
      rw [fresh3_facts.2.2.1] at he
      cases he)
    fresh3_addEdge

end Depth


/-! ## `update` and the cycle check -/

open TopologicalSorting

namespace Depth

set_option maxRecDepth 1000000 in
theorem afterUpdate_addEdge :
    addEdge afterUpdate exampleMap 2 1 exampleCoords 0 = some (true, afterCycle) := by
  decide!

set_option maxRecDepth 1000000 in
theorem afterUpdate_starting : afterUpdate.startingNodes = [0, 1, 2] := by
  decide!

set_option maxRecDepth 1000000 in
theorem afterCycle_outs :
    outs afterCycle.nodes 1 = [⟨1, 2, 0⟩] ∧ outs afterCycle.nodes 2 = [⟨2, 1, 0⟩] := by
  decide!

theorem afterUpdate_reachable : ReachableU afterUpdate := by
  have h1 : (1 : Nat) < 256 := by omega
  have h2 : (2 : Nat) < 256 := by omega
  have h0 : ReachableU fresh3 := by
    unfold fresh3
    exact ReachableU.reset _ 3 0 (by omega) (by omega)
  have h : ReachableU (true, afterOneEdge).2 :=
    ReachableU.addEdge exampleMap 1 2 exampleCoords 0 (true, afterOneEdge) h0 h1 h2
      fresh3_addEdge
  have hu : ReachableU (update afterOneEdge 2) := ReachableU.update 2 h h2
  unfold afterUpdate
  exact hu

theorem afterCycle_reachable : ReachableU afterCycle := by
  have h1 : (1 : Nat) < 256 := by omega
  have h2 : (2 : Nat) < 256 := by omega
  have h : ReachableU (true, afterCycle).2 :=
    ReachableU.addEdge exampleMap 2 1 exampleCoords 0 (true, afterCycle)
      afterUpdate_reachable h2 h1 afterUpdate_addEdge
  exact h

/-- C11: the claim fails on the code. After `reset` with three segments,
`addEdge(1, 2)` is accepted; `update(2)` puts node 2, which has an incoming
edge, back among the starting nodes; `addEdge(2, 1)` is then accepted although
it closes the cycle 1 -> 2 -> 1, so a state reached by `reset`, `update` and
`addEdge` stores a directed cycle. -/
theorem C11_update_lets_a_cycle_in :
    addEdge fresh3 exampleMap 1 2 exampleCoords 0 = some (true, afterOneEdge) ∧
    afterUpdate = update afterOneEdge 2 ∧
    afterUpdate.startingNodes = [0, 1, 2] ∧
    addEdge afterUpdate exampleMap 2 1 exampleCoords 0 = some (true, afterCycle) ∧
    ReachableU afterCycle ∧
    HasEdge afterCycle.nodes 1 2 ∧ HasEdge afterCycle.nodes 2 1 ∧
    ¬ Acyclic afterCycle.nodes := by
  have e12 : HasEdge afterCycle.nodes 1 2 :=
    ⟨⟨1, 2, 0⟩, by rw [afterCycle_outs.1]; simp, rfl⟩
  have e21 : HasEdge afterCycle.nodes 2 1 :=
    ⟨⟨2, 1, 0⟩, by rw [afterCycle_outs.2]; simp, rfl⟩
  refine ⟨fresh3_addEdge, by unfold afterUpdate; rfl, afterUpdate_starting,
    afterUpdate_addEdge, afterCycle_reachable, e12, e21, ?_⟩
  intro h
  exact h 1 (Relation.TransGen.tail (Relation.TransGen.single e12) e21)

end Depth


/-! ## `ColorMap::newSegment` -/

namespace ColorMap

theorem land_type (flags : Nat) :
    Nat.land (flags % 256) MASK_SCRIBBLE_TYPE = flags % 2 := by
  show (flags % 256) &&& 1 = flags % 2
  rw [Nat.and_one_is_mod]
  omega

theorem count_setCount (c : ColorMap) (t u : Nat) (v : Int) (ht : t ≤ 1) (hu : u ≤ 1) :
    (c.setCount t v).count u = if u = t then v else c.count u := by
  have ht2 : t = 0 ∨ t = 1 := by omega
  have hu2 : u = 0 ∨ u = 1 := by omega
  unfold count setCount
  rcases ht2 with rfl | rfl <;> rcases hu2 with rfl | rfl <;> simp

theorem newSegment_false (c : ColorMap) (color : RGB) (flags : Nat) :
    (c.newSegment color flags).1 = false ↔ 128 ≤ c.count (flags % 2) := by
  unfold newSegment
  simp only [land_type, COLOR_MAX_COUNT]
  by_cases h : c.count (flags % 2) ≥ 128
  · simp [h]
  · rw [if_neg h]
    constructor
    · intro h1
      cases h1
    · intro h1
      exact absurd h1 h

theorem newSegment_unchanged (c : ColorMap) (color : RGB) (flags : Nat)
    (h : (c.newSegment color flags).1 = false) : (c.newSegment color flags).2 = c := by
  have h1 := (newSegment_false c color flags).1 h
  unfold newSegment
  simp only [land_type, COLOR_MAX_COUNT]
  rw [if_pos h1]

theorem newSegment_count (c : ColorMap) (color : RGB) (flags : Nat) (u : Nat) (hu : u ≤ 1) :
    (c.newSegment color flags).2.count u =
      if u = flags % 2 ∧ c.count u < 128 then c.count u + 1 else c.count u := by
  unfold newSegment
  simp only [land_type, COLOR_MAX_COUNT]
  by_cases h : c.count (flags % 2) ≥ 128
  · rw [if_pos h]
    have : ¬ (u = flags % 2 ∧ c.count u < 128) := by
      rintro ⟨rfl, h2⟩
      omega
    rw [if_neg this]
  · rw [if_neg h]
    rw [count_setCount _ _ _ _ (by omega) hu]
    by_cases hu2 : u = flags % 2
    · subst hu2
      have h3 : c.count (flags % 2) < 128 := by omega
      rw [if_pos rfl, if_pos ⟨rfl, h3⟩]
    · rw [if_neg hu2, if_neg (fun h4 => hu2 h4.1)]
      rfl

theorem Built.bounds {c : ColorMap} (h : Built c) : c.count 0 ≤ 128 ∧ c.count 1 ≤ 128 := by
  induction h with
  | new width height =>
    constructor
    · show (1 : Int) ≤ 128
      omega
    · show (0 : Int) ≤ 128
      omega
  | newSegment color flags _ ih =>
    rw [newSegment_count _ _ _ 0 (by omega), newSegment_count _ _ _ 1 (by omega)]
    constructor
    · split_ifs with h1
      · omega
      · exact ih.1
    · split_ifs with h1
      · omega
      · exact ih.2
  | reset _ _ =>
    constructor
    · show (1 : Int) ≤ 128
      omega
    · show (0 : Int) ≤ 128
      omega

/-- C16: on an object obtained from the constructor by calls of `newSegment`
and `reset`, `newSegment(color, flags)` returns false exactly when the count of
the requested type (flags & 1) equals 128, and then the whole object (counts,
active index, palette, mask) is unchanged; both counts are at most 128. -/
theorem C16_newSegment_capacity (c : ColorMap) (h : Built c) (color : RGB) (flags : Nat) :
    ((c.newSegment color flags).1 = false ↔ c.count (Nat.land flags 1) = 128) ∧
    ((c.newSegment color flags).1 = false → (c.newSegment color flags).2 = c) ∧
    c.count 0 ≤ 128 ∧ c.count 1 ≤ 128 := by
  have hb := h.bounds
  have hl : Nat.land flags 1 = flags % 2 := Nat.and_one_is_mod flags
  refine ⟨?_, newSegment_unchanged c color flags, hb.1, hb.2⟩
  rw [newSegment_false, hl]
  have h2 : c.count (flags % 2) ≤ 128 := by
    rcases Nat.mod_two_eq_zero_or_one flags with h0 | h0 <;> rw [h0]
    · exact hb.1
    · exact hb.2
  omega

end ColorMap


/-! ## `ColorMap::consolidate` -/

theorem mapFind_mapInsert (k v : Nat) (m : List (Nat × Nat)) (h : mapFind m k = none)
    (k' : Nat) : mapFind (mapInsert k v m) k' = if k' = k then some v else mapFind m k' := by
  induction m with
  | nil => simp [mapInsert, mapFind]
  | cons p m ih =>
    obtain ⟨a, b⟩ := p
    have hka : k ≠ a := by
      intro hka
      simp [mapFind, hka] at h
    have h2 : mapFind m k = none := by
      simpa [mapFind, hka] using h
    unfold mapInsert
    by_cases h1 : k < a
    · simp only [h1, if_true]
      simp only [mapFind]
    · simp only [h1, if_false, hka]
      simp only [mapFind, ih h2]
      by_cases h3 : k' = a
      · have : k' ≠ k := fun h4 => hka (h4 ▸ h3)
        rw [if_pos h3, if_neg this, if_pos h3]
      · simp [h3]

/-- A strictly increasing list of numbers of `[lo, hi)` has at most `hi - lo`
members. -/
theorem sorted_length_le (l : List Nat) (hs : l.Sorted (· < ·)) (lo hi : Nat)
    (h : ∀ x ∈ l, lo ≤ x ∧ x < hi) : lo + l.length ≤ hi ∨ l = [] := by
  induction l generalizing lo with
  | nil => exact Or.inr rfl
  | cons a t ih =>
    left
    have hs2 := List.sorted_cons.1 hs
    have ha := h a (List.mem_cons_self _ _)
    rcases ih hs2.2 (a + 1) (fun x hx => ⟨hs2.1 x hx, (h x (List.mem_cons_of_mem _ hx)).2⟩) with h1 | h1
    · simp only [List.length_cons]
      omega
    · subst h1
      simp only [List.length_cons, List.length_nil]
      omega

/-- A strictly increasing list of numbers of `[lo, hi)` that misses one number
of the range has fewer than `hi - lo` members. -/
theorem sorted_length_lt (l : List Nat) (hs : l.Sorted (· < ·)) (lo hi y : Nat)
    (h : ∀ x ∈ l, lo ≤ x ∧ x < hi) (hy : lo ≤ y ∧ y < hi) (hn : y ∉ l) :
    lo + l.length < hi := by
  have hnd : l.Nodup := hs.nodup
  have hsub : l.toFinset ⊆ (Finset.Ico lo hi).erase y := by
    intro x hx
    rw [List.mem_toFinset] at hx
    rw [Finset.mem_erase, Finset.mem_Ico]
    exact ⟨fun hxy => hn (hxy ▸ hx), h x hx⟩
  have hc := Finset.card_le_card hsub
  rw [List.toFinset_card_of_nodup hnd, Finset.card_erase_of_mem (Finset.mem_Ico.2 hy),
    Nat.card_Ico] at hc
  omega

theorem head_le_of_sorted {l : List Nat} (hs : l.Sorted (· < ·)) {a : Nat}
    (h : l.head? = some a) : a ∈ l ∧ ∀ x ∈ l, a ≤ x := by
  cases l with
  | nil => cases h
  | cons b t =>
    simp only [List.head?_cons, Option.some.injEq] at h
    subst h
    refine ⟨List.mem_cons_self _ _, fun x hx => ?_⟩
    rcases List.mem_cons.1 hx with rfl | hx
    · exact le_rfl
    · exact le_of_lt ((List.sorted_cons.1 hs).1 x hx)

theorem le_getLast_of_sorted {l : List Nat} (hs : l.Sorted (· < ·)) {b : Nat}
    (h : l.getLast? = some b) : b ∈ l ∧ ∀ x ∈ l, x ≤ b := by
  obtain ⟨ys, rfl⟩ := List.getLast?_eq_some_iff.1 h
  refine ⟨by simp, fun x hx => ?_⟩
  rcases List.mem_append.1 hx with hx | hx
  · have := (List.pairwise_append.1 hs).2.2 x hx b (by simp)
    exact le_of_lt this
  · simp only [List.mem_singleton] at hx
    exact le_of_eq hx

theorem mem_erase_sorted {l : List Nat} (hs : l.Sorted (· < ·)) (a x : Nat) :
    x ∈ l.erase a ↔ x ≠ a ∧ x ∈ l :=
  hs.nodup.mem_erase_iff

theorem sorted_erase {l : List Nat} (hs : l.Sorted (· < ·)) (a : Nat) :
    (l.erase a).Sorted (· < ·) :=
  List.Pairwise.sublist (List.erase_sublist a l) hs

namespace ColorMap

variable {F : List Nat} {colors0 : List RGB} {changes0 : List (Nat × Nat)} {base n i : Nat}
  {found : List Nat} {colors : List RGB} {changes : List (Nat × Nat)}

/-- One iteration of the loop of `consolidate` keeps the invariant. -/
theorem consolidate_step (hb : base + 128 ≤ 256)
    (I : ConsInv F colors0 changes0 base n i found colors changes) (hne : found ≠ []) :
    ∃ found1 colors1 changes1,
      (∀ k, consolidateLoop (k + 1) i found colors changes =
        consolidateLoop k (i + 1) found1 colors1 changes1) ∧
      ConsInv F colors0 changes0 base n (i + 1) found1 colors1 changes1 := by
  obtain ⟨sc, hsc⟩ : ∃ sc, found.head? = some sc := by
    cases found with
    | nil => exact absurd rfl hne
    | cons a t => exact ⟨a, rfl⟩
  obtain ⟨hscm, hscle⟩ := head_le_of_sorted I.sorted hsc
  have hlen : 0 < found.length := List.length_pos.2 hne
  by_cases his : i = sc
  · refine ⟨found.erase sc, colors, changes, ?_, ?_⟩
    · intro k
      simp only [consolidateLoop, hsc, his, if_true]
    · refine ⟨sorted_erase I.sorted sc, ?_, ?_, ?_, ?_, ?_, I.clen, ?_, ?_, I.frame, ?_, ?_,
        I.inj⟩
      · intro x hx
        exact I.sub x ((mem_erase_sorted I.sorted sc x).1 hx).2
      · intro x hx
        have h1 := (mem_erase_sorted I.sorted sc x).1 hx
        have h2 := hscle x h1.2
        have h3 := h1.1
        omega
      · intro x hx
        exact I.upper x ((mem_erase_sorted I.sorted sc x).1 hx).2
      · have := I.start
        omega
      · rw [List.length_erase_of_mem hscm]
        have := I.len
        omega
      · intro x hxF hx
        by_cases hxs : x = sc
        · left
          exact ⟨by omega, hxs ▸ I.kept sc hscm⟩
        · have hx2 : x ∉ found := fun h => hx ((mem_erase_sorted I.sorted sc x).2 ⟨hxs, h⟩)
          rcases I.gone x hxF hx2 with h1 | ⟨h1, y, h2, h3, h4, h5, h6⟩
          · left
            exact ⟨by omega, h1.2⟩
          · right
            exact ⟨h1, y, h2, h3, by omega, h5, h6⟩
      · intro x hx
        exact I.kept x ((mem_erase_sorted I.sorted sc x).1 hx).2
      · intro y hy1 hy2 hyF
        have : y ≠ i := fun h => hyF (h ▸ his ▸ I.sub sc hscm)
        exact I.onto y hy1 (by omega) hyF
      · intro z hz
        exact I.colorsHi z (by omega)
  · obtain ⟨sc2, hsc2⟩ : ∃ sc2, found.getLast? = some sc2 := by
      cases h : found.getLast? with
      | none => exact absurd (List.getLast?_eq_none_iff.1 h) hne
      | some a => exact ⟨a, rfl⟩
    obtain ⟨hsc2m, hsc2le⟩ := le_getLast_of_sorted I.sorted hsc2
    have hgt : ∀ x ∈ found, i + 1 ≤ x := by
      intro x hx
      have h1 := hscle x hx
      have h2 := I.lower sc hscm
      omega
    have hbig : base + n ≤ sc2 := by
      rcases sorted_length_le found I.sorted (i + 1) (sc2 + 1)
        (fun x hx => ⟨hgt x hx, Nat.lt_succ_of_le (hsc2le x hx)⟩) with h1 | h1
      · have := I.len
        omega
      · exact absurd h1 hne
    have hi256 : i < 256 := by
      have h1 := I.len
      have h2 := I.upper sc2 hsc2m
      omega
    have hs256 : sc2 < 256 := by
      have h2 := I.upper sc2 hsc2m
      omega
    have hiF : i ∉ F := by
      intro hiF
      have h1 : i ∉ found := fun h => by
        have := hgt i h
        omega
      rcases I.gone i hiF h1 with h2 | h2
      · omega
      · have := I.len
        omega
    have hil : i < colors.length := by rw [I.clen]; exact hi256
    have hsl : sc2 < colors.length := by rw [I.clen]; exact hs256
    obtain ⟨ci, hci⟩ : ∃ ci, colors[i]? = some ci := ⟨colors[i], List.getElem?_eq_getElem hil⟩
    obtain ⟨col, hcol⟩ : ∃ col, colors[sc2]? = some col :=
      ⟨colors[sc2], List.getElem?_eq_getElem hsl⟩
    have hfind := mapFind_mapInsert sc2 i changes (I.kept sc2 hsc2m)
    refine ⟨found.erase sc2, colors.set i col, mapInsert sc2 i changes, ?_, ?_⟩
    · intro k
      simp only [consolidateLoop, hsc, his, if_false, hsc2, hci, hcol]
    have hold : ∀ x ∈ F, mapFind changes x ≠ some i := by
      intro x hxF hx
      by_cases hxf : x ∈ found
      · rw [I.kept x hxf] at hx
        cases hx
      · rcases I.gone x hxF hxf with h1 | ⟨_, y, h2, _, h4, _, _⟩
        · rw [h1.2] at hx
          cases hx
        · rw [h2] at hx
          have := Option.some.inj hx
          omega
    · refine ⟨sorted_erase I.sorted sc2, ?_, ?_, ?_, ?_, ?_, ?_, ?_, ?_, ?_, ?_, ?_, ?_⟩
      · intro x hx
        exact I.sub x ((mem_erase_sorted I.sorted sc2 x).1 hx).2
      · intro x hx
        exact hgt x ((mem_erase_sorted I.sorted sc2 x).1 hx).2
      · intro x hx
        exact I.upper x ((mem_erase_sorted I.sorted sc2 x).1 hx).2
      · have := I.start
        omega
      · rw [List.length_erase_of_mem hsc2m]
        have := I.len
        omega
      · rw [List.length_set]
        exact I.clen
      · intro x hxF hx
        by_cases hxs : x = sc2
        · right
          subst hxs
          refine ⟨hbig, i, ?_, I.start, by omega, hiF, ?_⟩
          · rw [hfind, if_pos rfl]
          · rw [List.getElem?_set_self hil, ← hcol]
            have := hgt x hsc2m
            exact I.colorsHi x (by omega)
        · have hx2 : x ∉ found := fun h => hx ((mem_erase_sorted I.sorted sc2 x).2 ⟨hxs, h⟩)
          rcases I.gone x hxF hx2 with h1 | ⟨h1, y, h2, h3, h4, h5, h6⟩
          · left
            refine ⟨by omega, ?_⟩
            rw [hfind, if_neg hxs]
            exact h1.2
          · right
            refine ⟨h1, y, ?_, h3, by omega, h5, ?_⟩
            · rw [hfind, if_neg hxs]
              exact h2
            · rw [List.getElem?_set_ne (by omega)]
              exact h6
      · intro x hx
        have h1 := (mem_erase_sorted I.sorted sc2 x).1 hx
        rw [hfind, if_neg h1.1]
        exact I.kept x h1.2
      · intro x hx
        have : x ≠ sc2 := fun h => hx (h ▸ I.sub sc2 hsc2m)
        rw [hfind, if_neg this]
        exact I.frame x hx
      · intro y hy1 hy2 hyF
        by_cases hyi : y = i
        · refine ⟨sc2, I.sub sc2 hsc2m, ?_⟩
          rw [hfind, if_pos rfl, hyi]
        · obtain ⟨x, hxF, hx⟩ := I.onto y hy1 (by omega) hyF
          refine ⟨x, hxF, ?_⟩
          have : x ≠ sc2 := by
            intro h
            rw [h, I.kept sc2 hsc2m] at hx
            cases hx
          rw [hfind, if_neg this]
          exact hx
      · intro z hz
        rw [List.getElem?_set_ne (by omega)]
        exact I.colorsHi z (by omega)
      · intro x hxF x' hxF' y hx hx'
        rw [hfind] at hx hx'
        by_cases h1 : x = sc2 <;> by_cases h2 : x' = sc2
        · rw [h1, h2]
        · rw [if_pos h1] at hx
          rw [if_neg h2, ← hx] at hx'
          exact absurd hx' (hold x' hxF')
        · rw [if_pos h2] at hx'
          rw [if_neg h1, ← hx'] at hx
          exact absurd hx (hold x hxF)
        · rw [if_neg h1] at hx
          rw [if_neg h2] at hx'
          exact I.inj x hxF x' hxF' y hx hx'

/-- The loop of `consolidate` runs to its end and keeps the invariant. -/
theorem consolidateLoop_spec (hb : base + 128 ≤ 256) (k : Nat) :
    ∀ (i : Nat) (found : List Nat) (colors : List RGB) (changes : List (Nat × Nat)),
      ConsInv F colors0 changes0 base n i found colors changes → found.length = k →
      ∃ colors1 changes1,
        consolidateLoop k i found colors changes = some ([], colors1, changes1) ∧
        ConsInv F colors0 changes0 base n (i + k) [] colors1 changes1 := by
  induction k with
  | zero =>
    intro i found colors changes I hk
    have : found = [] := List.length_eq_zero.1 hk
    subst this
    exact ⟨colors, changes, rfl, I⟩
  | succ k ih =>
    intro i found colors changes I hk
    have hne : found ≠ [] := by
      intro h
      rw [h] at hk
      cases hk
    obtain ⟨found1, colors1, changes1, h1, I1⟩ := consolidate_step hb I hne
    have hk1 : found1.length = k := by
      have h2 := I.len
      have h3 := I1.len
      omega
    obtain ⟨colors2, changes2, h4, I2⟩ := ih (i + 1) found1 colors1 changes1 I1 hk1
    refine ⟨colors2, changes2, ?_, ?_⟩
    · rw [h1 k, h4]
    · have : i + (k + 1) = i + 1 + k := by omega
      rw [this]
      exact I2

/-- The invariant holds in front of the first iteration. -/
theorem consInv_init (found : List Nat) (colors : List RGB) (changes : List (Nat × Nat))
    (base : Nat) (hset : found.Sorted (· < ·))
    (hrange : ∀ x ∈ found, base ≤ x ∧ x ≤ base + 127) (hcol : colors.length = 256)
    (hfresh : ∀ x ∈ found, mapFind changes x = none) :
    ConsInv found colors changes base found.length base found colors changes where
  sorted := hset
  sub := fun _ h => h
  lower := fun x h => (hrange x h).1
  upper := fun x h => Nat.lt_succ_of_le (hrange x h).2
  start := le_rfl
  len := Nat.add_comm _ _
  clen := hcol
  gone := fun x h1 h2 => absurd h1 h2
  kept := hfresh
  frame := fun _ _ => rfl
  onto := fun y h1 h2 _ => absurd h1 (by omega)
  colorsHi := fun _ _ => rfl
  inj := fun x hx _ _ y h1 _ => by
    rw [hfresh x hx] at h1
    cases h1

/-- What `consolidate` returns once its loop has run. -/
theorem consolidate_eq (c : ColorMap) (found : List Nat) (changes : List (Nat × Nat)) (t : Nat)
    (ht : t ≤ 1) (found1 : List Nat) (colors1 : List RGB) (changes1 : List (Nat × Nat))
    (h : consolidateLoop ((found.length + t * 128) % 256 - t * 128 % 256) (t * 128 % 256)
      found c._colors changes = some (found1, colors1, changes1)) :
    ∃ c1, c.consolidate found changes t = some (c1, found1, changes1) ∧
      c1._colors = colors1 ∧ c1._data = c.clearedData ∧ c1.count t = found.length := by
  have hc : (c.setCount t found.length)._colors = c._colors := rfl
  have hcnt : (c.setCount t found.length).count t = found.length := by
    rw [count_setCount c t t _ ht ht, if_pos rfl]
  unfold consolidate
  simp only [hc, h]
  split_ifs with h1
  · exact ⟨_, rfl, rfl, rfl, hcnt⟩
  · exact ⟨_, rfl, rfl, rfl, hcnt⟩

end ColorMap

namespace ColorMap

/-- Effect of `consolidate(found, changes, t)` on the counts, on `changes`, on
the palette and on the mask. -/
theorem consolidate_spec (c : ColorMap) (found : List Nat) (changes : List (Nat × Nat))
    (t : Nat) (ht : t ≤ 1) (hset : found.Sorted (· < ·))
    (hrange : ∀ x ∈ found, 128 * t ≤ x ∧ x ≤ 128 * t + 127)
    (hcol : c._colors.length = 256) (hfresh : ∀ x ∈ found, mapFind changes x = none) :
    ∃ c1 found1 changes1, c.consolidate found changes t = some (c1, found1, changes1) ∧
      c1.count t = found.length ∧
      (∀ k ∈ found, (∃ v, mapFind changes1 k = some v) ↔ 128 * t + found.length ≤ k) ∧
      (∀ k, k ∉ found → mapFind changes1 k = mapFind changes k) ∧
      (∀ k ∈ found, ∀ v, mapFind changes1 k = some v →
        128 * t ≤ v ∧ v < 128 * t + found.length ∧ v ∉ found ∧
          c1._colors[v]? = c._colors[k]?) ∧
      (∀ v, 128 * t ≤ v → v < 128 * t + found.length → v ∉ found →
        ∃ k ∈ found, mapFind changes1 k = some v) ∧
      (∀ k ∈ found, ∀ k' ∈ found, ∀ v, mapFind changes1 k = some v →
        mapFind changes1 k' = some v → k = k') ∧
      c1._data = List.replicate (c._width * c._height).toNat (-1) := by
  have hb : 128 * t + 128 ≤ 256 := by omega
  have hn : found.length ≤ 128 := by
    rcases sorted_length_le found hset (128 * t) (128 * t + 128)
      (fun x hx => ⟨(hrange x hx).1, Nat.lt_succ_of_le (hrange x hx).2⟩) with h1 | h1
    · omega
    · rw [h1]
      simp
  have I0 := consInv_init found c._colors changes (128 * t) hset hrange hcol hfresh
  have hfrom : t * 128 % 256 = 128 * t := by omega
  by_cases hwrap : found.length + t * 128 < 256
  · have hcount : (found.length + t * 128) % 256 - t * 128 % 256 = found.length := by
      rw [Nat.mod_eq_of_lt hwrap]
      omega
    obtain ⟨colors1, changes1, hl, I⟩ := consolidateLoop_spec hb found.length (128 * t) found
      c._colors changes I0 rfl
    rw [← hcount, ← hfrom] at hl
    obtain ⟨c1, h1, h2, h3, h4⟩ := consolidate_eq c found changes t ht [] colors1 changes1 hl
    have hgone := fun x hx => I.gone x hx (List.not_mem_nil x)
    refine ⟨c1, [], changes1, h1, h4, ?_, I.frame, ?_, ?_, I.inj, h3⟩
    · intro k hk
      rcases hgone k hk with ⟨h5, h6⟩ | ⟨h5, y, h6, _⟩
      · constructor
        · rintro ⟨v, hv⟩
          rw [h6] at hv
          cases hv
        · intro h7
          omega
      · exact ⟨fun _ => h5, fun _ => ⟨y, h6⟩⟩
    · intro k hk v hv
      rcases hgone k hk with ⟨_, h6⟩ | ⟨_, y, h6, h7, h8, h9, h10⟩
      · rw [h6] at hv
        cases hv
      · rw [h6] at hv
        cases hv
        rw [h2]
        exact ⟨h7, h8, h9, h10⟩
    · intro v hv1 hv2 hv3
      exact I.onto v hv1 hv2 hv3
  · have hfull : found.length = 128 ∧ t = 1 := by omega
    have hcount : (found.length + t * 128) % 256 - t * 128 % 256 = 0 := by
      rw [hfull.1, hfull.2]
    have hl : consolidateLoop ((found.length + t * 128) % 256 - t * 128 % 256) (t * 128 % 256)
        found c._colors changes = some (found, c._colors, changes) := by
      rw [hcount]
      rfl
    obtain ⟨c1, h1, h2, h3, h4⟩ := consolidate_eq c found changes t ht found c._colors changes hl
    refine ⟨c1, found, changes, h1, h4, ?_, fun _ _ => rfl, ?_, ?_, ?_, h3⟩
    · intro k hk
      constructor
      · rintro ⟨v, hv⟩
        rw [hfresh k hk] at hv
        cases hv
      · intro h7
        have := (hrange k hk).2
        omega
    · intro k hk v hv
      rw [hfresh k hk] at hv
      cases hv
    · intro v hv1 hv2 hv3
      have := sorted_length_lt found hset (128 * t) (128 * t + 128) v
        (fun x hx => ⟨(hrange x hx).1, Nat.lt_succ_of_le (hrange x hx).2⟩) ⟨hv1, by omega⟩ hv3
      omega
    · intro k hk _ _ v hv
      rw [hfresh k hk] at hv
      cases hv

/-- C17, amended: for t in 0..1 and every set `found` of ids of that type (all in
[128t, 128t+127]), `consolidate(found, changes, t)`, entered with no entry of
`changes` for an id of `found`, returns with counts[t] = |found|; `changes`
maps exactly the ids of `found` that are at least 128t+|found|, injectively,
onto exactly the ids of [128t, 128t+|found|) that are not in `found`, and has
no entry for the other ids of `found`; the palette entry of every target is the
former palette entry of its source; and every mask pixel is -1. -/
theorem C17_consolidate_compacts_ids (c : ColorMap) (found : List Nat)
    (changes : List (Nat × Nat)) (t : Nat) (ht : t ≤ 1) (hset : found.Sorted (· < ·))
    (hrange : ∀ x ∈ found, 128 * t ≤ x ∧ x ≤ 128 * t + 127)
    (hcol : c._colors.length = 256) (hfresh : ∀ x ∈ found, mapFind changes x = none) :
    ∃ c1 found1 changes1, c.consolidate found changes t = some (c1, found1, changes1) ∧
      c1.count t = found.length ∧
      (∀ k ∈ found, (∃ v, mapFind changes1 k = some v) ↔ 128 * t + found.length ≤ k) ∧
      (∀ k, k ∉ found → mapFind changes1 k = mapFind changes k) ∧
      (∀ k ∈ found, ∀ v, mapFind changes1 k = some v →
        128 * t ≤ v ∧ v < 128 * t + found.length ∧ v ∉ found ∧
          c1._colors[v]? = c._colors[k]?) ∧
      (∀ v, 128 * t ≤ v → v < 128 * t + found.length → v ∉ found →
        ∃ k ∈ found, mapFind changes1 k = some v) ∧
      (∀ k ∈ found, ∀ k' ∈ found, ∀ v, mapFind changes1 k = some v →
        mapFind changes1 k' = some v → k = k') ∧
      c1._data = List.replicate (c._width * c._height).toNat (-1) :=
  consolidate_spec c found changes t ht hset hrange hcol hfresh

theorem new_colors_length (w h : Int) : (ColorMap.new w h)._colors.length = 256 := by
  show ((List.replicate 256 (⟨0, 0, 0⟩ : RGB)).set 0 ⟨1, 1, 1⟩).length = 256
  rw [List.length_set, List.length_replicate]

theorem C17_witness :
    ∃ c1 found1 changes1,
      (ColorMap.new 1 1).consolidate [1, 2] [] 0 = some (c1, found1, changes1) ∧
      c1.count 0 = ([1, 2] : List Nat).length ∧
      (∀ k ∈ [1, 2], (∃ v, mapFind changes1 k = some v) ↔ 128 * 0 + [1, 2].length ≤ k) ∧
      (∀ k, k ∉ [1, 2] → mapFind changes1 k = mapFind [] k) ∧
      (∀ k ∈ [1, 2], ∀ v, mapFind changes1 k = some v →
        128 * 0 ≤ v ∧ v < 128 * 0 + [1, 2].length ∧ v ∉ [1, 2] ∧
          c1._colors[v]? = (ColorMap.new 1 1)._colors[k]?) ∧
      (∀ v, 128 * 0 ≤ v → v < 128 * 0 + [1, 2].length → v ∉ [1, 2] →
        ∃ k ∈ [1, 2], mapFind changes1 k = some v) ∧
      (∀ k ∈ [1, 2], ∀ k' ∈ [1, 2], ∀ v, mapFind changes1 k = some v →
        mapFind changes1 k' = some v → k = k') ∧
      c1._data = List.replicate ((ColorMap.new 1 1)._width * (ColorMap.new 1 1)._height).toNat
        (-1) :=
  C17_consolidate_compacts_ids (ColorMap.new 1 1) [1, 2] [] 0 (by omega)
    (by simp) (by intro x hx; simp at hx; omega) (new_colors_length 1 1)
    (fun _ _ => rfl)

end ColorMap


/-! ## `Matrices::init` -/

theorem at?_eq {α : Type} (l : List α) (i : Int) (h0 : 0 ≤ i) (h1 : i.toNat < l.length) :
    at? l i = some (l.get ⟨i.toNat, h1⟩) := by
  unfold at?
  rw [if_neg (by omega)]
  exact List.getElem?_eq_getElem h1

namespace Matrices

theorem index_ok (width height : Nat) (q : Int × Int) (h : Inside width height q) :
    0 ≤ q.1 + q.2 * width ∧ (q.1 + q.2 * width).toNat < width * height := by
  obtain ⟨h1, h2, h3, h4⟩ := h
  have h5 : 0 ≤ q.2 * (width : Int) := Int.mul_nonneg h3 (Int.ofNat_nonneg _)
  have h6 : q.2 * (width : Int) ≤ ((height : Int) - 1) * width :=
    Int.mul_le_mul_of_nonneg_right (by omega) (Int.ofNat_nonneg _)
  have h7 : q.1 + q.2 * (width : Int) < (width : Int) * height := by
    have : ((height : Int) - 1) * width = (width : Int) * height - width := by ring
    omega
  refine ⟨by omega, ?_⟩
  have h8 : ((q.1 + q.2 * (width : Int)).toNat : Int) = q.1 + q.2 * width :=
    Int.toNat_of_nonneg (by omega)
  have h9 : ((width * height : Nat) : Int) = (width : Int) * height := by push_cast; rfl
  omega

theorem at?_label (width height : Nat) (img : List Rat) (q : Int × Int)
    (hl : img.length = width * height) (h : Inside width height q) :
    at? img (q.1 + q.2 * width) = some (label width img q) := by
  have hi := index_ok width height q h
  have h1 : (q.1 + q.2 * (width : Int)).toNat < img.length := by rw [hl]; exact hi.2
  unfold label
  rw [at?_eq img _ hi.1 h1]
  rfl

theorem at?_idOf (width height : Nat) (ids : List Int) (q : Int × Int)
    (hl : ids.length = width * height) (h : Inside width height q) :
    at? ids (q.1 + q.2 * width) = some (idOf width ids q) := by
  have hi := index_ok width height q h
  have h1 : (q.1 + q.2 * (width : Int)).toNat < ids.length := by rw [hl]; exact hi.2
  unfold idOf
  rw [at?_eq ids _ hi.1 h1]
  rfl

theorem at?_getD (b : List Rat) (id : Int) (h0 : 0 ≤ id) (h1 : id.toNat < b.length) :
    at? b id = some (b.getD id.toNat 0) := by
  rw [at?_eq b id h0 h1, List.getD_eq_getElem _ _ h1]
  rfl

/-- Label of a pixel taken as known, 0 for the others. -/
theorem set_getD_self (b : List Rat) (k : Nat) (h : k < b.length) :
    b.set k (b.getD k 0) = b := by
  apply List.ext_getElem?
  intro i
  rw [List.getElem?_set]
  split_ifs with h1
  · subst h1
    rw [List.getD_eq_getElem _ _ h, List.getElem?_eq_getElem h]
  · rfl

/-- One call of `insertValues` for a neighbour `q` of a pixel of the image. -/
theorem insertValues_eq (width height : Nat) (img : List Rat) (ids : List Int)
    (himg : img.length = width * height) (hids : ids.length = width * height)
    (id : Int) (q : Int × Int) (cnt : Int) (coefs : List Triplet) (b : List Rat)
    (hq : -1 ≤ q.1 ∧ q.1 ≤ width ∧ -1 ≤ q.2 ∧ q.2 ≤ height)
    (h0 : 0 ≤ id) (h1 : id.toNat < b.length) :
    insertValues width height id q.1 q.2 cnt coefs b img ids =
      some (cnt - (if Counted width height img q then 0 else 1),
        coefs ++ (if Unknown width height img q then [⟨id, idOf width ids q, 1⟩] else []),
        b.set id.toNat (b.getD id.toNat 0 -
          (if Known width height img q then label width img q else 0))) := by
  unfold insertValues
  by_cases hin : Inside width height q
  · have hb : ¬ (q.1 < 0 ∨ q.2 < 0 ∨ q.1 = width ∨ q.2 = height) := by
      obtain ⟨h1, h2, h3, h4⟩ := hin
      omega
    simp only [hb, if_false, at?_label width height img q himg hin,
      at?_idOf width height ids q hids hin, at?_getD b id h0 h1]
    by_cases hv : label width img q = -1
    · have h2 : ¬ Counted width height img q := fun h => h.2 hv
      have h3 : ¬ Unknown width height img q := fun h => by
        rw [h.2] at hv
        norm_num at hv
      have h4 : ¬ Known width height img q := fun h => h.2.1 hv
      simp only [hv, if_true, h2, h3, h4, if_false, List.append_nil, sub_zero,
        set_getD_self b _ h1]
    · have h2 : Counted width height img q := ⟨hin, hv⟩
      by_cases hu : label width img q = 1 / 2
      · have h3 : Unknown width height img q := ⟨hin, hu⟩
        have h4 : ¬ Known width height img q := fun h => h.2.2 hu
        have hne : ¬ ((1 : Rat) / 2 = -1) := by norm_num
        simp only [hv, if_false, h2, h3, h4, if_true, sub_zero, set_getD_self b _ h1, hu,
          ne_eq, not_true_eq_false, hne]
      · have h3 : ¬ Unknown width height img q := fun h => hu h.2
        have h4 : Known width height img q := ⟨hin, hv, hu⟩
        simp only [hv, if_false, h2, h3, h4, if_true, sub_zero, hu, ne_eq,
          not_false_eq_true, List.append_nil]
  · have hb : q.1 < 0 ∨ q.2 < 0 ∨ q.1 = width ∨ q.2 = height := by
      by_contra hb
      apply hin
      unfold Inside
      omega
    have h2 : ¬ Counted width height img q := fun h => hin h.1
    have h3 : ¬ Unknown width height img q := fun h => hin h.1
    have h4 : ¬ Known width height img q := fun h => hin h.1
    simp only [hb, if_true, h2, h3, h4, if_false, List.append_nil, sub_zero,
      set_getD_self b _ h1]

theorem filter_map4 {α β : Type} (P : α → Prop) [DecidablePred P] (f : α → β) (a b c d : α) :
    ([a, b, c, d].filter fun q => decide (P q)).map f =
      (if P a then [f a] else []) ++ ((if P b then [f b] else []) ++
        ((if P c then [f c] else []) ++ (if P d then [f d] else []))) := by
  by_cases ha : P a <;> by_cases hb : P b <;> by_cases hc : P c <;> by_cases hd : P d <;>
    simp [List.filter_cons, ha, hb, hc, hd]

theorem filter_len4 {α : Type} (P : α → Prop) [DecidablePred P] (a b c d : α) :
    ((([a, b, c, d].filter fun q => decide (P q)).length : Nat) : Int) =
      4 - (if P a then 0 else 1) - (if P b then 0 else 1) - (if P c then 0 else 1) -
        (if P d then 0 else 1) := by
  by_cases ha : P a <;> by_cases hb : P b <;> by_cases hc : P c <;> by_cases hd : P d <;>
    simp [List.filter_cons, ha, hb, hc, hd]

theorem filter_sum4 {α : Type} (P : α → Prop) [DecidablePred P] (g : α → Rat) (a b c d : α) :
    (([a, b, c, d].filter fun q => decide (P q)).map g).sum =
      (if P a then g a else 0) + (if P b then g b else 0) + (if P c then g c else 0) +
        (if P d then g d else 0) := by
  by_cases ha : P a <;> by_cases hb : P b <;> by_cases hc : P c <;> by_cases hd : P d <;>
    simp [List.filter_cons, ha, hb, hc, hd] <;> ring

theorem set_set_getD (b : List Rat) (i : Nat) (x k : Rat) (h : i < b.length) :
    (b.set i x).set i ((b.set i x).getD i 0 - k) = b.set i (x - k) := by
  have h1 : i < (b.set i x).length := by rw [List.length_set]; exact h
  rw [List.getD_eq_getElem _ _ h1, List.getElem_set_self, List.set_set]

/-- The body of the loops of `init` at a pixel of the image. -/
theorem initPixel_eq (width height n : Nat) (img : List Rat) (ids : List Int)
    (N : Numbered width height img ids n) (p : Int × Int) (hp : Inside width height p)
    (st : List Triplet × List Rat) (hb : st.2.length = n) :
    initPixel width height img ids p.1 p.2 st = some (afterPixel width height img ids st p) ∧
      (afterPixel width height img ids st p).2.length = n := by
  unfold initPixel afterPixel
  rw [at?_label width height img p N.imgLen hp]
  by_cases hu : label width img p = 1 / 2
  · have hid := N.range p ⟨hp, hu⟩
    have h0 := hid.1
    have h1 : (idOf width ids p).toNat < st.2.length := by
      rw [hb]
      omega
    have hcomm : p.1 + (width : Int) * p.2 = p.1 + p.2 * width := by ring
    obtain ⟨hp1, hp2, hp3, hp4⟩ := hp
    have e1 := insertValues_eq width height img ids N.imgLen N.idsLen (idOf width ids p)
      (p.1 - 1, p.2) 4 st.1 st.2 (by simp only; omega) h0 h1
    simp only [hu, ne_eq, not_true_eq_false, if_false, if_true, hcomm,
      at?_idOf width height ids p N.idsLen ⟨hp1, hp2, hp3, hp4⟩]
    rw [e1]
    simp only
    have h2 : ∀ x, (idOf width ids p).toNat < (st.2.set (idOf width ids p).toNat x).length := by
      intro x
      rw [List.length_set]
      exact h1
    rw [insertValues_eq width height img ids N.imgLen N.idsLen (idOf width ids p)
      (p.1 + 1, p.2) _ _ _ (by simp only; omega) h0 (h2 _)]
    simp only
    rw [set_set_getD _ _ _ _ h1]
    rw [insertValues_eq width height img ids N.imgLen N.idsLen (idOf width ids p)
      (p.1, p.2 - 1) _ _ _ (by simp only; omega) h0 (h2 _)]
    simp only
    rw [set_set_getD _ _ _ _ h1]
    rw [insertValues_eq width height img ids N.imgLen N.idsLen (idOf width ids p)
      (p.1, p.2 + 1) _ _ _ (by simp only; omega) h0 (h2 _)]
    simp only
    rw [set_set_getD _ _ _ _ h1]
    refine ⟨?_, by rw [List.length_set]; exact hb⟩
    unfold rowOf unknownNeighbours knownSum knownNeighbours neighCount neighbours
    rw [filter_map4 (Unknown width height img), filter_len4 (Counted width height img),
      filter_sum4 (Known width height img)]
    simp only [List.append_assoc, Option.some.injEq, Prod.mk.injEq]
    refine ⟨?_, ?_⟩
    · trivial
    · congr 1
      ring
  · simp only [hu, ne_eq, not_false_eq_true, if_true, if_false]
    exact ⟨trivial, hb⟩

theorem foldlM_some {σ α : Type} (f : σ → α → Option σ) (g : σ → α → σ) (P : σ → Prop)
    (l : List α) (s : σ) (hP : P s)
    (h : ∀ s x, P s → x ∈ l → f s x = some (g s x) ∧ P (g s x)) :
    l.foldlM f s = some (l.foldl g s) ∧ P (l.foldl g s) := by
  induction l generalizing s with
  | nil => exact ⟨rfl, hP⟩
  | cons a t ih =>
    have h1 := h s a hP (List.mem_cons_self _ _)
    have h2 := ih (g s a) h1.2 (fun s x hs hx => h s x hs (List.mem_cons_of_mem _ hx))
    refine ⟨?_, h2.2⟩
    rw [List.foldlM_cons, h1.1]
    exact h2.1

theorem foldl_flatMap_eq {σ α β : Type} (g : σ → β → σ) (k : α → List β) (l : List α) (s : σ) :
    (l.flatMap k).foldl g s = l.foldl (fun s x => (k x).foldl g s) s := by
  induction l generalizing s with
  | nil => rfl
  | cons a t ih => rw [List.flatMap_cons, List.foldl_append, ih, List.foldl_cons]

theorem mem_pixels (width height : Nat) (p : Int × Int) :
    p ∈ pixels width height ↔ Inside width height p := by
  unfold pixels Inside
  simp only [List.mem_flatMap, List.mem_range, List.mem_map]
  constructor
  · rintro ⟨y, hy, x, hx, rfl⟩
    simp only
    omega
  · rintro ⟨h1, h2, h3, h4⟩
    refine ⟨p.2.toNat, by omega, p.1.toNat, by omega, ?_⟩
    rw [Int.toNat_of_nonneg h1, Int.toNat_of_nonneg h3]

/-- The function `init` returns, and its result is the one of `afterPixel` run
over the pixels. -/
theorem init_eq (width height n : Nat) (img : List Rat) (ids : List Int)
    (N : Numbered width height img ids n) :
    init width height img ids n =
        some ((pixels width height).foldl (afterPixel width height img ids)
          ([], List.replicate n 0)) ∧
      ((pixels width height).foldl (afterPixel width height img ids)
          ([], List.replicate n 0)).2.length = n := by
  unfold init pixels
  rw [foldl_flatMap_eq]
  refine foldlM_some _ _ (fun st : List Triplet × List Rat => st.2.length = n) _
    (([], List.replicate n 0) : List Triplet × List Rat) (List.length_replicate n (0 : Rat)) ?_
  intro st h hst hh
  rw [List.foldl_map]
  refine foldlM_some _ _ (fun st : List Triplet × List Rat => st.2.length = n) _ _ hst ?_
  intro st w hst hw
  have hp : Inside width height ((w : Int), (h : Int)) := by
    rw [List.mem_range] at hh hw
    unfold Inside
    simp only
    omega
  exact initPixel_eq width height n img ids N ((w : Int), (h : Int)) hp st hst

end Matrices


/-! ## The linear system assembled by `Matrices::init` -/

namespace Matrices

theorem sum_single {α : Type} (l : List α) (hn : l.Nodup) (a : α) (ha : a ∈ l) (g : α → Rat)
    (h : ∀ x ∈ l, x ≠ a → g x = 0) : (l.map g).sum = g a := by
  induction l with
  | nil => cases ha
  | cons b t ih =>
    rw [List.map_cons, List.sum_cons]
    have hn2 := List.nodup_cons.1 hn
    by_cases hb : b = a
    · subst hb
      have : (t.map g).sum = 0 := by
        apply List.sum_eq_zero
        intro y hy
        obtain ⟨x, hx, rfl⟩ := List.mem_map.1 hy
        exact h x (List.mem_cons_of_mem _ hx) (fun hxa => hn2.1 (hxa ▸ hx))
      rw [this, add_zero]
    · have hat : a ∈ t := by
        rcases List.mem_cons.1 ha with h1 | h1
        · exact absurd h1.symm hb
        · exact h1
      rw [h b (List.mem_cons_self _ _) hb, zero_add]
      exact ih hn2.2 hat (fun x hx => h x (List.mem_cons_of_mem _ hx))

theorem sum_indicator {α : Type} [DecidableEq α] (l : List α) (hn : l.Nodup) (a : α) :
    (l.map fun q => if q = a then (1 : Rat) else 0).sum = if a ∈ l then 1 else 0 := by
  by_cases ha : a ∈ l
  · rw [if_pos ha, sum_single l hn a ha _ (fun x _ hx => if_neg hx), if_pos rfl]
  · rw [if_neg ha]
    apply List.sum_eq_zero
    intro y hy
    obtain ⟨x, hx, rfl⟩ := List.mem_map.1 hy
    exact if_neg (fun h : x = a => ha (h ▸ hx))

theorem pixels_nodup (width height : Nat) : (pixels width height).Nodup := by
  unfold pixels
  rw [List.nodup_flatMap]
  constructor
  · intro h _
    apply List.Nodup.map _ (List.nodup_range width)
    intro a b hab
    simp only [Prod.mk.injEq, Nat.cast_inj, and_true] at hab
    exact hab
  · apply List.Pairwise.imp _ (List.nodup_range height)
    intro a b hab
    simp only [Function.onFun, List.disjoint_left, List.mem_map, List.mem_range,
      not_exists, not_and]
    rintro p ⟨x, _, rfl⟩ y _ hy
    simp only [Prod.mk.injEq, Nat.cast_inj] at hy
    exact hab hy.2.symm

theorem neighbours_nodup (p : Int × Int) : (neighbours p).Nodup := by
  unfold neighbours
  simp only [List.nodup_cons, List.mem_cons, List.mem_singleton, Prod.mk.injEq,
    List.not_mem_nil, not_false_eq_true, List.nodup_nil, and_true, not_or]
  omega

theorem not_mem_neighbours (p : Int × Int) : p ∉ neighbours p := by
  unfold neighbours
  obtain ⟨a, b⟩ := p
  simp only [List.mem_cons, List.mem_singleton, Prod.mk.injEq, List.not_mem_nil, or_false,
    not_or]
  omega

theorem mem_neighbours_symm (p q : Int × Int) : q ∈ neighbours p ↔ p ∈ neighbours q := by
  unfold neighbours
  obtain ⟨a, b⟩ := p
  obtain ⟨c, d⟩ := q
  simp only [List.mem_cons, List.mem_singleton, Prod.mk.injEq, List.not_mem_nil, or_false]
  omega

theorem entry_append (a b : List Triplet) (i j : Int) :
    entry (a ++ b) i j = entry a i j + entry b i j := by
  unfold entry
  rw [List.map_append, List.sum_append]

theorem rowDot_append (a b : List Triplet) (i : Int) (x : Int → Rat) :
    rowDot (a ++ b) i x = rowDot a i x + rowDot b i x := by
  unfold rowDot
  rw [List.map_append, List.sum_append]

theorem quadForm_append (a b : List Triplet) (x : Int → Rat) :
    quadForm (a ++ b) x = quadForm a x + quadForm b x := by
  unfold quadForm
  rw [List.map_append, List.sum_append]

/-- An additive function of the triplets is the sum of its values on the rows
of the unknown pixels. -/
theorem additive_foldl (width height : Nat) (img : List Rat) (ids : List Int)
    (φ : List Triplet → Rat) (hφ : ∀ a b, φ (a ++ b) = φ a + φ b) (ps : List (Int × Int))
    (st : List Triplet × List Rat) :
    φ (ps.foldl (afterPixel width height img ids) st).1 =
      φ st.1 + (ps.map fun p => if label width img p = 1 / 2 then
        φ (rowOf width height img ids p) else 0).sum := by
  induction ps generalizing st with
  | nil => simp
  | cons p t ih =>
    rw [List.foldl_cons, ih, List.map_cons, List.sum_cons, ← add_assoc]
    congr 1
    unfold afterPixel
    split_ifs with h
    · exact hφ _ _
    · rw [add_zero]

theorem entry_rowOf (width height : Nat) (img : List Rat) (ids : List Int) (p : Int × Int)
    (i j : Int) :
    entry (rowOf width height img ids p) i j =
      if i = idOf width ids p then
        ((unknownNeighbours width height img p).map fun q =>
          if idOf width ids q = j then (1 : Rat) else 0).sum +
        (if idOf width ids p = j then -((neighCount width height img p : Int) : Rat) else 0)
      else 0 := by
  unfold rowOf
  rw [entry_append]
  unfold entry
  rw [List.map_map]
  by_cases hi : i = idOf width ids p
  · subst hi
    rw [if_pos rfl]
    simp only [List.map_cons, List.map_nil, List.sum_cons, List.sum_nil, add_zero, true_and,
      Function.comp_def]
  · rw [if_neg hi]
    have h1 : ∀ q : Int × Int, idOf width ids p = i ∧ idOf width ids q = j ↔ False :=
      fun q => ⟨fun h => hi h.1.symm, False.elim⟩
    have h2 : (idOf width ids p = i ∧ idOf width ids p = j) ↔ False :=
      ⟨fun h => hi h.1.symm, False.elim⟩
    simp only [List.map_cons, List.map_nil, List.sum_cons, List.sum_nil, add_zero,
      Function.comp_def, h1, h2, if_false, List.map_const', List.sum_replicate, smul_zero]

theorem rowDot_rowOf (width height : Nat) (img : List Rat) (ids : List Int) (p : Int × Int)
    (i : Int) (x : Int → Rat) :
    rowDot (rowOf width height img ids p) i x =
      if i = idOf width ids p then
        ((unknownNeighbours width height img p).map fun q => x (idOf width ids q)).sum -
          (neighCount width height img p : Rat) * x (idOf width ids p)
      else 0 := by
  unfold rowOf
  rw [rowDot_append]
  unfold rowDot
  rw [List.map_map]
  by_cases hi : i = idOf width ids p
  · subst hi
    rw [if_pos rfl]
    simp only [List.map_cons, List.map_nil, List.sum_cons, List.sum_nil, add_zero, if_true,
      Function.comp_def, one_mul, Int.cast_neg, Int.cast_natCast]
    ring
  · rw [if_neg hi]
    have h1 : ¬ (idOf width ids p = i) := fun h => hi h.symm
    simp only [List.map_cons, List.map_nil, List.sum_cons, List.sum_nil, add_zero,
      Function.comp_def, h1, if_false, List.map_const', List.sum_replicate, smul_zero]

/-- Only the row of the pixel with id `i` contributes to row `i`. -/
theorem sum_rows_single (width height n : Nat) (img : List Rat) (ids : List Int)
    (N : Numbered width height img ids n) (p0 : Int × Int)
    (hp0 : Unknown width height img p0) (g : Int × Int → Rat)
    (hg : ∀ p, Unknown width height img p → idOf width ids p ≠ idOf width ids p0 → g p = 0) :
    ((pixels width height).map fun p => if label width img p = 1 / 2 then g p else 0).sum =
      g p0 := by
  rw [sum_single (pixels width height) (pixels_nodup width height) p0
    ((mem_pixels width height p0).2 hp0.1)]
  · rw [if_pos hp0.2]
  · intro p hp hne
    split_ifs with h
    · apply hg p ⟨(mem_pixels width height p).1 hp, h⟩
      intro hid
      exact hne (N.inj p p0 ⟨(mem_pixels width height p).1 hp, h⟩ hp0 hid)
    · rfl

theorem getD_set (l : List Rat) (k i : Nat) (v : Rat) (hk : k < l.length) :
    (l.set k v).getD i 0 = if k = i then v else l.getD i 0 := by
  rw [List.getD_eq_getElem?_getD, List.getD_eq_getElem?_getD, List.getElem?_set]
  split_ifs with h1
  · rfl
  · rfl

/-- The right-hand side after the pixels `ps`. -/
theorem rhs_foldl (width height : Nat) (img : List Rat) (ids : List Int)
    (ps : List (Int × Int)) (st : List Triplet × List Rat)
    (hv : ∀ p ∈ ps, label width img p = 1 / 2 → (idOf width ids p).toNat < st.2.length)
    (i : Nat) :
    (ps.foldl (afterPixel width height img ids) st).2.getD i 0 =
      st.2.getD i 0 - (ps.map fun p => if label width img p = 1 / 2 then
        (if (idOf width ids p).toNat = i then knownSum width height img p else 0) else 0).sum := by
  induction ps generalizing st with
  | nil => simp
  | cons p t ih =>
    have hlen : (afterPixel width height img ids st p).2.length = st.2.length := by
      unfold afterPixel
      split_ifs
      · simp only [List.length_set]
      · rfl
    rw [List.foldl_cons, ih _ (fun q hq h => by
      rw [hlen]
      exact hv q (List.mem_cons_of_mem _ hq) h), List.map_cons, List.sum_cons]
    have h1 : (afterPixel width height img ids st p).2.getD i 0 =
        st.2.getD i 0 - (if label width img p = 1 / 2 then
          (if (idOf width ids p).toNat = i then knownSum width height img p else 0) else 0) := by
      unfold afterPixel
      by_cases h : label width img p = 1 / 2
      · simp only [h, if_true]
        rw [getD_set _ _ _ _ (hv p (List.mem_cons_self _ _) h)]
        split_ifs with h2
        · rw [h2]
        · rw [sub_zero]
      · simp only [h, if_false, sub_zero]
    rw [h1]
    ring

theorem counted_sum (width height : Nat) (img : List Rat) (ids : List Int) (x : Int → Rat)
    (p : Int × Int) :
    ((countedNeighbours width height img p).map (valueAt width height img ids x)).sum =
      ((unknownNeighbours width height img p).map fun q => x (idOf width ids q)).sum +
        knownSum width height img p := by
  unfold countedNeighbours unknownNeighbours knownSum knownNeighbours neighbours
  rw [filter_sum4 (Counted width height img), filter_sum4 (Unknown width height img),
    filter_sum4 (Known width height img)]
  have h : ∀ q, (if Counted width height img q then valueAt width height img ids x q else 0) =
      (if Unknown width height img q then x (idOf width ids q) else 0) +
        (if Known width height img q then label width img q else 0) := by
    intro q
    unfold valueAt
    by_cases hu : Unknown width height img q
    · have hc : Counted width height img q := ⟨hu.1, fun h => by
        rw [hu.2] at h
        norm_num at h⟩
      have hk : ¬ Known width height img q := fun h => h.2.2 hu.2
      simp only [hu, hc, hk, if_true, if_false, add_zero]
    · by_cases hc : Counted width height img q
      · have hk : Known width height img q := ⟨hc.1, hc.2, fun h => hu ⟨hc.1, h⟩⟩
        simp only [hu, hc, hk, if_true, if_false, zero_add]
      · have hk : ¬ Known width height img q := fun h => hc ⟨h.1, h.2.1⟩
        simp only [hu, hc, hk, if_false, add_zero]
  rw [h, h, h, h]
  ring

/-- The rows that `init` assembles. -/
theorem init_rows (width height n : Nat) (img : List Rat) (ids : List Int)
    (N : Numbered width height img ids n) :
    ∃ coefs b, init width height img ids n = some (coefs, b) ∧
      ∀ p, Unknown width height img p →
        entry coefs (idOf width ids p) (idOf width ids p) =
          -(neighCount width height img p : Rat) ∧
        (∀ q, Unknown width height img q → q ≠ p →
          entry coefs (idOf width ids p) (idOf width ids q) =
            if q ∈ neighbours p then 1 else 0) ∧
        b.getD (idOf width ids p).toNat 0 = -knownSum width height img p ∧
        ∀ x : Int → Rat,
          rowDot coefs (idOf width ids p) x =
            ((unknownNeighbours width height img p).map fun q => x (idOf width ids q)).sum -
              (neighCount width height img p : Rat) * x (idOf width ids p) := by
  obtain ⟨he, _⟩ := init_eq width height n img ids N
  refine ⟨_, _, he, ?_⟩
  intro p hp
  have hne : ∀ q ∈ unknownNeighbours width height img p,
      Unknown width height img q ∧ q ∈ neighbours p ∧ q ≠ p := by
    intro q hq
    unfold unknownNeighbours at hq
    rw [List.mem_filter] at hq
    exact ⟨of_decide_eq_true hq.2, hq.1, fun h => not_mem_neighbours p (h ▸ hq.1)⟩
  have hentry : ∀ j, entry ((pixels width height).foldl (afterPixel width height img ids)
      ([], List.replicate n 0)).1 (idOf width ids p) j =
      entry (rowOf width height img ids p) (idOf width ids p) j := by
    intro j
    rw [additive_foldl width height img ids (fun l => entry l (idOf width ids p) j)
      (fun a b => entry_append a b _ _)]
    rw [sum_rows_single width height n img ids N p hp
      (fun q => entry (rowOf width height img ids q) (idOf width ids p) j)]
    · show entry [] _ _ + _ = _
      unfold entry
      simp
    · intro q _ hq
      rw [entry_rowOf, if_neg (fun h => hq h.symm)]
  refine ⟨?_, ?_, ?_, ?_⟩
  · rw [hentry, entry_rowOf, if_pos rfl, if_pos rfl]
    have : ((unknownNeighbours width height img p).map fun q =>
        if idOf width ids q = idOf width ids p then (1 : Rat) else 0).sum = 0 := by
      apply List.sum_eq_zero
      intro y hy
      obtain ⟨q, hq, rfl⟩ := List.mem_map.1 hy
      have h1 := hne q hq
      exact if_neg (fun h => h1.2.2 (N.inj q p h1.1 hp h))
    rw [this, zero_add]
    simp
  · intro q hq hqp
    rw [hentry, entry_rowOf, if_pos rfl,
      if_neg (fun h => hqp (N.inj q p hq hp h.symm)), add_zero]
    have h1 : ((unknownNeighbours width height img p).map fun q' =>
        if idOf width ids q' = idOf width ids q then (1 : Rat) else 0) =
        (unknownNeighbours width height img p).map fun q' => if q' = q then (1 : Rat) else 0 := by
      apply List.map_congr_left
      intro q' hq'
      by_cases h : q' = q
      · rw [if_pos h, if_pos (by rw [h])]
      · rw [if_neg h, if_neg (fun h2 => h (N.inj q' q (hne q' hq').1 hq h2))]
    have hnd : (unknownNeighbours width height img p).Nodup := by
      unfold unknownNeighbours
      exact List.Nodup.filter _ (neighbours_nodup p)
    rw [h1, sum_indicator _ hnd]
    unfold unknownNeighbours
    simp only [List.mem_filter, decide_eq_true_eq, hq, and_true]
  · have hv : ∀ q ∈ pixels width height, label width img q = 1 / 2 →
        (idOf width ids q).toNat < (([], List.replicate n 0) : List Triplet × List Rat).2.length := by
      intro q hq h
      have := N.range q ⟨(mem_pixels width height q).1 hq, h⟩
      rw [List.length_replicate]
      omega
    rw [rhs_foldl width height img ids _ _ hv]
    rw [sum_rows_single width height n img ids N p hp
      (fun q => if (idOf width ids q).toNat = (idOf width ids p).toNat then
        knownSum width height img q else 0)]
    · rw [if_pos rfl, List.getD_eq_getElem?_getD, List.getElem?_replicate]
      split_ifs <;> simp
    · intro q hqu hq
      have h1 := N.range q hqu
      have h2 := N.range p hp
      rw [if_neg (by omega)]
  · intro x
    rw [additive_foldl width height img ids (fun l => rowDot l (idOf width ids p) x)
      (fun a b => rowDot_append a b _ _)]
    rw [sum_rows_single width height n img ids N p hp
      (fun q => rowDot (rowOf width height img ids q) (idOf width ids p) x)]
    · rw [rowDot_rowOf, if_pos rfl]
      show rowDot [] _ _ + _ = _
      unfold rowDot
      simp
    · intro q _ hq
      rw [rowDot_rowOf, if_neg (fun h => hq h.symm)]

end Matrices

namespace Matrices

theorem example_unknown (p : Int × Int) (h : Unknown 3 1 exampleImg p) :
    p = (1, 0) ∨ p = (2, 0) := by
  obtain ⟨a, b⟩ := p
  obtain ⟨⟨h1, h2, h3, h4⟩, h5⟩ := h
  simp only at h1 h2 h3 h4
  have hb : b = 0 := by omega
  subst hb
  have ha : a = 0 ∨ a = 1 ∨ a = 2 := by omega
  rcases ha with rfl | rfl | rfl
  · exfalso
    norm_num [label, at?, exampleImg] at h5
  · exact Or.inl rfl
  · exact Or.inr rfl

theorem example_numbered : Numbered 3 1 exampleImg exampleIds 2 where
  imgLen := rfl
  idsLen := rfl
  range := fun p hp => by
    rcases example_unknown p hp with rfl | rfl <;> decide
  inj := fun p q hp hq h => by
    rcases example_unknown p hp with rfl | rfl <;>
      rcases example_unknown q hq with rfl | rfl <;>
      first
        | rfl
        | (exfalso; revert h; decide)

theorem example_is_unknown : Unknown 3 1 exampleImg (1, 0) :=
  ⟨by unfold Inside; simp, by norm_num [label, at?, exampleImg]⟩

theorem example_labels : ∀ v ∈ exampleImg, v = -1 ∨ v = 0 ∨ v = 1 / 2 ∨ v = 1 := by
  intro v hv
  simp only [exampleImg, List.mem_cons, List.mem_singleton, List.not_mem_nil, or_false] at hv
  rcases hv with rfl | rfl | rfl <;> norm_num

/-- C18: for a label image over {-1, 0, 0.5, 1} whose unknown (0.5) pixels
are numbered by `ids`, `init` returns, and in the system it assembles the row
of each unknown pixel has diagonal -c, c being the number of its 4-neighbours
that are in the image and not excluded, coefficient 1 in the column of each
unknown neighbour (0 in the column of any other unknown pixel), and right-hand
side minus the sum of the labels of its known neighbours; hence for any vector
x that satisfies the row, c times the value of the pixel is the sum of the
values of these c neighbours: the value is their average. -/
theorem C18_init_assembles_averaging_rows (width height n : Nat) (img : List Rat)
    (ids : List Int) (N : Numbered width height img ids n)
    (_hlab : ∀ v ∈ img, v = -1 ∨ v = 0 ∨ v = 1 / 2 ∨ v = 1) :
    ∃ coefs b, init width height img ids n = some (coefs, b) ∧
      ∀ p, Unknown width height img p →
        entry coefs (idOf width ids p) (idOf width ids p) =
          -(neighCount width height img p : Rat) ∧
        (∀ q, Unknown width height img q → q ≠ p →
          entry coefs (idOf width ids p) (idOf width ids q) =
            if q ∈ neighbours p then 1 else 0) ∧
        b.getD (idOf width ids p).toNat 0 = -knownSum width height img p ∧
        ∀ x : Int → Rat,
          rowDot coefs (idOf width ids p) x = b.getD (idOf width ids p).toNat 0 →
          (neighCount width height img p : Rat) * x (idOf width ids p) =
              ((countedNeighbours width height img p).map
                (valueAt width height img ids x)).sum ∧
            (neighCount width height img p ≠ 0 →
              x (idOf width ids p) =
                ((countedNeighbours width height img p).map
                  (valueAt width height img ids x)).sum / neighCount width height img p) := by
  obtain ⟨coefs, b, he, h⟩ := init_rows width height n img ids N
  refine ⟨coefs, b, he, fun p hp => ?_⟩
  obtain ⟨h1, h2, h3, h4⟩ := h p hp
  refine ⟨h1, h2, h3, fun x hx => ?_⟩
  rw [h4 x, h3] at hx
  have h5 : (neighCount width height img p : Rat) * x (idOf width ids p) =
      ((countedNeighbours width height img p).map (valueAt width height img ids x)).sum := by
    rw [counted_sum]
    linarith
  refine ⟨h5, fun hc => ?_⟩
  have hc2 : (neighCount width height img p : Rat) ≠ 0 := by exact_mod_cast hc
  rw [← h5]
  field_simp

theorem C18_witness :
    ∃ coefs b, init 3 1 exampleImg exampleIds 2 = some (coefs, b) ∧
      ∀ p, Unknown 3 1 exampleImg p →
        entry coefs (idOf 3 exampleIds p) (idOf 3 exampleIds p) =
          -(neighCount 3 1 exampleImg p : Rat) ∧
        (∀ q, Unknown 3 1 exampleImg q → q ≠ p →
          entry coefs (idOf 3 exampleIds p) (idOf 3 exampleIds q) =
            if q ∈ neighbours p then 1 else 0) ∧
        b.getD (idOf 3 exampleIds p).toNat 0 = -knownSum 3 1 exampleImg p ∧
        ∀ x : Int → Rat,
          rowDot coefs (idOf 3 exampleIds p) x = b.getD (idOf 3 exampleIds p).toNat 0 →
          (neighCount 3 1 exampleImg p : Rat) * x (idOf 3 exampleIds p) =
              ((countedNeighbours 3 1 exampleImg p).map
                (valueAt 3 1 exampleImg exampleIds x)).sum ∧
            (neighCount 3 1 exampleImg p ≠ 0 →
              x (idOf 3 exampleIds p) =
                ((countedNeighbours 3 1 exampleImg p).map
                  (valueAt 3 1 exampleImg exampleIds x)).sum / neighCount 3 1 exampleImg p) :=
  C18_init_assembles_averaging_rows 3 1 2 exampleImg exampleIds example_numbered
    example_labels

end Matrices


/-! ## Symmetry and sign of the matrix of `Matrices::init` -/

namespace Matrices

theorem list_sum_eq_finset {α : Type} [DecidableEq α] (l : List α) (hn : l.Nodup)
    (g : α → Rat) : (l.map g).sum = ∑ q ∈ l.toFinset, g q :=
  (List.sum_toFinset g hn).symm

theorem adjacent_symm (width height : Nat) (img : List Rat) (p q : Int × Int) :
    Adjacent width height img p q ↔ Adjacent width height img q p := by
  unfold Adjacent
  rw [mem_neighbours_symm p q]
  tauto

/-- A sum over the unknown neighbours of an unknown pixel, as a sum over the
pixels of the image. -/
theorem inner_sum (width height : Nat) (img : List Rat) (p : Int × Int)
    (hp : Unknown width height img p) (g : Int × Int → Rat) :
    ((unknownNeighbours width height img p).map g).sum =
      ∑ q ∈ (pixels width height).toFinset,
        if Adjacent width height img p q then g q else 0 := by
  have hnd : (unknownNeighbours width height img p).Nodup := by
    unfold unknownNeighbours
    exact List.Nodup.filter _ (neighbours_nodup p)
  rw [list_sum_eq_finset _ hnd, ← Finset.sum_filter]
  apply Finset.sum_congr _ (fun _ _ => rfl)
  ext q
  simp only [List.mem_toFinset, Finset.mem_filter, mem_pixels, unknownNeighbours,
    List.mem_filter, decide_eq_true_eq, Adjacent]
  constructor
  · rintro ⟨h1, h2⟩
    exact ⟨h2.1, hp, h2, h1⟩
  · rintro ⟨_, _, h2, h1⟩
    exact ⟨h1, h2⟩

/-- A function of the triplets that is additive, as a sum over the unknown
pixels. -/
theorem additive_init (width height n : Nat) (img : List Rat) (ids : List Int)
    (φ : List Triplet → Rat) (hφ : ∀ a b, φ (a ++ b) = φ a + φ b) (h0 : φ [] = 0) :
    φ ((pixels width height).foldl (afterPixel width height img ids)
        ([], List.replicate n 0)).1 =
      ∑ p ∈ (pixels width height).toFinset,
        if Unknown width height img p then φ (rowOf width height img ids p) else 0 := by
  rw [additive_foldl width height img ids φ hφ, h0, zero_add,
    list_sum_eq_finset _ (pixels_nodup width height)]
  apply Finset.sum_congr rfl
  intro p hp
  rw [List.mem_toFinset, mem_pixels] at hp
  by_cases h : label width img p = 1 / 2
  · rw [if_pos h, if_pos ⟨hp, h⟩]
  · rw [if_neg h, if_neg (fun hu => h hu.2)]

/-- Entry (i, j) of the assembled matrix: one summand for each ordered pair of
adjacent unknown pixels with the ids i and j, and the diagonal term of the
pixel with id i = j. -/
theorem entry_sum (width height n : Nat) (img : List Rat) (ids : List Int) (i j : Int) :
    entry ((pixels width height).foldl (afterPixel width height img ids)
        ([], List.replicate n 0)).1 i j =
      (∑ p ∈ (pixels width height).toFinset, ∑ q ∈ (pixels width height).toFinset,
        if Adjacent width height img p q ∧ idOf width ids p = i ∧ idOf width ids q = j
          then (1 : Rat) else 0) +
      ∑ p ∈ (pixels width height).toFinset,
        if Unknown width height img p ∧ idOf width ids p = i ∧ idOf width ids p = j
          then -(neighCount width height img p : Rat) else 0 := by
  rw [additive_init width height n img ids (fun l => entry l i j)
    (fun a b => entry_append a b i j) rfl, ← Finset.sum_add_distrib]
  apply Finset.sum_congr rfl
  intro p _
  by_cases hp : Unknown width height img p
  · rw [if_pos hp, entry_rowOf]
    by_cases hi : i = idOf width ids p
    · subst hi
      rw [if_pos rfl, inner_sum width height img p hp]
      simp only [hp, true_and, Int.cast_natCast]
      congr 1
      apply Finset.sum_congr rfl
      intro q _
      by_cases ha : Adjacent width height img p q <;> simp [ha]
    · rw [if_neg hi]
      have h1 : ¬ (idOf width ids p = i) := fun h => hi h.symm
      simp [h1]
  · rw [if_neg hp]
    have h1 : ∀ q, ¬ Adjacent width height img p q := fun q h => hp h.1
    simp [hp, h1]

/-- The assembled matrix is symmetric. -/
theorem entry_symm (width height n : Nat) (img : List Rat) (ids : List Int) (i j : Int) :
    entry ((pixels width height).foldl (afterPixel width height img ids)
        ([], List.replicate n 0)).1 i j =
      entry ((pixels width height).foldl (afterPixel width height img ids)
        ([], List.replicate n 0)).1 j i := by
  rw [entry_sum, entry_sum]
  congr 1
  · rw [Finset.sum_comm]
    apply Finset.sum_congr rfl
    intro q _
    apply Finset.sum_congr rfl
    intro p _
    have : (Adjacent width height img p q ∧ idOf width ids p = i ∧ idOf width ids q = j) ↔
        (Adjacent width height img q p ∧ idOf width ids q = j ∧ idOf width ids p = i) := by
      rw [adjacent_symm]
      tauto
    simp only [this]
  · apply Finset.sum_congr rfl
    intro p _
    have : (Unknown width height img p ∧ idOf width ids p = i ∧ idOf width ids p = j) ↔
        (Unknown width height img p ∧ idOf width ids p = j ∧ idOf width ids p = i) := by
      tauto
    simp only [this]

theorem quadForm_rowOf (width height : Nat) (img : List Rat) (ids : List Int) (p : Int × Int)
    (x : Int → Rat) :
    quadForm (rowOf width height img ids p) x =
      ((unknownNeighbours width height img p).map fun q =>
        x (idOf width ids p) * x (idOf width ids q)).sum -
      (neighCount width height img p : Rat) * (x (idOf width ids p) * x (idOf width ids p)) := by
  unfold rowOf
  rw [quadForm_append]
  unfold quadForm
  rw [List.map_map]
  simp only [List.map_cons, List.map_nil, List.sum_cons, List.sum_nil, add_zero,
    Function.comp_def, one_mul, Int.cast_neg, Int.cast_natCast]
  ring

theorem unknown_le_count (width height : Nat) (img : List Rat) (p : Int × Int) :
    (unknownNeighbours width height img p).length ≤ neighCount width height img p := by
  unfold unknownNeighbours neighCount
  have h : ∀ q, decide (Unknown width height img q) = true →
      decide (Counted width height img q) = true := by
    intro q hq
    have hu : Unknown width height img q := of_decide_eq_true hq
    apply decide_eq_true
    exact ⟨hu.1, fun h => by
      rw [hu.2] at h
      norm_num at h⟩
  exact (List.monotone_filter_right (neighbours p) h).length_le

/-- The quadratic form of the assembled matrix is never positive. -/
theorem quadForm_nonpos (width height n : Nat) (img : List Rat) (ids : List Int)
    (x : Int → Rat) :
    quadForm ((pixels width height).foldl (afterPixel width height img ids)
        ([], List.replicate n 0)).1 x ≤ 0 := by
  rw [additive_init width height n img ids (fun l => quadForm l x)
    (fun a b => quadForm_append a b x) rfl]
  set P := (pixels width height).toFinset with hP
  set y : Int × Int → Rat := fun p => x (idOf width ids p) with hy
  have hle : ∀ p ∈ P, (if Unknown width height img p then
      quadForm (rowOf width height img ids p) x else 0) ≤
      ∑ q ∈ P, if Adjacent width height img p q then y p * y q - y p * y p else 0 := by
    intro p _
    by_cases hp : Unknown width height img p
    · rw [if_pos hp, quadForm_rowOf, ← inner_sum width height img p hp]
      have h1 : ((unknownNeighbours width height img p).map fun q =>
          y p * y q - y p * y p).sum =
          ((unknownNeighbours width height img p).map fun q => y p * y q).sum -
            ((unknownNeighbours width height img p).length : Rat) * (y p * y p) := by
        induction unknownNeighbours width height img p with
        | nil => simp
        | cons a t ih =>
          simp only [List.map_cons, List.sum_cons, List.length_cons, Nat.cast_add,
            Nat.cast_one, ih]
          ring
      rw [h1]
      have h2 : ((unknownNeighbours width height img p).length : Rat) ≤
          (neighCount width height img p : Rat) := by
        exact_mod_cast unknown_le_count width height img p
      have h3 : 0 ≤ y p * y p := mul_self_nonneg _
      have h4 := mul_le_mul_of_nonneg_right h2 h3
      linarith
    · rw [if_neg hp]
      apply le_of_eq
      symm
      apply Finset.sum_eq_zero
      intro q _
      exact if_neg (fun h => hp h.1)
  refine le_trans (Finset.sum_le_sum hle) ?_
  have hswap : (∑ p ∈ P, ∑ q ∈ P,
      if Adjacent width height img p q then y p * y q - y p * y p else 0) =
      ∑ p ∈ P, ∑ q ∈ P,
        if Adjacent width height img p q then y p * y q - y q * y q else 0 := by
    rw [Finset.sum_comm]
    apply Finset.sum_congr rfl
    intro q _
    apply Finset.sum_congr rfl
    intro p _
    by_cases h : Adjacent width height img p q
    · rw [if_pos h, if_pos ((adjacent_symm width height img p q).1 h)]
      ring
    · rw [if_neg h, if_neg (fun h2 => h ((adjacent_symm width height img p q).2 h2))]
  have hsq : (∑ p ∈ P, ∑ q ∈ P,
      if Adjacent width height img p q then y p * y q - y p * y p else 0) +
      (∑ p ∈ P, ∑ q ∈ P,
        if Adjacent width height img p q then y p * y q - y q * y q else 0) ≤ 0 := by
    rw [← Finset.sum_add_distrib]
    apply Finset.sum_nonpos
    intro p _
    rw [← Finset.sum_add_distrib]
    apply Finset.sum_nonpos
    intro q _
    by_cases h : Adjacent width height img p q
    · rw [if_pos h, if_pos h]
      nlinarith [sq_nonneg (y p - y q)]
    · rw [if_neg h, if_neg h, add_zero]
  rw [← hswap] at hsq
  linarith

end Matrices


/-! ## The sign of the matrix of `Matrices::init` -/

namespace Matrices

theorem small_unknown (p : Int × Int) (h : Unknown 2 1 smallImg p) : p = (0, 0) := by
  obtain ⟨a, b⟩ := p
  obtain ⟨⟨h1, h2, h3, h4⟩, h5⟩ := h
  simp only at h1 h2 h3 h4
  have hb : b = 0 := by omega
  subst hb
  have ha : a = 0 ∨ a = 1 := by omega
  rcases ha with rfl | rfl
  · rfl
  · exfalso
    norm_num [label, at?, smallImg] at h5

theorem small_numbered : Numbered 2 1 smallImg smallIds 1 where
  imgLen := rfl
  idsLen := rfl
  range := fun p hp => by
    rw [small_unknown p hp]
    decide
  inj := fun p q hp hq _ => by
    rw [small_unknown p hp, small_unknown q hq]

theorem small_is_unknown : Unknown 2 1 smallImg (0, 0) :=
  ⟨by unfold Inside; simp, by norm_num [label, at?, smallImg]⟩

theorem small_labels : ∀ v ∈ smallImg, v = -1 ∨ v = 0 ∨ v = 1 / 2 ∨ v = 1 := by
  intro v hv
  simp only [smallImg, List.mem_cons, List.mem_singleton, List.not_mem_nil, or_false] at hv
  rcases hv with rfl | rfl <;> norm_num

theorem small_init : init 2 1 smallImg smallIds 1 = some ([⟨0, 0, -1⟩], [0]) := by
  decide!

end Matrices


/-! ## Arrays of the working area -/

theorem at?_set {α : Type} (l : List α) (i j : Int) (v : α) (hi : 0 ≤ i) (hj : 0 ≤ j) :
    at? (l.set i.toNat v) j =
      if j = i then (if i.toNat < l.length then some v else none) else at? l j := by
  unfold at?
  have h1 : ¬ j < 0 := by omega
  simp only [if_neg h1, List.getElem?_set]
  by_cases h : j = i
  · subst h
    simp
  · have : i.toNat ≠ j.toNat := by omega
    rw [if_neg this, if_neg h]

theorem at?_isSome {α : Type} (l : List α) (i : Int) (h0 : 0 ≤ i) (h1 : i.toNat < l.length) :
    ∃ v, at? l i = some v :=
  ⟨_, at?_eq l i h0 h1⟩

theorem at?_some_lt {α : Type} (l : List α) (i : Int) (v : α) (h : at? l i = some v) :
    0 ≤ i ∧ i.toNat < l.length := by
  unfold at? at h
  by_cases h0 : i < 0
  · rw [if_pos h0] at h
    cases h
  · rw [if_neg h0] at h
    exact ⟨by omega, (List.getElem?_eq_some_iff.1 h).1⟩

/-- Row-major index of the cell (a, b) of a grid with `w` columns and `h`
rows. -/
theorem cell_bounds (a b w h : Int) (ha : 0 ≤ a) (haw : a < w) (hb : 0 ≤ b) (hbh : b < h) :
    0 ≤ a + b * w ∧ a + b * w < w * h := by
  have h1 : 0 ≤ b * w := Int.mul_nonneg hb (by omega)
  have h2 : b * w ≤ (h - 1) * w := Int.mul_le_mul_of_nonneg_right (by omega) (by omega)
  have h3 : (h - 1) * w = w * h - w := by ring
  omega

theorem cell_inj (a b a' b' w : Int) (ha : 0 ≤ a) (haw : a < w) (ha' : 0 ≤ a') (haw' : a' < w)
    (h : a + b * w = a' + b' * w) : a = a' ∧ b = b' := by
  have hb : b = b' := by
    by_contra hne
    rcases lt_or_gt_of_ne hne with h1 | h1
    · have : (b + 1) * w ≤ b' * w := Int.mul_le_mul_of_nonneg_right (by omega) (by omega)
      have h3 : (b + 1) * w = b * w + w := by ring
      omega
    · have : (b' + 1) * w ≤ b * w := Int.mul_le_mul_of_nonneg_right (by omega) (by omega)
      have h3 : (b' + 1) * w = b' * w + w := by ring
      omega
  subst hb
  exact ⟨by omega, rfl⟩

namespace ColorSegments

theorem boxSize_eq (lo hi : Coords) (hx : lo.x ≤ hi.x + 1) (hy : lo.y ≤ hi.y + 1) :
    ((boxSize lo hi : Nat) : Int) = (hi.x - lo.x + 1) * (hi.y - lo.y + 1) := by
  unfold boxSize
  push_cast
  rw [Int.toNat_of_nonneg (by omega), Int.toNat_of_nonneg (by omega)]

theorem tidx_bounds (lo hi p : Coords) (hp : InBox lo hi p) :
    0 ≤ tidx lo hi p ∧ (tidx lo hi p).toNat < boxSize lo hi := by
  obtain ⟨h1, h2, h3, h4⟩ := hp
  have hb := cell_bounds (p.x - lo.x) (p.y - lo.y) (hi.x - lo.x + 1) (hi.y - lo.y + 1)
    (by omega) (by omega) (by omega) (by omega)
  have hs := boxSize_eq lo hi (by omega) (by omega)
  unfold tidx
  refine ⟨hb.1, ?_⟩
  have := Int.toNat_of_nonneg hb.1
  omega

theorem tidx_inj (lo hi p q : Coords) (hp : InBox lo hi p) (hq : InBox lo hi q)
    (h : tidx lo hi p = tidx lo hi q) : p = q := by
  obtain ⟨h1, h2, h3, h4⟩ := hp
  obtain ⟨h5, h6, h7, h8⟩ := hq
  have := cell_inj (p.x - lo.x) (p.y - lo.y) (q.x - lo.x) (q.y - lo.y) (hi.x - lo.x + 1)
    (by omega) (by omega) (by omega) (by omega) h
  obtain ⟨px, py⟩ := p
  obtain ⟨qx, qy⟩ := q
  simp only at this
  rw [Coords.mk.injEq]
  omega

theorem midx_bounds (W H : Nat) (p : Coords) (hp : InImage W H p) :
    0 ≤ midx W p ∧ (midx W p).toNat < W * H := by
  obtain ⟨h1, h2, h3, h4⟩ := hp
  have hb := cell_bounds p.x p.y W H h1 h2 h3 h4
  unfold midx
  refine ⟨hb.1, ?_⟩
  have := Int.toNat_of_nonneg hb.1
  have h9 : ((W * H : Nat) : Int) = (W : Int) * H := by push_cast; rfl
  omega

theorem midx_inj (W H : Nat) (p q : Coords) (hp : InImage W H p) (hq : InImage W H q)
    (h : midx W p = midx W q) : p = q := by
  obtain ⟨h1, h2, h3, h4⟩ := hp
  obtain ⟨h5, h6, h7, h8⟩ := hq
  have := cell_inj p.x p.y q.x q.y W h1 h2 h5 h6 h
  obtain ⟨px, py⟩ := p
  obtain ⟨qx, qy⟩ := q
  simp only at this
  rw [Coords.mk.injEq]
  exact this

theorem inBox_inImage (W H : Nat) (lo hi p : Coords) (B : Box W H lo hi) (hp : InBox lo hi p) :
    InImage W H p := by
  obtain ⟨h1, h2, h3, h4⟩ := hp
  have := B.x0
  have := B.x1
  have := B.y0
  have := B.y1
  unfold InImage
  omega

theorem tmp_read (lo hi p : Coords) (tmp : List Int) (hl : tmp.length = boxSize lo hi)
    (hp : InBox lo hi p) : at? tmp (tidx lo hi p) = some (tmpAt lo hi tmp p) := by
  have hb := tidx_bounds lo hi p hp
  obtain ⟨v, hv⟩ := at?_isSome tmp _ hb.1 (by rw [hl]; exact hb.2)
  unfold tmpAt
  rw [hv]
  rfl

theorem mask_read (W H : Nat) (p : Coords) (data : List Int) (hl : data.length = W * H)
    (hp : InImage W H p) : at? data (midx W p) = some (maskAt W data p) := by
  have hb := midx_bounds W H p hp
  obtain ⟨v, hv⟩ := at?_isSome data _ hb.1 (by rw [hl]; exact hb.2)
  unfold maskAt
  rw [hv]
  rfl

theorem tmpAt_set (lo hi p q : Coords) (tmp : List Int) (v : Int)
    (hl : tmp.length = boxSize lo hi) (hp : InBox lo hi p) (hq : InBox lo hi q) :
    tmpAt lo hi (tmp.set (tidx lo hi p).toNat v) q = if q = p then v else tmpAt lo hi tmp q := by
  have hb := tidx_bounds lo hi p hp
  have hb2 := tidx_bounds lo hi q hq
  unfold tmpAt
  rw [at?_set _ _ _ _ hb.1 hb2.1]
  by_cases h : q = p
  · subst h
    rw [if_pos rfl, if_pos rfl, if_pos (by rw [hl]; exact hb.2)]
    rfl
  · rw [if_neg h, if_neg (fun h2 => h (tidx_inj lo hi q p hq hp h2))]

theorem maskAt_set (W H : Nat) (p q : Coords) (data : List Int) (v : Int)
    (hl : data.length = W * H) (hp : InImage W H p) (hq : InImage W H q) :
    maskAt W (data.set (midx W p).toNat v) q = if q = p then v else maskAt W data q := by
  have hb := midx_bounds W H p hp
  have hb2 := midx_bounds W H q hq
  unfold maskAt
  rw [at?_set _ _ _ _ hb.1 hb2.1]
  by_cases h : q = p
  · subst h
    rw [if_pos rfl, if_pos rfl, if_pos (by rw [hl]; exact hb.2)]
    rfl
  · rw [if_neg h, if_neg (fun h2 => h (midx_inj W H q p hq hp h2))]

end ColorSegments


/-! ## The first loop of `areaTo1Scribble` -/

namespace ColorSegments

theorem mem_pushNeighbours (lo hi xy : Coords) (rest : List Coords) (q : Coords) :
    q ∈ pushNeighbours lo hi xy rest ↔
      q ∈ rest ∨ (xy.x > lo.x ∧ q = ⟨xy.x - 1, xy.y⟩) ∨ (xy.x < hi.x ∧ q = ⟨xy.x + 1, xy.y⟩) ∨
        (xy.y > lo.y ∧ q = ⟨xy.x, xy.y - 1⟩) ∨ (xy.y < hi.y ∧ q = ⟨xy.x, xy.y + 1⟩) := by
  unfold pushNeighbours
  by_cases h1 : xy.x > lo.x <;> by_cases h2 : xy.x < hi.x <;> by_cases h3 : xy.y > lo.y <;>
    by_cases h4 : xy.y < hi.y <;>
    simp only [h1, h2, h3, h4, if_true, if_false, List.mem_append, List.mem_singleton,
      true_and, false_and, or_false, false_or, or_assoc]

theorem length_pushNeighbours (lo hi xy : Coords) (rest : List Coords) :
    (pushNeighbours lo hi xy rest).length ≤ rest.length + 4 := by
  unfold pushNeighbours
  by_cases h1 : xy.x > lo.x <;> by_cases h2 : xy.x < hi.x <;> by_cases h3 : xy.y > lo.y <;>
    by_cases h4 : xy.y < hi.y <;>
    simp only [h1, h2, h3, h4, if_true, if_false, List.length_append, List.length_singleton] <;>
    omega

theorem count_set_lt (l : List Int) (i : Nat) (a b : Int) (h : l[i]? = some a) (hab : b ≠ a) :
    (l.set i b).count a + 1 = l.count a := by
  induction l generalizing i with
  | nil => cases h
  | cons x t ih =>
    cases i with
    | zero =>
      simp only [List.getElem?_cons_zero, Option.some.injEq] at h
      subst h
      rw [List.set_cons_zero, List.count_cons_self, List.count_cons_of_ne hab.symm]
    | succ i =>
      simp only [List.getElem?_cons_succ] at h
      rw [List.set_cons_succ, List.count_cons, List.count_cons, ← ih i h]
      omega

theorem at?_count (l : List Int) (i : Int) (a b : Int) (h : at? l i = some a) (hab : b ≠ a) :
    (l.set i.toNat b).count a + 1 = l.count a := by
  have h0 := (at?_some_lt l i a h).1
  unfold at? at h
  rw [if_neg (by omega)] at h
  exact count_set_lt l _ a b h hab

theorem noteScribble_tmp (minId : Nat) (s : Int) (a : Area) :
    (noteScribble minId s a).tmp = a.tmp ∧ (noteScribble minId s a).newMin = a.newMin ∧
      (noteScribble minId s a).newMax = a.newMax := by
  unfold noteScribble
  split_ifs <;> exact ⟨rfl, rfl, rfl⟩

theorem mem_shortInsert (x : Int) (l : List Int) (r : Int) :
    r ∈ shortInsert x l ↔ r = x ∨ r ∈ l := by
  induction l with
  | nil => simp [shortInsert]
  | cons y ys ih =>
    unfold shortInsert
    split_ifs with h1 h2
    · simp
    · subst h2
      simp
    · simp only [List.mem_cons, ih]
      tauto

theorem shortInsert_ne_nil (x : Int) (l : List Int) : shortInsert x l ≠ [] := by
  intro h
  have := (mem_shortInsert x l x).2 (Or.inl rfl)
  rw [h] at this
  cases this

theorem Conn.monoM {M M' : Coords → Prop} {s p : Coords} (h : ∀ q, M q → M' q)
    (c : Conn M s p) : Conn M' s p := by
  induction c with
  | base hs => exact Conn.base (h _ hs)
  | step _ hq hadj ih => exact Conn.step ih (h _ hq) hadj

theorem Conn.mem {M : Coords → Prop} {s p : Coords} (c : Conn M s p) : M p := by
  cases c with
  | base hs => exact hs
  | step _ hq _ => exact hq

end ColorSegments


/-! ## The first loop of `areaTo1Scribble`: the search -/

namespace ColorSegments

theorem noteScribble_facts (minId : Nat) (sv : Int) (a : Area) (rem0 : List Int)
    (hsv : sv ≤ 255)
    (hf : a.foundScribble = minId ∨ ((minId : Int) < a.foundScribble ∧ a.foundScribble ≤ 255))
    (hr : ∀ r ∈ a.remaining, r ∈ rem0 ∨ ((minId : Int) < r ∧ r ≤ 255))
    (hk : a.twoScribblesFound = false → a.remaining = rem0)
    (ht : a.twoScribblesFound = true → (minId : Int) < a.foundScribble) :
    ((noteScribble minId sv a).foundScribble = minId ∨
      ((minId : Int) < (noteScribble minId sv a).foundScribble ∧
        (noteScribble minId sv a).foundScribble ≤ 255)) ∧
    (∀ r ∈ (noteScribble minId sv a).remaining, r ∈ rem0 ∨ ((minId : Int) < r ∧ r ≤ 255)) ∧
    ((noteScribble minId sv a).twoScribblesFound = false →
      (noteScribble minId sv a).remaining = rem0) ∧
    ((noteScribble minId sv a).twoScribblesFound = true →
      (minId : Int) < (noteScribble minId sv a).foundScribble) := by
  unfold noteScribble
  split_ifs with h1 h2 h3
  · exact ⟨Or.inr ⟨h1, hsv⟩, hr, hk, fun _ => h1⟩
  · refine ⟨hf, ?_, ?_, ?_⟩
    · intro r hr2
      rcases (mem_shortInsert sv a.remaining r).1 hr2 with h | h
      · right
        rw [h]
        exact ⟨h1, hsv⟩
      · exact hr r h
    · intro h
      cases h
    · intro _
      rcases hf with h | h
      · exact absurd h h2
      · exact h.1
  · exact ⟨hf, hr, hk, ht⟩
  · exact ⟨hf, hr, hk, ht⟩

theorem Conn.ofEq {M : Coords → Prop} {s p : Coords} (h : p = s) (hm : M p) : Conn M s p := by
  subst h
  exact Conn.base hm

section
variable (W H : Nat) (lo hi : Coords) (B : Box W H lo hi) (scr : List Int)
  (hscr : scr.length = W * H) (hval : ∀ v ∈ scr, -1 ≤ v ∧ v ≤ 255) (minId : Nat) (s : Coords)
  (tmp0 rem0 : List Int) (hs0 : tmpAt lo hi tmp0 s = -1)
include B hscr hval hs0

/-- The first loop of `areaTo1Scribble` ends, and it keeps its invariant. -/
theorem search_spec (fuel : Nat) :
    ∀ (coords : List Coords) (a : Area), SearchInv lo hi minId s tmp0 rem0 coords a →
      coords.length + 4 * a.tmp.count (-1) ≤ fuel →
      ∃ a1, search scr W lo hi minId fuel coords a = some a1 ∧
        SearchInv lo hi minId s tmp0 rem0 [] a1 := by
  induction fuel with
  | zero =>
    intro coords a I hf
    cases coords with
    | nil => exact ⟨a, rfl, I⟩
    | cons xy rest =>
      simp only [List.length_cons] at hf
      omega
  | succ fuel ih =>
    intro coords a I hf
    cases coords with
    | nil => exact ⟨a, rfl, I⟩
    | cons xy rest =>
      have hxy := (I.queue xy (List.mem_cons_self _ _)).1
      have hread := tmp_read lo hi xy a.tmp I.len hxy
      have himg := inBox_inImage W H lo hi xy B hxy
      have hsread := mask_read W H xy scr hscr himg
      unfold search
      simp only [hread, hsread]
      by_cases hv : tmpAt lo hi a.tmp xy = -1
      · rw [if_pos hv]
        have h0xy : tmpAt lo hi tmp0 xy = -1 := by
          rcases I.mono xy hxy with h | h
          · rw [← h]
            exact hv
          · exact h.1
        have hsv : maskAt W scr xy ≤ 255 := by
          have hb := midx_bounds W H xy himg
          have := at?_some_lt scr _ _ hsread
          have hm : maskAt W scr xy ∈ scr := by
            unfold at? at hsread
            rw [if_neg (by omega)] at hsread
            exact List.mem_iff_getElem?.2 ⟨_, hsread⟩
          exact (hval _ hm).2
        set tmp1 := a.tmp.set (tidx lo hi xy).toNat (-2) with htmp1
        set a1 : Area := { a with
          tmp := tmp1
          newMin := ⟨Min.min a.newMin.x xy.x, Min.min a.newMin.y xy.y⟩
          newMax := ⟨Max.max a.newMax.x xy.x, Max.max a.newMax.y xy.y⟩ } with ha1
        have hnt := noteScribble_tmp minId (maskAt W scr xy) a1
        have hnf := noteScribble_facts minId (maskAt W scr xy) a1 rem0 hsv I.found I.rem
          I.remKeep I.twoFound
        have hat : ∀ p, InBox lo hi p →
            tmpAt lo hi tmp1 p = if p = xy then -2 else tmpAt lo hi a.tmp p :=
          fun p hp => tmpAt_set lo hi xy p a.tmp (-2) I.len hxy hp
        have hmk : ∀ p, Marked lo hi tmp0 tmp1 p ↔ Marked lo hi tmp0 a.tmp p ∨ p = xy := by
          intro p
          unfold Marked
          constructor
          · rintro ⟨h1, h2, h3⟩
            rw [hat p h1] at h3
            by_cases hp : p = xy
            · exact Or.inr hp
            · rw [if_neg hp] at h3
              exact Or.inl ⟨h1, h2, h3⟩
          · rintro (⟨h1, h2, h3⟩ | hp)
            · refine ⟨h1, h2, ?_⟩
              rw [hat p h1]
              split_ifs
              · rfl
              · exact h3
            · subst hp
              refine ⟨hxy, h0xy, ?_⟩
              rw [hat p hxy, if_pos rfl]
        have hmono : ∀ q, Marked lo hi tmp0 a.tmp q → Marked lo hi tmp0 tmp1 q :=
          fun q hq => (hmk q).2 (Or.inl hq)
        have hconnxy : Conn (Marked lo hi tmp0 tmp1) s xy := by
          rcases (I.queue xy (List.mem_cons_self _ _)).2 with h | ⟨p, hp, hadj⟩
          · exact Conn.ofEq h ((hmk xy).2 (Or.inr rfl))
          · exact Conn.step (Conn.monoM hmono (I.conn p hp)) ((hmk xy).2 (Or.inr rfl)) hadj
        have I1 : SearchInv lo hi minId s tmp0 rem0 (pushNeighbours lo hi xy rest)
            (noteScribble minId (maskAt W scr xy) a1) := by
          refine ⟨?_, ?_, ?_, ?_, ?_, ?_, ?_, hnf.1, hnf.2.1, hnf.2.2.1, hnf.2.2.2⟩
          · rw [hnt.1]
            show tmp1.length = _
            rw [htmp1, List.length_set]
            exact I.len
          · intro q hq
            rw [hnt.1]
            show InBox lo hi q ∧ (q = s ∨ ∃ p, Marked lo hi tmp0 tmp1 p ∧ Adj p q)
            obtain ⟨x1, x2, x3, x4⟩ := hxy
            rcases (mem_pushNeighbours lo hi xy rest q).1 hq with h | h | h | h | h
            · have := I.queue q (List.mem_cons_of_mem _ h)
              refine ⟨this.1, ?_⟩
              rcases this.2 with h2 | ⟨p, hp, hadj⟩
              · exact Or.inl h2
              · exact Or.inr ⟨p, hmono p hp, hadj⟩
            · obtain ⟨h1, rfl⟩ := h
              refine ⟨?_, Or.inr ⟨xy, (hmk xy).2 (Or.inr rfl), Or.inl ⟨rfl, rfl⟩⟩⟩
              unfold InBox
              simp only
              omega
            · obtain ⟨h1, rfl⟩ := h
              refine ⟨?_, Or.inr ⟨xy, (hmk xy).2 (Or.inr rfl), Or.inr (Or.inl ⟨rfl, rfl⟩)⟩⟩
              unfold InBox
              simp only
              omega
            · obtain ⟨h1, rfl⟩ := h
              refine ⟨?_, Or.inr ⟨xy, (hmk xy).2 (Or.inr rfl),
                Or.inr (Or.inr (Or.inl ⟨rfl, rfl⟩))⟩⟩
              unfold InBox
              simp only
              omega
            · obtain ⟨h1, rfl⟩ := h
              refine ⟨?_, Or.inr ⟨xy, (hmk xy).2 (Or.inr rfl),
                Or.inr (Or.inr (Or.inr ⟨rfl, rfl⟩))⟩⟩
              unfold InBox
              simp only
              omega
          · intro p hp
            rw [hnt.1]
            show tmpAt lo hi tmp1 p = _ ∨ (_ ∧ tmpAt lo hi tmp1 p = -2)
            rw [hat p hp]
            by_cases hpx : p = xy
            · rw [if_pos hpx]
              right
              rw [hpx]
              exact ⟨h0xy, rfl⟩
            · rw [if_neg hpx]
              exact I.mono p hp
          · intro p hp
            rw [hnt.1] at hp ⊢
            rcases (hmk p).1 hp with h | h
            · exact Conn.monoM hmono (I.conn p h)
            · rw [h]
              exact hconnxy
          · rw [hnt.1]
            rcases I.start with h | h
            · exact Or.inl (hmono s h)
            · rcases List.mem_cons.1 h with h2 | h2
              · exact Or.inl ((hmk s).2 (Or.inr h2))
              · exact Or.inr ((mem_pushNeighbours lo hi xy rest s).2 (Or.inl h2))
          · intro p hp
            rw [hnt.1] at hp
            rw [hnt.2.1, hnt.2.2]
            show Min.min a.newMin.x xy.x ≤ p.x ∧ p.x ≤ Max.max a.newMax.x xy.x ∧
              Min.min a.newMin.y xy.y ≤ p.y ∧ p.y ≤ Max.max a.newMax.y xy.y
            rcases (hmk p).1 hp with h | h
            · have := I.bbox p h
              omega
            · rw [h]
              omega
          · rw [hnt.2.1, hnt.2.2]
            show lo.x ≤ Min.min a.newMin.x xy.x ∧ Max.max a.newMax.x xy.x ≤ hi.x ∧
              lo.y ≤ Min.min a.newMin.y xy.y ∧ Max.max a.newMax.y xy.y ≤ hi.y
            have := I.bboxIn
            obtain ⟨x1, x2, x3, x4⟩ := hxy
            omega
        apply ih _ _ I1
        rw [hnt.1]
        show _ + 4 * tmp1.count (-1) ≤ fuel
        have hc : tmp1.count (-1) + 1 = a.tmp.count (-1) :=
          at?_count a.tmp (tidx lo hi xy) (-1) (-2) (by rw [hread, hv]) (by omega)
        have hl := length_pushNeighbours lo hi xy rest
        simp only [List.length_cons] at hf
        omega
      · rw [if_neg hv]
        apply ih rest a _ (by simp only [List.length_cons] at hf; omega)
        refine ⟨I.len, fun q hq => I.queue q (List.mem_cons_of_mem _ hq), I.mono, I.conn, ?_,
          I.bbox, I.bboxIn, I.found, I.rem, I.remKeep, I.twoFound⟩
        rcases I.start with h | h
        · exact Or.inl h
        · rcases List.mem_cons.1 h with h2 | h2
          · left
            rcases I.mono xy hxy with h3 | h3
            · rw [h2] at hs0
              rw [h3, hs0] at hv
              exact absurd rfl hv
            · rw [h2]
              exact ⟨hxy, h3.1, h3.2⟩
          · exact Or.inr h2

end

end ColorSegments


/-! ## The second loop of `areaTo1Scribble`: the fill -/

namespace ColorSegments

theorem extends_refl (d : List Int) : Extends d d :=
  ⟨rfl, fun _ _ h _ => h⟩

theorem extends_trans {d1 d2 d3 : List Int} (h1 : Extends d1 d2) (h2 : Extends d2 d3) :
    Extends d1 d3 :=
  ⟨h1.1.trans h2.1, fun i v hv hne => h2.2 i v (h1.2 i v hv hne) hne⟩

/-- Writing to a cell that holds -1 keeps every assigned value. -/
theorem extends_set (d : List Int) (j : Int) (v : Int) (h : at? d j = some (-1)) :
    Extends d (d.set j.toNat v) := by
  have h0 := (at?_some_lt d j _ h).1
  unfold at? at h
  rw [if_neg (by omega)] at h
  refine ⟨(List.length_set _ _ _).symm, fun i w hw hne => ?_⟩
  rw [List.getElem?_set]
  split_ifs with h1 h2
  · subst h1
    rw [h] at hw
    cases hw
    exact absurd rfl hne
  · subst h1
    rw [h] at hw
    cases hw
    exact absurd rfl hne
  · exact hw

section
variable (W H : Nat) (lo hi : Coords) (B : Box W H lo hi) (found : Int) (s : Coords)
  (M : Coords → Prop) (tmp1 data1 : List Int) (newMin newMax : Coords)
  (hd1 : data1.length = W * H)
  (hbox : ∀ p, M p → newMin.x ≤ p.x ∧ p.x ≤ newMax.x ∧ newMin.y ≤ p.y ∧ p.y ≤ newMax.y)
  (hboxIn : lo.x ≤ newMin.x ∧ newMax.x ≤ hi.x ∧ lo.y ≤ newMin.y ∧ newMax.y ≤ hi.y)
  (hM : ∀ p, M p → InBox lo hi p ∧ tmpAt lo hi tmp1 p = -2) (hsM : M s)
include B hd1 hbox hboxIn hM hsM

/-- The second loop of `areaTo1Scribble` ends, and it keeps its invariant. -/
theorem fill_spec (fuel : Nat) :
    ∀ (coords : List Coords) (tmp data : List Int),
      FillInv W H lo hi found s M tmp1 data1 coords tmp data →
      coords.length + 4 * tmp.count (-2) ≤ fuel →
      ∃ tmp2 data2, fill W lo hi newMin newMax found fuel coords tmp data = some (tmp2, data2) ∧
        FillInv W H lo hi found s M tmp1 data1 [] tmp2 data2 := by
  induction fuel with
  | zero =>
    intro coords tmp data I hf
    cases coords with
    | nil => exact ⟨tmp, data, rfl, I⟩
    | cons xy rest =>
      simp only [List.length_cons] at hf
      omega
  | succ fuel ih =>
    intro coords tmp data I hf
    cases coords with
    | nil => exact ⟨tmp, data, rfl, I⟩
    | cons xy rest =>
      have hxy := I.queue xy (List.mem_cons_self _ _)
      have hread := tmp_read lo hi xy tmp I.len hxy
      have himg := inBox_inImage W H lo hi xy B hxy
      have hdl : data.length = W * H := by rw [← I.ext.1]; exact hd1
      have hmread := mask_read W H xy data hdl himg
      unfold fill
      simp only [hread, hmread]
      by_cases hv : tmpAt lo hi tmp xy = -2
      · rw [if_pos hv]
        have h1xy : tmpAt lo hi tmp1 xy = -2 := by
          rcases I.tmono xy hxy with h | h
          · rw [← h]
            exact hv
          · exact h.1
        have hmxy : maskAt W data xy = -1 := I.pending xy hxy (Or.inr hv)
        set tmp2 := tmp.set (tidx lo hi xy).toNat (-3) with htmp2
        set data2 := data.set (midx W xy).toNat found with hdata2
        have hat : ∀ p, InBox lo hi p →
            tmpAt lo hi tmp2 p = if p = xy then -3 else tmpAt lo hi tmp p :=
          fun p hp => tmpAt_set lo hi xy p tmp (-3) I.len hxy hp
        have hmat : ∀ p, InImage W H p →
            maskAt W data2 p = if p = xy then found else maskAt W data p :=
          fun p hp => maskAt_set W H xy p data found hdl himg hp
        have I1 : FillInv W H lo hi found s M tmp1 data1 (pushNeighbours newMin newMax xy rest)
            tmp2 data2 := by
          refine ⟨?_, ?_, ?_, ?_, ?_, ?_, ?_, ?_, ?_⟩
          · rw [htmp2, List.length_set]
            exact I.len
          · exact extends_trans I.ext (extends_set data _ found (by rw [hmread, hmxy]))
          · intro q hq
            obtain ⟨x1, x2, x3, x4⟩ := hxy
            rcases (mem_pushNeighbours newMin newMax xy rest q).1 hq with h | h | h | h | h
            · exact I.queue q (List.mem_cons_of_mem _ h)
            all_goals
              obtain ⟨h1, rfl⟩ := h
              unfold InBox
              simp only
              omega
          · intro p hp
            rw [hat p hp]
            by_cases hpx : p = xy
            · rw [if_pos hpx, hpx]
              exact Or.inr ⟨h1xy, rfl⟩
            · rw [if_neg hpx]
              exact I.tmono p hp
          · intro p hp
            rw [hmat p hp]
            by_cases hpx : p = xy
            · rw [if_pos hpx]
              right
              rw [hpx, hat xy hxy, if_pos rfl]
              exact ⟨hxy, h1xy, rfl, rfl⟩
            · rw [if_neg hpx]
              rcases I.dmono p hp with h | ⟨h1, h2, h3, h4⟩
              · exact Or.inl h
              · right
                rw [hat p h1, if_neg hpx]
                exact ⟨h1, h2, h3, h4⟩
          · intro p hp h1 h2
            rw [hmat p (inBox_inImage W H lo hi p B hp)]
            by_cases hpx : p = xy
            · rw [if_pos hpx]
            · rw [if_neg hpx]
              rw [hat p hp, if_neg hpx] at h2
              exact I.filled p hp h1 h2
          · intro p hp h1
            rw [hat p hp] at h1
            by_cases hpx : p = xy
            · rw [if_pos hpx] at h1
              omega
            · rw [if_neg hpx] at h1
              rw [hmat p (inBox_inImage W H lo hi p B hp), if_neg hpx]
              exact I.pending p hp h1
          · intro p hp h1 q hq hadj
            have hqb := (hM q hq).1
            rw [hat q hqb]
            by_cases hqx : q = xy
            · left
              rw [if_pos hqx]
            · rw [if_neg hqx]
              by_cases hpx : p = xy
              · right
                have hb := hbox q hq
                rw [mem_pushNeighbours]
                right
                rw [hpx] at hadj
                obtain ⟨qx, qy⟩ := q
                unfold Adj at hadj
                simp only at hadj hb
                simp only [Coords.mk.injEq]
                omega
              · rw [hat p (hM p hp).1, if_neg hpx] at h1
                rcases I.closed p hp h1 q hq hadj with h | h
                · exact Or.inl h
                · rcases List.mem_cons.1 h with h2 | h2
                  · exact absurd h2 hqx
                  · exact Or.inr ((mem_pushNeighbours newMin newMax xy rest q).2 (Or.inl h2))
          · rw [hat s (hM s hsM).1]
            by_cases hsx : s = xy
            · left
              rw [if_pos hsx]
            · rw [if_neg hsx]
              rcases I.start with h | h
              · exact Or.inl h
              · rcases List.mem_cons.1 h with h2 | h2
                · exact absurd h2 hsx
                · exact Or.inr ((mem_pushNeighbours newMin newMax xy rest s).2 (Or.inl h2))
        apply ih _ _ _ I1
        have hc : tmp2.count (-2) + 1 = tmp.count (-2) :=
          at?_count tmp (tidx lo hi xy) (-2) (-3) (by rw [hread, hv]) (by omega)
        have hl := length_pushNeighbours newMin newMax xy rest
        simp only [List.length_cons] at hf
        omega
      · rw [if_neg hv]
        have hskip : ∀ q, M q → q = xy → tmpAt lo hi tmp q = -3 := by
          intro q hq hqx
          rcases I.tmono q (hM q hq).1 with h | h
          · rw [(hM q hq).2, hqx] at h
            exact absurd h hv
          · exact h.2
        apply ih rest tmp data _ (by simp only [List.length_cons] at hf; omega)
        refine ⟨I.len, I.ext, fun q hq => I.queue q (List.mem_cons_of_mem _ hq), I.tmono,
          I.dmono, I.filled, I.pending, ?_, ?_⟩
        · intro p hp h1 q hq hadj
          rcases I.closed p hp h1 q hq hadj with h | h
          · exact Or.inl h
          · rcases List.mem_cons.1 h with h2 | h2
            · exact Or.inl (hskip q hq h2)
            · exact Or.inr h2
        · rcases I.start with h | h
          · exact Or.inl h
          · rcases List.mem_cons.1 h with h2 | h2
            · exact Or.inl (hskip s hsM h2)
            · exact Or.inr h2

end

end ColorSegments


/-! ## The function `areaTo1Scribble` -/

namespace ColorSegments

theorem extends_maskAt (W H : Nat) (d1 d2 : List Int) (h : Extends d1 d2) (hl : d1.length = W * H)
    (p : Coords) (hp : InImage W H p) (hne : maskAt W d1 p ≠ -1) :
    maskAt W d2 p = maskAt W d1 p := by
  have hb := midx_bounds W H p hp
  have h1 := mask_read W H p d1 hl hp
  have h2 : d1[(midx W p).toNat]? = some (maskAt W d1 p) := by
    unfold at? at h1
    rw [if_neg (by omega)] at h1
    exact h1
  have h3 := h.2 _ _ h2 hne
  have h4 : at? d2 (midx W p) = some (maskAt W d1 p) := by
    unfold at?
    rw [if_neg (by omega)]
    exact h3
  show (at? d2 (midx W p)).getD 0 = _
  rw [h4]
  rfl

/-- The marked pixels are filled: the second loop reaches every pixel that is
joined to the start inside the marked set. -/
theorem fill_complete (W H : Nat) (lo hi : Coords) (found : Int) (s : Coords)
    (M : Coords → Prop) (tmp1 data1 tmp data : List Int)
    (I : FillInv W H lo hi found s M tmp1 data1 [] tmp data) (p : Coords) (c : Conn M s p) :
    tmpAt lo hi tmp p = -3 := by
  induction c with
  | base _ =>
    rcases I.start with h | h
    · exact h
    · cases h
  | step c hq hadj ih =>
    rcases I.closed _ c.mem ih _ hq hadj with h | h
    · exact h
    · cases h

end ColorSegments

namespace ColorSegments

/-- The function `areaTo1Scribble` returns, and establishes `AreaPost`. -/
theorem areaTo1Scribble_spec (W H : Nat) (lo hi : Coords) (B : Box W H lo hi) (scr : List Int)
    (hscr : scr.length = W * H) (hval : ∀ v ∈ scr, -1 ≤ v ∧ v ≤ 255) (minId : Nat)
    (hmin : minId ≤ 255) (c_map : ColorMap) (hw : c_map._width = W)
    (hdl : c_map._data.length = W * H) (tmp0 rem0 : List Int)
    (hl : tmp0.length = boxSize lo hi) (x y : Int) (hs : InBox lo hi ⟨x, y⟩)
    (hs0 : tmpAt lo hi tmp0 ⟨x, y⟩ = -1) (hp : Pending W lo hi tmp0 c_map._data) :
    ∃ c1 tmp1 rem1 nMin nMax,
      areaTo1Scribble x y c_map scr tmp0 rem0 lo hi minId = some (c1, tmp1, rem1, nMin, nMax) ∧
      AreaPost W H lo hi minId ⟨x, y⟩ c_map tmp0 rem0 c1 tmp1 rem1 nMin nMax := by
  have hlohi : lo.x ≤ hi.x ∧ lo.y ≤ hi.y := by
    obtain ⟨h1, h2, h3, h4⟩ := hs
    simp only at h1 h2 h3 h4
    omega
  have I0 : SearchInv lo hi minId ⟨x, y⟩ tmp0 rem0 [⟨x, y⟩]
      ⟨tmp0, rem0, minId, false, ⟨hi.x, hi.y⟩, ⟨lo.x, lo.y⟩⟩ := by
    refine ⟨hl, ?_, fun p _ => Or.inl rfl, ?_, Or.inr (List.mem_singleton.2 rfl), ?_, ?_,
      Or.inl rfl, fun r hr => Or.inl hr, fun _ => rfl, fun h => by cases h⟩
    · intro q hq
      rw [List.mem_singleton] at hq
      rw [hq]
      exact ⟨hs, Or.inl rfl⟩
    · rintro p ⟨_, h1, h2⟩
      simp only at h2
      rw [h1] at h2
      omega
    · rintro p ⟨_, h1, h2⟩
      simp only at h2
      rw [h1] at h2
      omega
    · simp only
      omega
  have hfuel : ([⟨x, y⟩] : List Coords).length + 4 * tmp0.count (-1) ≤ 4 * tmp0.length + 1 := by
    have := List.count_le_length (-1 : Int) tmp0
    simp only [List.length_singleton]
    omega
  obtain ⟨a, ha, I⟩ := search_spec W H lo hi B scr hscr hval minId ⟨x, y⟩ tmp0 rem0 hs0
    (4 * tmp0.length + 1) _ _ I0 hfuel
  have hsm : Marked lo hi tmp0 a.tmp ⟨x, y⟩ := by
    rcases I.start with h | h
    · exact h
    · cases h
  have ha2 : search scr c_map._width lo hi minId (4 * tmp0.length + 1) [⟨x, y⟩]
      ⟨tmp0, rem0, minId, false, ⟨hi.x, hi.y⟩, ⟨lo.x, lo.y⟩⟩ = some a := by
    rw [hw]
    exact ha
  unfold areaTo1Scribble
  rw [ha2]
  simp only
  by_cases htwo : a.twoScribblesFound = false
  · rw [if_pos htwo]
    have F0 : FillInv W H lo hi a.foundScribble ⟨x, y⟩ (Marked lo hi tmp0 a.tmp) a.tmp
        c_map._data [⟨x, y⟩] a.tmp c_map._data := by
      refine ⟨I.len, extends_refl _, ?_, fun p _ => Or.inl rfl, fun p _ => Or.inl rfl, ?_, ?_,
        ?_, Or.inr (List.mem_singleton.2 rfl)⟩
      · intro q hq
        rw [List.mem_singleton] at hq
        rw [hq]
        exact hs
      · intro p _ h1 h2
        rw [h1] at h2
        omega
      · intro p hpb h1
        rcases I.mono p hpb with h | h
        · rw [h] at h1
          exact hp p hpb h1
        · exact hp p hpb (Or.inl h.1)
      · intro p hpm h1
        rw [hpm.2.2] at h1
        omega
    have hfuel2 : ([⟨x, y⟩] : List Coords).length + 4 * a.tmp.count (-2) ≤
        4 * tmp0.length + 1 := by
      have := List.count_le_length (-2 : Int) a.tmp
      have := I.len
      simp only [List.length_singleton]
      omega
    obtain ⟨tmp2, data2, hf, F⟩ := fill_spec W H lo hi B a.foundScribble ⟨x, y⟩
      (Marked lo hi tmp0 a.tmp) a.tmp c_map._data a.newMin a.newMax hdl I.bbox I.bboxIn
      (fun p hpm => ⟨hpm.1, hpm.2.2⟩) hsm (4 * tmp0.length + 1) _ _ _ F0 hfuel2
    have hf2 : fill c_map._width lo hi a.newMin a.newMax a.foundScribble
        (4 * tmp0.length + 1) [⟨x, y⟩] a.tmp c_map._data = some (tmp2, data2) := by
      rw [hw]
      exact hf
    rw [hf2]
    have hcomp : ∀ p, Marked lo hi tmp0 a.tmp p → tmpAt lo hi tmp2 p = -3 :=
      fun p hpm => fill_complete W H lo hi a.foundScribble ⟨x, y⟩ _ a.tmp c_map._data tmp2
        data2 F p (I.conn p hpm)
    have hfound : 0 ≤ a.foundScribble ∧ a.foundScribble ≤ 255 := by
      rcases I.found with h | h
      · rw [h]
        omega
      · omega
    refine ⟨_, _, _, _, _, rfl, ⟨rfl, F.len, F.ext, F.pending, ?_, ?_, ?_, Or.inl ⟨rfl, I.remKeep htwo, ?_⟩⟩⟩
    · intro p hpb
      rcases F.tmono p hpb with h | h
      · rcases I.mono p hpb with h2 | h2
        · left
          rw [h, h2]
        · right
          right
          have := hcomp p ⟨hpb, h2.1, h2.2⟩
          rw [h, h2.2] at this
          omega
      · right
        right
        have hm := F.filled p hpb h.1 h.2
        refine ⟨?_, h.2, ?_⟩
        · rcases I.mono p hpb with h2 | h2
          · rw [h2] at h
            exact Or.inr h.1
          · exact Or.inl h2.1
        · show 0 ≤ maskAt W data2 p
          rw [hm]
          exact hfound.1
    · rw [hcomp _ hsm]
      omega
    · intro p hpi
      rcases F.dmono p hpi with h | h
      · exact Or.inl h
      · right
        show 0 ≤ maskAt W data2 p ∧ maskAt W data2 p ≤ 255
        rw [h.2.2.2]
        exact hfound
    · intro p hpb h0 h2
      rcases F.tmono p hpb with h | h
      · rw [h] at h2
        rcases I.mono p hpb with h3 | h3
        · rw [h3] at h2
          exact h0 h2
        · have := hcomp p ⟨hpb, h3.1, h3.2⟩
          rw [h, h2] at this
          omega
      · rw [h.2] at h2
        omega
  · rw [if_neg htwo]
    have htwo2 : a.twoScribblesFound = true := by
      cases h : a.twoScribblesFound
      · exact absurd h htwo
      · rfl
    have hb := I.bbox _ hsm
    have hbi := I.bboxIn
    simp only at hb
    refine ⟨_, _, _, _, _, rfl, ⟨rfl, I.len, extends_refl _, ?_, ?_, ?_, fun p _ => Or.inl rfl,
      Or.inr ⟨?_, shortInsert_ne_nil _ _, ?_, ?_, ?_, by omega, by omega, ?_⟩⟩⟩
    · intro p hpb h1
      rcases I.mono p hpb with h | h
      · rw [h] at h1
        exact hp p hpb h1
      · exact hp p hpb (Or.inl h.1)
    · intro p hpb
      rcases I.mono p hpb with h | h
      · exact Or.inl h
      · exact Or.inr (Or.inl h)
    · rw [hsm.2.2]
      omega
    · have := B.x0
      omega
    · intro r hr
      rcases (mem_shortInsert _ _ r).1 hr with h | h
      · right
        rw [h]
        rcases I.found with h2 | h2
        · have := I.twoFound htwo2
          omega
        · exact h2
      · exact I.rem r h
    · unfold InBox
      omega
    · unfold InBox
      omega
    · intro p hpb h0 h2
      rcases I.mono p hpb with h | h
      · rw [h] at h2
        exact absurd h2 h0
      · exact I.bbox p ⟨hpb, h.1, h.2⟩

end ColorSegments


/-! ## Loops over the working area -/

theorem foldlM_inv {σ α : Type} (f : σ → α → Option σ) (P : List α → σ → Prop) (l : List α) :
    ∀ (pre : List α) (s : σ), P pre s →
      (∀ pre x s, P pre s → x ∈ l → ∃ s1, f s x = some s1 ∧ P (pre ++ [x]) s1) →
      ∃ s1, l.foldlM f s = some s1 ∧ P (pre ++ l) s1 := by
  induction l with
  | nil =>
    intro pre s h0 _
    exact ⟨s, rfl, by rw [List.append_nil]; exact h0⟩
  | cons a t ih =>
    intro pre s h0 hstep
    obtain ⟨s1, h1, h2⟩ := hstep pre a s h0 (List.mem_cons_self _ _)
    obtain ⟨s2, h3, h4⟩ := ih (pre ++ [a]) s1 h2
      (fun pre x s hp hx => hstep pre x s hp (List.mem_cons_of_mem _ hx))
    refine ⟨s2, ?_, ?_⟩
    · rw [List.foldlM_cons, h1]
      exact h3
    · rw [List.append_assoc] at h4
      exact h4

theorem foldl_inv {σ α : Type} (f : σ → α → σ) (P : σ → Prop) (l : List α) (s : σ) (h0 : P s)
    (hstep : ∀ s x, P s → x ∈ l → P (f s x)) : P (l.foldl f s) := by
  induction l generalizing s with
  | nil => exact h0
  | cons a t ih =>
    exact ih (f s a) (hstep s a h0 (List.mem_cons_self _ _))
      (fun s x hs hx => hstep s x hs (List.mem_cons_of_mem _ hx))

namespace ColorSegments

theorem mem_fromTo (lo hi v : Int) : v ∈ fromTo lo hi ↔ lo ≤ v ∧ v ≤ hi := by
  unfold fromTo
  simp only [List.mem_map, List.mem_range]
  constructor
  · rintro ⟨i, hi2, rfl⟩
    omega
  · rintro ⟨h1, h2⟩
    exact ⟨(v - lo).toNat, by omega, by omega⟩

theorem length_fromTo (lo hi : Int) : (fromTo lo hi).length = (hi + 1 - lo).toNat := by
  unfold fromTo
  rw [List.length_map, List.length_range]

theorem getElem?_fromTo (lo hi : Int) (k : Nat) (h : k < (hi + 1 - lo).toNat) :
    (fromTo lo hi)[k]? = some (lo + k) := by
  unfold fromTo
  rw [List.getElem?_map, List.getElem?_range h]
  rfl

theorem getElem?_flatMap {α β : Type} (l : List α) (f : α → List β) (n : Nat)
    (hn : ∀ x ∈ l, (f x).length = n) (i j : Nat) (a : α) (hi : l[i]? = some a) (hj : j < n) :
    (l.flatMap f)[j + i * n]? = (f a)[j]? := by
  induction l generalizing i with
  | nil => cases hi
  | cons x t ih =>
    rw [List.flatMap_cons]
    cases i with
    | zero =>
      simp only [List.getElem?_cons_zero, Option.some.injEq] at hi
      subst hi
      rw [Nat.zero_mul, Nat.add_zero,
        List.getElem?_append_left (by rw [hn x (List.mem_cons_self _ _)]; exact hj)]
    | succ i =>
      simp only [List.getElem?_cons_succ] at hi
      have hx := hn x (List.mem_cons_self _ _)
      rw [List.getElem?_append_right (by rw [hx, Nat.succ_mul]; omega)]
      have : j + (i + 1) * n - (f x).length = j + i * n := by
        rw [hx, Nat.succ_mul]
        omega
      rw [this]
      exact ih (fun y hy => hn y (List.mem_cons_of_mem _ hy)) i hi

theorem length_flatMap_const {α β : Type} (l : List α) (f : α → List β) (n : Nat)
    (hn : ∀ x ∈ l, (f x).length = n) : (l.flatMap f).length = l.length * n := by
  induction l with
  | nil => simp
  | cons x t ih =>
    rw [List.flatMap_cons, List.length_append, hn x (List.mem_cons_self _ _),
      ih (fun y hy => hn y (List.mem_cons_of_mem _ hy)), List.length_cons, Nat.succ_mul]
    omega

/-- The copy of the mask on the working area, read at a pixel. -/
theorem window_read (lo hi p : Coords) (g : Int → Int → Int) (hp : InBox lo hi p) :
    ((fromTo lo.y hi.y).flatMap fun h => (fromTo lo.x hi.x).map fun w => g w h).length =
        boxSize lo hi ∧
      tmpAt lo hi ((fromTo lo.y hi.y).flatMap fun h => (fromTo lo.x hi.x).map fun w => g w h) p =
        g p.x p.y := by
  obtain ⟨h1, h2, h3, h4⟩ := hp
  have hn : ∀ h ∈ fromTo lo.y hi.y, ((fromTo lo.x hi.x).map fun w => g w h).length =
      (hi.x + 1 - lo.x).toNat := by
    intro h _
    rw [List.length_map, length_fromTo]
  constructor
  · rw [length_flatMap_const _ _ _ hn, length_fromTo]
    unfold boxSize
    rw [Nat.mul_comm]
    congr 2 <;> omega
  · have hrow := getElem?_fromTo lo.y hi.y (p.y - lo.y).toNat (by omega)
    have hcol := getElem?_fromTo lo.x hi.x (p.x - lo.x).toNat (by omega)
    have hget := getElem?_flatMap (fromTo lo.y hi.y)
      (fun h => (fromTo lo.x hi.x).map fun w => g w h) _ hn (p.y - lo.y).toNat
      (p.x - lo.x).toNat _ hrow (by omega)
    simp only [List.getElem?_map, hcol, Option.map_some'] at hget
    have hb := cell_bounds (p.x - lo.x) (p.y - lo.y) (hi.x - lo.x + 1) (hi.y - lo.y + 1)
      (by omega) (by omega) (by omega) (by omega)
    have hidx : (tidx lo hi p).toNat =
        (p.x - lo.x).toNat + (p.y - lo.y).toNat * (hi.x + 1 - lo.x).toNat := by
      unfold tidx
      zify
      rw [Int.toNat_of_nonneg hb.1, Int.toNat_of_nonneg (by omega),
        Int.toNat_of_nonneg (by omega), Int.toNat_of_nonneg (by omega)]
      ring
    unfold tmpAt at?
    rw [if_neg (by unfold tidx; omega), hidx, hget]
    simp only [Option.getD_some]
    congr 1 <;> omega

end ColorSegments


/-! ## The function `colorDistinctAreas` -/

namespace ColorSegments

theorem getMaskAt_eq (W H : Nat) (c : ColorMap) (hw : c._width = W) (hh : c._height = H)
    (p : Coords) (hp : InImage W H p) : c.getMaskAt p.x p.y = maskAt W c._data p := by
  obtain ⟨h1, h2, h3, h4⟩ := hp
  have hb := cell_bounds p.x p.y W H h1 h2 h3 h4
  unfold ColorMap.getMaskAt maskAt at? midx
  rw [hw, hh, if_neg (by omega), if_neg (by omega), List.getD_eq_getElem?_getD]
  congr 3
  ring

section
variable (W H : Nat) (lo hi : Coords) (B : Box W H lo hi) (scr : List Int)
  (hscr : scr.length = W * H) (hval : ∀ v ∈ scr, -1 ≤ v ∧ v ≤ 255) (minId : Nat)
  (hmin : minId ≤ 255) (c0 : ColorMap) (hw : c0._width = W) (hdl : c0._data.length = W * H)
include B hscr hval hmin hw hdl

/-- The body of the second pair of loops of `colorDistinctAreas` keeps the
invariant, and the pixel it is run for is passed. -/
theorem scanPixel_spec (D : Coords → Prop) (st : Scan) (w h : Int)
    (hp : InBox lo hi ⟨w, h⟩) (I : ScanInv W H lo hi minId c0 D st) :
    ∃ st1, scanPixel scr lo hi minId w h st = some st1 ∧
      ScanInv W H lo hi minId c0 (fun p => D p ∨ p = ⟨w, h⟩) st1 := by
  have hread := tmp_read lo hi ⟨w, h⟩ st.tmp I.len hp
  have hcw : st.c_map._width = W := by
    rw [I.same]
    exact hw
  have hcl : st.c_map._data.length = W * H := by
    rw [← I.ext.1]
    exact hdl
  unfold scanPixel
  rw [hread]
  simp only
  by_cases hv : tmpAt lo hi st.tmp ⟨w, h⟩ = -1
  · rw [if_pos hv]
    obtain ⟨c1, tmp1, rem1, nMin, nMax, he, A⟩ := areaTo1Scribble_spec W H lo hi B scr hscr hval
      minId hmin st.c_map hcw hcl st.tmp st.remaining I.len w h hp hv I.pending
    rw [he]
    simp only
    have hsame : c1 = { c0 with _data := c1._data } := by
      rw [A.same, I.same]
    have hext : Extends c0._data c1._data := extends_trans I.ext A.ext
    have hvals : Vals W H c1._data := by
      intro p hpi
      rcases A.values p hpi with h1 | h1
      · rw [h1]
        exact I.vals p hpi
      · omega
    have hassigned : ∀ p, InBox lo hi p → tmpAt lo hi tmp1 p ≠ -1 → tmpAt lo hi tmp1 p ≠ -2 →
        maskAt W c1._data p ≠ -1 := by
      intro p hpb h1 h2
      rcases A.tmono p hpb with h3 | h3 | h3
      · rw [h3] at h1 h2
        have h4 := I.assigned p hpb h1 h2
        rw [extends_maskAt W H _ _ A.ext hcl p (inBox_inImage W H lo hi p B hpb) h4]
        exact h4
      · exact absurd h3.2 h2
      · omega
    have hscanned : ∀ p, InBox lo hi p → (D p ∨ p = ⟨w, h⟩) → tmpAt lo hi tmp1 p ≠ -1 := by
      intro p hpb hd
      rcases hd with hd | hd
      · have h0 := I.scanned p hpb hd
        rcases A.tmono p hpb with h3 | h3 | h3
        · rw [h3]
          exact h0
        · omega
        · omega
      · rw [hd]
        exact A.started
    rcases A.cases with ⟨hx, hrem, hno⟩ | ⟨hx, hrem, hr, hbmin, hbmax, hxx, hyy, hin⟩
    · rw [if_neg (by rw [hx]; simp)]
      refine ⟨_, rfl, ⟨hsame, A.len, hext, hvals, A.pending, hassigned, ?_, ?_, I.ubox, ?_,
        hscanned⟩⟩
      · intro p hpb h2
        have h0 : tmpAt lo hi st.tmp p = -2 := by
          by_contra h0
          exact hno p hpb h0 h2
        have := I.marked p hpb h0
        exact ⟨this.1, by show rem1 ≠ []; rw [hrem]; exact this.2⟩
      · show ∀ r ∈ rem1, _
        rw [hrem]
        exact I.rem
      · show rem1 ≠ [] → _
        rw [hrem]
        exact I.uprop
    · rw [if_pos hx]
      have hne : lo.x ≤ hi.x ∧ lo.y ≤ hi.y := by
        obtain ⟨p1, p2, p3, p4⟩ := hp
        simp only at p1 p2 p3 p4
        omega
      have hub := I.ubox hne.1 hne.2
      obtain ⟨m1, m2, m3, m4⟩ := hbmin
      obtain ⟨n1, n2, n3, n4⟩ := hbmax
      refine ⟨_, rfl, ⟨hsame, A.len, hext, hvals, A.pending, hassigned, ?_, ?_, ?_, ?_,
        hscanned⟩⟩
      · intro p hpb h2
        refine ⟨?_, hrem⟩
        by_cases h0 : tmpAt lo hi st.tmp p = -2
        · obtain ⟨u1, u2, u3, u4⟩ := (I.marked p hpb h0).1
          unfold InBox
          simp only
          omega
        · obtain ⟨u1, u2, u3, u4⟩ := hin p hpb h0 h2
          unfold InBox
          simp only
          omega
      · intro r hr2
        rcases hr r hr2 with h1 | h1
        · exact I.rem r h1
        · exact h1
      · intro _ _
        simp only
        omega
      · intro _
        simp only
        omega
  · rw [if_neg hv]
    refine ⟨st, rfl, ⟨I.same, I.len, I.ext, I.vals, I.pending, I.assigned, I.marked, I.rem,
      I.ubox, I.uprop, ?_⟩⟩
    intro p hpb hd
    rcases hd with hd | hd
    · exact I.scanned p hpb hd
    · rw [hd]
      exact hv

end

end ColorSegments


/-! ## The function `colorDistinctAreas`: its result -/

namespace ColorSegments

theorem ScanInv.weaken {W H : Nat} {lo hi : Coords} {minId : Nat} {c0 : ColorMap}
    {D D1 : Coords → Prop} {st : Scan} (I : ScanInv W H lo hi minId c0 D st)
    (h : ∀ p, InBox lo hi p → D1 p → D p) : ScanInv W H lo hi minId c0 D1 st :=
  ⟨I.same, I.len, I.ext, I.vals, I.pending, I.assigned, I.marked, I.rem, I.ubox, I.uprop,
    fun p hp hd => I.scanned p hp (h p hp hd)⟩

/-- The function `colorDistinctAreas` returns, and establishes
`DistinctPost`. -/
theorem colorDistinctAreas_spec (W H : Nat) (lo hi : Coords) (B : Box W H lo hi)
    (scr : List Int) (hscr : scr.length = W * H) (hval : ∀ v ∈ scr, -1 ≤ v ∧ v ≤ 255)
    (minId : Nat) (hmin : minId ≤ 255) (c0 : ColorMap) (hw : c0._width = W)
    (hh : c0._height = H) (hdl : c0._data.length = W * H) (hv : Vals W H c0._data)
    (scribbles : List Int) :
    ∃ c1 nMin nMax rem1,
      colorDistinctAreas c0 scr lo hi minId scribbles = some (c1, nMin, nMax, rem1) ∧
      DistinctPost W H lo hi minId c0 c1 nMin nMax rem1 := by
  have hwin : ∀ p, InBox lo hi p →
      ((fromTo lo.y hi.y).flatMap fun h =>
        (fromTo lo.x hi.x).map fun w => c0.getMaskAt w h).length = boxSize lo hi ∧
      tmpAt lo hi ((fromTo lo.y hi.y).flatMap fun h =>
        (fromTo lo.x hi.x).map fun w => c0.getMaskAt w h) p = maskAt W c0._data p := by
    intro p hp
    have := window_read lo hi p (fun w h => c0.getMaskAt w h) hp
    refine ⟨this.1, ?_⟩
    rw [this.2]
    exact getMaskAt_eq W H c0 hw hh p (inBox_inImage W H lo hi p B hp)
  have hlen : ((fromTo lo.y hi.y).flatMap fun h =>
      (fromTo lo.x hi.x).map fun w => c0.getMaskAt w h).length = boxSize lo hi := by
    rw [length_flatMap_const _ _ (hi.x + 1 - lo.x).toNat
      (fun h _ => by rw [List.length_map, length_fromTo]), length_fromTo]
    unfold boxSize
    rw [Nat.mul_comm]
    have := B.wx
    have := B.wy
    congr 2 <;> omega
  have I0 : ScanInv W H lo hi minId c0 (fun p => p.y ∈ ([] : List Int))
      ⟨c0, (fromTo lo.y hi.y).flatMap fun h =>
        (fromTo lo.x hi.x).map fun w => c0.getMaskAt w h, [], hi, lo⟩ := by
    refine ⟨rfl, hlen, extends_refl _, hv, ?_, ?_, ?_, (fun r hr => by cases hr), ?_,
      (fun h => absurd rfl h), (fun p _ hd => by cases hd)⟩
    · intro p hp h1
      rw [(hwin p hp).2] at h1
      rcases h1 with h1 | h1
      · exact h1
      · have := (hv p (inBox_inImage W H lo hi p B hp)).1
        omega
    · intro p hp h1 _
      rw [(hwin p hp).2] at h1
      exact h1
    · intro p hp h1
      rw [(hwin p hp).2] at h1
      have := (hv p (inBox_inImage W H lo hi p B hp)).1
      omega
    · intro h1 h2
      simp only
      omega
  obtain ⟨st, hst, I⟩ := foldlM_inv
    (fun s h => (fromTo lo.x hi.x).foldlM
      (fun s w => scanPixel scr lo hi minId w h s) s)
    (fun pre st => ScanInv W H lo hi minId c0 (fun p => p.y ∈ pre) st)
    (fromTo lo.y hi.y) [] _ I0 (by
      intro pre h st Ipre hmem
      have Iin : ScanInv W H lo hi minId c0
          (fun p => p.y ∈ pre ∨ (p.y = h ∧ p.x ∈ ([] : List Int))) st :=
        Ipre.weaken (fun p _ hd => by
          rcases hd with hd | hd
          · exact hd
          · cases hd.2)
      obtain ⟨st1, hst1, I1⟩ := foldlM_inv
        (fun s w => scanPixel scr lo hi minId w h s)
        (fun pre2 st => ScanInv W H lo hi minId c0
          (fun p => p.y ∈ pre ∨ (p.y = h ∧ p.x ∈ pre2)) st)
        (fromTo lo.x hi.x) [] st Iin (by
          intro pre2 w st2 I2 hw2
          have hp : InBox lo hi ⟨w, h⟩ := by
            rw [mem_fromTo] at hmem hw2
            unfold InBox
            simp only
            omega
          obtain ⟨st3, h3, I3⟩ := scanPixel_spec W H lo hi B scr hscr hval minId hmin c0 hw
            hdl _ st2 w h hp I2
          refine ⟨st3, h3, I3.weaken ?_⟩
          intro p _ hd
          rcases hd with hd | hd
          · exact Or.inl (Or.inl hd)
          · rcases List.mem_append.1 hd.2 with h4 | h4
            · exact Or.inl (Or.inr ⟨hd.1, h4⟩)
            · right
              rw [List.mem_singleton] at h4
              obtain ⟨px, py⟩ := p
              simp only at hd h4
              rw [Coords.mk.injEq]
              exact ⟨h4, hd.1⟩)
      refine ⟨st1, hst1, I1.weaken ?_⟩
      intro p hp hd
      rcases List.mem_append.1 hd with h4 | h4
      · exact Or.inl h4
      · right
        rw [List.mem_singleton] at h4
        refine ⟨h4, ?_⟩
        rw [List.nil_append, mem_fromTo]
        exact ⟨hp.1, hp.2.1⟩)
  unfold colorDistinctAreas
  simp only [hst]
  refine ⟨_, _, _, _, rfl, ⟨I.same, I.ext, I.vals, I.rem, ?_, ?_⟩⟩
  · intro p hp hm
    have h1 : tmpAt lo hi st.tmp p ≠ -1 := by
      apply I.scanned p hp
      rw [List.nil_append, mem_fromTo]
      exact ⟨hp.2.2.1, hp.2.2.2⟩
    have h2 : tmpAt lo hi st.tmp p = -2 := by
      by_contra h2
      exact I.assigned p hp h1 h2 hm
    exact I.marked p hp h2
  · intro hne
    obtain ⟨h1, h2, h3, h4⟩ := I.uprop hne
    obtain ⟨u1, u2, u3, u4⟩ := I.ubox h1 h2
    have := B.x0
    have := B.x1
    have := B.y0
    have := B.y1
    exact ⟨by omega, by omega, by omega, by omega, by omega, by omega⟩

end ColorSegments


/-! ## The function `runMultisegVersion` -/

namespace ColorSegments

theorem segment2Data_spec (W H : Nat) (c : ColorMap) (hw : c._width = W) (hh : c._height = H)
    (hl : c._data.length = W * H) (x y : Int) (hm : c.getMaskAt x y = -1) :
    InImage W H ⟨x, y⟩ ∧ at? c._data (midx W ⟨x, y⟩) = some (-1) ∧
      c.segment2Data x y =
        { c with _data := c._data.set (midx W ⟨x, y⟩).toNat (c._active : Int) } := by
  have hin : InImage W H ⟨x, y⟩ := by
    unfold ColorMap.getMaskAt at hm
    by_cases hb : x < 0 ∨ x ≥ c._width ∨ y < 0 ∨ y ≥ c._height
    · rw [if_pos hb] at hm
      omega
    · rw [hw, hh] at hb
      unfold InImage
      simp only
      omega
  have h1 := getMaskAt_eq W H c hw hh ⟨x, y⟩ hin
  simp only at h1
  rw [hm] at h1
  have h2 := mask_read W H ⟨x, y⟩ c._data hl hin
  rw [← h1] at h2
  refine ⟨hin, h2, ?_⟩
  unfold ColorMap.segment2Data
  obtain ⟨i1, i2, i3, i4⟩ := hin
  simp only at i1 i2 i3 i4
  rw [hw, hh, if_neg (by omega)]
  unfold midx
  simp only
  have : y * (W : Int) + x = x + y * W := by ring
  rw [this]

/-- What `runMultisegVersion` does to the colour map. -/
theorem runMultisegVersion_spec (cut : Cut) (W H : Nat) (c : ColorMap) (hw : c._width = W)
    (hh : c._height = H) (hl : c._data.length = W * H) (hv : Vals W H c._data) (minId : Nat)
    (lo hi : Coords) :
    runMultisegVersion cut c minId lo hi =
        { c with _data := (runMultisegVersion cut c minId lo hi)._data,
                 _active := minId % 256 } ∧
      Extends c._data (runMultisegVersion cut c minId lo hi)._data ∧
      Vals W H (runMultisegVersion cut c minId lo hi)._data := by
  have hq : ∀ c1 : ColorMap,
      (c1 = { c with _data := c1._data, _active := minId % 256 } ∧
        Extends c._data c1._data ∧ Vals W H c1._data) →
      ∀ x y, (c1.segment2Data x y =
          { c with _data := (c1.segment2Data x y)._data, _active := minId % 256 } ∧
        Extends c._data (c1.segment2Data x y)._data ∧ Vals W H (c1.segment2Data x y)._data) ∨
        c1.getMaskAt x y ≠ -1 := by
    rintro c1 ⟨h1, h2, h3⟩ x y
    by_cases hm : c1.getMaskAt x y = -1
    · left
      have hw1 : c1._width = W := by rw [h1]; exact hw
      have hh1 : c1._height = H := by rw [h1]; exact hh
      have hl1 : c1._data.length = W * H := by rw [← h2.1]; exact hl
      have ha1 : c1._active = minId % 256 := by rw [h1]
      obtain ⟨hin, hat, he⟩ := segment2Data_spec W H c1 hw1 hh1 hl1 x y hm
      rw [he]
      refine ⟨?_, extends_trans h2 (extends_set _ _ _ hat), ?_⟩
      · simp only
        rw [h1]
      · intro p hp
        simp only
        rw [maskAt_set W H ⟨x, y⟩ p c1._data _ hl1 hin hp]
        split_ifs
        · rw [ha1]
          omega
        · exact h3 p hp
    · exact Or.inr hm
  unfold runMultisegVersion
  apply foldl_inv _ (fun c1 : ColorMap =>
    c1 = { c with _data := c1._data, _active := minId % 256 } ∧
      Extends c._data c1._data ∧ Vals W H c1._data)
  · exact ⟨rfl, extends_refl _, hv⟩
  · intro c1 y h1 _
    apply foldl_inv _ (fun c1 : ColorMap =>
      c1 = { c with _data := c1._data, _active := minId % 256 } ∧
        Extends c._data c1._data ∧ Vals W H c1._data) _ _ h1
    intro c2 x h2 _
    split_ifs with hc
    · rcases hq c2 h2 x y with h | h
      · exact h
      · exact absurd hc.2 h
    · exact h2

end ColorSegments


/-! ## The loop of `applyScribbles` -/

namespace ColorSegments

theorem extends_unassigned (W H : Nat) (d1 d2 : List Int) (h : Extends d1 d2)
    (hl : d1.length = W * H) (p : Coords) (hp : InImage W H p) (h2 : maskAt W d2 p = -1) :
    maskAt W d1 p = -1 := by
  by_contra hne
  rw [extends_maskAt W H d1 d2 h hl p hp hne] at h2
  exact hne h2

/-- The loop of `applyScribbles` ends within its fuel, keeps every assigned
pixel, and leaves no pixel of the image unassigned. -/
theorem applyLoop_spec (cut : Cut) (W H : Nat) (scr : List Int) (hscr : scr.length = W * H)
    (hval : ∀ v ∈ scr, -1 ≤ v ∧ v ≤ 255) (fuel : Nat) :
    ∀ (c : ColorMap) (lo hi : Coords) (id : Int) (scribbles : List Int),
      LoopInv W H c lo hi → 0 ≤ id → id ≤ 255 → 256 ≤ id + fuel →
      ∃ c1, applyLoop cut scr fuel c lo hi id scribbles = some c1 ∧
        c1 = { c with _data := c1._data, _active := c1._active } ∧
        Extends c._data c1._data ∧ Vals W H c1._data ∧
        ∀ p, InImage W H p → maskAt W c1._data p ≠ -1 := by
  induction fuel with
  | zero =>
    intro c lo hi id scribbles _ _ h2 h3
    omega
  | succ fuel ih =>
    intro c lo hi id scribbles L h1 h2 h3
    have hid : ((id % 256).toNat : Int) = id := by omega
    obtain ⟨c1, nMin, nMax, rem1, he, D⟩ := colorDistinctAreas_spec W H lo hi L.box scr hscr hval
      (id % 256).toNat (by omega) c L.width L.height L.len L.vals scribbles
    unfold applyLoop
    rw [he]
    simp only
    have hw1 : c1._width = W := by rw [D.same]; exact L.width
    have hh1 : c1._height = H := by rw [D.same]; exact L.height
    have hl1 : c1._data.length = W * H := by rw [← D.ext.1]; exact L.len
    cases hrem : rem1 with
    | nil =>
      simp only
      refine ⟨c1, rfl, ?_, D.ext, D.vals, ?_⟩
      · have ha : c1._active = c._active := by rw [D.same]
        rw [ha]
        exact D.same
      · intro p hp hm
        have h0 := extends_unassigned W H _ _ D.ext L.len p hp hm
        have := (D.unassigned p (L.inBox p hp h0) hm).2
        exact this hrem
    | cons id1 rest =>
      simp only
      have hmem : id1 ∈ rem1 := by rw [hrem]; exact List.mem_cons_self _ _
      have hr := D.remRange id1 hmem
      rw [hid] at hr
      have hne : rem1 ≠ [] := by rw [hrem]; exact List.cons_ne_nil _ _
      obtain ⟨r1, r2, r3⟩ := runMultisegVersion_spec cut W H c1 hw1 hh1 hl1 D.vals
        (id1 % 256).toNat nMin nMax
      have L2 : LoopInv W H (runMultisegVersion cut c1 (id1 % 256).toNat nMin nMax) nMin nMax := by
        refine ⟨?_, ?_, ?_, r3, D.newBox hne, ?_⟩
        · rw [r1]
          exact hw1
        · rw [r1]
          exact hh1
        · rw [← r2.1]
          exact hl1
        · intro p hp hm
          have h4 := extends_unassigned W H _ _ r2 hl1 p hp hm
          have h5 := extends_unassigned W H _ _ D.ext L.len p hp h4
          exact (D.unassigned p (L.inBox p hp h5) h4).1
      obtain ⟨c3, h3e, h3s, h3x, h3v, h3a⟩ := ih _ nMin nMax id1 rest L2 (by omega) hr.2
        (by omega)
      refine ⟨c3, h3e, ?_, extends_trans D.ext (extends_trans r2 h3x), h3v, h3a⟩
      have e1 : c3._width = c._width := by rw [h3s, r1, D.same]
      have e2 : c3._height = c._height := by rw [h3s, r1, D.same]
      have e3 : c3._colors = c._colors := by rw [h3s, r1, D.same]
      have e4 : c3._scribbleCount = c._scribbleCount := by rw [h3s, r1, D.same]
      rw [← e1, ← e2, ← e3, ← e4]

/-- Every cell of the mask is the cell of a pixel of the image. -/
theorem cell_pixel (W H : Nat) (data : List Int) (hl : data.length = W * H) (v : Int)
    (hv : v ∈ data) : ∃ p, InImage W H p ∧ maskAt W data p = v := by
  obtain ⟨i, hi, rfl⟩ := List.mem_iff_getElem.1 hv
  rw [hl] at hi
  have hW : 0 < W := by
    rcases Nat.eq_zero_or_pos W with h | h
    · rw [h, Nat.zero_mul] at hi
      omega
    · exact h
  have hdiv : i / W < H := by
    rw [Nat.div_lt_iff_lt_mul hW, Nat.mul_comm]
    exact hi
  have hmod : i % W < W := Nat.mod_lt i hW
  have hsum : i % W + i / W * W = i := by
    rw [Nat.mul_comm]
    exact Nat.mod_add_div i W
  refine ⟨⟨((i % W : Nat) : Int), ((i / W : Nat) : Int)⟩, ?_, ?_⟩
  · have h5 : ((i % W : Nat) : Int) < W := by exact_mod_cast hmod
    have h6 : ((i / W : Nat) : Int) < H := by exact_mod_cast hdiv
    exact ⟨Int.ofNat_nonneg _, h5, Int.ofNat_nonneg _, h6⟩
  · have hidx : midx W ⟨((i % W : Nat) : Int), ((i / W : Nat) : Int)⟩ = (i : Int) := by
      unfold midx
      simp only
      exact_mod_cast hsum
    unfold maskAt at?
    rw [hidx, if_neg (by omega), Int.toNat_ofNat, List.getElem?_eq_getElem (by rw [hl]; exact hi)]
    rfl

end ColorSegments


/-! ## The function `applyScribbles` -/

namespace ColorSegments

theorem newComputation_spec (W H : Nat) (c : ColorMap) (hw : c._width = W) (hh : c._height = H) :
    c.newComputation._data.length = W * H ∧ Vals W H c.newComputation._data ∧
      c.newComputation._width = W ∧ c.newComputation._height = H := by
  have hd : c.newComputation._data = List.replicate (W * H) (-1) := by
    show List.replicate (c._width * c._height).toNat (-1) = _
    rw [hw, hh]
    congr 1
  refine ⟨by rw [hd, List.length_replicate], ?_, hw, hh⟩
  intro p hp
  have hb := midx_bounds W H p hp
  have : maskAt W c.newComputation._data p = -1 := by
    unfold maskAt at?
    rw [hd, if_neg (by omega), List.getElem?_replicate, if_pos hb.2]
    rfl
  rw [this]
  omega

/-- The function `applyScribbles` returns; its result keeps every pixel that
the first call of `runMultisegVersion` assigns, and it leaves no pixel of the
image unassigned. -/
theorem applyScribbles_spec (cut : Cut) (W H : Nat) (c : ColorMap) (scr : List Int)
    (hw : c._width = W) (hh : c._height = H) (hscr : scr.length = W * H)
    (hval : ∀ v ∈ scr, -1 ≤ v ∧ v ≤ 255) :
    ∃ c1, applyScribbles cut W H c scr = some c1 ∧ c1._data.length = W * H ∧
      c1._width = W ∧ c1._height = H ∧
      Extends (runMultisegVersion cut c.newComputation 0 ⟨0, 0⟩ ⟨(W : Int) - 1, (H : Int) - 1⟩)._data
        c1._data ∧
      Vals W H c1._data ∧ ∀ p, InImage W H p → maskAt W c1._data p ≠ -1 := by
  obtain ⟨n1, n2, n3, n4⟩ := newComputation_spec W H c hw hh
  obtain ⟨r1, r2, r3⟩ := runMultisegVersion_spec cut W H c.newComputation n3 n4 n1 n2 0
    ⟨0, 0⟩ ⟨(W : Int) - 1, (H : Int) - 1⟩
  have L : LoopInv W H
      (runMultisegVersion cut c.newComputation 0 ⟨0, 0⟩ ⟨(W : Int) - 1, (H : Int) - 1⟩)
      ⟨0, 0⟩ ⟨(W : Int) - 1, (H : Int) - 1⟩ := by
    refine ⟨?_, ?_, ?_, r3, ⟨le_rfl, ?_, le_rfl, ?_, ?_, ?_⟩, ?_⟩
    · rw [r1]
      exact n3
    · rw [r1]
      exact n4
    · rw [← r2.1]
      exact n1
    · simp only
      omega
    · simp only
      omega
    · simp only
      omega
    · simp only
      omega
    · intro p hp _
      obtain ⟨h1, h2, h3, h4⟩ := hp
      unfold InBox
      simp only
      omega
  obtain ⟨c1, h1, h2, h3, h4, h5⟩ := applyLoop_spec cut W H scr hscr hval 256 _ _ _ 0
    (initialScribbles c.newComputation) L le_rfl (by omega) (by omega)
  refine ⟨c1, h1, ?_, ?_, ?_, h3, h4, h5⟩
  · rw [← h3.1, ← r2.1]
    exact n1
  · rw [h2, r1]
    exact n3
  · rw [h2, r1]
    exact n4

/-- C12: for every answer of the solver, every image size and every scribble
map with values in {-1} and 0..255, `applyScribbles` returns and every pixel of
the mask then holds a value of 0..255: none is left at -1. -/
theorem C12_applyScribbles_assigns_every_pixel (cut : Cut) (W H : Nat) (c_map : ColorMap)
    (scribbleData : List Int) (hw : c_map._width = W) (hh : c_map._height = H)
    (hscr : scribbleData.length = W * H)
    (hval : ∀ v ∈ scribbleData, v = -1 ∨ (0 ≤ v ∧ v ≤ 255)) :
    ∃ c1, applyScribbles cut W H c_map scribbleData = some c1 ∧ c1._data.length = W * H ∧
      ∀ v ∈ c1._data, 0 ≤ v ∧ v ≤ 255 := by
  obtain ⟨c1, h1, h2, _, _, _, h4, h5⟩ := applyScribbles_spec cut W H c_map scribbleData hw hh
    hscr (fun v hv => by rcases hval v hv with h | h <;> omega)
  refine ⟨c1, h1, h2, fun v hv => ?_⟩
  obtain ⟨p, hp, rfl⟩ := cell_pixel W H c1._data h2 v hv
  have := h4 p hp
  have := h5 p hp
  omega

theorem C12_witness :
    ∃ c1, applyScribbles (fun _ _ _ _ _ => true) (2 : Nat) (1 : Nat) (ColorMap.new 2 1) [0, 1] =
        some c1 ∧ c1._data.length = 2 * 1 ∧ ∀ v ∈ c1._data, 0 ≤ v ∧ v ≤ 255 :=
  C12_applyScribbles_assigns_every_pixel (fun _ _ _ _ _ => true) 2 1 (ColorMap.new 2 1) [0, 1]
    rfl rfl rfl (by decide)

end ColorSegments


/-! ## `applyScribbles` ignores the palette, the counts, the active index and
the former mask -/

theorem foldl_comm {σ α : Type} (f : σ → α → σ) (T : σ → σ) (h : ∀ s x, f (T s) x = T (f s x))
    (l : List α) (s : σ) : l.foldl f (T s) = T (l.foldl f s) := by
  induction l generalizing s with
  | nil => rfl
  | cons a t ih => rw [List.foldl_cons, List.foldl_cons, h, ih]

theorem foldlM_comm {σ α : Type} (f : σ → α → Option σ) (T : σ → σ)
    (h : ∀ s x, f (T s) x = (f s x).map T) (l : List α) (s : σ) :
    l.foldlM f (T s) = (l.foldlM f s).map T := by
  induction l generalizing s with
  | nil => rfl
  | cons a t ih =>
    rw [List.foldlM_cons, List.foldlM_cons, h]
    cases hf : f s a with
    | none => rfl
    | some s1 =>
      simp only [Option.map_some', Option.some_bind, Option.bind_eq_bind]
      exact ih s1

namespace ColorSegments

theorem runMultisegVersion_retag (cut : Cut) (m c : ColorMap) (minId : Nat) (lo hi : Coords) :
    runMultisegVersion cut (retag m c) minId lo hi =
      retag m (runMultisegVersion cut c minId lo hi) := by
  unfold runMultisegVersion
  have h0 : (retag m c).setActive minId = retag m (c.setActive minId) := rfl
  rw [h0]
  apply foldl_comm
  intro s y
  apply foldl_comm
  intro s x
  have h1 : (retag m s).getMaskAt x y = s.getMaskAt x y := rfl
  have h2 : (retag m s).segment2Data x y = retag m (s.segment2Data x y) := by
    unfold ColorMap.segment2Data
    show (if x < 0 ∨ x ≥ s._width ∨ y < 0 ∨ y ≥ s._height then retag m s else _) = _
    split_ifs
    · rfl
    · rfl
  rw [h1, h2]
  split_ifs
  · rfl
  · rfl

theorem areaTo1Scribble_retag (m c : ColorMap) (x y : Int) (scr tmp rem0 : List Int)
    (lo hi : Coords) (minId : Nat) :
    areaTo1Scribble x y (retag m c) scr tmp rem0 lo hi minId =
      (areaTo1Scribble x y c scr tmp rem0 lo hi minId).map
        fun r => (retag m r.1, r.2.1, r.2.2.1, r.2.2.2.1, r.2.2.2.2) := by
  unfold areaTo1Scribble
  show (match search scr c._width lo hi minId _ _ _ with
    | none => none
    | some a => _) = _
  cases search scr c._width lo hi minId (4 * tmp.length + 1) [⟨x, y⟩]
      ⟨tmp, rem0, minId, false, ⟨hi.x, hi.y⟩, ⟨lo.x, lo.y⟩⟩ with
  | none => rfl
  | some a =>
    simp only
    split_ifs
    · show (match fill c._width lo hi a.newMin a.newMax a.foundScribble _ _ a.tmp c._data with
        | none => none
        | some (tmp1, data1) => _) = _
      cases fill c._width lo hi a.newMin a.newMax a.foundScribble (4 * tmp.length + 1)
          [⟨x, y⟩] a.tmp c._data with
      | none => rfl
      | some r => rfl
    · rfl

theorem scanPixel_retag (m : ColorMap) (scr : List Int) (lo hi : Coords) (minId : Nat)
    (w h : Int) (st : Scan) :
    scanPixel scr lo hi minId w h (retagScan m st) =
      (scanPixel scr lo hi minId w h st).map (retagScan m) := by
  unfold scanPixel
  show (match at? st.tmp (tidx lo hi ⟨w, h⟩) with
    | none => none
    | some v => _) = _
  cases at? st.tmp (tidx lo hi ⟨w, h⟩) with
  | none => rfl
  | some v =>
    simp only
    split_ifs with h1
    · show (match areaTo1Scribble w h (retag m st.c_map) scr st.tmp st.remaining lo hi minId with
        | none => none
        | some (c1, tmp1, rem1, newMin, newMax) => _) = _
      rw [areaTo1Scribble_retag]
      cases areaTo1Scribble w h st.c_map scr st.tmp st.remaining lo hi minId with
      | none => rfl
      | some r =>
        obtain ⟨c1, tmp1, rem1, newMin, newMax⟩ := r
        simp only [Option.map_some']
        split_ifs
        · rfl
        · rfl
    · rfl

theorem colorDistinctAreas_retag (m c : ColorMap) (scr : List Int) (lo hi : Coords)
    (minId : Nat) (s1 s2 : List Int) :
    colorDistinctAreas (retag m c) scr lo hi minId s1 =
      (colorDistinctAreas c scr lo hi minId s2).map
        fun r => (retag m r.1, r.2.1, r.2.2.1, r.2.2.2) := by
  unfold colorDistinctAreas
  have h0 : (⟨retag m c, (fromTo lo.y hi.y).flatMap fun h =>
      (fromTo lo.x hi.x).map fun w => (retag m c).getMaskAt w h, [], hi, lo⟩ : Scan) =
      retagScan m ⟨c, (fromTo lo.y hi.y).flatMap fun h =>
        (fromTo lo.x hi.x).map fun w => c.getMaskAt w h, [], hi, lo⟩ := rfl
  simp only [h0]
  rw [foldlM_comm _ (retagScan m) (fun s h => foldlM_comm _ (retagScan m)
    (fun s w => scanPixel_retag m scr lo hi minId w h s) _ s)]
  cases (fromTo lo.y hi.y).foldlM
      (fun s h => (fromTo lo.x hi.x).foldlM (fun s w => scanPixel scr lo hi minId w h s) s)
      (⟨c, (fromTo lo.y hi.y).flatMap fun h =>
        (fromTo lo.x hi.x).map fun w => c.getMaskAt w h, [], hi, lo⟩ : Scan) with
  | none => rfl
  | some st => rfl

theorem applyLoop_retag (cut : Cut) (scr : List Int) (m : ColorMap) (fuel : Nat) :
    ∀ (c : ColorMap) (lo hi : Coords) (id : Int) (s1 s2 : List Int),
      applyLoop cut scr fuel (retag m c) lo hi id s1 =
        (applyLoop cut scr fuel c lo hi id s2).map (retag m) := by
  induction fuel with
  | zero =>
    intro c lo hi id s1 s2
    rfl
  | succ fuel ih =>
    intro c lo hi id s1 s2
    unfold applyLoop
    rw [colorDistinctAreas_retag m c scr lo hi _ s1 s2]
    cases colorDistinctAreas c scr lo hi (id % 256).toNat s2 with
    | none => rfl
    | some r =>
      obtain ⟨c1, min1, max1, rem1⟩ := r
      simp only [Option.map_some']
      cases rem1 with
      | nil => rfl
      | cons id1 rest =>
        simp only
        rw [runMultisegVersion_retag]
        exact ih _ _ _ _ _ _

/-- The result of `applyScribbles` on `c2` is its result on `c1` with the
palette and the counts of `c2`, when the two colour maps have the same size. -/
theorem applyScribbles_retag (cut : Cut) (width height : Int) (c1 c2 : ColorMap)
    (scr : List Int) (hw : c1._width = c2._width) (hh : c1._height = c2._height) :
    applyScribbles cut width height c2 scr =
      (applyScribbles cut width height c1 scr).map (retag c2) := by
  unfold applyScribbles
  simp only
  have h1 : runMultisegVersion cut c2.newComputation 0 ⟨0, 0⟩ ⟨width - 1, height - 1⟩ =
      retag c2 (runMultisegVersion cut c1.newComputation 0 ⟨0, 0⟩ ⟨width - 1, height - 1⟩) := by
    rw [← runMultisegVersion_retag]
    unfold runMultisegVersion
    have h0 : c2.newComputation.setActive 0 = (retag c2 c1.newComputation).setActive 0 := by
      unfold ColorMap.newComputation ColorMap.setActive ColorMap.clearedData retag
      simp only [hw, hh]
    rw [h0]
  rw [h1]
  exact applyLoop_retag cut scr c2 256 _ _ _ _ _ _

end ColorSegments


/-! ## Claims on `applyScribbles` -/

namespace ColorSegments

/-- C13: with the solver taken as a function of the grid it is given, the
mask that `applyScribbles` produces depends on the image size, the solver's
answers and the scribble map only: two colour maps of the image size, whatever
their masks, active indices, palettes and scribble counts, end with the same
mask, and a second call on the result gives the mask of the first call. -/
theorem C13_mask_depends_on_image_and_scribbles_only (cut : Cut) (W H : Nat)
    (scribbleData : List Int) (c_a c_b : ColorMap) (hwa : c_a._width = W)
    (hha : c_a._height = H) (hwb : c_b._width = W) (hhb : c_b._height = H)
    (hscr : scribbleData.length = W * H)
    (hval : ∀ v ∈ scribbleData, v = -1 ∨ (0 ≤ v ∧ v ≤ 255)) :
    ∃ r_a r_b r_2, applyScribbles cut W H c_a scribbleData = some r_a ∧
      applyScribbles cut W H c_b scribbleData = some r_b ∧
      applyScribbles cut W H r_a scribbleData = some r_2 ∧
      r_a._data = r_b._data ∧ r_2._data = r_a._data := by
  obtain ⟨r, h1, _, h3, h4, _⟩ := applyScribbles_spec cut W H c_a scribbleData hwa hha hscr
    (fun v hv => by rcases hval v hv with h | h <;> omega)
  have hb := applyScribbles_retag cut W H c_a c_b scribbleData (by rw [hwa, hwb])
    (by rw [hha, hhb])
  have h2 := applyScribbles_retag cut W H c_a r scribbleData (by rw [hwa, h3]) (by rw [hha, h4])
  rw [h1] at hb h2
  exact ⟨r, retag c_b r, retag r r, h1, hb, h2, rfl, rfl⟩

theorem C13_witness :
    ∃ r_a r_b r_2,
      applyScribbles (fun _ _ _ _ _ => true) (2 : Nat) (1 : Nat) (ColorMap.new 2 1) [0, 1] =
        some r_a ∧
      applyScribbles (fun _ _ _ _ _ => true) (2 : Nat) (1 : Nat)
        { _width := 2, _height := 1, _data := [5, 7], _active := 3 } [0, 1] = some r_b ∧
      applyScribbles (fun _ _ _ _ _ => true) (2 : Nat) (1 : Nat) r_a [0, 1] = some r_2 ∧
      r_a._data = r_b._data ∧ r_2._data = r_a._data :=
  C13_mask_depends_on_image_and_scribbles_only (fun _ _ _ _ _ => true) 2 1 [0, 1]
    (ColorMap.new 2 1) { _width := 2, _height := 1, _data := [5, 7], _active := 3 }
    rfl rfl rfl rfl rfl (by decide)

/-- C14: in a run of `applyScribbles` a pixel whose mask value is not -1 keeps
its value: each call of `runMultisegVersion`, each call of `areaTo1Scribble`
(entered, as in `colorDistinctAreas`, with a window whose cells at -1 or -2 are
unassigned pixels) and each call of `colorDistinctAreas` returns a mask that
agrees with the mask it was given on every assigned pixel, and so does the whole
loop after the first call of `runMultisegVersion`. -/
theorem C14_assigned_pixels_are_never_changed (cut : Cut) (W H : Nat) (scribbleData : List Int)
    (hscr : scribbleData.length = W * H)
    (hval : ∀ v ∈ scribbleData, v = -1 ∨ (0 ≤ v ∧ v ≤ 255)) :
    (∀ c lo hi minId, LoopInv W H c lo hi →
      Extends c._data (runMultisegVersion cut c minId lo hi)._data) ∧
    (∀ c lo hi minId tmp rem0 x y c1 tmp1 rem1 nMin nMax, LoopInv W H c lo hi → minId ≤ 255 →
      tmp.length = boxSize lo hi → InBox lo hi ⟨x, y⟩ → tmpAt lo hi tmp ⟨x, y⟩ = -1 →
      Pending W lo hi tmp c._data →
      areaTo1Scribble x y c scribbleData tmp rem0 lo hi minId =
        some (c1, tmp1, rem1, nMin, nMax) →
      Extends c._data c1._data) ∧
    (∀ c lo hi minId scribbles c1 nMin nMax rem1, LoopInv W H c lo hi → minId ≤ 255 →
      colorDistinctAreas c scribbleData lo hi minId scribbles = some (c1, nMin, nMax, rem1) →
      Extends c._data c1._data) ∧
    (∀ c c1 : ColorMap, c._width = (W : Int) → c._height = (H : Int) →
      applyScribbles cut W H c scribbleData = some c1 →
      Extends
        (runMultisegVersion cut c.newComputation 0 ⟨0, 0⟩ ⟨(W : Int) - 1, (H : Int) - 1⟩)._data
        c1._data) := by
  have hval2 : ∀ v ∈ scribbleData, -1 ≤ v ∧ v ≤ 255 :=
    fun v hv => by rcases hval v hv with h | h <;> omega
  refine ⟨?_, ?_, ?_, ?_⟩
  · intro c lo hi minId L
    exact (runMultisegVersion_spec cut W H c L.width L.height L.len L.vals minId lo hi).2.1
  · intro c lo hi minId tmp rem0 x y c1 tmp1 rem1 nMin nMax L hmin hl hs hs0 hp he
    obtain ⟨c2, tmp2, rem2, nMin2, nMax2, he2, A⟩ := areaTo1Scribble_spec W H lo hi L.box
      scribbleData hscr hval2 minId hmin c L.width L.len tmp rem0 hl x y hs hs0 hp
    rw [he] at he2
    cases he2
    exact A.ext
  · intro c lo hi minId scribbles c1 nMin nMax rem1 L hmin he
    obtain ⟨c2, nMin2, nMax2, rem2, he2, D⟩ := colorDistinctAreas_spec W H lo hi L.box
      scribbleData hscr hval2 minId hmin c L.width L.height L.len L.vals scribbles
    rw [he] at he2
    cases he2
    exact D.ext
  · intro c c1 hw hh he
    obtain ⟨c2, he2, _, _, _, hx, _⟩ := applyScribbles_spec cut W H c scribbleData hw hh hscr
      hval2
    rw [he] at he2
    cases he2
    exact hx

theorem C14_witness :
    (∀ c lo hi minId, LoopInv 2 1 c lo hi →
      Extends c._data (runMultisegVersion (fun _ _ _ _ _ => true) c minId lo hi)._data) ∧
    (∀ c lo hi minId tmp rem0 x y c1 tmp1 rem1 nMin nMax, LoopInv 2 1 c lo hi → minId ≤ 255 →
      tmp.length = boxSize lo hi → InBox lo hi ⟨x, y⟩ → tmpAt lo hi tmp ⟨x, y⟩ = -1 →
      Pending 2 lo hi tmp c._data →
      areaTo1Scribble x y c [0, 1] tmp rem0 lo hi minId = some (c1, tmp1, rem1, nMin, nMax) →
      Extends c._data c1._data) ∧
    (∀ c lo hi minId scribbles c1 nMin nMax rem1, LoopInv 2 1 c lo hi → minId ≤ 255 →
      colorDistinctAreas c [0, 1] lo hi minId scribbles = some (c1, nMin, nMax, rem1) →
      Extends c._data c1._data) ∧
    (∀ c c1 : ColorMap, c._width = ((2 : Nat) : Int) → c._height = ((1 : Nat) : Int) →
      applyScribbles (fun _ _ _ _ _ => true) (2 : Nat) (1 : Nat) c [0, 1] = some c1 →
      Extends
        (runMultisegVersion (fun _ _ _ _ _ => true) c.newComputation 0 ⟨0, 0⟩
          ⟨((2 : Nat) : Int) - 1, ((1 : Nat) : Int) - 1⟩)._data
        c1._data) :=
  C14_assigned_pixels_are_never_changed (fun _ _ _ _ _ => true) 2 1 [0, 1] rfl (by decide)

end ColorSegments


/-! ## Minimum cuts: the exhaustive solver -/

namespace ColorSegments

theorem bestOf_le {α : Type} (f : α → Int) (a : α) (l : List α) :
    ∀ x ∈ l, f (bestOf f a l) ≤ f x := by
  induction l with
  | nil =>
    intro x hx
    cases hx
  | cons b t ih =>
    intro x hx
    unfold bestOf
    rcases List.mem_cons.1 hx with h | h
    · subst h
      split_ifs with h1
      · exact le_rfl
      · omega
    · have := ih x h
      split_ifs with h1
      · omega
      · exact this

theorem mem_allLabelings (l : List Bool) : l ∈ allLabelings l.length := by
  induction l with
  | nil => simp [allLabelings]
  | cons b t ih =>
    simp only [List.length_cons, allLabelings, List.mem_flatMap]
    refine ⟨t, ih, ?_⟩
    cases b <;> simp

theorem lookup_zip_map {α β : Type} [BEq α] [LawfulBEq α] (l : List α) (f : α → β) (a : α)
    (h : a ∈ l) : (l.zip (l.map f)).lookup a = some (f a) := by
  induction l with
  | nil => cases h
  | cons b t ih =>
    rw [List.map_cons, List.zip_cons_cons, List.lookup_cons]
    by_cases hab : a = b
    · subst hab
      simp
    · have : (a == b) = false := by simpa using hab
      rw [this]
      rcases List.mem_cons.1 h with h1 | h1
      · exact absurd h1 hab
      · exact ih h1

theorem mem_boxPixels (lo hi : Coords) (x y : Int) :
    (x, y) ∈ boxPixels lo hi ↔ InBox lo hi ⟨x, y⟩ := by
  unfold boxPixels InBox
  simp only [List.mem_flatMap, List.mem_map, mem_fromTo, Prod.mk.injEq]
  constructor
  · rintro ⟨b, hb, a, ha, rfl, rfl⟩
    exact ⟨ha.1, ha.2, hb.1, hb.2⟩
  · rintro ⟨h1, h2, h3, h4⟩
    exact ⟨y, ⟨h3, h4⟩, x, ⟨h1, h2⟩, rfl, rfl⟩

/-- The capacity of a cut depends on the segments of the pixels of the working
area only. -/
theorem cutCost_congr (scr : List Int) (cw : Int) (wx wy : Int → Int → Int) (minId : Nat)
    (lo hi : Coords) (seg seg1 : Int → Int → Bool)
    (h : ∀ x y, InBox lo hi ⟨x, y⟩ → seg x y = seg1 x y) :
    cutCost scr cw wx wy minId lo hi seg = cutCost scr cw wx wy minId lo hi seg1 := by
  unfold cutCost
  congr 1
  apply List.map_congr_left
  intro y hy
  congr 1
  apply List.map_congr_left
  intro x hx
  rw [mem_fromTo] at hx hy
  have h0 := h x y ⟨hx.1, hx.2, hy.1, hy.2⟩
  have h1 : x < hi.x → seg (x + 1) y = seg1 (x + 1) y := fun hlt =>
    h (x + 1) y ⟨by simp only; omega, by simp only; omega, hy.1, hy.2⟩
  have h2 : y < hi.y → seg x (y + 1) = seg1 x (y + 1) := fun hlt =>
    h x (y + 1) ⟨hx.1, hx.2, by simp only; omega, by simp only; omega⟩
  rw [h0]
  congr 1
  · congr 1
    by_cases hlt : x < hi.x
    · rw [h1 hlt]
    · simp [hlt]
  · by_cases hlt : y < hi.y
    · rw [h2 hlt]
    · simp [hlt]

/-- The exhaustive solver returns a minimum cut of every grid. -/
theorem bruteForce_minCut (scr : List Int) (cw : Int) (wx wy : Int → Int → Int) :
    MinCutSolver scr cw wx wy (bruteForce scr cw wx wy) := by
  intro minId lo hi seg
  have hlab := mem_allLabelings ((boxPixels lo hi).map fun p => seg p.1 p.2)
  rw [List.length_map] at hlab
  have hbest := bestOf_le
    (fun l => cutCost scr cw wx wy minId lo hi (segOf (boxPixels lo hi) l))
    ((boxPixels lo hi).map fun _ => false) _ _ hlab
  have hc := cutCost_congr scr cw wx wy minId lo hi
    (segOf (boxPixels lo hi) ((boxPixels lo hi).map fun p => seg p.1 p.2)) seg (by
      intro x y hxy
      unfold segOf
      rw [lookup_zip_map _ _ _ ((mem_boxPixels lo hi x y).2 hxy)]
      rfl)
  simp only at hbest
  rw [hc] at hbest
  exact hbest

end ColorSegments


/-! ## The working area against full-image cuts -/

namespace ColorSegments

set_option maxRecDepth 1000000 in
theorem row_applyScribbles :
    (applyScribbles (bruteForce rowScribbles 4 rowWx rowWy) 4 1 (ColorMap.new 4 1)
      rowScribbles).map (fun c => c._data) = some [0, 0, 1, 1] := by
  decide!

set_option maxRecDepth 1000000 in
theorem row_fullImageCuts :
    (fullImageCuts (bruteForce rowScribbles 4 rowWx rowWy) 4 1 (ColorMap.new 4 1)
      rowScribbles)._data = [0, 0, 129, 1] := by
  decide!

set_option maxRecDepth 1000000 in
theorem row_unique_cuts :
    (∀ l ∈ allLabelings 4,
      cutCost rowScribbles 4 rowWx rowWy 0 ⟨0, 0⟩ ⟨3, 0⟩ (segOf (boxPixels ⟨0, 0⟩ ⟨3, 0⟩) l) ≤ 641 →
      l = [false, false, true, true]) ∧
    (∀ l ∈ allLabelings 2,
      cutCost rowScribbles 4 rowWx rowWy 1 ⟨2, 0⟩ ⟨3, 0⟩ (segOf (boxPixels ⟨2, 0⟩ ⟨3, 0⟩) l) ≤ 250 →
      l = [false, false]) ∧
    (∀ l ∈ allLabelings 4,
      cutCost rowScribbles 4 rowWx rowWy 1 ⟨0, 0⟩ ⟨3, 0⟩ (segOf (boxPixels ⟨0, 0⟩ ⟨3, 0⟩) l) ≤ 391 →
      l = [true, true, true, false]) ∧
    (∀ l ∈ allLabelings 4,
      cutCost rowScribbles 4 rowWx rowWy 129 ⟨0, 0⟩ ⟨3, 0⟩ (segOf (boxPixels ⟨0, 0⟩ ⟨3, 0⟩) l) ≤ 0 →
      l = [false, false, false, false]) := by
  decide!

end ColorSegments

namespace ColorSegments

theorem scribbleIds_head (scr : List Int) : ∃ t, scribbleIds scr = 0 :: t := by
  unfold scribbleIds
  apply foldl_inv _ (fun s : List Nat => ∃ t, s = 0 :: t)
  · exact ⟨[], rfl⟩
  · rintro s v ⟨t, rfl⟩ _
    by_cases hv : 0 ≤ v
    · rw [if_pos hv]
      unfold TopologicalSorting.setInsert
      by_cases h0 : v.toNat = 0
      · rw [if_neg (by omega), if_pos h0]
        exact ⟨t, rfl⟩
      · rw [if_neg (by omega), if_neg h0]
        exact ⟨_, rfl⟩
    · rw [if_neg hv]
      exact ⟨t, rfl⟩

/-- The reference procedure keeps every pixel that its first cut assigns. -/
theorem fullImageCuts_extends (cut : Cut) (W H : Nat) (c : ColorMap) (scr : List Int)
    (hw : c._width = W) (hh : c._height = H) :
    Extends
      (runMultisegVersion cut c.newComputation 0 ⟨0, 0⟩ ⟨(W : Int) - 1, (H : Int) - 1⟩)._data
      (fullImageCuts cut W H c scr)._data := by
  obtain ⟨n1, n2, n3, n4⟩ := newComputation_spec W H c hw hh
  obtain ⟨r1, r2, r3⟩ := runMultisegVersion_spec cut W H c.newComputation n3 n4 n1 n2 0
    ⟨0, 0⟩ ⟨(W : Int) - 1, (H : Int) - 1⟩
  obtain ⟨t, ht⟩ := scribbleIds_head scr
  unfold fullImageCuts
  rw [ht, List.foldl_cons]
  have := foldl_inv
    (fun c id => runMultisegVersion cut c id ⟨0, 0⟩ ⟨(W : Int) - 1, (H : Int) - 1⟩)
    (fun c2 : ColorMap => c2._width = W ∧ c2._height = H ∧ c2._data.length = W * H ∧
      Vals W H c2._data ∧
      Extends
        (runMultisegVersion cut c.newComputation 0 ⟨0, 0⟩ ⟨(W : Int) - 1, (H : Int) - 1⟩)._data
        c2._data) t
    (runMultisegVersion cut c.newComputation 0 ⟨0, 0⟩ ⟨(W : Int) - 1, (H : Int) - 1⟩)
    ⟨by rw [r1]; exact n3, by rw [r1]; exact n4, by rw [← r2.1]; exact n1, r3, extends_refl _⟩
    (by
      rintro c2 id ⟨h1, h2, h3, h4, h5⟩ _
      obtain ⟨s1, s2, s3⟩ := runMultisegVersion_spec cut W H c2 h1 h2 h3 h4 id
        ⟨0, 0⟩ ⟨(W : Int) - 1, (H : Int) - 1⟩
      have e1 : (runMultisegVersion cut c2 id ⟨0, 0⟩ ⟨(W : Int) - 1, (H : Int) - 1⟩)._width = W := by
        rw [s1]
        exact h1
      have e2 : (runMultisegVersion cut c2 id ⟨0, 0⟩ ⟨(W : Int) - 1, (H : Int) - 1⟩)._height = H := by
        rw [s1]
        exact h2
      exact ⟨e1, e2, by rw [← s2.1]; exact h3, s3, extends_trans h5 s2⟩)
  exact this.2.2.2.2

/-- C15 as stated fails. For the row of four pixels with the scribbles 0,
129, 129, 1 and the neighbour capacities 4001, 391, 391, with a solver that
returns minimum cuts, `applyScribbles` ends with the mask 0, 0, 1, 1 while a
full-image cut for each of the ids 0, 1, 129 in ascending order ends with the
mask 0, 0, 129, 1. The minimum cut is unique in each cut that decides the two
masks (id 0 and id 1 on the whole row, id 1 on the working area, id 129 on the
whole row). -/
theorem C15_counterexample :
    MinCutSolver rowScribbles 4 rowWx rowWy (bruteForce rowScribbles 4 rowWx rowWy) ∧
    (applyScribbles (bruteForce rowScribbles 4 rowWx rowWy) 4 1 (ColorMap.new 4 1)
      rowScribbles).map (fun c => c._data) = some [0, 0, 1, 1] ∧
    (fullImageCuts (bruteForce rowScribbles 4 rowWx rowWy) 4 1 (ColorMap.new 4 1)
      rowScribbles)._data = [0, 0, 129, 1] ∧
    (∀ l ∈ allLabelings 4,
      cutCost rowScribbles 4 rowWx rowWy 0 ⟨0, 0⟩ ⟨3, 0⟩ (segOf (boxPixels ⟨0, 0⟩ ⟨3, 0⟩) l) ≤ 641 →
      l = [false, false, true, true]) ∧
    (∀ l ∈ allLabelings 2,
      cutCost rowScribbles 4 rowWx rowWy 1 ⟨2, 0⟩ ⟨3, 0⟩ (segOf (boxPixels ⟨2, 0⟩ ⟨3, 0⟩) l) ≤ 250 →
      l = [false, false]) ∧
    (∀ l ∈ allLabelings 4,
      cutCost rowScribbles 4 rowWx rowWy 1 ⟨0, 0⟩ ⟨3, 0⟩ (segOf (boxPixels ⟨0, 0⟩ ⟨3, 0⟩) l) ≤ 391 →
      l = [true, true, true, false]) ∧
    (∀ l ∈ allLabelings 4,
      cutCost rowScribbles 4 rowWx rowWy 129 ⟨0, 0⟩ ⟨3, 0⟩ (segOf (boxPixels ⟨0, 0⟩ ⟨3, 0⟩) l) ≤ 0 →
      l = [false, false, false, false]) :=
  ⟨bruteForce_minCut rowScribbles 4 rowWx rowWy, row_applyScribbles, row_fullImageCuts,
    row_unique_cuts⟩

/-- C15 (amended): the mask of `applyScribbles` and the mask of a full-image
cut for every scribble id in ascending order agree on every pixel that the
first cut (id 0 on the whole image) assigns: both keep the value that this cut
gives to the pixel. Pixels assigned later can differ. -/
theorem C15_masks_agree_on_the_first_cut (cut : Cut) (W H : Nat) (c_map : ColorMap)
    (scribbleData : List Int) (hw : c_map._width = W) (hh : c_map._height = H)
    (hscr : scribbleData.length = W * H)
    (hval : ∀ v ∈ scribbleData, v = -1 ∨ (0 ≤ v ∧ v ≤ 255)) :
    ∃ c1, applyScribbles cut W H c_map scribbleData = some c1 ∧
      ∀ (i : Nat) (v : Int),
        (runMultisegVersion cut c_map.newComputation 0 ⟨0, 0⟩
          ⟨(W : Int) - 1, (H : Int) - 1⟩)._data[i]? = some v → v ≠ -1 →
        c1._data[i]? = some v ∧ (fullImageCuts cut W H c_map scribbleData)._data[i]? = some v := by
  obtain ⟨c1, h1, _, _, _, hx, _⟩ := applyScribbles_spec cut W H c_map scribbleData hw hh hscr
    (fun v hv => by rcases hval v hv with h | h <;> omega)
  have hf := fullImageCuts_extends cut W H c_map scribbleData hw hh
  exact ⟨c1, h1, fun i v hv hne => ⟨hx.2 i v hv hne, hf.2 i v hv hne⟩⟩

theorem C15_witness :
    ∃ c1, applyScribbles (bruteForce rowScribbles 4 rowWx rowWy) (4 : Nat) (1 : Nat)
        (ColorMap.new 4 1) rowScribbles = some c1 ∧
      ∀ (i : Nat) (v : Int),
        (runMultisegVersion (bruteForce rowScribbles 4 rowWx rowWy) (ColorMap.new 4 1).newComputation
          0 ⟨0, 0⟩ ⟨((4 : Nat) : Int) - 1, ((1 : Nat) : Int) - 1⟩)._data[i]? = some v → v ≠ -1 →
        c1._data[i]? = some v ∧
          (fullImageCuts (bruteForce rowScribbles 4 rowWx rowWy) (4 : Nat) (1 : Nat)
            (ColorMap.new 4 1) rowScribbles)._data[i]? = some v :=
  C15_masks_agree_on_the_first_cut (bruteForce rowScribbles 4 rowWx rowWy) 4 1 (ColorMap.new 4 1)
    rowScribbles rfl rfl rfl (by decide)

end ColorSegments


/-! ## Raster loops -/

namespace ShapeFill

theorem range_foldlM_some {σ : Type} (f : σ → Nat → Option σ) (P : Nat → σ → Prop) (n : Nat)
    (s0 : σ) (h0 : P 0 s0)
    (hstep : ∀ k s, k < n → P k s → ∃ s1, f s k = some s1 ∧ P (k + 1) s1) :
    ∃ s1, (List.range n).foldlM f s0 = some s1 ∧ P n s1 := by
  induction n with
  | zero => exact ⟨s0, rfl, h0⟩
  | succ n ih =>
    obtain ⟨s1, h1, h2⟩ := ih (fun k s hk hp => hstep k s (by omega) hp)
    obtain ⟨s2, h3, h4⟩ := hstep n s1 (by omega) h2
    refine ⟨s2, ?_, h4⟩
    rw [List.range_succ, List.foldlM_append, h1]
    simp [h3]

theorem range_foldlM_post {σ : Type} (f : σ → Nat → Option σ) (P : Nat → σ → Prop) (n : Nat)
    (s0 : σ) (h0 : P 0 s0)
    (hstep : ∀ k s s1, k < n → P k s → f s k = some s1 → P (k + 1) s1) :
    ∀ s1, (List.range n).foldlM f s0 = some s1 → P n s1 := by
  induction n with
  | zero =>
    intro s1 h
    simp at h
    subst h
    exact h0
  | succ n ih =>
    intro s2 h
    rw [List.range_succ, List.foldlM_append] at h
    cases h1 : (List.range n).foldlM f s0 with
    | none => simp [h1] at h
    | some s1 =>
      simp [h1] at h
      exact hstep n s1 s2 (by omega)
        (ih (fun k s s1 hk hp => hstep k s s1 (by omega) hp) s1 h1) h

theorem raster_some {σ : Type} (W H : Nat) (body : Int → Int → σ → Option σ)
    (P : Nat → σ → Prop) (s0 : σ) (h0 : P 0 s0)
    (hstep : ∀ (w h : Nat) s, w < W → h < H → P (w + h * W) s →
      ∃ s1, body w h s = some s1 ∧ P (w + h * W + 1) s1) :
    ∃ s1, raster W H body s0 = some s1 ∧ P (W * H) s1 := by
  unfold raster
  simp only [Int.toNat_ofNat]
  have hrow : ∀ h s, h < H → P (h * W) s →
      ∃ s1, (List.range W).foldlM (fun s (w : Nat) => body w h s) s = some s1 ∧
        P ((h + 1) * W) s1 := by
    intro h s hh hp
    obtain ⟨s1, h1, h2⟩ := range_foldlM_some (fun s (w : Nat) => body w h s)
      (fun w s => P (w + h * W) s) W s (by simpa using hp)
      (fun w s hw hq => by
        obtain ⟨s1, h1, h2⟩ := hstep w h s hw hh hq
        refine ⟨s1, h1, ?_⟩
        show P (w + 1 + h * W) s1
        rwa [show w + 1 + h * W = w + h * W + 1 by omega])
    refine ⟨s1, h1, ?_⟩
    have h3 : P (W + h * W) s1 := h2
    rwa [show W + h * W = (h + 1) * W by rw [Nat.succ_mul]; omega] at h3
  obtain ⟨s1, h1, h2⟩ := range_foldlM_some
    (fun s (h : Nat) => (List.range W).foldlM (fun s (w : Nat) => body w h s) s)
    (fun j s => P (j * W) s) H s0 (by simpa using h0) hrow
  refine ⟨s1, h1, ?_⟩
  have h3 : P (H * W) s1 := h2
  rwa [Nat.mul_comm H W] at h3

theorem raster_post {σ : Type} (W H : Nat) (body : Int → Int → σ → Option σ)
    (P : Nat → σ → Prop) (s0 : σ) (h0 : P 0 s0)
    (hstep : ∀ (w h : Nat) s s1, w < W → h < H → P (w + h * W) s → body w h s = some s1 →
      P (w + h * W + 1) s1)
    (s1 : σ) (hrun : raster W H body s0 = some s1) : P (W * H) s1 := by
  unfold raster at hrun
  simp only [Int.toNat_ofNat] at hrun
  have hrow : ∀ h s s1, h < H → P (h * W) s →
      (List.range W).foldlM (fun s (w : Nat) => body w h s) s = some s1 →
        P ((h + 1) * W) s1 := by
    intro h s s1 hh hp hr
    have h3 : P (W + h * W) s1 := range_foldlM_post (fun s (w : Nat) => body w h s)
      (fun w s => P (w + h * W) s) W s (by simpa using hp)
      (fun w s s1 hw hq hb => by
        show P (w + 1 + h * W) s1
        rw [show w + 1 + h * W = w + h * W + 1 by omega]
        exact hstep w h s s1 hw hh hq hb) s1 hr
    rwa [show W + h * W = (h + 1) * W by rw [Nat.succ_mul]; omega] at h3
  have h3 : P (H * W) s1 := range_foldlM_post
    (fun s (h : Nat) => (List.range W).foldlM (fun s (w : Nat) => body w h s) s)
    (fun j s => P (j * W) s) H s0 (by simpa using h0) hrow s1 hrun
  rwa [Nat.mul_comm H W] at h3

theorem cell_cast (w h W : Nat) : ((w : Int) + (h : Int) * (W : Int)).toNat = w + h * W := by
  have : ((w : Int) + (h : Int) * (W : Int)) = ((w + h * W : Nat) : Int) := by push_cast; ring
  rw [this, Int.toNat_ofNat]

theorem cell_lt (w h W H : Nat) (hw : w < W) (hh : h < H) : w + h * W < W * H := by
  have : (h + 1) * W ≤ H * W := Nat.mul_le_mul_right W hh
  rw [Nat.succ_mul] at this
  rw [Nat.mul_comm W H]
  omega

theorem cell_unique (w h w1 h1 W : Nat) (hw : w < W) (hw1 : w1 < W)
    (he : w + h * W = w1 + h1 * W) : w = w1 ∧ h = h1 := by
  have h1' : (w + h * W) % W = (w1 + h1 * W) % W := by rw [he]
  rw [Nat.add_mul_mod_self_right, Nat.add_mul_mod_self_right, Nat.mod_eq_of_lt hw,
    Nat.mod_eq_of_lt hw1] at h1'
  subst h1'
  have hW : 0 < W := by omega
  have : h * W = h1 * W := by omega
  exact ⟨rfl, Nat.eq_of_mul_eq_mul_right hW this⟩

theorem setAt_some {α : Type} (l : List α) (w h W : Nat) (v : α) (hl : w + h * W < l.length) :
    setAt l ((w : Int) + (h : Int) * (W : Int)) v = some (l.set (w + h * W) v) := by
  unfold setAt
  rw [cell_cast, if_pos ⟨by positivity, hl⟩]

theorem setAt_eq {α : Type} (l l1 : List α) (w h W : Nat) (v : α)
    (hs : setAt l ((w : Int) + (h : Int) * (W : Int)) v = some l1) :
    w + h * W < l.length ∧ l1 = l.set (w + h * W) v := by
  unfold setAt at hs
  rw [cell_cast] at hs
  split_ifs at hs with hc
  simp only [Option.some.injEq] at hs
  exact ⟨hc.2, hs.symm⟩

theorem at?_cell {α : Type} (l : List α) (w h W : Nat) :
    at? l ((w : Int) + (h : Int) * (W : Int)) = l[w + h * W]? := by
  unfold at?
  have h0 : ¬ ((w : Int) + (h : Int) * (W : Int) < 0) := by
    have : (0 : Int) ≤ (w : Int) + (h : Int) * (W : Int) := by positivity
    omega
  rw [cell_cast, if_neg h0]

theorem painted_step {α : Type} (W H : Nat) (im : List α) (Q : Nat → Nat → α → Prop)
    (w h : Nat) (buf : List α) (v : α) (hw : w < W) (hp : Painted W H im Q (w + h * W) buf)
    (hl : w + h * W < buf.length) (hq : Q w h v) :
    Painted W H im Q (w + h * W + 1) (buf.set (w + h * W) v) := by
  obtain ⟨h1, h2, h3⟩ := hp
  refine ⟨by rw [List.length_set]; exact h1, ?_, ?_⟩
  · intro i hi
    rw [List.getElem?_set_ne (by omega)]
    exact h2 i (by omega)
  · intro w1 hh1 hw1 hh1' hk
    by_cases he : w1 + hh1 * W = w + h * W
    · obtain ⟨rfl, rfl⟩ := cell_unique w1 hh1 w h W hw1 hw he
      exact ⟨v, by rw [List.getElem?_set_self hl], hq⟩
    · rw [List.getElem?_set_ne (by omega)]
      exact h3 w1 hh1 hw1 hh1' (by omega)

theorem paint_some {α : Type} (W H : Nat) (value : Int → Int → List α → Option α)
    (im : List α) (Q : Nat → Nat → α → Prop) (hlen : im.length = W * H)
    (hval : ∀ (w h : Nat) buf, w < W → h < H → buf.length = im.length →
      buf[w + h * W]? = im[w + h * W]? → ∃ v, value w h buf = some v ∧ Q w h v) :
    ∃ out, paint W H value im = some out ∧ out.length = W * H ∧
      ∀ w h, w < W → h < H → ∃ v, out[w + h * W]? = some v ∧ Q w h v := by
  obtain ⟨out, hrun, h1, _, h3⟩ := raster_some W H
    (fun w h buf =>
      match value w h buf with
      | none => none
      | some v => setAt buf (w + h * W) v)
    (Painted W H im Q) im ⟨rfl, fun _ _ => rfl, fun _ _ _ _ hk => by omega⟩
    (by
      intro w h buf hw hh hp
      obtain ⟨v, hv, hq⟩ := hval w h buf hw hh hp.1 (hp.2.1 _ (le_refl _))
      have hl : w + h * W < buf.length := by
        rw [hp.1, hlen]
        exact cell_lt w h W H hw hh
      refine ⟨buf.set (w + h * W) v, ?_, painted_step W H im Q w h buf v hw hp hl hq⟩
      simp only [hv]
      exact setAt_some buf w h W v hl)
  exact ⟨out, hrun, by rw [h1, hlen], fun w h hw hh => h3 w h hw hh (cell_lt w h W H hw hh)⟩

theorem paint_post {α : Type} (W H : Nat) (value : Int → Int → List α → Option α)
    (im : List α) (Q : Nat → Nat → α → Prop)
    (hval : ∀ (w h : Nat) buf v, w < W → h < H → buf.length = im.length →
      buf[w + h * W]? = im[w + h * W]? → value w h buf = some v → Q w h v)
    (out : List α) (hrun : paint W H value im = some out) :
    out.length = im.length ∧
      ∀ w h, w < W → h < H → ∃ v, out[w + h * W]? = some v ∧ Q w h v := by
  obtain ⟨h1, _, h3⟩ := raster_post W H
    (fun w h buf =>
      match value w h buf with
      | none => none
      | some v => setAt buf (w + h * W) v)
    (Painted W H im Q) im ⟨rfl, fun _ _ => rfl, fun _ _ _ _ hk => by omega⟩
    (by
      intro w h buf buf1 hw hh hp hb
      cases hv : value w h buf with
      | none => simp [hv] at hb
      | some v =>
        simp only [hv] at hb
        obtain ⟨hl, rfl⟩ := setAt_eq buf buf1 w h W v hb
        exact painted_step W H im Q w h buf v hw hp hl
          (hval w h buf v hw hh hp.1 (hp.2.1 _ (le_refl _)) hv)) out hrun
  exact ⟨h1, fun w h hw hh => h3 w h hw hh (cell_lt w h W H hw hh)⟩

end ShapeFill


/-! ## `treshold` and `findBorder` -/

namespace ShapeFill

theorem tresholdValue_spec (c_map : ColorMap) (width : Int) (coord : vec2)
    (incidences : List Int) (seg : Nat) (w h : Int) (img : List Rat) (x : Rat)
    (hx : at? img (w + h * width) = some x) :
    ∃ v, tresholdValue c_map width coord incidences seg w h img = some v ∧ (v = 0 ∨ v = 1) ∧
      (c_map.getMaskAt (w + coord.x) (h + coord.y) = seg → v = 1) := by
  unfold tresholdValue
  simp only [hx, Option.map_some']
  cases hb1 : decide (c_map.getMaskAt (w + coord.x) (h + coord.y) = (seg : Int)) <;>
    cases hb2 : decide (x ≥ 1 / 2) <;>
    cases hb3 : decide (c_map.getMaskAt (w + coord.x) (h + coord.y) ∈ incidences) <;>
    simp only [cor, cand]
  all_goals first
    | exact ⟨1, rfl, Or.inr rfl, fun _ => rfl⟩
    | exact ⟨0, rfl, Or.inl rfl, fun hm => absurd hm (of_decide_eq_false hb1)⟩

/-- C23: for every estimate image, window position, incidence set and segment,
`treshold` runs through an image of the size of the window and leaves 0 or 1
in every pixel, and 1 in every pixel whose mask id is the segment. -/
theorem C23_treshold_is_binary_and_keeps_the_segment (c_map : ColorMap) (img : List Rat)
    (W H : Nat) (coord : vec2) (incidences : List Int) (seg : Nat)
    (hlen : img.length = W * H) :
    ∃ out, treshold c_map img W H coord incidences seg = some out ∧ out.length = W * H ∧
      ∀ w h, w < W → h < H →
        (out[w + h * W]? = some 0 ∨ out[w + h * W]? = some 1) ∧
        (c_map.getMaskAt (w + coord.x) (h + coord.y) = seg → out[w + h * W]? = some 1) := by
  obtain ⟨out, hrun, hl, hq⟩ := paint_some W H (tresholdValue c_map W coord incidences seg) img
    (fun (w h : Nat) v => (v = 0 ∨ v = 1) ∧
      (c_map.getMaskAt (w + coord.x) (h + coord.y) = seg → v = 1)) hlen
    (by
      intro w h buf hw hh hb _
      have hlt : w + h * W < buf.length := by
        rw [hb, hlen]
        exact cell_lt w h W H hw hh
      exact tresholdValue_spec c_map W coord incidences seg w h buf buf[w + h * W]
        (by rw [at?_cell]; exact List.getElem?_eq_getElem hlt))
  refine ⟨out, hrun, hl, ?_⟩
  intro w h hw hh
  obtain ⟨v, hv, h1, h2⟩ := hq w h hw hh
  rw [hv]
  refine ⟨?_, fun hm => by rw [h2 hm]⟩
  rcases h1 with h1 | h1
  · left; rw [h1]
  · right; rw [h1]

theorem C23_witness :
    ∃ out, treshold twoSegments [1 / 5, 7 / 10] (2 : Nat) (1 : Nat) ⟨0, 0⟩ [2] 1 = some out ∧
      out.length = 2 * 1 ∧
      ∀ w h : Nat, w < 2 → h < 1 →
        (out[w + h * 2]? = some 0 ∨ out[w + h * 2]? = some 1) ∧
        (twoSegments.getMaskAt (w + (⟨0, 0⟩ : vec2).x) (h + (⟨0, 0⟩ : vec2).y) = (1 : Nat) →
          out[w + h * 2]? = some 1) :=
  C23_treshold_is_binary_and_keeps_the_segment twoSegments [1 / 5, 7 / 10] 2 1 ⟨0, 0⟩ [2] 1 rfl

theorem look_spec (src : List Rat) (i : Int) (d v : Rat) (hv : at? src i = some v) :
    look src i d = some (if v = 1 then (1, true) else (if v = 1 / 2 then 0 else d, false)) := by
  unfold look
  rw [hv]
  dsimp only
  split_ifs <;> rfl

theorem inspect_spec (src : List Rat) (ds : List (Bool × Int)) :
    ∀ d, (∀ p ∈ ds, p.1 = true → (at? src p.2).isSome = true) →
    ∃ r, inspect src ds d = some r ∧
      ((∃ p ∈ ds, p.1 = true ∧ at? src p.2 = some 1) → r = (1, true)) ∧
      ((∀ p ∈ ds, p.1 = true → at? src p.2 ≠ some 1) → r.2 = false ∧
        ((∃ p ∈ ds, p.1 = true ∧ at? src p.2 = some (1 / 2)) → r.1 = 0) ∧
        ((∀ p ∈ ds, p.1 = true → at? src p.2 ≠ some (1 / 2)) → r.1 = d)) := by
  induction ds with
  | nil =>
    intro d _
    exact ⟨(d, false), rfl, by simp, fun _ => ⟨rfl, by simp, fun _ => rfl⟩⟩
  | cons p rest ih =>
    intro d hdef
    obtain ⟨g, i⟩ := p
    have hrest : ∀ p ∈ rest, p.1 = true → (at? src p.2).isSome = true :=
      fun p hp => hdef p (List.mem_cons_of_mem _ hp)
    cases g with
    | false =>
      obtain ⟨r, hr, h1, h2⟩ := ih d hrest
      refine ⟨r, by simp [inspect, hr], ?_, ?_⟩
      · rintro ⟨p, hp, hp1, hp2⟩
        rcases List.mem_cons.1 hp with rfl | hp
        · simp at hp1
        · exact h1 ⟨p, hp, hp1, hp2⟩
      · intro hno
        obtain ⟨h3, h4, h5⟩ := h2 (fun p hp => hno p (List.mem_cons_of_mem _ hp))
        refine ⟨h3, ?_, ?_⟩
        · rintro ⟨p, hp, hp1, hp2⟩
          rcases List.mem_cons.1 hp with rfl | hp
          · simp at hp1
          · exact h4 ⟨p, hp, hp1, hp2⟩
        · intro hno2
          exact h5 (fun p hp => hno2 p (List.mem_cons_of_mem _ hp))
    | true =>
      obtain ⟨v, hv⟩ := Option.isSome_iff_exists.1 (hdef (true, i) (List.mem_cons_self _ _) rfl)
      by_cases hv1 : v = 1
      · subst hv1
        have hl := look_spec src i d 1 hv
        rw [if_pos rfl] at hl
        refine ⟨(1, true), by rw [inspect]; simp only [↓reduceIte, hl], fun _ => rfl, ?_⟩
        intro hno
        exact absurd hv (hno (true, i) (List.mem_cons_self _ _) rfl)
      · by_cases hv2 : v = 1 / 2
        · subst hv2
          obtain ⟨r, hr, h1, h2⟩ := ih 0 hrest
          have hl := look_spec src i d (1 / 2) hv
          rw [if_neg hv1, if_pos rfl] at hl
          refine ⟨r, by rw [inspect]; simp only [↓reduceIte, hl]; exact hr, ?_, ?_⟩
          · rintro ⟨p, hp, hp1, hp2⟩
            rcases List.mem_cons.1 hp with rfl | hp
            · rw [hv] at hp2
              simp only [Option.some.injEq] at hp2
              exact absurd hp2 hv1
            · exact h1 ⟨p, hp, hp1, hp2⟩
          · intro hno
            obtain ⟨h3, h4, h5⟩ := h2 (fun p hp => hno p (List.mem_cons_of_mem _ hp))
            refine ⟨h3, ?_, ?_⟩
            · intro _
              by_cases hex : ∃ p ∈ rest, p.1 = true ∧ at? src p.2 = some (1 / 2)
              · exact h4 hex
              · push_neg at hex
                exact h5 hex
            · intro hno2
              exact absurd hv (hno2 (true, i) (List.mem_cons_self _ _) rfl)
        · obtain ⟨r, hr, h1, h2⟩ := ih d hrest
          have hl := look_spec src i d v hv
          rw [if_neg hv1, if_neg hv2] at hl
          refine ⟨r, by rw [inspect]; simp only [↓reduceIte, hl]; exact hr, ?_, ?_⟩
          · rintro ⟨p, hp, hp1, hp2⟩
            rcases List.mem_cons.1 hp with rfl | hp
            · rw [hv] at hp2
              simp only [Option.some.injEq] at hp2
              exact absurd hp2 hv1
            · exact h1 ⟨p, hp, hp1, hp2⟩
          · intro hno
            obtain ⟨h3, h4, h5⟩ := h2 (fun p hp => hno p (List.mem_cons_of_mem _ hp))
            refine ⟨h3, ?_, ?_⟩
            · rintro ⟨p, hp, hp1, hp2⟩
              rcases List.mem_cons.1 hp with rfl | hp
              · rw [hv] at hp2
                simp only [Option.some.injEq] at hp2
                exact absurd hp2 hv2
              · exact h4 ⟨p, hp, hp1, hp2⟩
            · intro hno2
              exact h5 (fun p hp => hno2 p (List.mem_cons_of_mem _ hp))

/-- The result of the inspection does not depend on the order of the blocks. -/
theorem inspect_perm (src : List Rat) (ds ds1 : List (Bool × Int)) (d : Rat)
    (hp : ds1.Perm ds) (hdef : ∀ p ∈ ds, p.1 = true → (at? src p.2).isSome = true) :
    inspect src ds1 d = inspect src ds d := by
  obtain ⟨r, hr, h1, h2⟩ := inspect_spec src ds d hdef
  obtain ⟨r1, hr1, h3, h4⟩ := inspect_spec src ds1 d (fun p hp1 => hdef p (hp.mem_iff.1 hp1))
  rw [hr, hr1]
  congr 1
  by_cases hex : ∃ p ∈ ds, p.1 = true ∧ at? src p.2 = some 1
  · rw [h1 hex]
    obtain ⟨p, hp1, hp2⟩ := hex
    exact h3 ⟨p, hp.mem_iff.2 hp1, hp2⟩
  · push_neg at hex
    obtain ⟨a1, a2, a3⟩ := h2 hex
    obtain ⟨b1, b2, b3⟩ := h4 (fun p hp1 => hex p (hp.mem_iff.1 hp1))
    apply Prod.ext
    · by_cases hex2 : ∃ p ∈ ds, p.1 = true ∧ at? src p.2 = some (1 / 2)
      · rw [a2 hex2]
        obtain ⟨p, hp1, hp2⟩ := hex2
        exact b2 ⟨p, hp.mem_iff.2 hp1, hp2⟩
      · push_neg at hex2
        rw [a3 hex2]
        exact b3 (fun p hp1 => hex2 p (hp.mem_iff.1 hp1))
    · rw [a1, b1]

end ShapeFill


/-! ## `findBorder` pixel by pixel -/

namespace ShapeFill

theorem at?_nat {α : Type} (l : List α) (i : Int) (k : Nat) (h : i = (k : Int)) :
    at? l i = l[k]? := by
  subst h
  unfold at?
  rw [if_neg (by omega), Int.toNat_ofNat]

theorem at?_up {α : Type} (l : List α) (w h W : Nat) (h0 : 0 < h) :
    at? l ((w : Int) + (h : Int) * (W : Int) - (W : Int)) = l[w + (h - 1) * W]? := by
  apply at?_nat
  obtain ⟨k, rfl⟩ : ∃ k, h = k + 1 := ⟨h - 1, by omega⟩
  simp only [Nat.add_sub_cancel]
  push_cast
  ring

theorem at?_left {α : Type} (l : List α) (w h W : Nat) (h0 : 0 < w) :
    at? l ((w : Int) + (h : Int) * (W : Int) - 1) = l[w - 1 + h * W]? := by
  apply at?_nat
  obtain ⟨k, rfl⟩ : ∃ k, w = k + 1 := ⟨w - 1, by omega⟩
  simp only [Nat.add_sub_cancel]
  push_cast
  ring

theorem at?_down {α : Type} (l : List α) (w h W : Nat) :
    at? l ((w : Int) + (h : Int) * (W : Int) + (W : Int)) = l[w + (h + 1) * W]? := by
  apply at?_nat
  push_cast
  ring

theorem at?_right {α : Type} (l : List α) (w h W : Nat) :
    at? l ((w : Int) + (h : Int) * (W : Int) + 1) = l[w + 1 + h * W]? := by
  apply at?_nat
  push_cast
  ring

theorem directions_reads (W H w h : Nat) (src : List Rat) (v : Rat) :
    (∃ p ∈ directions W H w h, p.1 = true ∧ at? src p.2 = some v) ↔
      NeighbourHas W H src w h v := by
  unfold directions NeighbourHas
  constructor
  · rintro ⟨p, hp, h1, h2⟩
    simp only [List.mem_cons, List.mem_singleton, List.not_mem_nil, or_false] at hp
    rcases hp with rfl | rfl | rfl | rfl
    · simp only [decide_eq_true_eq] at h1
      have h0 : 0 < h := by omega
      exact Or.inl ⟨h0, by rw [← at?_up src w h W h0]; exact h2⟩
    · simp only [decide_eq_true_eq] at h1
      have h0 : 0 < w := by omega
      exact Or.inr (Or.inl ⟨h0, by rw [← at?_left src w h W h0]; exact h2⟩)
    · simp only [decide_eq_true_eq] at h1
      exact Or.inr (Or.inr (Or.inl ⟨by omega, by rw [← at?_down src w h W]; exact h2⟩))
    · simp only [decide_eq_true_eq] at h1
      exact Or.inr (Or.inr (Or.inr ⟨by omega, by rw [← at?_right src w h W]; exact h2⟩))
  · rintro (⟨h0, h2⟩ | ⟨h0, h2⟩ | ⟨h0, h2⟩ | ⟨h0, h2⟩)
    · exact ⟨_, List.mem_cons_self _ _, by simp only [decide_eq_true_eq]; omega,
        by rw [at?_up src w h W h0]; exact h2⟩
    · exact ⟨_, List.mem_cons_of_mem _ (List.mem_cons_self _ _),
        by simp only [decide_eq_true_eq]; omega, by rw [at?_left src w h W h0]; exact h2⟩
    · exact ⟨_, List.mem_cons_of_mem _ (List.mem_cons_of_mem _ (List.mem_cons_self _ _)),
        by simp only [decide_eq_true_eq]; omega, by rw [at?_down src w h W]; exact h2⟩
    · exact ⟨_, List.mem_cons_of_mem _ (List.mem_cons_of_mem _ (List.mem_cons_of_mem _
        (List.mem_cons_self _ _))),
        by simp only [decide_eq_true_eq]; omega, by rw [at?_right src w h W]; exact h2⟩

theorem directions_defined (W H w h : Nat) (src : List Rat) (hs : src.length = W * H)
    (hw : w < W) (hh : h < H) :
    ∀ p ∈ directions W H w h, p.1 = true → (at? src p.2).isSome = true := by
  intro p hp h1
  unfold directions at hp
  simp only [List.mem_cons, List.mem_singleton, List.not_mem_nil, or_false] at hp
  have key : ∀ k, k < W * H → (src[k]?).isSome = true := by
    intro k hk
    rw [List.getElem?_eq_getElem (by omega)]
    rfl
  rcases hp with rfl | rfl | rfl | rfl
  · simp only [decide_eq_true_eq] at h1
    rw [at?_up src w h W (by omega)]
    exact key _ (cell_lt w (h - 1) W H hw (by omega))
  · simp only [decide_eq_true_eq] at h1
    rw [at?_left src w h W (by omega)]
    exact key _ (cell_lt (w - 1) h W H (by omega) hh)
  · simp only [decide_eq_true_eq] at h1
    rw [at?_down src w h W]
    exact key _ (cell_lt w (h + 1) W H hw (by omega))
  · simp only [decide_eq_true_eq] at h1
    rw [at?_right src w h W]
    exact key _ (cell_lt (w + 1) h W H (by omega) hh)

theorem inspect_value (W H w h : Nat) (src : List Rat) (hs : src.length = W * H)
    (hw : w < W) (hh : h < H) (hx : src[w + h * W]? = some 0) :
    ∃ r, inspect src (directions W H w h) (1 / 2) = some r ∧ BorderValue W H src w h r.1 := by
  obtain ⟨r, hr, h1, h2⟩ := inspect_spec src (directions W H w h) (1 / 2)
    (directions_defined W H w h src hs hw hh)
  refine ⟨r, hr, fun hne => absurd hx hne, fun _ => ⟨?_, ?_, ?_⟩⟩
  · intro hn
    rw [h1 ((directions_reads W H w h src 1).2 hn)]
  · intro hn1 hn2
    have hno : ∀ p ∈ directions W H w h, p.1 = true → at? src p.2 ≠ some 1 :=
      fun p hp hp1 hp2 => hn1 ((directions_reads W H w h src 1).1 ⟨p, hp, hp1, hp2⟩)
    exact (h2 hno).2.1 ((directions_reads W H w h src (1 / 2)).2 hn2)
  · intro hn1 hn2
    have hno : ∀ p ∈ directions W H w h, p.1 = true → at? src p.2 ≠ some 1 :=
      fun p hp hp1 hp2 => hn1 ((directions_reads W H w h src 1).1 ⟨p, hp, hp1, hp2⟩)
    exact (h2 hno).2.2
      (fun p hp hp1 hp2 => hn2 ((directions_reads W H w h src (1 / 2)).1 ⟨p, hp, hp1, hp2⟩))

theorem findBorderAt_spec (W H w h : Nat) (src : List Rat) (s : Border)
    (hs : src.length = W * H) (hd : s.dst.length = W * H) (hok : BorderOk W H s)
    (hw : w < W) (hh : h < H) :
    ∃ s1 v, findBorderAt src W H w h s = some s1 ∧ s1.dst = s.dst.set (w + h * W) v ∧
      BorderOk W H s1 ∧ BorderValue W H src w h v := by
  have hk := cell_lt w h W H hw hh
  have hdst : ∀ v, setAt s.dst ((w : Int) + (h : Int) * (W : Int)) v
      = some (s.dst.set (w + h * W) v) := fun v => setAt_some s.dst w h W v (by omega)
  obtain ⟨ids1, hids1, hok1, hsome1⟩ : ∃ ids1,
      clearId s.ids ((w : Int) + (h : Int) * (W : Int)) = some ids1 ∧
      (∀ l, ids1 = some l → l.length = W * H) ∧ (s.ids.isSome = true → ids1.isSome = true) := by
    cases hi : s.ids with
    | none => exact ⟨none, rfl, by simp, by simp⟩
    | some l =>
      have hl := hok.1 l hi
      refine ⟨some (l.set (w + h * W) (-1)), ?_, ?_, by simp⟩
      · simp only [clearId, setAt_some l w h W (-1) (by omega), Option.map_some']
      · intro l1 h1
        simp only [Option.some.injEq] at h1
        subst h1
        rw [List.length_set]
        exact hl
  have hsrc : at? src ((w : Int) + (h : Int) * (W : Int)) = some src[w + h * W] := by
    rw [at?_cell]
    exact List.getElem?_eq_getElem (by omega)
  have hsrc2 : src[w + h * W]? = some src[w + h * W] := List.getElem?_eq_getElem (by omega)
  unfold findBorderAt
  simp only [hids1, hsrc]
  by_cases hx : src[w + h * W] = 0
  · rw [if_pos hx]
    obtain ⟨r, hr, hv⟩ := inspect_value W H w h src hs hw hh (by rw [hsrc2, hx])
    obtain ⟨d, stop⟩ := r
    rw [hr]
    cases stop with
    | true =>
      simp only [hdst, Option.map_some']
      exact ⟨_, d, rfl, rfl, ⟨hok1, fun hn => hsome1 (hok.2 hn)⟩, hv⟩
    | false =>
      simp only [hdst]
      by_cases hd2 : d = 1 / 2
      · rw [if_pos hd2]
        cases hn : s.n with
        | none => exact ⟨_, d, rfl, rfl, ⟨hok1, by simp⟩, hv⟩
        | some n =>
          have hi1 := hsome1 (hok.2 (by rw [hn]; rfl))
          obtain ⟨l, rfl⟩ := Option.isSome_iff_exists.1 hi1
          have hl := hok1 l rfl
          simp only [setAt_some l w h W n (by omega), Option.map_some']
          refine ⟨_, d, rfl, rfl, ⟨?_, by simp⟩, hv⟩
          intro l1 h1
          simp only [Option.some.injEq] at h1
          subst h1
          rw [List.length_set]
          exact hl
      · rw [if_neg hd2]
        exact ⟨_, d, rfl, rfl, ⟨hok1, fun hn => hsome1 (hok.2 hn)⟩, hv⟩
  · rw [if_neg hx]
    simp only [hdst, Option.map_some']
    refine ⟨_, -1, rfl, rfl, ⟨hok1, fun hn => hsome1 (hok.2 hn)⟩, fun _ => rfl, ?_⟩
    intro h0
    rw [hsrc2] at h0
    simp only [Option.some.injEq] at h0
    exact absurd h0 hx

/-- C30: `findBorder` runs through every image and leaves at (w, h) the value -1
when the source pixel is not 0; for a source pixel 0 it leaves 1 when a
neighbour inside of the image holds 1, else 0 when such a neighbour holds 0.5,
else 0.5; and the inspection of the neighbours yields the same in every
order. -/
theorem C30_findBorder_classifies_pixels (W H : Nat) (src dst : List Rat)
    (ids : Option (List Int)) (n : Option Int) (hs : src.length = W * H)
    (hd : dst.length = W * H) (hi : ∀ l, ids = some l → l.length = W * H)
    (hn : n.isSome = true → ids.isSome = true) :
    ∃ out, findBorder src dst W H ids n = some out ∧ out.dst.length = W * H ∧
      ∀ w h, w < W → h < H →
        (src[w + h * W]? ≠ some 0 → out.dst[w + h * W]? = some (-1)) ∧
        (src[w + h * W]? = some 0 →
          (NeighbourHas W H src w h 1 → out.dst[w + h * W]? = some 1) ∧
          (¬ NeighbourHas W H src w h 1 → NeighbourHas W H src w h (1 / 2) →
            out.dst[w + h * W]? = some 0) ∧
          (¬ NeighbourHas W H src w h 1 → ¬ NeighbourHas W H src w h (1 / 2) →
            out.dst[w + h * W]? = some (1 / 2))) ∧
        ∀ ds : List (Bool × Int), ds.Perm (directions W H w h) →
          inspect src ds (1 / 2) = inspect src (directions W H w h) (1 / 2) := by
  obtain ⟨out, hrun, hP, _⟩ := raster_some W H (findBorderAt src W H)
    (fun k s => Painted W H dst (BorderValue W H src) k s.dst ∧ BorderOk W H s)
    ⟨dst, ids, n⟩ ⟨⟨rfl, fun _ _ => rfl, fun _ _ _ _ hk => by omega⟩, hi, hn⟩
    (by
      intro w h s hw hh hp
      obtain ⟨s1, v, h1, h2, h3, h4⟩ := findBorderAt_spec W H w h src s hs
        (by rw [hp.1.1, hd]) hp.2 hw hh
      refine ⟨s1, h1, ?_, h3⟩
      rw [h2]
      exact painted_step W H dst (BorderValue W H src) w h s.dst v hw hp.1
        (by rw [hp.1.1, hd]; exact cell_lt w h W H hw hh) h4)
  refine ⟨out, hrun, by rw [hP.1, hd], ?_⟩
  intro w h hw hh
  obtain ⟨v, hv, hq1, hq2⟩ := hP.2.2 w h hw hh (cell_lt w h W H hw hh)
  rw [hv]
  refine ⟨fun hne => by rw [hq1 hne], fun h0 => ?_, ?_⟩
  · obtain ⟨a, b, c⟩ := hq2 h0
    exact ⟨fun x => by rw [a x], fun x y => by rw [b x y], fun x y => by rw [c x y]⟩
  · intro ds hp
    exact inspect_perm src (directions W H w h) ds (1 / 2) hp
      (directions_defined W H w h src hs hw hh)

theorem C30_witness :
    ∃ out, findBorder [0, 1, 1 / 2] [7, 7, 7] (3 : Nat) (1 : Nat) none none = some out ∧
      out.dst.length = 3 * 1 ∧
      ∀ w h, w < 3 → h < 1 →
        (([0, 1, 1 / 2] : List Rat)[w + h * 3]? ≠ some 0 → out.dst[w + h * 3]? = some (-1)) ∧
        (([0, 1, 1 / 2] : List Rat)[w + h * 3]? = some 0 →
          (NeighbourHas 3 1 [0, 1, 1 / 2] w h 1 → out.dst[w + h * 3]? = some 1) ∧
          (¬ NeighbourHas 3 1 [0, 1, 1 / 2] w h 1 → NeighbourHas 3 1 [0, 1, 1 / 2] w h (1 / 2) →
            out.dst[w + h * 3]? = some 0) ∧
          (¬ NeighbourHas 3 1 [0, 1, 1 / 2] w h 1 →
            ¬ NeighbourHas 3 1 [0, 1, 1 / 2] w h (1 / 2) →
            out.dst[w + h * 3]? = some (1 / 2))) ∧
        ∀ ds : List (Bool × Int), ds.Perm (directions (3 : Nat) (1 : Nat) w h) →
          inspect [0, 1, 1 / 2] ds (1 / 2)
            = inspect [0, 1, 1 / 2] (directions (3 : Nat) (1 : Nat) w h) (1 / 2) :=
  C30_findBorder_classifies_pixels 3 1 [0, 1, 1 / 2] [7, 7, 7] none none rfl rfl
    (fun _ h => by cases h) (fun h => by cases h)

end ShapeFill


/-! ## The boundary images hold three values -/

open TopologicalSorting

namespace ShapeFill

theorem tri_zero : Tri 0 := Or.inl rfl

theorem tri_quarter : Tri (1 / 4) := Or.inr (Or.inl rfl)

theorem tri_one : Tri 1 := Or.inr (Or.inr rfl)

theorem mergeValue_tri (orig : List Rat) (c_map : ColorMap) (depth : Depth) (seg : Nat)
    (w h : Int) (v : Rat) (hv : mergeValue orig c_map depth seg w h = some (some v)) :
    Tri v := by
  unfold mergeValue at hv
  dsimp only at hv
  repeat' split at hv
  all_goals first
    | (cases hv; first
        | exact tri_zero
        | exact tri_quarter
        | exact tri_one)
    | cases hv

theorem borderClass_tri (orig : List Rat) (block : List Int) (c_map : ColorMap)
    (depth : Depth) (seg : Nat) (w h : Int) (v : Rat)
    (hv : borderClass orig block c_map depth seg w h = some v) : Tri v := by
  unfold borderClass at hv
  dsimp only at hv
  repeat' split at hv
  all_goals first
    | (cases hv; first
        | exact tri_zero
        | exact tri_quarter
        | exact tri_one
        | exact mergeValue_tri orig c_map depth seg w h _ (by assumption))
    | cases hv

theorem boundaryValue_tri (estimate orig : List Rat) (block : List Int) (c_map : ColorMap)
    (depth : Depth) (width height : Int) (minCoord : vec2) (seg : Nat) (w h : Int) (v : Rat)
    (hv : boundaryValue estimate orig block c_map depth width height minCoord seg w h
      = some v) : Tri v := by
  unfold boundaryValue at hv
  repeat' split at hv
  all_goals first
    | exact borderClass_tri orig block c_map depth seg w h v hv
    | (cases hv; exact tri_one)
    | cases hv

theorem outlineValue_tri (borders block : List Int) (seg : Nat) (orig : List Rat)
    (c_map : ColorMap) (w h : Int) (v : Rat)
    (hv : outlineValue borders block seg orig c_map w h = some v) : Tri v := by
  unfold outlineValue at hv
  dsimp only at hv
  repeat' split at hv
  all_goals first
    | (cases hv; first
        | exact tri_zero
        | exact tri_quarter
        | exact tri_one)
    | cases hv

theorem newImage_eq (width height : Int) (im : List Rat) (h : newImage width height = some im) :
    ∃ W H : Nat, 0 < W ∧ 0 < H ∧ width = W ∧ height = H ∧ im.length = W * H := by
  unfold newImage at h
  split_ifs at h with hc
  simp only [Option.some.injEq] at h
  subst h
  refine ⟨width.toNat, height.toNat, by omega, by omega, by omega, by omega, ?_⟩
  rw [List.length_replicate]
  have : width * height = ((width.toNat * height.toNat : Nat) : Int) := by
    push_cast
    rw [Int.toNat_of_nonneg (by omega), Int.toNat_of_nonneg (by omega)]
  rw [this, Int.toNat_ofNat]

/-- Every element of a painted image is the value of some cell. -/
theorem paint_all {α : Type} (W H : Nat) (value : Int → Int → List α → Option α)
    (im : List α) (Q : α → Prop) (hlen : im.length = W * H)
    (hval : ∀ (w h : Nat) buf v, value w h buf = some v → Q v)
    (out : List α) (hrun : paint W H value im = some out) :
    out.length = W * H ∧ ∀ v ∈ out, Q v := by
  obtain ⟨h1, h2⟩ := paint_post W H value im (fun _ _ v => Q v)
    (fun w h buf v _ _ _ _ hv => hval w h buf v hv) out hrun
  refine ⟨by rw [h1, hlen], ?_⟩
  intro v hv
  obtain ⟨i, hi, rfl⟩ := List.mem_iff_getElem.1 hv
  rw [h1, hlen] at hi
  have hW : 0 < W := by
    rcases Nat.eq_zero_or_pos W with h0 | h0
    · subst h0; simp at hi
    · exact h0
  obtain ⟨x, hx, hq⟩ := h2 (i % W) (i / W) (Nat.mod_lt _ hW)
    ((Nat.div_lt_iff_lt_mul hW).2 (by rw [Nat.mul_comm]; exact hi))
  rw [Nat.mod_add_div' i W] at hx
  rw [List.getElem?_eq_getElem (by rw [h1, hlen]; exact hi)] at hx
  simp only [Option.some.injEq] at hx
  rw [hx]
  exact hq

theorem setBoundary_tri (estimate orig : List Rat) (block : List Int) (c_map : ColorMap)
    (depth : Depth) (width height : Int) (minCoord : vec2) (seg : Nat)
    (r : List Rat × List Rat)
    (hr : setBoundary estimate orig block c_map depth width height minCoord seg = some r) :
    (r.2.length : Int) = c_map._width * c_map._height ∧ ∀ v ∈ r.2, Tri v := by
  unfold setBoundary at hr
  split at hr
  · cases hr
  · rename_i im0 h0
    split at hr
    · cases hr
    · rename_i segIm h1
      split at hr
      · cases hr
      · rename_i im h2
        cases hr
        obtain ⟨W, H, _, _, hW, hH, hl0⟩ := newImage_eq _ _ im0 h0
        rw [hW, hH] at h1 h2
        have hl1 : segIm.length = W * H :=
          (paint_all W H _ im0 (fun _ => True) hl0 (fun _ _ _ _ _ => trivial) segIm h1).1
        obtain ⟨hl2, hq⟩ := paint_all W H _ segIm Tri hl1
          (fun w h _ v hv => boundaryValue_tri estimate orig block c_map depth width height
            minCoord seg w h v hv) im h2
        refine ⟨?_, hq⟩
        rw [hW, hH]
        show ((im.length : Nat) : Int) = _
        rw [hl2]
        push_cast
        rfl

theorem saveByBorders_tri (borders block : List Int) (seg : Nat) (orig : List Rat)
    (c_map : ColorMap) (r : List Rat × List Rat)
    (hr : saveByBorders borders block seg orig c_map = some r) :
    (r.2.length : Int) = c_map._width * c_map._height ∧ ∀ v ∈ r.2, Tri v := by
  unfold saveByBorders at hr
  split at hr
  · cases hr
  · rename_i im0 h0
    split at hr
    · cases hr
    · rename_i segIm h1
      split at hr
      · cases hr
      · rename_i im h2
        cases hr
        obtain ⟨W, H, _, _, hW, hH, hl0⟩ := newImage_eq _ _ im0 h0
        rw [hW, hH] at h1 h2
        have hl1 : segIm.length = W * H :=
          (paint_all W H _ im0 (fun _ => True) hl0 (fun _ _ _ _ _ => trivial) segIm h1).1
        obtain ⟨hl2, hq⟩ := paint_all W H _ segIm Tri hl1
          (fun w h _ v hv => outlineValue_tri borders block seg orig c_map w h v hv) im h2
        refine ⟨?_, hq⟩
        rw [hW, hH]
        show ((im.length : Nat) : Int) = _
        rw [hl2]
        push_cast
        rfl

end ShapeFill


/-! ## The boundary images are computed -/

open TopologicalSorting

namespace ShapeFill

theorem cor_isSome (a b : Option Bool) (ha : a.isSome = true)
    (hb : a = some false → b.isSome = true) : (cor a b).isSome = true := by
  unfold cor
  cases a with
  | none => cases ha
  | some x =>
    cases x with
    | true => rfl
    | false => exact hb rfl

theorem cand_isSome (a b : Option Bool) (ha : a.isSome = true)
    (hb : a = some true → b.isSome = true) : (cand a b).isSome = true := by
  unfold cand
  cases a with
  | none => cases ha
  | some x =>
    cases x with
    | false => rfl
    | true => exact hb rfl

theorem read_ok {α : Type} (l : List α) (a b : Int) (w h : Nat) (hl : l.length = w * h)
    (ha : 0 ≤ a) (haw : a < w) (hb : 0 ≤ b) (hbh : b < h) :
    (at? l (a + b * (w : Int))).isSome = true := by
  obtain ⟨h1, h2⟩ := cell_bounds a b w h ha haw hb hbh
  obtain ⟨v, hv⟩ := at?_isSome l (a + b * (w : Int)) h1 (by
    rw [hl]
    have : ((w * h : Nat) : Int) = (w : Int) * (h : Int) := by push_cast; rfl
    omega)
  rw [hv]
  rfl

theorem isAt_isSome (l : List Rat) (i : Int) (v : Rat) (h : (at? l i).isSome = true) :
    (isAt l i v).isSome = true := by
  unfold isAt
  rw [Option.isSome_map']
  exact h

theorem below_isSome (l : List Rat) (i : Int) (v : Rat) (h : (at? l i).isSome = true) :
    (below l i v).isSome = true := by
  unfold below
  rw [Option.isSome_map']
  exact h

theorem atLeast_isSome (l : List Rat) (i : Int) (v : Rat) (h : (at? l i).isSome = true) :
    (atLeast l i v).isSome = true := by
  unfold atLeast
  rw [Option.isSome_map']
  exact h

theorem holds_isSome (l : List Int) (i : Int) (v : Int) (h : (at? l i).isSome = true) :
    (holds l i v).isSome = true := by
  unfold holds
  rw [Option.isSome_map']
  exact h

theorem outside_some (estimate : List Rat) (ww wh : Nat) (minCoord : vec2) (w h : Int)
    (hl : estimate.length = ww * wh) :
    ∃ b, outside estimate ww wh minCoord w h = some b ∧
      (b = false → 0 ≤ w - minCoord.x ∧ w - minCoord.x < ww ∧ 0 ≤ h - minCoord.y ∧
        h - minCoord.y < wh) := by
  unfold outside
  dsimp only
  by_cases hc : w - minCoord.x < 0 ∨ h - minCoord.y < 0 ∨ w - minCoord.x ≥ ww ∨
      h - minCoord.y ≥ wh
  · rw [decide_eq_true hc]
    exact ⟨true, rfl, fun h => by cases h⟩
  · rw [decide_eq_false hc]
    have hr := isAt_isSome estimate (w - minCoord.x + (h - minCoord.y) * (ww : Int)) 0
      (read_ok estimate _ _ ww wh hl (by omega) (by omega) (by omega) (by omega))
    obtain ⟨b, hb⟩ := Option.isSome_iff_exists.1 hr
    exact ⟨b, by simp only [cor, hb], fun _ => by omega⟩

theorem onEdge_some (estimate : List Rat) (ww wh : Nat) (minCoord : vec2) (w h : Int)
    (hl : estimate.length = ww * wh) (h1 : 0 ≤ w - minCoord.x) (h2 : w - minCoord.x < ww)
    (h3 : 0 ≤ h - minCoord.y) (h4 : h - minCoord.y < wh) :
    (onEdge estimate ww wh minCoord w h).isSome = true := by
  unfold onEdge
  dsimp only
  apply cor_isSome _ _ Option.isSome_some
  intro hc
  simp only [Option.some.injEq, decide_eq_false_iff_not] at hc
  have rd : ∀ a b : Int, 0 ≤ a → a < ww → 0 ≤ b → b < wh →
      (isAt estimate (a + b * (ww : Int)) 0).isSome = true :=
    fun a b ha haw hb hbh => isAt_isSome _ _ _ (read_ok estimate a b ww wh hl ha haw hb hbh)
  apply cor_isSome
  · exact cand_isSome _ _ Option.isSome_some (fun _ => rd _ _ h1 h2 (by omega) (by omega))
  intro _
  apply cor_isSome
  · exact cand_isSome _ _ Option.isSome_some (fun _ => rd _ _ (by omega) (by omega) h3 h4)
  intro _
  apply cor_isSome
  · exact cand_isSome _ _ Option.isSome_some (fun _ => rd _ _ (by omega) (by omega) h3 h4)
  intro _
  exact cand_isSome _ _ Option.isSome_some (fun _ => rd _ _ h1 h2 (by omega) (by omega))

theorem depthAt_isSome (c_map : ColorMap) (depth : Depth)
    (hids : ∀ x y, 0 ≤ c_map.getMaskAt x y ∧
      (nodeAt depth.nodes (c_map.getMaskAt x y).toNat).isSome = true) (x y : Int) :
    (depthAt depth (c_map.getMaskAt x y)).isSome = true := by
  unfold depthAt
  rw [if_neg (by have := (hids x y).1; omega), Option.isSome_map']
  exact (hids x y).2

theorem mergeValue_some (W H : Nat) (orig : List Rat) (c_map : ColorMap) (depth : Depth)
    (seg : Nat) (w h : Int) (hcw : c_map._width = W) (ho : orig.length = W * H)
    (hnode : (nodeAt depth.nodes seg).isSome = true)
    (hids : ∀ x y, 0 ≤ c_map.getMaskAt x y ∧
      (nodeAt depth.nodes (c_map.getMaskAt x y).toNat).isSome = true)
    (hw0 : 0 ≤ w) (hw : w < W) (hh0 : 0 ≤ h) (hh : h < H) :
    (mergeValue orig c_map depth seg w h).isSome = true := by
  obtain ⟨ns, hns⟩ := Option.isSome_iff_exists.1 hnode
  have hd := depthAt_isSome c_map depth hids
  unfold mergeValue
  simp only [hns]
  split_ifs
  · rfl
  · rfl
  · have c1 : (cor ((depthAt depth (c_map.getMaskAt w (h - 1))).map
          fun d => decide (d - ns.depth = 1))
        (cor ((depthAt depth (c_map.getMaskAt (w - 1) h)).map fun d => decide (d - ns.depth = 1))
          (cor ((depthAt depth (c_map.getMaskAt (w + 1) h)).map
              fun d => decide (d - ns.depth = 1))
            ((depthAt depth (c_map.getMaskAt w (h + 1))).map
              fun d => decide (d - ns.depth = 1))))).isSome = true := by
      apply cor_isSome _ _ (by rw [Option.isSome_map']; exact hd _ _)
      intro _
      apply cor_isSome _ _ (by rw [Option.isSome_map']; exact hd _ _)
      intro _
      apply cor_isSome _ _ (by rw [Option.isSome_map']; exact hd _ _)
      intro _
      rw [Option.isSome_map']
      exact hd _ _
    have c2 : (cand (atLeast orig (w + h * c_map._width) ORIG_WHITE_ERR)
        (cand (some (decide (c_map.getMaskAt w h = (seg : Int))))
          (cor ((depthAt depth (c_map.getMaskAt w (h - 1))).map fun d => decide (d < ns.depth))
            (cor ((depthAt depth (c_map.getMaskAt (w - 1) h)).map fun d => decide (d < ns.depth))
              (cor ((depthAt depth (c_map.getMaskAt (w + 1) h)).map
                  fun d => decide (d < ns.depth))
                ((depthAt depth (c_map.getMaskAt w (h + 1))).map
                  fun d => decide (d < ns.depth))))))).isSome = true := by
      apply cand_isSome
      · rw [hcw]
        exact atLeast_isSome _ _ _ (read_ok orig w h W H ho hw0 hw hh0 hh)
      intro _
      apply cand_isSome _ _ Option.isSome_some
      intro _
      apply cor_isSome _ _ (by rw [Option.isSome_map']; exact hd _ _)
      intro _
      apply cor_isSome _ _ (by rw [Option.isSome_map']; exact hd _ _)
      intro _
      apply cor_isSome _ _ (by rw [Option.isSome_map']; exact hd _ _)
      intro _
      rw [Option.isSome_map']
      exact hd _ _
    obtain ⟨b1, hb1⟩ := Option.isSome_iff_exists.1 c1
    obtain ⟨b2, hb2⟩ := Option.isSome_iff_exists.1 c2
    simp only [hb1]
    cases b1 with
    | true => rfl
    | false =>
      simp only [hb2]
      cases b2 <;> rfl

theorem borderClass_some (W H : Nat) (orig : List Rat) (block : List Int) (c_map : ColorMap)
    (depth : Depth) (seg : Nat) (w h : Int) (hcw : c_map._width = W) (hch : c_map._height = H)
    (ho : orig.length = W * H) (hb : block.length = W * H)
    (hnode : (nodeAt depth.nodes seg).isSome = true)
    (hids : ∀ x y, 0 ≤ c_map.getMaskAt x y ∧
      (nodeAt depth.nodes (c_map.getMaskAt x y).toNat).isSome = true)
    (hw0 : 0 ≤ w) (hw : w < W) (hh0 : 0 ≤ h) (hh : h < H) :
    (borderClass orig block c_map depth seg w h).isSome = true := by
  obtain ⟨b, hbv⟩ := Option.isSome_iff_exists.1 (read_ok block w h W H hb hw0 hw hh0 hh)
  unfold borderClass
  simp only [hcw, hch, hbv]
  by_cases c1 : b = 1
  · rw [if_pos c1]
    rfl
  rw [if_neg c1]
  by_cases c2 : h - 1 < 0 ∨ w - 1 < 0 ∨ w + 1 ≥ (W : Int) ∨ h + 1 ≥ (H : Int)
  · rw [if_pos c2]
    rfl
  rw [if_neg c2]
  split_ifs with c3 c4
  · rfl
  · have rd : ∀ a b : Int, 0 ≤ a → a < W → 0 ≤ b → b < H →
        (below orig (a + b * (W : Int)) ORIG_WHITE_ERR).isSome = true :=
      fun a b ha haw hb hbh => below_isSome _ _ _ (read_ok orig a b W H ho ha haw hb hbh)
    have c : (cand (some (decide (c_map.getMaskAt w h = (seg : Int))))
        (cor (below orig (w + (h - 1) * (W : Int)) ORIG_WHITE_ERR)
          (cor (below orig (w + (h + 1) * (W : Int)) ORIG_WHITE_ERR)
            (cor (below orig (w - 1 + h * (W : Int)) ORIG_WHITE_ERR)
              (below orig (w + 1 + h * (W : Int)) ORIG_WHITE_ERR))))).isSome = true := by
      apply cand_isSome _ _ Option.isSome_some
      intro _
      apply cor_isSome _ _ (rd _ _ hw0 hw (by omega) (by omega))
      intro _
      apply cor_isSome _ _ (rd _ _ hw0 hw (by omega) (by omega))
      intro _
      apply cor_isSome _ _ (rd _ _ (by omega) (by omega) hh0 hh)
      intro _
      exact rd _ _ (by omega) (by omega) hh0 hh
    obtain ⟨b1, hb1⟩ := Option.isSome_iff_exists.1 c
    simp only [hb1]
    cases b1 with
    | true => rfl
    | false =>
      obtain ⟨m, hm⟩ := Option.isSome_iff_exists.1
        (mergeValue_some W H orig c_map depth seg w h hcw ho hnode hids hw0 hw hh0 hh)
      simp only [hm]
      cases m <;> rfl
  · have rd : ∀ a b : Int, 0 ≤ a → a < W → 0 ≤ b → b < H →
        (below orig (a + b * (W : Int)) ORIG_WHITE_ERR).isSome = true :=
      fun a b ha haw hb hbh => below_isSome _ _ _ (read_ok orig a b W H ho ha haw hb hbh)
    have c : (cand (some (decide (c_map.getMaskAt w h = (seg : Int))))
        (cor (below orig (w + (h - 1) * (W : Int)) ORIG_WHITE_ERR)
          (cor (below orig (w + (h + 1) * (W : Int)) ORIG_WHITE_ERR)
            (cor (below orig (w - 1 + h * (W : Int)) ORIG_WHITE_ERR)
              (below orig (w + 1 + h * (W : Int)) ORIG_WHITE_ERR))))).isSome = true := by
      apply cand_isSome _ _ Option.isSome_some
      intro _
      apply cor_isSome _ _ (rd _ _ hw0 hw (by omega) (by omega))
      intro _
      apply cor_isSome _ _ (rd _ _ hw0 hw (by omega) (by omega))
      intro _
      apply cor_isSome _ _ (rd _ _ (by omega) (by omega) hh0 hh)
      intro _
      exact rd _ _ (by omega) (by omega) hh0 hh
    obtain ⟨b1, hb1⟩ := Option.isSome_iff_exists.1 c
    simp only [hb1]
    cases b1 <;> rfl

theorem boundaryValue_some (W H ww wh : Nat) (estimate orig : List Rat) (block : List Int)
    (c_map : ColorMap) (depth : Depth) (minCoord : vec2) (seg : Nat)
    (hin : BoundaryInput W H ww wh estimate orig block c_map depth seg) (w h : Nat)
    (hw : w < W) (hh : h < H) :
    ∃ v, boundaryValue estimate orig block c_map depth ww wh minCoord seg w h = some v := by
  obtain ⟨b, hb, hin2⟩ := outside_some estimate ww wh minCoord w h hin.est
  unfold boundaryValue
  simp only [hb]
  cases b with
  | true => exact ⟨1, rfl⟩
  | false =>
    obtain ⟨h1, h2, h3, h4⟩ := hin2 rfl
    obtain ⟨e, he⟩ := Option.isSome_iff_exists.1
      (onEdge_some estimate ww wh minCoord w h hin.est h1 h2 h3 h4)
    simp only [he]
    cases e with
    | false => exact ⟨1, rfl⟩
    | true =>
      exact Option.isSome_iff_exists.1 (borderClass_some W H orig block c_map depth seg w h
        hin.cw hin.ch hin.orig hin.block hin.node hin.ids (by omega) (by omega) (by omega)
        (by omega))

theorem newImage_some (W H : Nat) (hW : 0 < W) (hH : 0 < H) :
    newImage W H = some (List.replicate (W * H) 0) := by
  unfold newImage
  rw [if_pos ⟨by omega, by omega⟩]
  have : (W : Int) * (H : Int) = ((W * H : Nat) : Int) := by push_cast; rfl
  rw [this, Int.toNat_ofNat]

theorem setBoundary_some (W H ww wh : Nat) (estimate orig : List Rat) (block : List Int)
    (c_map : ColorMap) (depth : Depth) (minCoord : vec2) (seg : Nat)
    (hin : BoundaryInput W H ww wh estimate orig block c_map depth seg) :
    ∃ r, setBoundary estimate orig block c_map depth ww wh minCoord seg = some r ∧
      r.2.length = W * H := by
  unfold setBoundary
  rw [hin.cw, hin.ch, newImage_some W H hin.wpos hin.hpos]
  obtain ⟨segIm, h1, hl1, _⟩ := paint_some W H
    (fun w h _ => (outside estimate ww wh minCoord w h).map fun o => if o then (0 : Rat) else 1)
    (List.replicate (W * H) 0) (fun _ _ _ => True) (List.length_replicate _ _)
    (by
      intro w h buf _ _ _ _
      obtain ⟨b, hb, _⟩ := outside_some estimate ww wh minCoord w h hin.est
      refine ⟨if b then 0 else 1, ?_, trivial⟩
      show Option.map _ (outside estimate ww wh minCoord w h) = _
      rw [hb]
      rfl)
  obtain ⟨im, h2, hl2, _⟩ := paint_some W H
    (fun w h _ => boundaryValue estimate orig block c_map depth ww wh minCoord seg w h)
    segIm (fun _ _ _ => True) hl1
    (by
      intro w h buf hw hh _ _
      obtain ⟨v, hv⟩ := boundaryValue_some W H ww wh estimate orig block c_map depth minCoord
        seg hin w h hw hh
      exact ⟨v, hv, trivial⟩)
  simp only [h1, h2]
  exact ⟨_, rfl, hl2⟩

theorem outlineValue_some (W H : Nat) (borders block : List Int) (seg : Nat)
    (orig : List Rat) (c_map : ColorMap) (hin : OutlineInput W H borders block orig c_map)
    (w h : Nat) (hw : w < W) (hh : h < H) :
    ∃ v, outlineValue borders block seg orig c_map w h = some v := by
  have hw0 : (0 : Int) ≤ w := by omega
  have hh0 : (0 : Int) ≤ h := by omega
  have hwW : (w : Int) < W := by omega
  have hhH : (h : Int) < H := by omega
  have rb := holds_isSome borders _ 1 (read_ok borders w h W H hin.borders hw0 hwW hh0 hhH)
  have rk1 := holds_isSome block _ 1 (read_ok block w h W H hin.block hw0 hwW hh0 hhH)
  have rk2 := holds_isSome block _ 2 (read_ok block w h W H hin.block hw0 hwW hh0 hhH)
  have c1 := cand_isSome (holds borders ((w : Int) + (h : Int) * (W : Int)) 1)
    (some (decide (c_map.getMaskAt w h = (seg : Int)))) rb (fun _ => rfl)
  obtain ⟨b1, hb1⟩ := Option.isSome_iff_exists.1 c1
  unfold outlineValue
  simp only [hin.cw, hin.ch, hb1]
  cases b1 with
  | false => exact ⟨1, rfl⟩
  | true =>
    dsimp only
    have c2 := cor_isSome (some (decide ((h : Int) - 1 < 0 ∨ (w : Int) - 1 < 0 ∨
        (h : Int) + 1 ≥ (H : Int) ∨ (w : Int) + 1 ≥ (W : Int))))
      (holds block ((w : Int) + (h : Int) * (W : Int)) 1) rfl (fun _ => rk1)
    obtain ⟨b2, hb2⟩ := Option.isSome_iff_exists.1 c2
    by_cases hc : (h : Int) - 1 < 0 ∨ (w : Int) - 1 < 0 ∨ (h : Int) + 1 ≥ (H : Int) ∨
        (w : Int) + 1 ≥ (W : Int)
    · have : b2 = true := by
        rw [decide_eq_true hc] at hb2
        simpa [cor] using hb2.symm
      subst this
      simp only [hb2]
      exact ⟨0, rfl⟩
    · simp only [hb2]
      cases b2 with
      | true => exact ⟨0, rfl⟩
      | false =>
        dsimp only
        split_ifs
        · have rd : ∀ a b : Int, 0 ≤ a → a < W → 0 ≤ b → b < H →
              (atLeast orig (a + b * (W : Int)) ORIG_WHITE_ERR).isSome = true :=
            fun a b ha haw hb hbh =>
              atLeast_isSome _ _ _ (read_ok orig a b W H hin.orig ha haw hb hbh)
          have c3 : (cor (holds block ((w : Int) + (h : Int) * (W : Int)) 2)
              (cand (atLeast orig ((w : Int) + (h : Int) * (W : Int)) ORIG_WHITE_ERR)
                (cand (atLeast orig ((w : Int) - 1 + (h : Int) * (W : Int)) ORIG_WHITE_ERR)
                  (cand (atLeast orig ((w : Int) + 1 + (h : Int) * (W : Int)) ORIG_WHITE_ERR)
                    (cand (atLeast orig ((w : Int) + ((h : Int) - 1) * (W : Int))
                        ORIG_WHITE_ERR)
                      (atLeast orig ((w : Int) + ((h : Int) + 1) * (W : Int))
                        ORIG_WHITE_ERR)))))).isSome = true := by
            apply cor_isSome _ _ rk2
            intro _
            apply cand_isSome _ _ (rd _ _ hw0 hwW hh0 hhH)
            intro _
            apply cand_isSome _ _ (rd _ _ (by omega) (by omega) hh0 hhH)
            intro _
            apply cand_isSome _ _ (rd _ _ (by omega) (by omega) hh0 hhH)
            intro _
            apply cand_isSome _ _ (rd _ _ hw0 hwW (by omega) (by omega))
            intro _
            exact rd _ _ hw0 hwW (by omega) (by omega)
          obtain ⟨b3, hb3⟩ := Option.isSome_iff_exists.1 c3
          simp only [hb3]
          cases b3
          · exact ⟨0, rfl⟩
          · exact ⟨1 / 4, rfl⟩
        · exact ⟨0, rfl⟩

theorem saveByBorders_some (W H : Nat) (borders block : List Int) (seg : Nat)
    (orig : List Rat) (c_map : ColorMap) (hin : OutlineInput W H borders block orig c_map) :
    ∃ r, saveByBorders borders block seg orig c_map = some r ∧ r.2.length = W * H := by
  unfold saveByBorders
  rw [hin.cw, hin.ch, newImage_some W H hin.wpos hin.hpos]
  obtain ⟨segIm, h1, hl1, _⟩ := paint_some W H
    (fun w h _ => some (if c_map.getMaskAt w h = (seg : Int) then (1 : Rat) else 0))
    (List.replicate (W * H) 0) (fun _ _ _ => True) (List.length_replicate _ _)
    (fun w h buf _ _ _ _ => ⟨_, rfl, trivial⟩)
  obtain ⟨im, h2, hl2, _⟩ := paint_some W H
    (fun w h _ => outlineValue borders block seg orig c_map w h)
    segIm (fun _ _ _ => True) hl1
    (by
      intro w h buf hw hh _ _
      obtain ⟨v, hv⟩ := outlineValue_some W H borders block seg orig c_map hin w h hw hh
      exact ⟨v, hv, trivial⟩)
  simp only [h1, h2]
  exact ⟨_, rfl, hl2⟩

end ShapeFill


/-! ## C21: the values of the boundary images -/

open TopologicalSorting

namespace ShapeFill

theorem ringMask_ids (x y : Int) :
    ringMask.getMaskAt x y = 0 ∨ ringMask.getMaskAt x y = 1 ∨ ringMask.getMaskAt x y = 2 := by
  unfold ColorMap.getMaskAt
  by_cases hc : x < 0 ∨ x ≥ ringMask._width ∨ y < 0 ∨ y ≥ ringMask._height
  · rw [if_pos hc]
    exact Or.inl rfl
  · rw [if_neg hc]
    have h1 : ringMask._width = 3 := rfl
    have h2 : ringMask._height = 3 := rfl
    rw [h1, h2] at hc
    have hx : 0 ≤ x ∧ x < 3 := by omega
    have hy : 0 ≤ y ∧ y < 3 := by omega
    obtain ⟨hx0, hx3⟩ := hx
    obtain ⟨hy0, hy3⟩ := hy
    interval_cases x <;> interval_cases y <;> decide

set_option maxRecDepth 1000000 in
theorem layers_nodes : ∀ k : Fin 3, (nodeAt layers.nodes k).isSome = true := by
  decide!

theorem ring_input :
    BoundaryInput 3 3 1 1 [1] [1, 1, 1, 1, 1, 1, 1, 1, 1] [0, 0, 0, 0, 0, 0, 0, 0, 0]
      ringMask layers 1 where
  wpos := by decide
  hpos := by decide
  cw := rfl
  ch := rfl
  est := rfl
  orig := rfl
  block := rfl
  node := layers_nodes 1
  ids := by
    intro x y
    rcases ringMask_ids x y with h | h | h <;> rw [h]
    · exact ⟨by decide, layers_nodes 0⟩
    · exact ⟨by decide, layers_nodes 1⟩
    · exact ⟨by decide, layers_nodes 2⟩

set_option maxRecDepth 1000000 in
theorem ring_boundary :
    setBoundary [1] [1, 1, 1, 1, 1, 1, 1, 1, 1] [0, 0, 0, 0, 0, 0, 0, 0, 0] ringMask layers
      1 1 ⟨1, 1⟩ 1 = some ([0, 0, 0, 0, 1, 0, 0, 0, 0], [1, 1, 1, 1, 1 / 4, 1, 1, 1, 1]) := by
  decide!

/-- C21: whenever `setBoundary` or `saveByBorders` yields its images, every
pixel of the boundary image (the one handed to `boldBorder`) is 0, 0.25 or 1,
for every estimate, intensity image, block mask, mask and depth assignment; and
both functions yield an image of the size of the mask when their arrays have
the sizes that go with the mask and every id of the mask has a node. -/
theorem C21_boundary_images_hold_three_values (W H ww wh : Nat) (estimate orig : List Rat)
    (borders block : List Int) (c_map : ColorMap) (depth : Depth) (width height : Int)
    (minCoord : vec2) (seg : Nat) :
    (∀ r, setBoundary estimate orig block c_map depth width height minCoord seg = some r →
      ∀ v ∈ r.2, v = 0 ∨ v = 1 / 4 ∨ v = 1) ∧
    (∀ r, saveByBorders borders block seg orig c_map = some r →
      ∀ v ∈ r.2, v = 0 ∨ v = 1 / 4 ∨ v = 1) ∧
    (width = ww → height = wh →
      BoundaryInput W H ww wh estimate orig block c_map depth seg →
      ∃ r, setBoundary estimate orig block c_map depth width height minCoord seg = some r ∧
        r.2.length = W * H) ∧
    (OutlineInput W H borders block orig c_map →
      ∃ r, saveByBorders borders block seg orig c_map = some r ∧ r.2.length = W * H) := by
  refine ⟨?_, ?_, ?_, ?_⟩
  · intro r hr
    exact (setBoundary_tri estimate orig block c_map depth width height minCoord seg r hr).2
  · intro r hr
    exact (saveByBorders_tri borders block seg orig c_map r hr).2
  · rintro rfl rfl hin
    exact setBoundary_some W H ww wh estimate orig block c_map depth minCoord seg hin
  · intro hin
    exact saveByBorders_some W H borders block seg orig c_map hin

theorem C21_witness :
    ∃ r, setBoundary [1] [1, 1, 1, 1, 1, 1, 1, 1, 1] [0, 0, 0, 0, 0, 0, 0, 0, 0] ringMask layers
        (1 : Nat) (1 : Nat) ⟨1, 1⟩ 1 = some r ∧ r.2.length = 3 * 3 ∧
      ∀ v ∈ r.2, v = 0 ∨ v = 1 / 4 ∨ v = 1 := by
  have h := C21_boundary_images_hold_three_values 3 3 1 1 [1] [1, 1, 1, 1, 1, 1, 1, 1, 1]
    [] [0, 0, 0, 0, 0, 0, 0, 0, 0] ringMask layers (1 : Nat) (1 : Nat) ⟨1, 1⟩ 1
  obtain ⟨r, hr, hl⟩ := h.2.2.1 rfl rfl ring_input
  exact ⟨r, hr, hl, h.1 r hr⟩

end ShapeFill


/-! ## `scaleDown` and `scaleUp` on images of one value -/

namespace ShapeFill

theorem steps_eq : steps = [0, 1] := by decide

theorem toInt_scale : toInt scale = 2 := by decide

theorem toInt_zero : toInt 0 = 0 := by decide

theorem toInt_one : toInt 1 = 1 := by decide

theorem toInt_intCast (z : Int) : toInt (z : Rat) = z := by
  unfold toInt
  split_ifs
  · exact Int.floor_intCast z
  · exact Int.ceil_intCast z

theorem toInt_double (z : Int) : toInt ((z : Rat) * scale) = 2 * z := by
  have : (z : Rat) * scale = ((2 * z : Int) : Rat) := by
    unfold scale
    push_cast
    ring
  rw [this, toInt_intCast]

theorem toInt_half (n : Nat) : toInt (((n : Int) : Rat) / scale) = ((n / 2 : Nat) : Int) := by
  unfold toInt scale
  have h0 : (0 : Rat) ≤ ((n : Int) : Rat) / 2 := by positivity
  rw [if_pos h0, Int.floor_eq_iff]
  have hd := Nat.div_add_mod n 2
  have hm : n % 2 < 2 := Nat.mod_lt _ (by norm_num)
  have hq : ((n : Int) : Rat) = 2 * (((n / 2 : Nat) : Int) : Rat) + (((n % 2 : Nat) : Int) : Rat) := by
    exact_mod_cast hd.symm
  have hr0 : (0 : Rat) ≤ (((n % 2 : Nat) : Int) : Rat) := by positivity
  have hr1 : (((n % 2 : Nat) : Int) : Rat) < 2 := by exact_mod_cast hm
  constructor
  · linarith
  · linarith

theorem ceil_half (n : Nat) : ⌈((n : Int) : Rat) / scale⌉ = (((n + 1) / 2 : Nat) : Int) := by
  unfold scale
  rw [Int.ceil_eq_iff]
  have hd := Nat.div_add_mod (n + 1) 2
  have hm : (n + 1) % 2 < 2 := Nat.mod_lt _ (by norm_num)
  have hq : ((n : Int) : Rat) + 1
      = 2 * ((((n + 1) / 2 : Nat) : Int) : Rat) + ((((n + 1) % 2 : Nat) : Int) : Rat) := by
    exact_mod_cast hd.symm
  have hr0 : (0 : Rat) ≤ ((((n + 1) % 2 : Nat) : Int) : Rat) := by positivity
  have hr1 : ((((n + 1) % 2 : Nat) : Int) : Rat) ≤ 1 := by
    exact_mod_cast (by omega : (n + 1) % 2 ≤ 1)
  constructor
  · linarith
  · linarith

/-- Extent of the image that `scaleDown` returns for the extent `n`. -/
theorem newExtent (n : Nat) :
    toInt (((⌈((n : Int) : Rat) / scale⌉ : Int) : Rat) + 1) = (((n + 1) / 2 + 1 : Nat) : Int) := by
  rw [ceil_half]
  have : ((((n + 1) / 2 : Nat) : Int) : Rat) + 1 = ((((n + 1) / 2 + 1 : Nat) : Int) : Rat) := by
    push_cast
    rfl
  rw [this, toInt_intCast]

theorem read_const (W H : Nat) (c : Rat) (a b : Int) (ha : 0 ≤ a) (haw : a < W) (hb : 0 ≤ b)
    (hbh : b < H) : at? (List.replicate (W * H) c) (b * (W : Int) + a) = some c := by
  have h := read_ok (List.replicate (W * H) c) a b W H (List.length_replicate _ _) ha haw hb hbh
  obtain ⟨v, hv⟩ := Option.isSome_iff_exists.1 h
  rw [add_comm] at hv
  rw [hv]
  obtain ⟨_, h2⟩ := at?_some_lt _ _ _ hv
  unfold at? at hv
  split_ifs at hv
  rw [List.getElem?_eq_getElem h2, List.getElem_replicate] at hv
  exact hv.symm ▸ rfl

theorem countPixel_zero (W H : Nat) (hC wC : Int) (h0 : 0 ≤ hC) (h1 : hC < H) (w0 : 0 ≤ wC)
    (w1 : wC < W) (cnts : Int × Int) :
    countPixel (List.replicate (W * H) 0) W hC wC cnts = some (cnts.1 + 1, cnts.2) := by
  unfold countPixel
  rw [read_const W H 0 wC hC w0 w1 h0 h1]
  have : (0 : Rat) ≠ 1 / 2 := by norm_num
  simp only [this, ne_eq, not_false_eq_true, if_true, toInt_zero]

theorem countPixel_one (W H : Nat) (hC wC : Int) (h0 : 0 ≤ hC) (h1 : hC < H) (w0 : 0 ≤ wC)
    (w1 : wC < W) (cnts : Int × Int) :
    countPixel (List.replicate (W * H) 1) W hC wC cnts = some (cnts.1, cnts.2 + 1) := by
  unfold countPixel
  rw [read_const W H 1 wC hC w0 w1 h0 h1]
  have : (1 : Rat) ≠ 1 / 2 := by norm_num
  simp only [this, ne_eq, not_false_eq_true, if_true, toInt_one]
  rfl

theorem foldlM_isSome {σ α : Type} (f : σ → α → Option σ) (l : List α)
    (h : ∀ s x, x ∈ l → (f s x).isSome = true) (s : σ) : (l.foldlM f s).isSome = true := by
  induction l generalizing s with
  | nil => rfl
  | cons a t ih =>
    obtain ⟨s1, h1⟩ := Option.isSome_iff_exists.1 (h s a (List.mem_cons_self _ _))
    rw [List.foldlM_cons, h1]
    exact ih (fun s x hx => h s x (List.mem_cons_of_mem _ hx)) s1

theorem mem_steps (i : Int) (h : i ∈ steps) : 0 ≤ i := by
  rw [steps_eq] at h
  simp only [List.mem_cons, List.mem_singleton, List.not_mem_nil, or_false] at h
  omega

theorem blockValue_some (W H : Nat) (c : Rat) (hc : c = 0 ∨ c = 1) (w h : Nat) :
    (blockValue (List.replicate (W * H) c) W H w h).isSome = true := by
  have hcol : ∀ (hC wStart : Int) (cnts : Int × Int) (j : Int), 0 ≤ hC → hC < H →
      0 ≤ wStart → j ∈ steps →
      (countCol (List.replicate (W * H) c) W hC wStart cnts j).isSome = true := by
    intro hC wStart cnts j h0 h1 h2 hj
    have hj0 := mem_steps j hj
    unfold countCol
    split_ifs with hge
    · rfl
    · rcases hc with rfl | rfl
      · rw [countPixel_zero W H hC _ h0 h1 (by omega) (by omega)]
        rfl
      · rw [countPixel_one W H hC _ h0 h1 (by omega) (by omega)]
        rfl
  have hrow : ∀ (hStart wStart : Int) (cnts : Int × Int) (i : Int), 0 ≤ hStart →
      0 ≤ wStart → i ∈ steps →
      (countRow (List.replicate (W * H) c) W H hStart wStart cnts i).isSome = true := by
    intro hStart wStart cnts i h0 h2 hi
    have hi0 := mem_steps i hi
    unfold countRow
    split_ifs with hge
    · rfl
    · exact foldlM_isSome _ _
        (fun s x hx => hcol _ _ s x (by omega) (by omega) h2 hx) cnts
  unfold blockValue
  dsimp only
  rw [toInt_double, toInt_double]
  obtain ⟨cnts, hcnts⟩ := Option.isSome_iff_exists.1 (foldlM_isSome
    (countRow (List.replicate (W * H) c) W H (2 * (h : Int)) (2 * (w : Int))) steps
    (fun s x hx => hrow _ _ s x (by omega) (by omega) hx) (0, 0))
  rw [hcnts]
  dsimp only
  split_ifs <;> rfl

theorem blockValue_full (W H : Nat) (w h : Nat) (hw : 2 * w + 1 < W) (hh : 2 * h + 1 < H) :
    blockValue (List.replicate (W * H) 0) W H w h = some 0 := by
  have hcol : ∀ (hC : Int) (cnts : Int × Int), 0 ≤ hC → hC < H →
      steps.foldlM (countCol (List.replicate (W * H) 0) W hC (2 * (w : Int))) cnts
        = some (cnts.1 + 2, cnts.2) := by
    intro hC cnts h0 h1
    rw [steps_eq]
    simp only [List.foldlM_cons, List.foldlM_nil, countCol]
    rw [if_neg (by omega), countPixel_zero W H hC _ h0 h1 (by omega) (by omega)]
    simp only [Option.bind_eq_bind, Option.some_bind, Option.pure_def]
    rw [if_neg (by omega), countPixel_zero W H hC _ h0 h1 (by omega) (by omega)]
    simp only [Option.some_bind, Option.some.injEq, Prod.mk.injEq, and_true]
    ring
  unfold blockValue
  dsimp only
  rw [toInt_double, toInt_double, steps_eq]
  simp only [List.foldlM_cons, List.foldlM_nil, countRow]
  rw [if_neg (by omega), hcol _ _ (by omega) (by omega)]
  simp only [Option.bind_eq_bind, Option.some_bind, Option.pure_def]
  rw [if_neg (by omega), hcol _ _ (by omega) (by omega)]
  simp only [Option.some_bind]
  norm_num [scale]

end ShapeFill


/-! ## C22: scaling down and up again -/

namespace ShapeFill

theorem scaleDown_const (W H : Nat) (c : Rat) (hc : c = 0 ∨ c = 1) :
    ∃ small, scaleDown (List.replicate (W * H) c) W H
        = some (small, (((W + 1) / 2 + 1 : Nat) : Int), (((H + 1) / 2 + 1 : Nat) : Int)) ∧
      small.length = ((W + 1) / 2 + 1) * ((H + 1) / 2 + 1) ∧
      (c = 0 → ∀ i j, 2 * i + 1 < W → 2 * j + 1 < H →
        small[i + j * ((W + 1) / 2 + 1)]? = some 0) := by
  unfold scaleDown
  dsimp only
  rw [newExtent W, newExtent H]
  have hsz : ((((W + 1) / 2 + 1 : Nat) : Int) * (((H + 1) / 2 + 1 : Nat) : Int)).toNat
      = ((W + 1) / 2 + 1) * ((H + 1) / 2 + 1) := by
    have : (((W + 1) / 2 + 1 : Nat) : Int) * (((H + 1) / 2 + 1 : Nat) : Int)
        = ((((W + 1) / 2 + 1) * ((H + 1) / 2 + 1) : Nat) : Int) := by push_cast; rfl
    rw [this, Int.toNat_ofNat]
  rw [hsz]
  obtain ⟨small, hrun, hl, hq⟩ := paint_some ((W + 1) / 2 + 1) ((H + 1) / 2 + 1)
    (fun w h _ => blockValue (List.replicate (W * H) c) W H w h)
    (List.replicate (((W + 1) / 2 + 1) * ((H + 1) / 2 + 1)) 0)
    (fun i j v => c = 0 → 2 * i + 1 < W → 2 * j + 1 < H → v = 0)
    (List.length_replicate _ _)
    (by
      intro i j buf _ _ _ _
      obtain ⟨v, hv⟩ := Option.isSome_iff_exists.1 (blockValue_some W H c hc i j)
      refine ⟨v, hv, ?_⟩
      intro h0 hi hj
      subst h0
      rw [blockValue_full W H i j hi hj] at hv
      exact (Option.some.inj hv).symm)
  rw [hrun]
  refine ⟨small, rfl, hl, ?_⟩
  intro h0 i j hi hj
  obtain ⟨v, hv, hz⟩ := hq i j (by omega) (by omega)
  rw [hv, hz h0 hi hj]

theorem cells_all {α : Type} (W H : Nat) (out : List α) (Q : α → Prop)
    (hl : out.length = W * H)
    (hq : ∀ w h, w < W → h < H → ∃ v, out[w + h * W]? = some v ∧ Q v) : ∀ v ∈ out, Q v := by
  intro v hv
  obtain ⟨i, hi, rfl⟩ := List.mem_iff_getElem.1 hv
  have hi2 := hi
  rw [hl] at hi2
  have hW : 0 < W := by
    rcases Nat.eq_zero_or_pos W with h0 | h0
    · subst h0; simp at hi2
    · exact h0
  obtain ⟨x, hx, hq1⟩ := hq (i % W) (i / W) (Nat.mod_lt _ hW)
    ((Nat.div_lt_iff_lt_mul hW).2 (by rw [Nat.mul_comm]; exact hi2))
  rw [Nat.mod_add_div' i W, List.getElem?_eq_getElem hi] at hx
  simp only [Option.some.injEq] at hx
  rw [hx]
  exact hq1

theorem scaleUp_ones (W H : Nat) (small : List Rat) (sw : Int) :
    scaleUp (List.replicate (W * H) 1) small W H sw = some (List.replicate (W * H) (-1)) := by
  obtain ⟨out, hrun, hl, hq⟩ := paint_some W H (scaleUpValue small W sw)
    (List.replicate (W * H) 1) (fun _ _ v => v = -1) (List.length_replicate _ _)
    (by
      intro w h buf hw hh _ hbuf
      have hidx := cell_lt w h W H hw hh
      have hb : at? buf ((w : Int) + (h : Int) * (W : Int)) = some 1 := by
        rw [at?_cell, hbuf, List.getElem?_replicate, if_pos hidx]
      refine ⟨-1, ?_, rfl⟩
      unfold scaleUpValue
      rw [hb]
      dsimp only
      rw [if_pos (by norm_num)])
  unfold scaleUp
  rw [hrun]
  congr 1
  exact List.eq_replicate_iff.2 ⟨hl, cells_all W H out (fun v => v = -1) hl hq⟩

theorem clamped_cell (small : List Rat) (i j nw nh : Nat) (hl : small.length = nw * nh)
    (hi : i < nw) (hj : j < nh) (z : Int) (hz : z = ((i + j * nw : Nat) : Int)) :
    ∃ v, clamped small z = some v ∧ (small[i + j * nw]? = some 0 → v = 0) := by
  have hk : i + j * nw < small.length := by
    rw [hl]
    exact cell_lt i j nw nh hi hj
  unfold clamped
  rw [at?_nat small z _ hz, List.getElem?_eq_getElem hk]
  refine ⟨_, rfl, ?_⟩
  intro h0
  simp only [Option.some.injEq] at h0
  rw [h0]
  norm_num

theorem scaleUp_zeros (W H : Nat) (small : List Rat)
    (hl : small.length = ((W + 1) / 2 + 1) * ((H + 1) / 2 + 1))
    (hfull : ∀ i j, 2 * i + 1 < W → 2 * j + 1 < H →
      small[i + j * ((W + 1) / 2 + 1)]? = some 0) :
    ∃ out, scaleUp (List.replicate (W * H) 0) small W H (((W + 1) / 2 + 1 : Nat) : Int)
        = some out ∧ out.length = W * H ∧
      ∀ w h, w + 2 < W → h + 2 < H → out[w + h * W]? = some 0 := by
  obtain ⟨out, hrun, hl1, hq⟩ := paint_some W H
    (scaleUpValue small W (((W + 1) / 2 + 1 : Nat) : Int))
    (List.replicate (W * H) 0) (fun w h v => w + 2 < W → h + 2 < H → v = 0)
    (List.length_replicate _ _)
    (by
      intro w h buf hw hh _ hbuf
      have hidx := cell_lt w h W H hw hh
      have hb : at? buf ((w : Int) + (h : Int) * (W : Int)) = some 0 := by
        rw [at?_cell, hbuf, List.getElem?_replicate, if_pos hidx]
      obtain ⟨s00, e00, z00⟩ := clamped_cell small (w / 2) (h / 2) _ _ hl (by omega) (by omega)
        (((w / 2 : Nat) : Int) + ((h / 2 : Nat) : Int) * (((W + 1) / 2 + 1 : Nat) : Int))
        (by push_cast; ring)
      obtain ⟨s10, e10, z10⟩ := clamped_cell small (w / 2 + 1) (h / 2) _ _ hl (by omega)
        (by omega)
        (((w / 2 : Nat) : Int) + ((h / 2 : Nat) : Int) * (((W + 1) / 2 + 1 : Nat) : Int) + 1)
        (by push_cast; ring)
      obtain ⟨s01, e01, z01⟩ := clamped_cell small (w / 2) (h / 2 + 1) _ _ hl (by omega)
        (by omega)
        (((w / 2 : Nat) : Int) + ((h / 2 : Nat) : Int) * (((W + 1) / 2 + 1 : Nat) : Int)
          + (((W + 1) / 2 + 1 : Nat) : Int))
        (by push_cast; ring)
      obtain ⟨s11, e11, z11⟩ := clamped_cell small (w / 2 + 1) (h / 2 + 1) _ _ hl (by omega)
        (by omega)
        (((w / 2 : Nat) : Int) + ((h / 2 : Nat) : Int) * (((W + 1) / 2 + 1 : Nat) : Int) + 1
          + (((W + 1) / 2 + 1 : Nat) : Int))
        (by push_cast; ring)
      refine ⟨s00 * (1 - ((((w : Int) % 2 : Int) : Rat) / scale))
          * (1 - ((((h : Int) % 2 : Int) : Rat) / scale))
        + s10 * ((((w : Int) % 2 : Int) : Rat) / scale)
          * (1 - ((((h : Int) % 2 : Int) : Rat) / scale))
        + s01 * (1 - ((((w : Int) % 2 : Int) : Rat) / scale))
          * ((((h : Int) % 2 : Int) : Rat) / scale)
        + s11 * ((((w : Int) % 2 : Int) : Rat) / scale)
          * ((((h : Int) % 2 : Int) : Rat) / scale), ?_, ?_⟩
      · unfold scaleUpValue
        rw [hb]
        dsimp only
        rw [if_neg (by norm_num), toInt_half, toInt_half, toInt_scale, e00, e10, e01, e11]
      · intro hw2 hh2
        have a00 : s00 = 0 := z00 (hfull _ _ (by omega) (by omega))
        have hx : ((((w : Int) % 2 : Int) : Rat) / scale = 0) ∨ (s10 = 0 ∧ (h % 2 = 1 → s11 = 0)) := by
          rcases Nat.mod_two_eq_zero_or_one w with hp | hp
          · left
            have : (w : Int) % 2 = 0 := by omega
            rw [this]
            norm_num
          · right
            exact ⟨z10 (hfull _ _ (by omega) (by omega)),
              fun hp2 => z11 (hfull _ _ (by omega) (by omega))⟩
        have hy : ((((h : Int) % 2 : Int) : Rat) / scale = 0) ∨ (h % 2 = 1 ∧ s01 = 0) := by
          rcases Nat.mod_two_eq_zero_or_one h with hp | hp
          · left
            have : (h : Int) % 2 = 0 := by omega
            rw [this]
            norm_num
          · right
            exact ⟨hp, z01 (hfull _ _ (by omega) (by omega))⟩
        rw [a00]
        rcases hx with hx | ⟨hx1, hx2⟩
        · rw [hx]
          rcases hy with hy | ⟨_, hy2⟩
          · rw [hy]
            ring
          · rw [hy2]
            ring
        · rw [hx1]
          rcases hy with hy | ⟨hy1, hy2⟩
          · rw [hy]
            ring
          · rw [hy2, hx2 hy1]
            ring)
  unfold scaleUp
  exact ⟨out, hrun, hl1, fun w h hw hh => by
    obtain ⟨v, hv, hz⟩ := hq w h (by omega) (by omega)
    rw [hv, hz hw hh]⟩

set_option maxRecDepth 1000000 in
theorem roundTrip_one : roundTrip [1] 1 1 = some [-1] := by
  decide!

set_option maxRecDepth 1000000 in
theorem roundTrip_zero : roundTrip [0] 1 1 = some [1 / 2] := by
  decide!

/-- C22, as stated, fails: the image of the single pixel 1 comes back as -1,
the image of the single pixel 0 comes back as 0.5. -/
theorem C22_counterexample :
    roundTrip [1] 1 1 = some [-1] ∧ roundTrip [0] 1 1 = some [1 / 2] ∧
      ¬ (∀ (W H : Nat) (img : List Rat), img.length = W * H →
        ((∀ v ∈ img, v = 0) ∨ (∀ v ∈ img, v = 1)) → roundTrip img W H = some img) := by
  refine ⟨roundTrip_one, roundTrip_zero, ?_⟩
  intro hall
  have h := hall 1 1 [1] rfl (Or.inr (by simp))
  have h2 : roundTrip [1] ((1 : Nat) : Int) ((1 : Nat) : Int) = some [-1] := roundTrip_one
  rw [h2] at h
  simp only [Option.some.injEq, List.cons.injEq, and_true] at h
  norm_num at h

/-- C22, amended: scaled down and up again, an image all of whose pixels are 1
comes back with -1 in every pixel, and an image all of whose pixels are 0
comes back with 0 in every pixel (w, h) with w + 2 < width and
h + 2 < height. -/
theorem C22_round_trip_of_uniform_images (W H : Nat) :
    roundTrip (List.replicate (W * H) 1) W H = some (List.replicate (W * H) (-1)) ∧
    ∃ out, roundTrip (List.replicate (W * H) 0) W H = some out ∧ out.length = W * H ∧
      ∀ w h, w + 2 < W → h + 2 < H → out[w + h * W]? = some 0 := by
  constructor
  · obtain ⟨small, hs, _, _⟩ := scaleDown_const W H 1 (Or.inr rfl)
    unfold roundTrip
    rw [hs]
    exact scaleUp_ones W H small _
  · obtain ⟨small, hs, hl, hfull⟩ := scaleDown_const W H 0 (Or.inl rfl)
    unfold roundTrip
    rw [hs]
    exact scaleUp_zeros W H small hl (hfull rfl)

theorem C22_witness :
    ∃ out, roundTrip (List.replicate (3 * 3) 0) (3 : Nat) (3 : Nat) = some out ∧
      out[0 + 0 * 3]? = some 0 := by
  obtain ⟨out, h1, _, h3⟩ := (C22_round_trip_of_uniform_images 3 3).2
  exact ⟨out, h1, h3 0 0 (by decide) (by decide)⟩

end ShapeFill


/-! ## C24: the order of the reconstruction; C25: the ids of new segments -/

open TopologicalSorting

namespace Depth

theorem fresh4_reachable : Reachable fresh4 := by
  unfold fresh4
  exact Reachable.reset _ 4 0 (by omega) (by omega)

set_option maxRecDepth 1000000 in
theorem fresh4_addEdge :
    addEdge fresh4 exampleMap 1 2 exampleCoords 0 = some (true, afterEdge4) := by
  decide!

set_option maxRecDepth 1000000 in
theorem afterEdge4_depths : computeDepths afterEdge4 = some layered4 := by
  decide!

set_option maxRecDepth 1000000 in
theorem layered4_facts :
    layered4.order = [0, 1, 2, 3] ∧ [0, 1, 2, 3].map (depthOf layered4.nodes) = [0, 0, 1, 0] := by
  decide!

theorem layered4_reachable : Reachable layered4 := by
  have h1 : (1 : Nat) < 256 := by omega
  have h2 : (2 : Nat) < 256 := by omega
  have h : Reachable (true, afterEdge4).2 :=
    Reachable.addEdge exampleMap 1 2 exampleCoords 0 (true, afterEdge4)
      fresh4_reachable h1 h2 fresh4_addEdge
  exact Reachable.computeDepths h afterEdge4_depths

/-- C24, as stated, fails: after `reset` with four hard segments, `addEdge(1, 2)`
and `computeDepths()`, the list `order` is 0, 1, 2, 3 with the depths 0, 0, 1,
0: the depth falls from the segment 2 to the segment 3, and the last element
of `order` has not the largest depth. -/
theorem C24_counterexample :
    Reachable layered4 ∧ computeDepths afterEdge4 = some layered4 ∧
    layered4.order = [0, 1, 2, 3] ∧
    layered4.order.map (depthOf layered4.nodes) = [0, 0, 1, 0] ∧
    ¬ (layered4.order.map (depthOf layered4.nodes)).Sorted (· ≤ ·) ∧
    ¬ (∀ v ∈ layered4.order, ∀ l, layered4.order.getLast? = some l →
      depthOf layered4.nodes v ≤ depthOf layered4.nodes l) := by
  have hf := layered4_facts
  have hm : layered4.order.map (depthOf layered4.nodes) = [0, 0, 1, 0] := by
    rw [hf.1]
    exact hf.2
  refine ⟨layered4_reachable, afterEdge4_depths, hf.1, hm, ?_, ?_⟩
  · rw [hm]
    decide
  · intro hall
    have h2 := hf.2
    simp only [List.map_cons, List.map_nil, List.cons.injEq, and_true] at h2
    have := hall 2 (by rw [hf.1]; simp) 3 (by rw [hf.1]; rfl)
    omega

/-- C24, amended: in every state reached from `reset` by calls of `addEdge` and
`computeDepths`, `computeDepths()` runs through, keeps the list `order`, and
for every stored edge from u to v the segment u comes in front of v in
`order` and depth(u) + 1 <= depth(v). -/
theorem C24_order_is_topological (d : Depth) (h : Reachable d) :
    ∃ d1, computeDepths d = some d1 ∧ d1.order = d.order ∧
      ∀ u v, HasEdge d1.nodes u v →
        Before d1.order u v ∧ depthOf d1.nodes u + 1 ≤ depthOf d1.nodes v := by
  obtain ⟨nodes1, hrun, hd1, hdo, hstep, _⟩ := computeDepths_spec h.dinv
  refine ⟨_, hrun, rfl, ?_⟩
  intro u v huv
  refine ⟨hd1.orderTopo u v huv, ?_⟩
  have hedge : HasEdge nodes1 = HasEdge d.nodes := hdo.doHasEdgeEq
  have huv2 : HasEdge nodes1 u v := huv
  rw [hedge] at huv2
  exact hstep u v huv2

theorem C24_witness :
    ∃ d1, computeDepths afterOneEdge = some d1 ∧ d1.order = afterOneEdge.order ∧
      ∀ u v, HasEdge d1.nodes u v →
        Before d1.order u v ∧ depthOf d1.nodes u + 1 ≤ depthOf d1.nodes v :=
  C24_order_is_topological afterOneEdge afterOneEdge_reachable

end Depth

namespace ColorMap

theorem Built.shape {c : ColorMap} (h : Built c) :
    1 ≤ c.count 0 ∧ 0 ≤ c.count 1 ∧ c._colors.length = 256 := by
  induction h with
  | new width height =>
    refine ⟨by show (1 : Int) ≤ 1; omega, by show (0 : Int) ≤ 0; omega, ?_⟩
    show ((List.replicate 256 (⟨0, 0, 0⟩ : RGB)).set 0 ⟨1, 1, 1⟩).length = 256
    rw [List.length_set, List.length_replicate]
  | newSegment color flags _ ih =>
    rw [newSegment_count _ _ _ 0 (by omega), newSegment_count _ _ _ 1 (by omega)]
    refine ⟨by split_ifs <;> omega, by split_ifs <;> omega, ?_⟩
    unfold ColorMap.newSegment
    dsimp only
    split_ifs
    · exact ih.2.2
    · show (List.set _ _ _).length = 256
      rw [List.length_set]
      exact ih.2.2
  | reset hb ih =>
    refine ⟨by show (1 : Int) ≤ 1; omega, by show (0 : Int) ≤ 0; omega, ?_⟩
    have h3 := ih.2.2
    show (match _ with
      | [] => []
      | c0 :: rest => c0 :: rest.map fun _ => (⟨0, 0, 0⟩ : RGB)).length = 256
    split
    · rename_i he
      rw [he] at h3
      cases h3
    · rename_i c0 rest he
      rw [he] at h3
      simp only [List.length_cons, List.length_map] at h3 ⊢
      exact h3

/-- What a successful call of `newSegment` does, by the model. -/
theorem newSegment_true (c : ColorMap) (color : RGB) (flags : Nat)
    (hs : (c.newSegment color flags).1 = true) :
    c.count (flags % 2) < 128 ∧
    (c.newSegment color flags).2 =
      setCount { c with
        _active := ((128 * ((flags % 2 : Nat) : Int) + c.count (flags % 2)) % 256).toNat
        _colors := c._colors.set
          ((128 * ((flags % 2 : Nat) : Int) + c.count (flags % 2)) % 256).toNat color }
        (flags % 2) (c.count (flags % 2) + 1) := by
  have hlt : c.count (flags % 2) < 128 := by
    by_contra hge
    have := (newSegment_false c color flags).2 (by omega)
    rw [this] at hs
    cases hs
  refine ⟨hlt, ?_⟩
  unfold newSegment
  simp only [land_type, COLOR_MAX_COUNT]
  rw [if_neg (by omega)]

end ColorMap


/-! ## C25: the ids of new segments -/

namespace ColorMap

theorem newSegment_facts (c : ColorMap) (h : Built c) (color : RGB) (flags : Nat)
    (hs : (c.newSegment color flags).1 = true) :
    ((c.newSegment color flags).2._active : Int)
      = 128 * ((flags % 2 : Nat) : Int) + c.count (flags % 2) ∧
    (c.newSegment color flags).2.count (flags % 2) = c.count (flags % 2) + 1 ∧
    (c.newSegment color flags).2.count (1 - flags % 2) = c.count (1 - flags % 2) ∧
    (c.newSegment color flags).2._colors[(c.newSegment color flags).2._active]? = some color ∧
    (c.newSegment color flags).2._data = c._data ∧
    (flags % 2 = 0 → 1 ≤ (c.newSegment color flags).2._active ∧
      (c.newSegment color flags).2._active ≤ 127) ∧
    (flags % 2 = 1 → 128 ≤ (c.newSegment color flags).2._active ∧
      (c.newSegment color flags).2._active ≤ 255) := by
  obtain ⟨hlt, heq⟩ := newSegment_true c color flags hs
  obtain ⟨l0, l1, hlen⟩ := h.shape
  have hcnt : 0 ≤ c.count (flags % 2) ∧ (flags % 2 = 0 → 1 ≤ c.count (flags % 2)) := by
    rcases Nat.mod_two_eq_zero_or_one flags with h0 | h0 <;> rw [h0]
    · exact ⟨by omega, fun _ => l0⟩
    · exact ⟨l1, fun h => by omega⟩
  have hact : (c.newSegment color flags).2._active
      = ((128 * ((flags % 2 : Nat) : Int) + c.count (flags % 2)) % 256).toNat := by
    rw [heq]
    rfl
  have hcol : (c.newSegment color flags).2._colors = c._colors.set
      ((128 * ((flags % 2 : Nat) : Int) + c.count (flags % 2)) % 256).toNat color := by
    rw [heq]
    rfl
  have hdat : (c.newSegment color flags).2._data = c._data := by
    rw [heq]
    rfl
  have hm : flags % 2 < 2 := Nat.mod_lt _ (by norm_num)
  have hmod : (128 * ((flags % 2 : Nat) : Int) + c.count (flags % 2)) % 256
      = 128 * ((flags % 2 : Nat) : Int) + c.count (flags % 2) := by
    apply Int.emod_eq_of_lt <;> omega
  have c1 := newSegment_count c color flags (flags % 2) (by omega)
  have c2 := newSegment_count c color flags (1 - flags % 2) (by omega)
  rw [if_pos ⟨rfl, hlt⟩] at c1
  rw [if_neg (by omega)] at c2
  refine ⟨?_, c1, c2, ?_, hdat, ?_, ?_⟩
  · rw [hact, hmod]
    omega
  · rw [hcol, hact]
    apply List.getElem?_set_self
    rw [hlen, hmod]
    omega
  · intro h0
    have := hcnt.2 h0
    rw [hact, hmod]
    omega
  · intro h1
    rw [hact, hmod]
    omega

theorem newIds_consecutive (t : Nat) (ht : t ≤ 1) (calls : List (RGB × Nat)) :
    ∀ c, Built c → ∀ k (hk : k < (newIds t c calls).length),
      (newIds t c calls)[k] = (128 * (t : Int) + c.count t).toNat + k := by
  induction calls with
  | nil =>
    intro c _ k hk
    simp [newIds] at hk
  | cons call rest ih =>
    intro c hb k hk
    have hb1 : Built (c.newSegment call.1 call.2).2 := Built.newSegment call.1 call.2 hb
    have hl : Nat.land call.2 1 = call.2 % 2 := Nat.and_one_is_mod call.2
    obtain ⟨l0, l1, _⟩ := hb.shape
    have hcount0 : 0 ≤ c.count t := by
      have : t = 0 ∨ t = 1 := by omega
      rcases this with rfl | rfl
      · omega
      · exact l1
    by_cases hc : (c.newSegment call.1 call.2).1 = true ∧ Nat.land call.2 1 = t
    · obtain ⟨hs, hty⟩ := hc
      rw [hl] at hty
      obtain ⟨f1, f2, _⟩ := newSegment_facts c hb call.1 call.2 hs
      rw [hty] at f1 f2
      have he : newIds t c (call :: rest) = (c.newSegment call.1 call.2).2._active
          :: newIds t (c.newSegment call.1 call.2).2 rest := by
        rw [newIds, if_pos ⟨hs, by rw [hl]; exact hty⟩]
      simp only [he] at hk ⊢
      cases k with
      | zero =>
        simp only [List.getElem_cons_zero]
        omega
      | succ k =>
        simp only [List.getElem_cons_succ]
        rw [ih _ hb1 k (by simpa using hk), f2]
        omega
    · have he : newIds t c (call :: rest) = newIds t (c.newSegment call.1 call.2).2 rest := by
        rw [newIds, if_neg hc]
      simp only [he] at hk ⊢
      rw [ih _ hb1 k hk]
      have hsame : (c.newSegment call.1 call.2).2.count t = c.count t := by
        rw [newSegment_count c call.1 call.2 t ht]
        by_cases hs : (c.newSegment call.1 call.2).1 = true
        · have hty : ¬ call.2 % 2 = t := fun h => hc ⟨hs, by rw [hl]; exact h⟩
          rw [if_neg (fun h => hty h.1.symm)]
        · have hf : (c.newSegment call.1 call.2).1 = false := by
            cases hv : (c.newSegment call.1 call.2).1
            · rfl
            · exact absurd hv hs
          have := (newSegment_false c call.1 call.2).1 hf
          rw [if_neg]
          rintro ⟨rfl, h2⟩
          omega
      rw [hsame]

/-- C25: on an object obtained from the constructor by calls of `newSegment`
and `reset`, a successful call `newSegment(color, flags)` sets the active id to
128 * type + the count of the type (type = flags & 1), adds one to the count
of the type and leaves the other count, stores the colour in the palette at
the id, and the id lies in 1..127 for a hard segment and in 128..255 for a
soft one, so it is never 0; the call is successful whenever the count of the
type is below 128; and in every sequence of calls the ids given to one type
are consecutive (the k-th is 128 * type + count + k) and pairwise distinct. -/
theorem C25_newSegment_assigns_fresh_ids (c : ColorMap) (h : Built c) (color : RGB)
    (flags : Nat) (calls : List (RGB × Nat)) (t : Nat) (ht : t ≤ 1) :
    ((c.newSegment color flags).1 = true →
      ((c.newSegment color flags).2._active : Int)
        = 128 * ((Nat.land flags 1 : Nat) : Int) + c.count (Nat.land flags 1) ∧
      (c.newSegment color flags).2.count (Nat.land flags 1) = c.count (Nat.land flags 1) + 1 ∧
      (c.newSegment color flags).2.count (1 - Nat.land flags 1)
        = c.count (1 - Nat.land flags 1) ∧
      (c.newSegment color flags).2._colors[(c.newSegment color flags).2._active]?
        = some color ∧
      (Nat.land flags 1 = 0 → 1 ≤ (c.newSegment color flags).2._active ∧
        (c.newSegment color flags).2._active ≤ 127) ∧
      (Nat.land flags 1 = 1 → 128 ≤ (c.newSegment color flags).2._active ∧
        (c.newSegment color flags).2._active ≤ 255) ∧
      (c.newSegment color flags).2._active ≠ 0) ∧
    (c.count (Nat.land flags 1) < 128 → (c.newSegment color flags).1 = true) ∧
    (∀ k (hk : k < (newIds t c calls).length),
      (newIds t c calls)[k] = (128 * (t : Int) + c.count t).toNat + k) ∧
    (newIds t c calls).Nodup := by
  have hl : Nat.land flags 1 = flags % 2 := Nat.and_one_is_mod flags
  have hcons := newIds_consecutive t ht calls c h
  refine ⟨?_, ?_, hcons, ?_⟩
  · intro hs
    obtain ⟨f1, f2, f3, f4, _, f6, f7⟩ := newSegment_facts c h color flags hs
    rw [hl]
    refine ⟨f1, f2, f3, f4, f6, f7, ?_⟩
    rcases Nat.mod_two_eq_zero_or_one flags with h0 | h0
    · have := (f6 h0).1
      omega
    · have := (f7 h0).1
      omega
  · intro hlt
    rw [hl] at hlt
    cases hv : (c.newSegment color flags).1
    · have := (newSegment_false c color flags).1 hv
      omega
    · rfl
  · rw [List.nodup_iff_injective_get]
    intro a b hab
    have ha := hcons a.1 a.2
    have hb := hcons b.1 b.2
    simp only [List.get_eq_getElem] at hab
    rw [ha, hb] at hab
    exact Fin.ext (by omega)

set_option maxRecDepth 1000000 in
theorem newIds_three :
    newIds 0 (ColorMap.new 2 2) [(⟨1, 0, 0⟩, 0), (⟨0, 1, 0⟩, 1), (⟨0, 0, 1⟩, 0)] = [1, 2] ∧
      (ColorMap.new 2 2).count 1 = 0 := by
  decide!

theorem C25_witness :
    ((ColorMap.new 2 2).newSegment ⟨1, 0, 0⟩ 1).1 = true ∧
    ((ColorMap.new 2 2).newSegment ⟨1, 0, 0⟩ 1).2._active = 128 ∧
    ((ColorMap.new 2 2).newSegment ⟨1, 0, 0⟩ 1).2.count 1 = 1 ∧
    ((ColorMap.new 2 2).newSegment ⟨1, 0, 0⟩ 1).2.count 0 = (ColorMap.new 2 2).count 0 ∧
    ((ColorMap.new 2 2).newSegment ⟨1, 0, 0⟩ 1).2._colors[128]? = some ⟨1, 0, 0⟩ ∧
    newIds 0 (ColorMap.new 2 2) [(⟨1, 0, 0⟩, 0), (⟨0, 1, 0⟩, 1), (⟨0, 0, 1⟩, 0)] = [1, 2] ∧
    (newIds 0 (ColorMap.new 2 2) [(⟨1, 0, 0⟩, 0), (⟨0, 1, 0⟩, 1), (⟨0, 0, 1⟩, 0)]).Nodup := by
  obtain ⟨h1, h2, _, h4⟩ := C25_newSegment_assigns_fresh_ids (ColorMap.new 2 2)
    (Built.new 2 2) ⟨1, 0, 0⟩ 1 [(⟨1, 0, 0⟩, 0), (⟨0, 1, 0⟩, 1), (⟨0, 0, 1⟩, 0)] 0 (by decide)
  have hl : Nat.land 1 1 = 1 := by decide
  have hc : (ColorMap.new 2 2).count 1 = 0 := newIds_three.2
  rw [hl, hc] at h1 h2
  have hs := h2 (by norm_num)
  obtain ⟨a1, a2, a3, a4, _⟩ := h1 hs
  have ha : ((ColorMap.new 2 2).newSegment ⟨1, 0, 0⟩ 1).2._active = 128 := by
    have : ((((ColorMap.new 2 2).newSegment ⟨1, 0, 0⟩ 1).2._active : Nat) : Int) = 128 := by
      rw [a1]
      norm_num
    exact_mod_cast this
  rw [ha] at a4
  exact ⟨hs, ha, by rw [a2]; norm_num, a3, a4, newIds_three.1, h4⟩

end ColorMap


/-! ## C26: counters, marks and starting nodes between the calls -/

open TopologicalSorting

namespace Depth

/-- What `computationReset` makes of a state that the sorting function has
left behind. -/
theorem reset_after_kahn (nodes : List (Option Node)) (S : List Nat) (d0 : Depth)
    (hlen : nodes.length = 256) (hk : KInv nodes S []) :
    ∃ nodes1 sorted1, topologicalSort_Kahn nodes S [] =
        some (allUsed nodes1, nodes1, [], sorted1) ∧
      ∃ nodes2 S2, computationReset { d0 with nodes := nodes1, startingNodes := [] } =
          some { d0 with nodes := nodes2, startingNodes := S2 } ∧
        KahnPre nodes2 S2 ∧ SameGraph nodes2 nodes := by
  obtain ⟨nodes1, sorted1, hrun, _, hsame, _⟩ := kahn_run_inv hk
  refine ⟨nodes1, sorted1, hrun, ?_⟩
  obtain ⟨nodes2, S2, hres, hset, hS2, hroots⟩ := settle d0 [] hlen hsame hk.targets
    List.sorted_nil (fun v hv => by cases hv)
  exact ⟨nodes2, S2, hres, hset.kahnPre hk.targets hS2 hroots, hset.sameGraph⟩

/-- C26: in every state reached from the constructor or `reset` by calls of
`addEdge` (and `computeDepths`), the counter `incomingEdges` of every present
node is the number of the edges that point to it, its flag `edgesUsed` is
false, and `startingNodes` holds exactly the present nodes without incoming
edge; and when the sorting function has run on a container of 256 slots whose
counters hold the in-degrees, with no node marked and with starting nodes that
have no incoming edge, `computationReset` makes the three facts hold again
on the same graph. -/
theorem C26_counters_marks_and_roots (d : Depth) (h : Reachable d)
    (nodes : List (Option Node)) (S : List Nat) (d0 : Depth) :
    (∀ v n, nodeAt d.nodes v = some n →
      n.incomingEdges = (inDegree d.nodes v : Int) ∧ n.edgesUsed = false) ∧
    d.startingNodes.Sorted (· < ·) ∧
    (∀ v, v ∈ d.startingNodes ↔ (nodeAt d.nodes v).isSome = true ∧ inDegree d.nodes v = 0) ∧
    (nodes.length = 256 → KInv nodes S [] →
      ∃ nodes1 sorted1, topologicalSort_Kahn nodes S [] =
          some (allUsed nodes1, nodes1, [], sorted1) ∧
        ∃ nodes2 S2, computationReset { d0 with nodes := nodes1, startingNodes := [] } =
            some { d0 with nodes := nodes2, startingNodes := S2 } ∧
          (∀ v n, nodeAt nodes2 v = some n →
            n.incomingEdges = (inDegree nodes2 v : Int) ∧ n.edgesUsed = false) ∧
          S2.Sorted (· < ·) ∧
          (∀ v, v ∈ S2 ↔ (nodeAt nodes2 v).isSome = true ∧ inDegree nodes2 v = 0) ∧
          SameGraph nodes2 nodes) := by
  have hd := h.dinv
  refine ⟨hd.pre.counters, hd.pre.isSet, hd.pre.roots, ?_⟩
  intro hlen hk
  obtain ⟨nodes1, sorted1, hrun, nodes2, S2, hres, hpre, hsame⟩ :=
    reset_after_kahn nodes S d0 hlen hk
  exact ⟨nodes1, sorted1, hrun, nodes2, S2, hres, hpre.counters, hpre.isSet, hpre.roots, hsame⟩

theorem C26_witness :
    (∀ v n, nodeAt afterOneEdge.nodes v = some n →
      n.incomingEdges = (inDegree afterOneEdge.nodes v : Int) ∧ n.edgesUsed = false) ∧
    afterOneEdge.startingNodes.Sorted (· < ·) ∧
    (∀ v, v ∈ afterOneEdge.startingNodes ↔
      (nodeAt afterOneEdge.nodes v).isSome = true ∧ inDegree afterOneEdge.nodes v = 0) ∧
    ∃ nodes1 sorted1, topologicalSort_Kahn afterOneEdge.nodes afterOneEdge.startingNodes [] =
        some (allUsed nodes1, nodes1, [], sorted1) ∧
      ∃ nodes2 S2, computationReset { fresh3 with nodes := nodes1, startingNodes := [] } =
          some { fresh3 with nodes := nodes2, startingNodes := S2 } ∧
        (∀ v n, nodeAt nodes2 v = some n →
          n.incomingEdges = (inDegree nodes2 v : Int) ∧ n.edgesUsed = false) ∧
        S2.Sorted (· < ·) ∧
        (∀ v, v ∈ S2 ↔ (nodeAt nodes2 v).isSome = true ∧ inDegree nodes2 v = 0) ∧
        SameGraph nodes2 afterOneEdge.nodes := by
  have h := C26_counters_marks_and_roots afterOneEdge afterOneEdge_reachable
    afterOneEdge.nodes afterOneEdge.startingNodes fresh3
  exact ⟨h.1, h.2.1, h.2.2.1,
    h.2.2.2 afterOneEdge_reachable.dinv.size afterOneEdge_reachable.dinv.pre.kinv.1⟩

end Depth


/-! ## C27: the sorting function takes the smallest starting node -/

namespace TopologicalSorting

end TopologicalSorting


/-! ## C27 -/

namespace TopologicalSorting

/-- The list that the sort of `threeNodes` returns. -/
theorem threeNodes_sorted :
    (topologicalSort_Kahn threeNodes [1, 2] []).map (fun r => (r.1, r.2.2.2)) =
      some (true, [1, 2, 0]) := by
  decide

end TopologicalSorting


/-! ## Induction over the loops of `areaTo1Scribble` -/

namespace ColorSegments

theorem adj_swap {p q : Coords} (h : Adj p q) : Adj q p := by
  unfold Adj at h ⊢
  omega

theorem Conn.trans {M : Coords → Prop} {s p q : Coords} (h1 : Conn M s p) (h2 : Conn M p q) :
    Conn M s q := by
  induction h2 with
  | base _ => exact h1
  | step _ hq hadj ih => exact Conn.step ih hq hadj

theorem Conn.symm {M : Coords → Prop} {s p : Coords} (h : Conn M s p) : Conn M p s := by
  induction h with
  | base hs => exact Conn.base hs
  | step c hq hadj ih =>
    exact Conn.trans (Conn.step (Conn.base hq) c.mem (adj_swap hadj)) ih

theorem Conn.root {M : Coords → Prop} {s p : Coords} (h : Conn M s p) : M s := by
  induction h with
  | base hs => exact hs
  | step _ _ _ ih => exact ih

/-- Two descriptions of a set give the same components. -/
theorem Conn.congr {M N : Coords → Prop} (h : ∀ q, M q ↔ N q) {s p : Coords} :
    Conn M s p ↔ Conn N s p :=
  ⟨Conn.monoM fun q => (h q).1, Conn.monoM fun q => (h q).2⟩

/-- The ids of a component do not depend on the pixel that names it. -/
theorem idOf_root (W : Nat) (scr : List Int) (minId : Nat) {M : Coords → Prop} {s t : Coords}
    (h : Conn M s t) (i : Int) : IdOf W scr minId M s i ↔ IdOf W scr minId M t i := by
  constructor
  · rintro ⟨h1, p, hp, hi⟩
    exact ⟨h1, p, Conn.trans h.symm hp, hi⟩
  · rintro ⟨h1, p, hp, hi⟩
    exact ⟨h1, p, Conn.trans h hp, hi⟩

/-- The ids of a component do not depend on the description of the set, when
the components agree. -/
theorem idOf_congr (W : Nat) (scr : List Int) (minId : Nat) {M N : Coords → Prop} {s : Coords}
    (h : ∀ p, Conn M s p ↔ Conn N s p) (i : Int) :
    IdOf W scr minId M s i ↔ IdOf W scr minId N s i := by
  constructor
  · rintro ⟨h1, p, hp, hi⟩
    exact ⟨h1, p, (h p).1 hp, hi⟩
  · rintro ⟨h1, p, hp, hi⟩
    exact ⟨h1, p, (h p).2 hp, hi⟩

/-- Induction over the first loop of `areaTo1Scribble`. -/
theorem search_ind (scr : List Int) (cw : Int) (lo hi : Coords) (minId : Nat)
    (J : List Coords → Area → Prop)
    (hskip : ∀ xy rest a v, J (xy :: rest) a → at? a.tmp (tidx lo hi xy) = some v → v ≠ -1 →
      J rest a)
    (hvisit : ∀ xy rest a sv, J (xy :: rest) a → at? a.tmp (tidx lo hi xy) = some (-1) →
      at? scr (midx cw xy) = some sv →
      J (pushNeighbours lo hi xy rest)
        (noteScribble minId sv
          { a with
            tmp := a.tmp.set (tidx lo hi xy).toNat (-2)
            newMin := ⟨Min.min a.newMin.x xy.x, Min.min a.newMin.y xy.y⟩
            newMax := ⟨Max.max a.newMax.x xy.x, Max.max a.newMax.y xy.y⟩ }))
    (fuel : Nat) :
    ∀ (coords : List Coords) (a a1 : Area), J coords a →
      search scr cw lo hi minId fuel coords a = some a1 → J [] a1 := by
  induction fuel with
  | zero =>
    intro coords a a1 hj hrun
    cases coords with
    | nil =>
      simp only [search, Option.some.injEq] at hrun
      rw [← hrun]
      exact hj
    | cons xy rest => simp [search] at hrun
  | succ fuel ih =>
    intro coords a a1 hj hrun
    cases coords with
    | nil =>
      simp only [search, Option.some.injEq] at hrun
      rw [← hrun]
      exact hj
    | cons xy rest =>
      unfold search at hrun
      cases hv : at? a.tmp (tidx lo hi xy) with
      | none =>
        rw [hv] at hrun
        cases hrun
      | some v =>
        rw [hv] at hrun
        simp only at hrun
        by_cases hv1 : v = -1
        · rw [if_pos hv1] at hrun
          subst hv1
          cases hs : at? scr (midx cw xy) with
          | none =>
            rw [hs] at hrun
            cases hrun
          | some sv =>
            rw [hs] at hrun
            exact ih _ _ _ (hvisit xy rest a sv hj hv hs) hrun
        · rw [if_neg hv1] at hrun
          exact ih _ _ _ (hskip xy rest a v hj hv hv1) hrun

/-- Induction over the second loop of `areaTo1Scribble`. -/
theorem fill_ind (cw : Int) (lo hi newMin newMax : Coords) (found : Int)
    (J : List Coords → List Int → List Int → Prop)
    (hskip : ∀ xy rest tmp data v, J (xy :: rest) tmp data →
      at? tmp (tidx lo hi xy) = some v → v ≠ -2 → J rest tmp data)
    (hvisit : ∀ xy rest tmp data v, J (xy :: rest) tmp data →
      at? tmp (tidx lo hi xy) = some (-2) → at? data (midx cw xy) = some v →
      J (pushNeighbours newMin newMax xy rest) (tmp.set (tidx lo hi xy).toNat (-3))
        (data.set (midx cw xy).toNat found))
    (fuel : Nat) :
    ∀ (coords : List Coords) (tmp data : List Int) (r : List Int × List Int),
      J coords tmp data →
      fill cw lo hi newMin newMax found fuel coords tmp data = some r → J [] r.1 r.2 := by
  induction fuel with
  | zero =>
    intro coords tmp data r hj hrun
    cases coords with
    | nil =>
      simp only [fill, Option.some.injEq] at hrun
      rw [← hrun]
      exact hj
    | cons xy rest => simp [fill] at hrun
  | succ fuel ih =>
    intro coords tmp data r hj hrun
    cases coords with
    | nil =>
      simp only [fill, Option.some.injEq] at hrun
      rw [← hrun]
      exact hj
    | cons xy rest =>
      unfold fill at hrun
      cases hv : at? tmp (tidx lo hi xy) with
      | none =>
        rw [hv] at hrun
        cases hrun
      | some v =>
        rw [hv] at hrun
        simp only at hrun
        by_cases hv1 : v = -2
        · rw [if_pos hv1] at hrun
          subst hv1
          cases hs : at? data (midx cw xy) with
          | none =>
            rw [hs] at hrun
            cases hrun
          | some sv =>
            rw [hs] at hrun
            exact ih _ _ _ _ (hvisit xy rest tmp data sv hj hv hs) hrun
        · rw [if_neg hv1] at hrun
          exact ih _ _ _ _ (hskip xy rest tmp data v hj hv hv1) hrun

/-- A value that is read in the window is the value of the pixel. -/
theorem tmpAt_of_read {lo hi : Coords} {tmp : List Int} {p : Coords} {v : Int}
    (h : at? tmp (tidx lo hi p) = some v) : tmpAt lo hi tmp p = v := by
  unfold tmpAt
  rw [h]
  rfl

theorem maskAt_of_read {cw : Int} {data : List Int} {p : Coords} {v : Int}
    (h : at? data (midx cw p) = some v) : maskAt cw data p = v := by
  unfold maskAt
  rw [h]
  rfl

end ColorSegments


/-! ## The first loop of `areaTo1Scribble`: the ids that it meets -/

namespace ColorSegments

/-- The ids that `noteScribble` records for the pixel `xy`, the set `Mk` of
marked pixels growing by `xy`. -/
theorem noteScribble_ids (W : Nat) (scr : List Int) (minId : Nat) (rem0 : List Int)
    (Mk Mk1 : Coords → Prop) (xy : Coords) (a : Area)
    (hmk : ∀ p, Mk1 p ↔ Mk p ∨ p = xy)
    (hfound : a.foundScribble = minId ∨
      ((minId : Int) < a.foundScribble ∧ ∃ p, Mk p ∧ maskAt W scr p = a.foundScribble))
    (hids : ∀ p, Mk p → (minId : Int) < maskAt W scr p →
      maskAt W scr p = a.foundScribble ∨
        (a.twoScribblesFound = true ∧ maskAt W scr p ∈ a.remaining))
    (htwo : a.twoScribblesFound = true →
      (minId : Int) < a.foundScribble ∧
        ∃ p, Mk p ∧ (minId : Int) < maskAt W scr p ∧ maskAt W scr p ≠ a.foundScribble)
    (hkeep : ∀ r ∈ rem0, r ∈ a.remaining) :
    ((noteScribble minId (maskAt W scr xy) a).foundScribble = minId ∨
      ((minId : Int) < (noteScribble minId (maskAt W scr xy) a).foundScribble ∧
        ∃ p, Mk1 p ∧ maskAt W scr p = (noteScribble minId (maskAt W scr xy) a).foundScribble)) ∧
    (∀ p, Mk1 p → (minId : Int) < maskAt W scr p →
      maskAt W scr p = (noteScribble minId (maskAt W scr xy) a).foundScribble ∨
        ((noteScribble minId (maskAt W scr xy) a).twoScribblesFound = true ∧
          maskAt W scr p ∈ (noteScribble minId (maskAt W scr xy) a).remaining)) ∧
    ((noteScribble minId (maskAt W scr xy) a).twoScribblesFound = true →
      (minId : Int) < (noteScribble minId (maskAt W scr xy) a).foundScribble ∧
        ∃ p, Mk1 p ∧ (minId : Int) < maskAt W scr p ∧
          maskAt W scr p ≠ (noteScribble minId (maskAt W scr xy) a).foundScribble) ∧
    ∀ r ∈ rem0, r ∈ (noteScribble minId (maskAt W scr xy) a).remaining := by
  have hxy : Mk1 xy := (hmk xy).2 (Or.inr rfl)
  have hmono : ∀ p, Mk p → Mk1 p := fun p hp => (hmk p).2 (Or.inl hp)
  unfold noteScribble
  split_ifs with h1 h2 h3
  · -- the first id of the area
    have hno : a.twoScribblesFound = false := by
      cases ht : a.twoScribblesFound with
      | false => rfl
      | true =>
        have := (htwo ht).1
        omega
    refine ⟨Or.inr ⟨h1, xy, hxy, rfl⟩, ?_, ?_, hkeep⟩
    · intro p hp hlt
      rcases (hmk p).1 hp with hp | hp
      · rcases hids p hp hlt with h | h
        · rw [h2] at h
          omega
        · rw [hno] at h
          cases h.1
      · left
        rw [hp]
    · intro ht
      have ht2 : a.twoScribblesFound = true := ht
      rw [hno] at ht2
      cases ht2
  · -- a second id
    have hf : (minId : Int) < a.foundScribble ∧
        ∃ p, Mk p ∧ maskAt W scr p = a.foundScribble := by
      rcases hfound with h | h
      · exact absurd h h2
      · exact h
    refine ⟨Or.inr ⟨hf.1, ?_⟩, ?_, ?_, ?_⟩
    · obtain ⟨p, hp, he⟩ := hf.2
      exact ⟨p, hmono p hp, he⟩
    · intro p hp hlt
      rcases (hmk p).1 hp with hp | hp
      · rcases hids p hp hlt with h | h
        · exact Or.inl h
        · exact Or.inr ⟨rfl, (mem_shortInsert _ _ _).2 (Or.inr h.2)⟩
      · right
        rw [hp]
        exact ⟨rfl, (mem_shortInsert _ _ _).2 (Or.inl rfl)⟩
    · intro _
      exact ⟨hf.1, xy, hxy, h1, h3⟩
    · intro r hr
      exact (mem_shortInsert _ _ _).2 (Or.inr (hkeep r hr))
  · -- the id that is known
    have h3 : maskAt W scr xy = a.foundScribble := by
      by_contra h
      exact h3 h
    refine ⟨?_, ?_, ?_, hkeep⟩
    · rcases hfound with h | h
      · exact Or.inl h
      · obtain ⟨p, hp, he⟩ := h.2
        exact Or.inr ⟨h.1, p, hmono p hp, he⟩
    · intro p hp hlt
      rcases (hmk p).1 hp with hp | hp
      · exact hids p hp hlt
      · left
        rw [hp]
        exact h3
    · intro ht
      obtain ⟨h4, p, hp, h5⟩ := htwo ht
      exact ⟨h4, p, hmono p hp, h5⟩
  · -- no id
    refine ⟨?_, ?_, ?_, hkeep⟩
    · rcases hfound with h | h
      · exact Or.inl h
      · obtain ⟨p, hp, he⟩ := h.2
        exact Or.inr ⟨h.1, p, hmono p hp, he⟩
    · intro p hp hlt
      rcases (hmk p).1 hp with hp | hp
      · exact hids p hp hlt
      · rw [hp] at hlt
        exact absurd hlt h1
    · intro ht
      obtain ⟨h4, p, hp, h5⟩ := htwo ht
      exact ⟨h4, p, hmono p hp, h5⟩

/-- A neighbour inside the working area is pushed. -/
theorem adj_mem_pushNeighbours (lo hi xy q : Coords) (rest : List Coords) (hq : InBox lo hi q)
    (hadj : Adj xy q) : q ∈ pushNeighbours lo hi xy rest := by
  rw [mem_pushNeighbours]
  right
  obtain ⟨qx, qy⟩ := q
  obtain ⟨q1, q2, q3, q4⟩ := hq
  unfold Adj at hadj
  simp only at hadj q1 q2 q3 q4
  simp only [Coords.mk.injEq]
  omega

/-- A pixel that is pushed is a neighbour inside the area of the bounds. -/
theorem pushNeighbours_adj (lo hi xy q : Coords) (rest : List Coords)
    (hq : q ∈ pushNeighbours lo hi xy rest) (hxy : InBox lo hi xy) :
    q ∈ rest ∨ (InBox lo hi q ∧ Adj xy q) := by
  obtain ⟨x1, x2, x3, x4⟩ := hxy
  rcases (mem_pushNeighbours lo hi xy rest q).1 hq with h | h | h | h | h
  · exact Or.inl h
  · obtain ⟨h1, rfl⟩ := h
    exact Or.inr ⟨⟨by simp only; omega, by simp only; omega, x3, x4⟩, Or.inl ⟨rfl, rfl⟩⟩
  · obtain ⟨h1, rfl⟩ := h
    exact Or.inr ⟨⟨by simp only; omega, by simp only; omega, x3, x4⟩,
      Or.inr (Or.inl ⟨rfl, rfl⟩)⟩
  · obtain ⟨h1, rfl⟩ := h
    exact Or.inr ⟨⟨x1, x2, by simp only; omega, by simp only; omega⟩,
      Or.inr (Or.inr (Or.inl ⟨rfl, rfl⟩))⟩
  · obtain ⟨h1, rfl⟩ := h
    exact Or.inr ⟨⟨x1, x2, by simp only; omega, by simp only; omega⟩,
      Or.inr (Or.inr (Or.inr ⟨rfl, rfl⟩))⟩

/-- The first loop of `areaTo1Scribble` keeps `SearchIds`. -/
theorem search_ids (W : Nat) (lo hi : Coords) (scr : List Int) (minId : Nat)
    (tmp0 rem0 : List Int) (fuel : Nat) (coords : List Coords) (a a1 : Area)
    (I : SearchIds W lo hi scr minId tmp0 rem0 coords a)
    (hrun : search scr W lo hi minId fuel coords a = some a1) :
    SearchIds W lo hi scr minId tmp0 rem0 [] a1 := by
  refine search_ind scr W lo hi minId
    (fun c a => SearchIds W lo hi scr minId tmp0 rem0 c a) ?_ ?_ fuel coords a a1 I hrun
  · intro xy rest a v I hv hne
    have hxy := I.queue xy (List.mem_cons_self _ _)
    have hvt : tmpAt lo hi a.tmp xy = v := tmpAt_of_read hv
    refine ⟨I.len, fun q hq => I.queue q (List.mem_cons_of_mem _ hq), I.mono, ?_, I.found,
      I.ids, I.two, I.keep⟩
    intro p hp q hq hadj h0
    rcases I.closed p hp q hq hadj h0 with h | h
    · exact Or.inl h
    · rcases List.mem_cons.1 h with h2 | h2
      · left
        subst h2
        rcases I.mono q hq with h3 | h3
        · rw [hvt, h0] at h3
          exact absurd h3 hne
        · exact ⟨hq, h3.1, h3.2⟩
      · exact Or.inr h2
  · intro xy rest a sv I hv hs
    have hxy := I.queue xy (List.mem_cons_self _ _)
    have hvt : tmpAt lo hi a.tmp xy = -1 := tmpAt_of_read hv
    have hsv : maskAt W scr xy = sv := maskAt_of_read hs
    have h0xy : tmpAt lo hi tmp0 xy = -1 := by
      rcases I.mono xy hxy with h | h
      · rw [← h]
        exact hvt
      · exact h.1
    have hat : ∀ p, InBox lo hi p →
        tmpAt lo hi (a.tmp.set (tidx lo hi xy).toNat (-2)) p =
          if p = xy then -2 else tmpAt lo hi a.tmp p :=
      fun p hp => tmpAt_set lo hi xy p a.tmp (-2) I.len hxy hp
    have hmk : ∀ p, Marked lo hi tmp0 (a.tmp.set (tidx lo hi xy).toNat (-2)) p ↔
        Marked lo hi tmp0 a.tmp p ∨ p = xy := by
      intro p
      unfold Marked
      constructor
      · rintro ⟨h1, h2, h3⟩
        rw [hat p h1] at h3
        by_cases hp : p = xy
        · exact Or.inr hp
        · rw [if_neg hp] at h3
          exact Or.inl ⟨h1, h2, h3⟩
      · rintro (⟨h1, h2, h3⟩ | hp)
        · refine ⟨h1, h2, ?_⟩
          rw [hat p h1]
          split_ifs
          · rfl
          · exact h3
        · subst hp
          refine ⟨hxy, h0xy, ?_⟩
          rw [hat p hxy, if_pos rfl]
    have hnt := noteScribble_tmp minId sv
      { a with
        tmp := a.tmp.set (tidx lo hi xy).toNat (-2)
        newMin := ⟨Min.min a.newMin.x xy.x, Min.min a.newMin.y xy.y⟩
        newMax := ⟨Max.max a.newMax.x xy.x, Max.max a.newMax.y xy.y⟩ }
    have hid := noteScribble_ids W scr minId rem0 (Marked lo hi tmp0 a.tmp)
      (Marked lo hi tmp0 (a.tmp.set (tidx lo hi xy).toNat (-2))) xy
      { a with
        tmp := a.tmp.set (tidx lo hi xy).toNat (-2)
        newMin := ⟨Min.min a.newMin.x xy.x, Min.min a.newMin.y xy.y⟩
        newMax := ⟨Max.max a.newMax.x xy.x, Max.max a.newMax.y xy.y⟩ }
      hmk I.found I.ids I.two I.keep
    rw [hsv] at hid
    refine ⟨?_, ?_, ?_, ?_, ?_, ?_, ?_, hid.2.2.2⟩
    · rw [hnt.1]
      show (a.tmp.set (tidx lo hi xy).toNat (-2)).length = _
      rw [List.length_set]
      exact I.len
    · intro q hq
      rcases pushNeighbours_adj lo hi xy q rest hq hxy with h | h
      · exact I.queue q (List.mem_cons_of_mem _ h)
      · exact h.1
    · intro p hp
      rw [hnt.1]
      show tmpAt lo hi (a.tmp.set (tidx lo hi xy).toNat (-2)) p = _ ∨
        (_ ∧ tmpAt lo hi (a.tmp.set (tidx lo hi xy).toNat (-2)) p = -2)
      rw [hat p hp]
      by_cases hpx : p = xy
      · rw [if_pos hpx]
        right
        rw [hpx]
        exact ⟨h0xy, rfl⟩
      · rw [if_neg hpx]
        exact I.mono p hp
    · intro p hp q hq hadj h0
      rw [hnt.1] at hp ⊢
      by_cases hqx : q = xy
      · exact Or.inl ((hmk q).2 (Or.inr hqx))
      · rcases (hmk p).1 hp with h | h
        · rcases I.closed p h q hq hadj h0 with h2 | h2
          · exact Or.inl ((hmk q).2 (Or.inl h2))
          · rcases List.mem_cons.1 h2 with h3 | h3
            · exact absurd h3 hqx
            · exact Or.inr ((mem_pushNeighbours lo hi xy rest q).2 (Or.inl h3))
        · rw [h] at hadj
          exact Or.inr (adj_mem_pushNeighbours lo hi xy q rest hq hadj)
    · rw [hnt.1]
      exact hid.1
    · rw [hnt.1]
      exact hid.2.1
    · rw [hnt.1]
      exact hid.2.2.1

end ColorSegments


/-! ## The function `areaTo1Scribble`: the area that it treats -/

namespace ColorSegments

/-- The second loop of `areaTo1Scribble` keeps `FillReach`. -/
theorem fill_reach (W : Nat) (lo hi newMin newMax : Coords) (found : Int) (M : Coords → Prop)
    (tmp1 : List Int)
    (hboxIn : lo.x ≤ newMin.x ∧ newMax.x ≤ hi.x ∧ lo.y ≤ newMin.y ∧ newMax.y ≤ hi.y)
    (hsep : ∀ p, M p → ∀ q, InBox lo hi q → Adj p q → tmpAt lo hi tmp1 q = -2 → M q)
    (fuel : Nat) (coords : List Coords) (tmp data : List Int) (r : List Int × List Int)
    (I : FillReach lo hi M tmp1 coords tmp)
    (hrun : fill W lo hi newMin newMax found fuel coords tmp data = some r) :
    FillReach lo hi M tmp1 [] r.1 := by
  refine fill_ind W lo hi newMin newMax found
    (fun c t _ => FillReach lo hi M tmp1 c t) ?_ ?_ fuel coords tmp data r I hrun
  · intro xy rest tmp data v I _ _
    exact ⟨I.len, fun q hq => I.queue q (List.mem_cons_of_mem _ hq), I.tmono, I.reach⟩
  · intro xy rest tmp data v I hv _
    have hxy := (I.queue xy (List.mem_cons_self _ _)).1
    have hvt : tmpAt lo hi tmp xy = -2 := tmpAt_of_read hv
    have h1xy : tmpAt lo hi tmp1 xy = -2 := by
      rcases I.tmono xy hxy with h | h
      · rw [← h]
        exact hvt
      · omega
    have hMxy : M xy := (I.queue xy (List.mem_cons_self _ _)).2 h1xy
    have hat : ∀ p, InBox lo hi p →
        tmpAt lo hi (tmp.set (tidx lo hi xy).toNat (-3)) p =
          if p = xy then -3 else tmpAt lo hi tmp p :=
      fun p hp => tmpAt_set lo hi xy p tmp (-3) I.len hxy hp
    refine ⟨?_, ?_, ?_, ?_⟩
    · rw [List.length_set]
      exact I.len
    · intro q hq
      obtain ⟨x1, x2, x3, x4⟩ := hxy
      obtain ⟨b1, b2, b3, b4⟩ := hboxIn
      have key : q ∈ rest ∨ (InBox lo hi q ∧ Adj xy q) := by
        rcases (mem_pushNeighbours newMin newMax xy rest q).1 hq with h | h | h | h | h
        · exact Or.inl h
        · obtain ⟨h1, rfl⟩ := h
          exact Or.inr ⟨⟨by simp only; omega, by simp only; omega, x3, x4⟩, Or.inl ⟨rfl, rfl⟩⟩
        · obtain ⟨h1, rfl⟩ := h
          exact Or.inr ⟨⟨by simp only; omega, by simp only; omega, x3, x4⟩,
            Or.inr (Or.inl ⟨rfl, rfl⟩)⟩
        · obtain ⟨h1, rfl⟩ := h
          exact Or.inr ⟨⟨x1, x2, by simp only; omega, by simp only; omega⟩,
            Or.inr (Or.inr (Or.inl ⟨rfl, rfl⟩))⟩
        · obtain ⟨h1, rfl⟩ := h
          exact Or.inr ⟨⟨x1, x2, by simp only; omega, by simp only; omega⟩,
            Or.inr (Or.inr (Or.inr ⟨rfl, rfl⟩))⟩
      rcases key with h | ⟨h1, h2⟩
      · exact I.queue q (List.mem_cons_of_mem _ h)
      · exact ⟨h1, fun h3 => hsep xy hMxy q h1 h2 h3⟩
    · intro p hp
      rw [hat p hp]
      by_cases hpx : p = xy
      · rw [if_pos hpx, hpx]
        exact Or.inr ⟨h1xy, rfl⟩
      · rw [if_neg hpx]
        exact I.tmono p hp
    · intro p hp h1 h3
      rw [hat p hp] at h3
      by_cases hpx : p = xy
      · rw [hpx]
        exact hMxy
      · rw [if_neg hpx] at h3
        exact I.reach p hp h1 h3

/-- The function `areaTo1Scribble` treats the component of its start among the
pixels that hold -1 in the window, and nothing else. -/
theorem areaTo1Scribble_exact (W H : Nat) (lo hi : Coords) (B : Box W H lo hi) (scr : List Int)
    (hscr : scr.length = W * H) (hval : ∀ v ∈ scr, -1 ≤ v ∧ v ≤ 255) (minId : Nat)
    (c_map : ColorMap) (hw : c_map._width = W)
    (hdl : c_map._data.length = W * H) (tmp0 rem0 : List Int)
    (hl : tmp0.length = boxSize lo hi) (x y : Int) (hs : InBox lo hi ⟨x, y⟩)
    (hs0 : tmpAt lo hi tmp0 ⟨x, y⟩ = -1) (hp : Pending W lo hi tmp0 c_map._data)
    (hsep : ∀ p q, InBox lo hi p → InBox lo hi q → Adj p q → tmpAt lo hi tmp0 p = -1 →
      tmpAt lo hi tmp0 q ≠ -2)
    (c1 : ColorMap) (tmp1 rem1 : List Int) (nMin nMax : Coords)
    (hrun : areaTo1Scribble x y c_map scr tmp0 rem0 lo hi minId =
      some (c1, tmp1, rem1, nMin, nMax)) :
    AreaExact W H lo hi scr minId ⟨x, y⟩ c_map tmp0 rem0 c1 tmp1 rem1 nMin nMax := by
  have I0 : SearchInv lo hi minId ⟨x, y⟩ tmp0 rem0 [⟨x, y⟩]
      ⟨tmp0, rem0, minId, false, ⟨hi.x, hi.y⟩, ⟨lo.x, lo.y⟩⟩ := by
    obtain ⟨s1, s2, s3, s4⟩ := hs
    simp only at s1 s2 s3 s4
    refine ⟨hl, ?_, fun p _ => Or.inl rfl, ?_, Or.inr (List.mem_singleton.2 rfl), ?_, ?_,
      Or.inl rfl, fun r hr => Or.inl hr, fun _ => rfl, fun h => by cases h⟩
    · intro q hq
      rw [List.mem_singleton] at hq
      rw [hq]
      exact ⟨⟨s1, s2, s3, s4⟩, Or.inl rfl⟩
    · rintro p ⟨_, h1, h2⟩
      simp only at h2
      rw [h1] at h2
      omega
    · rintro p ⟨_, h1, h2⟩
      simp only at h2
      rw [h1] at h2
      omega
    · simp only
      omega
  have K0 : SearchIds W lo hi scr minId tmp0 rem0 [⟨x, y⟩]
      ⟨tmp0, rem0, minId, false, ⟨hi.x, hi.y⟩, ⟨lo.x, lo.y⟩⟩ := by
    refine ⟨hl, ?_, fun p _ => Or.inl rfl, ?_, Or.inl rfl, ?_, fun h => (by cases h),
      fun r hr => hr⟩
    · intro q hq
      rw [List.mem_singleton] at hq
      rw [hq]
      exact hs
    · rintro p ⟨_, h1, h2⟩
      simp only at h2
      rw [h1] at h2
      omega
    · rintro p ⟨_, h1, h2⟩
      simp only at h2
      rw [h1] at h2
      omega
  have hfuel : ([⟨x, y⟩] : List Coords).length + 4 * tmp0.count (-1) ≤ 4 * tmp0.length + 1 := by
    have := List.count_le_length (-1 : Int) tmp0
    simp only [List.length_singleton]
    omega
  obtain ⟨a, ha, I⟩ := search_spec W H lo hi B scr hscr hval minId ⟨x, y⟩ tmp0 rem0 hs0
    (4 * tmp0.length + 1) _ _ I0 hfuel
  have K := search_ids W lo hi scr minId tmp0 rem0 _ _ _ a K0 ha
  have hsm : Marked lo hi tmp0 a.tmp ⟨x, y⟩ := by
    rcases I.start with h | h
    · exact h
    · cases h
  -- the marked pixels are the component of the start
  have hC : ∀ p, Conn (Open lo hi tmp0) ⟨x, y⟩ p ↔ Marked lo hi tmp0 a.tmp p := by
    intro p
    constructor
    · intro c
      induction c with
      | base _ => exact hsm
      | step c hq hadj ih =>
        rcases K.closed _ ih _ hq.1 hadj hq.2 with h | h
        · exact h
        · cases h
    · intro hm
      exact Conn.monoM (fun q hq => ⟨hq.1, hq.2.1⟩) (I.conn p hm)
  have hId : ∀ i, IdOf W scr minId (Open lo hi tmp0) ⟨x, y⟩ i ↔
      ((minId : Int) < i ∧ ∃ p, Marked lo hi tmp0 a.tmp p ∧ maskAt W scr p = i) := by
    intro i
    constructor
    · rintro ⟨h1, p, hp, hi⟩
      exact ⟨h1, p, (hC p).1 hp, hi⟩
    · rintro ⟨h1, p, hp, hi⟩
      exact ⟨h1, p, (hC p).2 hp, hi⟩
  have ha2 : search scr c_map._width lo hi minId (4 * tmp0.length + 1) [⟨x, y⟩]
      ⟨tmp0, rem0, minId, false, ⟨hi.x, hi.y⟩, ⟨lo.x, lo.y⟩⟩ = some a := by
    rw [hw]
    exact ha
  unfold areaTo1Scribble at hrun
  rw [ha2] at hrun
  simp only at hrun
  by_cases htwo : a.twoScribblesFound = false
  · rw [if_pos htwo] at hrun
    have F0 : FillInv W H lo hi a.foundScribble ⟨x, y⟩ (Marked lo hi tmp0 a.tmp) a.tmp
        c_map._data [⟨x, y⟩] a.tmp c_map._data := by
      refine ⟨I.len, extends_refl _, ?_, fun p _ => Or.inl rfl, fun p _ => Or.inl rfl, ?_, ?_,
        ?_, Or.inr (List.mem_singleton.2 rfl)⟩
      · intro q hq
        rw [List.mem_singleton] at hq
        rw [hq]
        exact hs
      · intro p _ h1 h2
        rw [h1] at h2
        omega
      · intro p hpb h1
        rcases I.mono p hpb with h | h
        · rw [h] at h1
          exact hp p hpb h1
        · exact hp p hpb (Or.inl h.1)
      · intro p hpm h1
        rw [hpm.2.2] at h1
        omega
    have hfuel2 : ([⟨x, y⟩] : List Coords).length + 4 * a.tmp.count (-2) ≤
        4 * tmp0.length + 1 := by
      have := List.count_le_length (-2 : Int) a.tmp
      have := I.len
      simp only [List.length_singleton]
      omega
    obtain ⟨tmp2, data2, hf, F⟩ := fill_spec W H lo hi B a.foundScribble ⟨x, y⟩
      (Marked lo hi tmp0 a.tmp) a.tmp c_map._data a.newMin a.newMax hdl I.bbox I.bboxIn
      (fun p hpm => ⟨hpm.1, hpm.2.2⟩) hsm (4 * tmp0.length + 1) _ _ _ F0 hfuel2
    have hsepM : ∀ p, Marked lo hi tmp0 a.tmp p → ∀ q, InBox lo hi q → Adj p q →
        tmpAt lo hi a.tmp q = -2 → Marked lo hi tmp0 a.tmp q := by
      intro p hpm q hq hadj h2
      rcases I.mono q hq with h | h
      · rw [h2] at h
        exact absurd h.symm (hsep p q hpm.1 hq hadj hpm.2.1)
      · exact ⟨hq, h.1, h.2⟩
    have R0 : FillReach lo hi (Marked lo hi tmp0 a.tmp) a.tmp [⟨x, y⟩] a.tmp := by
      refine ⟨I.len, ?_, fun p _ => Or.inl rfl, ?_⟩
      · intro q hq
        rw [List.mem_singleton] at hq
        rw [hq]
        exact ⟨hs, fun _ => hsm⟩
      · intro p _ h1 h2
        rw [h1] at h2
        omega
    have R := fill_reach W lo hi a.newMin a.newMax a.foundScribble (Marked lo hi tmp0 a.tmp)
      a.tmp I.bboxIn hsepM _ _ _ _ _ R0 hf
    simp only at R
    have hf2 : fill c_map._width lo hi a.newMin a.newMax a.foundScribble
        (4 * tmp0.length + 1) [⟨x, y⟩] a.tmp c_map._data = some (tmp2, data2) := by
      rw [hw]
      exact hf
    rw [hf2] at hrun
    simp only [Option.some.injEq, Prod.mk.injEq] at hrun
    obtain ⟨rfl, rfl, rfl, rfl, rfl⟩ := hrun
    have hcomp : ∀ p, Marked lo hi tmp0 a.tmp p → tmpAt lo hi tmp2 p = -3 :=
      fun p hpm => fill_complete W H lo hi a.foundScribble ⟨x, y⟩ _ a.tmp c_map._data tmp2
        data2 F p (I.conn p hpm)
    have hone : ∀ p, Marked lo hi tmp0 a.tmp p → (minId : Int) < maskAt W scr p →
        maskAt W scr p = a.foundScribble := by
      intro p hpm hlt
      rcases K.ids p hpm hlt with h | h
      · exact h
      · rw [htwo] at h
        cases h.1
    refine ⟨?_, ?_, ?_, K.keep, ?_, ?_⟩
    · intro p hpb hnc
      have hnm : ¬ Marked lo hi tmp0 a.tmp p := fun h => hnc ((hC p).2 h)
      rcases F.tmono p hpb with h | h
      · rcases I.mono p hpb with h2 | h2
        · rw [h, h2]
        · exact absurd ⟨hpb, h2.1, h2.2⟩ hnm
      · exact absurd (R.reach p hpb h.1 h.2) hnm
    · intro p hpi hnc
      have hnm : ¬ Marked lo hi tmp0 a.tmp p := fun h => hnc ((hC p).2 h)
      rcases F.dmono p hpi with h | h
      · exact h
      · exact absurd (R.reach p h.1 h.2.1 h.2.2.1) hnm
    · intro p hc
      rw [hcomp p ((hC p).1 hc)]
      omega
    · intro _
      refine ⟨rfl, fun p hc => ?_⟩
      have hpm := (hC p).1 hc
      have hmask : maskAt W data2 p = a.foundScribble :=
        F.filled p hpm.1 hpm.2.2 (hcomp p hpm)
      refine ⟨?_, ?_⟩
      · intro i hi
        obtain ⟨h1, q, hq, hqi⟩ := (hId i).1 hi
        show maskAt W data2 p = i
        rw [hmask, ← hqi]
        exact (hone q hq (by rw [hqi]; exact h1)).symm
      · intro hno
        show maskAt W data2 p = minId
        rw [hmask]
        rcases K.found with h | h
        · exact h
        · exact absurd ((hId _).2 ⟨h.1, h.2⟩) (hno _)
    · rintro ⟨i, j, hi, hj, hne⟩
      obtain ⟨h1, q, hq, hqi⟩ := (hId i).1 hi
      obtain ⟨h2, q2, hq2, hqj⟩ := (hId j).1 hj
      have e1 := hone q hq (by rw [hqi]; exact h1)
      have e2 := hone q2 hq2 (by rw [hqj]; exact h2)
      rw [hqi] at e1
      rw [hqj] at e2
      exact absurd (e1.trans e2.symm) hne
  · rw [if_neg htwo] at hrun
    simp only [Option.some.injEq, Prod.mk.injEq] at hrun
    obtain ⟨rfl, rfl, rfl, rfl, rfl⟩ := hrun
    have htwo2 : a.twoScribblesFound = true := by
      cases h : a.twoScribblesFound
      · exact absurd h htwo
      · rfl
    refine ⟨?_, fun _ _ _ => rfl, ?_, ?_, ?_, ?_⟩
    · intro p hpb hnc
      have hnm : ¬ Marked lo hi tmp0 a.tmp p := fun h => hnc ((hC p).2 h)
      rcases I.mono p hpb with h2 | h2
      · exact h2
      · exact absurd ⟨hpb, h2.1, h2.2⟩ hnm
    · intro p hc
      rw [((hC p).1 hc).2.2]
      omega
    · intro r hr
      exact (mem_shortInsert _ _ _).2 (Or.inr (K.keep r hr))
    · intro hone
      obtain ⟨h1, p, hpm, hlt, hne⟩ := K.two htwo2
      rcases K.found with h | h
      · omega
      · have e := hone _ _ ((hId _).2 ⟨hlt, p, hpm, rfl⟩) ((hId _).2 ⟨h.1, h.2⟩)
        exact absurd e hne
    · intro _
      have hbi := I.bboxIn
      have := B.x0
      refine ⟨by omega, rfl, ?_, ?_⟩
      · intro p hc
        exact I.bbox p ((hC p).1 hc)
      · intro i hi
        obtain ⟨h1, q, hq, hqi⟩ := (hId i).1 hi
        rw [mem_shortInsert]
        rcases K.ids q hq (by rw [hqi]; exact h1) with h | h
        · left
          rw [← hqi]
          exact h
        · right
          rw [← hqi]
          exact h.2

end ColorSegments


/-! ## The function `colorDistinctAreas`: the areas that it treats -/

namespace ColorSegments

theorem Treated.mono {W : Nat} {scr : List Int} {minId : Nat} {M : Coords → Prop}
    {s p : Coords} {data rem data1 rem1 : List Int} {a b a1 b1 : Coords}
    (h : Treated W scr minId M s p data rem a b)
    (hm : maskAt W data1 p = maskAt W data p) (hr : ∀ r ∈ rem, r ∈ rem1)
    (hb : InBox a b p → InBox a1 b1 p) : Treated W scr minId M s p data1 rem1 a1 b1 := by
  refine ⟨fun h1 => ?_, fun h2 => ?_⟩
  · rw [hm]
    exact h.1 h1
  · obtain ⟨e1, e2, e3⟩ := h.2 h2
    rw [hm]
    exact ⟨e1, hb e2, fun i hi => hr i (e3 i hi)⟩

section
variable (W H : Nat) (lo hi : Coords) (B : Box W H lo hi) (scr : List Int) (minId : Nat)
  (c0 : ColorMap) (hdl : c0._data.length = W * H)
include B hdl

/-- A pixel that holds -1 or -2 in the window was unassigned on entry. -/
theorem ScanInv.unassigned {D : Coords → Prop} {st : Scan}
    (I : ScanInv W H lo hi minId c0 D st) (q : Coords) (hq : InBox lo hi q)
    (h : tmpAt lo hi st.tmp q = -1 ∨ tmpAt lo hi st.tmp q = -2) :
    Unassigned W lo hi c0._data q := by
  refine ⟨hq, ?_⟩
  by_contra hne
  have := extends_maskAt W H _ _ I.ext hdl q (inBox_inImage W H lo hi q B hq) hne
  rw [I.pending q hq h] at this
  exact hne this.symm

/-- One call of `areaTo1Scribble` in the loops of `colorDistinctAreas` keeps
`ScanComp`. -/
theorem scanComp_step (D : Coords → Prop) (st : Scan)
    (I : ScanInv W H lo hi minId c0 D st) (S : ScanComp W lo hi scr minId c0._data st)
    (s0 : Coords) (hs0 : InBox lo hi s0) (hv : tmpAt lo hi st.tmp s0 = -1)
    (c1 : ColorMap) (tmp1 rem1 : List Int) (nMin nMax : Coords)
    (E : AreaExact W H lo hi scr minId s0 st.c_map st.tmp st.remaining c1 tmp1 rem1 nMin nMax)
    (uMin uMax : Coords)
    (hb1 : ∀ p, InBox st.unionMin st.unionMax p → InBox uMin uMax p)
    (hb2 : nMin.x ≠ -1 → ∀ p, InBox nMin nMax p → InBox uMin uMax p) :
    ScanComp W lo hi scr minId c0._data ⟨c1, tmp1, rem1, uMin, uMax⟩ := by
  have hopen : ∀ q, Open lo hi st.tmp q → Unassigned W lo hi c0._data q :=
    fun q hq => I.unassigned W H lo hi B minId c0 hdl q hq.1 (Or.inl hq.2)
  have hconn : ∀ p, Conn (Open lo hi st.tmp) s0 p ↔ Conn (Unassigned W lo hi c0._data) s0 p := by
    intro p
    constructor
    · exact Conn.monoM hopen
    · intro c
      induction c with
      | base _ => exact Conn.base ⟨hs0, hv⟩
      | step c hq hadj ih =>
        exact Conn.step ih ⟨hq.1, S.closed _ _ c.mem hq hadj ih.mem.2⟩ hadj
  refine ⟨?_, ?_⟩
  · intro p q hp hq hadj h1
    have hncp : ¬ Conn (Open lo hi st.tmp) s0 p := fun c => E.inside p c h1
    have h1p : tmpAt lo hi st.tmp p = -1 := by
      rw [← E.outside p hp.1 hncp]
      exact h1
    have h1q : tmpAt lo hi st.tmp q = -1 := S.closed p q hp hq hadj h1p
    have hncq : ¬ Conn (Open lo hi st.tmp) s0 q :=
      fun c => hncp (Conn.step c ⟨hp.1, h1p⟩ (adj_swap hadj))
    show tmpAt lo hi tmp1 q = -1
    rw [E.outside q hq.1 hncq]
    exact h1q
  · intro s p c h1
    have hpb : InBox lo hi p := c.mem.1
    by_cases hc : Conn (Open lo hi st.tmp) s0 p
    · have hroot : ∀ i, IdOf W scr minId (Unassigned W lo hi c0._data) s i ↔
          IdOf W scr minId (Open lo hi st.tmp) s0 i := by
        intro i
        have c2 : Conn (Unassigned W lo hi c0._data) s s0 := c.trans ((hconn p).1 hc).symm
        rw [idOf_root W scr minId c2 i]
        exact (idOf_congr W scr minId hconn i).symm
      refine ⟨fun h1 => ?_, fun h2 => ?_⟩
      · have h1a : OneId W scr minId (Open lo hi st.tmp) s0 :=
          fun i j hi hj => h1 i j ((hroot i).2 hi) ((hroot j).2 hj)
        obtain ⟨e1, e2⟩ := (E.single h1a).2 p hc
        exact ⟨fun i hi => e1 i ((hroot i).1 hi), fun hno => e2 fun i hi => hno i ((hroot i).2 hi)⟩
      · have h2a : TwoIds W scr minId (Open lo hi st.tmp) s0 := by
          obtain ⟨i, j, hi, hj, hne⟩ := h2
          exact ⟨i, j, (hroot i).1 hi, (hroot j).1 hj, hne⟩
        obtain ⟨e1, e2, e3, e4⟩ := E.multi h2a
        refine ⟨?_, hb2 e1 p (e3 p hc), fun i hi => e4 i ((hroot i).1 hi)⟩
        show maskAt W c1._data p = -1
        rw [e2]
        exact I.pending p hpb (Or.inl hc.mem.2)
    · have h2 : tmpAt lo hi st.tmp p ≠ -1 := by
        rw [← E.outside p hpb hc]
        exact h1
      exact (S.done s p c h2).mono (E.kept p (inBox_inImage W H lo hi p B hpb) hc) E.remMono
        (hb1 p)

end

section
variable (W H : Nat) (lo hi : Coords) (B : Box W H lo hi) (scr : List Int)
  (hscr : scr.length = W * H) (hval : ∀ v ∈ scr, -1 ≤ v ∧ v ≤ 255) (minId : Nat)
  (c0 : ColorMap) (hw : c0._width = W) (hdl : c0._data.length = W * H)
include B hscr hval hw hdl

/-- The body of the second pair of loops of `colorDistinctAreas` keeps
`ScanComp`. -/
theorem scanPixel_comp (D : Coords → Prop) (st st1 : Scan) (w h : Int)
    (hp : InBox lo hi ⟨w, h⟩) (I : ScanInv W H lo hi minId c0 D st)
    (S : ScanComp W lo hi scr minId c0._data st)
    (hrun : scanPixel scr lo hi minId w h st = some st1) :
    ScanComp W lo hi scr minId c0._data st1 := by
  have hread := tmp_read lo hi ⟨w, h⟩ st.tmp I.len hp
  have hcw : st.c_map._width = W := by
    rw [I.same]
    exact hw
  have hcl : st.c_map._data.length = W * H := by
    rw [← I.ext.1]
    exact hdl
  unfold scanPixel at hrun
  rw [hread] at hrun
  simp only at hrun
  by_cases hv : tmpAt lo hi st.tmp ⟨w, h⟩ = -1
  · rw [if_pos hv] at hrun
    have hsep : ∀ p q, InBox lo hi p → InBox lo hi q → Adj p q → tmpAt lo hi st.tmp p = -1 →
        tmpAt lo hi st.tmp q ≠ -2 := by
      intro p q hpb hqb hadj h1 h2
      have := S.closed p q (I.unassigned W H lo hi B minId c0 hdl p hpb (Or.inl h1))
        (I.unassigned W H lo hi B minId c0 hdl q hqb (Or.inr h2)) hadj h1
      omega
    cases he : areaTo1Scribble w h st.c_map scr st.tmp st.remaining lo hi minId with
    | none =>
      rw [he] at hrun
      cases hrun
    | some r =>
      obtain ⟨c1, tmp1, rem1, nMin, nMax⟩ := r
      have E := areaTo1Scribble_exact W H lo hi B scr hscr hval minId st.c_map hcw hcl st.tmp
        st.remaining I.len w h hp hv I.pending hsep c1 tmp1 rem1 nMin nMax he
      rw [he] at hrun
      simp only at hrun
      by_cases hx : nMin.x ≠ -1
      · rw [if_pos hx] at hrun
        simp only [Option.some.injEq] at hrun
        rw [← hrun]
        apply scanComp_step W H lo hi B scr minId c0 hdl D st I S ⟨w, h⟩ hp hv c1 tmp1 rem1
          nMin nMax E
        · rintro p ⟨u1, u2, u3, u4⟩
          unfold InBox
          simp only
          omega
        · rintro _ p ⟨u1, u2, u3, u4⟩
          unfold InBox
          simp only
          omega
      · rw [if_neg hx] at hrun
        simp only [Option.some.injEq] at hrun
        rw [← hrun]
        exact scanComp_step W H lo hi B scr minId c0 hdl D st I S ⟨w, h⟩ hp hv c1 tmp1 rem1
          nMin nMax E _ _ (fun p hp => hp) (fun h => absurd h hx)
  · rw [if_neg hv] at hrun
    simp only [Option.some.injEq] at hrun
    rw [← hrun]
    exact S

/-- The function `colorDistinctAreas` returns, and it has treated every area
of unassigned pixels of the working area as a whole. -/
theorem colorDistinctAreas_exact (hmin : minId ≤ 255) (hh : c0._height = H)
    (hv : Vals W H c0._data) (scribbles : List Int) :
    ∃ c1 nMin nMax rem1,
      colorDistinctAreas c0 scr lo hi minId scribbles = some (c1, nMin, nMax, rem1) ∧
      DistinctPost W H lo hi minId c0 c1 nMin nMax rem1 ∧
      ∀ s p, Conn (Unassigned W lo hi c0._data) s p →
        Treated W scr minId (Unassigned W lo hi c0._data) s p c1._data rem1 nMin nMax := by
  have hwin : ∀ p, InBox lo hi p →
      tmpAt lo hi ((fromTo lo.y hi.y).flatMap fun h =>
        (fromTo lo.x hi.x).map fun w => c0.getMaskAt w h) p = maskAt W c0._data p := by
    intro p hp
    have := window_read lo hi p (fun w h => c0.getMaskAt w h) hp
    rw [this.2]
    exact getMaskAt_eq W H c0 hw hh p (inBox_inImage W H lo hi p B hp)
  have hlen : ((fromTo lo.y hi.y).flatMap fun h =>
      (fromTo lo.x hi.x).map fun w => c0.getMaskAt w h).length = boxSize lo hi := by
    rw [length_flatMap_const _ _ (hi.x + 1 - lo.x).toNat
      (fun h _ => by rw [List.length_map, length_fromTo]), length_fromTo]
    unfold boxSize
    rw [Nat.mul_comm]
    have := B.wx
    have := B.wy
    congr 2 <;> omega
  have I0 : ScanInv W H lo hi minId c0 (fun p => p.y ∈ ([] : List Int))
      ⟨c0, (fromTo lo.y hi.y).flatMap fun h =>
        (fromTo lo.x hi.x).map fun w => c0.getMaskAt w h, [], hi, lo⟩ := by
    refine ⟨rfl, hlen, extends_refl _, hv, ?_, ?_, ?_, (fun r hr => by cases hr), ?_,
      (fun h => absurd rfl h), (fun p _ hd => by cases hd)⟩
    · intro p hp h1
      rw [hwin p hp] at h1
      rcases h1 with h1 | h1
      · exact h1
      · have := (hv p (inBox_inImage W H lo hi p B hp)).1
        omega
    · intro p hp h1 _
      rw [hwin p hp] at h1
      exact h1
    · intro p hp h1
      rw [hwin p hp] at h1
      have := (hv p (inBox_inImage W H lo hi p B hp)).1
      omega
    · intro h1 h2
      simp only
      omega
  have S0 : ScanComp W lo hi scr minId c0._data
      ⟨c0, (fromTo lo.y hi.y).flatMap fun h =>
        (fromTo lo.x hi.x).map fun w => c0.getMaskAt w h, [], hi, lo⟩ := by
    refine ⟨?_, ?_⟩
    · intro p q _ hq _ _
      show tmpAt lo hi _ q = -1
      rw [hwin q hq.1]
      exact hq.2
    · intro s p c h1
      have h2 : tmpAt lo hi _ p ≠ -1 := h1
      rw [hwin p c.mem.1] at h2
      exact absurd c.mem.2 h2
  obtain ⟨st, hst, I, S⟩ := foldlM_inv
    (fun s h => (fromTo lo.x hi.x).foldlM
      (fun s w => scanPixel scr lo hi minId w h s) s)
    (fun pre st => ScanInv W H lo hi minId c0 (fun p => p.y ∈ pre) st ∧
      ScanComp W lo hi scr minId c0._data st)
    (fromTo lo.y hi.y) [] _ ⟨I0, S0⟩ (by
      intro pre h st Ipre hmem
      have Iin : ScanInv W H lo hi minId c0
          (fun p => p.y ∈ pre ∨ (p.y = h ∧ p.x ∈ ([] : List Int))) st :=
        Ipre.1.weaken (fun p _ hd => by
          rcases hd with hd | hd
          · exact hd
          · cases hd.2)
      obtain ⟨st1, hst1, I1, S1⟩ := foldlM_inv
        (fun s w => scanPixel scr lo hi minId w h s)
        (fun pre2 st => ScanInv W H lo hi minId c0
          (fun p => p.y ∈ pre ∨ (p.y = h ∧ p.x ∈ pre2)) st ∧
          ScanComp W lo hi scr minId c0._data st)
        (fromTo lo.x hi.x) [] st ⟨Iin, Ipre.2⟩ (by
          intro pre2 w st2 I2 hw2
          have hp : InBox lo hi ⟨w, h⟩ := by
            rw [mem_fromTo] at hmem hw2
            unfold InBox
            simp only
            omega
          obtain ⟨st3, h3, I3⟩ := scanPixel_spec W H lo hi B scr hscr hval minId hmin c0 hw
            hdl _ st2 w h hp I2.1
          refine ⟨st3, h3, I3.weaken ?_, scanPixel_comp W H lo hi B scr hscr hval minId c0
            hw hdl _ st2 st3 w h hp I2.1 I2.2 h3⟩
          intro p _ hd
          rcases hd with hd | hd
          · exact Or.inl (Or.inl hd)
          · rcases List.mem_append.1 hd.2 with h4 | h4
            · exact Or.inl (Or.inr ⟨hd.1, h4⟩)
            · right
              rw [List.mem_singleton] at h4
              obtain ⟨px, py⟩ := p
              simp only at hd h4
              rw [Coords.mk.injEq]
              exact ⟨h4, hd.1⟩)
      refine ⟨st1, hst1, I1.weaken ?_, S1⟩
      intro p hp hd
      rcases List.mem_append.1 hd with h4 | h4
      · exact Or.inl h4
      · right
        rw [List.mem_singleton] at h4
        refine ⟨h4, ?_⟩
        rw [List.nil_append, mem_fromTo]
        exact ⟨hp.1, hp.2.1⟩)
  have hscan : ∀ p, InBox lo hi p → tmpAt lo hi st.tmp p ≠ -1 := by
    intro p hp
    apply I.scanned p hp
    rw [List.nil_append, mem_fromTo]
    exact ⟨hp.2.2.1, hp.2.2.2⟩
  unfold colorDistinctAreas
  simp only [hst]
  refine ⟨_, _, _, _, rfl, ⟨I.same, I.ext, I.vals, I.rem, ?_, ?_⟩, ?_⟩
  · intro p hp hm
    have h2 : tmpAt lo hi st.tmp p = -2 := by
      by_contra h2
      exact I.assigned p hp (hscan p hp) h2 hm
    exact I.marked p hp h2
  · intro hne
    obtain ⟨h1, h2, h3, h4⟩ := I.uprop hne
    obtain ⟨u1, u2, u3, u4⟩ := I.ubox h1 h2
    have := B.x0
    have := B.x1
    have := B.y0
    have := B.y1
    exact ⟨by omega, by omega, by omega, by omega, by omega, by omega⟩
  · intro s p c
    exact S.done s p c (hscan p c.mem.1)

end

end ColorSegments


/-! ## C29 -/

namespace ColorSegments

/-- C29: on a working area of the image, a scribble map with values in {-1}
and 0..255 and a mask with values in {-1} and 0..255, `colorDistinctAreas`
returns, and it has treated every 4-connected component of the pixels of the
working area that were unassigned (-1) on entry as follows. When the scribbles
greater than `minId` in the component carry at most one id, every pixel of the
component holds that id in the mask, or `minId` when there is no such
scribble. When they carry two ids or more, every pixel of the component is
still unassigned and lies in the new working area, and every id greater than
`minId` of the component is in the set that is returned. -/
theorem C29_colorDistinctAreas_treats_whole_areas (W H : Nat) (lo hi : Coords)
    (B : Box W H lo hi) (scribbleData : List Int) (hscr : scribbleData.length = W * H)
    (hval : ∀ v ∈ scribbleData, v = -1 ∨ (0 ≤ v ∧ v ≤ 255)) (minId : Nat)
    (hmin : minId ≤ 255) (c_map : ColorMap) (hw : c_map._width = W) (hh : c_map._height = H)
    (hdl : c_map._data.length = W * H) (hv : Vals W H c_map._data) (scribbles : List Int) :
    ∃ c1 nMin nMax rem1,
      colorDistinctAreas c_map scribbleData lo hi minId scribbles =
        some (c1, nMin, nMax, rem1) ∧
      ∀ s, Unassigned W lo hi c_map._data s →
        (OneId W scribbleData minId (Unassigned W lo hi c_map._data) s →
          ∀ p, Conn (Unassigned W lo hi c_map._data) s p →
            (∀ i, IdOf W scribbleData minId (Unassigned W lo hi c_map._data) s i →
              maskAt W c1._data p = i) ∧
            ((∀ i, ¬ IdOf W scribbleData minId (Unassigned W lo hi c_map._data) s i) →
              maskAt W c1._data p = minId)) ∧
        (TwoIds W scribbleData minId (Unassigned W lo hi c_map._data) s →
          (∀ p, Conn (Unassigned W lo hi c_map._data) s p →
            maskAt W c1._data p = -1 ∧ InBox nMin nMax p) ∧
          ∀ i, IdOf W scribbleData minId (Unassigned W lo hi c_map._data) s i → i ∈ rem1) := by
  obtain ⟨c1, nMin, nMax, rem1, hrun, _, hT⟩ := colorDistinctAreas_exact W H lo hi B
    scribbleData hscr (fun v hv => by rcases hval v hv with h | h <;> omega) minId c_map hw hdl
    hmin hh hv scribbles
  refine ⟨c1, nMin, nMax, rem1, hrun, fun s hs => ⟨fun h1 p c => (hT s p c).1 h1, fun h2 => ?_⟩⟩
  refine ⟨fun p c => ?_, ((hT s s (Conn.base hs)).2 h2).2.2⟩
  exact ⟨((hT s p c).2 h2).1, ((hT s p c).2 h2).2.1⟩

theorem C29_witness :
    ∃ c1 nMin nMax rem1,
      colorDistinctAreas (ColorMap.new 3 1).newComputation [1, -1, 2] ⟨0, 0⟩ ⟨2, 0⟩ 0 [] =
        some (c1, nMin, nMax, rem1) ∧
      ∀ s, Unassigned (3 : Nat) ⟨0, 0⟩ ⟨2, 0⟩ (ColorMap.new 3 1).newComputation._data s →
        (OneId (3 : Nat) [1, -1, 2] 0
            (Unassigned (3 : Nat) ⟨0, 0⟩ ⟨2, 0⟩ (ColorMap.new 3 1).newComputation._data) s →
          ∀ p, Conn (Unassigned (3 : Nat) ⟨0, 0⟩ ⟨2, 0⟩
              (ColorMap.new 3 1).newComputation._data) s p →
            (∀ i, IdOf (3 : Nat) [1, -1, 2] 0
                (Unassigned (3 : Nat) ⟨0, 0⟩ ⟨2, 0⟩ (ColorMap.new 3 1).newComputation._data) s i →
              maskAt (3 : Nat) c1._data p = i) ∧
            ((∀ i, ¬ IdOf (3 : Nat) [1, -1, 2] 0
                (Unassigned (3 : Nat) ⟨0, 0⟩ ⟨2, 0⟩ (ColorMap.new 3 1).newComputation._data) s i) →
              maskAt (3 : Nat) c1._data p = (0 : Nat))) ∧
        (TwoIds (3 : Nat) [1, -1, 2] 0
            (Unassigned (3 : Nat) ⟨0, 0⟩ ⟨2, 0⟩ (ColorMap.new 3 1).newComputation._data) s →
          (∀ p, Conn (Unassigned (3 : Nat) ⟨0, 0⟩ ⟨2, 0⟩
              (ColorMap.new 3 1).newComputation._data) s p →
            maskAt (3 : Nat) c1._data p = -1 ∧ InBox nMin nMax p) ∧
          ∀ i, IdOf (3 : Nat) [1, -1, 2] 0
              (Unassigned (3 : Nat) ⟨0, 0⟩ ⟨2, 0⟩ (ColorMap.new 3 1).newComputation._data) s i →
            i ∈ rem1) :=
  C29_colorDistinctAreas_treats_whole_areas 3 1 ⟨0, 0⟩ ⟨2, 0⟩
    ⟨by decide, by decide, by decide, by decide, by decide, by decide⟩ [1, -1, 2] rfl
    (by decide) 0 (by decide) (ColorMap.new 3 1).newComputation
    (newComputation_spec 3 1 (ColorMap.new 3 1) rfl rfl).2.2.1
    (newComputation_spec 3 1 (ColorMap.new 3 1) rfl rfl).2.2.2
    (newComputation_spec 3 1 (ColorMap.new 3 1) rfl rfl).1
    (newComputation_spec 3 1 (ColorMap.new 3 1) rfl rfl).2.1 []

/-- The call of the witness of C29: one area with the ids 1 and 2, which is
left unassigned. -/
theorem colorDistinctAreas_three :
    (colorDistinctAreas (ColorMap.new 3 1).newComputation [1, -1, 2] ⟨0, 0⟩ ⟨2, 0⟩ 0 []).map
        (fun r => (r.1._data, r.2.1, r.2.2.1, r.2.2.2)) =
      some ([-1, -1, -1], ⟨0, 0⟩, ⟨2, 0⟩, [1, 2]) := by
  decide

end ColorSegments


/-! ## The order of the binary cuts in `applyScribbles` -/

theorem foldlM_keeps {σ α : Type} (f : σ → α → Option σ) (P : σ → Prop)
    (hstep : ∀ s x s1, P s → f s x = some s1 → P s1) :
    ∀ (l : List α) (s s1 : σ), P s → l.foldlM f s = some s1 → P s1 := by
  intro l
  induction l with
  | nil =>
    intro s s1 h0 hrun
    simp only [List.foldlM_nil, pure, Option.some.injEq] at hrun
    rw [← hrun]
    exact h0
  | cons a t ih =>
    intro s s1 h0 hrun
    rw [List.foldlM_cons] at hrun
    cases h : f s a with
    | none =>
      rw [h] at hrun
      cases hrun
    | some s2 =>
      rw [h] at hrun
      exact ih s2 s1 (hstep s a s2 h0 h) hrun

namespace ColorSegments

theorem shortInsert_sorted (x : Int) (l : List Int) (h : l.Sorted (· < ·)) :
    (shortInsert x l).Sorted (· < ·) := by
  induction l with
  | nil => simp [shortInsert]
  | cons y ys ih =>
    unfold shortInsert
    split_ifs with h1 h2
    · refine List.sorted_cons.2 ⟨?_, h⟩
      intro b hb
      rcases List.mem_cons.1 hb with hb | hb
      · rw [hb]
        exact h1
      · exact lt_trans h1 (List.rel_of_sorted_cons h b hb)
    · exact h
    · refine List.sorted_cons.2 ⟨?_, ih (List.Sorted.of_cons h)⟩
      intro b hb
      rcases (mem_shortInsert x ys b).1 hb with hb | hb
      · rw [hb]
        omega
      · exact List.rel_of_sorted_cons h b hb

theorem noteScribble_sorted (minId : Nat) (s : Int) (a : Area)
    (h : a.remaining.Sorted (· < ·)) : (noteScribble minId s a).remaining.Sorted (· < ·) := by
  unfold noteScribble
  split_ifs
  · exact h
  · exact shortInsert_sorted _ _ h
  · exact h
  · exact h

theorem search_sorted (scr : List Int) (cw : Int) (lo hi : Coords) (minId : Nat) (fuel : Nat)
    (coords : List Coords) (a a1 : Area) (h : a.remaining.Sorted (· < ·))
    (hrun : search scr cw lo hi minId fuel coords a = some a1) :
    a1.remaining.Sorted (· < ·) :=
  search_ind scr cw lo hi minId (fun _ a => a.remaining.Sorted (· < ·))
    (fun _ _ _ _ h _ _ => h) (fun _ _ _ _ h _ _ => noteScribble_sorted _ _ _ h)
    fuel coords a a1 h hrun

theorem areaTo1Scribble_sorted (x y : Int) (c_map : ColorMap) (scr tmp rem0 : List Int)
    (lo hi : Coords) (minId : Nat) (r : ColorMap × List Int × List Int × Coords × Coords)
    (h : rem0.Sorted (· < ·))
    (hrun : areaTo1Scribble x y c_map scr tmp rem0 lo hi minId = some r) :
    r.2.2.1.Sorted (· < ·) := by
  unfold areaTo1Scribble at hrun
  split at hrun
  · cases hrun
  · rename_i a ha
    have hs := search_sorted _ _ _ _ _ _ _ _ a h ha
    split_ifs at hrun
    · split at hrun
      · cases hrun
      · cases hrun
        exact hs
    · cases hrun
      exact shortInsert_sorted _ _ hs

theorem scanPixel_sorted (scr : List Int) (lo hi : Coords) (minId : Nat) (w h : Int)
    (st st1 : Scan) (hs : st.remaining.Sorted (· < ·))
    (hrun : scanPixel scr lo hi minId w h st = some st1) : st1.remaining.Sorted (· < ·) := by
  unfold scanPixel at hrun
  split at hrun
  · cases hrun
  · split_ifs at hrun
    · split at hrun
      · cases hrun
      · rename_i c1 tmp1 rem1 nMin nMax he
        have := areaTo1Scribble_sorted _ _ _ _ _ _ _ _ _ _ hs he
        split_ifs at hrun <;>
        · cases hrun
          exact this
    · cases hrun
      exact hs

/-- The set that `colorDistinctAreas` returns is strictly increasing. -/
theorem colorDistinctAreas_sorted (c_map : ColorMap) (scr : List Int) (lo hi : Coords)
    (minId : Nat) (scribbles : List Int) (r : ColorMap × Coords × Coords × List Int)
    (hrun : colorDistinctAreas c_map scr lo hi minId scribbles = some r) :
    r.2.2.2.Sorted (· < ·) := by
  unfold colorDistinctAreas at hrun
  simp only at hrun
  split at hrun
  · cases hrun
  · rename_i st hst
    cases hrun
    refine foldlM_keeps _ (fun st => st.remaining.Sorted (· < ·)) ?_ _ _ st ?_ hst
    · intro s h s1 hs hrow
      exact foldlM_keeps _ (fun st => st.remaining.Sorted (· < ·))
        (fun s2 w s3 hs2 hpix => scanPixel_sorted scr lo hi minId w h s2 s3 hs2 hpix)
        _ s s1 hs hrow
    · exact List.sorted_nil

/-- The loop of `applyScribbles` with the record returns what the loop
returns, and every entry of the record follows the entry in front of it. -/
theorem applyTrace_spec (cut : Cut) (W H : Nat) (scr : List Int) (hscr : scr.length = W * H)
    (hval : ∀ v ∈ scr, -1 ≤ v ∧ v ≤ 255) (fuel : Nat) :
    ∀ (c : ColorMap) (lo hi : Coords) (id : Int) (scribbles : List Int),
      LoopInv W H c lo hi → 0 ≤ id → id ≤ 255 → 256 ≤ id + fuel →
      ∃ c1 tr, applyTrace cut scr fuel c lo hi id scribbles = some (c1, tr) ∧
        applyLoop cut scr fuel c lo hi id scribbles = some c1 ∧
        List.Chain NextCut (id, scribbles) tr := by
  induction fuel with
  | zero =>
    intro c lo hi id scribbles _ _ h2 h3
    omega
  | succ fuel ih =>
    intro c lo hi id scribbles L h1 h2 h3
    have hid : ((id % 256).toNat : Int) = id := by omega
    obtain ⟨c1, nMin, nMax, rem1, he, D⟩ := colorDistinctAreas_spec W H lo hi L.box scr hscr hval
      (id % 256).toNat (by omega) c L.width L.height L.len L.vals scribbles
    have hsorted := colorDistinctAreas_sorted c scr lo hi (id % 256).toNat scribbles _ he
    simp only at hsorted
    unfold applyTrace applyLoop
    rw [he]
    simp only
    have hw1 : c1._width = W := by rw [D.same]; exact L.width
    have hh1 : c1._height = H := by rw [D.same]; exact L.height
    have hl1 : c1._data.length = W * H := by rw [← D.ext.1]; exact L.len
    cases hrem : rem1 with
    | nil => exact ⟨c1, [], rfl, rfl, List.Chain.nil⟩
    | cons id1 rest =>
      simp only
      have hmem : id1 ∈ rem1 := by rw [hrem]; exact List.mem_cons_self _ _
      have hr := D.remRange id1 hmem
      rw [hid] at hr
      have hne : rem1 ≠ [] := by rw [hrem]; exact List.cons_ne_nil _ _
      obtain ⟨r1, r2, r3⟩ := runMultisegVersion_spec cut W H c1 hw1 hh1 hl1 D.vals
        (id1 % 256).toNat nMin nMax
      have L2 : LoopInv W H (runMultisegVersion cut c1 (id1 % 256).toNat nMin nMax) nMin nMax := by
        refine ⟨?_, ?_, ?_, r3, D.newBox hne, ?_⟩
        · rw [r1]
          exact hw1
        · rw [r1]
          exact hh1
        · rw [← r2.1]
          exact hl1
        · intro p hp hm
          have h4 := extends_unassigned W H _ _ r2 hl1 p hp hm
          have h5 := extends_unassigned W H _ _ D.ext L.len p hp h4
          exact (D.unassigned p (L.inBox p hp h5) h4).1
      obtain ⟨c3, tr, h3t, h3e, h3c⟩ := ih _ nMin nMax id1 rest L2 (by omega) hr.2 (by omega)
      rw [h3t, h3e]
      refine ⟨c3, (id1, id1 :: rest) :: tr, rfl, rfl, List.Chain.cons ?_ ?_⟩
      · rw [hrem] at hsorted
        refine ⟨hsorted, ?_, List.mem_cons_self _ _, ?_⟩
        · intro r hr2
          have := D.remRange r (by rw [hrem]; exact hr2)
          rw [hid] at this
          exact this
        · intro r hr2
          rcases List.mem_cons.1 hr2 with h | h
          · rw [h]
          · exact le_of_lt (List.rel_of_sorted_cons hsorted r h)
      · -- the tail of the record does not depend on the set that is passed on
        cases h3c with
        | nil => exact List.Chain.nil
        | cons hn ht => exact List.Chain.cons hn ht

/-- The ids of a record whose entries follow one another increase, and the
record has at most 255 - `a` entries. -/
theorem chain_ids (tr : List (Int × List Int)) :
    ∀ (a : Int × List Int), List.Chain NextCut a tr → a.1 ≤ 255 →
      List.Chain (· < ·) a.1 (tr.map Prod.fst) ∧ (∀ e ∈ tr, e.1 ≤ 255) ∧
        (tr.length : Int) ≤ 255 - a.1 := by
  induction tr with
  | nil =>
    intro a _ ha
    refine ⟨List.Chain.nil, fun e he => (by cases he), ?_⟩
    simp only [List.length_nil, Nat.cast_zero]
    omega
  | cons b t ih =>
    intro a hc ha
    cases hc with
    | cons hn ht =>
      have hb := hn.2.1 b.1 hn.2.2.1
      obtain ⟨h1, h2, h3⟩ := ih b ht hb.2
      refine ⟨List.Chain.cons hb.1 h1, ?_, ?_⟩
      · intro e he
        rcases List.mem_cons.1 he with h | h
        · rw [h]
          exact hb.2
        · exact h2 e h
      · simp only [List.length_cons, Nat.cast_add, Nat.cast_one]
        omega

end ColorSegments


/-! ## C28 -/

namespace ColorSegments

/-- C28: for every answer of the solver, every image size and every scribble
map with values in {-1} and 0..255, `applyScribbles` returns, and the ids of
its binary cuts, 0 first and then the values that `scribbleId` takes in the
loop, are strictly increasing: each is the smallest element of the set that
`colorDistinctAreas` has just returned, every element of that set is greater
than the id of the cut before and at most 255. Hence there are at most 256
cuts. -/
theorem C28_cut_ids_are_strictly_increasing (cut : Cut) (W H : Nat) (c_map : ColorMap)
    (scribbleData : List Int) (hw : c_map._width = W) (hh : c_map._height = H)
    (hscr : scribbleData.length = W * H)
    (hval : ∀ v ∈ scribbleData, v = -1 ∨ (0 ≤ v ∧ v ≤ 255)) :
    ∃ c1 tr, applyScribblesTrace cut W H c_map scribbleData = some (c1, tr) ∧
      applyScribbles cut W H c_map scribbleData = some c1 ∧
      List.Chain NextCut (0, initialScribbles c_map.newComputation) tr ∧
      (0 :: tr.map Prod.fst).Sorted (· < ·) ∧ (∀ e ∈ tr, e.1 ≤ 255) ∧
      tr.length + 1 ≤ 256 := by
  obtain ⟨n1, n2, n3, n4⟩ := newComputation_spec W H c_map hw hh
  obtain ⟨r1, r2, r3⟩ := runMultisegVersion_spec cut W H c_map.newComputation n3 n4 n1 n2 0
    ⟨0, 0⟩ ⟨(W : Int) - 1, (H : Int) - 1⟩
  have L : LoopInv W H
      (runMultisegVersion cut c_map.newComputation 0 ⟨0, 0⟩ ⟨(W : Int) - 1, (H : Int) - 1⟩)
      ⟨0, 0⟩ ⟨(W : Int) - 1, (H : Int) - 1⟩ := by
    refine ⟨?_, ?_, ?_, r3, ⟨le_rfl, ?_, le_rfl, ?_, ?_, ?_⟩, ?_⟩
    · rw [r1]
      exact n3
    · rw [r1]
      exact n4
    · rw [← r2.1]
      exact n1
    · simp only
      omega
    · simp only
      omega
    · simp only
      omega
    · simp only
      omega
    · intro p hp _
      obtain ⟨h1, h2, h3, h4⟩ := hp
      unfold InBox
      simp only
      omega
  obtain ⟨c1, tr, h1, h2, h3⟩ := applyTrace_spec cut W H scribbleData hscr
    (fun v hv => by rcases hval v hv with h | h <;> omega) 256 _ _ _ 0
    (initialScribbles c_map.newComputation) L le_rfl (by omega) (by omega)
  obtain ⟨k1, k2, k3⟩ := chain_ids tr _ h3 (by simp only; omega)
  refine ⟨c1, tr, h1, h2, h3, List.chain_iff_pairwise.1 k1, k2, ?_⟩
  simp only at k3
  omega

theorem C28_witness :
    ∃ c1 tr, applyScribblesTrace (fun _ _ _ _ _ => true) (3 : Nat) (1 : Nat) (ColorMap.new 3 1)
        [1, -1, 2] = some (c1, tr) ∧
      applyScribbles (fun _ _ _ _ _ => true) (3 : Nat) (1 : Nat) (ColorMap.new 3 1) [1, -1, 2] =
        some c1 ∧
      List.Chain NextCut (0, initialScribbles (ColorMap.new 3 1).newComputation) tr ∧
      (0 :: tr.map Prod.fst).Sorted (· < ·) ∧ (∀ e ∈ tr, e.1 ≤ 255) ∧
      tr.length + 1 ≤ 256 :=
  C28_cut_ids_are_strictly_increasing (fun _ _ _ _ _ => true) 3 1 (ColorMap.new 3 1)
    [1, -1, 2] rfl rfl rfl (by decide)

/-- The run of the witness of C28: after the cut for 0 there is one cut, for
the id 1, taken from the set [1, 2]. -/
theorem applyScribblesTrace_three :
    (applyScribblesTrace (fun _ _ _ _ _ => true) 3 1 (ColorMap.new 3 1) [1, -1, 2]).map
        (fun r => (r.1._data, r.2)) = some ([2, 2, 2], [(1, [1, 2])]) := by
  decide

end ColorSegments


/-! ## C31: the pixels that `treshold` sets to 1 -/

namespace ShapeFill

theorem tresholdValue_eq (c_map : ColorMap) (width : Int) (coord : vec2)
    (incidences : List Int) (seg : Nat) (w h : Int) (img : List Rat) (x : Rat)
    (hx : at? img (w + h * width) = some x) :
    tresholdValue c_map width coord incidences seg w h img =
      some (if c_map.getMaskAt (w + coord.x) (h + coord.y) = seg ∨
          (x ≥ 1 / 2 ∧ c_map.getMaskAt (w + coord.x) (h + coord.y) ∈ incidences)
        then 1 else 0) := by
  unfold tresholdValue
  simp only [hx, Option.map_some']
  by_cases h1 : c_map.getMaskAt (w + coord.x) (h + coord.y) = (seg : Int)
  · rw [if_pos (Or.inl h1), decide_eq_true h1]
    rfl
  · by_cases h2 : x ≥ 1 / 2
    · by_cases h3 : c_map.getMaskAt (w + coord.x) (h + coord.y) ∈ incidences
      · rw [if_pos (Or.inr ⟨h2, h3⟩), decide_eq_false h1, decide_eq_true h2, decide_eq_true h3]
        rfl
      · rw [if_neg (by tauto), decide_eq_false h1, decide_eq_true h2, decide_eq_false h3]
        rfl
    · rw [if_neg (by tauto), decide_eq_false h1, decide_eq_false h2]
      rfl

set_option maxRecDepth 1000000 in
theorem treshold_pair : treshold twoSegments [1, 1] 2 1 ⟨0, 0⟩ [] 1 = some [1, 0] := by
  decide!

/-- C31, as stated, fails: on the mask of the two pixels 1 and 2, for the
segment 1 with an empty incidence set and the estimate 1 in both pixels,
`treshold` leaves 0 in the second pixel, whose estimate is not below 0.5. -/
theorem C31_counterexample :
    treshold twoSegments [1, 1] 2 1 ⟨0, 0⟩ [] 1 = some [1, 0] ∧
    ([1, 1] : List Rat)[1]? = some 1 ∧ (1 : Rat) ≥ 1 / 2 ∧
    ¬ (([1, 0] : List Rat)[1]? = some 1 ↔
      ((1 : Rat) ≥ 1 / 2 ∨ twoSegments.getMaskAt (1 + 0) (0 + 0) = 1 ∨
        twoSegments.getMaskAt (1 + 0) (0 + 0) ∈ ([] : List Int))) := by
  refine ⟨treshold_pair, rfl, by norm_num, ?_⟩
  intro h
  have := h.2 (Or.inl (by norm_num))
  simp at this

/-- C31, amended: `treshold` runs through an image of the size of the window,
and it sets a pixel to 1 if and only if the mask id of the pixel is the
segment, or the estimate of the pixel is at least 0.5 and the mask id belongs
to the incidence set; every other pixel is set to 0. -/
theorem C31_treshold_sets_segment_and_estimated_pixels (c_map : ColorMap) (img : List Rat)
    (W H : Nat) (coord : vec2) (incidences : List Int) (seg : Nat)
    (hlen : img.length = W * H) :
    ∃ out, treshold c_map img W H coord incidences seg = some out ∧ out.length = W * H ∧
      ∀ w h, w < W → h < H → ∀ x, img[w + h * W]? = some x →
        (out[w + h * W]? = some 1 ↔
          (c_map.getMaskAt (w + coord.x) (h + coord.y) = seg ∨
            (x ≥ 1 / 2 ∧ c_map.getMaskAt (w + coord.x) (h + coord.y) ∈ incidences))) ∧
        (¬ (c_map.getMaskAt (w + coord.x) (h + coord.y) = seg ∨
            (x ≥ 1 / 2 ∧ c_map.getMaskAt (w + coord.x) (h + coord.y) ∈ incidences)) →
          out[w + h * W]? = some 0) := by
  obtain ⟨out, hrun, hl, hq⟩ := paint_some W H (tresholdValue c_map W coord incidences seg) img
    (fun (w h : Nat) v => ∀ x, img[w + h * W]? = some x →
      v = if c_map.getMaskAt (w + coord.x) (h + coord.y) = seg ∨
          (x ≥ 1 / 2 ∧ c_map.getMaskAt (w + coord.x) (h + coord.y) ∈ incidences)
        then 1 else 0) hlen
    (by
      intro w h buf hw hh hb hsame
      have hlt : w + h * W < buf.length := by
        rw [hb, hlen]
        exact cell_lt w h W H hw hh
      have hread : at? buf ((w : Int) + (h : Int) * (W : Int)) = some buf[w + h * W] := by
        rw [at?_cell]
        exact List.getElem?_eq_getElem hlt
      refine ⟨_, tresholdValue_eq c_map W coord incidences seg w h buf _ hread, ?_⟩
      intro x hx
      rw [← hsame, List.getElem?_eq_getElem hlt] at hx
      simp only [Option.some.injEq] at hx
      rw [hx])
  refine ⟨out, hrun, hl, ?_⟩
  intro w h hw hh x hx
  obtain ⟨v, hv, h1⟩ := hq w h hw hh
  rw [hv, h1 x hx]
  constructor
  · constructor
    · intro h2
      by_contra hn
      rw [if_neg hn] at h2
      simp at h2
    · intro h2
      rw [if_pos h2]
  · intro hn
    rw [if_neg hn]

theorem C31_witness :
    ∃ out, treshold twoSegments [1 / 5, 7 / 10] (2 : Nat) (1 : Nat) ⟨0, 0⟩ [2] 1 = some out ∧
      out.length = 2 * 1 ∧
      ∀ w h : Nat, w < 2 → h < 1 → ∀ x, ([1 / 5, 7 / 10] : List Rat)[w + h * 2]? = some x →
        (out[w + h * 2]? = some 1 ↔
          (twoSegments.getMaskAt (w + (⟨0, 0⟩ : vec2).x) (h + (⟨0, 0⟩ : vec2).y) = (1 : Nat) ∨
            (x ≥ 1 / 2 ∧
              twoSegments.getMaskAt (w + (⟨0, 0⟩ : vec2).x) (h + (⟨0, 0⟩ : vec2).y) ∈
                ([2] : List Int)))) ∧
        (¬ (twoSegments.getMaskAt (w + (⟨0, 0⟩ : vec2).x) (h + (⟨0, 0⟩ : vec2).y) = (1 : Nat) ∨
            (x ≥ 1 / 2 ∧
              twoSegments.getMaskAt (w + (⟨0, 0⟩ : vec2).x) (h + (⟨0, 0⟩ : vec2).y) ∈
                ([2] : List Int))) →
          out[w + h * 2]? = some 0) :=
  C31_treshold_sets_segment_and_estimated_pixels twoSegments [1 / 5, 7 / 10] 2 1 ⟨0, 0⟩ [2] 1
    rfl

end ShapeFill


/-! ## The border pixels of `setBoundary` and `saveByBorders` -/

open TopologicalSorting

namespace ShapeFill

/-- Every pixel of the boundary image of `setBoundary` holds the value of
`boundaryValue`. -/
theorem setBoundary_at (W H : Nat) (estimate orig : List Rat) (block : List Int)
    (c_map : ColorMap) (depth : Depth) (width height : Int) (minCoord : vec2) (seg : Nat)
    (hcw : c_map._width = W) (hch : c_map._height = H) (r : List Rat × List Rat)
    (hr : setBoundary estimate orig block c_map depth width height minCoord seg = some r)
    (w h : Nat) (hw : w < W) (hh : h < H) :
    ∃ v, r.2[w + h * W]? = some v ∧
      boundaryValue estimate orig block c_map depth width height minCoord seg w h = some v := by
  unfold setBoundary at hr
  split at hr
  · cases hr
  · rename_i im0 h0
    split at hr
    · cases hr
    · rename_i segIm h1
      split at hr
      · cases hr
      · rename_i im h2
        cases hr
        rw [hcw, hch] at h2
        exact (paint_post W H _ segIm
          (fun (w h : Nat) v => boundaryValue estimate orig block c_map depth width height
            minCoord seg w h = some v)
          (fun w h _ v _ _ _ _ hv => hv) im h2).2 w h hw hh

/-- Every pixel of the boundary image of `saveByBorders` holds the value of
`outlineValue`. -/
theorem saveByBorders_at (W H : Nat) (borders block : List Int) (seg : Nat) (orig : List Rat)
    (c_map : ColorMap) (hcw : c_map._width = W) (hch : c_map._height = H)
    (r : List Rat × List Rat)
    (hr : saveByBorders borders block seg orig c_map = some r)
    (w h : Nat) (hw : w < W) (hh : h < H) :
    ∃ v, r.2[w + h * W]? = some v ∧
      outlineValue borders block seg orig c_map w h = some v := by
  unfold saveByBorders at hr
  split at hr
  · cases hr
  · rename_i im0 h0
    split at hr
    · cases hr
    · rename_i segIm h1
      split at hr
      · cases hr
      · rename_i im h2
        cases hr
        rw [hcw, hch] at h2
        exact (paint_post W H _ segIm
          (fun (w h : Nat) v => outlineValue borders block seg orig c_map w h = some v)
          (fun w h _ v _ _ _ _ hv => hv) im h2).2 w h hw hh

theorem cor_true_left (b : Option Bool) : cor (some true) b = some true := rfl

theorem cor_false_left (b : Option Bool) : cor (some false) b = b := rfl

theorem cand_true_left (b : Option Bool) : cand (some true) b = b := rfl

theorem cand_false_left (b : Option Bool) : cand (some false) b = some false := rfl

/-- The test `a[i] == 0` on a cell that can be read. -/
theorem isAt_zero (l : List Rat) (i : Int) (h : (at? l i).isSome = true) :
    isAt l i 0 = some (decide (at? l i = some 0)) := by
  obtain ⟨x, hx⟩ := Option.isSome_iff_exists.1 h
  unfold isAt
  rw [hx]
  simp

/-- A pixel of the exported region passes the first test of `setBoundary`. -/
theorem outside_of_exported (estimate : List Rat) (ww wh : Nat) (minCoord : vec2) (w h : Int)
    (hl : estimate.length = ww * wh) (he : Exported estimate ww wh minCoord w h) :
    outside estimate ww wh minCoord w h = some false := by
  obtain ⟨h1, h2, h3, h4, h5⟩ := he
  unfold outside
  dsimp only
  have hd : decide (w - minCoord.x < 0 ∨ h - minCoord.y < 0 ∨ w - minCoord.x ≥ (ww : Int) ∨
      h - minCoord.y ≥ (wh : Int)) = false := by
    apply decide_eq_false
    omega
  rw [hd, cor_false_left,
    isAt_zero _ _ (read_ok estimate _ _ ww wh hl h1 h2 h3 h4), decide_eq_false h5]

/-- A pixel on the border of the exported region passes the test of the
border. -/
theorem onEdge_of_onBorder (estimate : List Rat) (ww wh : Nat) (minCoord : vec2) (w h : Int)
    (hl : estimate.length = ww * wh) (hb : OnBorder estimate ww wh minCoord w h) :
    onEdge estimate ww wh minCoord w h = some true := by
  obtain ⟨⟨h1, h2, h3, h4, _⟩, hb⟩ := hb
  unfold onEdge
  dsimp only
  by_cases hrim : w - minCoord.x = 0 ∨ h - minCoord.y = 0 ∨ w - minCoord.x = (ww : Int) - 1 ∨
      h - minCoord.y = (wh : Int) - 1
  · rw [decide_eq_true hrim, cor_true_left]
  · rw [decide_eq_false hrim, cor_false_left]
    have hb2 : (0 ≤ h - minCoord.y - 1 ∧
          at? estimate (w - minCoord.x + (h - minCoord.y - 1) * ww) = some 0) ∨
        (0 ≤ w - minCoord.x - 1 ∧
          at? estimate (w - minCoord.x - 1 + (h - minCoord.y) * ww) = some 0) ∨
        (w - minCoord.x + 1 < ww ∧
          at? estimate (w - minCoord.x + 1 + (h - minCoord.y) * ww) = some 0) ∨
        (h - minCoord.y + 1 < wh ∧
          at? estimate (w - minCoord.x + (h - minCoord.y + 1) * ww) = some 0) := by
      rcases hb with h | h | h | h | h
      · exact absurd (Or.inl h) hrim
      · exact absurd (Or.inr (Or.inl h)) hrim
      · exact absurd (Or.inr (Or.inr (Or.inl h))) hrim
      · exact absurd (Or.inr (Or.inr (Or.inr h))) hrim
      · exact h
    have hU : 0 ≤ h - minCoord.y - 1 := by omega
    have hL : 0 ≤ w - minCoord.x - 1 := by omega
    have hR : w - minCoord.x + 1 < (ww : Int) := by omega
    have hD : h - minCoord.y + 1 < (wh : Int) := by omega
    rw [decide_eq_true (show h - minCoord.y - 1 ≥ 0 from hU), cand_true_left,
      decide_eq_true (show w - minCoord.x - 1 ≥ 0 from hL), cand_true_left,
      decide_eq_true hR, cand_true_left, decide_eq_true hD, cand_true_left,
      isAt_zero _ _ (read_ok estimate _ _ ww wh hl h1 h2 hU (by omega)),
      isAt_zero _ _ (read_ok estimate _ _ ww wh hl hL (by omega) h3 h4),
      isAt_zero _ _ (read_ok estimate _ _ ww wh hl (by omega) hR h3 h4),
      isAt_zero _ _ (read_ok estimate _ _ ww wh hl h1 h2 (by omega) hD)]
    by_cases c1 : at? estimate (w - minCoord.x + (h - minCoord.y - 1) * ww) = some 0
    · rw [decide_eq_true c1, cor_true_left]
    · rw [decide_eq_false c1, cor_false_left]
      by_cases c2 : at? estimate (w - minCoord.x - 1 + (h - minCoord.y) * ww) = some 0
      · rw [decide_eq_true c2, cor_true_left]
      · rw [decide_eq_false c2, cor_false_left]
        by_cases c3 : at? estimate (w - minCoord.x + 1 + (h - minCoord.y) * ww) = some 0
        · rw [decide_eq_true c3, cor_true_left]
        · rw [decide_eq_false c3, cor_false_left]
          have c4 : at? estimate (w - minCoord.x + (h - minCoord.y + 1) * ww) = some 0 := by
            tauto
          rw [decide_eq_true c4]

/-- The value of `setBoundary` on a pixel of the border of the exported
region is the value of `borderClass`. -/
theorem boundaryValue_onBorder (estimate orig : List Rat) (block : List Int)
    (c_map : ColorMap) (depth : Depth) (ww wh : Nat) (minCoord : vec2) (seg : Nat) (w h : Int)
    (hl : estimate.length = ww * wh) (hb : OnBorder estimate ww wh minCoord w h) :
    boundaryValue estimate orig block c_map depth ww wh minCoord seg w h =
      borderClass orig block c_map depth seg w h := by
  unfold boundaryValue
  rw [outside_of_exported estimate ww wh minCoord w h hl hb.1,
    onEdge_of_onBorder estimate ww wh minCoord w h hl hb]

end ShapeFill


/-! ## C40 and C32: block mask and arrows on the border -/

open TopologicalSorting

namespace ShapeFill

/-- A border pixel of `setBoundary` whose block value is 1 gets 0. -/
theorem borderClass_blocked (orig : List Rat) (block : List Int) (c_map : ColorMap)
    (depth : Depth) (seg : Nat) (w h : Int)
    (hb : at? block (w + h * c_map._width) = some 1) :
    borderClass orig block c_map depth seg w h = some 0 := by
  unfold borderClass
  simp only [hb, if_true]

/-- A border pixel of `saveByBorders` whose block value is 1 gets 0. -/
theorem outlineValue_blocked (borders block : List Int) (seg : Nat) (orig : List Rat)
    (c_map : ColorMap) (w h : Int)
    (hbo : at? borders (w + h * c_map._width) = some 1)
    (hm : c_map.getMaskAt w h = seg)
    (hb : at? block (w + h * c_map._width) = some 1) :
    outlineValue borders block seg orig c_map w h = some 0 := by
  unfold outlineValue
  have h1 : holds borders (w + h * c_map._width) 1 = some true := by
    unfold holds
    rw [hbo]
    rfl
  have h2 : holds block (w + h * c_map._width) 1 = some true := by
    unfold holds
    rw [hb]
    rfl
  simp only [h1, h2, decide_eq_true hm, cand_true_left]
  cases decide (h - 1 < 0 ∨ w - 1 < 0 ∨ h + 1 ≥ c_map._height ∨ w + 1 ≥ c_map._width) <;> rfl

theorem ring_window (block : List Int) (depth : Depth) (hb : block.length = 9)
    (hn : ∀ k : Fin 3, (nodeAt depth.nodes k).isSome = true) :
    BoundaryInput 3 3 3 3 [0, 0, 0, 0, 1, 0, 0, 0, 0] [1, 1, 1, 1, 1, 1, 1, 1, 1] block
      ringMask depth 1 where
  wpos := by decide
  hpos := by decide
  cw := rfl
  ch := rfl
  est := rfl
  orig := rfl
  block := hb
  node := hn 1
  ids := by
    intro x y
    rcases ringMask_ids x y with h | h | h <;> rw [h]
    · exact ⟨by decide, hn 0⟩
    · exact ⟨by decide, hn 1⟩
    · exact ⟨by decide, hn 2⟩

theorem ring_outline (borders block : List Int) (hbo : borders.length = 9)
    (hb : block.length = 9) :
    OutlineInput 3 3 borders block [1, 1, 1, 1, 1, 1, 1, 1, 1] ringMask where
  wpos := by decide
  hpos := by decide
  cw := rfl
  ch := rfl
  borders := hbo
  orig := rfl
  block := hb

/-- The middle pixel of the window of 3 x 3 pixels is on the border of the
region of the one pixel that the estimate holds. -/
theorem ring_onBorder :
    OnBorder [0, 0, 0, 0, 1, 0, 0, 0, 0] 3 3 ⟨0, 0⟩ ((1 : Nat) : Int) ((1 : Nat) : Int) := by
  refine ⟨⟨by decide, by decide, by decide, by decide, by decide⟩, ?_⟩
  right; right; right; right; left
  exact ⟨by decide, by decide⟩

/-- C40: on inputs whose arrays have the sizes that go with the mask,
`setBoundary` and `saveByBorders` return, and every pixel on the border of the
exported region whose block value is 1 holds 0 in the boundary image, for
every graph, every depth and every intensity. For `setBoundary` the border
consists of the pixels of the region (inside of the window, estimate not 0) on
the rim of the window or next to a pixel of the window with the estimate 0;
for `saveByBorders` of the pixels of the segment that `borders` marks. -/
theorem C40_blocked_border_pixels_hold_zero (W H ww wh : Nat) (estimate orig : List Rat)
    (borders block : List Int) (c_map : ColorMap) (depth : Depth) (minCoord : vec2)
    (seg : Nat) (hin : BoundaryInput W H ww wh estimate orig block c_map depth seg)
    (hout : OutlineInput W H borders block orig c_map) :
    (∃ r, setBoundary estimate orig block c_map depth ww wh minCoord seg = some r ∧
      ∀ w h : Nat, w < W → h < H → OnBorder estimate ww wh minCoord w h →
        block[w + h * W]? = some 1 → r.2[w + h * W]? = some 0) ∧
    (∃ r, saveByBorders borders block seg orig c_map = some r ∧
      ∀ w h : Nat, w < W → h < H → borders[w + h * W]? = some 1 →
        c_map.getMaskAt w h = seg → block[w + h * W]? = some 1 →
        r.2[w + h * W]? = some 0) := by
  constructor
  · obtain ⟨r, hr, _⟩ := setBoundary_some W H ww wh estimate orig block c_map depth minCoord
      seg hin
    refine ⟨r, hr, ?_⟩
    intro w h hw hh hb hblock
    obtain ⟨v, hv, hval⟩ := setBoundary_at W H estimate orig block c_map depth ww wh minCoord
      seg hin.cw hin.ch r hr w h hw hh
    rw [boundaryValue_onBorder estimate orig block c_map depth ww wh minCoord seg w h hin.est
      hb, borderClass_blocked orig block c_map depth seg w h
        (by rw [hin.cw, at?_cell]; exact hblock)] at hval
    rw [hv, ← hval]
  · obtain ⟨r, hr, _⟩ := saveByBorders_some W H borders block seg orig c_map hout
    refine ⟨r, hr, ?_⟩
    intro w h hw hh hbo hm hblock
    obtain ⟨v, hv, hval⟩ := saveByBorders_at W H borders block seg orig c_map hout.cw hout.ch
      r hr w h hw hh
    rw [outlineValue_blocked borders block seg orig c_map w h
      (by rw [hout.cw, at?_cell]; exact hbo) hm
      (by rw [hout.cw, at?_cell]; exact hblock)] at hval
    rw [hv, ← hval]

theorem C40_witness :
    (∃ r, setBoundary [0, 0, 0, 0, 1, 0, 0, 0, 0] [1, 1, 1, 1, 1, 1, 1, 1, 1]
        [0, 0, 0, 0, 1, 0, 0, 0, 0] ringMask layers (3 : Nat) (3 : Nat) ⟨0, 0⟩ 1 = some r ∧
      ∀ w h : Nat, w < 3 → h < 3 → OnBorder [0, 0, 0, 0, 1, 0, 0, 0, 0] 3 3 ⟨0, 0⟩ w h →
        ([0, 0, 0, 0, 1, 0, 0, 0, 0] : List Int)[w + h * 3]? = some 1 →
        r.2[w + h * 3]? = some 0) ∧
    (∃ r, saveByBorders [0, 0, 0, 0, 1, 0, 0, 0, 0] [0, 0, 0, 0, 1, 0, 0, 0, 0] 1
        [1, 1, 1, 1, 1, 1, 1, 1, 1] ringMask = some r ∧
      ∀ w h : Nat, w < 3 → h < 3 →
        ([0, 0, 0, 0, 1, 0, 0, 0, 0] : List Int)[w + h * 3]? = some 1 →
        ringMask.getMaskAt w h = (1 : Nat) →
        ([0, 0, 0, 0, 1, 0, 0, 0, 0] : List Int)[w + h * 3]? = some 1 →
        r.2[w + h * 3]? = some 0) :=
  C40_blocked_border_pixels_hold_zero 3 3 3 3 [0, 0, 0, 0, 1, 0, 0, 0, 0]
    [1, 1, 1, 1, 1, 1, 1, 1, 1] [0, 0, 0, 0, 1, 0, 0, 0, 0] [0, 0, 0, 0, 1, 0, 0, 0, 0]
    ringMask layers ⟨0, 0⟩ 1 (ring_window _ layers rfl layers_nodes) (ring_outline _ _ rfl rfl)

/-- The arrows that count raise `arrType` to their type plus one at least. -/
theorem arrowType_ge (neighs : List Int) (edges : List Edge) (e : Edge) (he : e ∈ edges)
    (hn : (e.to_ : Int) ∈ neighs) : (e.type + 1) % 256 ≤ arrowType neighs edges := by
  unfold arrowType
  have key : ∀ (l : List Edge) (a : Nat),
      a ≤ l.foldl (fun a e => if (e.to_ : Int) ∈ neighs then Max.max a ((e.type + 1) % 256)
        else a) a := by
    intro l
    induction l with
    | nil => intro a; exact le_refl a
    | cons x t ih =>
      intro a
      rw [List.foldl_cons]
      refine le_trans ?_ (ih _)
      split_ifs
      · exact le_max_left _ _
      · exact le_refl a
  have main : ∀ (l : List Edge) (a : Nat), e ∈ l →
      (e.type + 1) % 256 ≤ l.foldl (fun a e => if (e.to_ : Int) ∈ neighs then
        Max.max a ((e.type + 1) % 256) else a) a := by
    intro l
    induction l with
    | nil => intro a h; cases h
    | cons x t ih =>
      intro a h
      rw [List.foldl_cons]
      rcases List.mem_cons.1 h with h | h
      · subst h
        rw [if_pos hn]
        exact le_trans (le_max_right _ _) (key t _)
      · exact ih _ h
  exact main edges 0 he

/-- With types 0 and 1 only, `arrType` is 2 at most. -/
theorem arrowType_le (neighs : List Int) (edges : List Edge)
    (ht : ∀ e ∈ edges, e.type ≤ 1) : arrowType neighs edges ≤ 2 := by
  unfold arrowType
  have main : ∀ (l : List Edge) (a : Nat), a ≤ 2 → (∀ e ∈ l, e.type ≤ 1) →
      l.foldl (fun a e => if (e.to_ : Int) ∈ neighs then Max.max a ((e.type + 1) % 256)
        else a) a ≤ 2 := by
    intro l
    induction l with
    | nil => intro a ha _; exact ha
    | cons x t ih =>
      intro a ha hl
      rw [List.foldl_cons]
      apply ih _ _ (fun e he => hl e (List.mem_cons_of_mem _ he))
      have hx := hl x (List.mem_cons_self _ _)
      split_ifs
      · have : (x.type + 1) % 256 ≤ 2 := by omega
        exact max_le ha this
      · exact ha
  exact main edges 0 (by omega) ht

/-- With an arrow of the type 1 to the segment of a neighbour, the decision
on a merge is a cut. -/
theorem mergeValue_split (orig : List Rat) (c_map : ColorMap) (depth : Depth) (seg : Nat)
    (w h : Int) (ns : Node) (hns : nodeAt depth.nodes seg = some ns)
    (ht : ∀ e ∈ ns.edgesOut, e.type ≤ 1) (e : Edge) (he : e ∈ ns.edgesOut)
    (het : e.type = 1) (hne : e.to_ ≠ seg)
    (hnb : (e.to_ : Int) = c_map.getMaskAt w (h - 1) ∨ (e.to_ : Int) = c_map.getMaskAt w (h + 1) ∨
      (e.to_ : Int) = c_map.getMaskAt (w - 1) h ∨ (e.to_ : Int) = c_map.getMaskAt (w + 1) h) :
    mergeValue orig c_map depth seg w h = some (some 0) := by
  unfold mergeValue
  simp only [hns]
  have hmem : (e.to_ : Int) ∈
      (ColorSegments.shortInsert (c_map.getMaskAt (w + 1) h)
        (ColorSegments.shortInsert (c_map.getMaskAt (w - 1) h)
          (ColorSegments.shortInsert (c_map.getMaskAt w (h + 1))
            (ColorSegments.shortInsert (c_map.getMaskAt w (h - 1)) [])))).erase (seg : Int) := by
    rw [List.mem_erase_of_ne (by exact_mod_cast hne)]
    simp only [ColorSegments.mem_shortInsert, List.not_mem_nil, or_false]
    tauto
  have h1 := arrowType_ge _ ns.edgesOut e he hmem
  have h2 := arrowType_le
    ((ColorSegments.shortInsert (c_map.getMaskAt (w + 1) h)
        (ColorSegments.shortInsert (c_map.getMaskAt (w - 1) h)
          (ColorSegments.shortInsert (c_map.getMaskAt w (h + 1))
            (ColorSegments.shortInsert (c_map.getMaskAt w (h - 1)) [])))).erase (seg : Int))
    ns.edgesOut ht
  rw [het] at h1
  have h3 : arrowType
      ((ColorSegments.shortInsert (c_map.getMaskAt (w + 1) h)
        (ColorSegments.shortInsert (c_map.getMaskAt (w - 1) h)
          (ColorSegments.shortInsert (c_map.getMaskAt w (h + 1))
            (ColorSegments.shortInsert (c_map.getMaskAt w (h - 1)) [])))).erase (seg : Int))
      ns.edgesOut = 2 := by
    have : (1 + 1) % 256 = 2 := rfl
    omega
  rw [if_pos h3]

/-- Without the block value 2 and with an arrow of the type 1 to the segment
of a neighbour, a border pixel does not get 0.25. -/
theorem borderClass_split (orig : List Rat) (block : List Int) (c_map : ColorMap)
    (depth : Depth) (seg : Nat) (w h : Int) (v : Rat)
    (hv : borderClass orig block c_map depth seg w h = some v)
    (hb : at? block (w + h * c_map._width) ≠ some 2)
    (ns : Node) (hns : nodeAt depth.nodes seg = some ns)
    (ht : ∀ e ∈ ns.edgesOut, e.type ≤ 1) (e : Edge) (he : e ∈ ns.edgesOut)
    (het : e.type = 1) (hne : e.to_ ≠ seg)
    (hnb : (e.to_ : Int) = c_map.getMaskAt w (h - 1) ∨ (e.to_ : Int) = c_map.getMaskAt w (h + 1) ∨
      (e.to_ : Int) = c_map.getMaskAt (w - 1) h ∨ (e.to_ : Int) = c_map.getMaskAt (w + 1) h) :
    v = 0 := by
  unfold borderClass at hv
  dsimp only at hv
  rw [mergeValue_split orig c_map depth seg w h ns hns ht e he het hne hnb] at hv
  split at hv
  · cases hv
  · rename_i b hbv
    have hb2 : b ≠ 2 := by
      intro h2
      rw [h2] at hbv
      exact hb hbv
    split_ifs at hv with c1 c2 c3 c4
    · cases hv; rfl
    · cases hv; rfl
    · exact absurd c3.1 hb2
    · split at hv
      · cases hv
      · cases hv; rfl
      · cases hv; rfl
    · split at hv
      · cases hv
      · cases hv; rfl
      · cases hv; rfl

end ShapeFill


/-! ## C32 -/

open TopologicalSorting

namespace ShapeFill

set_option maxRecDepth 1000000 in
theorem splitLayers_nodes : ∀ k : Fin 3, (nodeAt splitLayers.nodes k).isSome = true := by
  decide!

set_option maxRecDepth 1000000 in
theorem splitLayers_arrow :
    nodeAt splitLayers.nodes 1 = some ⟨[⟨1, 2, 1⟩], 0, 0, false⟩ := by
  decide!

set_option maxRecDepth 1000000 in
theorem split_forced :
    setBoundary [0, 0, 0, 0, 1, 0, 0, 0, 0] [1, 1, 1, 1, 1, 1, 1, 1, 1]
      [0, 0, 0, 0, 2, 0, 0, 0, 0] ringMask splitLayers 3 3 ⟨0, 0⟩ 1 =
        some ([0, 0, 0, 0, 1, 0, 0, 0, 0], [1, 1, 1, 1, 1 / 4, 1, 1, 1, 1]) := by
  decide!

/-- C32, as stated, fails: on the mask of 3 x 3 pixels with the segment 1 in
the middle of the segment 2, the arrow of the type 1 from 1 to 2 and the block
value 2 in the middle, `setBoundary` for the segment 1 stores 0.25 in the
middle pixel, which is on the border of the exported region and whose four
neighbours belong to the segment 2. -/
theorem C32_counterexample :
    setBoundary [0, 0, 0, 0, 1, 0, 0, 0, 0] [1, 1, 1, 1, 1, 1, 1, 1, 1]
      [0, 0, 0, 0, 2, 0, 0, 0, 0] ringMask splitLayers 3 3 ⟨0, 0⟩ 1 =
        some ([0, 0, 0, 0, 1, 0, 0, 0, 0], [1, 1, 1, 1, 1 / 4, 1, 1, 1, 1]) ∧
    OnBorder [0, 0, 0, 0, 1, 0, 0, 0, 0] 3 3 ⟨0, 0⟩ ((1 : Nat) : Int) ((1 : Nat) : Int) ∧
    nodeAt splitLayers.nodes 1 = some ⟨[⟨1, 2, 1⟩], 0, 0, false⟩ ∧
    ringMask.getMaskAt 1 (1 - 1) = 2 ∧
    ([1, 1, 1, 1, 1 / 4, 1, 1, 1, 1] : List Rat)[1 + 1 * 3]? = some (1 / 4) :=
  ⟨split_forced, ring_onBorder, splitLayers_arrow, by decide, rfl⟩

/-- C32, amended: on inputs whose arrays have the sizes that go with the mask,
with arrows of the types 0 and 1, `setBoundary` returns, and a pixel on the
border of the exported region whose block value is not 2 holds 0, not the
merge marker 0.25, whenever the segment has an arrow of the type 1 to another
segment that owns one of the four neighbours of the pixel; for every depth and
every intensity. -/
theorem C32_split_arrow_vetoes_the_merge (W H ww wh : Nat) (estimate orig : List Rat)
    (block : List Int) (c_map : ColorMap) (depth : Depth) (minCoord : vec2) (seg : Nat)
    (hin : BoundaryInput W H ww wh estimate orig block c_map depth seg)
    (w h : Nat) (hw : w < W) (hh : h < H)
    (hb : OnBorder estimate ww wh minCoord w h) (hblock : block[w + h * W]? ≠ some 2)
    (ns : Node) (hns : nodeAt depth.nodes seg = some ns)
    (ht : ∀ e ∈ ns.edgesOut, e.type ≤ 1) (e : Edge) (he : e ∈ ns.edgesOut)
    (het : e.type = 1) (hne : e.to_ ≠ seg)
    (hnb : (e.to_ : Int) = c_map.getMaskAt w ((h : Int) - 1) ∨
      (e.to_ : Int) = c_map.getMaskAt w ((h : Int) + 1) ∨
      (e.to_ : Int) = c_map.getMaskAt ((w : Int) - 1) h ∨
      (e.to_ : Int) = c_map.getMaskAt ((w : Int) + 1) h) :
    ∃ r, setBoundary estimate orig block c_map depth ww wh minCoord seg = some r ∧
      r.2[w + h * W]? = some 0 ∧ r.2[w + h * W]? ≠ some (1 / 4) := by
  obtain ⟨r, hr, _⟩ := setBoundary_some W H ww wh estimate orig block c_map depth minCoord
    seg hin
  obtain ⟨v, hv, hval⟩ := setBoundary_at W H estimate orig block c_map depth ww wh minCoord
    seg hin.cw hin.ch r hr w h hw hh
  rw [boundaryValue_onBorder estimate orig block c_map depth ww wh minCoord seg w h hin.est
    hb] at hval
  have h0 := borderClass_split orig block c_map depth seg w h v hval
    (by rw [hin.cw, at?_cell]; exact hblock) ns hns ht e he het hne hnb
  refine ⟨r, hr, by rw [hv, h0], ?_⟩
  rw [hv, h0]
  intro h2
  simp only [Option.some.injEq] at h2
  norm_num at h2

theorem C32_witness :
    ∃ r, setBoundary [0, 0, 0, 0, 1, 0, 0, 0, 0] [1, 1, 1, 1, 1, 1, 1, 1, 1]
        [0, 0, 0, 0, 0, 0, 0, 0, 0] ringMask splitLayers (3 : Nat) (3 : Nat) ⟨0, 0⟩ 1 = some r ∧
      r.2[1 + 1 * 3]? = some 0 ∧ r.2[1 + 1 * 3]? ≠ some (1 / 4) :=
  C32_split_arrow_vetoes_the_merge 3 3 3 3 [0, 0, 0, 0, 1, 0, 0, 0, 0]
    [1, 1, 1, 1, 1, 1, 1, 1, 1] [0, 0, 0, 0, 0, 0, 0, 0, 0] ringMask splitLayers ⟨0, 0⟩ 1
    (ring_window _ splitLayers rfl splitLayers_nodes) 1 1 (by decide) (by decide)
    ring_onBorder (by decide) ⟨[⟨1, 2, 1⟩], 0, 0, false⟩ splitLayers_arrow
    (by decide) ⟨1, 2, 1⟩ (by decide) rfl (by decide) (Or.inl (by decide))

end ShapeFill


/-! ## The pixels that `scaleUp` excludes and the pixels that it fills -/

namespace ShapeFill

theorem clamped_sample (scaled : List Rat) (sw sh x y : Nat) (hl : scaled.length = sw * sh)
    (hx : x < sw) (hy : y < sh) (z : Int) (hz : z = ((x + y * sw : Nat) : Int)) :
    clamped scaled z = some (sample scaled sw x y) := by
  have hk : x + y * sw < scaled.length := by
    rw [hl]
    exact cell_lt x y sw sh hx hy
  unfold clamped sample
  rw [at?_nat scaled z _ hz, List.getElem?_eq_getElem hk]
  simp only [Option.map_some', Option.getD_some, Option.some.injEq]
  split_ifs with h0
  · rw [max_eq_left (le_of_lt h0)]
  · rw [max_eq_right (not_lt.1 h0)]

theorem sample_nonneg (scaled : List Rat) (sw x y : Nat) : 0 ≤ sample scaled sw x y :=
  le_max_left _ _

theorem interpolation_nonneg (scaled : List Rat) (sw w h : Nat) :
    0 ≤ interpolation scaled sw w h := by
  unfold interpolation
  dsimp only
  have hw1 : ((w % 2 : Nat) : Rat) ≤ 1 := by
    exact_mod_cast (by omega : w % 2 ≤ 1)
  have hh1 : ((h % 2 : Nat) : Rat) ≤ 1 := by
    exact_mod_cast (by omega : h % 2 ≤ 1)
  have hw0 : (0 : Rat) ≤ ((w % 2 : Nat) : Rat) := Nat.cast_nonneg _
  have hh0 : (0 : Rat) ≤ ((h % 2 : Nat) : Rat) := Nat.cast_nonneg _
  have fx0 : (0 : Rat) ≤ ((w % 2 : Nat) : Rat) / 2 := by linarith
  have fy0 : (0 : Rat) ≤ ((h % 2 : Nat) : Rat) / 2 := by linarith
  have a1 : (0 : Rat) ≤ 1 - ((w % 2 : Nat) : Rat) / 2 := by linarith
  have a2 : (0 : Rat) ≤ 1 - ((h % 2 : Nat) : Rat) / 2 := by linarith
  have s00 := sample_nonneg scaled sw (w / 2) (h / 2)
  have s10 := sample_nonneg scaled sw (w / 2 + 1) (h / 2)
  have s01 := sample_nonneg scaled sw (w / 2) (h / 2 + 1)
  have s11 := sample_nonneg scaled sw (w / 2 + 1) (h / 2 + 1)
  exact add_nonneg (add_nonneg (add_nonneg (mul_nonneg (mul_nonneg s00 a1) a2)
    (mul_nonneg (mul_nonneg s10 fx0) a2)) (mul_nonneg (mul_nonneg s01 a1) fy0))
    (mul_nonneg (mul_nonneg s11 fx0) fy0)

/-- The value that `scaleUp` stores at (w, h). -/
theorem scaleUpValue_eq (scaled : List Rat) (W sw sh w h : Nat) (buf : List Rat) (x : Rat)
    (hl : scaled.length = sw * sh) (hw : w / 2 + 1 < sw) (hh : h / 2 + 1 < sh)
    (hx : at? buf ((w : Int) + (h : Int) * (W : Int)) = some x) :
    scaleUpValue scaled W sw w h buf =
      some (if x ≠ 0 then -1 else interpolation scaled sw w h) := by
  unfold scaleUpValue
  rw [hx]
  dsimp only
  by_cases h0 : x ≠ 0
  · rw [if_pos h0, if_pos h0]
  · rw [if_neg h0, if_neg h0, toInt_half, toInt_half, toInt_scale,
      clamped_sample scaled sw sh (w / 2) (h / 2) hl (by omega) (by omega) _
        (by push_cast; ring),
      clamped_sample scaled sw sh (w / 2 + 1) (h / 2) hl (by omega) (by omega) _
        (by push_cast; ring),
      clamped_sample scaled sw sh (w / 2) (h / 2 + 1) hl (by omega) (by omega) _
        (by push_cast; ring),
      clamped_sample scaled sw sh (w / 2 + 1) (h / 2 + 1) hl (by omega) (by omega) _
        (by push_cast; ring)]
    unfold interpolation scale
    dsimp only
    have e1 : ((((w : Int) % 2 : Int)) : Rat) = ((w % 2 : Nat) : Rat) := by
      have : (w : Int) % 2 = ((w % 2 : Nat) : Int) := by omega
      rw [this]
      norm_cast
    have e2 : ((((h : Int) % 2 : Int)) : Rat) = ((h % 2 : Nat) : Rat) := by
      have : (h : Int) % 2 = ((h % 2 : Nat) : Int) := by omega
      rw [this]
      norm_cast
    rw [e1, e2]

set_option maxRecDepth 1000000 in
theorem scaleUp_grey : scaleUp [1 / 2] [0, 0, 0, 0] 1 1 2 = some [-1] := by
  decide!

/-- The pixels of `scaleUp`, one by one. -/
theorem scaleUp_cells (W H sw sh : Nat) (img scaled : List Rat)
    (hlen : img.length = W * H) (hl : scaled.length = sw * sh)
    (hsw : (W + 1) / 2 + 1 ≤ sw) (hsh : (H + 1) / 2 + 1 ≤ sh) :
    ∃ out, scaleUp img scaled W H sw = some out ∧ out.length = W * H ∧
      ∀ w h, w < W → h < H → ∀ x, img[w + h * W]? = some x →
        (out[w + h * W]? = some (-1) ↔ x ≠ 0) ∧
        (x = 0 → out[w + h * W]? = some (interpolation scaled sw w h)) := by
  obtain ⟨out, hrun, hl1, hq⟩ := paint_some W H (scaleUpValue scaled W sw) img
    (fun (w h : Nat) v => ∀ x, img[w + h * W]? = some x →
      v = if x ≠ 0 then -1 else interpolation scaled sw w h) hlen
    (by
      intro w h buf hw hh hb hsame
      have hlt : w + h * W < buf.length := by
        rw [hb, hlen]
        exact cell_lt w h W H hw hh
      have hread : at? buf ((w : Int) + (h : Int) * (W : Int)) = some buf[w + h * W] := by
        rw [at?_cell]
        exact List.getElem?_eq_getElem hlt
      refine ⟨_, scaleUpValue_eq scaled W sw sh w h buf _ hl (by omega) (by omega) hread, ?_⟩
      intro x hx
      rw [← hsame, List.getElem?_eq_getElem hlt] at hx
      simp only [Option.some.injEq] at hx
      rw [hx])
  refine ⟨out, hrun, hl1, ?_⟩
  intro w h hw hh x hx
  obtain ⟨v, hv, h1⟩ := hq w h hw hh
  rw [hv, h1 x hx]
  refine ⟨⟨fun h2 => ?_, fun h2 => by rw [if_pos h2]⟩, fun h2 => by rw [if_neg (not_not.2 h2)]⟩
  intro h3
  rw [if_neg (not_not.2 h3)] at h2
  simp only [Option.some.injEq] at h2
  have := interpolation_nonneg scaled sw w h
  rw [h2] at this
  norm_num at this

end ShapeFill


/-! ## C33: the blocks of `scaleDown` -/

namespace ShapeFill

/-- The counters after one pixel inside of the image. -/
theorem countPixel_eq (img : List Rat) (W H r c : Nat) (hlen : img.length = W * H)
    (hv : ∀ v ∈ img, v = 0 ∨ v = 1 / 2 ∨ v = 1) (hr : r < H) (hc : c < W)
    (cnts : Int × Int) :
    countPixel img W r c cnts =
      some (cnts.1 + (holdsAt img W H c r 0 : Nat), cnts.2 + (holdsAt img W H c r 1 : Nat)) := by
  have hlt : r * W + c < img.length := by
    rw [hlen]
    have := cell_lt c r W H hc hr
    omega
  have hread : at? img ((r : Int) * (W : Int) + (c : Int)) = some img[r * W + c] := by
    rw [at?_nat img _ (r * W + c) (by push_cast; ring)]
    exact List.getElem?_eq_getElem hlt
  unfold countPixel holdsAt
  rw [hread, List.getElem?_eq_getElem hlt]
  dsimp only
  rcases hv _ (List.getElem_mem hlt) with h0 | h0 | h0 <;> rw [h0]
  · rw [if_pos (by norm_num), toInt_zero, if_pos rfl, if_pos ⟨hc, hr, rfl⟩,
      if_neg (by rintro ⟨_, _, h⟩; simp at h)]
    simp
  · rw [if_neg (by norm_num), if_neg (by rintro ⟨_, _, h⟩; simp at h),
      if_neg (by rintro ⟨_, _, h⟩; simp only [Option.some.injEq] at h; norm_num at h)]
    simp
  · rw [if_pos (by norm_num), toInt_one, if_neg (by decide), if_pos rfl,
      if_neg (by rintro ⟨_, _, h⟩; simp at h), if_pos ⟨hc, hr, rfl⟩]
    simp

theorem holdsAt_outside (img : List Rat) (W H c r : Nat) (v : Rat) (h : W ≤ c ∨ H ≤ r) :
    holdsAt img W H c r v = 0 := by
  unfold holdsAt
  rw [if_neg (by omega)]

/-- The counters after one step of the loop over `j`. -/
theorem countCol_eq (img : List Rat) (W H r x : Nat) (hlen : img.length = W * H)
    (hv : ∀ v ∈ img, v = 0 ∨ v = 1 / 2 ∨ v = 1) (hr : r < H) (cnts : Int × Int) (j : Nat) :
    countCol img W r (2 * (x : Int)) cnts j =
      some (cnts.1 + (holdsAt img W H (2 * x + j) r 0 : Nat),
        cnts.2 + (holdsAt img W H (2 * x + j) r 1 : Nat)) := by
  unfold countCol
  by_cases hc : 2 * x + j < W
  · rw [if_neg (by omega)]
    have := countPixel_eq img W H r (2 * x + j) hlen hv hr hc cnts
    rw [← this]
    congr 1
    push_cast
    ring
  · rw [if_pos (by omega), holdsAt_outside img W H _ r 0 (Or.inl (by omega)),
      holdsAt_outside img W H _ r 1 (Or.inl (by omega))]
    simp

/-- The counters after one step of the loop over `i`. -/
theorem countRow_eq (img : List Rat) (W H x y : Nat) (hlen : img.length = W * H)
    (hv : ∀ v ∈ img, v = 0 ∨ v = 1 / 2 ∨ v = 1) (cnts : Int × Int) (i : Nat) :
    countRow img W H (2 * (y : Int)) (2 * (x : Int)) cnts i =
      some (cnts.1 + (holdsAt img W H (2 * x) (2 * y + i) 0 : Nat)
          + (holdsAt img W H (2 * x + 1) (2 * y + i) 0 : Nat),
        cnts.2 + (holdsAt img W H (2 * x) (2 * y + i) 1 : Nat)
          + (holdsAt img W H (2 * x + 1) (2 * y + i) 1 : Nat)) := by
  unfold countRow
  by_cases hr : 2 * y + i < H
  · rw [if_neg (by omega), steps_eq]
    have hrow : (i : Int) + 2 * (y : Int) = ((2 * y + i : Nat) : Int) := by
      push_cast
      ring
    rw [hrow]
    simp only [List.foldlM_cons, List.foldlM_nil]
    have c0 := countCol_eq img W H (2 * y + i) x hlen hv hr cnts 0
    simp only [Nat.cast_zero, Nat.add_zero] at c0
    rw [c0]
    simp only [Option.bind_eq_bind, Option.some_bind, Option.pure_def]
    have c1 := countCol_eq img W H (2 * y + i) x hlen hv hr
      (cnts.1 + (holdsAt img W H (2 * x) (2 * y + i) 0 : Nat),
        cnts.2 + (holdsAt img W H (2 * x) (2 * y + i) 1 : Nat)) 1
    simp only [Nat.cast_one] at c1
    rw [c1]
    rfl
  · rw [if_pos (by omega), holdsAt_outside img W H _ _ 0 (Or.inr (by omega)),
      holdsAt_outside img W H _ _ 0 (Or.inr (by omega)),
      holdsAt_outside img W H _ _ 1 (Or.inr (by omega)),
      holdsAt_outside img W H _ _ 1 (Or.inr (by omega))]
    simp

/-- The value of a pixel of the small image is the summary of its block. -/
theorem blockValue_eq (img : List Rat) (W H x y : Nat) (hlen : img.length = W * H)
    (hv : ∀ v ∈ img, v = 0 ∨ v = 1 / 2 ∨ v = 1) :
    blockValue img W H x y = some (summary img W H x y) := by
  unfold blockValue
  dsimp only
  rw [toInt_double, toInt_double, steps_eq]
  simp only [List.foldlM_cons, List.foldlM_nil]
  have r0 := countRow_eq img W H x y hlen hv (0, 0) 0
  simp only [Nat.cast_zero, Nat.add_zero] at r0
  rw [r0]
  simp only [Option.bind_eq_bind, Option.some_bind, Option.pure_def]
  have r1 := countRow_eq img W H x y hlen hv
    ((0 : Int) + (holdsAt img W H (2 * x) (2 * y) 0 : Nat)
        + (holdsAt img W H (2 * x + 1) (2 * y) 0 : Nat),
      (0 : Int) + (holdsAt img W H (2 * x) (2 * y) 1 : Nat)
        + (holdsAt img W H (2 * x + 1) (2 * y) 1 : Nat)) 1
  simp only [Nat.cast_one] at r1
  rw [r1]
  simp only [Option.some_bind]
  have e0 : (0 : Int) + (holdsAt img W H (2 * x) (2 * y) 0 : Nat)
      + (holdsAt img W H (2 * x + 1) (2 * y) 0 : Nat)
      + (holdsAt img W H (2 * x) (2 * y + 1) 0 : Nat)
      + (holdsAt img W H (2 * x + 1) (2 * y + 1) 0 : Nat)
      = ((blockCount img W H x y 0 : Nat) : Int) := by
    unfold blockCount
    push_cast
    ring
  have e1 : (0 : Int) + (holdsAt img W H (2 * x) (2 * y) 1 : Nat)
      + (holdsAt img W H (2 * x + 1) (2 * y) 1 : Nat)
      + (holdsAt img W H (2 * x) (2 * y + 1) 1 : Nat)
      + (holdsAt img W H (2 * x + 1) (2 * y + 1) 1 : Nat)
      = ((blockCount img W H x y 1 : Nat) : Int) := by
    unfold blockCount
    push_cast
    ring
  rw [e0, e1]
  unfold summary
  have hsc : scale * scale / 2 = ((2 : Nat) : Rat) := by
    unfold scale
    norm_num
  by_cases hfew : blockCount img W H x y 0 + blockCount img W H x y 1 < 2
  · rw [if_pos hfew, if_pos]
    right
    rw [hsc]
    exact_mod_cast hfew
  · rw [if_neg hfew, if_neg]
    · by_cases hz : blockCount img W H x y 0 > blockCount img W H x y 1
      · rw [if_pos hz, if_pos (by exact_mod_cast hz)]
      · rw [if_neg hz, if_neg (by
          intro h
          apply hz
          exact_mod_cast h)]
    · rintro (⟨h0, h1⟩ | h)
      · have a0 : blockCount img W H x y 0 = 0 := by exact_mod_cast h0
        have a1 : blockCount img W H x y 1 = 0 := by exact_mod_cast h1
        omega
      · rw [hsc] at h
        apply hfew
        exact_mod_cast h

end ShapeFill


/-! ## C33 -/

namespace ShapeFill

/-- C33: for an image of `W` x `H` pixels over the values 0, 0.5 and 1,
`scaleDown` returns an image of ((W + 1) / 2 + 1) x ((H + 1) / 2 + 1) pixels,
which is ceil(W / 2) + 1 by ceil(H / 2) + 1, and the pixel (x, y) of it holds
the summary of the block of 2 x 2 pixels at (2x, 2y), clipped to the image: 0.5
when fewer than two pixels of the block hold 0 or 1, else 0 when the zeros are
more than the ones, else 1. -/
theorem C33_scaleDown_summarises_blocks (W H : Nat) (img : List Rat)
    (hlen : img.length = W * H) (hv : ∀ v ∈ img, v = 0 ∨ v = 1 / 2 ∨ v = 1) :
    ∃ small, scaleDown img W H
        = some (small, (((W + 1) / 2 + 1 : Nat) : Int), (((H + 1) / 2 + 1 : Nat) : Int)) ∧
      small.length = ((W + 1) / 2 + 1) * ((H + 1) / 2 + 1) ∧
      (⌈((W : Int) : Rat) / 2⌉ + 1 = (((W + 1) / 2 + 1 : Nat) : Int)) ∧
      (⌈((H : Int) : Rat) / 2⌉ + 1 = (((H + 1) / 2 + 1 : Nat) : Int)) ∧
      ∀ x y, x < (W + 1) / 2 + 1 → y < (H + 1) / 2 + 1 →
        small[x + y * ((W + 1) / 2 + 1)]? = some (summary img W H x y) := by
  unfold scaleDown
  dsimp only
  rw [newExtent W, newExtent H]
  have hsz : ((((W + 1) / 2 + 1 : Nat) : Int) * (((H + 1) / 2 + 1 : Nat) : Int)).toNat
      = ((W + 1) / 2 + 1) * ((H + 1) / 2 + 1) := by
    have : (((W + 1) / 2 + 1 : Nat) : Int) * (((H + 1) / 2 + 1 : Nat) : Int)
        = ((((W + 1) / 2 + 1) * ((H + 1) / 2 + 1) : Nat) : Int) := by push_cast; rfl
    rw [this, Int.toNat_ofNat]
  rw [hsz]
  obtain ⟨small, hrun, hl, hq⟩ := paint_some ((W + 1) / 2 + 1) ((H + 1) / 2 + 1)
    (fun w h _ => blockValue img W H w h)
    (List.replicate (((W + 1) / 2 + 1) * ((H + 1) / 2 + 1)) 0)
    (fun x y v => v = summary img W H x y)
    (List.length_replicate _ _)
    (fun x y _ _ _ _ _ => ⟨_, blockValue_eq img W H x y hlen hv, rfl⟩)
  rw [hrun]
  have hc : ∀ n : Nat, ⌈((n : Int) : Rat) / 2⌉ + 1 = (((n + 1) / 2 + 1 : Nat) : Int) := by
    intro n
    have := ceil_half n
    unfold scale at this
    rw [this]
    push_cast
    rfl
  refine ⟨small, rfl, hl, hc W, hc H, ?_⟩
  intro x y hx hy
  obtain ⟨v, hv1, hv2⟩ := hq x y hx hy
  rw [hv1, hv2]

theorem C33_witness :
    ∃ small, scaleDown [0, 0, 1, 1 / 2, 1, 1] (3 : Nat) (2 : Nat)
        = some (small, (((3 + 1) / 2 + 1 : Nat) : Int), (((2 + 1) / 2 + 1 : Nat) : Int)) ∧
      small.length = ((3 + 1) / 2 + 1) * ((2 + 1) / 2 + 1) ∧
      (⌈(((3 : Nat) : Int) : Rat) / 2⌉ + 1 = (((3 + 1) / 2 + 1 : Nat) : Int)) ∧
      (⌈(((2 : Nat) : Int) : Rat) / 2⌉ + 1 = (((2 + 1) / 2 + 1 : Nat) : Int)) ∧
      ∀ x y, x < (3 + 1) / 2 + 1 → y < (2 + 1) / 2 + 1 →
        small[x + y * ((3 + 1) / 2 + 1)]? = some (summary [0, 0, 1, 1 / 2, 1, 1] 3 2 x y) :=
  C33_scaleDown_summarises_blocks 3 2 [0, 0, 1, 1 / 2, 1, 1] rfl (by
    intro v hv
    simp only [List.mem_cons, List.mem_singleton, List.not_mem_nil, or_false] at hv
    rcases hv with h | h | h | h | h | h <;> rw [h] <;> norm_num)

set_option maxRecDepth 1000000 in
theorem scaleDown_six :
    scaleDown [0, 0, 1, 1 / 2, 1, 1] 3 2 = some ([0, 1, 1 / 2, 1 / 2, 1 / 2, 1 / 2], 3, 2) := by
  decide!

end ShapeFill


/-! ## C34: the active id after `consolidate` -/

namespace ColorMap

theorem threeSoft_built : Built threeSoft := by
  unfold threeSoft
  exact Built.newSegment _ _ (Built.newSegment _ _ (Built.newSegment _ _ (Built.new 2 2)))

set_option maxRecDepth 1000000 in
theorem threeSoft_state :
    threeSoft._active = 130 ∧ threeSoft.count 0 = 1 ∧ threeSoft.count 1 = 3 := by
  unfold threeSoft
  decide!

set_option maxRecDepth 1000000 in
theorem threeSoft_active :
    (consolidate threeSoft [128, 130] [] 1).map (fun r => r.1._active) = some 1 := by
  unfold threeSoft
  decide!

set_option maxRecDepth 1000000 in
theorem threeSoft_counts :
    (consolidate threeSoft [128, 130] [] 1).map (fun r => (r.1.count 0, r.1.count 1)) =
      some (1, 2) := by
  unfold threeSoft
  decide!

set_option maxRecDepth 1000000 in
theorem threeSoft_changes :
    (consolidate threeSoft [128, 130] [] 1).map (fun r => r.2) = some ([], [(130, 129)]) := by
  unfold threeSoft
  decide!

/-- C34 at an input on which the code departs from it: three soft scribbles
128, 129, 130 with 130 active, of which 129 has been painted over, so that
`consolidate` is called with the ids 128 and 130 for the type 1. The soft id
130 moves to 129 and two soft ids remain, so that the last soft id is 129, but
the active id afterwards is 1. In general the active id of the type `t`
becomes `_scribbleCount[t] - 1` (as a `BYTE`), without the offset 128 * t. -/
theorem C34_soft_active_id_loses_the_offset :
    Built threeSoft ∧ threeSoft._active = 130 ∧ threeSoft.count 1 = 3 ∧
    (consolidate threeSoft [128, 130] [] 1).map (fun r => r.2) = some ([], [(130, 129)]) ∧
    (consolidate threeSoft [128, 130] [] 1).map (fun r => (r.1.count 0, r.1.count 1)) =
      some (1, 2) ∧
    (consolidate threeSoft [128, 130] [] 1).map (fun r => r.1._active) = some 1 ∧
    (1 : Int) ≠ 128 * 1 + 2 - 1 ∧
    ∀ (c : ColorMap) (found : List Nat) (changes : List (Nat × Nat)) (t : Nat)
      (r : ColorMap × List Nat × List (Nat × Nat)),
      consolidate c found changes t = some r → t * 128 ≤ c._active →
      (c._active : Int) < ((t : Int) + 1) * 128 →
      r.1._active = ((r.1.count t - 1) % 256).toNat := by
  refine ⟨threeSoft_built, threeSoft_state.1, threeSoft_state.2.2, threeSoft_changes,
    threeSoft_counts, threeSoft_active, by decide, ?_⟩
  intro c found changes t r hr h1 h2
  unfold consolidate at hr
  dsimp only at hr
  split at hr
  · cases hr
  · rename_i found1 colors1 changes1 _
    have ha : (c.setCount t found.length)._active = c._active := rfl
    rw [if_pos ⟨by rw [ha]; exact h1, by rw [ha]; exact h2⟩] at hr
    cases hr
    rfl

end ColorMap


/-! ## What the loops of `Depth` keep, whatever the counters hold -/

open TopologicalSorting

namespace Depth

theorem relaxEdges_targets (es : List Edge) (nodes : List (Option Node)) (S : List Nat)
    (r : List (Option Node) × List Nat) (h : relaxEdges es nodes S = some r) :
    TargetsEq r.1 nodes := by
  induction es generalizing nodes S with
  | nil =>
    simp only [relaxEdges, Option.some.injEq] at h
    subst h
    exact TargetsEq.teRefl _
  | cons e es ih =>
    unfold relaxEdges at h
    cases hn : nodeAt nodes e.to_ with
    | none => simp [hn] at h
    | some n =>
      simp only [hn] at h
      exact (ih _ _ h).teTrans (targetsEq_set _ hn rfl)

theorem kahnLoop_targets (fuel : Nat) (nodes : List (Option Node)) (S sorted : List Nat)
    (r : List (Option Node) × List Nat × List Nat) (h : kahnLoop fuel nodes S sorted = some r) :
    TargetsEq r.1 nodes ∧ r.2.1 = [] ∧ ∃ t, r.2.2 = sorted ++ S.take 1 ++ t := by
  induction fuel generalizing nodes S sorted with
  | zero =>
    cases S with
    | nil =>
      simp only [kahnLoop, Option.some.injEq] at h
      subst h
      exact ⟨TargetsEq.teRefl _, rfl, [], by simp⟩
    | cons c rest => simp [kahnLoop] at h
  | succ fuel ih =>
    cases S with
    | nil =>
      simp only [kahnLoop, Option.some.injEq] at h
      subst h
      exact ⟨TargetsEq.teRefl _, rfl, [], by simp⟩
    | cons c rest =>
      unfold kahnLoop at h
      cases hn : nodeAt nodes c with
      | none => simp [hn] at h
      | some n =>
        simp only [hn] at h
        split_ifs at h with hu
        · obtain ⟨h1, h2, t, h3⟩ := ih _ _ _ h
          exact ⟨h1, h2, rest.take 1 ++ t, by simp [h3]⟩
        · cases hr : relaxEdges n.edgesOut nodes rest with
          | none => simp [hr] at h
          | some p =>
            obtain ⟨nodes1, S1⟩ := p
            simp only [hr] at h
            have ht1 := relaxEdges_targets _ _ _ _ hr
            cases hn1 : nodeAt nodes1 c with
            | none => simp [hn1] at h
            | some n1 =>
              simp only [hn1] at h
              obtain ⟨h1, h2, t, h3⟩ := ih _ _ _ h
              exact ⟨(h1.teTrans (targetsEq_set _ hn1 rfl)).teTrans ht1, h2,
                S1.take 1 ++ t, by simp [h3]⟩

theorem countEdges_keeps (es : List Edge) (nodes : List (Option Node)) (S : List Nat)
    (r : List (Option Node) × List Nat) (h : countEdges es nodes S = some r)
    (hS : S.Sorted (· < ·)) :
    TargetsEq r.1 nodes ∧ r.2.Sorted (· < ·) ∧
      ∀ v, v ∈ S → (∀ e ∈ es, e.to_ ≠ v) → v ∈ r.2 := by
  induction es generalizing nodes S with
  | nil =>
    simp only [countEdges, Option.some.injEq] at h
    subst h
    exact ⟨TargetsEq.teRefl _, hS, fun v hv _ => hv⟩
  | cons e es ih =>
    unfold countEdges at h
    cases hn : nodeAt nodes e.to_ with
    | none => simp [hn] at h
    | some n =>
      simp only [hn] at h
      have hS1 : (if n.incomingEdges + 1 = 1 then S.erase e.to_ else S).Sorted (· < ·) := by
        split_ifs
        · exact sorted_erase hS _
        · exact hS
      obtain ⟨h1, h2, h3⟩ := ih _ _ h hS1
      refine ⟨h1.teTrans (targetsEq_set _ hn rfl), h2, fun v hv hne => ?_⟩
      apply h3 v
      · split_ifs
        · exact (mem_erase_sorted hS _ _).2
            ⟨fun hv2 => hne e (List.mem_cons_self _ _) hv2.symm, hv⟩
        · exact hv
      · exact fun e1 he1 => hne e1 (List.mem_cons_of_mem _ he1)

theorem resetCounts_keeps (rest nodes : List (Option Node)) (S : List Nat)
    (r : List (Option Node) × List Nat) (h : resetCounts rest nodes S = some r)
    (hS : S.Sorted (· < ·)) :
    TargetsEq r.1 nodes ∧ r.2.Sorted (· < ·) ∧
      ∀ v, v ∈ S → (∀ n, some n ∈ rest → ∀ e ∈ n.edgesOut, e.to_ ≠ v) → v ∈ r.2 := by
  induction rest generalizing nodes S with
  | nil =>
    simp only [resetCounts, Option.some.injEq] at h
    subst h
    exact ⟨TargetsEq.teRefl _, hS, fun v hv _ => hv⟩
  | cons o rest ih =>
    cases o with
    | none =>
      simp only [resetCounts] at h
      obtain ⟨h1, h2, h3⟩ := ih _ _ h hS
      exact ⟨h1, h2, fun v hv hne => h3 v hv (fun n hn => hne n (List.mem_cons_of_mem _ hn))⟩
    | some n =>
      simp only [resetCounts] at h
      cases hc : countEdges n.edgesOut nodes S with
      | none => simp [hc] at h
      | some p =>
        obtain ⟨nodes1, S1⟩ := p
        simp only [hc] at h
        obtain ⟨c1, c2, c3⟩ := countEdges_keeps _ _ _ _ hc hS
        obtain ⟨h1, h2, h3⟩ := ih _ _ h c2
        refine ⟨h1.teTrans c1, h2, fun v hv hne => ?_⟩
        exact h3 v (c3 v hv (hne n (List.mem_cons_self _ _)))
          (fun m hm => hne m (List.mem_cons_of_mem _ hm))

theorem targetsEq_clear (nodes : List (Option Node)) :
    TargetsEq (nodes.map (Option.map Node.clear)) nodes := by
  refine ⟨by simp, fun v => ?_⟩
  rw [nodeAt_map]
  cases nodeAt nodes v <;> simp [Node.clear]

end Depth


/-! ## Node 0 stays a starting node -/

open TopologicalSorting

namespace Depth

theorem clean_targets {n m : List (Option Node)} {b : Bool} (h : Clean n b)
    (ht : TargetsEq m n) : Clean m b :=
  ⟨ht.1.trans h.1, fun u v huv => h.2.1 u v ((ht.teHasEdge u v).1 huv),
    (ht.teIsSome 0).trans h.2.2⟩

theorem clean_materialise {n : List (Option Node)} {b : Bool} (h : Clean n b) {i : Nat}
    (h0 : i ≠ 0) (hi : i < 256) : Clean (materialise n i) b := by
  have hlt : i < n.length := by rw [h.1]; exact hi
  refine ⟨(materialise_length n i).trans h.1, fun u v huv => h.2.1 u v ?_, ?_⟩
  · unfold HasEdge at huv ⊢
    rw [outs_materialise hlt] at huv
    exact huv
  · rw [nodeAt_materialise hlt, if_neg (Ne.symm h0)]
    exact h.2.2

theorem clean_set {n : List (Option Node)} {b : Bool} (h : Clean n b) {i : Nat} {x : Node}
    (hx : nodeAt n i = some x) (m : Node) (hm : ∀ e ∈ m.edgesOut, e.to_ ≠ 0) :
    Clean (n.set i (some m)) b := by
  have hlt := nodeAt_lt hx
  refine ⟨by rw [List.length_set]; exact h.1, ?_, ?_⟩
  · rintro u v ⟨e, he, rfl⟩
    unfold outs at he
    rw [nodeAt_set m u hlt] at he
    split_ifs at he with hu
    · exact hm e he
    · exact h.2.1 u e.to_ ⟨e, he, rfl⟩
  · rw [nodeAt_set m 0 hlt]
    split_ifs with hu
    · rw [← h.2.2, hu, hx]
      rfl
    · exact h.2.2

theorem clean_outs {n : List (Option Node)} {b : Bool} (h : Clean n b) {i : Nat} {x : Node}
    (hx : nodeAt n i = some x) : ∀ e ∈ x.edgesOut, e.to_ ≠ 0 := by
  intro e he
  exact h.2.1 i e.to_ ⟨e, by rw [outs_of_nodeAt hx]; exact he, rfl⟩

theorem computationReset_keeps (d d1 : Depth) (b : Bool) (h : computationReset d = some d1)
    (hc : Clean d.nodes b) (hS : d.startingNodes.Sorted (· < ·)) :
    Clean d1.nodes b ∧ d1.startingNodes.Sorted (· < ·) ∧ (b = true → 0 ∈ d1.startingNodes) ∧
      d1.order = d.order := by
  obtain ⟨hm1, hm2, hm3⟩ := resetMarks_spec 0 d.nodes d.startingNodes (by rw [hc.1])
  have hcl : Clean (resetMarks 0 d.nodes d.startingNodes).1 b := by
    rw [hm1]
    exact clean_targets hc (targetsEq_clear _)
  unfold computationReset at h
  dsimp only at h
  cases hr : resetCounts (resetMarks 0 d.nodes d.startingNodes).1
      (resetMarks 0 d.nodes d.startingNodes).1 (resetMarks 0 d.nodes d.startingNodes).2 with
  | none => simp [hr] at h
  | some p =>
    obtain ⟨nodes1, S1⟩ := p
    simp only [hr, Option.some.injEq] at h
    subst h
    obtain ⟨h1, h2, h3⟩ := resetCounts_keeps _ _ _ _ hr (hm2 hS)
    refine ⟨clean_targets hcl h1, h2, fun hb => ?_, rfl⟩
    apply h3 0
    · rw [hm3 0]
      right
      refine ⟨le_refl _, ?_⟩
      rw [Nat.sub_zero, hc.2.2, hb]
    · intro n hn e he
      obtain ⟨i, hi⟩ := List.mem_iff_getElem?.1 hn
      exact clean_outs hcl (nodeAt_eq_some_iff.2 hi) e he

theorem depthEdges_targets (i : Nat) (es : List Edge) (nodes nodes1 : List (Option Node))
    (h : depthEdges i es nodes = some nodes1) : TargetsEq nodes1 nodes := by
  induction es generalizing nodes with
  | nil =>
    simp only [depthEdges, Option.some.injEq] at h
    subst h
    exact TargetsEq.teRefl _
  | cons e es ih =>
    unfold depthEdges at h
    cases hi : nodeAt nodes i with
    | none => simp [hi] at h
    | some ni =>
      cases ht : nodeAt nodes e.to_ with
      | none => simp [hi, ht] at h
      | some nt =>
        simp only [hi, ht] at h
        exact (ih _ h).teTrans (targetsEq_set _ ht rfl)

theorem depthLoop_targets (is : List Nat) (nodes nodes1 : List (Option Node))
    (h : depthLoop is nodes = some nodes1) : TargetsEq nodes1 nodes := by
  induction is generalizing nodes with
  | nil =>
    simp only [depthLoop, Option.some.injEq] at h
    subst h
    exact TargetsEq.teRefl _
  | cons i is ih =>
    unfold depthLoop at h
    cases hi : nodeAt nodes i with
    | none => simp [hi] at h
    | some ni =>
      simp only [hi] at h
      cases hd : depthEdges i ni.edgesOut nodes with
      | none => simp [hd] at h
      | some nodes2 =>
        simp only [hd] at h
        exact (ih _ h).teTrans (depthEdges_targets _ _ _ _ hd)

theorem Rooted.clean {d : Depth} (h : Rooted d) : Clean d.nodes (nodeAt d.nodes 0).isSome :=
  ⟨h.size, h.noZero, rfl⟩

theorem rooted_of_clean {d : Depth} {b : Bool} (hc : Clean d.nodes b)
    (hS : d.startingNodes.Sorted (· < ·)) (h0 : b = true → 0 ∈ d.startingNodes) : Rooted d :=
  ⟨hc.1, hS, hc.2.1, fun h => h0 (by rw [← hc.2.2]; exact h)⟩

theorem rooted_of_dinv {d : Depth} (h : DInv d) : Rooted d := by
  refine ⟨h.size, h.pre.isSet, fun u v huv => (h.noZero u v huv).2, fun h0 => ?_⟩
  rw [h.pre.roots 0]
  refine ⟨h0, ?_⟩
  by_contra hc
  obtain ⟨u, hu⟩ := inDegree_pos (Nat.pos_of_ne_zero hc)
  exact (h.noZero u 0 hu).2 rfl

theorem update_rooted {d : Depth} (h : Rooted d) (idx : Nat) (hi : idx < 256) :
    Rooted (update d idx) := by
  have hlt : idx < d.nodes.length := by rw [h.size]; exact hi
  refine ⟨(materialise_length _ _).trans h.size, sorted_setInsert h.isSet, ?_, ?_⟩
  · intro u v huv
    apply h.noZero u v
    unfold HasEdge at huv ⊢
    change ∃ e ∈ outs (materialise d.nodes idx) u, e.to_ = v at huv
    rw [outs_materialise hlt] at huv
    exact huv
  · intro h0
    change (nodeAt (materialise d.nodes idx) 0).isSome = true at h0
    change 0 ∈ setInsert (idx % 256) d.startingNodes
    rw [mem_setInsert]
    rw [nodeAt_materialise hlt] at h0
    split_ifs at h0 with hz
    · left
      rw [← hz]
    · exact Or.inr (h.root h0)

theorem computeDepths_rooted {d d1 : Depth} (h : Rooted d) (hr : computeDepths d = some d1) :
    Rooted d1 := by
  unfold computeDepths at hr
  cases hl : depthLoop d.order d.nodes with
  | none => simp [hl] at hr
  | some nodes1 =>
    simp only [hl, Option.some.injEq] at hr
    subst hr
    exact rooted_of_clean (clean_targets h.clean (depthLoop_targets _ _ _ hl)) h.isSet h.root

end Depth


/-! ## C38: the background leads the order -/

open TopologicalSorting

namespace Depth

theorem take_one_of_zero {l : List Nat} (hs : l.Sorted (· < ·)) (h0 : 0 ∈ l) :
    l.take 1 = [0] := by
  cases l with
  | nil => cases h0
  | cons a t =>
    rcases List.mem_cons.1 h0 with h | h
    · rw [← h]
      rfl
    · have := (List.sorted_cons.1 hs).1 0 h
      omega

theorem kahn_head {nodes nodes5 : List (Option Node)} {S S5 tmp : List Nat} {success : Bool}
    (hk : topologicalSort_Kahn nodes S [] = some (success, nodes5, S5, tmp)) :
    TargetsEq nodes5 nodes ∧ S5 = [] ∧ ∃ t, tmp = S.take 1 ++ t := by
  unfold topologicalSort_Kahn at hk
  cases hl : kahnLoop (S.length + totalEdges nodes) nodes S [] with
  | none => simp [hl] at hk
  | some p =>
    obtain ⟨n5, s5, t5⟩ := p
    simp only [hl, Option.some.injEq, Prod.mk.injEq] at hk
    obtain ⟨_, rfl, rfl, rfl⟩ := hk
    obtain ⟨h1, h2, t, h3⟩ := kahnLoop_targets _ _ _ _ _ hl
    exact ⟨h1, h2, t, by simpa using h3⟩

/-- Every way through `addEdge` keeps node 0 among the starting nodes, and the
way that inserts a new edge leaves an order that starts with node 0. -/
theorem addEdge_walk {d : Depth} (h : Rooted d) (c_map : ColorMap) (from_ to_ : Nat)
    (coords : vec2 × vec2) (flag : Nat) (hf : from_ < 256) (ht : to_ < 256)
    (r : Bool × Depth) (hr : addEdge d c_map from_ to_ coords flag = some r) :
    Rooted r.2 ∧ (r.1 = true → ¬ HasEdge d.nodes from_ to_ →
      (nodeAt d.nodes 0).isSome = true → r.2.order.head? = some 0) := by
  by_cases hg : from_ = to_ ∨ from_ = 0 ∨ to_ = 0
  · rw [addEdge_guard d c_map from_ to_ coords flag hg] at hr
    cases hr
    exact ⟨h, fun hx => by cases hx⟩
  · have hf0 : from_ ≠ 0 := fun hx => hg (Or.inr (Or.inl hx))
    have ht0 : to_ ≠ 0 := fun hx => hg (Or.inr (Or.inr hx))
    have hc2 : Clean (materialise (materialise d.nodes from_) to_) (nodeAt d.nodes 0).isSome :=
      clean_materialise (clean_materialise h.clean hf0 hf) ht0 ht
    have hlen1 : from_ < d.nodes.length := by rw [h.size]; exact hf
    have hlen2 : to_ < (materialise d.nodes from_).length := by
      rw [materialise_length, h.size]; exact ht
    cases hnf : nodeAt (materialise (materialise d.nodes from_) to_) from_ with
    | none => simp [addEdge, hg, hnf] at hr
    | some nf =>
      have hnf0 := clean_outs hc2 hnf
      cases hre : retype to_ flag nf.edgesOut with
      | some es =>
        rw [addEdge_retype d c_map from_ to_ coords flag hg hnf hre] at hr
        cases hr
        obtain ⟨hmap, _, ⟨e0, he0, he0t⟩, _, _⟩ := retype_some hre
        refine ⟨rooted_of_clean (clean_set hc2 hnf _ ?_) h.isSet h.root, fun _ hnew => ?_⟩
        · intro e he hz
          have hm : e.to_ ∈ es.map Edge.to_ := List.mem_map.2 ⟨e, he, rfl⟩
          rw [hmap] at hm
          obtain ⟨e1, he1, he1t⟩ := List.mem_map.1 hm
          exact hnf0 e1 he1 (he1t.trans hz)
        · exfalso
          apply hnew
          refine ⟨e0, ?_, he0t⟩
          rw [← outs_materialise hlen1, ← outs_materialise hlen2, outs_of_nodeAt hnf]
          exact he0
      | none =>
        have hc3 : Clean ((materialise (materialise d.nodes from_) to_).set from_
            (some { nf with edgesOut := nf.edgesOut ++ [⟨from_, to_, flag⟩] }))
            (nodeAt d.nodes 0).isSome := by
          apply clean_set hc2 hnf
          intro e he
          rcases List.mem_append.1 he with he | he
          · exact hnf0 e he
          · simp only [List.mem_singleton] at he
            subst he
            exact ht0
        cases hnt : nodeAt ((materialise (materialise d.nodes from_) to_).set from_
            (some { nf with edgesOut := nf.edgesOut ++ [⟨from_, to_, flag⟩] })) to_ with
        | none => simp [addEdge, hg, hnf, hre, hnt] at hr
        | some nt =>
          have hnt0 := clean_outs hc3 hnt
          have hc4 : Clean (tentative (materialise (materialise d.nodes from_) to_)
              from_ to_ flag nf nt) (nodeAt d.nodes 0).isSome :=
            clean_set hc3 hnt { nt with incomingEdges := nt.incomingEdges + 1 } hnt0
          cases hk : topologicalSort_Kahn
              (tentative (materialise (materialise d.nodes from_) to_) from_ to_ flag nf nt)
              (d.startingNodes.erase to_) [] with
          | none =>
            have hk1 := hk
            unfold tentative at hk1
            simp [addEdge, hg, hnf, hre, hnt, hk1] at hr
          | some q =>
            obtain ⟨success, nodes5, S5, tmp⟩ := q
            obtain ⟨ht5, hS5, t, htmp⟩ := kahn_head hk
            subst hS5
            have hc5 := clean_targets hc4 ht5
            cases success with
            | true =>
              cases hcr : computationReset { d with nodes := nodes5, startingNodes := [] } with
              | none =>
                have hk1 := hk
                unfold tentative at hk1
                simp [addEdge, hg, hnf, hre, hnt, hk1, hcr] at hr
              | some d1 =>
                rw [addEdge_accept d c_map from_ to_ coords flag hg hnf hre hnt hk hcr] at hr
                cases hr
                obtain ⟨k1, k2, k3, _⟩ := computationReset_keeps _ d1 _ hcr hc5
                  List.sorted_nil
                refine ⟨rooted_of_clean k1 k2 k3, fun _ _ h0 => ?_⟩
                change tmp.head? = some 0
                have h0S : 0 ∈ d.startingNodes.erase to_ :=
                  (mem_erase_sorted h.isSet _ _).2 ⟨Ne.symm ht0, h.root h0⟩
                rw [htmp, take_one_of_zero (sorted_erase h.isSet _) h0S]
                rfl
            | false =>
              have hk1 := hk
              unfold tentative at hk1
              cases hnf5 : nodeAt nodes5 from_ with
              | none => simp [addEdge, hg, hnf, hre, hnt, hk1, hnf5] at hr
              | some nf5 =>
                have hc6 : Clean
                    (nodes5.set from_ (some { nf5 with edgesOut := nf5.edgesOut.dropLast }))
                    (nodeAt d.nodes 0).isSome := by
                  apply clean_set hc5 hnf5
                  intro e he
                  exact clean_outs hc5 hnf5 e (List.dropLast_subset _ he)
                cases hnt6 : nodeAt
                    (nodes5.set from_ (some { nf5 with edgesOut := nf5.edgesOut.dropLast }))
                    to_ with
                | none => simp [addEdge, hg, hnf, hre, hnt, hk1, hnf5, hnt6] at hr
                | some nt6 =>
                  have hnt60 := clean_outs hc6 hnt6
                  have hc7 : Clean (rollback nodes5 from_ to_ nf5 nt6)
                      (nodeAt d.nodes 0).isSome :=
                    clean_set hc6 hnt6 { nt6 with incomingEdges := nt6.incomingEdges - 1 } hnt60
                  cases hcr : computationReset { d with
                      nodes := rollback nodes5 from_ to_ nf5 nt6
                      startingNodes :=
                        if decide (to_ ∈ d.startingNodes) = true then setInsert to_ []
                        else [] } with
                  | none =>
                    have hcr1 := hcr
                    unfold rollback at hcr1
                    simp only [decide_eq_true_eq] at hcr1
                    simp [addEdge, hg, hnf, hre, hnt, hk1, hnf5, hnt6, hcr1] at hr
                  | some d1 =>
                    rw [addEdge_reject d c_map from_ to_ coords flag hg hnf hre hnt hk hnf5
                      hnt6 hcr] at hr
                    cases hr
                    have hS : (if decide (to_ ∈ d.startingNodes) = true then setInsert to_ []
                        else ([] : List Nat)).Sorted (· < ·) := by
                      split_ifs
                      · exact sorted_setInsert List.sorted_nil
                      · exact List.sorted_nil
                    obtain ⟨k1, k2, k3, _⟩ := computationReset_keeps _ d1 _ hcr hc7 hS
                    exact ⟨rooted_of_clean k1 k2 k3, fun hx => by cases hx⟩

theorem Run.rooted {d : Depth} (h : Run d) : Rooted d := by
  induction h with
  | reset d0 count0 count1 h0 h1 => exact rooted_of_dinv (reset_dinv d0 count0 count1 h0 h1)
  | update idx _ hi ih => exact update_rooted ih idx hi
  | addEdge c_map from_ to_ coords flag r _ hf ht hr ih =>
    exact (addEdge_walk ih c_map from_ to_ coords flag hf ht r hr).1
  | computeDepths _ hr ih => exact computeDepths_rooted ih hr

theorem fresh3_run : Run fresh3 := by
  unfold fresh3
  exact Run.reset _ 3 0 (by omega) (by omega)

set_option maxRecDepth 1000000 in
theorem fresh3_zero : (nodeAt fresh3.nodes 0).isSome = true := by
  unfold fresh3
  decide!

theorem fresh3_no_edge (u v : Nat) : ¬ HasEdge fresh3.nodes u v := by
  unfold fresh3
  exact reset_no_edge _ 3 0 (by omega) (by omega) u v

set_option maxRecDepth 1000000 in
theorem afterOneEdge_order : afterOneEdge.order = [0, 1, 2] := by
  decide!

/-- C38: in every state reached from `reset` by calls of `update`, `addEdge`
and `computeDepths`, a call of `addEdge` that returns true for an edge that the
graph did not store leaves, when node 0 is allocated, an `order` whose first
element is 0; `shapeFill` runs over `order` from index 1 on, that is over its
tail. -/
theorem C38_order_starts_with_the_background (d : Depth) (h : Run d) (c_map : ColorMap)
    (from_ to_ : Nat) (coords : vec2 × vec2) (flag : Nat) (hf : from_ < 256) (ht : to_ < 256)
    (d1 : Depth) (hr : addEdge d c_map from_ to_ coords flag = some (true, d1))
    (hnew : ¬ HasEdge d.nodes from_ to_) (h0 : (nodeAt d.nodes 0).isSome = true) :
    d1.order.head? = some 0 ∧ d1.order = 0 :: d1.order.drop 1 := by
  obtain ⟨h1, h2⟩ := addEdge_walk h.rooted c_map from_ to_ coords flag hf ht (true, d1) hr
  have h3 := h2 rfl hnew h0
  refine ⟨h3, ?_⟩
  cases ho : d1.order with
    | nil => rw [ho] at h3; cases h3
    | cons a t =>
      rw [ho] at h3
      simp only [List.head?_cons, Option.some.injEq] at h3
      subst h3
      rfl

theorem C38_witness :
    afterOneEdge.order.head? = some 0 ∧ afterOneEdge.order = 0 :: afterOneEdge.order.drop 1 :=
  C38_order_starts_with_the_background fresh3 fresh3_run exampleMap 1 2 exampleCoords 0
    (by omega) (by omega) afterOneEdge fresh3_addEdge (fresh3_no_edge 1 2) fresh3_zero

end Depth


/-! ## C35: `findBorder` numbers the unknown pixels in raster order -/

namespace ShapeFill

theorem unknownsBefore_set_le (img : List Rat) (k p : Nat) (v : Rat) (h : p ≤ k) :
    unknownsBefore (img.set k v) p = unknownsBefore img p := by
  unfold unknownsBefore
  rcases Nat.lt_or_ge p k with hlt | hge
  · rw [List.take_set_of_lt v img hlt]
  · have hk : p = k := by omega
    subst hk
    congr 1
    apply List.ext_getElem?
    intro i
    rw [List.getElem?_take, List.getElem?_take]
    split_ifs with hi
    · rw [List.getElem?_set_ne (by omega)]
    · rfl

theorem unknownsBefore_succ (img : List Rat) (k : Nat) (v : Rat) (h : img[k]? = some v) :
    unknownsBefore img (k + 1) = unknownsBefore img k + if v = 1 / 2 then 1 else 0 := by
  unfold unknownsBefore
  rw [List.take_succ, h, List.count_append]
  congr 1
  simp only [Option.toList, List.count_singleton, beq_iff_eq]

theorem unknownsBefore_mono (img : List Rat) {p q : Nat} (h : p ≤ q) :
    unknownsBefore img p ≤ unknownsBefore img q :=
  (List.take_sublist_take_left img h).count_le _

theorem inspect_stop (src : List Rat) (ds : List (Bool × Int)) (d0 d : Rat)
    (h : inspect src ds d0 = some (d, true)) : d = 1 := by
  induction ds generalizing d0 with
  | nil => simp [inspect] at h
  | cons p rest ih =>
    obtain ⟨g, i⟩ := p
    unfold inspect at h
    split_ifs at h with hg
    · cases hv : at? src i with
      | none => simp [look, hv] at h
      | some v =>
        rw [look_spec src i d0 v hv] at h
        by_cases h1 : v = 1
        · rw [if_pos h1] at h
          simp only [Option.some.injEq, Prod.mk.injEq, and_true] at h
          exact h.symm
        · rw [if_neg h1] at h
          exact ih _ h
    · exact ih _ h

theorem findBorderAt_ids (W H w h : Nat) (src : List Rat) (s : Border) (l : List Int) (n : Int)
    (hs : src.length = W * H) (hd : s.dst.length = W * H) (hi : s.ids = some l)
    (hl : l.length = W * H) (hn : s.n = some n) (hw : w < W) (hh : h < H) :
    ∃ v, findBorderAt src W H w h s = some ⟨s.dst.set (w + h * W) v,
      some (l.set (w + h * W) (if v = 1 / 2 then n else -1)),
      some (if v = 1 / 2 then n + 1 else n)⟩ := by
  have hk := cell_lt w h W H hw hh
  have hdst : ∀ v, setAt s.dst ((w : Int) + (h : Int) * (W : Int)) v
      = some (s.dst.set (w + h * W) v) := fun v => setAt_some s.dst w h W v (by omega)
  have hsrc : at? src ((w : Int) + (h : Int) * (W : Int)) = some src[w + h * W] := by
    rw [at?_cell]
    exact List.getElem?_eq_getElem (by omega)
  have hsrc2 : src[w + h * W]? = some src[w + h * W] := List.getElem?_eq_getElem (by omega)
  have hclear : clearId s.ids ((w : Int) + (h : Int) * (W : Int))
      = some (some (l.set (w + h * W) (-1))) := by
    rw [hi]
    simp only [clearId, setAt_some l w h W (-1) (by omega), Option.map_some']
  unfold findBorderAt
  simp only [hclear, hsrc]
  by_cases hx : src[w + h * W] = 0
  · rw [if_pos hx]
    obtain ⟨r, hr, _⟩ := inspect_value W H w h src hs hw hh (by rw [hsrc2, hx])
    obtain ⟨d, stop⟩ := r
    rw [hr]
    cases stop with
    | true =>
      have hd1 := inspect_stop _ _ _ _ hr
      subst hd1
      have hne : ¬ ((1 : Rat) = 1 / 2) := by norm_num
      refine ⟨1, ?_⟩
      simp only [hdst, Option.map_some', if_neg hne, hn]
    | false =>
      simp only [hdst]
      refine ⟨d, ?_⟩
      by_cases hd2 : d = 1 / 2
      · rw [if_pos hd2, if_pos hd2, if_pos hd2, hn]
        simp only [setAt_some (l.set (w + h * W) (-1)) w h W n
          (by rw [List.length_set]; omega), Option.map_some', List.set_set]
      · rw [if_neg hd2, if_neg hd2, if_neg hd2, hn]
  · rw [if_neg hx]
    have hne : ¬ ((-1 : Rat) = 1 / 2) := by norm_num
    refine ⟨-1, ?_⟩
    simp only [hdst, Option.map_some', if_neg hne, hn]

theorem ranked_step (W H w h : Nat) (src : List Rat) (s : Border) (hs : src.length = W * H)
    (hw : w < W) (hh : h < H) (hr : Ranked W H (w + h * W) s) :
    ∃ s1, findBorderAt src W H w h s = some s1 ∧ Ranked W H (w + h * W + 1) s1 := by
  obtain ⟨hd, l, hi, hl, hn, hp⟩ := hr
  have hk := cell_lt w h W H hw hh
  obtain ⟨v, hv⟩ := findBorderAt_ids W H w h src s l _ hs hd hi hl hn hw hh
  refine ⟨_, hv, by rw [List.length_set]; exact hd, _, rfl, by rw [List.length_set]; exact hl,
    ?_, ?_⟩
  · dsimp only
    rw [unknownsBefore_succ (s.dst.set (w + h * W) v) (w + h * W) v
      (List.getElem?_set_self (by omega)), unknownsBefore_set_le _ _ _ _ (le_refl _)]
    split_ifs
    · push_cast
      rfl
    · rfl
  · intro p hpk
    dsimp only
    by_cases hpe : p = w + h * W
    · subst hpe
      rw [List.getElem?_set_self (by omega), List.getElem?_set_self (by omega),
        unknownsBefore_set_le _ _ _ _ (le_refl _)]
      constructor
      · intro h1
        simp only [Option.some.injEq] at h1
        rw [if_pos h1]
      · intro h1
        have h2 : ¬ v = 1 / 2 := fun hx => h1 (by rw [hx])
        rw [if_neg h2]
    · rw [List.getElem?_set_ne (Ne.symm hpe), List.getElem?_set_ne (Ne.symm hpe),
        unknownsBefore_set_le _ _ _ _ (by omega)]
      exact hp p (by omega)

theorem stored_step (dst x : List Rat) (i : Nat) (st : List Rat × Int) (hi : i < dst.length)
    (hx : x.length = unknownsBefore dst dst.length) (hst : Matrices.Stored dst x i st) :
    ∃ st1, Matrices.storeSolution x st i = some st1 ∧ Matrices.Stored dst x (i + 1) st1 := by
  obtain ⟨h1, h2, h3, h4⟩ := hst
  have hd : dst[i]? = some dst[i] := List.getElem?_eq_getElem hi
  have hat : at? st.1 (i : Int) = some dst[i] := by
    rw [at?_nat st.1 (i : Int) i rfl, h3 i (le_refl _), hd]
  unfold Matrices.storeSolution
  simp only [hat]
  by_cases hv : dst[i] = 1 / 2
  · rw [if_pos hv]
    have hsucc := unknownsBefore_succ dst i dst[i] hd
    rw [if_pos hv] at hsucc
    have hlt : unknownsBefore dst i < x.length := by
      have hm : unknownsBefore dst (i + 1) ≤ unknownsBefore dst dst.length :=
        unknownsBefore_mono dst (by omega)
      rw [hx]
      omega
    have hxk : at? x st.2 = some x[unknownsBefore dst i] := by
      rw [at?_nat x st.2 (unknownsBefore dst i) h2]
      exact List.getElem?_eq_getElem hlt
    simp only [hxk]
    refine ⟨_, rfl, by rw [List.length_set]; exact h1, ?_, ?_, ?_⟩
    · dsimp only
      rw [hsucc, h2]
      push_cast
      rfl
    · intro p hp
      dsimp only
      rw [List.getElem?_set_ne (by omega)]
      exact h3 p (by omega)
    · intro p hp
      dsimp only
      by_cases hpe : p = i
      · subst hpe
        refine ⟨fun _ => ⟨hlt, ?_⟩, fun hne => absurd (by rw [hd, hv]) hne⟩
        rw [List.getElem?_set_self (by omega)]
        exact (List.getElem?_eq_getElem hlt).symm
      · rw [List.getElem?_set_ne (Ne.symm hpe)]
        exact h4 p (by omega)
  · rw [if_neg hv]
    have hsucc := unknownsBefore_succ dst i dst[i] hd
    rw [if_neg hv] at hsucc
    refine ⟨_, rfl, h1, by rw [hsucc]; exact h2, fun p hp => h3 p (by omega), ?_⟩
    intro p hp
    by_cases hpe : p = i
    · subst hpe
      refine ⟨fun he => ?_, fun _ => h3 p (le_refl _)⟩
      rw [hd] at he
      simp only [Option.some.injEq] at he
      exact absurd he hv
    · exact h4 p (by omega)

theorem ranked_painted_step (W H w h : Nat) (src dst0 : List Rat) (s : Border)
    (hs : src.length = W * H) (hw : w < W) (hh : h < H) (hr : Ranked W H (w + h * W) s)
    (hp : Painted W H dst0 (BorderValue W H src) (w + h * W) s.dst) :
    ∃ s1, findBorderAt src W H w h s = some s1 ∧ Ranked W H (w + h * W + 1) s1 ∧
      Painted W H dst0 (BorderValue W H src) (w + h * W + 1) s1.dst := by
  obtain ⟨s1, h1, hr1⟩ := ranked_step W H w h src s hs hw hh hr
  have hok : BorderOk W H s := by
    obtain ⟨_, l, hi, hl, _, _⟩ := hr
    refine ⟨fun l1 h2 => ?_, fun _ => by rw [hi]; rfl⟩
    rw [hi] at h2
    cases h2
    exact hl
  obtain ⟨s2, v, h2, hd2, _, hv⟩ := findBorderAt_spec W H w h src s hs hr.1 hok hw hh
  rw [h1] at h2
  cases h2
  refine ⟨s1, h1, hr1, ?_⟩
  rw [hd2]
  exact painted_step W H dst0 _ w h s.dst v hw hp
    (by rw [hr.1]; exact cell_lt w h W H hw hh) hv

/-- C35: called with an array `ids` and a counter set to 0, `findBorder` gives
every pixel its value from `src` (-1 where `src` is not 0; where `src` is 0:
1 next to a pixel of 1, otherwise 0 next to a pixel of 0.5, otherwise 0.5, the
unknown pixels), leaves in `ids` at every pixel whose output value is 0.5 the
number of such pixels in front of it in raster order (so that these pixels
hold 0, 1, 2, ...), -1 at every other pixel, and in the counter the number of
the pixels with the value 0.5; the closing loop of `Matrices::solve` on this
image, for a solution `x` with that many components, defines every pixel and
stores in each unknown pixel `p` the component `ids[p]` of `x`, leaving the
other pixels as they are. -/
theorem C35_findBorder_numbers_unknowns_in_raster_order (W H : Nat) (src dst : List Rat)
    (ids : List Int) (hs : src.length = W * H) (hd : dst.length = W * H)
    (hi : ids.length = W * H) :
    ∃ out l, findBorder src dst W H (some ids) (some 0) = some out ∧ out.ids = some l ∧
      out.dst.length = W * H ∧ l.length = W * H ∧
      (∀ w h, w < W → h < H →
        ∃ v, out.dst[w + h * W]? = some v ∧ BorderValue W H src w h v) ∧
      out.n = some (unknownsBefore out.dst (W * H) : Int) ∧
      (∀ p, p < W * H →
        (out.dst[p]? = some (1 / 2) → l[p]? = some (unknownsBefore out.dst p : Int)) ∧
        (out.dst[p]? ≠ some (1 / 2) → l[p]? = some (-1))) ∧
      ∀ x : List Rat, x.length = unknownsBefore out.dst (W * H) →
        ∃ img, Matrices.writeBack out.dst W H x = some img ∧ img.length = W * H ∧
          ∀ p, p < W * H →
            (out.dst[p]? = some (1 / 2) →
              ∃ k : Nat, l[p]? = some (k : Int) ∧ k < x.length ∧ img[p]? = x[k]?) ∧
            (out.dst[p]? ≠ some (1 / 2) → img[p]? = out.dst[p]?) := by
  obtain ⟨out, hrun, ⟨hd1, l, hl1, hl2, hn1, hp1⟩, hpaint⟩ :=
    raster_some W H (findBorderAt src W H)
    (fun k s => Ranked W H k s ∧ Painted W H dst (BorderValue W H src) k s.dst)
    ⟨dst, some ids, some 0⟩
    ⟨⟨hd, ids, rfl, hi, by simp [unknownsBefore], fun p hp => by omega⟩,
      rfl, fun _ _ => rfl, fun w h _ _ hk => by omega⟩
    (fun w h s hw hh hr => ranked_painted_step W H w h src dst s hs hw hh hr.1 hr.2)
  refine ⟨out, l, hrun, hl1, hd1, hl2,
    fun w h hw hh => hpaint.2.2 w h hw hh (cell_lt w h W H hw hh), hn1, hp1, ?_⟩
  intro x hx
  have hWH : ((W : Int) * (H : Int)).toNat = W * H := by
    rw [← Nat.cast_mul, Int.toNat_ofNat]
  obtain ⟨st, hst, h1, _, _, h4⟩ := range_foldlM_some (Matrices.storeSolution x)
    (Matrices.Stored out.dst x) (W * H) (out.dst, 0)
    ⟨rfl, by simp [unknownsBefore], fun _ _ => rfl, fun p hp => by omega⟩
    (fun i st hi hst => stored_step out.dst x i st (by rw [hd1]; exact hi)
      (by rw [hd1]; exact hx) hst)
  refine ⟨st.1, ?_, by rw [h1, hd1], ?_⟩
  · unfold Matrices.writeBack
    rw [hWH, hst]
    rfl
  · intro p hp
    obtain ⟨a, b⟩ := h4 p hp
    refine ⟨fun he => ?_, b⟩
    obtain ⟨a1, a2⟩ := a he
    exact ⟨_, (hp1 p hp).1 he, a1, a2⟩

set_option maxRecDepth 1000000 in
theorem findBorder_row :
    (findBorder [0, 1 / 2, 0, 0, 0, 1, 0, 0] [7, 7, 7, 7, 7, 7, 7, 7] 8 1
        (some [9, 9, 9, 9, 9, 9, 9, 9]) (some 0)).map (fun b => (b.dst, b.ids, b.n)) =
      some ([0, -1, 0, 1 / 2, 1, -1, 1, 1 / 2], some [-1, -1, -1, 0, -1, -1, -1, 1], some 2) := by
  decide!

set_option maxRecDepth 1000000 in
theorem writeBack_row :
    Matrices.writeBack [0, -1, 0, 1 / 2, 1, -1, 1, 1 / 2] 8 1 [3 / 10, 7 / 10] =
      some [0, -1, 0, 3 / 10, 1, -1, 1, 7 / 10] := by
  decide!

theorem C35_witness :
    ((findBorder [0, 1 / 2, 0, 0, 0, 1, 0, 0] [7, 7, 7, 7, 7, 7, 7, 7] 8 1
        (some [9, 9, 9, 9, 9, 9, 9, 9]) (some 0)).map (fun b => (b.dst, b.ids, b.n)) =
      some ([0, -1, 0, 1 / 2, 1, -1, 1, 1 / 2], some [-1, -1, -1, 0, -1, -1, -1, 1],
        some 2)) ∧
    Matrices.writeBack [0, -1, 0, 1 / 2, 1, -1, 1, 1 / 2] 8 1 [3 / 10, 7 / 10] =
      some [0, -1, 0, 3 / 10, 1, -1, 1, 7 / 10] ∧
    ∃ out l, findBorder [0, 1 / 2, 0, 0, 0, 1, 0, 0] [7, 7, 7, 7, 7, 7, 7, 7] (8 : Nat)
        (1 : Nat) (some [9, 9, 9, 9, 9, 9, 9, 9]) (some 0) = some out ∧ out.ids = some l ∧
      out.dst.length = 8 * 1 ∧ l.length = 8 * 1 ∧
      (∀ w h, w < 8 → h < 1 →
        ∃ v, out.dst[w + h * 8]? = some v ∧
          BorderValue 8 1 [0, 1 / 2, 0, 0, 0, 1, 0, 0] w h v) ∧
      out.n = some (unknownsBefore out.dst (8 * 1) : Int) ∧
      (∀ p, p < 8 * 1 →
        (out.dst[p]? = some (1 / 2) → l[p]? = some (unknownsBefore out.dst p : Int)) ∧
        (out.dst[p]? ≠ some (1 / 2) → l[p]? = some (-1))) ∧
      ∀ x : List Rat, x.length = unknownsBefore out.dst (8 * 1) →
        ∃ img, Matrices.writeBack out.dst (8 : Nat) (1 : Nat) x = some img ∧
          img.length = 8 * 1 ∧
          ∀ p, p < 8 * 1 →
            (out.dst[p]? = some (1 / 2) →
              ∃ k : Nat, l[p]? = some (k : Int) ∧ k < x.length ∧ img[p]? = x[k]?) ∧
            (out.dst[p]? ≠ some (1 / 2) → img[p]? = out.dst[p]?) :=
  ⟨findBorder_row, writeBack_row,
    C35_findBorder_numbers_unknowns_in_raster_order 8 1 [0, 1 / 2, 0, 0, 0, 1, 0, 0]
      [7, 7, 7, 7, 7, 7, 7, 7] [9, 9, 9, 9, 9, 9, 9, 9] rfl rfl rfl⟩

end ShapeFill


/-! ## One pass of `GaussSeidelVar` -/

namespace ShapeFill

variable {F : Type} (A : Arith F)

theorem addSample_some (img : List F) (W H : Nat) (hl : img.length = W * H) (g : Bool)
    (a b : Int) (hg : g = true → 0 ≤ a ∧ a < W ∧ 0 ≤ b ∧ b < H) (acc : F × Nat) :
    ∃ r, addSample A img g (a + b * (W : Int)) acc = some r := by
  unfold addSample
  cases g with
  | false => exact ⟨acc, rfl⟩
  | true =>
    obtain ⟨h1, h2, h3, h4⟩ := hg rfl
    obtain ⟨v, hv⟩ := Option.isSome_iff_exists.1 (read_ok img a b W H hl h1 h2 h3 h4)
    simp only [if_true, hv]
    exact ⟨_, rfl⟩

theorem samples_some (img : List F) (W H w h : Nat) (hl : img.length = W * H) (hw : w < W)
    (hh : h < H) (dist : Int) : ∃ r, samples A img W H w h dist = some r := by
  unfold samples
  dsimp only
  obtain ⟨r1, h1⟩ := addSample_some A img W H hl
    (decide ((h : Int) - dist ≥ 0 ∧ (h : Int) - dist < H)) w ((h : Int) - dist)
    (fun hg => by simp only [decide_eq_true_eq] at hg; omega) (A.zero, 0)
  obtain ⟨r2, h2⟩ := addSample_some A img W H hl
    (decide ((h : Int) + dist < H ∧ (h : Int) + dist ≥ 0)) w ((h : Int) + dist)
    (fun hg => by simp only [decide_eq_true_eq] at hg; omega) r1
  obtain ⟨r3, h3⟩ := addSample_some A img W H hl
    (decide ((w : Int) - dist ≥ 0 ∧ (w : Int) - dist < W)) ((w : Int) - dist) h
    (fun hg => by simp only [decide_eq_true_eq] at hg; omega) r2
  obtain ⟨r4, h4⟩ := addSample_some A img W H hl
    (decide ((w : Int) + dist < W ∧ (w : Int) + dist ≥ 0)) ((w : Int) + dist) h
    (fun hg => by simp only [decide_eq_true_eq] at hg; omega) r3
  rw [h1, Option.some_bind, h2, Option.some_bind, h3, Option.some_bind, h4]
  exact ⟨r4, rfl⟩

theorem swept_skip (dists before : List F) (k : Nat) (st : List F × Bool)
    (hs : Swept A dists before k st)
    (hskip : ∀ d c, dists[k]? = some d → before[k]? = some c →
      A.isZero d = true ∨ A.isHole c = true) :
    Swept A dists before (k + 1) st := by
  obtain ⟨h1, h2, h3⟩ := hs
  refine ⟨h1, fun p hp => h2 p (by omega), h3.trans ⟨fun hq p hp => ?_, fun hq p hp => hq p (by omega)⟩⟩
  by_cases hpk : p = k
  · subst hpk
    intro d c c1 hd hc _ hz hh
    rcases hskip d c hd hc with hx | hx
    · rw [hz] at hx
      cases hx
    · rw [hh] at hx
      cases hx
  · exact hq p (by omega)

theorem swept_write (dists before : List F) (k : Nat) (st : List F × Bool) (d c new : F)
    (hs : Swept A dists before k st) (hk : k < before.length) (hd : dists[k]? = some d)
    (hc : before[k]? = some c) (hz : A.isZero d = false) (hh : A.isHole c = false) :
    Swept A dists before (k + 1)
      (st.1.set k new, if A.far c new = true then false else st.2) := by
  obtain ⟨h1, h2, h3⟩ := hs
  refine ⟨by rw [List.length_set]; exact h1, fun p hp => ?_, ?_⟩
  · dsimp only
    rw [List.getElem?_set_ne (by omega)]
    exact h2 p (by omega)
  · dsimp only
    constructor
    · intro hf p hp
      by_cases hfar : A.far c new = true
      · rw [if_pos hfar] at hf
        cases hf
      · rw [if_neg hfar] at hf
        by_cases hpk : p = k
        · subst hpk
          intro d1 c0 c1 hd1 hc0 hc1 _ _
          rw [hd] at hd1
          rw [hc] at hc0
          rw [List.getElem?_set_self (by omega)] at hc1
          cases hd1
          cases hc0
          cases hc1
          simpa using hfar
        · rw [List.getElem?_set_ne (Ne.symm hpk)]
          exact h3.1 hf p (by omega)
    · intro hq
      have hfar : A.far c new = false :=
        hq k (by omega) d c new hd hc (List.getElem?_set_self (by omega)) hz hh
      rw [if_neg (by rw [hfar]; simp)]
      apply h3.2
      intro p hp
      have := hq p (by omega)
      rw [List.getElem?_set_ne (by omega)] at this
      exact this

theorem relax_step (dists before : List F) (W H w h iter : Nat) (st : List F × Bool)
    (hd : dists.length = W * H) (hb : before.length = W * H) (hw : w < W) (hh : h < H)
    (hs : Swept A dists before (w + h * W) st) :
    ∃ st1, relax A dists W H iter w h st = some st1 ∧
      Swept A dists before (w + h * W + 1) st1 := by
  have hk := cell_lt w h W H hw hh
  have hdk : dists[w + h * W]? = some dists[w + h * W] := List.getElem?_eq_getElem (by omega)
  have hbk : before[w + h * W]? = some before[w + h * W] := List.getElem?_eq_getElem (by omega)
  have hsk : st.1[w + h * W]? = some before[w + h * W] := by
    rw [hs.2.1 _ (le_refl _), hbk]
  unfold relax
  simp only [at?_cell, hdk, hsk]
  by_cases hz : A.isZero dists[w + h * W] = true
  · rw [if_pos hz]
    refine ⟨st, rfl, swept_skip A dists before _ st hs ?_⟩
    intro d c h1 _
    rw [hdk] at h1
    cases h1
    exact Or.inl hz
  · rw [if_neg hz]
    by_cases hho : A.isHole before[w + h * W] = true
    · rw [if_pos hho]
      refine ⟨st, rfl, swept_skip A dists before _ st hs ?_⟩
      intro d c _ h2
      rw [hbk] at h2
      cases h2
      exact Or.inr hho
    · rw [if_neg hho]
      obtain ⟨acc, hacc⟩ := samples_some A st.1 W H w h (by rw [hs.1, hb]) hw hh
        (A.reach iter dists[w + h * W])
      simp only [hacc, setAt_some st.1 w h W _ (by rw [hs.1, hb]; exact hk)]
      exact ⟨_, rfl, swept_write A dists before _ st _ _ _ hs (by omega) hdk hbk
        (by simpa using hz) (by simpa using hho)⟩

theorem sweep_spec (dists comp : List F) (W H iter : Nat) (hd : dists.length = W * H)
    (hc : comp.length = W * H) :
    ∃ s, sweep A dists W H iter comp = some s ∧ s.1.length = W * H ∧
      (s.2 = true ↔ Quiet A dists comp s.1) := by
  obtain ⟨s, hrun, h1, _, h3⟩ := raster_some W H (relax A dists W H iter)
    (Swept A dists comp) (comp, true)
    ⟨rfl, fun _ _ => rfl, ⟨fun _ p hp => by omega, fun _ => rfl⟩⟩
    (fun w h st hw hh hs => relax_step A dists comp W H w h iter st hd hc hw hh hs)
  refine ⟨s, hrun, by rw [h1, hc], ?_⟩
  unfold Quiet
  rw [hc]
  exact h3

theorem sweeps_some (dists comp : List F) (W H : Nat) (hd : dists.length = W * H)
    (hc : comp.length = W * H) (k : Nat) :
    ∃ s, sweeps A dists W H comp k = some s ∧ s.1.length = W * H := by
  induction k with
  | zero => exact ⟨(comp, false), rfl, hc⟩
  | succ k ih =>
    obtain ⟨s, hs, hl⟩ := ih
    obtain ⟨s1, h1, h2, _⟩ := sweep_spec A dists s.1 W H (k + 1) hd hl
    refine ⟨s1, ?_, h2⟩
    simp only [sweeps, hs]
    exact h1

theorem sweeps_flag (dists comp : List F) (W H : Nat) (hd : dists.length = W * H)
    (hc : comp.length = W * H) (k : Nat) (s0 s1 : List F × Bool)
    (h0 : sweeps A dists W H comp k = some s0) (h1 : sweeps A dists W H comp (k + 1) = some s1) :
    s1.2 = true ↔ Quiet A dists s0.1 s1.1 := by
  obtain ⟨s, hs, hl⟩ := sweeps_some A dists comp W H hd hc k
  rw [h0] at hs
  cases hs
  obtain ⟨s2, h2, _, h3⟩ := sweep_spec A dists s0.1 W H (k + 1) hd hl
  simp only [sweeps, h0] at h1
  rw [h2] at h1
  cases h1
  exact h3

/-- What the loop returns is the state after `n` passes, the first number from
`ITERATIONS` and from `iter` on with the flag `done` set. -/
theorem relaxLoop_sound (dists comp0 : List F) (W H : Nat) (fuel : Nat) :
    ∀ (iter : Nat) (done : Bool) (comp : List F),
      sweeps A dists W H comp0 iter = some (comp, done) →
      ∀ out n, relaxLoop A dists W H fuel iter done comp = some (out, n) →
        iter ≤ n ∧ ITERATIONS ≤ n ∧ sweeps A dists W H comp0 n = some (out, true) ∧
          ∀ k s, iter ≤ k → ITERATIONS ≤ k → k < n →
            sweeps A dists W H comp0 k = some s → s.2 = false := by
  induction fuel with
  | zero =>
    intro iter done comp _ out n h
    simp [relaxLoop] at h
  | succ fuel ih =>
    intro iter done comp hs out n h
    unfold relaxLoop at h
    by_cases hg : (!done || decide (iter < ITERATIONS)) = true
    · rw [if_pos hg] at h
      cases hsw : sweep A dists W H (iter + 1) comp with
      | none => simp [hsw] at h
      | some s =>
        simp only [hsw] at h
        have hs1 : sweeps A dists W H comp0 (iter + 1) = some (s.1, s.2) := by
          simp only [sweeps, hs]
          exact hsw
        obtain ⟨a, b, c, e⟩ := ih (iter + 1) s.2 s.1 hs1 out n h
        refine ⟨by omega, b, c, fun k s2 hk1 hk2 hk3 hk4 => ?_⟩
        by_cases hki : k = iter
        · subst hki
          rw [hs] at hk4
          cases hk4
          simp only [Bool.or_eq_true, Bool.not_eq_true', decide_eq_true_eq] at hg
          rcases hg with hg | hg
          · exact hg
          · omega
        · exact e k s2 (by omega) hk2 hk3 hk4
    · rw [if_neg hg] at h
      simp only [Option.some.injEq, Prod.mk.injEq] at h
      obtain ⟨rfl, rfl⟩ := h
      simp only [Bool.or_eq_true, Bool.not_eq_true', decide_eq_true_eq, not_or,
        Bool.not_eq_false, not_lt] at hg
      refine ⟨le_refl _, hg.2, by rw [hs, hg.1], fun k s _ _ hk => by omega⟩

/-- With enough passes allowed, the loop returns at the first number `n` from
`ITERATIONS` on whose pass sets the flag `done`. -/
theorem relaxLoop_complete (dists comp0 : List F) (W H : Nat) (hd : dists.length = W * H)
    (hc : comp0.length = W * H) (n : Nat) (out : List F) (hn : ITERATIONS ≤ n)
    (hout : sweeps A dists W H comp0 n = some (out, true))
    (hbusy : ∀ k s, ITERATIONS ≤ k → k < n → sweeps A dists W H comp0 k = some s → s.2 = false)
    (m : Nat) :
    ∀ (iter fuel : Nat) (done : Bool) (comp : List F), n = iter + m → m < fuel →
      sweeps A dists W H comp0 iter = some (comp, done) →
      relaxLoop A dists W H fuel iter done comp = some (out, n) := by
  induction m with
  | zero =>
    intro iter fuel done comp hnm hf hs
    have hni : n = iter := by omega
    subst hni
    rw [hout] at hs
    simp only [Option.some.injEq, Prod.mk.injEq] at hs
    obtain ⟨rfl, rfl⟩ := hs
    obtain ⟨fuel, rfl⟩ : ∃ f, fuel = f + 1 := ⟨fuel - 1, by omega⟩
    unfold relaxLoop
    have hg : ¬ ((!true || decide (n < ITERATIONS)) = true) := by
      simp only [Bool.not_true, Bool.false_or, decide_eq_true_eq, not_lt]
      exact hn
    rw [if_neg hg]
  | succ m ih =>
    intro iter fuel done comp hnm hf hs
    obtain ⟨fuel, rfl⟩ : ∃ f, fuel = f + 1 := ⟨fuel - 1, by omega⟩
    unfold relaxLoop
    have hg : (!done || decide (iter < ITERATIONS)) = true := by
      simp only [Bool.or_eq_true, Bool.not_eq_true', decide_eq_true_eq]
      by_cases hi : iter < ITERATIONS
      · exact Or.inr hi
      · exact Or.inl (hbusy iter (comp, done) (by omega) (by omega) hs)
    rw [if_pos hg]
    obtain ⟨s, hs1, _⟩ := sweeps_some A dists comp0 W H hd hc (iter + 1)
    have hsw : sweep A dists W H (iter + 1) comp = some s := by
      simp only [sweeps, hs] at hs1
      exact hs1
    simp only [hsw]
    exact ih (iter + 1) fuel s.2 s.1 (by omega) (by omega) hs1

end ShapeFill


/-! ## C36: the number of the passes of `GaussSeidelVar` -/

namespace ShapeFill

set_option maxRecDepth 1000000 in
theorem row52_first : sweeps rationals dists52 52 1 row52 1 = some (row52, true) := by
  decide!

set_option maxRecDepth 1000000 in
theorem row52_flags :
    (sweeps rationals dists52 52 1 row52 20).map Prod.snd = some false ∧
      (sweeps rationals dists52 52 1 row52 21).map Prod.snd = some true := by
  decide!

theorem row52_length : row52.length = 52 * 1 ∧ dists52.length = 52 * 1 := by
  decide

theorem row52_passes (fuel : Nat) (hf : 21 < fuel) :
    (GaussSeidelVar rationals row52 dists52 (52 : Nat) (1 : Nat) fuel).map Prod.snd = some 21 := by
  obtain ⟨s, hs, _⟩ := sweeps_some rationals dists52 row52 52 1 row52_length.2 row52_length.1 21
  have h21 := row52_flags.2
  have hs1 : sweeps rationals dists52 52 1 row52 21 = some s := hs
  rw [hs1] at h21
  simp only [Option.map_some', Option.some.injEq] at h21
  obtain ⟨out, b⟩ := s
  simp only at h21
  subst h21
  have hrun := relaxLoop_complete rationals dists52 row52 52 1 row52_length.2 row52_length.1 21 out
    (by decide) hs
    (fun k s hk1 hk2 hk3 => by
      have hk : k = 20 := by
        unfold ITERATIONS at hk1
        omega
      subst hk
      have h20 := row52_flags.1
      have hk4 : sweeps rationals dists52 52 1 row52 20 = some s := hk3
      rw [hk4] at h20
      simpa using h20)
    21 0 fuel false row52 (by omega) hf rfl
  unfold GaussSeidelVar
  rw [hrun]
  rfl

/-- C36 fails: on a row of 52 pixels of which only the one at the index 1 has
a distance other than 0 (50.5, with the value 0 between two pixels of the
value 1), the first pass changes nothing and sets the flag `done`, and yet
`GaussSeidelVar` makes 21 passes: the 20th is the first one whose kernel has
the size 1 and changes the pixel to 1. -/
theorem C36_counterexample :
    sweeps rationals dists52 (52 : Nat) (1 : Nat) row52 1 = some (row52, true) ∧
    Quiet rationals dists52 row52 row52 ∧
    (∀ fuel, 21 < fuel →
      (GaussSeidelVar rationals row52 dists52 (52 : Nat) (1 : Nat) fuel).map Prod.snd = some 21) ∧
    ¬ (21 ≤ ITERATIONS) := by
  refine ⟨row52_first, ?_, row52_passes, by decide⟩
  exact (sweeps_flag rationals dists52 row52 52 1 row52_length.2 row52_length.1 0 (row52, false)
    (row52, true) rfl row52_first).1 rfl

/-- C36, amended: on a window of `W * H` pixels, for every arithmetic, every
pass of `GaussSeidelVar` is defined and sets the flag `done` if and only if it
changes no updated pixel by more than `ERR_VAL`; what the function returns is
the state after `n` passes, where `n` is at least `ITERATIONS` and is the
first such number whose pass sets the flag; and whenever there is such a
number `n`, the function returns after `n` passes. -/
theorem C36_at_least_twenty_passes_then_first_quiet_pass {F : Type} (A : Arith F)
    (W H : Nat) (compSpace dists : List F) (hc : compSpace.length = W * H)
    (hd : dists.length = W * H) :
    (∀ k, ∃ s, sweeps A dists W H compSpace k = some s ∧ s.1.length = W * H) ∧
    (∀ k s0 s1, sweeps A dists W H compSpace k = some s0 →
      sweeps A dists W H compSpace (k + 1) = some s1 →
      (s1.2 = true ↔ Quiet A dists s0.1 s1.1)) ∧
    (∀ fuel out n, GaussSeidelVar A compSpace dists W H fuel = some (out, n) →
      ITERATIONS ≤ n ∧ sweeps A dists W H compSpace n = some (out, true) ∧
        ∀ k s, ITERATIONS ≤ k → k < n → sweeps A dists W H compSpace k = some s →
          s.2 = false) ∧
    (∀ n out, ITERATIONS ≤ n → sweeps A dists W H compSpace n = some (out, true) →
      (∀ k s, ITERATIONS ≤ k → k < n → sweeps A dists W H compSpace k = some s →
        s.2 = false) →
      ∀ fuel, n < fuel → GaussSeidelVar A compSpace dists W H fuel = some (out, n)) := by
  refine ⟨sweeps_some A dists compSpace W H hd hc,
    sweeps_flag A dists compSpace W H hd hc, ?_, ?_⟩
  · intro fuel out n h
    obtain ⟨_, h2, h3, h4⟩ := relaxLoop_sound A dists compSpace W H fuel 0 false compSpace rfl
      out n h
    exact ⟨h2, h3, fun k s hk1 hk2 hk3 => h4 k s (Nat.zero_le _) hk1 hk2 hk3⟩
  · intro n out hn hout hbusy fuel hf
    exact relaxLoop_complete A dists compSpace W H hd hc n out hn hout hbusy n 0 fuel false
      compSpace (by omega) hf rfl

theorem C36_witness :
    (∀ k, ∃ s, sweeps rationals dists52 (52 : Nat) (1 : Nat) row52 k = some s ∧
      s.1.length = 52 * 1) ∧
    (∀ k s0 s1, sweeps rationals dists52 (52 : Nat) (1 : Nat) row52 k = some s0 →
      sweeps rationals dists52 (52 : Nat) (1 : Nat) row52 (k + 1) = some s1 →
      (s1.2 = true ↔ Quiet rationals dists52 s0.1 s1.1)) ∧
    (∀ fuel out n,
      GaussSeidelVar rationals row52 dists52 (52 : Nat) (1 : Nat) fuel = some (out, n) →
      ITERATIONS ≤ n ∧ sweeps rationals dists52 (52 : Nat) (1 : Nat) row52 n = some (out, true) ∧
        ∀ k s, ITERATIONS ≤ k → k < n →
          sweeps rationals dists52 (52 : Nat) (1 : Nat) row52 k = some s → s.2 = false) ∧
    (∀ n out, ITERATIONS ≤ n →
      sweeps rationals dists52 (52 : Nat) (1 : Nat) row52 n = some (out, true) →
      (∀ k s, ITERATIONS ≤ k → k < n →
        sweeps rationals dists52 (52 : Nat) (1 : Nat) row52 k = some s → s.2 = false) →
      ∀ fuel, n < fuel →
        GaussSeidelVar rationals row52 dists52 (52 : Nat) (1 : Nat) fuel = some (out, n)) :=
  C36_at_least_twenty_passes_then_first_quiet_pass rationals 52 1 row52 dists52
    row52_length.1 row52_length.2

end ShapeFill


/-! ## C37: the divisor of the mean -/

namespace ShapeFill

set_option maxRecDepth 1000000 in
theorem corner5_border :
    (findBorder corner5 (List.replicate 25 7) 5 5 none none).map Border.dst = some border5 := by
  decide!

set_option maxRecDepth 1000000 in
theorem border5_far : ∀ x : Nat, x < 5 → ∀ y : Nat, y < 5 →
    border5[x + y * 5]? ≠ some (1 / 2) → 25 ≤ (4 - x) ^ 2 + (4 - y) ^ 2 := by
  decide!

set_option maxRecDepth 1000000 in
theorem border5_cells : border5[4 + 4 * 5]? = some (1 / 2) ∧ border5[1 + 0 * 5]? = some 1 := by
  decide!

theorem samples_none (F : Type) (A : Arith F) (compSpace : List F) (W H w h : Nat) (dist : Int)
    (hu : (h : Int) < dist) (hd : (H : Int) ≤ h + dist) (hl : (w : Int) < dist)
    (hr : (W : Int) ≤ w + dist) :
    samples A compSpace W H w h dist = some (A.zero, 0) := by
  unfold samples
  dsimp only
  have g1 : decide ((h : Int) - dist ≥ 0 ∧ (h : Int) - dist < H) = false := by
    simp only [decide_eq_false_iff_not]
    omega
  have g2 : decide ((h : Int) + dist < H ∧ (h : Int) + dist ≥ 0) = false := by
    simp only [decide_eq_false_iff_not]
    omega
  have g3 : decide ((w : Int) - dist ≥ 0 ∧ (w : Int) - dist < W) = false := by
    simp only [decide_eq_false_iff_not]
    omega
  have g4 : decide ((w : Int) + dist < W ∧ (w : Int) + dist ≥ 0) = false := by
    simp only [decide_eq_false_iff_not]
    omega
  rw [g1, g2, g3, g4]
  rfl

theorem relax_none (F : Type) (A : Arith F) (dists compSpace : List F) (W H w h iter : Nat)
    (hw : w < W) (hh : h < H) (hc : compSpace.length = W * H) (d c : F)
    (hd : dists[w + h * W]? = some d) (hv : compSpace[w + h * W]? = some c)
    (hz : A.isZero d = false) (hh0 : A.isHole c = false) (hu : (h : Int) < A.reach iter d)
    (hdn : (H : Int) ≤ h + A.reach iter d) (hl : (w : Int) < A.reach iter d)
    (hr : (W : Int) ≤ w + A.reach iter d) (done : Bool) :
    relax A dists W H iter w h (compSpace, done) =
      some (compSpace.set (w + h * W) (A.mean A.zero 0),
        if A.far c (A.mean A.zero 0) = true then false else done) := by
  unfold relax
  simp only [at?_cell, hd, hv, hz, hh0, Bool.false_eq_true, if_false,
    samples_none F A compSpace W H w h _ hu hdn hl hr,
    setAt_some compSpace w h W _ (by rw [hc]; exact cell_lt w h W H hw hh)]

theorem reach_five : rationals.reach 1 5 = 5 := by
  unfold rationals kernelScale ITERATIONS toInt
  norm_num

theorem corner5_filled (scaled : List Rat) (sw sh : Nat) (hl : scaled.length = sw * sh)
    (hsw : 4 ≤ sw) (hsh : 4 ≤ sh) :
    ∃ (out : List Rat) (v : Rat), scaleUp corner5 scaled (5 : Nat) (5 : Nat) sw = some out ∧
      out[4 + 4 * 5]? = some v ∧ v ≠ -1 := by
  obtain ⟨out, hrun, _, hq⟩ := scaleUp_cells 5 5 sw sh corner5 scaled rfl hl hsw hsh
  obtain ⟨_, h2⟩ := hq 4 4 (by omega) (by omega) 0 rfl
  refine ⟨out, _, hrun, h2 rfl, ?_⟩
  have := interpolation_nonneg scaled sw 4 4
  intro hx
  rw [hx] at this
  norm_num at this

/-- C37 at an input on which the code departs from it: a window of 5 x 5
pixels whose pixel (0, 0) belongs to the segment and whose other pixels belong
to a segment in front of it. `findBorder` leaves 0.5 at every pixel but
(0, 0), (1, 0) and (0, 1); the pixel (4, 4) lies at the squared distance 25
from the nearest of them, which makes its distance 5; `scaleUp` leaves a value
other than -1 there; in the first pass the kernel size is 5, none of the four
positions lies inside of the window, and the pixel receives the quotient of
`0.0f` by the divisor 0. In general the divisor is 0 whenever the kernel size
exceeds the distances of the pixel from the four edges of the window. -/
theorem C37_corner_pixel_has_no_sample :
    (findBorder corner5 (List.replicate 25 7) 5 5 none none).map Border.dst = some border5 ∧
    border5[4 + 4 * 5]? = some (1 / 2) ∧ border5[1 + 0 * 5]? = some 1 ∧
    (∀ x : Nat, x < 5 → ∀ y : Nat, y < 5 → border5[x + y * 5]? ≠ some (1 / 2) →
      25 ≤ (4 - x) ^ 2 + (4 - y) ^ 2) ∧
    (∀ (scaled : List Rat) (sw sh : Nat), scaled.length = sw * sh → 4 ≤ sw → 4 ≤ sh →
      ∃ (out : List Rat) (v : Rat), scaleUp corner5 scaled (5 : Nat) (5 : Nat) sw = some out ∧
        out[4 + 4 * 5]? = some v ∧ v ≠ -1) ∧
    rationals.reach 1 5 = 5 ∧
    (∀ (dists compSpace : List Rat) (c : Rat) (done : Bool), compSpace.length = 5 * 5 →
      dists[4 + 4 * 5]? = some 5 → compSpace[4 + 4 * 5]? = some c → c ≠ -1 →
      relax rationals dists (5 : Nat) (5 : Nat) 1 (4 : Nat) (4 : Nat) (compSpace, done) =
        some (compSpace.set (4 + 4 * 5) (rationals.mean rationals.zero 0),
          if rationals.far c (rationals.mean rationals.zero 0) = true then false else done)) ∧
    ∀ (F : Type) (A : Arith F) (compSpace : List F) (W H w h : Nat) (dist : Int),
      (h : Int) < dist → (H : Int) ≤ h + dist → (w : Int) < dist → (W : Int) ≤ w + dist →
      samples A compSpace W H w h dist = some (A.zero, 0) := by
  refine ⟨corner5_border, border5_cells.1, border5_cells.2, border5_far, corner5_filled, reach_five, ?_,
    samples_none⟩
  intro dists compSpace c done hc hd hv hne
  have hz : rationals.isZero 5 = false := by
    unfold rationals
    simp only [decide_eq_false_iff_not]
    norm_num
  have hh : rationals.isHole c = false := by
    unfold rationals
    simp only [decide_eq_false_iff_not]
    exact hne
  exact relax_none Rat rationals dists compSpace 5 5 4 4 1 (by omega) (by omega) hc 5 c hd hv hz hh
    (by rw [reach_five]; norm_num) (by rw [reach_five]; norm_num)
    (by rw [reach_five]; norm_num) (by rw [reach_five]; norm_num) done

end ShapeFill


/-! ## The capacity of the colour map, and `consolidate` on a used map -/

namespace ColorMap

theorem built_foldl (color : RGB) (flags : Nat) (l : List Nat) :
    ∀ c, Built c → Built (l.foldl (fun c _ => (c.newSegment color flags).2) c) := by
  induction l with
  | nil =>
    intro c h
    exact h
  | cons a t ih =>
    intro c h
    exact ih _ (Built.newSegment color flags h)

theorem fullSoft_built : Built fullSoft := by
  unfold fullSoft
  exact built_foldl _ _ _ _ (Built.new 2 2)

set_option maxRecDepth 1000000 in
theorem fullSoft_count : fullSoft.count (Nat.land 1 1) = 128 := by
  unfold fullSoft
  decide!

set_option maxRecDepth 1000000 in
theorem new_count : ¬ (ColorMap.new 2 2).count (Nat.land 1 1) = 128 := by
  decide!

theorem C16_witness :
    Built fullSoft ∧ fullSoft.count (Nat.land 1 1) = 128 ∧
    (fullSoft.newSegment ⟨1, 0, 0⟩ 1).1 = false ∧
    (fullSoft.newSegment ⟨1, 0, 0⟩ 1).2 = fullSoft ∧
    fullSoft.count 0 ≤ 128 ∧ fullSoft.count 1 ≤ 128 ∧
    ¬ (ColorMap.new 2 2).count (Nat.land 1 1) = 128 ∧
    ¬ ((ColorMap.new 2 2).newSegment ⟨1, 0, 0⟩ 1).1 = false :=
  ⟨fullSoft_built, fullSoft_count,
    (C16_newSegment_capacity fullSoft fullSoft_built ⟨1, 0, 0⟩ 1).1.2 fullSoft_count,
    (C16_newSegment_capacity fullSoft fullSoft_built ⟨1, 0, 0⟩ 1).2.1
      ((C16_newSegment_capacity fullSoft fullSoft_built ⟨1, 0, 0⟩ 1).1.2 fullSoft_count),
    (C16_newSegment_capacity fullSoft fullSoft_built ⟨1, 0, 0⟩ 1).2.2.1,
    (C16_newSegment_capacity fullSoft fullSoft_built ⟨1, 0, 0⟩ 1).2.2.2,
    new_count,
    fun h => new_count
      ((C16_newSegment_capacity (ColorMap.new 2 2) (Built.new 2 2) ⟨1, 0, 0⟩ 1).1.1 h)⟩

set_option maxRecDepth 1000000 in
theorem used_changes :
    ((ColorMap.new 1 1).consolidate [0, 2] [(2, 7)] 0).map (fun r => (r.2.2, r.1.count 0)) =
      some ([(2, 7)], 2) := by
  decide!

/-- C17, as stated, fails: when `changes` already holds the entry 2 -> 7,
`consolidate({0, 2}, changes, 0)` leaves that entry as it is (`insert` does not
replace it): the id 2 of `found` is mapped to 7, outside of the range 0..1,
and the free id 1 of the range is the image of no id. -/
theorem C17_counterexample :
    ([0, 2] : List Nat).Sorted (· < ·) ∧
    (∀ x ∈ ([0, 2] : List Nat), 128 * 0 ≤ x ∧ x ≤ 128 * 0 + 127) ∧
    ∃ c1 found1 changes1,
      (ColorMap.new 1 1).consolidate [0, 2] [(2, 7)] 0 = some (c1, found1, changes1) ∧
      c1.count 0 = ([0, 2] : List Nat).length ∧
      128 * 0 + ([0, 2] : List Nat).length ≤ 2 ∧ mapFind changes1 2 = some 7 ∧
      1 < 128 * 0 + ([0, 2] : List Nat).length ∧ 1 ∉ ([0, 2] : List Nat) ∧
      ¬ ∃ k ∈ ([0, 2] : List Nat), mapFind changes1 k = some 1 := by
  refine ⟨by simp, by intro x hx; simp at hx; omega, ?_⟩
  have h := used_changes
  cases hc : (ColorMap.new 1 1).consolidate [0, 2] [(2, 7)] 0 with
  | none =>
    rw [hc] at h
    cases h
  | some r =>
    obtain ⟨c1, found1, changes1⟩ := r
    rw [hc] at h
    simp only [Option.map_some', Option.some.injEq, Prod.mk.injEq] at h
    obtain ⟨h1, h2⟩ := h
    subst h1
    refine ⟨c1, found1, _, rfl, h2, by decide, by decide, by decide, by decide, ?_⟩
    decide

end ColorMap


/-! ## C19: sign and definiteness of the matrix of `Matrices::init` -/

namespace Matrices

/-- The quadratic form of the assembled matrix: the part of the pairs of
adjacent unknown pixels, and the part of the counted neighbours that are not
unknown. -/
theorem quadForm_split (width height n : Nat) (img : List Rat) (ids : List Int)
    (x : Int → Rat) :
    quadForm ((pixels width height).foldl (afterPixel width height img ids)
        ([], List.replicate n 0)).1 x =
      (∑ p ∈ (pixels width height).toFinset, ∑ q ∈ (pixels width height).toFinset,
        if Adjacent width height img p q then
          x (idOf width ids p) * x (idOf width ids q) -
            x (idOf width ids p) * x (idOf width ids p)
        else 0) -
      ∑ p ∈ (pixels width height).toFinset,
        if Unknown width height img p then
          ((neighCount width height img p : Rat) -
            ((unknownNeighbours width height img p).length : Rat)) *
            (x (idOf width ids p) * x (idOf width ids p))
        else 0 := by
  rw [additive_init width height n img ids (fun l => quadForm l x)
    (fun a b => quadForm_append a b x) rfl, ← Finset.sum_sub_distrib]
  apply Finset.sum_congr rfl
  intro p _
  by_cases hp : Unknown width height img p
  · rw [if_pos hp, if_pos hp, quadForm_rowOf,
      ← inner_sum width height img p hp (fun q =>
        x (idOf width ids p) * x (idOf width ids q) -
          x (idOf width ids p) * x (idOf width ids p))]
    have h1 : ((unknownNeighbours width height img p).map fun q =>
        x (idOf width ids p) * x (idOf width ids q) -
          x (idOf width ids p) * x (idOf width ids p)).sum =
        ((unknownNeighbours width height img p).map fun q =>
          x (idOf width ids p) * x (idOf width ids q)).sum -
          ((unknownNeighbours width height img p).length : Rat) *
            (x (idOf width ids p) * x (idOf width ids p)) := by
      induction unknownNeighbours width height img p with
      | nil => simp
      | cons a t ih =>
        simp only [List.map_cons, List.sum_cons, List.length_cons, Nat.cast_add,
          Nat.cast_one, ih]
        ring
    rw [h1]
    ring
  · rw [if_neg hp, if_neg hp, sub_zero]
    symm
    apply Finset.sum_eq_zero
    intro q _
    exact if_neg (fun h => hp h.1)

/-- Twice the part of the adjacent pairs is minus the sum of the squared
differences. -/
theorem pairs_double (width height : Nat) (img : List Rat) (y : Int × Int → Rat) :
    2 * (∑ p ∈ (pixels width height).toFinset, ∑ q ∈ (pixels width height).toFinset,
      if Adjacent width height img p q then y p * y q - y p * y p else 0) =
      ∑ p ∈ (pixels width height).toFinset, ∑ q ∈ (pixels width height).toFinset,
        if Adjacent width height img p q then -((y p - y q) * (y p - y q)) else 0 := by
  have hswap : (∑ p ∈ (pixels width height).toFinset, ∑ q ∈ (pixels width height).toFinset,
      if Adjacent width height img p q then y p * y q - y p * y p else 0) =
      ∑ p ∈ (pixels width height).toFinset, ∑ q ∈ (pixels width height).toFinset,
        if Adjacent width height img p q then y p * y q - y q * y q else 0 := by
    rw [Finset.sum_comm]
    apply Finset.sum_congr rfl
    intro q _
    apply Finset.sum_congr rfl
    intro p _
    by_cases h : Adjacent width height img p q
    · rw [if_pos h, if_pos ((adjacent_symm width height img p q).1 h)]
      ring
    · rw [if_neg h, if_neg (fun h2 => h ((adjacent_symm width height img p q).2 h2))]
  rw [two_mul]
  nth_rewrite 2 [hswap]
  rw [← Finset.sum_add_distrib]
  apply Finset.sum_congr rfl
  intro p _
  rw [← Finset.sum_add_distrib]
  apply Finset.sum_congr rfl
  intro q _
  by_cases h : Adjacent width height img p q
  · rw [if_pos h, if_pos h, if_pos h]
    ring
  · rw [if_neg h, if_neg h, if_neg h, add_zero]

/-- Where the quadratic form is not negative, adjacent unknown pixels hold the
same component and an unknown pixel with a counted neighbour that is not
unknown holds 0. -/
theorem quadForm_tight (width height n : Nat) (img : List Rat) (ids : List Int)
    (x : Int → Rat)
    (h0 : 0 ≤ quadForm ((pixels width height).foldl (afterPixel width height img ids)
        ([], List.replicate n 0)).1 x) :
    (∀ p q, Adjacent width height img p q → x (idOf width ids p) = x (idOf width ids q)) ∧
    ∀ p, Unknown width height img p →
      (unknownNeighbours width height img p).length < neighCount width height img p →
      x (idOf width ids p) = 0 := by
  rw [quadForm_split] at h0
  have hD := pairs_double width height img (fun p => x (idOf width ids p))
  simp only at hD
  have hDterm : ∀ p ∈ (pixels width height).toFinset, ∀ q ∈ (pixels width height).toFinset,
      (if Adjacent width height img p q then
        -((x (idOf width ids p) - x (idOf width ids q)) *
          (x (idOf width ids p) - x (idOf width ids q))) else 0) ≤ 0 := by
    intro p _ q _
    split_ifs
    · nlinarith [mul_self_nonneg (x (idOf width ids p) - x (idOf width ids q))]
    · exact le_refl _
  have hDrow : ∀ p ∈ (pixels width height).toFinset,
      (∑ q ∈ (pixels width height).toFinset,
        if Adjacent width height img p q then
          -((x (idOf width ids p) - x (idOf width ids q)) *
            (x (idOf width ids p) - x (idOf width ids q))) else 0) ≤ 0 :=
    fun p hp => Finset.sum_nonpos (hDterm p hp)
  have hDle := Finset.sum_nonpos hDrow
  have hRterm : ∀ p ∈ (pixels width height).toFinset,
      0 ≤ (if Unknown width height img p then
          ((neighCount width height img p : Rat) -
            ((unknownNeighbours width height img p).length : Rat)) *
            (x (idOf width ids p) * x (idOf width ids p))
        else 0) := by
    intro p _
    split_ifs
    · have h2 : ((unknownNeighbours width height img p).length : Rat) ≤
          (neighCount width height img p : Rat) := by
        exact_mod_cast unknown_le_count width height img p
      exact mul_nonneg (by linarith) (mul_self_nonneg _)
    · exact le_refl _
  have hRge := Finset.sum_nonneg hRterm
  have hR0 : (∑ p ∈ (pixels width height).toFinset,
      if Unknown width height img p then
        ((neighCount width height img p : Rat) -
          ((unknownNeighbours width height img p).length : Rat)) *
          (x (idOf width ids p) * x (idOf width ids p))
      else 0) = 0 := by linarith
  have hD0 : (∑ p ∈ (pixels width height).toFinset, ∑ q ∈ (pixels width height).toFinset,
      if Adjacent width height img p q then
        -((x (idOf width ids p) - x (idOf width ids q)) *
          (x (idOf width ids p) - x (idOf width ids q))) else 0) = 0 := by linarith
  constructor
  · intro p q hpq
    have hp : p ∈ (pixels width height).toFinset := by
      rw [List.mem_toFinset, mem_pixels]
      exact hpq.1.1
    have hq : q ∈ (pixels width height).toFinset := by
      rw [List.mem_toFinset, mem_pixels]
      exact hpq.2.1.1
    have h1 := (Finset.sum_eq_zero_iff_of_nonpos hDrow).1 hD0 p hp
    have h2 := (Finset.sum_eq_zero_iff_of_nonpos (hDterm p hp)).1 h1 q hq
    rw [if_pos hpq] at h2
    have h3 : (x (idOf width ids p) - x (idOf width ids q)) *
        (x (idOf width ids p) - x (idOf width ids q)) = 0 := by linarith
    have h4 := mul_self_eq_zero.1 h3
    linarith
  · intro p hp hlt
    have hpm : p ∈ (pixels width height).toFinset := by
      rw [List.mem_toFinset, mem_pixels]
      exact hp.1
    have h1 := (Finset.sum_eq_zero_iff_of_nonneg hRterm).1 hR0 p hpm
    rw [if_pos hp] at h1
    have h2 : (0 : Rat) < (neighCount width height img p : Rat) -
        ((unknownNeighbours width height img p).length : Rat) := by
      have : ((unknownNeighbours width height img p).length : Rat) <
          (neighCount width height img p : Rat) := by exact_mod_cast hlt
      linarith
    rcases mul_eq_zero.1 h1 with h3 | h3
    · linarith
    · exact mul_self_eq_zero.1 h3

theorem anchored_zero (width height n : Nat) (img : List Rat) (ids : List Int)
    (x : Int → Rat)
    (h0 : 0 ≤ quadForm ((pixels width height).foldl (afterPixel width height img ids)
        ([], List.replicate n 0)).1 x)
    (p : Int × Int) (hp : Anchored width height img p) : x (idOf width ids p) = 0 := by
  obtain ⟨h1, h2⟩ := quadForm_tight width height n img ids x h0
  induction hp with
  | base p hp hk => exact h2 p hp hk
  | step p q ha _ ih => rw [h1 p q ha, ih]

theorem lone_unknown (p : Int × Int) (h : Unknown 1 1 loneImg p) : p = (0, 0) := by
  obtain ⟨a, b⟩ := p
  obtain ⟨⟨h1, h2, h3, h4⟩, _⟩ := h
  simp only at h1 h2 h3 h4
  have hb : b = 0 := by omega
  have ha : a = 0 := by omega
  rw [ha, hb]

theorem lone_numbered : Numbered 1 1 loneImg loneIds 1 where
  imgLen := rfl
  idsLen := rfl
  range := fun p hp => by
    rw [lone_unknown p hp]
    decide
  inj := fun p q hp hq _ => by
    rw [lone_unknown p hp, lone_unknown q hq]

theorem lone_is_unknown : Unknown 1 1 loneImg (0, 0) :=
  ⟨by unfold Inside; simp, by norm_num [label, at?, loneImg]⟩

set_option maxRecDepth 1000000 in
theorem lone_init : init 1 1 loneImg loneIds 1 = some ([⟨0, 0, 0⟩], [0]) := by
  decide!

set_option maxRecDepth 1000000 in
theorem small_counts : (unknownNeighbours 2 1 smallImg (0, 0)).length = 0 ∧
    neighCount 2 1 smallImg (0, 0) = 1 := by
  decide!

theorem small_anchored (p : Int × Int) (h : Unknown 2 1 smallImg p) :
    Anchored 2 1 smallImg p := by
  rw [small_unknown p h]
  exact Anchored.base (0, 0) small_is_unknown (by rw [small_counts.1, small_counts.2]; omega)

/-- C19, as stated, fails, in its sign and in its definiteness: for the row of
two pixels with the labels 0.5 and 0, `init` assembles the 1 x 1 matrix (-1),
whose quadratic form at x = 1 is -1; and for the image of one pixel with the
label 0.5, which has no neighbour, `init` assembles the 1 x 1 matrix (0), whose
quadratic form at x = 1 is 0, neither positive nor negative. -/
theorem C19_counterexample :
    (Numbered 2 1 smallImg smallIds 1 ∧ Unknown 2 1 smallImg (0, 0) ∧
      init 2 1 smallImg smallIds 1 = some ([⟨0, 0, -1⟩], [0]) ∧
      quadForm [⟨0, 0, -1⟩] (fun _ => 1) = -1 ∧
      ¬ (0 < quadForm [⟨0, 0, -1⟩] (fun _ => 1))) ∧
    (Numbered 1 1 loneImg loneIds 1 ∧ Unknown 1 1 loneImg (0, 0) ∧
      init 1 1 loneImg loneIds 1 = some ([⟨0, 0, 0⟩], [0]) ∧
      quadForm [⟨0, 0, 0⟩] (fun _ => 1) = 0 ∧
      ¬ (0 < quadForm [⟨0, 0, 0⟩] (fun _ => 1)) ∧
      ¬ (quadForm [⟨0, 0, 0⟩] (fun _ => 1) < 0)) := by
  have h : quadForm [⟨0, 0, -1⟩] (fun _ => 1) = -1 := by
    norm_num [quadForm]
  have h2 : quadForm [⟨0, 0, 0⟩] (fun _ => 1) = 0 := by
    norm_num [quadForm]
  refine ⟨⟨small_numbered, small_is_unknown, small_init, h, ?_⟩,
    ⟨lone_numbered, lone_is_unknown, lone_init, h2, ?_, ?_⟩⟩
  · rw [h]
    norm_num
  · rw [h2]
    norm_num
  · rw [h2]
    norm_num

/-- C19, amended: for a label image over {-1, 0, 0.5, 1} whose unknown pixels
are numbered by `ids`, the coefficient matrix assembled by `init` is
symmetric, the diagonal entry of every unknown pixel is -c (c the number of
its neighbours that count), and the matrix is negative semi-definite: the
quadratic form is at most 0 at every vector x. It is negative definite when
every unknown pixel is linked through unknown pixels to an unknown pixel with
a known neighbour: the quadratic form is then negative at every x that is not
0 at some unknown pixel. -/
theorem C19_matrix_symmetric_negative_semidefinite (width height n : Nat) (img : List Rat)
    (ids : List Int) (N : Numbered width height img ids n)
    (_hlab : ∀ v ∈ img, v = -1 ∨ v = 0 ∨ v = 1 / 2 ∨ v = 1) :
    ∃ coefs b, init width height img ids n = some (coefs, b) ∧
      (∀ i j, entry coefs i j = entry coefs j i) ∧
      (∀ p, Unknown width height img p →
        entry coefs (idOf width ids p) (idOf width ids p) =
          -(neighCount width height img p : Rat)) ∧
      (∀ x : Int → Rat, quadForm coefs x ≤ 0) ∧
      ((∀ p, Unknown width height img p → Anchored width height img p) →
        ∀ x : Int → Rat, (∃ p, Unknown width height img p ∧ x (idOf width ids p) ≠ 0) →
          quadForm coefs x < 0) := by
  obtain ⟨he, _⟩ := init_eq width height n img ids N
  obtain ⟨coefs1, b1, he1, hrows⟩ := init_rows width height n img ids N
  rw [he] at he1
  have hc1 := Option.some.inj he1
  refine ⟨_, _, he, entry_symm width height n img ids, ?_,
    quadForm_nonpos width height n img ids, ?_⟩
  · intro p hp
    rw [hc1]
    exact (hrows p hp).1
  · intro hall x hx
    obtain ⟨p, hp, hne⟩ := hx
    by_contra hlt
    exact hne (anchored_zero width height n img ids x (not_lt.1 hlt) p (hall p hp))

theorem C19_witness :
    ∃ coefs b, init 2 1 smallImg smallIds 1 = some (coefs, b) ∧
      (∀ i j, entry coefs i j = entry coefs j i) ∧
      (∀ p, Unknown 2 1 smallImg p →
        entry coefs (idOf 2 smallIds p) (idOf 2 smallIds p) =
          -(neighCount 2 1 smallImg p : Rat)) ∧
      (∀ x : Int → Rat, quadForm coefs x ≤ 0) ∧
      ((∀ p, Unknown 2 1 smallImg p → Anchored 2 1 smallImg p) →
        ∀ x : Int → Rat, (∃ p, Unknown 2 1 smallImg p ∧ x (idOf 2 smallIds p) ≠ 0) →
          quadForm coefs x < 0) ∧
      ∀ p, Unknown 2 1 smallImg p → Anchored 2 1 smallImg p := by
  obtain ⟨coefs, b, h1, h2, h3, h4, h5⟩ :=
    C19_matrix_symmetric_negative_semidefinite 2 1 1 smallImg smallIds small_numbered
      small_labels
  exact ⟨coefs, b, h1, h2, h3, h4, h5, small_anchored⟩

end Matrices


/-! ## C39: the pixels that `scaleUp` excludes and the pixels that it fills -/

namespace ShapeFill

/-- With the rational arithmetic, `scaleUpIn` is `scaleUp`. -/
theorem scaleUpValueIn_rational (scaled : List Rat) (width scaledWidth w h : Int)
    (img : List Rat) :
    scaleUpValueIn rationalBlend scaled width scaledWidth w h img =
      scaleUpValue scaled width scaledWidth w h img := by
  unfold scaleUpValueIn scaleUpValue clamped
  cases at? img (w + h * width) with
  | none => rfl
  | some v =>
    dsimp only
    by_cases hv : v = 0
    · have h1 : ¬ (rationalBlend.isZero v = false) := by
        unfold rationalBlend
        simp only [decide_eq_false_iff_not, not_not]
        exact hv
      rw [if_neg h1, if_neg (not_not.2 hv)]
      cases at? scaled (toInt ((w : Rat) / scale) + toInt ((h : Rat) / scale) * scaledWidth)
        <;> cases at? scaled
          (toInt ((w : Rat) / scale) + toInt ((h : Rat) / scale) * scaledWidth + 1)
        <;> cases at? scaled
          (toInt ((w : Rat) / scale) + toInt ((h : Rat) / scale) * scaledWidth + scaledWidth)
        <;> cases at? scaled
          (toInt ((w : Rat) / scale) + toInt ((h : Rat) / scale) * scaledWidth + 1 +
            scaledWidth)
        <;> rfl
    · have h1 : rationalBlend.isZero v = false := by
        unfold rationalBlend
        simp only [decide_eq_false_iff_not]
        exact hv
      rw [if_pos h1, if_pos hv]
      rfl

theorem scaleUpIn_rational (img scaled : List Rat) (width height scaledWidth : Int) :
    scaleUpIn rationalBlend img scaled width height scaledWidth =
      scaleUp img scaled width height scaledWidth := by
  unfold scaleUpIn scaleUp
  congr 1
  funext w h buf
  exact scaleUpValueIn_rational scaled width scaledWidth w h buf

end ShapeFill
